import Mathlib

/-!
# Wukong graph store: a shallow embedding of `core/gstore.hpp`

The hash index (`insert_key`, `get_vertex_local`), the static edge allocator
(`alloc_edges`), the bulk loader (`insert_normal`, `insert_index`) and the online
inserts (`insert_triple_out`, `insert_triple_in`) are translated to pure functions
on an explicit store state.

Conventions of the embedding.

* Machine words are natural numbers; a bit-field assignment is a reduction
  modulo the field width, and the constructors that assert "no truncation"
  return `Outcome.abort` when the assertion fails.
* `vertices` and `edges` are total maps from indices to cells.  The C++ arrays
  have `num_slots` and `num_entries` cells; an access past the end does not
  occur in a well-formed store (this is part of what is proved).
* An `ASSERT` that fails is `Outcome.abort`.  Unbounded loops carry a fuel
  argument, and running out of fuel is `Outcome.nofuel`.
* `mymath::hash_u64` lives in a header that is not part of the sources at hand;
  it is a parameter `hash_u64 : Nat → Nat` of every function that hashes.
-/

namespace Wukong

/-! ## Basic types -/

/-- Result of running a piece of the store: a value, a failed `ASSERT`, or
an exhausted loop budget. -/
inductive Outcome (α : Type) where
  | ok (a : α) : Outcome α
  | abort : Outcome α
  | nofuel : Outcome α
deriving DecidableEq, Repr

/-- Sequencing of outcomes. -/
def Outcome.bind {α β : Type} (x : Outcome α) (f : α → Outcome β) : Outcome β :=
  match x with
  | .ok a => f a
  | .abort => .abort
  | .nofuel => .nofuel

def NBITS_DIR : Nat := 1
def NBITS_IDX : Nat := 17
def NBITS_VID : Nat := 64 - NBITS_IDX - NBITS_DIR

def PREDICATE_ID : Nat := 0
def TYPE_ID : Nat := 1

/-- Directions `enum dir_t { IN = 0, OUT, CORUN }`. -/
def IN : Nat := 0
def OUT : Nat := 1
def CORUN : Nat := 2

def ASSOCIATIVITY : Nat := 8

/-- `is_tpid(id)`: `(id > 1) && (id < (1 << NBITS_IDX))`.  The parameter has
the signed type `ssid_t`; the callers pass a `pid` field of 17 bits or a value
of `sid_t`, and for these the conversion does not change the result: a value
that turns negative is no type or predicate id before the conversion either. -/
def is_tpid (id : Nat) : Bool := decide (1 < id) && decide (id < 2 ^ NBITS_IDX)

/-- `is_vid(id)`: `id >= (1 << NBITS_IDX)`.  The parameter has the signed type
`ssid_t`, which is `int32_t` in the default build: the argument is reduced to
32 bits, and a value from `2 ^ 31` on is negative there, so that the comparison
fails for it. -/
def is_vid (id : Nat) : Bool :=
  decide (2 ^ NBITS_IDX ≤ id % 2 ^ 32) && decide (id % 2 ^ 32 < 2 ^ 31)

/-- The packed key `vid | pid | dir`. -/
structure ikey_t where
  vid : Nat
  pid : Nat
  dir : Nat
deriving DecidableEq, Repr

/-- Default constructor `ikey_t()`: the all-zero key. -/
def ikey_t.zero : ikey_t := ⟨0, 0, 0⟩

/-- Constructor `ikey_t(v, p, d)`: the bit-fields are assigned and the
constructor asserts that no field was truncated. -/
def ikey_t.make (v p d : Nat) : Outcome ikey_t :=
  let k : ikey_t := ⟨v % 2 ^ NBITS_VID, p % 2 ^ NBITS_IDX, d % 2 ^ NBITS_DIR⟩
  if k.vid = v ∧ k.dir = d ∧ k.pid = p then .ok k else .abort

/-- Member `is_empty()`. -/
def ikey_t.is_empty (k : ikey_t) : Bool :=
  decide (k.vid = 0) && decide (k.pid = 0) && decide (k.dir = 0)

/-- The word that `hash()` scrambles, computed in 64-bit arithmetic. -/
def ikey_t.packed (k : ikey_t) : Nat :=
  let r := (0 + k.vid) % 2 ^ 64
  let r := (r * 2 ^ NBITS_IDX) % 2 ^ 64
  let r := (r + k.pid) % 2 ^ 64
  let r := (r * 2 ^ NBITS_DIR) % 2 ^ 64
  (r + k.dir) % 2 ^ 64

/-- Member `hash()`: `mymath::hash_u64` of the packed word. -/
def ikey_t.hash (hash_u64 : Nat → Nat) (k : ikey_t) : Nat := hash_u64 k.packed

def NBITS_SIZE : Nat := 28
def NBITS_PTR : Nat := 34
def NBITS_TYPE : Nat := 2

/-- The packed value pointer `size | off | type`. -/
structure iptr_t where
  size : Nat
  off : Nat
  type : Nat
deriving DecidableEq, Repr

/-- Default constructor `iptr_t()`. -/
def iptr_t.zero : iptr_t := ⟨0, 0, 0⟩

/-- Constructor `iptr_t(s, o, t)` with its no-truncation assertion. -/
def iptr_t.make (s o t : Nat) : Outcome iptr_t :=
  let p : iptr_t := ⟨s % 2 ^ NBITS_SIZE, o % 2 ^ NBITS_PTR, t % 2 ^ NBITS_TYPE⟩
  if p.size = s ∧ p.off = o ∧ p.type = t then .ok p else .abort

/-- A slot: key and value pointer. -/
structure vertex_t where
  key : ikey_t
  ptr : iptr_t
deriving DecidableEq, Repr

/-- Default constructor `vertex_t()`. -/
def vertex_t.zero : vertex_t := ⟨ikey_t.zero, iptr_t.zero⟩

/-- A triple of the input streams. -/
structure triple_t where
  s : Nat
  p : Nat
  o : Nat
deriving DecidableEq, Repr

/-! ## The store state -/

/-- The fields of `GStore` that the hash index and the static allocator use. -/
structure GStore where
  vertices : Nat → vertex_t
  edges : Nat → Nat
  num_slots : Nat
  num_buckets : Nat
  num_buckets_ext : Nat
  last_ext : Nat
  num_entries : Nat
  last_entry : Nat

/-- Assignment `vertices[i].key = k`. -/
def GStore.set_key (g : GStore) (i : Nat) (k : ikey_t) : GStore :=
  { g with vertices := fun j => if j = i then { g.vertices i with key := k } else g.vertices j }

/-- Assignment `vertices[i].ptr = p`. -/
def GStore.set_ptr (g : GStore) (i : Nat) (p : iptr_t) : GStore :=
  { g with vertices := fun j => if j = i then { g.vertices i with ptr := p } else g.vertices j }

/-- Assignment `edges[i].val = v`. -/
def GStore.set_edge (g : GStore) (i : Nat) (v : Nat) : GStore :=
  { g with edges := fun j => if j = i then v else g.edges j }

/-- A store as the constructor leaves it, before `refresh`. -/
def GStore.init (vs : Nat → vertex_t) (es : Nat → Nat)
    (num_slots num_buckets num_buckets_ext num_entries : Nat) : GStore :=
  { vertices := vs, edges := es, num_slots := num_slots, num_buckets := num_buckets,
    num_buckets_ext := num_buckets_ext, last_ext := 0, num_entries := num_entries,
    last_entry := 0 }

/-- Method `refresh()`: every slot is cleared and both cursors are reset. -/
def refresh (g : GStore) : GStore :=
  { g with
    vertices := fun i => if i < g.num_slots then vertex_t.zero else g.vertices i
    last_ext := 0
    last_entry := 0 }

/-! ## Hash index -/

/-- What the inner `for` loop over the data slots of one bucket finds. -/
inductive Probe where
  | dup (slot_id : Nat) : Probe
  | empty (slot_id : Nat) : Probe
  | full (slot_id : Nat) : Probe
deriving DecidableEq, Repr

/-- The inner loop of `insert_key` and `check_key_exist`:
`for (i = 0; i < ASSOCIATIVITY - 1; i++, slot_id++)`, leaving at the first slot
that holds `key` or is empty; `n` is the number of iterations left. -/
def probe_bucket (g : GStore) (key : ikey_t) : Nat → Nat → Probe
  | 0, slot_id => .full slot_id
  | n + 1, slot_id =>
    if (g.vertices slot_id).key = key then .dup slot_id
    else if (g.vertices slot_id).key.is_empty then .empty slot_id
    else probe_bucket g key n (slot_id + 1)

/-- The code after label `done:` of `insert_key`: two assertions, then the slot
id is returned. -/
def insert_key_done (key : ikey_t) (g : GStore) (slot_id : Nat) : Outcome (Nat × GStore) :=
  if slot_id < g.num_slots ∧ (g.vertices slot_id).key = key then .ok (slot_id, g) else .abort

/-- The tail of `insert_key` that allocates and links a new indirect header
(the store is known not to be full): the chain link at `slot_id` receives the
new bucket id, `last_ext` is bumped, and the key goes into the first slot of
the new bucket.  Returns the new slot id and the new state. -/
def GStore.alloc_ext (g : GStore) (slot_id : Nat) (key : ikey_t) : Nat × GStore :=
  let link := (g.num_buckets + g.last_ext) % 2 ^ NBITS_VID
  let g1 := { g.set_key slot_id { (g.vertices slot_id).key with vid := link } with
              last_ext := g.last_ext + 1 }
  let s1 := (g1.vertices slot_id).key.vid * ASSOCIATIVITY
  (s1, g1.set_key s1 key)

/-- The `while (slot_id < num_slots)` loop of `insert_key`; one unit of fuel per
bucket visited. -/
def insert_key_loop (key : ikey_t) (check_dup : Bool) : Nat → GStore → Nat → Outcome (Nat × GStore)
  | 0, _, _ => .nofuel
  | fuel + 1, g, slot_id =>
    if slot_id < g.num_slots then
      match probe_bucket g key (ASSOCIATIVITY - 1) slot_id with
      | .dup s => if check_dup then .abort else insert_key_done key g s
      | .empty s => insert_key_done key (g.set_key s key) s
      | .full s =>
        if ¬ (g.vertices s).key.is_empty then
          insert_key_loop key check_dup fuel g ((g.vertices s).key.vid * ASSOCIATIVITY)
        else if g.last_ext ≥ g.num_buckets_ext then .abort
        else insert_key_done key (g.alloc_ext s key).2 (g.alloc_ext s key).1
    else insert_key_done key g slot_id

/-- Method `insert_key(key, check_dup)`.  The loop budget is the number of
buckets a chain can have, `1 + last_ext`. -/
def insert_key (hash_u64 : Nat → Nat) (g : GStore) (key : ikey_t) (check_dup : Bool) :
    Outcome (Nat × GStore) :=
  let bucket_id := key.hash hash_u64 % g.num_buckets
  insert_key_loop key check_dup (g.last_ext + 1) g (bucket_id * ASSOCIATIVITY)

/-- The data part of the `for` loop of `get_vertex_local`: the first of the
`n` slots from `slot_id` on whose key is `key`. -/
def find_in_bucket (g : GStore) (key : ikey_t) : Nat → Nat → Option Nat
  | 0, _ => none
  | n + 1, slot_id =>
    if (g.vertices slot_id).key = key then some slot_id
    else find_in_bucket g key n (slot_id + 1)

/-- The `while (true)` loop of `get_vertex_local`, returning the slot id of the
hit (`none` for "not found"); one unit of fuel per bucket. -/
def get_slot_local_loop (key : ikey_t) (g : GStore) : Nat → Nat → Outcome (Option Nat)
  | 0, _ => .nofuel
  | fuel + 1, bucket_id =>
    match find_in_bucket g key (ASSOCIATIVITY - 1) (bucket_id * ASSOCIATIVITY) with
    | some s => .ok (some s)
    | none =>
      let slot_id := bucket_id * ASSOCIATIVITY + (ASSOCIATIVITY - 1)
      if (g.vertices slot_id).key.is_empty then .ok none
      else get_slot_local_loop key g fuel (g.vertices slot_id).key.vid

/-- The slot at which `get_vertex_local` finds the key, if any. -/
def get_slot_local (hash_u64 : Nat → Nat) (g : GStore) (key : ikey_t) : Outcome (Option Nat) :=
  get_slot_local_loop key g (g.last_ext + 1) (key.hash hash_u64 % g.num_buckets)

/-- Method `get_vertex_local(tid, key)`: a copy of the slot that holds `key`, or
`vertex_t()` when the chain ends without a hit. -/
def get_vertex_local (hash_u64 : Nat → Nat) (g : GStore) (key : ikey_t) : Outcome vertex_t :=
  (get_slot_local hash_u64 g key).bind fun r =>
    match r with
    | some s => .ok (g.vertices s)
    | none => .ok vertex_t.zero

/-- The edge values `edges[off], …, edges[off + n - 1]`. -/
def GStore.read_edges (g : GStore) (off n : Nat) : List Nat :=
  (List.range n).map fun i => g.edges (off + i)

/-- Method `get_edges_local(tid, vid, d, pid, &sz)`: the size written to `sz` and
the edges behind the returned pointer (`none` for `NULL`). -/
def get_edges_local (hash_u64 : Nat → Nat) (g : GStore) (vid d pid : Nat) :
    Outcome (Nat × Option (List Nat)) :=
  (ikey_t.make vid pid d).bind fun key =>
  (get_vertex_local hash_u64 g key).bind fun v =>
    if v.key.is_empty then .ok (0, none)
    else .ok (v.ptr.size, some (g.read_edges v.ptr.off v.ptr.size))

/-! ## Well-formed index states -/

/-- The key stored in slot `j` of bucket `b`. -/
def GStore.key_at (g : GStore) (b j : Nat) : ikey_t :=
  (g.vertices (b * ASSOCIATIVITY + j)).key

/-- The chain link of bucket `b`: the key field of its last slot. -/
def GStore.link (g : GStore) (b : Nat) : ikey_t := g.key_at b (ASSOCIATIVITY - 1)

/-- Number of buckets in use: the main region and the allocated indirect ones. -/
def GStore.used (g : GStore) : Nat := g.num_buckets + g.last_ext

/-- The main bucket of a key. -/
def home (hash_u64 : Nat → Nat) (g : GStore) (key : ikey_t) : Nat :=
  key.hash hash_u64 % g.num_buckets

/-- Bucket `c` is reached from bucket `b` by following chain links. -/
inductive OnChain (g : GStore) : Nat → Nat → Prop
  | refl (b : Nat) : OnChain g b b
  | head {b c : Nat} : g.link b ≠ ikey_t.zero → OnChain g (g.link b).vid c → OnChain g b c

/-- Loop budget left when the probe stands at bucket `b`. -/
def GStore.budget (g : GStore) (b : Nat) : Nat :=
  if b < g.num_buckets then g.last_ext + 1 else g.used - b

/-- The structural invariant of the index region. -/
structure WF (hash_u64 : Nat → Nat) (g : GStore) : Prop where
  nb_pos : 0 < g.num_buckets
  ext_le : g.last_ext ≤ g.num_buckets_ext
  fits : (g.num_buckets + g.num_buckets_ext) * ASSOCIATIVITY ≤ g.num_slots
  small : g.num_buckets + g.num_buckets_ext ≤ 2 ^ NBITS_VID
  fresh : ∀ b j, g.used ≤ b → b < g.num_buckets + g.num_buckets_ext → j < ASSOCIATIVITY →
    g.key_at b j = ikey_t.zero
  link_ok : ∀ b, b < g.used → g.link b ≠ ikey_t.zero →
    (g.link b).pid = 0 ∧ (g.link b).dir = 0 ∧ b < (g.link b).vid ∧
      g.num_buckets ≤ (g.link b).vid ∧ (g.link b).vid < g.used
  link_full : ∀ b j, b < g.used → g.link b ≠ ikey_t.zero → j < ASSOCIATIVITY - 1 →
    g.key_at b j ≠ ikey_t.zero
  pfx : ∀ b i j, b < g.used → i < j → j < ASSOCIATIVITY - 1 →
    g.key_at b j ≠ ikey_t.zero → g.key_at b i ≠ ikey_t.zero
  placed : ∀ b j, b < g.used → j < ASSOCIATIVITY - 1 → g.key_at b j ≠ ikey_t.zero →
    OnChain g (home hash_u64 g (g.key_at b j)) b
  nodup : ∀ b j c i, b < g.used → c < g.used → j < ASSOCIATIVITY - 1 → i < ASSOCIATIVITY - 1 →
    g.key_at b j ≠ ikey_t.zero → g.key_at b j = g.key_at c i → b = c ∧ j = i

/-- The static configuration a store is created with. -/
structure Config (g : GStore) : Prop where
  nb_pos : 0 < g.num_buckets
  fits : (g.num_buckets + g.num_buckets_ext) * ASSOCIATIVITY ≤ g.num_slots
  small : g.num_buckets + g.num_buckets_ext ≤ 2 ^ NBITS_VID

/-- The key occurs nowhere among the data slots of the buckets in use. -/
def GStore.lacks (g : GStore) (key : ikey_t) : Prop :=
  ∀ c j, c < g.used → j < ASSOCIATIVITY - 1 → g.key_at c j ≠ key

/-- The possible results of `insert_key` on a well-formed store. -/
inductive InsertRes (hash_u64 : Nat → Nat) (g : GStore) (key : ikey_t) (check_dup : Bool) :
    Outcome (Nat × GStore) → Prop
  | dup_abort (c j : Nat) : check_dup = true → c < g.used → j < ASSOCIATIVITY - 1 →
      g.key_at c j = key → InsertRes hash_u64 g key check_dup .abort
  | full_abort (c : Nat) : c < g.used → OnChain g (home hash_u64 g key) c →
      g.link c = ikey_t.zero → (∀ j, j < ASSOCIATIVITY - 1 → g.key_at c j ≠ ikey_t.zero) →
      g.num_buckets_ext ≤ g.last_ext → (key ≠ ikey_t.zero → g.lacks key) →
      InsertRes hash_u64 g key check_dup .abort
  | found (c j : Nat) : check_dup = false → c < g.used → j < ASSOCIATIVITY - 1 →
      g.key_at c j = key → InsertRes hash_u64 g key check_dup (.ok (c * ASSOCIATIVITY + j, g))
  | fill (c j : Nat) : c < g.used → j < ASSOCIATIVITY - 1 → g.key_at c j = ikey_t.zero →
      (∀ i, i < j → g.key_at c i ≠ ikey_t.zero) → key ≠ ikey_t.zero → g.lacks key →
      OnChain g (home hash_u64 g key) c →
      InsertRes hash_u64 g key check_dup
        (.ok (c * ASSOCIATIVITY + j, g.set_key (c * ASSOCIATIVITY + j) key))
  | grow (c : Nat) : c < g.used → OnChain g (home hash_u64 g key) c →
      g.link c = ikey_t.zero → (∀ j, j < ASSOCIATIVITY - 1 → g.key_at c j ≠ ikey_t.zero) →
      g.last_ext < g.num_buckets_ext → (key ≠ ikey_t.zero → g.lacks key) →
      InsertRes hash_u64 g key check_dup
        (.ok (g.alloc_ext (c * ASSOCIATIVITY + (ASSOCIATIVITY - 1)) key))

/-- The store states reached from `refresh()` by successful `insert_key` calls,
with the log of the calls: the key given and the slot id returned. -/
inductive Trace (hash_u64 : Nat → Nat) (g0 : GStore) : List (ikey_t × Nat) → GStore → Prop
  | init : Trace hash_u64 g0 [] (refresh g0)
  | step {log : List (ikey_t × Nat)} {g g2 : GStore} (key : ikey_t) (check_dup : Bool)
      (s : Nat) : Trace hash_u64 g0 log g →
      insert_key hash_u64 g key check_dup = .ok (s, g2) →
      Trace hash_u64 g0 ((key, s) :: log) g2

/-! ## A small concrete store -/

/-- A stand-in for `mymath::hash_u64` in the concrete examples: the identity
on 64-bit words. -/
def demo_hash : Nat → Nat := fun x => x % 2 ^ 64

/-- A store of 512 slots: 5 main buckets, 59 indirect buckets, 1000 edge cells. -/
def demo_store : GStore :=
  GStore.init (fun _ => vertex_t.zero) (fun _ => 0) 512 5 59 1000

/-- The key `(131072, 3, OUT)`. -/
def demo_key : ikey_t := ⟨131072, 3, OUT⟩

/-! ## Static edge allocator and bulk load -/

/-- Method `alloc_edges(n, tid)` of the static build: a bump allocator over
the entry region; the cursor is a 64-bit word. -/
def alloc_edges (g : GStore) (n : Nat) : Outcome (Nat × GStore) :=
  let orig := g.last_entry
  let g1 := { g with last_entry := (g.last_entry + n) % 2 ^ 64 }
  if g1.last_entry ≥ g1.num_entries then .abort else .ok (orig, g1)

/-- The loop `for (...) edges[off++].val = v` over a list of values. -/
def write_edges (g : GStore) : Nat → List Nat → GStore
  | _, [] => g
  | off, v :: vs => write_edges (g.set_edge off v) (off + 1) vs

/-- The block that the bulk loader repeats for every key it creates
("allocate a vertex and edges", "insert a vertex", "insert edges"): construct
the key, `alloc_edges(sz)`, `insert_key(key)` with the default
`check_dup = true`, `vertices[slot_id].ptr = iptr_t(sz, off)`, then write the
values.  In `insert_index_map` and `insert_index_set` the allocation precedes
the construction of the key; both orders abort in the same cases. -/
def insert_list (hash_u64 : Nat → Nat) (g : GStore) (vid pid d : Nat) (vals : List Nat) :
    Outcome GStore :=
  (ikey_t.make vid pid d).bind fun key =>
  (alloc_edges g vals.length).bind fun r1 =>
  (insert_key hash_u64 r1.2 key true).bind fun r2 =>
  (iptr_t.make vals.length r1.1 0).bind fun ptr =>
  .ok (write_edges (r2.2.set_ptr r2.1 ptr) r1.1 vals)

/-- Element `v[i]` of a stream. -/
def triple_at (v : List triple_t) (i : Nat) : triple_t := v.getD i ⟨0, 0, 0⟩

/-- The leading loop of `insert_normal`:
`while (type_triples < ops.size() && is_tpid(ops[type_triples].o)) type_triples++`. -/
def skip_type_triples (ops : List triple_t) : Nat → Nat → Nat
  | 0, type_triples => type_triples
  | fuel + 1, type_triples =>
    if type_triples < ops.length ∧ is_tpid (triple_at ops type_triples).o = true then
      skip_type_triples ops fuel (type_triples + 1)
    else type_triples

/-- The inner loop of the first pass:
`while (e < spo.size() && spo[s].s == spo[e].s && spo[s].p == spo[e].p) e++`. -/
def run_end_spo (spo : List triple_t) (s : Nat) : Nat → Nat → Nat
  | 0, e => e
  | fuel + 1, e =>
    if e < spo.length ∧ (triple_at spo s).s = (triple_at spo e).s
        ∧ (triple_at spo s).p = (triple_at spo e).p then
      run_end_spo spo s fuel (e + 1)
    else e

/-- The inner loop of the second pass:
`while (e < ops.size() && ops[s].o == ops[e].o && ops[s].p == ops[e].p) e++`. -/
def run_end_ops (ops : List triple_t) (s : Nat) : Nat → Nat → Nat
  | 0, e => e
  | fuel + 1, e =>
    if e < ops.length ∧ (triple_at ops s).o = (triple_at ops e).o
        ∧ (triple_at ops s).p = (triple_at ops e).p then
      run_end_ops ops s fuel (e + 1)
    else e

/-- The values `f v[s], …, f v[e-1]`. -/
def slice_map (v : List triple_t) (f : triple_t → Nat) (s e : Nat) : List Nat :=
  (List.range (e - s)).map fun i => f (triple_at v (s + i))

/-- The first pass of `insert_normal`, `while (s < spo.size())`: one key
`(s, p, OUT)` per run; with `VERSATILE`, the predicates of a subject are
collected and flushed to `(s, PREDICATE_ID, OUT)` at the last run of the
subject. -/
def insert_normal_spo (hash_u64 : Nat → Nat) (versatile : Bool) (spo : List triple_t) :
    Nat → GStore → List Nat → Nat → Outcome (GStore × List Nat)
  | 0, _, _, _ => .nofuel
  | fuel + 1, g, predicates, s =>
    if s < spo.length then
      let e := run_end_spo spo s spo.length (s + 1)
      (insert_list hash_u64 g (triple_at spo s).s (triple_at spo s).p OUT
        (slice_map spo (fun t => t.o) s e)).bind fun g1 =>
      if versatile then
        let predicates := predicates ++ [(triple_at spo s).p]
        if e ≥ spo.length ∨ (triple_at spo s).s ≠ (triple_at spo e).s then
          (insert_list hash_u64 g1 (triple_at spo s).s PREDICATE_ID OUT predicates).bind
            fun g2 => insert_normal_spo hash_u64 versatile spo fuel g2 [] e
        else insert_normal_spo hash_u64 versatile spo fuel g1 predicates e
      else insert_normal_spo hash_u64 versatile spo fuel g1 predicates e
    else .ok (g, predicates)

/-- The second pass of `insert_normal`, `while (s < ops.size())`, started behind
the type triples: one key `(o, p, IN)` per run. -/
def insert_normal_ops (hash_u64 : Nat → Nat) (versatile : Bool) (ops : List triple_t) :
    Nat → GStore → List Nat → Nat → Outcome (GStore × List Nat)
  | 0, _, _, _ => .nofuel
  | fuel + 1, g, predicates, s =>
    if s < ops.length then
      let e := run_end_ops ops s ops.length (s + 1)
      (insert_list hash_u64 g (triple_at ops s).o (triple_at ops s).p IN
        (slice_map ops (fun t => t.s) s e)).bind fun g1 =>
      if versatile then
        let predicates := predicates ++ [(triple_at ops s).p]
        if e ≥ ops.length ∨ (triple_at ops s).o ≠ (triple_at ops e).o then
          (insert_list hash_u64 g1 (triple_at ops s).o PREDICATE_ID IN predicates).bind
            fun g2 => insert_normal_ops hash_u64 versatile ops fuel g2 [] e
        else insert_normal_ops hash_u64 versatile ops fuel g1 predicates e
      else insert_normal_ops hash_u64 versatile ops fuel g1 predicates e
    else .ok (g, predicates)

/-- Method `insert_normal(spo, ops, tid)`; `versatile` is the compile-time switch
`VERSATILE`. -/
def insert_normal (hash_u64 : Nat → Nat) (versatile : Bool) (g : GStore)
    (spo ops : List triple_t) : Outcome GStore :=
  let type_triples := skip_type_triples ops ops.length 0
  (insert_normal_spo hash_u64 versatile spo (spo.length + 1) g [] 0).bind fun r1 =>
  (insert_normal_ops hash_u64 versatile ops (ops.length + 1) r1.1 r1.2 type_triples).bind
    fun r2 => .ok r2.1

/-- A `tbb_hash_map` from ids to id vectors, as an association list in the
order in which the keys were first inserted. -/
abbrev tbb_hash_map := List (Nat × List Nat)

/-- The pair `map.insert(a, k); a->second.push_back(v)`. -/
def map_push (m : tbb_hash_map) (k v : Nat) : tbb_hash_map :=
  match m with
  | [] => [(k, [v])]
  | (k1, l) :: rest => if k1 = k then (k1, l ++ [v]) :: rest else (k1, l) :: map_push rest k v

/-- Call `set.insert(v)` on a `tbb_unordered_set`, kept as a duplicate-free list. -/
def set_insert (s : List Nat) (v : Nat) : List Nat := if v ∈ s then s else s ++ [v]

/-- The maps and sets that the scan of `insert_index` fills. -/
structure IndexMaps where
  pidx_in_map : tbb_hash_map
  pidx_out_map : tbb_hash_map
  tidx_map : tbb_hash_map
  v_set : List Nat
  t_set : List Nat
  p_set : List Nat

/-- The body of the scan for one occupied slot. -/
def scan_slot (versatile : Bool) (g : GStore) (m : IndexMaps) (slot_id : Nat) :
    Outcome IndexMaps :=
  let vid := (g.vertices slot_id).key.vid
  let pid := (g.vertices slot_id).key.pid
  let sz := (g.vertices slot_id).ptr.size
  let off := (g.vertices slot_id).ptr.off
  if (g.vertices slot_id).key.dir = IN then
    if pid = PREDICATE_ID then
      if versatile then
        .ok { m with v_set := set_insert m.v_set vid
                     p_set := (g.read_edges off sz).foldl set_insert m.p_set }
      else .ok m
    else if pid = TYPE_ID then .abort
    else .ok { m with pidx_out_map := map_push m.pidx_out_map pid vid }
  else
    if pid = PREDICATE_ID then
      if versatile then
        .ok { m with v_set := set_insert m.v_set vid
                     p_set := (g.read_edges off sz).foldl set_insert m.p_set }
      else .ok m
    else if pid = TYPE_ID then
      let m1 := if versatile then { m with v_set := set_insert m.v_set vid } else m
      .ok ((g.read_edges off sz).foldl
        (fun a t => { a with tidx_map := map_push a.tidx_map t vid
                             t_set := if versatile then set_insert a.t_set t else a.t_set })
        m1)
    else .ok { m with pidx_in_map := map_push m.pidx_in_map pid vid }

/-- The inner loop of the scan over the data slots of one bucket, which stops
at the first empty slot; `n` is the number of iterations left. -/
def scan_bucket (versatile : Bool) (g : GStore) : Nat → Nat → IndexMaps → Outcome IndexMaps
  | 0, _, m => .ok m
  | n + 1, slot_id, m =>
    if (g.vertices slot_id).key.is_empty then .ok m
    else (scan_slot versatile g m slot_id).bind fun m1 =>
      scan_bucket versatile g n (slot_id + 1) m1

/-- The scan `for (bucket_id = 0; bucket_id < num_buckets + last_ext; bucket_id++)`
of `insert_index`, run in bucket order (the source runs it as a parallel loop
over concurrent containers, so the order inside each collected vector depends
on the schedule; this is the sequential schedule).  `n` buckets are left. -/
def scan_buckets (versatile : Bool) (g : GStore) : Nat → Nat → IndexMaps → Outcome IndexMaps
  | 0, _, m => .ok m
  | n + 1, bucket_id, m =>
    (scan_bucket versatile g (ASSOCIATIVITY - 1) (bucket_id * ASSOCIATIVITY) m).bind fun m1 =>
      scan_buckets versatile g n (bucket_id + 1) m1

/-- Method `insert_index_map(map, d)`. -/
def insert_index_map (hash_u64 : Nat → Nat) (g : GStore) (map : tbb_hash_map) (d : Nat) :
    Outcome GStore :=
  match map with
  | [] => .ok g
  | (pid, l) :: rest =>
    (insert_list hash_u64 g 0 pid d l).bind fun g1 => insert_index_map hash_u64 g1 rest d

/-- Method `insert_index_set(set, tpid, d)`. -/
def insert_index_set (hash_u64 : Nat → Nat) (g : GStore) (set : List Nat) (tpid d : Nat) :
    Outcome GStore :=
  insert_list hash_u64 g 0 tpid d set

/-- Method `insert_index()`. -/
def insert_index (hash_u64 : Nat → Nat) (versatile : Bool) (g : GStore) : Outcome GStore :=
  (scan_buckets versatile g (g.num_buckets + g.last_ext) 0 ⟨[], [], [], [], [], []⟩).bind fun m =>
  (insert_index_map hash_u64 g m.tidx_map IN).bind fun g1 =>
  (insert_index_map hash_u64 g1 m.pidx_in_map IN).bind fun g2 =>
  (insert_index_map hash_u64 g2 m.pidx_out_map OUT).bind fun g3 =>
  if versatile then
    (insert_index_set hash_u64 g3 m.v_set TYPE_ID IN).bind fun g4 =>
    (insert_index_set hash_u64 g4 m.t_set TYPE_ID OUT).bind fun g5 =>
    insert_index_set hash_u64 g5 m.p_set PREDICATE_ID OUT
  else .ok g3

/-- The bulk load: `refresh()`, `insert_normal(spo, ops)`, `insert_index()`. -/
def bulk_load (hash_u64 : Nat → Nat) (versatile : Bool) (g : GStore)
    (spo ops : List triple_t) : Outcome GStore :=
  (insert_normal hash_u64 versatile (refresh g) spo ops).bind fun g1 =>
    insert_index hash_u64 versatile g1

/-- The result of `get_edges_local` on the outcome of a load. -/
def lookup (hash_u64 : Nat → Nat) (g : Outcome GStore) (vid pid d : Nat) :
    Outcome (Nat × Option (List Nat)) :=
  g.bind fun g1 => get_edges_local hash_u64 g1 vid d pid

/-! ## Describing the result of a bulk load -/

/-- One execution of the block `insert_list`: the key fields and the values. -/
structure Put where
  vid : Nat
  pid : Nat
  d : Nat
  vals : List Nat
deriving DecidableEq, Repr

/-- The key that a `Put` creates. -/
def Put.key (p : Put) : ikey_t := ⟨p.vid, p.pid, p.d⟩

/-- A sequence of `insert_list` blocks. -/
def insert_lists (hash_u64 : Nat → Nat) (g : GStore) : List Put → Outcome GStore
  | [] => .ok g
  | p :: ps =>
    (insert_list hash_u64 g p.vid p.pid p.d p.vals).bind fun g1 => insert_lists hash_u64 g1 ps

/-- Key `k` sits in a data slot of a bucket in use, and its value pointer
designates the list `vs` inside the allocated part of the entry region. -/
def Holds (g : GStore) (k : ikey_t) (vs : List Nat) : Prop :=
  ∃ c j off, c < g.used ∧ j < ASSOCIATIVITY - 1 ∧ g.key_at c j = k ∧
    (g.vertices (c * ASSOCIATIVITY + j)).ptr = ⟨vs.length, off, 0⟩ ∧
    off + vs.length ≤ g.last_entry ∧ g.read_edges off vs.length = vs

/-- The store holds exactly the key/value pairs of the list `L`. -/
structure Loaded (hash_u64 : Nat → Nat) (g : GStore) (L : List Put) : Prop where
  wf : WF hash_u64 g
  entry : g.last_entry = (L.map fun p => p.vals.length).sum
  holds : ∀ p, p ∈ L → Holds g p.key p.vals
  only : ∀ c j, c < g.used → j < ASSOCIATIVITY - 1 → g.key_at c j ≠ ikey_t.zero →
    ∃ p, p ∈ L ∧ p.key = g.key_at c j

/-- A `Put` whose key fields fit their bit-fields, with a non-empty key. -/
def Put.valid (p : Put) : Prop :=
  p.vid < 2 ^ NBITS_VID ∧ p.pid < 2 ^ NBITS_IDX ∧ p.d < 2 ^ NBITS_DIR ∧
    p.key ≠ ikey_t.zero

/-- Two stores with the same configuration. -/
def SameConfig (g g2 : GStore) : Prop :=
  g2.num_slots = g.num_slots ∧ g2.num_buckets = g.num_buckets ∧
    g2.num_buckets_ext = g.num_buckets_ext ∧ g2.num_entries = g.num_entries

/-- Total number of values of a list of `Put`s. -/
def total_vals (L : List Put) : Nat := (L.map fun p => p.vals.length).sum

/-- A list of `Put`s with valid and pairwise different keys. -/
structure Loadable (L : List Put) : Prop where
  valid : ∀ p, p ∈ L → p.valid
  distinct : L.Pairwise fun p q => p.key ≠ q.key

/-- Room in store `g` for the `Put`s of `P`: an indirect bucket and a block of
entries for each, every list short enough for the size field of a pointer. -/
structure Fits (g : GStore) (P : List Put) : Prop where
  buckets : g.last_ext + P.length ≤ g.num_buckets_ext
  entries : g.last_entry + total_vals P < g.num_entries
  ptr : g.num_entries ≤ 2 ^ NBITS_PTR
  size : ∀ p, p ∈ P → p.vals.length < 2 ^ NBITS_SIZE

/-! ## The two passes of `insert_normal`, described by the keys they create -/

/-- The inner loop of a pass, for the vertex field `f` (`s` in the first pass,
`o` in the second). -/
def run_end (f : triple_t → Nat) (v : List triple_t) (s : Nat) : Nat → Nat → Nat
  | 0, e => e
  | fuel + 1, e =>
    if e < v.length ∧ f (triple_at v s) = f (triple_at v e)
        ∧ (triple_at v s).p = (triple_at v e).p then
      run_end f v s fuel (e + 1)
    else e

/-- A pass of `insert_normal` for vertex field `f`, value field `val` and
direction `d`. -/
def insert_pass (hash_u64 : Nat → Nat) (versatile : Bool) (f val : triple_t → Nat) (d : Nat)
    (v : List triple_t) : Nat → GStore → List Nat → Nat → Outcome (GStore × List Nat)
  | 0, _, _, _ => .nofuel
  | fuel + 1, g, predicates, s =>
    if s < v.length then
      let e := run_end f v s v.length (s + 1)
      (insert_list hash_u64 g (f (triple_at v s)) (triple_at v s).p d
        (slice_map v val s e)).bind fun g1 =>
      if versatile then
        let predicates := predicates ++ [(triple_at v s).p]
        if e ≥ v.length ∨ f (triple_at v s) ≠ f (triple_at v e) then
          (insert_list hash_u64 g1 (f (triple_at v s)) PREDICATE_ID d predicates).bind
            fun g2 => insert_pass hash_u64 versatile f val d v fuel g2 [] e
        else insert_pass hash_u64 versatile f val d v fuel g1 predicates e
      else insert_pass hash_u64 versatile f val d v fuel g1 predicates e
    else .ok (g, predicates)

/-- The `Put`s that a pass performs from index `s` on, and the predicates
left in the accumulator. -/
def plan_pass (versatile : Bool) (f val : triple_t → Nat) (d : Nat) (v : List triple_t) :
    Nat → List Nat → Nat → List Put × List Nat
  | 0, predicates, _ => ([], predicates)
  | fuel + 1, predicates, s =>
    if s < v.length then
      let e := run_end f v s v.length (s + 1)
      let p1 : Put := ⟨f (triple_at v s), (triple_at v s).p, d, slice_map v val s e⟩
      if versatile then
        let predicates := predicates ++ [(triple_at v s).p]
        if e ≥ v.length ∨ f (triple_at v s) ≠ f (triple_at v e) then
          (p1 :: ⟨f (triple_at v s), PREDICATE_ID, d, predicates⟩
              :: (plan_pass versatile f val d v fuel [] e).1,
            (plan_pass versatile f val d v fuel [] e).2)
        else
          (p1 :: (plan_pass versatile f val d v fuel predicates e).1,
            (plan_pass versatile f val d v fuel predicates e).2)
      else
        (p1 :: (plan_pass versatile f val d v fuel predicates e).1,
          (plan_pass versatile f val d v fuel predicates e).2)
    else ([], predicates)

/-- Positions `i` and `k` of the stream belong to the same key of a pass. -/
def same_run (f : triple_t → Nat) (v : List triple_t) (i k : Nat) : Prop :=
  f (triple_at v i) = f (triple_at v k) ∧ (triple_at v i).p = (triple_at v k).p

/-- The interval `[a, b)` is a maximal run of the stream for the pass with
vertex field `f`. -/
def MaxRun (f : triple_t → Nat) (v : List triple_t) (a b : Nat) : Prop :=
  a < b ∧ b ≤ v.length ∧ (∀ k, a ≤ k → k < b → same_run f v a k) ∧
    (a = 0 ∨ ¬ same_run f v a (a - 1)) ∧ (b = v.length ∨ ¬ same_run f v a b)

/-- What the `VERSATILE` block at the end of a run `[s, e)` does: the `Put` it
performs, if any, and the accumulator it leaves. -/
def flush (versatile : Bool) (f : triple_t → Nat) (d : Nat) (v : List triple_t)
    (predicates : List Nat) (s e : Nat) : List Put × List Nat :=
  if versatile then
    if e ≥ v.length ∨ f (triple_at v s) ≠ f (triple_at v e) then
      ([⟨f (triple_at v s), PREDICATE_ID, d, predicates ++ [(triple_at v s).p]⟩], [])
    else ([], predicates ++ [(triple_at v s).p])
  else ([], predicates)

/-- The stream `v` is a well-formed input of the pass with vertex field `f`
from position `s0` on: the vertex field is a vertex id, the predicate is a
non-zero id of the index range, and the positions are sorted by
(vertex field, predicate). -/
structure PassOK (f : triple_t → Nat) (v : List triple_t) (s0 : Nat) : Prop where
  ids : ∀ i, s0 ≤ i → i < v.length →
    2 ^ NBITS_IDX ≤ f (triple_at v i) ∧ f (triple_at v i) < 2 ^ NBITS_VID ∧
      (triple_at v i).p < 2 ^ NBITS_IDX ∧ (triple_at v i).p ≠ PREDICATE_ID
  sorted : ∀ i j, s0 ≤ i → i ≤ j → j < v.length →
    f (triple_at v i) < f (triple_at v j) ∨
      (f (triple_at v i) = f (triple_at v j) ∧ (triple_at v i).p ≤ (triple_at v j).p)

/-- The two kinds of `Put` of a pass started at `s` with accumulator
`predicates`: the values of a run, or the predicates of a vertex. -/
def PassPut (versatile : Bool) (f val : triple_t → Nat) (d : Nat) (v : List triple_t)
    (predicates : List Nat) (s : Nat) (p : Put) : Prop :=
  (∃ a b, s ≤ a ∧ a < b ∧ b ≤ v.length ∧ (∀ k, a ≤ k → k < b → same_run f v a k) ∧
    (b = v.length ∨ ¬ same_run f v a b) ∧
    p = ⟨f (triple_at v a), (triple_at v a).p, d, slice_map v val a b⟩) ∨
  (versatile = true ∧ ∃ a, s ≤ a ∧ a < v.length ∧ p.vid = f (triple_at v a) ∧
    p.pid = PREDICATE_ID ∧ p.d = d ∧ p.vals.length ≤ predicates.length + (a + 1 - s) ∧
    ∀ x, x ∈ p.vals → x ∈ predicates ∨ ∃ k, s ≤ k ∧ k < v.length ∧ x = (triple_at v k).p)

/-! ## Well-formed input streams -/

/-- Strict order of the stream `spo`: by subject, predicate, object. -/
def spo_lt (a b : triple_t) : Prop :=
  a.s < b.s ∨ (a.s = b.s ∧ (a.p < b.p ∨ (a.p = b.p ∧ a.o < b.o)))

/-- Strict order of the stream `ops`: by object, predicate, subject. -/
def ops_lt (a b : triple_t) : Prop :=
  a.o < b.o ∨ (a.o = b.o ∧ (a.p < b.p ∨ (a.p = b.p ∧ a.s < b.s)))

/-- A triple that follows the encoding rules: the subject is a vertex id; a
type triple has predicate `TYPE_ID` and a type id as object; any other triple
has a predicate id as predicate and a vertex id as object. -/
def triple_t.wellformed (t : triple_t) : Prop :=
  2 ^ NBITS_IDX ≤ t.s ∧ t.s < 2 ^ NBITS_VID ∧
    ((t.p = TYPE_ID ∧ is_tpid t.o = true) ∨
      (is_tpid t.p = true ∧ 2 ^ NBITS_IDX ≤ t.o ∧ t.o < 2 ^ NBITS_VID))

/-- The pair of streams the loader hands to `insert_normal`: the same triples,
without repetition, sorted by (s, p, o) and by (o, p, s). -/
structure Streams (spo ops : List triple_t) : Prop where
  sorted_spo : spo.Pairwise spo_lt
  sorted_ops : ops.Pairwise ops_lt
  same : ops.Perm spo
  ids : ∀ t, t ∈ spo → t.wellformed

/-- Room for `n` keys and `n` edges. -/
structure Roomy (g : GStore) (n : Nat) : Prop where
  buckets : n ≤ g.num_buckets_ext
  entries : n < g.num_entries
  ptr : g.num_entries ≤ 2 ^ NBITS_PTR
  size : n < 2 ^ NBITS_SIZE

/-- The `Put`s of `insert_normal`: those of the first pass, then those of the
second pass. -/
def normal_plan (versatile : Bool) (spo ops : List triple_t) : List Put :=
  (plan_pass versatile (fun t => t.s) (fun t => t.o) OUT spo (spo.length + 1) [] 0).1 ++
  (plan_pass versatile (fun t => t.o) (fun t => t.s) IN ops (ops.length + 1) []
    (skip_type_triples ops ops.length 0)).1

/-- The two triples of the minimal graph, `(s, TYPE_ID, t)` and `(s, p, o)` with
`t = 2`, `p = 3`, `s = 131072`, `o = 131073`; the list is sorted both by
(s, p, o) and by (o, p, s). -/
def demo_triples : List triple_t := [⟨131072, 1, 2⟩, ⟨131072, 3, 131073⟩]

/-! ## The index build, described by the keys it creates -/

/-- The key/value pair that slot `slot_id` holds. -/
def GStore.view (g : GStore) (slot_id : Nat) : Put :=
  ⟨(g.vertices slot_id).key.vid, (g.vertices slot_id).key.pid, (g.vertices slot_id).key.dir,
    g.read_edges (g.vertices slot_id).ptr.off (g.vertices slot_id).ptr.size⟩

/-- The body of the scan of `insert_index`, as a function of the key/value pair
of the slot. -/
def scan_put (versatile : Bool) (m : IndexMaps) (p : Put) : Outcome IndexMaps :=
  if p.d = IN then
    if p.pid = PREDICATE_ID then
      if versatile then
        .ok { m with v_set := set_insert m.v_set p.vid
                     p_set := p.vals.foldl set_insert m.p_set }
      else .ok m
    else if p.pid = TYPE_ID then .abort
    else .ok { m with pidx_out_map := map_push m.pidx_out_map p.pid p.vid }
  else
    if p.pid = PREDICATE_ID then
      if versatile then
        .ok { m with v_set := set_insert m.v_set p.vid
                     p_set := p.vals.foldl set_insert m.p_set }
      else .ok m
    else if p.pid = TYPE_ID then
      let m1 := if versatile then { m with v_set := set_insert m.v_set p.vid } else m
      .ok (p.vals.foldl
        (fun a t => { a with tidx_map := map_push a.tidx_map t p.vid
                             t_set := if versatile then set_insert a.t_set t else a.t_set })
        m1)
    else .ok { m with pidx_in_map := map_push m.pidx_in_map p.pid p.vid }

/-- The scan body applied to a list of key/value pairs in turn. -/
def scan_puts (versatile : Bool) : IndexMaps → List Put → Outcome IndexMaps
  | m, [] => .ok m
  | m, p :: ps => (scan_put versatile m p).bind fun m1 => scan_puts versatile m1 ps

/-- The slots that the scan of one bucket visits: from `slot_id` up to the
first empty slot, at most `n` of them. -/
def occ_bucket (g : GStore) : Nat → Nat → List Nat
  | 0, _ => []
  | n + 1, slot_id =>
    if (g.vertices slot_id).key.is_empty then []
    else slot_id :: occ_bucket g n (slot_id + 1)

/-- The slots that the scan of `n` buckets from `bucket_id` on visits. -/
def occ_buckets (g : GStore) : Nat → Nat → List Nat
  | 0, _ => []
  | n + 1, bucket_id =>
    occ_bucket g (ASSOCIATIVITY - 1) (bucket_id * ASSOCIATIVITY)
      ++ occ_buckets g n (bucket_id + 1)

/-- The slots that the scan of `insert_index` visits, in order. -/
def GStore.occupied (g : GStore) : List Nat := occ_buckets g (g.num_buckets + g.last_ext) 0

/-- The empty maps and sets the scan starts from. -/
def IndexMaps.empty : IndexMaps := ⟨[], [], [], [], [], []⟩

/-- The `Put`s of `insert_index_map(map, d)`. -/
def map_plan (map : tbb_hash_map) (d : Nat) : List Put :=
  map.map fun e => ⟨0, e.1, d, e.2⟩

/-- The `Put`s of `insert_index()` after the scan has filled the maps `m`. -/
def index_plan (versatile : Bool) (m : IndexMaps) : List Put :=
  map_plan m.tidx_map IN ++ (map_plan m.pidx_in_map IN ++ (map_plan m.pidx_out_map OUT ++
    (if versatile then
      [⟨0, TYPE_ID, IN, m.v_set⟩, ⟨0, TYPE_ID, OUT, m.t_set⟩, ⟨0, PREDICATE_ID, OUT, m.p_set⟩]
    else [])))

/-- The vector stored under key `k` of a map (empty when the key is absent). -/
def map_get : tbb_hash_map → Nat → List Nat
  | [], _ => []
  | (k1, l) :: rest, k => if k1 = k then l else map_get rest k

/-- The keys of a map. -/
def map_keys (m : tbb_hash_map) : List Nat := m.map fun e => e.1

/-- Total number of values of a map. -/
def map_vals (m : tbb_hash_map) : Nat := (m.map fun e => e.2.length).sum

/-- What a list of scanned pairs contributes to `pidx_in_map[pid]`: the vertex of
every pair `(vid, pid, OUT)`. -/
def pidx_in_list (X : List Put) (pid : Nat) : List Nat :=
  (X.filter fun p => decide (p.d ≠ IN ∧ p.pid = pid ∧ pid ≠ PREDICATE_ID ∧ pid ≠ TYPE_ID)).map
    fun p => p.vid

/-- What a list of scanned pairs contributes to `pidx_out_map[pid]`: the vertex of
every pair `(vid, pid, IN)`. -/
def pidx_out_list (X : List Put) (pid : Nat) : List Nat :=
  (X.filter fun p => decide (p.d = IN ∧ p.pid = pid ∧ pid ≠ PREDICATE_ID ∧ pid ≠ TYPE_ID)).map
    fun p => p.vid

/-- What one scanned pair contributes to `tidx_map[t]`: its vertex, once for each
occurrence of `t` among the values of a pair `(vid, TYPE_ID, OUT)`. -/
def tidx_of (t : Nat) (p : Put) : List Nat :=
  if p.d ≠ IN ∧ p.pid = TYPE_ID then List.replicate (p.vals.count t) p.vid else []

/-- What a list of scanned pairs contributes to `tidx_map[t]`. -/
def tidx_list : List Put → Nat → List Nat
  | [], _ => []
  | p :: X, t => tidx_of t p ++ tidx_list X t

/-- Number of keys of the three index maps. -/
def IndexMaps.keys (m : IndexMaps) : Nat :=
  m.tidx_map.length + m.pidx_in_map.length + m.pidx_out_map.length

/-- Number of values of the maps and sets. -/
def IndexMaps.vals (m : IndexMaps) : Nat :=
  map_vals m.tidx_map + map_vals m.pidx_in_map + map_vals m.pidx_out_map
    + m.v_set.length + m.t_set.length + m.p_set.length

/-- The maps `m` result from the maps `m0` by scanning the pairs `X`. -/
structure Scanned (m0 m : IndexMaps) (X : List Put) : Prop where
  pin : ∀ pid, map_get m.pidx_in_map pid = map_get m0.pidx_in_map pid ++ pidx_in_list X pid
  pout : ∀ pid, map_get m.pidx_out_map pid = map_get m0.pidx_out_map pid ++ pidx_out_list X pid
  tidx : ∀ t, map_get m.tidx_map t = map_get m0.tidx_map t ++ tidx_list X t
  keys_in : ∀ k, k ∈ map_keys m.pidx_in_map ↔
    k ∈ map_keys m0.pidx_in_map ∨ pidx_in_list X k ≠ []
  keys_out : ∀ k, k ∈ map_keys m.pidx_out_map ↔
    k ∈ map_keys m0.pidx_out_map ∨ pidx_out_list X k ≠ []
  keys_t : ∀ k, k ∈ map_keys m.tidx_map ↔ k ∈ map_keys m0.tidx_map ∨ tidx_list X k ≠ []
  nodup_in : (map_keys m0.pidx_in_map).Nodup → (map_keys m.pidx_in_map).Nodup
  nodup_out : (map_keys m0.pidx_out_map).Nodup → (map_keys m.pidx_out_map).Nodup
  nodup_t : (map_keys m0.tidx_map).Nodup → (map_keys m.tidx_map).Nodup
  nkeys : m.keys ≤ m0.keys + X.length + total_vals X
  nvals : m.vals ≤ m0.vals + 2 * X.length + 2 * total_vals X

/-- The conditions on the pairs of a loaded store under which the index build
goes through: every vertex field is a vertex id, there is no key
`(vid, TYPE_ID, IN)`, the values under `(vid, TYPE_ID, OUT)` are type ids, and no
type id is also the predicate of a key `(vid, pid, OUT)`. -/
structure Indexable (L : List Put) : Prop where
  loadable : Loadable L
  vids : ∀ p, p ∈ L → p.vid ≠ 0
  no_type_in : ∀ p, p ∈ L → ¬ (p.d = IN ∧ p.pid = TYPE_ID)
  types : ∀ p, p ∈ L → p.d ≠ IN → p.pid = TYPE_ID → ∀ t, t ∈ p.vals → is_tpid t = true
  disjoint : ∀ p q, p ∈ L → q ∈ L → p.d ≠ IN → p.pid = TYPE_ID → q.d ≠ IN →
    q.pid ≠ TYPE_ID → q.pid ∉ p.vals

/-- The four kinds of key that the index build creates from the scanned pairs
`L`: a type index, a predicate index of either side, or (with `VERSATILE`) one
of the three sets. -/
inductive IndexKind (versatile : Bool) (L : List Put) (m : IndexMaps) (p : Put) : Prop
  | tidx (q : Put) : q ∈ L → q.d ≠ IN → q.pid = TYPE_ID → p.pid ∈ q.vals →
      p.vid = 0 → p.d = IN → p.vals = map_get m.tidx_map p.pid →
      IndexKind versatile L m p
  | pidx_in (q : Put) : q ∈ L → q.d ≠ IN → q.pid = p.pid → p.pid ≠ PREDICATE_ID →
      p.pid ≠ TYPE_ID → p.vid = 0 → p.d = IN → p.vals = map_get m.pidx_in_map p.pid →
      IndexKind versatile L m p
  | pidx_out (q : Put) : q ∈ L → q.d = IN → q.pid = p.pid → p.pid ≠ PREDICATE_ID →
      p.pid ≠ TYPE_ID → p.vid = 0 → p.d = OUT → p.vals = map_get m.pidx_out_map p.pid →
      IndexKind versatile L m p
  | sets : versatile = true →
      p = ⟨0, TYPE_ID, IN, m.v_set⟩ ∨ p = ⟨0, TYPE_ID, OUT, m.t_set⟩ ∨
        p = ⟨0, PREDICATE_ID, OUT, m.p_set⟩ →
      IndexKind versatile L m p

/-- Type ids and predicate ids are disjoint: no object of a type triple is the
predicate of a triple. -/
def TypesApart (spo : List triple_t) : Prop :=
  ∀ t1 t2, t1 ∈ spo → t2 ∈ spo → t1.p = TYPE_ID → t2.p ≠ t1.o

/-- Key `k` sits in a data slot of a bucket in use, one that the scan of
`insert_index` visits. -/
def GStore.occupies (g : GStore) (k : ikey_t) : Prop :=
  ∃ c j, c < g.used ∧ j < ASSOCIATIVITY - 1 ∧ g.key_at c j = k

/-! ## Online insertion (`DYNAMIC_GSTORE`) -/

/-- The part of `Malloc_Interface` that the store calls; the allocator itself
is not among the sources and stays a parameter.  Sizes and offsets are in
bytes. -/
structure Malloc_Interface (σ : Type) where
  malloc : σ → Nat → Int → Outcome (Nat × σ)
  free : σ → Nat → σ
  sz_to_blksz : Nat → Nat

/-- What the online path takes from its surroundings: the edge allocator, the
successive readings of `timer::get_usec()`, the `lease`, and the global switch
`global_enable_caching`. -/
structure DynEnv (σ : Type) where
  edge_allocator : Malloc_Interface σ
  get_usec : Nat → Nat
  lease : Nat
  global_enable_caching : Bool

/-- Size of `edge_t` in bytes (32-bit `sid_t`). -/
def SIZEOF_EDGE : Nat := 4

/-- Constant `INVALID_EDGES = 1 << NBITS_SIZE`. -/
def INVALID_EDGES : Nat := 2 ^ NBITS_SIZE

/-- Method `b2e`: bytes to edges. -/
def b2e (sz : Nat) : Nat := sz / SIZEOF_EDGE

/-- Method `e2b`: edges to bytes. -/
def e2b (sz : Nat) : Nat := sz * SIZEOF_EDGE

/-- An entry of `free_queue`. -/
structure free_blk where
  off : Nat
  expire_time : Nat
deriving DecidableEq, Repr

/-- The store of the dynamic build: the index and edge regions, the state of the
edge allocator, the queue of pending frees, and the number of timer readings
taken so far. -/
structure DStore (σ : Type) where
  g : GStore
  heap : σ
  free_queue : List free_blk
  clock : Nat

/-- Method `blksz(sz)`. -/
def blksz {σ : Type} (E : DynEnv σ) (sz : Nat) : Nat :=
  b2e (E.edge_allocator.sz_to_blksz (e2b sz))

/-- Method `insert_sz(flag, sz, off)`: the size flag goes into the last cell of
the block. -/
def insert_sz {σ : Type} (E : DynEnv σ) (g : GStore) (flag sz off : Nat) : GStore :=
  g.set_edge (off + blksz E (sz + 1) - 1) flag

/-- Method `add_pending_free(ptr)`. -/
def add_pending_free {σ : Type} (E : DynEnv σ) (st : DStore σ) (ptr : iptr_t) : DStore σ :=
  { st with free_queue := st.free_queue ++ [⟨ptr.off, E.get_usec st.clock + E.lease⟩]
            clock := st.clock + 1 }

/-- The loop of `sweep_free()` over the queue: the heap and the number of timer
readings are threaded through. -/
def sweep_free_loop {σ : Type} (E : DynEnv σ) : List free_blk → σ → Nat → List free_blk × σ × Nat
  | [], heap, clock => ([], heap, clock)
  | blk :: q, heap, clock =>
    if E.get_usec clock < blk.expire_time then (blk :: q, heap, clock + 1)
    else sweep_free_loop E q (E.edge_allocator.free heap (e2b blk.off)) (clock + 1)

/-- Method `sweep_free()`. -/
def sweep_free {σ : Type} (E : DynEnv σ) (st : DStore σ) : DStore σ :=
  let r := sweep_free_loop E st.free_queue st.heap st.clock
  { st with free_queue := r.1, heap := r.2.1, clock := r.2.2 }

/-- Method `is_dup(v, value)`. -/
def is_dup (g : GStore) (v : vertex_t) (value : Nat) : Bool :=
  (List.range v.ptr.size).any fun i => decide (g.edges (v.ptr.off + i) = value)

/-- The `while (slot_id < num_slots)` loop of `check_key_exist`; one unit of fuel
per bucket visited.  Leaving the loop reaches the end of the function without a
`return`. -/
def check_key_exist_loop (key : ikey_t) (g : GStore) : Nat → Nat → Outcome Bool
  | 0, _ => .nofuel
  | fuel + 1, slot_id =>
    if slot_id < g.num_slots then
      match probe_bucket g key (ASSOCIATIVITY - 1) slot_id with
      | .dup _ => .ok true
      | .empty _ => .ok false
      | .full s =>
        if ¬ (g.vertices s).key.is_empty then
          check_key_exist_loop key g fuel ((g.vertices s).key.vid * ASSOCIATIVITY)
        else .ok false
    else .abort

/-- Method `check_key_exist(key)`. -/
def check_key_exist (hash_u64 : Nat → Nat) (g : GStore) (key : ikey_t) : Outcome Bool :=
  let bucket_id := key.hash hash_u64 % g.num_buckets
  check_key_exist_loop key g (g.last_ext + 1) (bucket_id * ASSOCIATIVITY)

/-- Method `alloc_edges(n, tid)` of the dynamic build. -/
def DStore.alloc_edges {σ : Type} (E : DynEnv σ) (st : DStore σ) (n : Nat) (tid : Int) :
    Outcome (Nat × DStore σ) :=
  let st1 := if E.global_enable_caching then sweep_free E st else st
  let sz := e2b (n + 1)
  (E.edge_allocator.malloc st1.heap sz tid).bind fun r =>
    let off := b2e r.1
    .ok (off, { st1 with heap := r.2, g := insert_sz E st1.g n n off })

/-- The call `memcpy(&edges[dst], &edges[src], e2b(n))` on disjoint ranges. -/
def GStore.memcpy (g : GStore) (dst src n : Nat) : GStore :=
  { g with edges := fun i => if dst ≤ i ∧ i < dst + n then g.edges (src + (i - dst))
                             else g.edges i }

/-- Method `insert_vertex_edge(key, value, dedup_or_isdup)`: the value returned,
the final value of the reference parameter, and the new state. -/
def insert_vertex_edge {σ : Type} (E : DynEnv σ) (hash_u64 : Nat → Nat) (st : DStore σ)
    (key : ikey_t) (value : Nat) (dedup_or_isdup : Bool) :
    Outcome (Bool × Bool × DStore σ) :=
  (insert_key hash_u64 st.g key false).bind fun r =>
  let v_ptr := r.1
  let st1 : DStore σ := { st with g := r.2 }
  let v := st1.g.vertices v_ptr
  if v.ptr.size = 0 then
    (st1.alloc_edges E 1 (-1)).bind fun a =>
    (iptr_t.make 1 a.1 0).bind fun ptr =>
    .ok (true, false, { a.2 with g := (a.2.g.set_edge a.1 value).set_ptr v_ptr ptr })
  else if dedup_or_isdup && is_dup st1.g v value then .ok (false, dedup_or_isdup, st1)
  else
    let need_size := v.ptr.size + 1
    if blksz E (v.ptr.size + 1) - 1 < need_size then
      let old_ptr := v.ptr
      (st1.alloc_edges E need_size (-1)).bind fun a =>
      let g1 := a.2.g.memcpy a.1 old_ptr.off old_ptr.size
      let g2 := g1.set_edge (a.1 + old_ptr.size) value
      let g3 := insert_sz E g2 INVALID_EDGES old_ptr.size old_ptr.off
      (iptr_t.make need_size a.1 0).bind fun ptr =>
      let st2 : DStore σ := { a.2 with g := g3.set_ptr v_ptr ptr }
      if E.global_enable_caching then .ok (false, false, add_pending_free E st2 old_ptr)
      else .ok (false, false,
        { st2 with heap := E.edge_allocator.free st2.heap (e2b old_ptr.off) })
    else
      let g1 := insert_sz E st1.g need_size need_size v.ptr.off
      let g2 := g1.set_edge (v.ptr.off + v.ptr.size) value
      .ok (false, false,
        { st1 with g := g2.set_ptr v_ptr { v.ptr with size := need_size % 2 ^ NBITS_SIZE } })

/-- The statement
`if (insert_vertex_edge(key, value, nodup) && !check_key_exist(buddy_key))
   insert_vertex_edge(key2, value2, nodup);`
with the three keys built first-to-last as in the code; with `inner = false` the
body is compiled out (it sits under `#ifdef VERSATILE`). -/
def insert_indexed {σ : Type} (E : DynEnv σ) (hash_u64 : Nat → Nat) (inner : Bool)
    (st : DStore σ) (k kb : Nat × Nat × Nat) (value : Nat) (k2 : Nat × Nat × Nat)
    (value2 : Nat) : Outcome (DStore σ) :=
  (ikey_t.make k.1 k.2.1 k.2.2).bind fun key =>
  (ikey_t.make kb.1 kb.2.1 kb.2.2).bind fun buddy_key =>
  (insert_vertex_edge E hash_u64 st key value false).bind fun r =>
  if r.1 then
    (check_key_exist hash_u64 r.2.2.g buddy_key).bind fun ex =>
    if !ex && inner then
      (ikey_t.make k2.1 k2.2.1 k2.2.2).bind fun key2 =>
      (insert_vertex_edge E hash_u64 r.2.2 key2 value2 false).bind fun r2 => .ok r2.2.2
    else .ok r.2.2
  else .ok r.2.2

/-- Method `insert_triple_out(triple, check_dup)`; `versatile` tells whether the
build has `VERSATILE`. -/
def insert_triple_out {σ : Type} (E : DynEnv σ) (hash_u64 : Nat → Nat) (versatile : Bool)
    (st : DStore σ) (triple : triple_t) (check_dup : Bool) : Outcome (DStore σ) :=
  if triple.p = TYPE_ID then
    (ikey_t.make triple.s triple.p OUT).bind fun key =>
    (insert_vertex_edge E hash_u64 st key triple.o true).bind fun r1 =>
    (if r1.1 && versatile then
      insert_indexed E hash_u64 true r1.2.2 (triple.s, PREDICATE_ID, OUT)
        (triple.s, PREDICATE_ID, IN) triple.p (0, TYPE_ID, IN) triple.s
     else .ok r1.2.2).bind fun st2 =>
    if !r1.2.1 then
      (ikey_t.make 0 triple.o IN).bind fun key4 =>
      (insert_vertex_edge E hash_u64 st2 key4 triple.s false).bind fun r4 =>
      if r4.1 && versatile then
        (ikey_t.make 0 TYPE_ID OUT).bind fun key5 =>
        (insert_vertex_edge E hash_u64 r4.2.2 key5 triple.o false).bind fun r5 => .ok r5.2.2
      else .ok r4.2.2
    else .ok st2
  else
    (ikey_t.make triple.s triple.p OUT).bind fun key =>
    (insert_vertex_edge E hash_u64 st key triple.o check_dup).bind fun r1 =>
    if r1.1 then
      (insert_indexed E hash_u64 versatile r1.2.2 (0, triple.p, IN) (0, triple.p, OUT)
        triple.s (0, PREDICATE_ID, OUT) triple.p).bind fun st2 =>
      if versatile then
        insert_indexed E hash_u64 true st2 (triple.s, PREDICATE_ID, OUT)
          (triple.s, PREDICATE_ID, IN) triple.p (0, TYPE_ID, IN) triple.s
      else .ok st2
    else .ok r1.2.2

/-- Method `insert_triple_in(triple, check_dup)`. -/
def insert_triple_in {σ : Type} (E : DynEnv σ) (hash_u64 : Nat → Nat) (versatile : Bool)
    (st : DStore σ) (triple : triple_t) (check_dup : Bool) : Outcome (DStore σ) :=
  if triple.p = TYPE_ID then .ok st
  else
    (ikey_t.make triple.o triple.p IN).bind fun key =>
    (insert_vertex_edge E hash_u64 st key triple.s check_dup).bind fun r1 =>
    if r1.1 then
      (insert_indexed E hash_u64 versatile r1.2.2 (0, triple.p, OUT) (0, triple.p, IN)
        triple.o (0, PREDICATE_ID, OUT) triple.p).bind fun st2 =>
      if versatile then
        insert_indexed E hash_u64 true st2 (triple.o, PREDICATE_ID, IN)
          (triple.o, PREDICATE_ID, OUT) triple.p (0, TYPE_ID, IN) triple.o
      else .ok st2
    else .ok r1.2.2

/-- One online call: `insert_triple_out` or `insert_triple_in` of a triple. -/
structure Call where
  out : Bool
  triple : triple_t
  check_dup : Bool
deriving DecidableEq, Repr

/-- The call performed. -/
def Call.run {σ : Type} (E : DynEnv σ) (hash_u64 : Nat → Nat) (versatile : Bool)
    (st : DStore σ) (c : Call) : Outcome (DStore σ) :=
  if c.out then insert_triple_out E hash_u64 versatile st c.triple c.check_dup
  else insert_triple_in E hash_u64 versatile st c.triple c.check_dup

/-- A sequence of online calls, first to last. -/
def run_calls {σ : Type} (E : DynEnv σ) (hash_u64 : Nat → Nat) (versatile : Bool) :
    DStore σ → List Call → Outcome (DStore σ)
  | st, [] => .ok st
  | st, c :: cs => (c.run E hash_u64 versatile st).bind fun st1 =>
      run_calls E hash_u64 versatile st1 cs

/-- The store after `refresh()` in the dynamic build, with the allocator in the
state `heap` that its `init` leaves. -/
def DStore.fresh {σ : Type} (g0 : GStore) (heap : σ) : DStore σ :=
  ⟨refresh g0, heap, [], 0⟩

/-- A simple allocator for the examples: a bump pointer that hands out blocks
of whole multiples of 16 bytes and never reuses memory. -/
def demo_malloc : Malloc_Interface Nat where
  malloc := fun next sz _ => .ok (next, next + 16 * ((sz + 15) / 16))
  free := fun next _ => next
  sz_to_blksz := fun sz => 16 * ((sz + 15) / 16)

/-- The surroundings for the examples: caching off. -/
def demo_env : DynEnv Nat := ⟨demo_malloc, fun _ => 0, 120000000, false⟩

/-- Two stores with the same index region: the same keys in every slot and the
same sizes and cursor of the bucket regions. -/
def SameKeys (g g2 : GStore) : Prop :=
  (∀ i, (g2.vertices i).key = (g.vertices i).key) ∧ g2.num_slots = g.num_slots ∧
    g2.num_buckets = g.num_buckets ∧ g2.num_buckets_ext = g.num_buckets_ext ∧
    g2.last_ext = g.last_ext

/-- The online store: `refresh()` followed by the calls. -/
def online {σ : Type} (E : DynEnv σ) (hash_u64 : Nat → Nat) (versatile : Bool)
    (g0 : GStore) (heap : σ) (calls : List Call) : Outcome (DStore σ) :=
  run_calls E hash_u64 versatile (DStore.fresh g0 heap) calls

/-- The result of `get_edges_local` on the outcome of online calls. -/
def dlookup {σ : Type} (hash_u64 : Nat → Nat) (x : Outcome (DStore σ)) (vid pid d : Nat) :
    Outcome (Nat × Option (List Nat)) :=
  x.bind fun st => get_edges_local hash_u64 st.g vid d pid

/-- The online calls for the non-type demo triple: both directions. -/
def demo_calls : List Call :=
  [⟨true, ⟨131072, 3, 131073⟩, true⟩, ⟨false, ⟨131072, 3, 131073⟩, true⟩]

/-! ## The edge heap of the dynamic build -/

/-- Two blocks `(offset, length)` of the edge region do not overlap. -/
def Apart (a b : Nat × Nat) : Prop := a.1 + a.2 ≤ b.1 ∨ b.1 + b.2 ≤ a.1

/-- What the store relies on from the edge allocator.  `blocks` gives the blocks
(offset and length, in edges) that are allocated in a state of the allocator:
`malloc` hands out a block of `sz_to_blksz` bytes that overlaps none of them,
`free` releases the block at the given offset, and block sizes grow with the
request, stay put within a block and respect the width of the size field. -/
structure Malloc_OK {σ : Type} (E : DynEnv σ) (blocks : σ → List (Nat × Nat)) : Prop where
  blk_ge : ∀ n, n ≤ blksz E n
  blk_stable : ∀ n m, n ≤ m → m ≤ blksz E n → blksz E m ≤ blksz E n
  blk_small : ∀ n, n ≤ 2 ^ NBITS_SIZE → blksz E n ≤ 2 ^ NBITS_SIZE
  malloc_ok : ∀ s n tid b s2, E.edge_allocator.malloc s (e2b n) tid = .ok (b, s2) →
    blocks s2 = (b2e b, blksz E n) :: blocks s ∧
      ∀ blk, blk ∈ blocks s → Apart (b2e b, blksz E n) blk
  free_ok : ∀ s o, blocks (E.edge_allocator.free s (e2b o))
    = (blocks s).filter fun blk => decide (blk.1 ≠ o)

/-- The allocated blocks are pairwise apart and non-empty, every offset in use
(`offs`) starts an allocated block, and the pending frees are distinct
allocated blocks that are not in use. -/
structure HeapInv {σ : Type} (blocks : σ → List (Nat × Nat)) (heap : σ)
    (queue : List free_blk) (offs : Nat → Prop) : Prop where
  apart : (blocks heap).Pairwise Apart
  pos : ∀ blk, blk ∈ blocks heap → 0 < blk.2
  held : ∀ o, offs o → ∃ len, (o, len) ∈ blocks heap
  pend : ∀ q, q ∈ queue → (∃ len, (q.off, len) ∈ blocks heap) ∧ ¬ offs q.off
  pend_nodup : (queue.map free_blk.off).Nodup

/-- Slot `s` is a data slot of a bucket in use and holds a key. -/
def GStore.Occ (g : GStore) (s : Nat) : Prop :=
  ∃ c j, c < g.used ∧ j < ASSOCIATIVITY - 1 ∧ s = c * ASSOCIATIVITY + j ∧
    g.key_at c j ≠ ikey_t.zero

/-- The value list that the pointer of slot `s` designates. -/
def GStore.list_at (g : GStore) (s : Nat) : List Nat :=
  g.read_edges (g.vertices s).ptr.off (g.vertices s).ptr.size

/-- The value list of a key: what `get_edges_local` returns for it, the empty
list when the key does not exist. -/
def vals (hash_u64 : Nat → Nat) (g : GStore) (k : ikey_t) : List Nat :=
  match get_vertex_local hash_u64 g k with
  | .ok v => if v.key.is_empty then [] else g.read_edges v.ptr.off v.ptr.size
  | _ => []

/-- The invariant of the dynamic store: a well-formed index region, empty slots
with empty pointers, and every key with a non-empty list of fewer than
`2 ^ NBITS_SIZE` values inside an allocated block of its own that has room for
the size flag. -/
structure DInv {σ : Type} (E : DynEnv σ) (blocks : σ → List (Nat × Nat))
    (hash_u64 : Nat → Nat) (st : DStore σ) : Prop where
  wf : WF hash_u64 st.g
  blank : ∀ c j, c < st.g.num_buckets + st.g.num_buckets_ext → j < ASSOCIATIVITY - 1 →
    st.g.key_at c j = ikey_t.zero → (st.g.vertices (c * ASSOCIATIVITY + j)).ptr.size = 0
  heap : HeapInv blocks st.heap st.free_queue
    (fun o => ∃ s, st.g.Occ s ∧ (st.g.vertices s).ptr.off = o)
  own : ∀ s, st.g.Occ s →
    0 < (st.g.vertices s).ptr.size ∧ (st.g.vertices s).ptr.size < 2 ^ NBITS_SIZE ∧
    ∃ len, ((st.g.vertices s).ptr.off, len) ∈ blocks st.heap ∧
      blksz E ((st.g.vertices s).ptr.size + 1) ≤ len
  sep : ∀ s t, st.g.Occ s → st.g.Occ t → s ≠ t →
    (st.g.vertices s).ptr.off ≠ (st.g.vertices t).ptr.off

/-- The value lists of all keys. -/
abbrev KV := ikey_t → List Nat

/-- The value `v` appended to the list of key `k`. -/
def KV.push (m : KV) (k : ikey_t) (v : Nat) : KV :=
  fun k2 => if k2 = k then m k ++ [v] else m k2

/-- What `insert_vertex_edge(key, value, dedup_or_isdup)` does to the value
lists: the value returned, the final `dedup_or_isdup`, and the new lists. -/
def kv_insert (m : KV) (key : ikey_t) (value : Nat) (dedup_or_isdup : Bool) :
    Bool × Bool × KV :=
  if m key = [] then (true, false, m.push key value)
  else if dedup_or_isdup && decide (value ∈ m key) then (false, dedup_or_isdup, m)
  else (false, false, m.push key value)

/-- The statement pattern of `insert_indexed` on the value lists. -/
def kv_indexed (inner : Bool) (m : KV) (key buddy_key : ikey_t) (value : Nat)
    (key2 : ikey_t) (value2 : Nat) : KV :=
  if (kv_insert m key value false).1 then
    if decide ((kv_insert m key value false).2.2 buddy_key = []) && inner then
      (kv_insert (kv_insert m key value false).2.2 key2 value2 false).2.2
    else (kv_insert m key value false).2.2
  else (kv_insert m key value false).2.2

/-- The lists after the type branch of `insert_triple_out`, up to step <3>. -/
def kv_type_head (versatile : Bool) (m : KV) (t : triple_t) : KV :=
  if (kv_insert m ⟨t.s, t.p, OUT⟩ t.o true).1 && versatile then
    kv_indexed true (kv_insert m ⟨t.s, t.p, OUT⟩ t.o true).2.2 ⟨t.s, PREDICATE_ID, OUT⟩
      ⟨t.s, PREDICATE_ID, IN⟩ t.p ⟨0, TYPE_ID, IN⟩ t.s
  else (kv_insert m ⟨t.s, t.p, OUT⟩ t.o true).2.2

/-- Method `insert_triple_out` on the value lists. -/
def kv_triple_out (versatile : Bool) (m : KV) (t : triple_t) (check_dup : Bool) : KV :=
  if t.p = TYPE_ID then
    if !(kv_insert m ⟨t.s, t.p, OUT⟩ t.o true).2.1 then
      if (kv_insert (kv_type_head versatile m t) ⟨0, t.o, IN⟩ t.s false).1 && versatile then
        (kv_insert (kv_insert (kv_type_head versatile m t) ⟨0, t.o, IN⟩ t.s false).2.2
          ⟨0, TYPE_ID, OUT⟩ t.o false).2.2
      else (kv_insert (kv_type_head versatile m t) ⟨0, t.o, IN⟩ t.s false).2.2
    else kv_type_head versatile m t
  else
    if (kv_insert m ⟨t.s, t.p, OUT⟩ t.o check_dup).1 then
      if versatile then
        kv_indexed true
          (kv_indexed versatile (kv_insert m ⟨t.s, t.p, OUT⟩ t.o check_dup).2.2 ⟨0, t.p, IN⟩
            ⟨0, t.p, OUT⟩ t.s ⟨0, PREDICATE_ID, OUT⟩ t.p)
          ⟨t.s, PREDICATE_ID, OUT⟩ ⟨t.s, PREDICATE_ID, IN⟩ t.p ⟨0, TYPE_ID, IN⟩ t.s
      else
        kv_indexed versatile (kv_insert m ⟨t.s, t.p, OUT⟩ t.o check_dup).2.2 ⟨0, t.p, IN⟩
          ⟨0, t.p, OUT⟩ t.s ⟨0, PREDICATE_ID, OUT⟩ t.p
    else (kv_insert m ⟨t.s, t.p, OUT⟩ t.o check_dup).2.2

/-- Method `insert_triple_in` on the value lists. -/
def kv_triple_in (versatile : Bool) (m : KV) (t : triple_t) (check_dup : Bool) : KV :=
  if t.p = TYPE_ID then m
  else
    if (kv_insert m ⟨t.o, t.p, IN⟩ t.s check_dup).1 then
      if versatile then
        kv_indexed true
          (kv_indexed versatile (kv_insert m ⟨t.o, t.p, IN⟩ t.s check_dup).2.2 ⟨0, t.p, OUT⟩
            ⟨0, t.p, IN⟩ t.o ⟨0, PREDICATE_ID, OUT⟩ t.p)
          ⟨t.o, PREDICATE_ID, IN⟩ ⟨t.o, PREDICATE_ID, OUT⟩ t.p ⟨0, TYPE_ID, IN⟩ t.o
      else
        kv_indexed versatile (kv_insert m ⟨t.o, t.p, IN⟩ t.s check_dup).2.2 ⟨0, t.p, OUT⟩
          ⟨0, t.p, IN⟩ t.o ⟨0, PREDICATE_ID, OUT⟩ t.p
    else (kv_insert m ⟨t.o, t.p, IN⟩ t.s check_dup).2.2

/-- A sequence of online calls on the value lists. -/
def kv_run (versatile : Bool) : KV → List Call → KV
  | m, [] => m
  | m, c :: cs =>
    kv_run versatile
      (if c.out then kv_triple_out versatile m c.triple c.check_dup
       else kv_triple_in versatile m c.triple c.check_dup) cs

/-- The invariant of the value lists under online insertion with dedup, for a
set `Ty` of type ids: no list holds a value twice, and every entry of a derived
list has its origin: a subject under `(0, p, IN)` has the key `(s, p, OUT)`, a
vertex under the type index `(0, t, IN)` has `t` among its types, an object
under `(0, p, OUT)` has the key `(o, p, IN)`, a predicate in a vertex's
predicate list has the vertex's key for it, a vertex in the list of all
vertices has a predicate list, and every type or predicate in the lists of all
types or predicates has an index. -/
structure KvInv (Ty : Nat → Prop) (m : KV) : Prop where
  nodup : ∀ k, (m k).Nodup
  j1 : ∀ p s, ¬ Ty p → 2 ≤ p → s ∈ m ⟨0, p, IN⟩ → m ⟨s, p, OUT⟩ ≠ []
  j1t : ∀ t s, Ty t → s ∈ m ⟨0, t, IN⟩ → t ∈ m ⟨s, TYPE_ID, OUT⟩
  j2 : ∀ p o, 2 ≤ p → o ∈ m ⟨0, p, OUT⟩ → m ⟨o, p, IN⟩ ≠ []
  j3 : ∀ s x, s ≠ 0 → x ∈ m ⟨s, PREDICATE_ID, OUT⟩ → m ⟨s, x, OUT⟩ ≠ []
  j4 : ∀ o x, o ≠ 0 → x ∈ m ⟨o, PREDICATE_ID, IN⟩ → m ⟨o, x, IN⟩ ≠ []
  j5 : ∀ v, v ∈ m ⟨0, TYPE_ID, IN⟩ →
    m ⟨v, PREDICATE_ID, OUT⟩ ≠ [] ∨ m ⟨v, PREDICATE_ID, IN⟩ ≠ []
  j6 : ∀ t, t ∈ m ⟨0, TYPE_ID, OUT⟩ → m ⟨0, t, IN⟩ ≠ []
  j7 : ∀ p, p ∈ m ⟨0, PREDICATE_ID, OUT⟩ → m ⟨0, p, IN⟩ ≠ [] ∨ m ⟨0, p, OUT⟩ ≠ []

/-- The end of the highest block of a list of blocks `(offset, length)`. -/
def block_top : List (Nat × Nat) → Nat
  | [] => 0
  | blk :: s => max (blk.1 + blk.2) (block_top s)

/-- An allocator for the examples that keeps the list of its blocks, in edges:
`malloc` places a block of whole multiples of 16 bytes above all others and
`free` drops the block at the given address. -/
def block_malloc : Malloc_Interface (List (Nat × Nat)) where
  malloc := fun s sz _ =>
    .ok (e2b (block_top s), (block_top s, b2e (16 * ((sz + 15) / 16))) :: s)
  free := fun s b => s.filter fun blk => decide (blk.1 ≠ b2e b)
  sz_to_blksz := fun sz => 16 * ((sz + 15) / 16)

/-- The surroundings for the examples with `block_malloc`: caching off. -/
def block_env : DynEnv (List (Nat × Nat)) := ⟨block_malloc, fun _ => 0, 120000000, false⟩

/-- Online calls for a type triple and a triple of predicate 3 of the same
subject, all with dedup requested. -/
def demo_dedup_calls : List Call :=
  [⟨true, ⟨131072, 1, 2⟩, true⟩, ⟨true, ⟨131072, 3, 131073⟩, true⟩,
    ⟨false, ⟨131072, 3, 131073⟩, true⟩, ⟨true, ⟨131072, 3, 131073⟩, true⟩]

/-- The type ids of a sequence of calls: the objects of its type triples. -/
def type_ids (calls : List Call) (t : Nat) : Prop :=
  ∃ c, c ∈ calls ∧ c.triple.p = TYPE_ID ∧ c.triple.o = t

/-- Member `operator ==` of `ikey_t`. -/
def ikey_t.eq (a key : ikey_t) : Bool :=
  if a.vid = key.vid ∧ a.pid = key.pid ∧ a.dir = key.dir then true else false

/-- A key whose fields are values of its bit-fields. -/
def ikey_t.fits (k : ikey_t) : Prop :=
  k.vid < 2 ^ NBITS_VID ∧ k.pid < 2 ^ NBITS_IDX ∧ k.dir < 2 ^ NBITS_DIR

/-- What a call of the static `alloc_edges` returns and where it leaves the
cursor. -/
def alloc_cursor (g : GStore) (n : Nat) : Outcome (Nat × Nat) :=
  (alloc_edges g n).bind fun r => .ok (r.1, r.2.last_entry)

/-- A sequence of `insert_key(key)` calls with the default `check_dup = true`. -/
def insert_keys (hash_u64 : Nat → Nat) : GStore → List ikey_t → Outcome GStore
  | g, [] => .ok g
  | g, k :: ks => (insert_key hash_u64 g k true).bind fun r => insert_keys hash_u64 r.2 ks

/-- The value of an outcome, or `d` when there is none. -/
def Outcome.get {α : Type} (x : Outcome α) (d : α) : α :=
  match x with
  | .ok a => a
  | _ => d

/-- The outcome is a value. -/
def Outcome.returns {α : Type} (x : Outcome α) : Bool :=
  match x with
  | .ok _ => true
  | _ => false

/-- Bucket number `m` of the chain of main bucket `h` when only that chain has
grown: the main bucket, then the indirect buckets in the order of allocation. -/
def chain_bucket (g : GStore) (h m : Nat) : Nat :=
  if m = 0 then h else g.num_buckets + (m - 1)

/-- The store holds the keys `ks`, all of main bucket `h`, and nothing else:
key number `i` sits in slot `i % 7` of bucket `i / 7` of the chain, the chain has
`(|ks| - 1) / 7` indirect buckets, linked in order. -/
structure Filled (hash_u64 : Nat → Nat) (g : GStore) (h : Nat) (ks : List ikey_t) : Prop where
  wf : WF hash_u64 g
  hb : h < g.num_buckets
  ext : g.last_ext = (ks.length - 1) / 7
  nz : ∀ k, k ∈ ks → k ≠ ikey_t.zero
  place : ∀ i, i < ks.length →
    g.key_at (chain_bucket g h (i / 7)) (i % 7) = ks.getD i ikey_t.zero
  blank : ∀ m j, m ≤ g.last_ext → j < 7 → ks.length ≤ 7 * m + j →
    g.key_at (chain_bucket g h m) j = ikey_t.zero
  links : ∀ m, m < g.last_ext →
    g.link (chain_bucket g h m) = ⟨chain_bucket g h (m + 1), 0, 0⟩
  last : g.link (chain_bucket g h g.last_ext) = ikey_t.zero
  only : ∀ c j, c < g.used → j < 7 → g.key_at c j ≠ ikey_t.zero → g.key_at c j ∈ ks

/-- Sixteen keys of one main bucket of the demo store: the vertex ids advance in
steps of the number of main buckets. -/
def demo_chain_keys : List ikey_t := (List.range 16).map fun i => ⟨131072 + 5 * i, 3, OUT⟩

/-- The demo store after the first seven keys of `demo_chain_keys`: the main
bucket of these keys is full. -/
def demo_full_store : GStore :=
  (insert_keys demo_hash (refresh demo_store) (demo_chain_keys.take 7)).get (refresh demo_store)

/-- The value pointers of the occupied slots designate ranges below the cursor
of the entry region, the cursor is inside the region, and the ranges of
different slots do not overlap. -/
structure NoAlias (g : GStore) : Prop where
  inside : ∀ s, g.Occ s →
    (g.vertices s).ptr.off + (g.vertices s).ptr.size ≤ g.last_entry ∧
      g.last_entry < g.num_entries
  apart : ∀ s t, g.Occ s → g.Occ t → s ≠ t →
    (g.vertices s).ptr.off + (g.vertices s).ptr.size ≤ (g.vertices t).ptr.off ∨
    (g.vertices t).ptr.off + (g.vertices t).ptr.size ≤ (g.vertices s).ptr.off

/-- The demo store after the bulk load of the minimal graph with `VERSATILE`. -/
def demo_loaded : GStore :=
  (bulk_load demo_hash true demo_store demo_triples demo_triples).get (refresh demo_store)

/-- The size flag of every key: the last cell of the block of `size + 1` edges
at the offset of its pointer holds the size of its pointer. -/
def Tagged {σ : Type} (E : DynEnv σ) (g : GStore) : Prop :=
  ∀ s, g.Occ s →
    g.edges ((g.vertices s).ptr.off + blksz E ((g.vertices s).ptr.size + 1) - 1)
      = (g.vertices s).ptr.size

/-- The stores of the dynamic build reached from `refresh()` by calls of
`insert_vertex_edge` (which calls `alloc_edges`) with non-empty keys. -/
inductive Grown {σ : Type} (E : DynEnv σ) (hash_u64 : Nat → Nat) (g0 : GStore) (heap : σ) :
    DStore σ → Prop
  | init : Grown E hash_u64 g0 heap (DStore.fresh g0 heap)
  | step {st : DStore σ} (key : ikey_t) (value : Nat) (d : Bool) (r : Bool × Bool × DStore σ) :
      Grown E hash_u64 g0 heap st → key ≠ ikey_t.zero →
      insert_vertex_edge E hash_u64 st key value d = .ok r → Grown E hash_u64 g0 heap r.2.2

/-- A sequence of `insert_vertex_edge(key, value, dedup)` calls. -/
def vertex_edges {σ : Type} (E : DynEnv σ) (hash_u64 : Nat → Nat) :
    DStore σ → List (ikey_t × Nat × Bool) → Outcome (DStore σ)
  | st, [] => .ok st
  | st, c :: cs => (insert_vertex_edge E hash_u64 st c.1 c.2.1 c.2.2).bind fun r =>
      vertex_edges E hash_u64 r.2.2 cs

/-- The surroundings for the examples with `block_malloc` and caching on; the
timer stands still, so no lease expires. -/
def cache_env : DynEnv (List (Nat × Nat)) := ⟨block_malloc, fun _ => 0, 120000000, true⟩

/-- The first `n` of four edges of `demo_key`. -/
def demo_edge_calls (n : Nat) : List (ikey_t × Nat × Bool) :=
  [(demo_key, 7, false), (demo_key, 8, false), (demo_key, 9, false),
    (demo_key, 10, false)].take n

/-- The demo store after the first `n` edges of `demo_key`, in the surroundings
`E`. -/
def demo_edges (E : DynEnv (List (Nat × Nat))) (n : Nat) : DStore (List (Nat × Nat)) :=
  (vertex_edges E demo_hash (DStore.fresh demo_store []) (demo_edge_calls n)).get
    (DStore.fresh demo_store [])

/-- What the examples report of a store after the edges of `demo_key`: the
pointer of the key, the content of cell 3 (the size flag of the first block),
the length of `free_queue`, and the allocated blocks. -/
def demo_report (st : DStore (List (Nat × Nat))) :
    iptr_t × Nat × Nat × List (Nat × Nat) :=
  ((st.g.vertices 0).ptr, st.g.edges 3, st.free_queue.length, st.heap)

/-! ## Remote reads (`get_edges_remote`) -/

/-- Constant `RDMA_Cache::NUM_ITEMS`. -/
def NUM_ITEMS : Nat := 100000

/-- Size of `vertex_t` in bytes. -/
def SIZEOF_VERTEX : Nat := 16

/-- An `RDMA_Cache::Item` (the spin lock left out). -/
structure Item where
  v : vertex_t
  expire_time : Nat

/-- The state of the reading server that a remote read uses: the items of its
`rdma_cache` and the number of timer readings taken so far. -/
structure Reader where
  items : Nat → Item
  clock : Nat

/-- What a remote read takes from its surroundings: the switch
`global_use_rdma`, the size of the per-thread buffer, `num_buckets` of the
reading server, and the memory of the server `dst_sid` as `RdmaRead` delivers
it.  The constructor lays `vertices` over the start of the registered region and
`edges` behind `num_slots` vertices, so a read of `ASSOCIATIVITY` vertices at
byte offset `bucket_id * ASSOCIATIVITY * sizeof(vertex_t)` is the bucket
`bucket_id` of `peer.vertices`, and a read of `n` edges at
`num_slots * sizeof(vertex_t) + off * sizeof(edge_t)` is
`peer.edges[off], …, peer.edges[off + n - 1]`. -/
structure RdmaEnv where
  global_use_rdma : Bool
  buffer_size : Nat
  num_buckets : Nat
  peer : GStore

/-- Method `RDMA_Cache::lookup(key, ret)`: the vertex found, if any. -/
def RDMA_Cache.lookup {σ : Type} (E : DynEnv σ) (hash_u64 : Nat → Nat) (rd : Reader)
    (key : ikey_t) : Option vertex_t × Reader :=
  if !E.global_enable_caching then (none, rd)
  else
    let idx := key.hash hash_u64 % NUM_ITEMS
    if (rd.items idx).v.key.eq key then
      if E.get_usec rd.clock < (rd.items idx).expire_time then
        (some (rd.items idx).v, { rd with clock := rd.clock + 1 })
      else (none, { rd with clock := rd.clock + 1 })
    else (none, rd)

/-- Method `RDMA_Cache::insert(v)`. -/
def RDMA_Cache.insert {σ : Type} (E : DynEnv σ) (hash_u64 : Nat → Nat) (rd : Reader)
    (v : vertex_t) : Reader :=
  if !E.global_enable_caching then rd
  else
    let idx := v.key.hash hash_u64 % NUM_ITEMS
    { items := fun i =>
        if i = idx then ⟨v, (E.get_usec rd.clock + E.lease) % 2 ^ 64⟩ else rd.items i
      clock := rd.clock + 1 }

/-- Method `RDMA_Cache::invalidate(key)`. -/
def RDMA_Cache.invalidate {σ : Type} (E : DynEnv σ) (hash_u64 : Nat → Nat) (rd : Reader)
    (key : ikey_t) : Reader :=
  if !E.global_enable_caching then rd
  else
    let idx := key.hash hash_u64 % NUM_ITEMS
    if (rd.items idx).v.key.eq key then
      { rd with items := fun i =>
          if i = idx then { rd.items idx with v := { (rd.items idx).v with key := ikey_t.zero } }
          else rd.items i }
    else rd

/-- The `while (true)` loop of `get_vertex_remote`: each round reads one bucket
of the peer; one unit of fuel per bucket. -/
def get_vertex_remote_loop (R : RdmaEnv) (key : ikey_t) : Nat → Nat → Outcome (Option vertex_t)
  | 0, _ => .nofuel
  | fuel + 1, bucket_id =>
    if ¬ (ASSOCIATIVITY * SIZEOF_VERTEX < R.buffer_size) then .abort
    else
      match find_in_bucket R.peer key (ASSOCIATIVITY - 1) (bucket_id * ASSOCIATIVITY) with
      | some s => .ok (some (R.peer.vertices s))
      | none =>
        let slot_id := bucket_id * ASSOCIATIVITY + (ASSOCIATIVITY - 1)
        if (R.peer.vertices slot_id).key.is_empty then .ok none
        else get_vertex_remote_loop R key fuel (R.peer.vertices slot_id).key.vid

/-- Method `get_vertex_remote(tid, key)`.  The loop budget is the number of
buckets a chain of the peer can have. -/
def get_vertex_remote {σ : Type} (E : DynEnv σ) (R : RdmaEnv) (hash_u64 : Nat → Nat)
    (rd : Reader) (key : ikey_t) : Outcome (vertex_t × Reader) :=
  let bucket_id := key.hash hash_u64 % R.num_buckets
  if !R.global_use_rdma then .abort
  else
    match (RDMA_Cache.lookup E hash_u64 rd key).1 with
    | some vert => .ok (vert, (RDMA_Cache.lookup E hash_u64 rd key).2)
    | none =>
      (get_vertex_remote_loop R key (R.peer.last_ext + 1) bucket_id).bind fun r =>
        match r with
        | some v => .ok (v, RDMA_Cache.insert E hash_u64 (RDMA_Cache.lookup E hash_u64 rd key).2 v)
        | none => .ok (vertex_t.zero, (RDMA_Cache.lookup E hash_u64 rd key).2)

/-- Method `rdma_get_edges(tid, dst_sid, v)` of the dynamic build: the whole
block of the peer at the offset of `v`. -/
def rdma_get_edges {σ : Type} (E : DynEnv σ) (R : RdmaEnv) (v : vertex_t) :
    Outcome (List Nat) :=
  if !R.global_use_rdma then .abort
  else if ¬ (blksz E (v.ptr.size + 1) * SIZEOF_EDGE < R.buffer_size) then .abort
  else .ok (R.peer.read_edges v.ptr.off (blksz E (v.ptr.size + 1)))

/-- Method `edge_is_valid(v, edge_ptr)`. -/
def edge_is_valid {σ : Type} (E : DynEnv σ) (v : vertex_t) (edge_ptr : List Nat) : Bool :=
  if !E.global_enable_caching then true
  else decide (edge_ptr.getD (blksz E (v.ptr.size + 1) - 1) 0 = v.ptr.size)

/-- The loop `while (!edge_is_valid(v, edge_ptr))` of `get_edges_remote`; the
last component counts the rounds, one unit of fuel each. -/
def get_edges_remote_loop {σ : Type} (E : DynEnv σ) (R : RdmaEnv) (hash_u64 : Nat → Nat)
    (key : ikey_t) : Nat → vertex_t → List Nat → Reader → Nat →
    Outcome (vertex_t × List Nat × Reader × Nat)
  | 0, _, _, _, _ => .nofuel
  | fuel + 1, v, edge_ptr, rd, n =>
    if edge_is_valid E v edge_ptr then .ok (v, edge_ptr, rd, n)
    else
      (get_vertex_remote E R hash_u64 (RDMA_Cache.invalidate E hash_u64 rd key) key).bind fun r =>
      (rdma_get_edges E R r.1).bind fun edge_ptr2 =>
        get_edges_remote_loop E R hash_u64 key fuel r.1 edge_ptr2 r.2 (n + 1)

/-- Method `get_edges_remote(tid, vid, d, pid, &sz)` of the dynamic build: the
size written to `sz`, the buffer returned (`none` for `NULL`), the state of the
reader, and the number of retries. -/
def get_edges_remote {σ : Type} (E : DynEnv σ) (R : RdmaEnv) (hash_u64 : Nat → Nat)
    (fuel : Nat) (rd : Reader) (vid d pid : Nat) :
    Outcome (Nat × Option (List Nat) × Reader × Nat) :=
  (ikey_t.make vid pid d).bind fun key =>
  (get_vertex_remote E R hash_u64 rd key).bind fun r =>
    if r.1.key.is_empty then .ok (0, none, r.2, 0)
    else
      (rdma_get_edges E R r.1).bind fun edge_ptr =>
      (get_edges_remote_loop E R hash_u64 key fuel r.1 edge_ptr r.2 0).bind fun x =>
        .ok (x.1.ptr.size, some x.2.1, x.2.2.1, x.2.2.2)

/-- A reader whose cache holds, for every index, the vertex of `demo_key` as it
was with three edges, not yet expired. -/
def demo_reader : Reader := ⟨fun _ => ⟨⟨demo_key, ⟨3, 0, 0⟩⟩, 100⟩, 0⟩

/-- The surroundings of a remote read of the demo store after the fourth edge
of `demo_key`. -/
def demo_rdma : RdmaEnv := ⟨true, 1000, 5, (demo_edges cache_env 4).g⟩

/-! ## The remote cache in both builds -/

/-- Method `RDMA_Cache::lookup(key, ret)` of the static build (without
`DYNAMIC_GSTORE`): a hit does not depend on `expire_time`, and the timer is not
read.  `caching` is `global_enable_caching`. -/
def RDMA_Cache.lookup_static (caching : Bool) (hash_u64 : Nat → Nat) (rd : Reader)
    (key : ikey_t) : Option vertex_t :=
  if !caching then none
  else
    let idx := key.hash hash_u64 % NUM_ITEMS
    if (rd.items idx).v.key.eq key then some (rd.items idx).v else none

/-- Method `RDMA_Cache::insert(v)` of the static build. -/
def RDMA_Cache.insert_static (caching : Bool) (hash_u64 : Nat → Nat) (rd : Reader)
    (v : vertex_t) : Reader :=
  if !caching then rd
  else
    let idx := v.key.hash hash_u64 % NUM_ITEMS
    { rd with items := fun i => if i = idx then { rd.items idx with v := v } else rd.items i }

/-- Method `RDMA_Cache::invalidate(key)` of the static build. -/
def RDMA_Cache.invalidate_static (caching : Bool) (hash_u64 : Nat → Nat) (rd : Reader)
    (key : ikey_t) : Reader :=
  if !caching then rd
  else
    let idx := key.hash hash_u64 % NUM_ITEMS
    if (rd.items idx).v.key.eq key then
      { rd with items := fun i =>
          if i = idx then { rd.items idx with v := { (rd.items idx).v with key := ikey_t.zero } }
          else rd.items i }
    else rd

/-- A cache as the constructor `Item()` leaves it: every item holds the vertex
`vertex_t()`; the expiry times are `t`. -/
def cold_cache (t : Nat) : Reader := ⟨fun _ => ⟨vertex_t.zero, t⟩, 0⟩

/-- The surroundings of the examples with caching off, in the shape of
`cache_env`. -/
def plain_env : DynEnv (List (Nat × Nat)) := ⟨block_malloc, fun _ => 0, 120000000, false⟩

/-- A timer that advances by fifty microseconds per reading, a lease of one
hundred microseconds, caching on. -/
def tick_env : DynEnv (List (Nat × Nat)) := ⟨block_malloc, fun n => 50 * n, 100, true⟩

/-- The cache of the dynamic build after `insert` of a vertex with the key
`(0, 50000, IN)`, whose entry is entry 0 under `demo_hash`, and `invalidate` of
that key. -/
def demo_cached : Reader :=
  RDMA_Cache.invalidate tick_env demo_hash
    (RDMA_Cache.insert tick_env demo_hash (cold_cache 0) ⟨⟨0, 50000, IN⟩, ⟨3, 0, 0⟩⟩)
    ⟨0, 50000, IN⟩

/-! ## Remote reads of the static build, and the registered region -/

/-- The registered region of the server `peer` as a server with `num_slots`
slots addresses it.  The constructor lays `vertices` over the start of the
region and `edges` behind `num_slots` vertices, on every server with its own
`num_slots`.  Slot `i` is at byte `i * sizeof(vertex_t)` for both.  Edge `j` is
read at byte `num_slots * sizeof(vertex_t) + j * sizeof(edge_t)`: that is a
cell of the peer's `edges` when the byte is not below the start of the peer's
edge region, and otherwise four bytes of the peer's vertices, given by
`other`. -/
def remote_view (num_slots : Nat) (peer : GStore) (other : Nat → Nat) : GStore :=
  { peer with edges := fun j =>
      if peer.num_slots * SIZEOF_VERTEX ≤ num_slots * SIZEOF_VERTEX + j * SIZEOF_EDGE then
        peer.edges ((num_slots * SIZEOF_VERTEX + j * SIZEOF_EDGE
          - peer.num_slots * SIZEOF_VERTEX) / SIZEOF_EDGE)
      else other (num_slots * SIZEOF_VERTEX + j * SIZEOF_EDGE) }

/-- Method `get_vertex_remote(tid, key)` of the static build. -/
def get_vertex_remote_static (caching : Bool) (R : RdmaEnv) (hash_u64 : Nat → Nat)
    (rd : Reader) (key : ikey_t) : Outcome (vertex_t × Reader) :=
  let bucket_id := key.hash hash_u64 % R.num_buckets
  if !R.global_use_rdma then .abort
  else
    match RDMA_Cache.lookup_static caching hash_u64 rd key with
    | some vert => .ok (vert, rd)
    | none =>
      (get_vertex_remote_loop R key (R.peer.last_ext + 1) bucket_id).bind fun r =>
        match r with
        | some v => .ok (v, RDMA_Cache.insert_static caching hash_u64 rd v)
        | none => .ok (vertex_t.zero, rd)

/-- Method `rdma_get_edges(tid, dst_sid, v)` of the static build: the edges of
`v`, without a size flag. -/
def rdma_get_edges_static (R : RdmaEnv) (v : vertex_t) : Outcome (List Nat) :=
  if !R.global_use_rdma then .abort
  else if ¬ (v.ptr.size * SIZEOF_EDGE < R.buffer_size) then .abort
  else .ok (R.peer.read_edges v.ptr.off v.ptr.size)

/-- Method `get_edges_remote(tid, vid, d, pid, &sz)` of the static build: the
size written to `sz`, the buffer returned (`none` for `NULL`), and the state of
the reader. -/
def get_edges_remote_static (caching : Bool) (R : RdmaEnv) (hash_u64 : Nat → Nat)
    (rd : Reader) (vid d pid : Nat) : Outcome (Nat × Option (List Nat) × Reader) :=
  (ikey_t.make vid pid d).bind fun key =>
  (get_vertex_remote_static caching R hash_u64 rd key).bind fun r =>
    if r.1.key.is_empty then .ok (0, none, r.2)
    else
      (rdma_get_edges_static R r.1).bind fun edge_ptr =>
        .ok (r.1.ptr.size, some edge_ptr, r.2)

/-- Empty data slots have empty pointers. -/
def BlankPtr (g : GStore) : Prop :=
  ∀ c j, c < g.num_buckets + g.num_buckets_ext → j < ASSOCIATIVITY - 1 →
    g.key_at c j = ikey_t.zero → (g.vertices (c * ASSOCIATIVITY + j)).ptr = iptr_t.zero

/-- What a remote read of a server takes from its surroundings when the reading
server has `num_slots` slots and `num_buckets` main buckets, with a buffer of
1000 bytes. -/
def view_rdma (num_slots num_buckets : Nat) (peer : GStore) : RdmaEnv :=
  ⟨true, 1000, num_buckets, remote_view num_slots peer fun _ => 0⟩

/-- Two value lists for the examples of the static build. -/
def demo_puts : List Put := [⟨131072, 3, OUT, [131073, 131074]⟩, ⟨131073, 3, IN, [131072]⟩]

/-- The demo store after `refresh()` and the blocks of `demo_puts`. -/
def demo_lists : GStore :=
  (insert_lists demo_hash (refresh demo_store) demo_puts).get (refresh demo_store)

/-! ## Attribute values -/

/-- An attribute value `attr_t`, a variant of `int`, `float` and `double`:
an `int` as an integer, a `float` and a `double` as the 32 and 64 bits that
represent them. -/
inductive attr_t where
  | int (v : Int) : attr_t
  | float (bits : Nat) : attr_t
  | double (bits : Nat) : attr_t
deriving DecidableEq, Repr

/-- What the store takes from `variant.hpp`, which is not among the sources: the
type tags `INT_t`, `FLOAT_t` and `DOUBLE_t`, the visitor `get_type`, the
function `get_sizeof`, and the value of a default-constructed `attr_t`. -/
structure Variant where
  INT_t : Nat
  FLOAT_t : Nat
  DOUBLE_t : Nat
  get_type : attr_t → Nat
  get_sizeof : Nat → Nat
  dflt : attr_t

/-- The `int` that the 32 bits of an edge cell represent. -/
def to_int32 (c : Nat) : Int :=
  if c % 2 ^ 32 < 2 ^ 31 then (c % 2 ^ 32 : Nat) else ((c % 2 ^ 32 : Nat) : Int) - 2 ^ 32

/-- The `switch (v.ptr.type)` of `get_vertex_attr_local` and
`get_vertex_attr_remote` on the cells of `edges` from index `off`: the value
assigned to `r`, which stays as constructed in the `default` case. -/
def read_attr (V : Variant) (edges : Nat → Nat) (off type : Nat) : attr_t :=
  if type = V.INT_t then .int (to_int32 (edges off))
  else if type = V.FLOAT_t then .float (edges off % 2 ^ 32)
  else if type = V.DOUBLE_t then .double (edges off % 2 ^ 32 + 2 ^ 32 * (edges (off + 1) % 2 ^ 32))
  else V.dflt

/-- Method `get_vertex_attr_local(tid, vid, d, pid, has_value)`: the value
returned and the final `has_value`. -/
def get_vertex_attr_local (V : Variant) (hash_u64 : Nat → Nat) (g : GStore) (vid d pid : Nat) :
    Outcome (attr_t × Bool) :=
  (ikey_t.make vid pid d).bind fun key =>
  (get_vertex_local hash_u64 g key).bind fun v =>
    if v.key.is_empty then .ok (V.dflt, false)
    else .ok (read_attr V g.edges v.ptr.off v.ptr.type, true)

/-- Method `get_vertex_attr_remote(tid, vid, d, pid, has_value)` of the static
build, on the server with the store `g`: the value returned, the final
`has_value`, and the state of the cache.  The `switch` reads the array `edges`
of the reading server at the index `r_off`. -/
def get_vertex_attr_remote_static (V : Variant) (caching : Bool) (R : RdmaEnv)
    (hash_u64 : Nat → Nat) (g : GStore) (rd : Reader) (vid d pid : Nat) :
    Outcome (attr_t × Bool × Reader) :=
  (ikey_t.make vid pid d).bind fun key =>
  (get_vertex_remote_static caching R hash_u64 rd key).bind fun r =>
    if r.1.key.is_empty then .ok (V.dflt, false, r.2)
    else
      (rdma_get_edges_static R r.1).bind fun _ =>
        let r_off := (g.num_slots * SIZEOF_VERTEX + r.1.ptr.off * SIZEOF_EDGE) % 2 ^ 64
        .ok (read_attr V g.edges r_off r.1.ptr.type, true, r.2)

/-- Method `get_vertex_attr_remote(tid, vid, d, pid, has_value)` of the dynamic
build, on the server with the store `g`. -/
def get_vertex_attr_remote {σ : Type} (E : DynEnv σ) (V : Variant) (R : RdmaEnv)
    (hash_u64 : Nat → Nat) (g : GStore) (fuel : Nat) (rd : Reader) (vid d pid : Nat) :
    Outcome (attr_t × Bool × Reader) :=
  (ikey_t.make vid pid d).bind fun key =>
  (get_vertex_remote E R hash_u64 rd key).bind fun r =>
    if r.1.key.is_empty then .ok (V.dflt, false, r.2)
    else
      (rdma_get_edges E R r.1).bind fun edge_ptr =>
      (get_edges_remote_loop E R hash_u64 key fuel r.1 edge_ptr r.2 0).bind fun x =>
        let r_off := (g.num_slots * SIZEOF_VERTEX + x.1.ptr.off * SIZEOF_EDGE) % 2 ^ 64
        .ok (read_attr V g.edges r_off x.1.ptr.type, true, x.2.2.1)

/-- The `switch (type)` of `insert_vertex_attr`: the value is stored over the
cells from `off`; `boost::get` of another alternative than the one held throws. -/
def write_attr (V : Variant) (g : GStore) (off type : Nat) (v : attr_t) : Outcome GStore :=
  if type = V.INT_t then
    match v with
    | .int i => .ok (g.set_edge off (i % 2 ^ 32).toNat)
    | _ => .abort
  else if type = V.FLOAT_t then
    match v with
    | .float b => .ok (g.set_edge off (b % 2 ^ 32))
    | _ => .abort
  else if type = V.DOUBLE_t then
    match v with
    | .double b => .ok ((g.set_edge off (b % 2 ^ 32)).set_edge (off + 1) (b / 2 ^ 32 % 2 ^ 32))
    | _ => .abort
  else .ok g

/-- The body of the loop of `insert_vertex_attr(attrs, tid)` in the static
build, for the attribute triple `(s, a, v)`. -/
def insert_vertex_attr (V : Variant) (hash_u64 : Nat → Nat) (g : GStore) (s a : Nat)
    (v : attr_t) : Outcome GStore :=
  (ikey_t.make s a OUT).bind fun key =>
  let type := V.get_type v
  let sz := ((V.get_sizeof type + 2 ^ 64 - 1) % 2 ^ 64 / SIZEOF_EDGE + 1) % 2 ^ 64
  (alloc_edges g sz).bind fun r1 =>
  (insert_key hash_u64 r1.2 key true).bind fun r2 =>
  (iptr_t.make sz r1.1 type).bind fun ptr =>
    write_attr V (r2.2.set_ptr r2.1 ptr) r1.1 type v

/-- The tags and sizes for the examples: `INT_t = 1`, `FLOAT_t = 2`,
`DOUBLE_t = 3`, four bytes for an `int` and a `float`, eight for a `double`, and
the `int` zero as the default value. -/
def demo_variant : Variant :=
  { INT_t := 1, FLOAT_t := 2, DOUBLE_t := 3
    get_type := fun v =>
      match v with
      | .int _ => 1
      | .float _ => 2
      | .double _ => 3
    get_sizeof := fun t => if t = 3 then 8 else 4
    dflt := .int 0 }

/-- A store of 16 slots: one main bucket, one indirect bucket, 1000 edge cells. -/
def small_store : GStore := GStore.init (fun _ => vertex_t.zero) (fun _ => 0) 16 1 1 1000

/-- The small store holding the attribute `(131072, 3) = 42`. -/
def attr_peer : GStore :=
  (insert_vertex_attr demo_variant demo_hash (refresh small_store) 131072 3 (.int 42)).get
    (refresh small_store)

/-- What the examples report of an attribute read: the value and `has_value`. -/
def attr_report (x : Outcome (attr_t × Bool × Reader)) : Outcome (attr_t × Bool) :=
  x.bind fun r => .ok (r.1, r.2.1)

/-! ## The ring buffers of `RDMA_Adaptor` (`core/rdma_adaptor.hpp`)

Memory is a map from byte addresses to bytes.  `Mem`, which lays out the rings,
the head words and the buffers in the registered region, is not among the
sources: every ring is a state of its own, with addresses counted from the
start of the ring. -/

/-- The block write of which the stores of `send` and `fetch` are instances: the
`k` bytes `f 0, …, f (k - 1)` go to the addresses from `p`. -/
def blit (m : Nat → Nat) (p k : Nat) (f : Nat → Nat) : Nat → Nat :=
  fun a => if p ≤ a ∧ a < p + k then f (a - p) else m a

/-- Byte `i` of a 64-bit word, least significant first. -/
def u64_byte (v i : Nat) : Nat := v / 256 ^ i % 256

/-- The assignment `*(uint64_t *)(m + p) = v`. -/
def store64 (m : Nat → Nat) (p v : Nat) : Nat → Nat := blit m p 8 (u64_byte v)

/-- The value of the `n` bytes from address `p`, least significant first. -/
def load_le (m : Nat → Nat) : Nat → Nat → Nat
  | _, 0 => 0
  | p, n + 1 => m p % 256 + 256 * load_le m (p + 1) n

/-- The read `*(uint64_t *)(m + p)`. -/
def load64 (m : Nat → Nat) (p : Nat) : Nat := load_le m p 8

/-- The call `memcpy(m + p, data, data.length)`. -/
def mem_write (m : Nat → Nat) (p : Nat) (data : List Nat) : Nat → Nat :=
  blit m p data.length fun i => data.getD i 0

/-- The call `memset(m + p, 0, k)`. -/
def mem_zero (m : Nat → Nat) (p k : Nat) : Nat → Nat := blit m p k fun _ => 0

/-- The bytes that `result.append(m + p, k)` appends. -/
def mem_read (m : Nat → Nat) (p k : Nat) : List Nat := (List.range k).map fun i => m (p + i)

/-- The call `RdmaWrite(tid, dst_sid, src + s, k, off)`, as a copy of `k` bytes
of the local buffer to the memory of the destination. -/
def RdmaWrite (dst : Nat → Nat) (off : Nat) (src : Nat → Nat) (s k : Nat) : Nat → Nat :=
  blit dst off k fun i => src (s + i)

/-- Size of `uint64_t` in bytes. -/
def SIZEOF_U64 : Nat := 8

/-- Method `ceil(val, alignment)` of `RDMA_Adaptor`, in 64-bit arithmetic.  Every
call passes `sizeof(uint64_t)`, so the assertion `alignment != 0` holds. -/
def ceil (val alignment : Nat) : Nat :=
  if val % alignment = 0 then val else (val - val % alignment + alignment) % 2 ^ 64

/-- The fields of an `RDMA_Adaptor` that `send`, `fetch` and `recv` use, with the
sizes that `Mem` gives, and what the sending thread finds in its memory behind
a string it passes to `send`: `beyond i` is the byte `i` bytes after the start
of the string, for `i` past its end and its terminating zero.  The source does
not determine these bytes. -/
structure Adaptor where
  sid : Nat
  num_servers : Nat
  init : Bool
  rbf_sz : Nat
  buf_sz : Nat
  beyond : Nat → Nat

/-- One ring buffer with the words that describe it: the bytes from the start of
the ring in the memory of the reader (`mem->ring(tid, dst_sid)`), the `tail` that
the writer keeps in `rmetas`, the `head` that the reader keeps in `lmetas`, the
head word `local_ring_head` on the reader, the head word `remote_ring_head` on
the writer, and the buffer `mem->buffer(tid)` of the writing thread. -/
structure Ring where
  rbf : Nat → Nat
  tail : Nat
  head : Nat
  local_head : Nat
  remote_head : Nat
  buf : Nat → Nat

/-- Method `rbf_full(tid, dst_sid, dst_tid, msg_sz)`. -/
def rbf_full (A : Adaptor) (r : Ring) (msg_sz : Nat) : Bool :=
  decide (A.rbf_sz < ((r.tail + 2 ^ 64 - r.remote_head) % 2 ^ 64 + msg_sz) % 2 ^ 64)

/-- The byte that `data + i` designates for `data = str.c_str()`: a byte of the
string, the terminating zero, or what lies behind it in memory. -/
def c_str (str : List Nat) (beyond : Nat → Nat) (i : Nat) : Nat :=
  if i < str.length then str.getD i 0 else if i = str.length then 0 else beyond i

/-- The data part of `send` into a local ring: one `memcpy`, or two when the
data run over the end of the ring, `memcpy(ptr + off % rbf_sz, data, _sz)` and
`memcpy(ptr, data + _sz, data_sz - _sz)`.  With an empty string and `off` at the
end of the ring the second branch is taken with `_sz` above `data_sz`; nothing
in the code stops there: the first `memcpy` copies `_sz` bytes, which it finds
behind the string, and the length of the second is `data_sz - _sz` in 64-bit
arithmetic. -/
def send_data (rbf_sz : Nat) (m : Nat → Nat) (off : Nat) (str : List Nat)
    (beyond : Nat → Nat) : Nat → Nat :=
  if off / rbf_sz = (off + str.length + 2 ^ 64 - 1) % 2 ^ 64 / rbf_sz then
    mem_write m (off % rbf_sz) str
  else
    let _sz := rbf_sz - off % rbf_sz
    blit (blit m (off % rbf_sz) _sz (c_str str beyond)) 0
      ((str.length + 2 ^ 64 - _sz) % 2 ^ 64) fun i => c_str str beyond (_sz + i)

/-- Method `send(tid, dst_sid, dst_tid, str)` on the ring from the server of the
adaptor to the thread `dst_tid` of the server `dst_sid`: the value returned and
the new state of the ring. -/
def RDMA_Adaptor.send (A : Adaptor) (dst_sid : Nat) (r : Ring) (str : List Nat) :
    Outcome (Bool × Ring) :=
  if !A.init then .abort
  else
    let data_sz := str.length
    let msg_sz := (SIZEOF_U64 + ceil data_sz SIZEOF_U64 + SIZEOF_U64) % 2 ^ 64
    if ¬ msg_sz < A.rbf_sz then .abort
    else if rbf_full A r msg_sz then .ok (false, r)
    else
      let off := r.tail
      let r1 : Ring := { r with tail := (r.tail + msg_sz) % 2 ^ 64 }
      if A.sid = dst_sid then
        let m1 := store64 r.rbf (off % A.rbf_sz) data_sz
        let off1 := (off + SIZEOF_U64) % 2 ^ 64
        let m2 := send_data A.rbf_sz m1 off1 str A.beyond
        let off2 := (off1 + ceil data_sz SIZEOF_U64) % 2 ^ 64
        .ok (true, { r1 with rbf := store64 m2 (off2 % A.rbf_sz) data_sz })
      else
        if ¬ msg_sz < A.buf_sz then .abort
        else
          let b1 := store64 r.buf 0 data_sz
          let b2 := mem_write b1 SIZEOF_U64 str
          let b3 := store64 b2 (SIZEOF_U64 + ceil data_sz SIZEOF_U64) data_sz
          if off / A.rbf_sz = (off + msg_sz + 2 ^ 64 - 1) % 2 ^ 64 / A.rbf_sz then
            .ok (true, { r1 with rbf := RdmaWrite r.rbf (off % A.rbf_sz) b3 0 msg_sz, buf := b3 })
          else
            let _sz := A.rbf_sz - off % A.rbf_sz
            .ok (true, { r1 with
              rbf := RdmaWrite (RdmaWrite r.rbf (off % A.rbf_sz) b3 0 _sz) 0 b3 _sz
                ((msg_sz + 2 ^ 64 - _sz) % 2 ^ 64)
              buf := b3 })

/-- Method `check(tid, dst_sid)`. -/
def RDMA_Adaptor.check (A : Adaptor) (r : Ring) : Bool :=
  decide (load64 r.rbf (r.head % A.rbf_sz) ≠ 0)

/-- The loop `while (*footer != data_sz)` of `fetch`, with the assertion in its
body; one unit of fuel per round.  Nothing else writes while the model reads, so
a footer that differs is read again as it is. -/
def wait_footer (m : Nat → Nat) (fpos data_sz : Nat) : Nat → Outcome Unit
  | 0 => .nofuel
  | fuel + 1 =>
    if load64 m fpos = data_sz then .ok ()
    else if load64 m fpos = 0 ∨ load64 m fpos = data_sz then wait_footer m fpos data_sz fuel
    else .abort

/-- The copy of the data in `fetch`, with the cleaning of the data: the string
and the new memory.  In the second branch a `data_sz` below `end` makes the
length of the first `append` negative: in `uint64_t` it is above `max_size()`,
and `append` throws `std::length_error`, which nothing catches. -/
def fetch_data (m : Nat → Nat) (start end_ data_sz : Nat) : Outcome (List Nat × (Nat → Nat)) :=
  if start < end_ then
    .ok (mem_read m start data_sz, mem_zero m start (ceil data_sz SIZEOF_U64))
  else if data_sz < end_ then .abort
  else
    .ok (mem_read m start (data_sz - end_) ++ mem_read m 0 end_,
      mem_zero (mem_zero m start (data_sz - end_)) 0 (ceil end_ SIZEOF_U64))

/-- Method `fetch(tid, dst_sid)` on the ring written by the server `dst_sid`:
the string returned and the new state of the ring.  The head word of the writer
is written by `RdmaWrite` or directly; both are the same assignment here. -/
def RDMA_Adaptor.fetch (A : Adaptor) (fuel : Nat) (r : Ring) : Outcome (List Nat × Ring) :=
  let hpos := r.head % A.rbf_sz
  let data_sz := load64 r.rbf hpos
  let m1 := store64 r.rbf hpos 0
  let to_footer := (SIZEOF_U64 + ceil data_sz SIZEOF_U64) % 2 ^ 64
  let fpos := (r.head + to_footer) % 2 ^ 64 % A.rbf_sz
  (wait_footer m1 fpos data_sz fuel).bind fun _ =>
    let m2 := store64 m1 fpos 0
    let start := (r.head + SIZEOF_U64) % 2 ^ 64 % A.rbf_sz
    let end_ := ((r.head + SIZEOF_U64) % 2 ^ 64 + data_sz) % 2 ^ 64 % A.rbf_sz
    (fetch_data m2 start end_ data_sz).bind fun x =>
      let head2 := (r.head + (2 * SIZEOF_U64 + ceil data_sz SIZEOF_U64) % 2 ^ 64) % 2 ^ 64
      let threshold := A.rbf_sz / 8
      if threshold < (head2 + 2 ^ 64 - r.local_head) % 2 ^ 64 then
        .ok (x.1, { r with rbf := x.2, head := head2, local_head := head2, remote_head := head2 })
      else .ok (x.1, { r with rbf := x.2, head := head2 })

/-- The rings of one reading thread, by the server that writes them, and its
round-robin counter `schedulers[tid].rr_cnt`. -/
structure Rings where
  ring : Nat → Ring
  rr_cnt : Nat

/-- Method `recv(tid)`; one unit of fuel per round of `while (true)`, and `spin`
units for the loop of each `fetch`. -/
def RDMA_Adaptor.recv (A : Adaptor) (spin : Nat) : Nat → Rings → Outcome (List Nat × Rings)
  | 0, _ => .nofuel
  | fuel + 1, t =>
    if !A.init then .abort
    else
      let dst_sid := t.rr_cnt % A.num_servers
      let t1 : Rings := { t with rr_cnt := (t.rr_cnt + 1) % 2 ^ 64 }
      if RDMA_Adaptor.check A (t.ring dst_sid) then
        (RDMA_Adaptor.fetch A spin (t.ring dst_sid)).bind fun x =>
          .ok (x.1, { t1 with ring := fun i => if i = dst_sid then x.2 else t1.ring i })
      else RDMA_Adaptor.recv A spin fuel t1

/-- A ring of zero bytes with all its words at `pos`. -/
def Ring.at_pos (pos : Nat) : Ring := ⟨fun _ => 0, pos, pos, pos, pos, fun _ => 0⟩

/-- An adaptor of server 0 in a cluster of two, with rings of `rbf_sz` bytes
and buffers of 4096 bytes; the memory behind the strings it sends holds zero
bytes. -/
def demo_adaptor (rbf_sz : Nat) : Adaptor := ⟨0, 2, true, rbf_sz, 4096, fun _ => 0⟩

/-- The adaptor of server 1 in the same cluster. -/
def peer_adaptor (rbf_sz : Nat) : Adaptor := ⟨1, 2, true, rbf_sz, 4096, fun _ => 0⟩

/-- The adaptor of server 0 when the memory behind the strings it sends holds
64-bit words of value 8. -/
def used_adaptor (rbf_sz : Nat) : Adaptor :=
  ⟨0, 2, true, rbf_sz, 4096, fun i => if i % 8 = 0 then 8 else 0⟩

/-- What the examples report of a `send`: the value returned and the new tail. -/
def send_report (x : Outcome (Bool × Ring)) : Outcome (Bool × Nat) :=
  x.bind fun r => .ok (r.1, r.2.tail)

/-- A `send` by the adaptor `W` followed by a `fetch` by the adaptor `A` on the
same ring: the value of `send` and the string of `fetch`. -/
def send_fetch (W A : Adaptor) (r : Ring) (str : List Nat) : Outcome (Bool × List Nat) :=
  (RDMA_Adaptor.send W A.sid r str).bind fun x =>
  (RDMA_Adaptor.fetch A 1 x.2).bind fun y => .ok (x.1, y.1)

/-- The payload of the examples: the bytes `1, 2, …, n`. -/
def demo_payload (n : Nat) : List Nat := (List.range n).map fun i => i + 1

/-! ## Frames in a ring -/

/-- The memory `m2` is `m` with the `k` bytes `f 0, …, f (k - 1)` written from
position `a` of the ring on, as seen at the positions `w, …, w + n - 1`; the
byte of position `x` is at address `x % n`. -/
def Writes (n w : Nat) (m m2 : Nat → Nat) (a k : Nat) (f : Nat → Nat) : Prop :=
  ∀ x, w ≤ x → x < w + n → m2 (x % n) = if a ≤ x ∧ x < a + k then f (x - a) else m (x % n)

/-- The size of the frame of a string of `len` bytes: header, data padded to a
multiple of eight, footer. -/
def frame_sz (len : Nat) : Nat := 16 + (len + 7) / 8 * 8

/-- The frame of the string `s` lies at position `a` of a ring of `n` bytes:
the bytes of the header word and of the footer word are those of the length, and
the bytes of the string follow the header. -/
def Frame (n : Nat) (m : Nat → Nat) (a : Nat) (s : List Nat) : Prop :=
  (∀ i, i < 8 → m ((a + i) % n) = u64_byte s.length i) ∧
  (∀ i, i < s.length → m ((a + 8 + i) % n) = s.getD i 0) ∧
  (∀ i, i < 8 → m ((a + 8 + (s.length + 7) / 8 * 8 + i) % n) = u64_byte s.length i)

/-- The bytes `F 0, F 1, …` are a frame of the string `s`, whatever the padding
holds. -/
structure FrameFn (s : List Nat) (F : Nat → Nat) : Prop where
  header : ∀ i, i < 8 → F i = u64_byte s.length i
  data : ∀ i, i < s.length → F (8 + i) = s.getD i 0
  footer : ∀ i, i < 8 → F (8 + (s.length + 7) / 8 * 8 + i) = u64_byte s.length i

/-- The frames of the strings of `q` lie one behind the other from position `a`
to position `b` of the ring; none of the strings is empty. -/
def Frames (n : Nat) (m : Nat → Nat) : List (List Nat) → Nat → Nat → Prop
  | [], a, b => a = b
  | s :: q, a, b => s ≠ [] ∧ Frame n m a s ∧ Frames n m q (a + frame_sz s.length) b

/-- A ring of `n` bytes between its writer and its reader, holding the strings
of `q` that were sent and not yet fetched: the size and the head are multiples
of eight, the published head is behind the head by at most an eighth of the
ring, the two head words agree, the tail is at most one ring ahead of the
published head, and the frames of `q` lie from the head to the tail. -/
structure RingInv (n : Nat) (r : Ring) (q : List (List Nat)) : Prop where
  pos : 0 < n
  al : 8 ∣ n
  hal : 8 ∣ r.head
  pub : r.remote_head ≤ r.head
  lh : r.local_head = r.remote_head
  lag : r.head ≤ r.remote_head + n / 8
  room : r.tail ≤ r.remote_head + n
  frames : Frames n r.rbf q r.head r.tail

/-- The calls `send(tid, dst_sid, dst_tid, s)` for the strings of a list, one
after the other on the same ring: the values returned and the last state. -/
def sends (W : Adaptor) (dst_sid : Nat) : Ring → List (List Nat) → Outcome (List Bool × Ring)
  | r, [] => .ok ([], r)
  | r, s :: ms => (RDMA_Adaptor.send W dst_sid r s).bind fun x =>
    (sends W dst_sid x.2 ms).bind fun y => .ok (x.1 :: y.1, y.2)

/-- The first `k` calls of `fetch` on the same ring, one after the other: the
strings returned and the last state. -/
def fetches (A : Adaptor) (spin : Nat) : Nat → Ring → Outcome (List (List Nat) × Ring)
  | 0, r => .ok ([], r)
  | k + 1, r => (RDMA_Adaptor.fetch A spin r).bind fun x =>
    (fetches A spin k x.2).bind fun y => .ok (x.1 :: y.1, y.2)

/-- The ring of the examples after the sends of a payload of 9 bytes and of one
of 60 bytes by server 1 into an empty ring of 128 bytes on server 0. -/
def fifo_ring : Ring :=
  ((sends (peer_adaptor 128) 0 (Ring.at_pos 0) [demo_payload 9, demo_payload 60]).get
    ([], Ring.at_pos 0)).2

/-- The ring after `k` rounds of a `send` of eight bytes followed by a `fetch`. -/
def round_trips (W A : Adaptor) : Nat → Ring → Outcome Ring
  | 0, r => .ok r
  | k + 1, r => (RDMA_Adaptor.send W A.sid r (demo_payload 8)).bind fun x =>
    (RDMA_Adaptor.fetch A 1 x.2).bind fun y => round_trips W A k y.2

/-- The positions of a ring: tail, head and published head. -/
def Ring.positions (r : Ring) : Nat × Nat × Nat := (r.tail, r.head, r.remote_head)

/-! ## Reached index states and the reads of a lookup -/

/-- The store states reached from `refresh()` by insert operations: successful
`insert_key` calls, and between them writes that leave the index region alone
(value pointers, edges, the cursor of the entry region). -/
inductive Built (hash_u64 : Nat → Nat) (g0 : GStore) : GStore → Prop
  | init : Built hash_u64 g0 (refresh g0)
  | insert {g g2 : GStore} (key : ikey_t) (check_dup : Bool) (s : Nat) :
      Built hash_u64 g0 g → insert_key hash_u64 g key check_dup = .ok (s, g2) →
      Built hash_u64 g0 g2
  | write {g g2 : GStore} : Built hash_u64 g0 g → SameKeys g g2 → Built hash_u64 g0 g2

/-- Every indirect bucket in use is the target of exactly one chain link. -/
def Linked (g : GStore) : Prop :=
  ∀ e, g.num_buckets ≤ e → e < g.used →
    ∃ b, b < g.used ∧ g.link b ≠ ikey_t.zero ∧ (g.link b).vid = e ∧
      ∀ c, c < g.used → g.link c ≠ ikey_t.zero → (g.link c).vid = e → c = b

/-- The slots that the data part of the `for` loop of `get_vertex_local` reads:
from `slot_id` up to the first hit, at most `n` of them. -/
def find_in_bucket_reads (g : GStore) (key : ikey_t) : Nat → Nat → List Nat
  | 0, _ => []
  | n + 1, slot_id =>
    if (g.vertices slot_id).key = key then [slot_id]
    else slot_id :: find_in_bucket_reads g key n (slot_id + 1)

/-- The buckets that the `while (true)` loop of `get_vertex_local` visits, each
with the slots read there, in order; one unit of fuel per bucket. -/
def get_slot_local_visits (key : ikey_t) (g : GStore) : Nat → Nat → List (Nat × List Nat)
  | 0, _ => []
  | fuel + 1, bucket_id =>
    let reads := find_in_bucket_reads g key (ASSOCIATIVITY - 1) (bucket_id * ASSOCIATIVITY)
    match find_in_bucket g key (ASSOCIATIVITY - 1) (bucket_id * ASSOCIATIVITY) with
    | some _ => [(bucket_id, reads)]
    | none =>
      let slot_id := bucket_id * ASSOCIATIVITY + (ASSOCIATIVITY - 1)
      if (g.vertices slot_id).key.is_empty then [(bucket_id, reads ++ [slot_id])]
      else (bucket_id, reads ++ [slot_id])
        :: get_slot_local_visits key g fuel (g.vertices slot_id).key.vid

/-- The eighth key of the main bucket of `demo_chain_keys`. -/
def demo_eighth_key : ikey_t := ⟨131107, 3, OUT⟩

/-- The result of inserting the eighth key into the demo store whose main
bucket is full: the slot id and the store with one indirect bucket. -/
def demo_grown : Nat × GStore :=
  (insert_key demo_hash demo_full_store demo_eighth_key true).get (0, demo_full_store)

/-! ## Ring states reached by sends and fetches -/

/-- The loop `for (dst_sid = 0; dst_sid < num_servers; dst_sid++)` of `tryrecv`,
with `k` rounds left: the value returned, the string behind the reference `str`
and the rings. -/
def tryrecv_loop (A : Adaptor) (spin : Nat) (t : Rings) (str : List Nat) :
    Nat → Nat → Outcome (Bool × List Nat × Rings)
  | 0, _ => .ok (false, str, t)
  | k + 1, dst_sid =>
    if RDMA_Adaptor.check A (t.ring dst_sid) then
      (RDMA_Adaptor.fetch A spin (t.ring dst_sid)).bind fun x =>
        .ok (true, x.1, { t with ring := fun i => if i = dst_sid then x.2 else t.ring i })
    else tryrecv_loop A spin t str k (dst_sid + 1)

/-- Method `tryrecv(tid, str)`; `spin` units of fuel for the loop of `fetch`. -/
def RDMA_Adaptor.tryrecv (A : Adaptor) (spin : Nat) (t : Rings) (str : List Nat) :
    Outcome (Bool × List Nat × Rings) :=
  if !A.init then .abort else tryrecv_loop A spin t str A.num_servers 0

/-- A `send` of `str` by the adaptor `W` into a ring of the reader `A`, whose
other rings are empty, followed by a `tryrecv` of the reader: the two values
returned, the new tail and the head of the ring after both. -/
def send_tryrecv (W A : Adaptor) (r : Ring) (str : List Nat) : Outcome (Bool × Bool × Nat × Nat) :=
  (RDMA_Adaptor.send W A.sid r str).bind fun x =>
  (RDMA_Adaptor.tryrecv A 1 ⟨fun i => if i = W.sid then x.2 else Ring.at_pos 0, 0⟩ []).bind
    fun y => .ok (x.1, y.1, x.2.tail, (y.2.2.ring W.sid).head)

/-- The states of one ring reached from the initial state, all bytes and all
words zero, by calls of `send` of the writer `W` and calls of `fetch` of the
reader `A`.  `fetch` is private to the adaptor and is called by `recv` and
`tryrecv` after `check` has returned true.  The 64-bit tail is away from
wrapping. -/
inductive Reached (W A : Adaptor) (dst : Nat) : Ring → Prop
  | init (buf : Nat → Nat) : Reached W A dst ⟨fun _ => 0, 0, 0, 0, 0, buf⟩
  | send {r r2 : Ring} (s : List Nat) (b : Bool) : Reached W A dst r →
      s.length + 24 < 2 ^ 64 → r.tail + 2 * W.rbf_sz < 2 ^ 64 →
      RDMA_Adaptor.send W dst r s = .ok (b, r2) → Reached W A dst r2
  | fetch {r r2 : Ring} (s : List Nat) (fuel : Nat) : Reached W A dst r →
      RDMA_Adaptor.check A r = true → RDMA_Adaptor.fetch A fuel r = .ok (s, r2) →
      Reached W A dst r2

/-- The states among those of `Reached` on the way to which no `send` put the
empty string at the end of a local ring, the one case in which the data part of
`send` reads behind its string. -/
inductive ReachedAway (W A : Adaptor) (dst : Nat) : Ring → Prop
  | init (buf : Nat → Nat) : ReachedAway W A dst ⟨fun _ => 0, 0, 0, 0, 0, buf⟩
  | send {r r2 : Ring} (s : List Nat) (b : Bool) : ReachedAway W A dst r →
      s.length + 24 < 2 ^ 64 → r.tail + 2 * W.rbf_sz < 2 ^ 64 →
      (W.sid = dst → s = [] → (r.tail + 8) % W.rbf_sz ≠ 0) →
      RDMA_Adaptor.send W dst r s = .ok (b, r2) → ReachedAway W A dst r2
  | fetch {r r2 : Ring} (s : List Nat) (fuel : Nat) : ReachedAway W A dst r →
      RDMA_Adaptor.check A r = true → RDMA_Adaptor.fetch A fuel r = .ok (s, r2) →
      ReachedAway W A dst r2

/-- The ring after a `send` that returns, whatever it returned. -/
def sent_ring (W : Adaptor) (r : Ring) (s : List Nat) : Ring :=
  ((RDMA_Adaptor.send W W.sid r s).get (false, Ring.at_pos 0)).2

/-- The ring after a `fetch` that returns. -/
def fetched_ring (A : Adaptor) (r : Ring) : Ring :=
  ((RDMA_Adaptor.fetch A 1 r).get ([], Ring.at_pos 0)).2

/-- A local ring of 56 bytes after a `send` of eight bytes, its `fetch`, and a
second `send` of eight bytes, whose frame waits from 24 to 48. -/
def pending_ring : Ring :=
  sent_ring (demo_adaptor 56)
    (fetched_ring (demo_adaptor 56)
      (sent_ring (demo_adaptor 56) (Ring.at_pos 0) (demo_payload 8))) (demo_payload 8)

/-- The same ring after a `send` of the empty string, whose data start at the
end of the ring. -/
def wiped_ring : Ring := sent_ring (demo_adaptor 56) pending_ring []

/-- A local ring of 32 bytes, written by `used_adaptor`, after a `send` of eight
bytes, its `fetch`, a `send` of the empty string at the end of the ring, and a
`fetch`. -/
def overrun_ring : Ring :=
  fetched_ring (used_adaptor 32)
    (sent_ring (used_adaptor 32)
      (fetched_ring (used_adaptor 32)
        (sent_ring (used_adaptor 32) (Ring.at_pos 0) (demo_payload 8))) [])

/-- The invariant of a ring of `n` bytes, empty payloads included: the words
are in order and aligned, and from the head on lie the frames of the strings
`q` that the reader will fetch, up to a position `mid`; either `mid` is the tail
and the ring is zero from the tail to one ring behind the head, or an empty
payload was sent at `mid`, whose header word is zero. -/
structure RingOK (n : Nat) (r : Ring) : Prop where
  pos : 0 < n
  al : 8 ∣ n
  hal : 8 ∣ r.head
  tal : 8 ∣ r.tail
  pub : r.remote_head ≤ r.head
  lh : r.local_head = r.remote_head
  lag : r.head ≤ r.remote_head + n / 8
  room : r.tail ≤ r.remote_head + n
  nowrap : r.tail + n < 2 ^ 64
  live : ∃ q mid, Frames n r.rbf q r.head mid ∧ mid ≤ r.tail ∧
    (mid < r.tail → ∀ i, i < 8 → r.rbf ((mid + i) % n) = 0) ∧
    (mid = r.tail → ∀ x, r.tail ≤ x → x < r.head + n → r.rbf (x % n) = 0)

/-- The ring of the examples after a `send` of eight bytes into the initial
ring of 128 bytes, with the value returned. -/
def demo_ring_sent : Bool × Ring :=
  (RDMA_Adaptor.send (demo_adaptor 128) 0 (Ring.at_pos 0) (demo_payload 8)).get
    (false, Ring.at_pos 0)

/-- The same ring after the `fetch` that follows, with the string returned. -/
def demo_ring_fetched : List Nat × Ring :=
  (RDMA_Adaptor.fetch (demo_adaptor 128) 1 demo_ring_sent.2).get ([], Ring.at_pos 0)

/-! ## The integrity verifier (`gstore_check`)

The checks write their findings to `logstream(LOG_ERROR)`; the embedding returns
the list of these reports in order.  The counters `ivertex_num` and
`nvertex_num`, which feed only the closing message of `gstore_check`, are left
out. -/

/-- The places where a check writes to `logstream(LOG_ERROR)`, by function and
in the order of the source. -/
inductive Site where
  | idx_in_dup_type
  | idx_in_no_type
  | idx_in_no_key
  | idx_out_no_key
  | nt_dup
  | nt_miss
  | np_dup
  | np_miss
  | ver_in_types_dup
  | ver_in_preds_dup
  | ver_in_preds_miss
  | ver_in_types_miss
  | ver_in_no_vid
  | ver_in_so_dup
  | ver_in_so_miss
  | ver_in_vp_dup
  | ver_in_vp_miss
  | ver_out_preds_dup
  | ver_out_preds_miss
  | ver_out_so_dup
  | ver_out_so_miss
  | ver_out_vp_dup
  | ver_out_vp_miss
  | ver_nt_vp_dup
  | ver_nt_vp_miss
  | ver_nt_so_dup
  | ver_nt_so_miss
deriving DecidableEq, Repr

/-- The sites of the three checks that exist only with `VERSATILE`. -/
def Site.versatile : Site → Bool
  | .idx_in_dup_type => false
  | .idx_in_no_type => false
  | .idx_in_no_key => false
  | .idx_out_no_key => false
  | .nt_dup => false
  | .nt_miss => false
  | .np_dup => false
  | .np_miss => false
  | _ => true

/-- One report of a violation: the site, the key under check and the id that
the message names. -/
structure Report where
  site : Site
  key : ikey_t
  value : Nat
deriving DecidableEq, Repr

/-- The cells `res[0], …, res[sz - 1]` that a loop over the result of
`get_edges_local` reads: those behind the pointer, none for `NULL`. -/
def edges_of (r : Nat × Option (List Nat)) : List Nat := r.2.getD []

/-- The loop
`for (...) if (res[j].val == x && !found) found = true;
 else if (res[j].val == x && found) { report; }` over the cells `res`, started
with `found`; `brk` tells whether the report is followed by `break`.  Returns
the final `found` and the reports. -/
def find_dup (x : Nat) (brk : Bool) (e : Report) : List Nat → Bool → Bool × List Report
  | [], found => (found, [])
  | v :: vs, found =>
    if v = x ∧ found = false then find_dup x brk e vs true
    else if v = x ∧ found = true then
      if brk then (found, [e])
      else ((find_dup x brk e vs found).1, e :: (find_dup x brk e vs found).2)
    else find_dup x brk e vs found

/-- The loop over `vres` of `idx_check_indir`. -/
def idx_check_indir_loop (hash_u64 : Nat → Nat) (g : GStore) (key : ikey_t) :
    List Nat → Outcome (List Report)
  | [] => .ok []
  | v :: vs =>
    (get_edges_local hash_u64 g v OUT TYPE_ID).bind fun tres =>
    (if tres.1 ≠ 0 ∧
        (find_dup key.pid false ⟨.idx_in_dup_type, key, key.pid⟩ (edges_of tres) false).1 = false
      then
        (ikey_t.make v key.pid OUT).bind fun k2 =>
        (get_vertex_local hash_u64 g k2).bind fun vx =>
          if vx.key.is_empty then
            .ok [⟨.idx_in_no_type, key, key.pid⟩, ⟨.idx_in_no_key, key, v⟩]
          else .ok []
      else .ok []).bind fun l2 =>
    (idx_check_indir_loop hash_u64 g key vs).bind fun rest =>
      .ok ((find_dup key.pid false ⟨.idx_in_dup_type, key, key.pid⟩ (edges_of tres) false).2
        ++ l2 ++ rest)

/-- Method `idx_check_indir(key, check)`. -/
def idx_check_indir (hash_u64 : Nat → Nat) (g : GStore) (key : ikey_t) (check : Bool) :
    Outcome (List Report) :=
  if !check then .ok []
  else
    (get_edges_local hash_u64 g key.vid key.dir key.pid).bind fun vres =>
      idx_check_indir_loop hash_u64 g key (edges_of vres)

/-- The loop over `vres` of `idx_check_outdir`. -/
def idx_check_outdir_loop (hash_u64 : Nat → Nat) (g : GStore) (key : ikey_t) :
    List Nat → Outcome (List Report)
  | [] => .ok []
  | v :: vs =>
    (ikey_t.make v key.pid IN).bind fun k2 =>
    (get_vertex_local hash_u64 g k2).bind fun vx =>
    (idx_check_outdir_loop hash_u64 g key vs).bind fun rest =>
      .ok ((if vx.key.is_empty then [⟨.idx_out_no_key, key, v⟩] else []) ++ rest)

/-- Method `idx_check_outdir(key, check)`. -/
def idx_check_outdir (hash_u64 : Nat → Nat) (g : GStore) (key : ikey_t) (check : Bool) :
    Outcome (List Report) :=
  if !check then .ok []
  else
    (get_edges_local hash_u64 g key.vid key.dir key.pid).bind fun vres =>
      idx_check_outdir_loop hash_u64 g key (edges_of vres)

/-- The loop over `tres` of `nt_check`. -/
def nt_check_loop (hash_u64 : Nat → Nat) (g : GStore) (key : ikey_t) :
    List Nat → Outcome (List Report)
  | [] => .ok []
  | t :: ts =>
    (get_edges_local hash_u64 g 0 IN t).bind fun vres =>
    (nt_check_loop hash_u64 g key ts).bind fun rest =>
      .ok ((find_dup key.vid false ⟨.nt_dup, key, t⟩ (edges_of vres) false).2
        ++ (if (find_dup key.vid false ⟨.nt_dup, key, t⟩ (edges_of vres) false).1 = false
            then [⟨.nt_miss, key, t⟩] else [])
        ++ rest)

/-- Method `nt_check(key, check)`. -/
def nt_check (hash_u64 : Nat → Nat) (g : GStore) (key : ikey_t) (check : Bool) :
    Outcome (List Report) :=
  if !check then .ok []
  else
    (get_edges_local hash_u64 g key.vid key.dir key.pid).bind fun tres =>
      nt_check_loop hash_u64 g key (edges_of tres)

/-- Method `np_check(key, dir, check)`. -/
def np_check (hash_u64 : Nat → Nat) (g : GStore) (key : ikey_t) (dir : Nat) (check : Bool) :
    Outcome (List Report) :=
  if !check then .ok []
  else
    (get_edges_local hash_u64 g 0 dir key.pid).bind fun vres =>
      .ok ((find_dup key.vid true ⟨.np_dup, key, dir⟩ (edges_of vres) false).2
        ++ (if (find_dup key.vid true ⟨.np_dup, key, dir⟩ (edges_of vres) false).1 = false
            then [⟨.np_miss, key, dir⟩] else []))

/-- The loop over `vres` that ends `ver_idx_check_indir` (with `d = OUT`) and
`ver_idx_check_outdir` (with `d = IN`): every vertex of the index is looked up
among all local subjects and objects, and the predicate among the predicates of
the vertex. -/
def ver_idx_loop (hash_u64 : Nat → Nat) (g : GStore) (key : ikey_t) (d : Nat)
    (so_dup so_miss vp_dup vp_miss : Site) : List Nat → Outcome (List Report)
  | [] => .ok []
  | v :: vs =>
    (get_edges_local hash_u64 g 0 IN TYPE_ID).bind fun sores =>
    (get_edges_local hash_u64 g v d PREDICATE_ID).bind fun p2res =>
    (ver_idx_loop hash_u64 g key d so_dup so_miss vp_dup vp_miss vs).bind fun rest =>
      .ok ((find_dup v true ⟨so_dup, key, v⟩ (edges_of sores) false).2
        ++ (if (find_dup v true ⟨so_dup, key, v⟩ (edges_of sores) false).1 = false
            then [⟨so_miss, key, v⟩] else [])
        ++ (find_dup key.pid true ⟨vp_dup, key, v⟩ (edges_of p2res) false).2
        ++ (if (find_dup key.pid true ⟨vp_dup, key, v⟩ (edges_of p2res) false).1 = false
            then [⟨vp_miss, key, v⟩] else [])
        ++ rest)

/-- Method `ver_idx_check_indir(key, check)` (`VERSATILE`). -/
def ver_idx_check_indir (hash_u64 : Nat → Nat) (g : GStore) (key : ikey_t) (check : Bool) :
    Outcome (List Report) :=
  if !check then .ok []
  else
    (get_edges_local hash_u64 g 0 OUT TYPE_ID).bind fun vres =>
    if (find_dup key.pid false ⟨.ver_in_types_dup, key, key.pid⟩ (edges_of vres) false).1 = false
    then
      (get_edges_local hash_u64 g 0 OUT PREDICATE_ID).bind fun pres =>
      (get_edges_local hash_u64 g 0 IN key.pid).bind fun vres2 =>
      (if vres2.1 = 0 then .ok [⟨.ver_in_no_vid, key, key.pid⟩]
        else ver_idx_loop hash_u64 g key OUT .ver_in_so_dup .ver_in_so_miss .ver_in_vp_dup
          .ver_in_vp_miss (edges_of vres2)).bind fun rest =>
        .ok ((find_dup key.pid false ⟨.ver_in_types_dup, key, key.pid⟩ (edges_of vres) false).2
          ++ (find_dup key.pid true ⟨.ver_in_preds_dup, key, key.pid⟩ (edges_of pres) false).2
          ++ (if (find_dup key.pid true ⟨.ver_in_preds_dup, key, key.pid⟩ (edges_of pres)
                false).1 = false
              then [⟨.ver_in_preds_miss, key, key.pid⟩, ⟨.ver_in_types_miss, key, key.pid⟩]
              else [])
          ++ rest)
    else
      .ok (find_dup key.pid false ⟨.ver_in_types_dup, key, key.pid⟩ (edges_of vres) false).2

/-- Method `ver_idx_check_outdir(key, check)` (`VERSATILE`). -/
def ver_idx_check_outdir (hash_u64 : Nat → Nat) (g : GStore) (key : ikey_t) (check : Bool) :
    Outcome (List Report) :=
  if !check then .ok []
  else
    (get_edges_local hash_u64 g 0 OUT PREDICATE_ID).bind fun pres =>
    (get_edges_local hash_u64 g 0 OUT key.pid).bind fun vres =>
    (ver_idx_loop hash_u64 g key IN .ver_out_so_dup .ver_out_so_miss .ver_out_vp_dup
      .ver_out_vp_miss (edges_of vres)).bind fun rest =>
      .ok ((find_dup key.pid true ⟨.ver_out_preds_dup, key, key.pid⟩ (edges_of pres) false).2
        ++ (if (find_dup key.pid true ⟨.ver_out_preds_dup, key, key.pid⟩ (edges_of pres)
              false).1 = false
            then [⟨.ver_out_preds_miss, key, key.pid⟩] else [])
        ++ rest)

/-- Method `ver_nt_check(key, check)` (`VERSATILE`). -/
def ver_nt_check (hash_u64 : Nat → Nat) (g : GStore) (key : ikey_t) (check : Bool) :
    Outcome (List Report) :=
  if !check then .ok []
  else
    (get_edges_local hash_u64 g key.vid OUT PREDICATE_ID).bind fun pres =>
    (get_edges_local hash_u64 g 0 IN key.pid).bind fun osres =>
      .ok ((find_dup key.pid true ⟨.ver_nt_vp_dup, key, key.pid⟩ (edges_of pres) false).2
        ++ (if (find_dup key.pid true ⟨.ver_nt_vp_dup, key, key.pid⟩ (edges_of pres)
              false).1 = false
            then [⟨.ver_nt_vp_miss, key, key.pid⟩] else [])
        ++ (find_dup key.vid true ⟨.ver_nt_so_dup, key, key.vid⟩ (edges_of osres) false).2
        ++ (if (find_dup key.vid true ⟨.ver_nt_so_dup, key, key.vid⟩ (edges_of osres)
              false).1 = false
            then [⟨.ver_nt_so_miss, key, key.vid⟩] else []))

/-- Method `check_on_vertex(key, index_check, normal_check)`; `versatile` is the
compile-time switch `VERSATILE`.  `ver_nt_check` receives `index_check`, as in
the source. -/
def check_on_vertex (hash_u64 : Nat → Nat) (versatile : Bool) (g : GStore) (key : ikey_t)
    (index_check normal_check : Bool) : Outcome (List Report) :=
  if key.vid = 0 ∧ is_tpid key.pid = true ∧ key.dir = IN then
    (idx_check_indir hash_u64 g key index_check).bind fun l1 =>
    if versatile then
      (ver_idx_check_indir hash_u64 g key index_check).bind fun l2 => .ok (l1 ++ l2)
    else .ok l1
  else if key.vid = 0 ∧ is_tpid key.pid = true ∧ key.dir = OUT then
    (idx_check_outdir hash_u64 g key index_check).bind fun l1 =>
    if versatile then
      (ver_idx_check_outdir hash_u64 g key index_check).bind fun l2 => .ok (l1 ++ l2)
    else .ok l1
  else if is_vid key.vid = true ∧ key.pid = TYPE_ID ∧ key.dir = OUT then
    (nt_check hash_u64 g key normal_check).bind fun l1 =>
    if versatile then
      (ver_nt_check hash_u64 g key index_check).bind fun l2 => .ok (l1 ++ l2)
    else .ok l1
  else if is_vid key.vid = true ∧ is_tpid key.pid = true ∧ key.dir = OUT then
    np_check hash_u64 g key IN normal_check
  else if is_vid key.vid = true ∧ is_tpid key.pid = true ∧ key.dir = IN then
    np_check hash_u64 g key OUT normal_check
  else .ok []

/-- The inner loop `for (i = 0; i < ASSOCIATIVITY - 1; i++, slot_id++)` of
`gstore_check`, with `n` rounds left: every non-empty key is checked. -/
def check_bucket (hash_u64 : Nat → Nat) (versatile : Bool) (g : GStore)
    (index_check normal_check : Bool) : Nat → Nat → Outcome (List Report)
  | 0, _ => .ok []
  | n + 1, slot_id =>
    (if (g.vertices slot_id).key.is_empty then .ok []
      else check_on_vertex hash_u64 versatile g (g.vertices slot_id).key index_check
        normal_check).bind fun l1 =>
    (check_bucket hash_u64 versatile g index_check normal_check n (slot_id + 1)).bind fun l2 =>
      .ok (l1 ++ l2)

/-- The outer loop of `gstore_check`, with `n` buckets left. -/
def check_buckets (hash_u64 : Nat → Nat) (versatile : Bool) (g : GStore)
    (index_check normal_check : Bool) : Nat → Nat → Outcome (List Report)
  | 0, _ => .ok []
  | n + 1, bucket_id =>
    (check_bucket hash_u64 versatile g index_check normal_check (ASSOCIATIVITY - 1)
      (bucket_id * ASSOCIATIVITY)).bind fun l1 =>
    (check_buckets hash_u64 versatile g index_check normal_check n (bucket_id + 1)).bind
      fun l2 => .ok (l1 ++ l2)

/-- Method `gstore_check(index_check, normal_check)`: the value returned and
the reports written. -/
def gstore_check (hash_u64 : Nat → Nat) (versatile : Bool) (g : GStore)
    (index_check normal_check : Bool) : Outcome (Int × List Report) :=
  (check_buckets hash_u64 versatile g index_check normal_check
    (g.num_buckets + g.num_buckets_ext) 0).bind fun log => .ok (0, log)

/-- The keys that only a `VERSATILE` build creates: the predicate lists of the
vertices and the three sets of all vertices, types and predicates. -/
def ikey_t.aux (k : ikey_t) : Prop :=
  k.pid = PREDICATE_ID ∨ (k.vid = 0 ∧ k.pid = TYPE_ID)

/-- The invariant of the value lists that the verifier needs, for a set `Ty`
of type ids: non-empty lists sit under keys that fit; type lists and index
lists hold no value twice; a vertex in the list of `(0, p, IN)` is a vertex id
that has `p` among its types when `p` is a type id and has the key `(v, p, OUT)`
otherwise; a vertex in the list of `(0, p, OUT)` has the key `(v, p, IN)`; and
every key of a vertex is covered by the index: `(v, p, OUT)` by `(0, p, IN)`,
a type `t` of `v` by `(0, t, IN)`, and `(v, p, IN)` by `(0, p, OUT)`. -/
structure Sane (Ty : Nat → Prop) (m : KV) : Prop where
  fit : ∀ k, m k ≠ [] → k.fits
  nd_type : ∀ v, 2 ^ NBITS_IDX ≤ v → (m ⟨v, TYPE_ID, OUT⟩).Nodup
  nd_in : ∀ p, is_tpid p = true → (m ⟨0, p, IN⟩).Nodup
  nd_out : ∀ p, is_tpid p = true → (m ⟨0, p, OUT⟩).Nodup
  j1 : ∀ p v, is_tpid p = true → v ∈ m ⟨0, p, IN⟩ →
    2 ^ NBITS_IDX ≤ v ∧ ((Ty p ∧ p ∈ m ⟨v, TYPE_ID, OUT⟩) ∨ (¬ Ty p ∧ m ⟨v, p, OUT⟩ ≠ []))
  j2 : ∀ p v, is_tpid p = true → v ∈ m ⟨0, p, OUT⟩ → 2 ^ NBITS_IDX ≤ v ∧ m ⟨v, p, IN⟩ ≠ []
  c1 : ∀ v p, 2 ^ NBITS_IDX ≤ v → is_tpid p = true → m ⟨v, p, OUT⟩ ≠ [] →
    ¬ Ty p ∧ v ∈ m ⟨0, p, IN⟩
  c2 : ∀ v t, 2 ^ NBITS_IDX ≤ v → t ∈ m ⟨v, TYPE_ID, OUT⟩ →
    Ty t ∧ is_tpid t = true ∧ v ∈ m ⟨0, t, IN⟩
  c3 : ∀ v p, 2 ^ NBITS_IDX ≤ v → is_tpid p = true → m ⟨v, p, IN⟩ ≠ [] → v ∈ m ⟨0, p, OUT⟩

/-- Two families of value lists agree outside the keys that only a `VERSATILE`
build creates. -/
def CoreEq (m m2 : KV) : Prop := ∀ K : ikey_t, ¬ K.aux → m2 K = m K

/-- Every key with a non-empty list fits its bit-fields. -/
def KeysFit (m : KV) : Prop := ∀ K : ikey_t, m K ≠ [] → K.fits

/-! ## Bulk load of the dynamic build (`DYNAMIC_GSTORE`)

The text of `insert_normal`, `insert_index_map`, `insert_index_set` and
`insert_index` is the same in both builds; under `DYNAMIC_GSTORE` the call
`alloc_edges` is the one of the dynamic build, and `insert_index` starts with
`edge_allocator->merge_freelists()`, a method of the allocator that is passed
as a parameter. -/

/-- The block of statements that creates one key with its list of values under
`DYNAMIC_GSTORE`: the statements of `insert_list`, with `alloc_edges(n, tid)` of
the dynamic build. -/
def DStore.insert_list {σ : Type} (E : DynEnv σ) (hash_u64 : Nat → Nat) (st : DStore σ)
    (vid pid d : Nat) (vals : List Nat) (tid : Int) : Outcome (DStore σ) :=
  (ikey_t.make vid pid d).bind fun key =>
  (st.alloc_edges E vals.length tid).bind fun r1 =>
  (insert_key hash_u64 r1.2.g key true).bind fun r2 =>
  (iptr_t.make vals.length r1.1 0).bind fun ptr =>
  .ok { r1.2 with g := write_edges (r2.2.set_ptr r2.1 ptr) r1.1 vals }

/-- A sequence of such blocks. -/
def DStore.insert_lists {σ : Type} (E : DynEnv σ) (hash_u64 : Nat → Nat) (tid : Int) :
    DStore σ → List Put → Outcome (DStore σ)
  | st, [] => .ok st
  | st, p :: ps =>
    (st.insert_list E hash_u64 p.vid p.pid p.d p.vals tid).bind fun st1 =>
      DStore.insert_lists E hash_u64 tid st1 ps

/-- The first pass of `insert_normal` under `DYNAMIC_GSTORE`. -/
def DStore.insert_normal_spo {σ : Type} (E : DynEnv σ) (hash_u64 : Nat → Nat)
    (versatile : Bool) (spo : List triple_t) (tid : Int) :
    Nat → DStore σ → List Nat → Nat → Outcome (DStore σ × List Nat)
  | 0, _, _, _ => .nofuel
  | fuel + 1, st, predicates, s =>
    if s < spo.length then
      let e := run_end_spo spo s spo.length (s + 1)
      (st.insert_list E hash_u64 (triple_at spo s).s (triple_at spo s).p OUT
        (slice_map spo (fun t => t.o) s e) tid).bind fun st1 =>
      if versatile then
        let predicates := predicates ++ [(triple_at spo s).p]
        if e ≥ spo.length ∨ (triple_at spo s).s ≠ (triple_at spo e).s then
          (st1.insert_list E hash_u64 (triple_at spo s).s PREDICATE_ID OUT predicates tid).bind
            fun st2 => DStore.insert_normal_spo E hash_u64 versatile spo tid fuel st2 [] e
        else DStore.insert_normal_spo E hash_u64 versatile spo tid fuel st1 predicates e
      else DStore.insert_normal_spo E hash_u64 versatile spo tid fuel st1 predicates e
    else .ok (st, predicates)

/-- The second pass of `insert_normal` under `DYNAMIC_GSTORE`. -/
def DStore.insert_normal_ops {σ : Type} (E : DynEnv σ) (hash_u64 : Nat → Nat)
    (versatile : Bool) (ops : List triple_t) (tid : Int) :
    Nat → DStore σ → List Nat → Nat → Outcome (DStore σ × List Nat)
  | 0, _, _, _ => .nofuel
  | fuel + 1, st, predicates, s =>
    if s < ops.length then
      let e := run_end_ops ops s ops.length (s + 1)
      (st.insert_list E hash_u64 (triple_at ops s).o (triple_at ops s).p IN
        (slice_map ops (fun t => t.s) s e) tid).bind fun st1 =>
      if versatile then
        let predicates := predicates ++ [(triple_at ops s).p]
        if e ≥ ops.length ∨ (triple_at ops s).o ≠ (triple_at ops e).o then
          (st1.insert_list E hash_u64 (triple_at ops s).o PREDICATE_ID IN predicates tid).bind
            fun st2 => DStore.insert_normal_ops E hash_u64 versatile ops tid fuel st2 [] e
        else DStore.insert_normal_ops E hash_u64 versatile ops tid fuel st1 predicates e
      else DStore.insert_normal_ops E hash_u64 versatile ops tid fuel st1 predicates e
    else .ok (st, predicates)

/-- Method `insert_normal(spo, ops, tid)` under `DYNAMIC_GSTORE`. -/
def DStore.insert_normal {σ : Type} (E : DynEnv σ) (hash_u64 : Nat → Nat) (versatile : Bool)
    (st : DStore σ) (spo ops : List triple_t) (tid : Int) : Outcome (DStore σ) :=
  let type_triples := skip_type_triples ops ops.length 0
  (DStore.insert_normal_spo E hash_u64 versatile spo tid (spo.length + 1) st [] 0).bind
    fun r1 =>
  (DStore.insert_normal_ops E hash_u64 versatile ops tid (ops.length + 1) r1.1 r1.2
    type_triples).bind fun r2 => .ok r2.1

/-- Method `insert_index_map(map, d)` under `DYNAMIC_GSTORE`; `alloc_edges(sz)`
takes the default `tid = -1`. -/
def DStore.insert_index_map {σ : Type} (E : DynEnv σ) (hash_u64 : Nat → Nat) (st : DStore σ)
    (map : tbb_hash_map) (d : Nat) : Outcome (DStore σ) :=
  match map with
  | [] => .ok st
  | (pid, l) :: rest =>
    (st.insert_list E hash_u64 0 pid d l (-1)).bind fun st1 =>
      DStore.insert_index_map E hash_u64 st1 rest d

/-- Method `insert_index_set(set, tpid, d)` under `DYNAMIC_GSTORE`. -/
def DStore.insert_index_set {σ : Type} (E : DynEnv σ) (hash_u64 : Nat → Nat) (st : DStore σ)
    (set : List Nat) (tpid d : Nat) : Outcome (DStore σ) :=
  st.insert_list E hash_u64 0 tpid d set (-1)

/-- Method `insert_index()` under `DYNAMIC_GSTORE`: three readings of the timer
for the log, `merge_freelists()` first, then the scan and the insertion of the
index keys. -/
def DStore.insert_index {σ : Type} (E : DynEnv σ) (merge_freelists : σ → σ)
    (hash_u64 : Nat → Nat) (versatile : Bool) (st : DStore σ) : Outcome (DStore σ) :=
  let st0 : DStore σ := { st with clock := st.clock + 1, heap := merge_freelists st.heap }
  (scan_buckets versatile st0.g (st0.g.num_buckets + st0.g.last_ext) 0
    ⟨[], [], [], [], [], []⟩).bind fun m =>
  let st1 : DStore σ := { st0 with clock := st0.clock + 1 }
  (st1.insert_index_map E hash_u64 m.tidx_map IN).bind fun s1 =>
  (s1.insert_index_map E hash_u64 m.pidx_in_map IN).bind fun s2 =>
  (s2.insert_index_map E hash_u64 m.pidx_out_map OUT).bind fun s3 =>
  (if versatile then
    (s3.insert_index_set E hash_u64 m.v_set TYPE_ID IN).bind fun s4 =>
    (s4.insert_index_set E hash_u64 m.t_set TYPE_ID OUT).bind fun s5 =>
    s5.insert_index_set E hash_u64 m.p_set PREDICATE_ID OUT
  else .ok s3).bind fun s6 => .ok { s6 with clock := s6.clock + 1 }

/-- The bulk load under `DYNAMIC_GSTORE`: `refresh()`, which leaves the
allocator in the state `heap`, `insert_normal(spo, ops, tid)`,
`insert_index()`. -/
def DStore.bulk_load {σ : Type} (E : DynEnv σ) (merge_freelists : σ → σ)
    (hash_u64 : Nat → Nat) (versatile : Bool) (g0 : GStore) (heap : σ)
    (spo ops : List triple_t) (tid : Int) : Outcome (DStore σ) :=
  ((DStore.fresh g0 heap).insert_normal E hash_u64 versatile spo ops tid).bind fun st1 =>
    st1.insert_index E merge_freelists hash_u64 versatile

/-- The value lists after one block: the key of the block receives its
values. -/
def kv_put (m : KV) (p : Put) : KV := fun k => if k = p.key then p.vals else m k

/-- The value lists after a sequence of blocks. -/
def kv_puts (m : KV) (L : List Put) : KV := L.foldl kv_put m

/-- The demo store of the dynamic build after the bulk load of the minimal
graph with `VERSATILE`, with the allocator `block_malloc` and a
`merge_freelists` that leaves the allocator alone. -/
def demo_dyn_loaded : DStore (List (Nat × Nat)) :=
  (DStore.bulk_load block_env id demo_hash true demo_store [] demo_triples demo_triples 0).get
    (DStore.fresh demo_store [])

/-- Online calls after the bulk load: a new type of the object vertex, and a
new triple in both directions, without the check for duplicates. -/
def demo_late_calls : List Call :=
  [⟨true, ⟨131073, 1, 2⟩, false⟩, ⟨true, ⟨131073, 3, 131072⟩, false⟩,
    ⟨false, ⟨131073, 3, 131072⟩, false⟩]

/-- The demo store of the dynamic build after the bulk load and the late
calls. -/
def demo_dyn_final : DStore (List (Nat × Nat)) :=
  (run_calls block_env demo_hash true demo_dyn_loaded demo_late_calls).get demo_dyn_loaded

/-- The keys of the sets of all vertices, of all types and of all predicates,
which `insert_index` creates under `VERSATILE` also when the set is empty. -/
def ikey_t.is_set (k : ikey_t) : Prop :=
  k = ⟨0, TYPE_ID, IN⟩ ∨ k = ⟨0, TYPE_ID, OUT⟩ ∨ k = ⟨0, PREDICATE_ID, OUT⟩

/-- The invariant of the dynamic store after a bulk load: that of `DInv`, except
that the list of a key may be empty when the key is one of the three sets. -/
structure DInv0 {σ : Type} (E : DynEnv σ) (blocks : σ → List (Nat × Nat))
    (hash_u64 : Nat → Nat) (st : DStore σ) : Prop where
  wf : WF hash_u64 st.g
  blank : ∀ c j, c < st.g.num_buckets + st.g.num_buckets_ext → j < ASSOCIATIVITY - 1 →
    st.g.key_at c j = ikey_t.zero → (st.g.vertices (c * ASSOCIATIVITY + j)).ptr.size = 0
  heap : HeapInv blocks st.heap st.free_queue
    (fun o => ∃ s, st.g.Occ s ∧ (st.g.vertices s).ptr.off = o)
  own : ∀ s, st.g.Occ s →
    (st.g.vertices s).ptr.size < 2 ^ NBITS_SIZE ∧
    ∃ len, ((st.g.vertices s).ptr.off, len) ∈ blocks st.heap ∧
      blksz E ((st.g.vertices s).ptr.size + 1) ≤ len
  sep : ∀ s t, st.g.Occ s → st.g.Occ t → s ≠ t →
    (st.g.vertices s).ptr.off ≠ (st.g.vertices t).ptr.off
  solid : ∀ s, st.g.Occ s → ¬ (st.g.vertices s).key.is_set → 0 < (st.g.vertices s).ptr.size

/-- The store of the dynamic build after the bulk load of empty streams with
`VERSATILE`: the keys of the three sets exist with empty lists. -/
def demo_void_loaded : DStore (List (Nat × Nat)) :=
  (DStore.bulk_load block_env id demo_hash true demo_store [] [] [] 0).get
    (DStore.fresh demo_store [])

/-- The same store after the late calls. -/
def demo_void_final : DStore (List (Nat × Nat)) :=
  (run_calls block_env demo_hash true demo_void_loaded demo_late_calls).get demo_void_loaded

/-! # Lemmas -/

/-! ### Elementary facts -/

theorem ikey_t.is_empty_iff (k : ikey_t) : k.is_empty = true ↔ k = ikey_t.zero := by
  cases k
  simp [ikey_t.is_empty, ikey_t.zero, and_assoc]

theorem ikey_t.is_empty_false_iff (k : ikey_t) : k.is_empty = false ↔ k ≠ ikey_t.zero := by
  rw [Ne, ← ikey_t.is_empty_iff]
  cases k.is_empty <;> simp

theorem slot_inj {b j c i : Nat} (hj : j < ASSOCIATIVITY) (hi : i < ASSOCIATIVITY)
    (h : b * ASSOCIATIVITY + j = c * ASSOCIATIVITY + i) : b = c ∧ j = i := by
  simp only [ASSOCIATIVITY] at *
  omega

theorem refresh_wf (hash_u64 : Nat → Nat) (g : GStore) (cfg : Config g) :
    WF hash_u64 (refresh g) := by
  have hz : ∀ b j, b < g.num_buckets + g.num_buckets_ext → j < ASSOCIATIVITY →
      (refresh g).key_at b j = ikey_t.zero := by
    intro b j hb hj
    have := cfg.fits
    simp only [ASSOCIATIVITY] at *
    have hlt : b * 8 + j < g.num_slots := by omega
    simp [GStore.key_at, refresh, hlt, vertex_t.zero, ASSOCIATIVITY]
  have hu : (refresh g).used = g.num_buckets := by simp [GStore.used, refresh]
  have hnb : (refresh g).num_buckets = g.num_buckets := rfl
  have hne : (refresh g).num_buckets_ext = g.num_buckets_ext := rfl
  refine ⟨cfg.nb_pos, by simp [refresh], cfg.fits, cfg.small, ?_, ?_, ?_, ?_, ?_, ?_⟩
  · intro b j _ hb hj
    exact hz b j hb hj
  · intro b hb hl
    exact absurd (hz b _ (by rw [hu] at hb; omega) (by simp [ASSOCIATIVITY])) hl
  · intro b j hb hl
    exact absurd (hz b _ (by rw [hu] at hb; omega) (by simp [ASSOCIATIVITY])) hl
  · intro b i j hb _ hj hne
    exact absurd (hz b j (by rw [hu] at hb; omega) (by simp only [ASSOCIATIVITY] at *; omega)) hne
  · intro b j hb hj hne
    exact absurd (hz b j (by rw [hu] at hb; omega) (by simp only [ASSOCIATIVITY] at *; omega)) hne
  · intro b j c i hb _ hj _ hne
    exact absurd (hz b j (by rw [hu] at hb; omega) (by simp only [ASSOCIATIVITY] at *; omega)) hne

/-! ### The bucket scans -/

theorem probe_bucket_dup {g : GStore} {key : ikey_t} : ∀ {n s t : Nat},
    probe_bucket g key n s = .dup t →
    s ≤ t ∧ t < s + n ∧ (g.vertices t).key = key ∧
      ∀ u, s ≤ u → u < t → (g.vertices u).key ≠ key ∧ (g.vertices u).key ≠ ikey_t.zero := by
  intro n
  induction n with
  | zero => intro s t h; simp [probe_bucket] at h
  | succ n ih =>
    intro s t h
    unfold probe_bucket at h
    split_ifs at h with h1 h2
    · injection h with h
      subst h
      exact ⟨le_refl _, by omega, h1, fun u hu hu2 => by omega⟩
    · obtain ⟨a, b, c, d⟩ := ih h
      refine ⟨by omega, by omega, c, fun u hu hu2 => ?_⟩
      rcases Nat.eq_or_lt_of_le hu with e | e
      · subst e
        exact ⟨h1, fun hz => h2 ((ikey_t.is_empty_iff _).2 hz)⟩
      · exact d u e hu2

theorem probe_bucket_empty {g : GStore} {key : ikey_t} : ∀ {n s t : Nat},
    probe_bucket g key n s = .empty t →
    s ≤ t ∧ t < s + n ∧ (g.vertices t).key ≠ key ∧ (g.vertices t).key = ikey_t.zero ∧
      ∀ u, s ≤ u → u < t → (g.vertices u).key ≠ key ∧ (g.vertices u).key ≠ ikey_t.zero := by
  intro n
  induction n with
  | zero => intro s t h; simp [probe_bucket] at h
  | succ n ih =>
    intro s t h
    unfold probe_bucket at h
    split_ifs at h with h1 h2
    · injection h with h
      subst h
      exact ⟨le_refl _, by omega, h1, (ikey_t.is_empty_iff _).1 h2, fun u hu hu2 => by omega⟩
    · obtain ⟨a, b, c, c2, d⟩ := ih h
      refine ⟨by omega, by omega, c, c2, fun u hu hu2 => ?_⟩
      rcases Nat.eq_or_lt_of_le hu with e | e
      · subst e
        exact ⟨h1, fun hz => h2 ((ikey_t.is_empty_iff _).2 hz)⟩
      · exact d u e hu2

theorem probe_bucket_full {g : GStore} {key : ikey_t} : ∀ {n s t : Nat},
    probe_bucket g key n s = .full t →
    t = s + n ∧
      ∀ u, s ≤ u → u < s + n → (g.vertices u).key ≠ key ∧ (g.vertices u).key ≠ ikey_t.zero := by
  intro n
  induction n with
  | zero =>
    intro s t h
    simp only [probe_bucket, Probe.full.injEq] at h
    exact ⟨by omega, fun u hu hu2 => by omega⟩
  | succ n ih =>
    intro s t h
    unfold probe_bucket at h
    split_ifs at h with h1 h2
    obtain ⟨a, d⟩ := ih h
    refine ⟨by omega, fun u hu hu2 => ?_⟩
    rcases Nat.eq_or_lt_of_le hu with e | e
    · subst e
      exact ⟨h1, fun hz => h2 ((ikey_t.is_empty_iff _).2 hz)⟩
    · exact d u e (by omega)

theorem find_in_bucket_some {g : GStore} {key : ikey_t} : ∀ {n s t : Nat},
    find_in_bucket g key n s = some t →
    s ≤ t ∧ t < s + n ∧ (g.vertices t).key = key := by
  intro n
  induction n with
  | zero => intro s t h; simp [find_in_bucket] at h
  | succ n ih =>
    intro s t h
    unfold find_in_bucket at h
    split_ifs at h with h1
    · injection h with h
      subst h
      exact ⟨le_refl _, by omega, h1⟩
    · obtain ⟨a, b, c⟩ := ih h
      exact ⟨by omega, by omega, c⟩

theorem find_in_bucket_none {g : GStore} {key : ikey_t} : ∀ {n s : Nat},
    find_in_bucket g key n s = none →
    ∀ u, s ≤ u → u < s + n → (g.vertices u).key ≠ key := by
  intro n
  induction n with
  | zero => intro s _ u hu hu2; omega
  | succ n ih =>
    intro s h u hu hu2
    unfold find_in_bucket at h
    split_ifs at h with h1
    rcases Nat.eq_or_lt_of_le hu with e | e
    · subst e
      exact h1
    · exact ih h u e (by omega)

/-! ### Chains -/

theorem OnChain.snoc {g : GStore} {a b : Nat} (h : OnChain g a b)
    (hl : g.link b ≠ ikey_t.zero) : OnChain g a (g.link b).vid := by
  induction h with
  | refl b => exact OnChain.head hl (OnChain.refl _)
  | head h1 _ ih => exact OnChain.head h1 (ih hl)

theorem OnChain.bounds {hash_u64 : Nat → Nat} {g : GStore} (wf : WF hash_u64 g) {a b : Nat}
    (h : OnChain g a b) (ha : a < g.used) : b < g.used ∧ a ≤ b := by
  induction h with
  | refl b => exact ⟨ha, le_refl _⟩
  | head h1 _ ih =>
    obtain ⟨_, _, h3, _, h5⟩ := wf.link_ok _ ha h1
    obtain ⟨h6, h7⟩ := ih h5
    exact ⟨h6, by omega⟩

theorem OnChain.end_eq {g : GStore} {a b : Nat} (h : OnChain g a b)
    (hl : g.link a = ikey_t.zero) : b = a := by
  cases h with
  | refl => rfl
  | head h1 _ => exact absurd hl h1

theorem OnChain.next {g : GStore} {a b : Nat} (h : OnChain g a b) (hne : b ≠ a) :
    g.link a ≠ ikey_t.zero ∧ OnChain g (g.link a).vid b := by
  cases h with
  | refl => exact absurd rfl hne
  | head h1 h2 => exact ⟨h1, h2⟩

theorem WF.slot_lt {hash_u64 : Nat → Nat} {g : GStore} (wf : WF hash_u64 g) {b j : Nat}
    (hb : b < g.used) (hj : j < ASSOCIATIVITY) : b * ASSOCIATIVITY + j < g.num_slots := by
  have h1 := wf.fits
  have h2 := wf.ext_le
  simp only [ASSOCIATIVITY, GStore.used] at *
  omega

theorem WF.budget_link {hash_u64 : Nat → Nat} {g : GStore} (wf : WF hash_u64 g) {b : Nat}
    (hb : b < g.used) (hl : g.link b ≠ ikey_t.zero) :
    g.budget (g.link b).vid < g.budget b := by
  obtain ⟨_, _, h3, h4, h5⟩ := wf.link_ok _ hb hl
  simp only [GStore.budget, GStore.used] at *
  split_ifs <;> omega

theorem WF.budget_pos {hash_u64 : Nat → Nat} {g : GStore} (_wf : WF hash_u64 g) {b : Nat}
    (hb : b < g.used) : 0 < g.budget b := by
  simp only [GStore.budget, GStore.used] at *
  split_ifs <;> omega

/-! ### Local lookup -/

theorem get_slot_local_loop_spec {hash_u64 : Nat → Nat} {g : GStore} (wf : WF hash_u64 g)
    (key : ikey_t) : ∀ fuel b, b < g.used → g.budget b ≤ fuel →
    ∃ r, get_slot_local_loop key g fuel b = .ok r ∧
      (∀ s, r = some s → ∃ c j, OnChain g b c ∧ j < ASSOCIATIVITY - 1 ∧
        s = c * ASSOCIATIVITY + j ∧ g.key_at c j = key) ∧
      (r = none → ∀ c, OnChain g b c → ∀ j, j < ASSOCIATIVITY - 1 → g.key_at c j ≠ key) := by
  intro fuel
  induction fuel with
  | zero =>
    intro b hb hf
    have := wf.budget_pos hb
    omega
  | succ fuel ih =>
    intro b hb hf
    unfold get_slot_local_loop
    cases hfind : find_in_bucket g key (ASSOCIATIVITY - 1) (b * ASSOCIATIVITY) with
    | some t =>
      obtain ⟨h1, h2, h3⟩ := find_in_bucket_some hfind
      refine ⟨some t, rfl, ?_, by simp⟩
      intro s hs
      injection hs with hs
      subst hs
      refine ⟨b, t - b * ASSOCIATIVITY, OnChain.refl _, by omega, by omega, ?_⟩
      unfold GStore.key_at
      rw [← h3]
      congr 2
      omega
    | none =>
      have hnone := find_in_bucket_none hfind
      have hhere : ∀ j, j < ASSOCIATIVITY - 1 → g.key_at b j ≠ key := fun j hj =>
        hnone _ (by omega) (by omega)
      simp only []
      by_cases hl : g.link b = ikey_t.zero
      · have hl2 : (g.vertices (b * ASSOCIATIVITY + (ASSOCIATIVITY - 1))).key.is_empty = true :=
          (ikey_t.is_empty_iff _).2 hl
        rw [if_pos hl2]
        refine ⟨none, rfl, by simp, fun _ c hc j hj => ?_⟩
        rw [hc.end_eq hl]
        exact hhere j hj
      · have hl2 : ¬ (g.vertices (b * ASSOCIATIVITY + (ASSOCIATIVITY - 1))).key.is_empty = true :=
          fun h => hl ((ikey_t.is_empty_iff _).1 h)
        rw [if_neg hl2]
        have hb2 := (wf.link_ok _ hb hl).2.2.2.2
        have hlt := wf.budget_link hb hl
        obtain ⟨r, hr, hs, hn⟩ := ih (g.link b).vid hb2 (by omega)
        refine ⟨r, hr, ?_, ?_⟩
        · intro s hs2
          obtain ⟨c, j, h1, h2, h3, h4⟩ := hs s hs2
          exact ⟨c, j, OnChain.head hl h1, h2, h3, h4⟩
        · intro hr2 c hc j hj
          by_cases hcb : c = b
          · rw [hcb]
            exact hhere j hj
          · exact hn hr2 c (hc.next hcb).2 j hj

/-! ### Insertion -/

theorem alloc_ext_fst {hash_u64 : Nat → Nat} {g : GStore} (wf : WF hash_u64 g)
    (hroom : g.last_ext < g.num_buckets_ext) (sl : Nat) (key : ikey_t) :
    (g.alloc_ext sl key).1 = g.used * ASSOCIATIVITY := by
  have h1 := wf.small
  have h2 : (g.num_buckets + g.last_ext) % 2 ^ NBITS_VID = g.num_buckets + g.last_ext :=
    Nat.mod_eq_of_lt (by omega)
  simp [GStore.alloc_ext, GStore.set_key, h2, GStore.used]

theorem insert_key_loop_spec {hash_u64 : Nat → Nat} {g : GStore} (wf : WF hash_u64 g)
    (key : ikey_t) (check_dup : Bool) : ∀ fuel b, b < g.used →
    OnChain g (home hash_u64 g key) b → g.budget b ≤ fuel →
    (key ≠ ikey_t.zero → ∀ c j, c < g.used → j < ASSOCIATIVITY - 1 → g.key_at c j = key →
      OnChain g b c) →
    InsertRes hash_u64 g key check_dup
      (insert_key_loop key check_dup fuel g (b * ASSOCIATIVITY)) := by
  intro fuel
  induction fuel with
  | zero =>
    intro b hb _ hf
    have := wf.budget_pos hb
    omega
  | succ fuel ih =>
    intro b hb hch hf hpre
    have hslot : b * ASSOCIATIVITY < g.num_slots := by
      have := wf.slot_lt hb (j := 0) (by simp [ASSOCIATIVITY])
      omega
    unfold insert_key_loop
    rw [if_pos hslot]
    cases hp : probe_bucket g key (ASSOCIATIVITY - 1) (b * ASSOCIATIVITY) with
    | dup t =>
      obtain ⟨h1, h2, h3, _⟩ := probe_bucket_dup hp
      have ht : t = b * ASSOCIATIVITY + (t - b * ASSOCIATIVITY) := by omega
      have hj : t - b * ASSOCIATIVITY < ASSOCIATIVITY - 1 := by omega
      have hk : g.key_at b (t - b * ASSOCIATIVITY) = key := by
        unfold GStore.key_at
        rw [← ht]
        exact h3
      simp only []
      cases hcd : check_dup with
      | true =>
        simp only [if_true]
        exact InsertRes.dup_abort b _ rfl hb hj hk
      | false =>
        have hlt : t < g.num_slots := by
          have := wf.slot_lt hb (j := t - b * ASSOCIATIVITY) (by omega)
          omega
        simp only [Bool.false_eq_true, if_false, insert_key_done, hlt, h3, and_self, if_true]
        rw [ht]
        exact InsertRes.found b _ rfl hb hj hk
    | empty t =>
      obtain ⟨h1, h2, h3, h4, h5⟩ := probe_bucket_empty hp
      have ht : t = b * ASSOCIATIVITY + (t - b * ASSOCIATIVITY) := by omega
      have hj : t - b * ASSOCIATIVITY < ASSOCIATIVITY - 1 := by omega
      have hk : g.key_at b (t - b * ASSOCIATIVITY) = ikey_t.zero := by
        unfold GStore.key_at
        rw [← ht]
        exact h4
      have hkey : key ≠ ikey_t.zero := fun h => h3 (by rw [h4, h])
      have hlt : t < g.num_slots := by
        have := wf.slot_lt hb (j := t - b * ASSOCIATIVITY) (by omega)
        omega
      have hlink : g.link b = ikey_t.zero := by
        by_contra hl
        exact wf.link_full b _ hb hl hj hk
      have hbefore : ∀ i, i < t - b * ASSOCIATIVITY → g.key_at b i ≠ key ∧
          g.key_at b i ≠ ikey_t.zero := fun i hi => h5 _ (by omega) (by omega)
      have hlacks : g.lacks key := by
        intro c j hc hj2 hcj
        have hcb : c = b := (hpre hkey c j hc hj2 hcj).end_eq hlink
        subst hcb
        rcases Nat.lt_trichotomy j (t - c * ASSOCIATIVITY) with hlt | heq | hgt
        · exact (hbefore j hlt).1 hcj
        · rw [heq, hk] at hcj
          exact hkey hcj.symm
        · have : g.key_at c j ≠ ikey_t.zero := by rw [hcj]; exact hkey
          exact wf.pfx c _ j hc hgt hj2 this hk
      have hdone : insert_key_done key (g.set_key t key) t = .ok (t, g.set_key t key) := by
        simp [insert_key_done, GStore.set_key, hlt]
      simp only [hdone]
      rw [ht]
      exact InsertRes.fill b _ hb hj hk (fun i hi => (hbefore i hi).2) hkey hlacks hch
    | full t =>
      obtain ⟨h1, h2⟩ := probe_bucket_full hp
      have hhere : ∀ j, j < ASSOCIATIVITY - 1 → g.key_at b j ≠ key ∧
          g.key_at b j ≠ ikey_t.zero := fun j hj => h2 _ (by omega) (by omega)
      have hlk : (g.vertices t).key = g.link b := by rw [h1]; rfl
      simp only []
      by_cases hl : g.link b = ikey_t.zero
      · have hl2 : (g.vertices t).key.is_empty = true := by
          rw [hlk]; exact (ikey_t.is_empty_iff _).2 hl
        have hlacks : key ≠ ikey_t.zero → g.lacks key := by
          intro hkey c j hc hj2 hcj
          have hcb : c = b := (hpre hkey c j hc hj2 hcj).end_eq hl
          subst hcb
          exact (hhere j hj2).1 hcj
        simp only [hl2, not_true_eq_false, if_false]
        by_cases hroom : g.last_ext ≥ g.num_buckets_ext
        · rw [if_pos hroom]
          exact InsertRes.full_abort b hb hch hl (fun j hj => (hhere j hj).2) hroom hlacks
        · rw [if_neg hroom]
          have hroom2 : g.last_ext < g.num_buckets_ext := by omega
          have hfst := alloc_ext_fst wf hroom2 t key
          have hfit := wf.fits
          have hdone : insert_key_done key (g.alloc_ext t key).2 (g.alloc_ext t key).1
              = .ok (g.alloc_ext t key) := by
            have hns : (g.alloc_ext t key).2.num_slots = g.num_slots := rfl
            have hkk : ((g.alloc_ext t key).2.vertices (g.alloc_ext t key).1).key = key := by
              simp [GStore.alloc_ext, GStore.set_key]
            have hlt : (g.alloc_ext t key).1 < g.num_slots := by
              rw [hfst]
              simp only [GStore.used, ASSOCIATIVITY] at *
              omega
            simp [insert_key_done, hns, hkk, hlt]
          rw [hdone, h1]
          exact InsertRes.grow b hb hch hl (fun j hj => (hhere j hj).2) hroom2 hlacks
      · have hl2 : ¬ (g.vertices t).key.is_empty = true := by
          rw [hlk]; exact fun h => hl ((ikey_t.is_empty_iff _).1 h)
        simp only [hl2, not_false_eq_true, if_true]
        rw [hlk]
        have hb2 := (wf.link_ok _ hb hl).2.2.2.2
        have hlt := wf.budget_link hb hl
        refine ih (g.link b).vid hb2 (hch.snoc hl) (by omega) ?_
        intro hkey c j hc hj hcj
        have hcb : c ≠ b := by
          intro e
          subst e
          exact (hhere j hj).1 hcj
        exact ((hpre hkey c j hc hj hcj).next hcb).2

theorem insert_key_spec {hash_u64 : Nat → Nat} {g : GStore} (wf : WF hash_u64 g)
    (key : ikey_t) (check_dup : Bool) :
    InsertRes hash_u64 g key check_dup (insert_key hash_u64 g key check_dup) := by
  have hhome : home hash_u64 g key < g.num_buckets := Nat.mod_lt _ wf.nb_pos
  have hb : home hash_u64 g key < g.used := by
    simp only [GStore.used]
    omega
  refine insert_key_loop_spec wf key check_dup _ _ hb (OnChain.refl _) ?_ ?_
  · have h2 : g.budget (home hash_u64 g key) = g.last_ext + 1 := by
      rw [GStore.budget, if_pos hhome]
    exact le_of_eq h2
  · intro hkey c j hc hj hcj
    have := wf.placed c j hc hj (by rw [hcj]; exact hkey)
    rw [hcj] at this
    exact this

/-! ### Insertion keeps the index well formed -/

theorem OnChain.mono {g g2 : GStore}
    (hl : ∀ b, g.link b ≠ ikey_t.zero → g2.link b = g.link b) {a b : Nat}
    (h : OnChain g a b) : OnChain g2 a b := by
  induction h with
  | refl b => exact OnChain.refl _
  | head h1 _ ih =>
    have e := hl _ h1
    exact OnChain.head (by rw [e]; exact h1) (by rw [e]; exact ih)

theorem set_key_key_at (g : GStore) (t : Nat) (key : ikey_t) (b i : Nat) :
    (g.set_key t key).key_at b i =
      if b * ASSOCIATIVITY + i = t then key else g.key_at b i := by
  unfold GStore.key_at GStore.set_key
  simp only []
  split_ifs <;> rfl

theorem wf_fill {hash_u64 : Nat → Nat} {g : GStore} (wf : WF hash_u64 g) {key : ikey_t}
    {c j : Nat} (hc : c < g.used) (hj : j < ASSOCIATIVITY - 1)
    (hpre : ∀ i, i < j → g.key_at c i ≠ ikey_t.zero) (hkey : key ≠ ikey_t.zero)
    (hlacks : g.lacks key) (hch : OnChain g (home hash_u64 g key) c) :
    WF hash_u64 (g.set_key (c * ASSOCIATIVITY + j) key) := by
  have hka := set_key_key_at g (c * ASSOCIATIVITY + j) key
  have hlink : ∀ b, (g.set_key (c * ASSOCIATIVITY + j) key).link b = g.link b := by
    intro b
    unfold GStore.link
    rw [hka, if_neg]
    intro e
    have := (slot_inj (by simp [ASSOCIATIVITY]) (by omega) e).2
    omega
  have hmono : ∀ a b, OnChain g a b → OnChain (g.set_key (c * ASSOCIATIVITY + j) key) a b :=
    fun a b h => h.mono (fun b _ => hlink b)
  have hused : (g.set_key (c * ASSOCIATIVITY + j) key).used = g.used := rfl
  have hnb : (g.set_key (c * ASSOCIATIVITY + j) key).num_buckets = g.num_buckets := rfl
  have hhome : ∀ k, home hash_u64 (g.set_key (c * ASSOCIATIVITY + j) key) k
      = home hash_u64 g k := fun _ => rfl
  have hcase : ∀ b i, i < ASSOCIATIVITY →
      (b * ASSOCIATIVITY + i = c * ASSOCIATIVITY + j ↔ b = c ∧ i = j) := by
    intro b i hi
    constructor
    · intro e
      exact slot_inj hi (by omega) e
    · rintro ⟨rfl, rfl⟩
      rfl
  refine ⟨wf.nb_pos, wf.ext_le, wf.fits, wf.small, ?_, ?_, ?_, ?_, ?_, ?_⟩
  · intro b i hb hb2 hi
    rw [hka, if_neg]
    · exact wf.fresh b i hb hb2 hi
    · rw [hcase b i hi]
      rintro ⟨rfl, _⟩
      rw [hused] at hb
      omega
  · intro b hb hl
    rw [hlink] at hl ⊢
    exact wf.link_ok b hb hl
  · intro b i hb hl hi
    rw [hlink] at hl
    rw [hka]
    split_ifs
    · exact hkey
    · exact wf.link_full b i hb hl hi
  · intro b i i2 hb hlt hi2 hne
    rw [hka] at hne ⊢
    split_ifs with h1
    · exact hkey
    · by_cases h2 : b * ASSOCIATIVITY + i2 = c * ASSOCIATIVITY + j
      · obtain ⟨rfl, rfl⟩ := (hcase b i2 (by omega)).1 h2
        exact hpre i hlt
      · rw [if_neg h2] at hne
        exact wf.pfx b i i2 hb hlt hi2 hne
  · intro b i hb hi hne
    rw [hka] at hne ⊢
    rw [hhome]
    split_ifs with h1
    · obtain ⟨rfl, rfl⟩ := (hcase b i (by omega)).1 h1
      exact hmono _ _ hch
    · rw [if_neg h1] at hne
      exact hmono _ _ (wf.placed b i hb hi hne)
  · intro b i b2 i2 hb hb2 hi hi2 hne he
    rw [hka] at hne
    rw [hka, hka] at he
    by_cases h1 : b * ASSOCIATIVITY + i = c * ASSOCIATIVITY + j
    · by_cases h2 : b2 * ASSOCIATIVITY + i2 = c * ASSOCIATIVITY + j
      · obtain ⟨rfl, rfl⟩ := (hcase b i (by omega)).1 h1
        obtain ⟨rfl, rfl⟩ := (hcase b2 i2 (by omega)).1 h2
        exact ⟨rfl, rfl⟩
      · rw [if_pos h1, if_neg h2] at he
        exact absurd he.symm (hlacks b2 i2 hb2 hi2)
    · by_cases h2 : b2 * ASSOCIATIVITY + i2 = c * ASSOCIATIVITY + j
      · rw [if_neg h1, if_pos h2] at he
        exact absurd he (hlacks b i hb hi)
      · rw [if_neg h1, if_neg h2] at he
        rw [if_neg h1] at hne
        exact wf.nodup b i b2 i2 hb hb2 hi hi2 hne he

/-! ### grow -/

theorem slot_inj0 {b i c : Nat} (hi : i < ASSOCIATIVITY)
    (h : b * ASSOCIATIVITY + i = c * ASSOCIATIVITY) : b = c ∧ i = 0 := by
  simp only [ASSOCIATIVITY] at *
  omega

theorem alloc_ext_key_at {hash_u64 : Nat → Nat} {g : GStore} (wf : WF hash_u64 g)
    (hroom : g.last_ext < g.num_buckets_ext) {c : Nat} (hl : g.link c = ikey_t.zero)
    (key : ikey_t) (b i : Nat) :
    (g.alloc_ext (c * ASSOCIATIVITY + (ASSOCIATIVITY - 1)) key).2.key_at b i =
      if b * ASSOCIATIVITY + i = g.used * ASSOCIATIVITY then key
      else if b * ASSOCIATIVITY + i = c * ASSOCIATIVITY + (ASSOCIATIVITY - 1) then
        ⟨g.used, 0, 0⟩
      else g.key_at b i := by
  have h1 := wf.small
  have h2 : (g.num_buckets + g.last_ext) % 2 ^ NBITS_VID = g.num_buckets + g.last_ext :=
    Nat.mod_eq_of_lt (by omega)
  have hl2 : (g.vertices (c * ASSOCIATIVITY + (ASSOCIATIVITY - 1))).key = ikey_t.zero := hl
  unfold GStore.key_at GStore.alloc_ext GStore.set_key
  simp only [h2, hl2, if_true, GStore.used]
  split_ifs <;> simp_all [ikey_t.zero]

theorem wf_grow {hash_u64 : Nat → Nat} {g : GStore} (wf : WF hash_u64 g) {key : ikey_t}
    {c : Nat} (hc : c < g.used) (hch : OnChain g (home hash_u64 g key) c)
    (hl : g.link c = ikey_t.zero)
    (hfull : ∀ j, j < ASSOCIATIVITY - 1 → g.key_at c j ≠ ikey_t.zero)
    (hroom : g.last_ext < g.num_buckets_ext) (hlacks : key ≠ ikey_t.zero → g.lacks key) :
    WF hash_u64 (g.alloc_ext (c * ASSOCIATIVITY + (ASSOCIATIVITY - 1)) key).2 := by
  have hka := alloc_ext_key_at wf hroom hl key
  generalize hg2 : (g.alloc_ext (c * ASSOCIATIVITY + (ASSOCIATIVITY - 1)) key).2 = g2 at hka
  have hused : g2.used = g.used + 1 := by
    rw [← hg2]; simp only [GStore.used, GStore.alloc_ext, GStore.set_key]; omega
  have hnb : g2.num_buckets = g.num_buckets := by rw [← hg2]; rfl
  have hne : g2.num_buckets_ext = g.num_buckets_ext := by rw [← hg2]; rfl
  have hns : g2.num_slots = g.num_slots := by rw [← hg2]; rfl
  have hle : g2.last_ext = g.last_ext + 1 := by rw [← hg2]; rfl
  have hhome : ∀ k, home hash_u64 g2 k = home hash_u64 g k := by
    intro k; simp only [home, hnb]
  have hupos : 0 < g.used := by have := wf.nb_pos; simp only [GStore.used]; omega
  have hnbu : g.num_buckets ≤ g.used := by simp only [GStore.used]; omega
  have hzne : (⟨g.used, 0, 0⟩ : ikey_t) ≠ ikey_t.zero := by
    intro e
    have := congrArg ikey_t.vid e
    simp only [ikey_t.zero] at this
    omega
  -- data slots of old buckets are untouched
  have hold : ∀ b i, b < g.used → i < ASSOCIATIVITY - 1 → g2.key_at b i = g.key_at b i := by
    intro b i hb hi
    rw [hka, if_neg, if_neg]
    · intro e
      have := (slot_inj (by omega) (by simp [ASSOCIATIVITY]) e).2
      omega
    · intro e
      have := (slot_inj0 (by omega) e).1
      omega
  -- the new bucket
  have hnew0 : g2.key_at g.used 0 = key := by
    rw [hka, if_pos (by omega)]
  have hnewi : ∀ i, 0 < i → i < ASSOCIATIVITY → g2.key_at g.used i = ikey_t.zero := by
    intro i hi hi2
    rw [hka, if_neg (by omega), if_neg]
    · exact wf.fresh _ i (le_refl _) (by simp only [GStore.used]; omega) hi2
    · intro e
      have := (slot_inj hi2 (by simp [ASSOCIATIVITY]) e).1
      omega
  -- links
  have hlinkc : g2.link c = ⟨g.used, 0, 0⟩ := by
    unfold GStore.link
    rw [hka, if_neg, if_pos rfl]
    intro e
    have := (slot_inj0 (by simp [ASSOCIATIVITY]) e).1
    omega
  have hlinko : ∀ b, b ≠ c → g2.link b = g.link b := by
    intro b hb
    unfold GStore.link
    rw [hka, if_neg, if_neg]
    · intro e
      exact hb (slot_inj (by simp [ASSOCIATIVITY]) (by simp [ASSOCIATIVITY]) e).1
    · intro e
      have := (slot_inj0 (by simp [ASSOCIATIVITY]) e).2
      simp [ASSOCIATIVITY] at this
  have hlinkn : g2.link g.used = ikey_t.zero := by
    rw [hlinko _ (by omega)]
    exact wf.fresh _ _ (le_refl _) (by simp only [GStore.used]; omega) (by simp [ASSOCIATIVITY])
  have hmono : ∀ a b, OnChain g a b → OnChain g2 a b := by
    intro a b h
    refine h.mono (fun b hb => hlinko b ?_)
    intro e
    rw [e] at hb
    exact hb hl
  refine ⟨by rw [hnb]; exact wf.nb_pos, by rw [hle, hne]; omega, by rw [hnb, hne, hns]; exact wf.fits,
    by rw [hnb, hne]; exact wf.small, ?_, ?_, ?_, ?_, ?_, ?_⟩
  · intro b i hb hb2 hi
    rw [hused] at hb
    rw [hnb, hne] at hb2
    rw [hka, if_neg, if_neg]
    · exact wf.fresh b i (by omega) hb2 hi
    · intro e
      have := (slot_inj hi (by simp [ASSOCIATIVITY]) e).1
      omega
    · intro e
      have := (slot_inj0 hi e).1
      omega
  · intro b hb hlb
    rw [hused] at hb ⊢
    rw [hnb]
    by_cases hbc : b = c
    · subst hbc
      rw [hlinkc]
      simp only
      exact ⟨trivial, trivial, hc, hnbu, by omega⟩
    · rw [hlinko b hbc] at hlb ⊢
      have hb3 : b < g.used := by
        rcases Nat.lt_or_ge b g.used with h | h
        · exact h
        · have : b = g.used := by omega
          subst this
          rw [← hlinko _ hbc, hlinkn] at hlb
          exact absurd rfl hlb
      obtain ⟨a1, a2, a3, a4, a5⟩ := wf.link_ok b hb3 hlb
      exact ⟨a1, a2, a3, a4, by omega⟩
  · intro b i hb hlb hi
    rw [hused] at hb
    have hb3 : b < g.used := by
      rcases Nat.lt_or_ge b g.used with h | h
      · exact h
      · have : b = g.used := by omega
        subst this
        rw [hlinkn] at hlb
        exact absurd rfl hlb
    rw [hold b i hb3 hi]
    by_cases hbc : b = c
    · subst hbc
      exact hfull i hi
    · rw [hlinko b hbc] at hlb
      exact wf.link_full b i hb3 hlb hi
  · intro b i i2 hb hlt hi2 hne2
    rw [hused] at hb
    rcases Nat.lt_or_ge b g.used with h | h
    · rw [hold b i2 h hi2] at hne2
      rw [hold b i h (by omega)]
      exact wf.pfx b i i2 h hlt hi2 hne2
    · have : b = g.used := by omega
      subst this
      exact absurd (hnewi i2 (by omega) (by omega)) hne2
  · intro b i hb hi hne2
    rw [hused] at hb
    rw [hhome]
    rcases Nat.lt_or_ge b g.used with h | h
    · rw [hold b i h hi] at hne2 ⊢
      exact hmono _ _ (wf.placed b i h hi hne2)
    · have : b = g.used := by omega
      subst this
      rcases Nat.eq_zero_or_pos i with hi0 | hi0
      · subst hi0
        rw [hnew0]
        have h3 := (hmono _ _ hch).snoc (by rw [hlinkc]; exact hzne)
        rw [hlinkc] at h3
        exact h3
      · exact absurd (hnewi i hi0 (by omega)) hne2
  · intro b i b2 i2 hb hb2 hi hi2 hne2 he
    rw [hused] at hb hb2
    rcases Nat.lt_or_ge b g.used with h | h
    · rcases Nat.lt_or_ge b2 g.used with h2 | h2
      · rw [hold b i h hi] at hne2 he
        rw [hold b2 i2 h2 hi2] at he
        exact wf.nodup b i b2 i2 h h2 hi hi2 hne2 he
      · have : b2 = g.used := by omega
        subst this
        rw [hold b i h hi] at hne2 he
        rcases Nat.eq_zero_or_pos i2 with hi0 | hi0
        · subst hi0
          rw [hnew0] at he
          exact absurd he (hlacks (by rw [← he]; exact hne2) b i h hi)
        · rw [hnewi i2 hi0 (by omega)] at he
          exact absurd he hne2
    · have : b = g.used := by omega
      subst this
      rcases Nat.eq_zero_or_pos i with hi0 | hi0
      · subst hi0
        rw [hnew0] at hne2 he
        rcases Nat.lt_or_ge b2 g.used with h2 | h2
        · rw [hold b2 i2 h2 hi2] at he
          exact absurd he.symm (hlacks hne2 b2 i2 h2 hi2)
        · have : b2 = g.used := by omega
          subst this
          rcases Nat.eq_zero_or_pos i2 with hi0 | hi0
          · exact ⟨rfl, hi0.symm⟩
          · rw [hnewi i2 hi0 (by omega)] at he
            exact absurd he hne2
      · exact absurd (hnewi i hi0 (by omega)) hne2

/-! ### Consequences for single calls -/

theorem insert_key_wf {hash_u64 : Nat → Nat} {g : GStore} (wf : WF hash_u64 g)
    {key : ikey_t} {check_dup : Bool} {s : Nat} {g2 : GStore}
    (h : insert_key hash_u64 g key check_dup = .ok (s, g2)) : WF hash_u64 g2 := by
  have hs := insert_key_spec wf key check_dup
  rw [h] at hs
  generalize hr : Outcome.ok (s, g2) = r at hs
  cases hs with
  | dup_abort => cases hr
  | full_abort => cases hr
  | found c j _ _ _ _ =>
    injection hr with hr
    injection hr with _ h2
    rw [h2]
    exact wf
  | fill c j hc hj _ hpre hkey hlacks hch =>
    injection hr with hr
    injection hr with _ h2
    rw [h2]
    exact wf_fill wf hc hj hpre hkey hlacks hch
  | grow c hc hch hl hfull hroom hlacks =>
    injection hr with hr
    have h2 : g2 = (g.alloc_ext (c * ASSOCIATIVITY + (ASSOCIATIVITY - 1)) key).2 := by
      rw [← hr]
    rw [h2]
    exact wf_grow wf hc hch hl hfull hroom hlacks

theorem insert_key_present {hash_u64 : Nat → Nat} {g : GStore} (wf : WF hash_u64 g)
    {key : ikey_t} (hkey : key ≠ ikey_t.zero) {c j : Nat} (hc : c < g.used)
    (hj : j < ASSOCIATIVITY - 1) (hk : g.key_at c j = key) (check_dup : Bool) :
    insert_key hash_u64 g key check_dup =
      if check_dup then .abort else .ok (c * ASSOCIATIVITY + j, g) := by
  have hs := insert_key_spec wf key check_dup
  generalize insert_key hash_u64 g key check_dup = r at hs
  cases hs with
  | dup_abort _ _ hcd _ _ _ => rw [hcd]; rfl
  | full_abort _ _ _ _ _ _ hl => exact absurd hk (hl hkey c j hc hj)
  | found c2 j2 hcd hc2 hj2 hk2 =>
    rw [hcd]
    have := wf.nodup c j c2 j2 hc hc2 hj hj2 (by rw [hk]; exact hkey) (by rw [hk, hk2])
    rw [this.1, this.2]
    rfl
  | fill _ _ _ _ _ _ _ hl _ => exact absurd hk (hl c j hc hj)
  | grow _ _ _ _ _ _ hl => exact absurd hk (hl hkey c j hc hj)

theorem get_slot_local_spec {hash_u64 : Nat → Nat} {g : GStore} (wf : WF hash_u64 g)
    (key : ikey_t) :
    ∃ r, get_slot_local hash_u64 g key = .ok r ∧
      (∀ s, r = some s → ∃ c j, c < g.used ∧ j < ASSOCIATIVITY - 1 ∧
        s = c * ASSOCIATIVITY + j ∧ g.key_at c j = key) ∧
      (r = none → key ≠ ikey_t.zero → g.lacks key) := by
  have hhome : home hash_u64 g key < g.num_buckets := Nat.mod_lt _ wf.nb_pos
  have hb : home hash_u64 g key < g.used := by
    simp only [GStore.used]
    omega
  have h2 : g.budget (home hash_u64 g key) = g.last_ext + 1 := by
    rw [GStore.budget, if_pos hhome]
  obtain ⟨r, hr, hs, hn⟩ := get_slot_local_loop_spec wf key (g.last_ext + 1) _ hb (le_of_eq h2)
  refine ⟨r, hr, ?_, ?_⟩
  · intro s hs2
    obtain ⟨c, j, h1, h3, h4, h5⟩ := hs s hs2
    exact ⟨c, j, (h1.bounds wf hb).1, h3, h4, h5⟩
  · intro hr2 hkey c j hc hj hcj
    have := wf.placed c j hc hj (by rw [hcj]; exact hkey)
    rw [hcj] at this
    exact hn hr2 c this j hj hcj

theorem get_slot_local_present {hash_u64 : Nat → Nat} {g : GStore} (wf : WF hash_u64 g)
    {key : ikey_t} (hkey : key ≠ ikey_t.zero) {c j : Nat} (hc : c < g.used)
    (hj : j < ASSOCIATIVITY - 1) (hk : g.key_at c j = key) :
    get_slot_local hash_u64 g key = .ok (some (c * ASSOCIATIVITY + j)) := by
  obtain ⟨r, hr, hs, hn⟩ := get_slot_local_spec wf key
  rw [hr]
  cases r with
  | none => exact absurd hk (hn rfl hkey c j hc hj)
  | some s =>
    obtain ⟨c2, j2, h1, h2, h3, h4⟩ := hs s rfl
    have := wf.nodup c j c2 j2 hc h1 hj h2 (by rw [hk]; exact hkey) (by rw [hk, h4])
    rw [h3, this.1, this.2]

theorem get_slot_local_absent {hash_u64 : Nat → Nat} {g : GStore} (wf : WF hash_u64 g)
    {key : ikey_t} (hl : g.lacks key) :
    get_slot_local hash_u64 g key = .ok none := by
  obtain ⟨r, hr, hs, _⟩ := get_slot_local_spec wf key
  rw [hr]
  cases r with
  | none => rfl
  | some s =>
    obtain ⟨c2, j2, h1, h2, _, h4⟩ := hs s rfl
    exact absurd h4 (hl c2 j2 h1 h2)

theorem get_vertex_local_present {hash_u64 : Nat → Nat} {g : GStore} (wf : WF hash_u64 g)
    {key : ikey_t} (hkey : key ≠ ikey_t.zero) {c j : Nat} (hc : c < g.used)
    (hj : j < ASSOCIATIVITY - 1) (hk : g.key_at c j = key) :
    get_vertex_local hash_u64 g key = .ok (g.vertices (c * ASSOCIATIVITY + j)) := by
  simp [get_vertex_local, get_slot_local_present wf hkey hc hj hk, Outcome.bind]

theorem get_vertex_local_absent {hash_u64 : Nat → Nat} {g : GStore} (wf : WF hash_u64 g)
    {key : ikey_t} (hl : g.lacks key) :
    get_vertex_local hash_u64 g key = .ok vertex_t.zero := by
  simp [get_vertex_local, get_slot_local_absent wf hl, Outcome.bind]

theorem Trace.wf {hash_u64 : Nat → Nat} {g0 : GStore} (cfg : Config g0)
    {log : List (ikey_t × Nat)} {g : GStore} (t : Trace hash_u64 g0 log g) :
    WF hash_u64 g := by
  induction t with
  | init => exact refresh_wf hash_u64 g0 cfg
  | step key cd s _ h ih => exact insert_key_wf ih h

/-- What a successful `insert_key` call does to the data slots: the returned
slot is a data slot of a bucket in use and holds the key; every non-empty data
key stays where it was; a non-empty data key of the new state is the given key
or was there before. -/
theorem insert_key_slots {hash_u64 : Nat → Nat} {g : GStore} (wf : WF hash_u64 g)
    {key : ikey_t} {check_dup : Bool} {s : Nat} {g2 : GStore}
    (h : insert_key hash_u64 g key check_dup = .ok (s, g2)) :
    (∃ c j, c < g2.used ∧ j < ASSOCIATIVITY - 1 ∧ s = c * ASSOCIATIVITY + j ∧
      g2.key_at c j = key) ∧ g.used ≤ g2.used ∧
    (∀ c j, c < g.used → j < ASSOCIATIVITY - 1 → g.key_at c j ≠ ikey_t.zero →
      g2.key_at c j = g.key_at c j) ∧
    (∀ c j, c < g2.used → j < ASSOCIATIVITY - 1 → g2.key_at c j ≠ ikey_t.zero →
      g2.key_at c j = key ∨ (c < g.used ∧ g2.key_at c j = g.key_at c j)) := by
  have hs := insert_key_spec wf key check_dup
  rw [h] at hs
  generalize hr : Outcome.ok (s, g2) = r at hs
  cases hs with
  | dup_abort => cases hr
  | full_abort => cases hr
  | found c j _ hc hj hk =>
    injection hr with hr
    injection hr with h1 h2
    subst h1 h2
    exact ⟨⟨c, j, hc, hj, rfl, hk⟩, le_refl _, fun _ _ _ _ _ => rfl,
      fun c j hc _ _ => Or.inr ⟨hc, rfl⟩⟩
  | fill c j hc hj hz hpre hkey hlacks hch =>
    injection hr with hr
    injection hr with h1 h2
    subst h1 h2
    have hka := set_key_key_at g (c * ASSOCIATIVITY + j) key
    refine ⟨⟨c, j, hc, hj, rfl, by rw [hka, if_pos rfl]⟩, le_refl _, ?_, ?_⟩
    · intro c2 j2 _ hj2 hne
      rw [hka, if_neg]
      intro e
      obtain ⟨rfl, rfl⟩ := slot_inj (by omega) (by omega) e
      exact hne hz
    · intro c2 j2 hc2 _ _
      rw [hka]
      split_ifs
      · exact Or.inl rfl
      · exact Or.inr ⟨hc2, rfl⟩
  | grow c hc hch hl hfull hroom hlacks =>
    injection hr with hr
    have hfst := alloc_ext_fst wf hroom (c * ASSOCIATIVITY + (ASSOCIATIVITY - 1)) key
    have h1 : s = g.used * ASSOCIATIVITY := by rw [← hfst, ← hr]
    have h2 : g2 = (g.alloc_ext (c * ASSOCIATIVITY + (ASSOCIATIVITY - 1)) key).2 := by
      rw [← hr]
    have hka := alloc_ext_key_at wf hroom hl key
    rw [← h2] at hka
    have hused : g2.used = g.used + 1 := by
      rw [h2]; simp only [GStore.used, GStore.alloc_ext, GStore.set_key]; omega
    have hold : ∀ b i, b < g.used → i < ASSOCIATIVITY - 1 → g2.key_at b i = g.key_at b i := by
      intro b i hb hi
      rw [hka, if_neg, if_neg]
      · intro e
        have := (slot_inj (by omega) (by simp [ASSOCIATIVITY]) e).2
        omega
      · intro e
        have := (slot_inj0 (by omega) e).1
        omega
    refine ⟨⟨g.used, 0, by omega, by simp [ASSOCIATIVITY], by omega, ?_⟩, by omega, ?_, ?_⟩
    · rw [hka, if_pos (by omega)]
    · intro c2 j2 hc2 hj2 _
      exact hold c2 j2 hc2 hj2
    · intro c2 j2 hc2 hj2 hne
      rcases Nat.lt_or_ge c2 g.used with hlt | hge
      · exact Or.inr ⟨hlt, hold c2 j2 hlt hj2⟩
      · have : c2 = g.used := by omega
        subst this
        rcases Nat.eq_zero_or_pos j2 with hj0 | hj0
        · subst hj0
          left
          rw [hka, if_pos (by omega)]
        · exfalso
          apply hne
          rw [hka, if_neg, if_neg]
          · exact wf.fresh _ j2 (le_refl _) (by simp only [GStore.used]; omega) (by omega)
          · intro e
            have := (slot_inj (by omega) (by simp [ASSOCIATIVITY]) e).1
            omega
          · intro e
            have := (slot_inj0 (by omega) e).2
            omega

theorem Trace.logged {hash_u64 : Nat → Nat} {g0 : GStore} (cfg : Config g0)
    {log : List (ikey_t × Nat)} {g : GStore} (t : Trace hash_u64 g0 log g) :
    (∀ k s, (k, s) ∈ log → k ≠ ikey_t.zero →
      ∃ c j, c < g.used ∧ j < ASSOCIATIVITY - 1 ∧ s = c * ASSOCIATIVITY + j ∧
        g.key_at c j = k) ∧
    (∀ c j, c < g.used → j < ASSOCIATIVITY - 1 → g.key_at c j ≠ ikey_t.zero →
      ∃ s, (g.key_at c j, s) ∈ log) := by
  induction t with
  | init =>
    refine ⟨fun k s h => by simp at h, fun c j hc hj hne => ?_⟩
    exfalso
    apply hne
    have wf := refresh_wf hash_u64 g0 cfg
    have hlt := wf.slot_lt hc (j := j) (by omega)
    have hns : (refresh g0).num_slots = g0.num_slots := rfl
    rw [hns] at hlt
    simp [GStore.key_at, refresh, hlt, vertex_t.zero]
  | step key cd s t h ih =>
    have wf := t.wf cfg
    obtain ⟨h1, h2, h3, h4⟩ := insert_key_slots wf h
    obtain ⟨ih1, ih2⟩ := ih
    constructor
    · intro k s2 hm hk
      rcases List.mem_cons.1 hm with e | e
      · injection e with e1 e2
        subst e1 e2
        exact h1
      · obtain ⟨c, j, a1, a2, a3, a4⟩ := ih1 k s2 e hk
        exact ⟨c, j, by omega, a2, a3, by rw [h3 c j a1 a2 (by rw [a4]; exact hk), a4]⟩
    · intro c j hc hj hne
      rcases h4 c j hc hj hne with e | ⟨e1, e2⟩
      · exact ⟨s, by rw [e]; exact List.mem_cons_self _ _⟩
      · rw [e2] at hne ⊢
        obtain ⟨s2, hs2⟩ := ih2 c j e1 hj hne
        exact ⟨s2, List.mem_cons_of_mem _ hs2⟩

theorem WF.lacks_of_unused {hash_u64 : Nat → Nat} {g : GStore} (wf : WF hash_u64 g)
    {c j : Nat} (hc : c < g.num_buckets + g.num_buckets_ext) (hj : j < ASSOCIATIVITY - 1)
    (hne : g.key_at c j ≠ ikey_t.zero) : c < g.used := by
  by_contra hge
  exact hne (wf.fresh c j (by omega) hc (by omega))

theorem demo_config : Config demo_store :=
  ⟨by decide, by decide, by decide⟩

theorem demo_trace : Trace demo_hash demo_store [(demo_key, 0)]
    ((refresh demo_store).set_key 0 demo_key) :=
  Trace.step demo_key true 0 Trace.init rfl

/-! ### Frame properties of `insert_key` -/

theorem insert_key_frame {hash_u64 : Nat → Nat} {g : GStore} (wf : WF hash_u64 g)
    {key : ikey_t} {check_dup : Bool} {s : Nat} {g2 : GStore}
    (h : insert_key hash_u64 g key check_dup = .ok (s, g2)) :
    (∀ i, (g2.vertices i).ptr = (g.vertices i).ptr) ∧ g2.edges = g.edges ∧
    SameConfig g g2 ∧ g2.last_entry = g.last_entry ∧
    g.last_ext ≤ g2.last_ext ∧ g2.last_ext ≤ g.last_ext + 1 := by
  have hs := insert_key_spec wf key check_dup
  rw [h] at hs
  generalize hr : Outcome.ok (s, g2) = r at hs
  cases hs with
  | dup_abort => cases hr
  | full_abort => cases hr
  | found c j _ hc hj hk =>
    injection hr with hr
    injection hr with h1 h2
    subst h1 h2
    exact ⟨fun _ => rfl, rfl, ⟨rfl, rfl, rfl, rfl⟩, rfl, le_refl _, by omega⟩
  | fill c j hc hj hz hpre hkey hlacks hch =>
    injection hr with hr
    injection hr with h1 h2
    subst h1 h2
    refine ⟨fun i => ?_, rfl, ⟨rfl, rfl, rfl, rfl⟩, rfl, le_refl _, by simp [GStore.set_key]⟩
    simp only [GStore.set_key]
    split_ifs with e
    · rw [e]
    · rfl
  | grow c hc hch hl hfull hroom hlacks =>
    injection hr with hr
    have h2 : g2 = (g.alloc_ext (c * ASSOCIATIVITY + (ASSOCIATIVITY - 1)) key).2 := by
      rw [← hr]
    subst h2
    refine ⟨fun i => ?_, rfl, ⟨rfl, rfl, rfl, rfl⟩, rfl, ?_, ?_⟩
    · simp only [GStore.alloc_ext, GStore.set_key]
      split_ifs with e1 e2 e3 <;> simp_all
    · simp [GStore.alloc_ext, GStore.set_key]
    · simp [GStore.alloc_ext, GStore.set_key]

/-- The invariant only reads the keys and the index cursors. -/
theorem WF.congr {hash_u64 : Nat → Nat} {g g2 : GStore} (wf : WF hash_u64 g)
    (hk : ∀ i, (g2.vertices i).key = (g.vertices i).key)
    (h1 : g2.num_slots = g.num_slots) (h2 : g2.num_buckets = g.num_buckets)
    (h3 : g2.num_buckets_ext = g.num_buckets_ext) (h4 : g2.last_ext = g.last_ext) :
    WF hash_u64 g2 := by
  have hka : ∀ b j, g2.key_at b j = g.key_at b j := fun b j => hk _
  have hlink : ∀ b, g2.link b = g.link b := fun b => hk _
  have hused : g2.used = g.used := by simp only [GStore.used, h2, h4]
  have hmono : ∀ a b, OnChain g a b → OnChain g2 a b :=
    fun a b h => h.mono (fun b _ => hlink b)
  have hhome : ∀ k, home hash_u64 g2 k = home hash_u64 g k := by
    intro k; simp only [home, h2]
  refine ⟨by rw [h2]; exact wf.nb_pos, by rw [h4, h3]; exact wf.ext_le,
    by rw [h1, h2, h3]; exact wf.fits, by rw [h2, h3]; exact wf.small, ?_, ?_, ?_, ?_, ?_, ?_⟩
  · intro b j hb hb2 hj
    rw [hka]
    exact wf.fresh b j (by rw [← hused]; exact hb) (by rw [← h2, ← h3]; exact hb2) hj
  · intro b hb hl
    rw [hlink] at hl ⊢
    rw [hused] at hb ⊢
    rw [h2]
    exact wf.link_ok b hb hl
  · intro b j hb hl hj
    rw [hlink] at hl
    rw [hused] at hb
    rw [hka]
    exact wf.link_full b j hb hl hj
  · intro b i j hb hlt hj hne
    rw [hused] at hb
    rw [hka] at hne ⊢
    exact wf.pfx b i j hb hlt hj hne
  · intro b j hb hj hne
    rw [hused] at hb
    rw [hka] at hne ⊢
    rw [hhome]
    exact hmono _ _ (wf.placed b j hb hj hne)
  · intro b j c i hb hc hj hi hne he
    rw [hused] at hb hc
    rw [hka] at hne he
    rw [hka] at he
    exact wf.nodup b j c i hb hc hj hi hne he

/-! ### Writing a value list -/

theorem write_edges_frame (vs : List Nat) : ∀ (g : GStore) (off : Nat),
    (write_edges g off vs).vertices = g.vertices ∧
    (write_edges g off vs).num_slots = g.num_slots ∧
    (write_edges g off vs).num_buckets = g.num_buckets ∧
    (write_edges g off vs).num_buckets_ext = g.num_buckets_ext ∧
    (write_edges g off vs).last_ext = g.last_ext ∧
    (write_edges g off vs).num_entries = g.num_entries ∧
    (write_edges g off vs).last_entry = g.last_entry := by
  induction vs with
  | nil => intro g off; exact ⟨rfl, rfl, rfl, rfl, rfl, rfl, rfl⟩
  | cons v vs ih =>
    intro g off
    obtain ⟨a1, a2, a3, a4, a5, a6, a7⟩ := ih (g.set_edge off v) (off + 1)
    exact ⟨a1, a2, a3, a4, a5, a6, a7⟩

theorem write_edges_get (vs : List Nat) : ∀ (g : GStore) (off i : Nat),
    (write_edges g off vs).edges i =
      if off ≤ i ∧ i < off + vs.length then vs.getD (i - off) 0 else g.edges i := by
  induction vs with
  | nil =>
    intro g off i
    rw [if_neg (by simp only [List.length_nil]; omega)]
    rfl
  | cons v vs ih =>
    intro g off i
    simp only [write_edges]
    rw [ih]
    by_cases h1 : off + 1 ≤ i ∧ i < off + 1 + vs.length
    · rw [if_pos h1, if_pos (by simp only [List.length_cons]; omega)]
      have : i - off = (i - (off + 1)) + 1 := by omega
      rw [this]
      simp
    · rw [if_neg h1]
      by_cases h2 : i = off
      · subst h2
        simp [GStore.set_edge]
      · rw [if_neg (by simp only [List.length_cons]; omega)]
        simp [GStore.set_edge, h2]

theorem write_edges_read (vs : List Nat) (g : GStore) (off : Nat) :
    (write_edges g off vs).read_edges off vs.length = vs := by
  apply List.ext_getElem
  · simp [GStore.read_edges]
  · intro i h1 h2
    simp only [GStore.read_edges, List.getElem_map, List.getElem_range]
    rw [write_edges_get, if_pos (by omega)]
    simp [List.getD_eq_getElem?_getD, h2]

theorem write_edges_read_other (vs : List Nat) (g : GStore) (off off2 n : Nat)
    (h : off2 + n ≤ off) :
    (write_edges g off vs).read_edges off2 n = g.read_edges off2 n := by
  simp only [GStore.read_edges]
  apply List.map_congr_left
  intro i hi
  rw [write_edges_get, if_neg]
  have := List.mem_range.1 hi
  omega

/-! ### One `insert_list` block -/

theorem ikey_make_ok {v p d : Nat} (hv : v < 2 ^ NBITS_VID) (hp : p < 2 ^ NBITS_IDX)
    (hd : d < 2 ^ NBITS_DIR) : ikey_t.make v p d = .ok ⟨v, p, d⟩ := by
  simp [ikey_t.make, Nat.mod_eq_of_lt hv, Nat.mod_eq_of_lt hp, Nat.mod_eq_of_lt hd]

theorem iptr_make_ok {s o : Nat} (hs : s < 2 ^ NBITS_SIZE) (ho : o < 2 ^ NBITS_PTR) :
    iptr_t.make s o 0 = .ok ⟨s, o, 0⟩ := by
  simp [iptr_t.make, Nat.mod_eq_of_lt hs, Nat.mod_eq_of_lt ho]

theorem alloc_edges_ok {g : GStore} {n : Nat} (h1 : g.last_entry + n < g.num_entries)
    (h2 : g.num_entries ≤ 2 ^ NBITS_PTR) :
    alloc_edges g n = .ok (g.last_entry, { g with last_entry := g.last_entry + n }) := by
  have h3 : (g.last_entry + n) % 2 ^ 64 = g.last_entry + n := by
    apply Nat.mod_eq_of_lt
    have : (2 : Nat) ^ NBITS_PTR < 2 ^ 64 := by decide
    omega
  simp only [alloc_edges, h3]
  rw [if_neg]
  simp only [ge_iff_le, not_le]
  exact h1

theorem total_vals_append (L P : List Put) : total_vals (L ++ P) = total_vals L + total_vals P := by
  simp [total_vals]

theorem SameConfig.trans {a b c : GStore} (h1 : SameConfig a b) (h2 : SameConfig b c) :
    SameConfig a c := by
  obtain ⟨a1, a2, a3, a4⟩ := h1
  obtain ⟨b1, b2, b3, b4⟩ := h2
  exact ⟨by rw [b1, a1], by rw [b2, a2], by rw [b3, a3], by rw [b4, a4]⟩

theorem refresh_loaded (hash_u64 : Nat → Nat) (g : GStore) (cfg : Config g) :
    Loaded hash_u64 (refresh g) [] := by
  have wf := refresh_wf hash_u64 g cfg
  refine ⟨wf, rfl, fun p hp => by simp at hp, ?_⟩
  intro c j hc hj hne
  exfalso
  apply hne
  have hlt := wf.slot_lt hc (j := j) (by omega)
  have hns : (refresh g).num_slots = g.num_slots := rfl
  rw [hns] at hlt
  simp [GStore.key_at, refresh, hlt, vertex_t.zero]

/-! ### Reading a loaded store -/

theorem Loaded.lookup {hash_u64 : Nat → Nat} {g : GStore} {L : List Put}
    (ld : Loaded hash_u64 g L) {p : Put} (hp : p ∈ L) (hv : p.valid) :
    get_edges_local hash_u64 g p.vid p.d p.pid = .ok (p.vals.length, some p.vals) := by
  obtain ⟨hv1, hv2, hv3, hv4⟩ := hv
  obtain ⟨c, j, off, a1, a2, a3, a4, _, a6⟩ := ld.holds p hp
  have hmk : ikey_t.make p.vid p.pid p.d = .ok p.key := ikey_make_ok hv1 hv2 hv3
  have hget := get_vertex_local_present ld.wf hv4 a1 a2 a3
  have hkey : (g.vertices (c * ASSOCIATIVITY + j)).key = p.key := a3
  have hne : (g.vertices (c * ASSOCIATIVITY + j)).key.is_empty = false := by
    rw [hkey]
    exact (ikey_t.is_empty_false_iff _).2 hv4
  simp only [get_edges_local, hmk, Outcome.bind, hget, hne, a4, a6]
  rfl

theorem Loaded.lookup_none {hash_u64 : Nat → Nat} {g : GStore} {L : List Put}
    (ld : Loaded hash_u64 g L) {k : ikey_t} (hk : ∀ p, p ∈ L → p.key ≠ k)
    (hnz : k ≠ ikey_t.zero) :
    get_vertex_local hash_u64 g k = .ok vertex_t.zero := by
  apply get_vertex_local_absent ld.wf
  intro c j hc hj hcj
  obtain ⟨q, hq, hqk⟩ := ld.only c j hc hj (by rw [hcj]; exact hnz)
  exact hk q hq (by rw [hqk, hcj])

/-! ### The passes of `insert_normal` -/

theorem run_end_spo_eq (spo : List triple_t) (s : Nat) : ∀ fuel e,
    run_end_spo spo s fuel e = run_end (fun t => t.s) spo s fuel e := by
  intro fuel
  induction fuel with
  | zero => intro e; rfl
  | succ n ih => intro e; simp only [run_end_spo, run_end, ih]

theorem run_end_ops_eq (ops : List triple_t) (s : Nat) : ∀ fuel e,
    run_end_ops ops s fuel e = run_end (fun t => t.o) ops s fuel e := by
  intro fuel
  induction fuel with
  | zero => intro e; rfl
  | succ n ih => intro e; simp only [run_end_ops, run_end, ih]

theorem insert_normal_spo_eq (hash_u64 : Nat → Nat) (versatile : Bool) (spo : List triple_t) :
    ∀ fuel g predicates s,
    insert_normal_spo hash_u64 versatile spo fuel g predicates s =
      insert_pass hash_u64 versatile (fun t => t.s) (fun t => t.o) OUT spo fuel g predicates s := by
  intro fuel
  induction fuel with
  | zero => intro g p s; rfl
  | succ n ih =>
    intro g p s
    simp only [insert_normal_spo, insert_pass, ih, run_end_spo_eq]

theorem insert_normal_ops_eq (hash_u64 : Nat → Nat) (versatile : Bool) (ops : List triple_t) :
    ∀ fuel g predicates s,
    insert_normal_ops hash_u64 versatile ops fuel g predicates s =
      insert_pass hash_u64 versatile (fun t => t.o) (fun t => t.s) IN ops fuel g predicates s := by
  intro fuel
  induction fuel with
  | zero => intro g p s; rfl
  | succ n ih =>
    intro g p s
    simp only [insert_normal_ops, insert_pass, ih, run_end_ops_eq]

theorem same_run_refl (f : triple_t → Nat) (v : List triple_t) (i : Nat) : same_run f v i i :=
  ⟨rfl, rfl⟩

theorem same_run_symm {f : triple_t → Nat} {v : List triple_t} {i k : Nat}
    (h : same_run f v i k) : same_run f v k i := ⟨h.1.symm, h.2.symm⟩

theorem same_run_trans {f : triple_t → Nat} {v : List triple_t} {i j k : Nat}
    (h1 : same_run f v i j) (h2 : same_run f v j k) : same_run f v i k :=
  ⟨h1.1.trans h2.1, h1.2.trans h2.2⟩

theorem run_end_spec (f : triple_t → Nat) (v : List triple_t) (s : Nat) : ∀ fuel e,
    e ≤ v.length → v.length ≤ e + fuel → (∀ k, s ≤ k → k < e → same_run f v s k) →
    e ≤ run_end f v s fuel e ∧ run_end f v s fuel e ≤ v.length ∧
      (∀ k, s ≤ k → k < run_end f v s fuel e → same_run f v s k) ∧
      (run_end f v s fuel e = v.length ∨ ¬ same_run f v s (run_end f v s fuel e)) := by
  intro fuel
  induction fuel with
  | zero =>
    intro e h1 h2 h3
    have : e = v.length := by omega
    simp only [run_end]
    exact ⟨le_refl _, h1, h3, Or.inl this⟩
  | succ n ih =>
    intro e h1 h2 h3
    simp only [run_end]
    split_ifs with hc
    · obtain ⟨c1, c2, c3⟩ := hc
      have h3b : ∀ k, s ≤ k → k < e + 1 → same_run f v s k := by
        intro k hk1 hk2
        rcases Nat.lt_or_ge k e with hlt | hge
        · exact h3 k hk1 hlt
        · have : k = e := by omega
          subst this
          exact ⟨c2, c3⟩
      obtain ⟨a1, a2, a3, a4⟩ := ih (e + 1) (by omega) (by omega) h3b
      exact ⟨by omega, a2, a3, a4⟩
    · refine ⟨le_refl _, h1, h3, ?_⟩
      by_cases he : e < v.length
      · right
        intro hs
        exact hc ⟨he, hs.1, hs.2⟩
      · left
        omega

theorem run_end_top (f : triple_t → Nat) (v : List triple_t) (s : Nat) (hs : s < v.length) :
    s < run_end f v s v.length (s + 1) ∧ run_end f v s v.length (s + 1) ≤ v.length ∧
      (∀ k, s ≤ k → k < run_end f v s v.length (s + 1) → same_run f v s k) ∧
      (run_end f v s v.length (s + 1) = v.length ∨
        ¬ same_run f v s (run_end f v s v.length (s + 1))) := by
  have h3 : ∀ k, s ≤ k → k < s + 1 → same_run f v s k := by
    intro k h1 h2
    have : k = s := by omega
    subst this
    exact same_run_refl f v k
  obtain ⟨a1, a2, a3, a4⟩ := run_end_spec f v s v.length (s + 1) (by omega) (by omega) h3
  exact ⟨by omega, a2, a3, a4⟩

theorem insert_pass_eq (hash_u64 : Nat → Nat) (versatile : Bool) (f val : triple_t → Nat)
    (d : Nat) (v : List triple_t) : ∀ fuel g predicates s, s ≤ v.length →
    v.length < s + fuel →
    insert_pass hash_u64 versatile f val d v fuel g predicates s =
      (insert_lists hash_u64 g (plan_pass versatile f val d v fuel predicates s).1).bind
        fun g2 => .ok (g2, (plan_pass versatile f val d v fuel predicates s).2) := by
  intro fuel
  induction fuel with
  | zero => intro g p s h1 h2; omega
  | succ n ih =>
    intro g p s h1 h2
    simp only [insert_pass, plan_pass]
    by_cases hs : s < v.length
    · obtain ⟨e1, e2, _, _⟩ := run_end_top f v s hs
      simp only [if_pos hs]
      cases versatile with
      | false =>
        simp only [Bool.false_eq_true, if_false, insert_lists]
        cases insert_list hash_u64 g (f (triple_at v s)) (triple_at v s).p d
            (slice_map v val s (run_end f v s v.length (s + 1))) with
        | ok g1 =>
          simp only [Outcome.bind]
          exact ih g1 p _ e2 (by omega)
        | abort => rfl
        | nofuel => rfl
      | true =>
        simp only [if_true]
        split_ifs with hc
        · simp only [insert_lists]
          cases insert_list hash_u64 g (f (triple_at v s)) (triple_at v s).p d
              (slice_map v val s (run_end f v s v.length (s + 1))) with
          | ok g1 =>
            simp only [Outcome.bind]
            cases insert_list hash_u64 g1 (f (triple_at v s)) PREDICATE_ID d
                (p ++ [(triple_at v s).p]) with
            | ok g2 =>
              simp only []
              exact ih g2 [] _ e2 (by omega)
            | abort => rfl
            | nofuel => rfl
          | abort => rfl
          | nofuel => rfl
        · simp only [insert_lists]
          cases insert_list hash_u64 g (f (triple_at v s)) (triple_at v s).p d
              (slice_map v val s (run_end f v s v.length (s + 1))) with
          | ok g1 =>
            simp only [Outcome.bind]
            exact ih g1 _ _ e2 (by omega)
          | abort => rfl
          | nofuel => rfl
    · simp only [if_neg hs, insert_lists, Outcome.bind]

theorem plan_pass_succ (versatile : Bool) (f val : triple_t → Nat) (d : Nat)
    (v : List triple_t) (fuel : Nat) (predicates : List Nat) (s : Nat) (hs : s < v.length) :
    plan_pass versatile f val d v (fuel + 1) predicates s =
      (⟨f (triple_at v s), (triple_at v s).p, d,
          slice_map v val s (run_end f v s v.length (s + 1))⟩
        :: ((flush versatile f d v predicates s (run_end f v s v.length (s + 1))).1
          ++ (plan_pass versatile f val d v fuel
            (flush versatile f d v predicates s (run_end f v s v.length (s + 1))).2
            (run_end f v s v.length (s + 1))).1),
       (plan_pass versatile f val d v fuel
            (flush versatile f d v predicates s (run_end f v s v.length (s + 1))).2
            (run_end f v s v.length (s + 1))).2) := by
  simp only [plan_pass, if_pos hs, flush]
  cases versatile with
  | false => simp
  | true =>
    simp only [if_true]
    split_ifs <;> simp

theorem plan_pass_done (versatile : Bool) (f val : triple_t → Nat) (d : Nat)
    (v : List triple_t) (fuel : Nat) (predicates : List Nat) (s : Nat) (hs : ¬ s < v.length) :
    plan_pass versatile f val d v fuel predicates s = ([], predicates) := by
  cases fuel with
  | zero => rfl
  | succ n => simp only [plan_pass, if_neg hs]

theorem PassPut.weaken {versatile : Bool} {f val : triple_t → Nat} {d : Nat}
    {v : List triple_t} {pr pr2 : List Nat} {s e : Nat} {p : Put} (hse : s < e)
    (hpr : pr2.length ≤ pr.length + 1)
    (hsub : ∀ x, x ∈ pr2 → x ∈ pr ∨ x = (triple_at v s).p) (hs : s < v.length)
    (h : PassPut versatile f val d v pr2 e p) : PassPut versatile f val d v pr s p := by
  rcases h with ⟨a, b, h1, h2, h3, h4, h5, h6⟩ | ⟨hv, a, h1, h2, h3, h4, h5, h6, h7⟩
  · exact Or.inl ⟨a, b, by omega, h2, h3, h4, h5, h6⟩
  · refine Or.inr ⟨hv, a, by omega, h2, h3, h4, h5, by omega, ?_⟩
    intro x hx
    rcases h7 x hx with h | ⟨k, k1, k2, k3⟩
    · rcases hsub x h with h | h
      · exact Or.inl h
      · exact Or.inr ⟨s, le_refl _, hs, h⟩
    · exact Or.inr ⟨k, by omega, k2, k3⟩

theorem flush_snd_length (versatile : Bool) (f : triple_t → Nat) (d : Nat) (v : List triple_t)
    (pr : List Nat) (s e : Nat) :
    (flush versatile f d v pr s e).2.length ≤ pr.length + 1 ∧
    ∀ x, x ∈ (flush versatile f d v pr s e).2 → x ∈ pr ∨ x = (triple_at v s).p := by
  simp only [flush]
  cases versatile with
  | false => exact ⟨by simp, fun x hx => Or.inl hx⟩
  | true =>
    simp only [if_true]
    split_ifs
    · exact ⟨by simp, fun x hx => by simp at hx⟩
    · refine ⟨by simp, fun x hx => ?_⟩
      simpa using hx

theorem plan_pass_shape (versatile : Bool) (f val : triple_t → Nat) (d : Nat)
    (v : List triple_t) : ∀ fuel pr s p, p ∈ (plan_pass versatile f val d v fuel pr s).1 →
    PassPut versatile f val d v pr s p := by
  intro fuel
  induction fuel with
  | zero => intro pr s p hp; simp [plan_pass] at hp
  | succ n ih =>
    intro pr s p hp
    by_cases hs : s < v.length
    · rw [plan_pass_succ _ _ _ _ _ _ _ _ hs] at hp
      obtain ⟨e1, e2, e3, e4⟩ := run_end_top f v s hs
      generalize run_end f v s v.length (s + 1) = e at hp e1 e2 e3 e4
      simp only [List.mem_cons, List.mem_append] at hp
      rcases hp with hp | hp | hp
      · exact Or.inl ⟨s, e, le_refl _, e1, e2, e3, e4, hp⟩
      · simp only [flush] at hp
        cases versatile with
        | false => simp at hp
        | true =>
          simp only [if_true] at hp
          split_ifs at hp with hc
          · simp only [List.mem_singleton] at hp
            subst hp
            refine Or.inr ⟨rfl, s, le_refl _, hs, rfl, rfl, rfl, by simp, ?_⟩
            intro x hx
            simp only [List.mem_append, List.mem_singleton] at hx
            rcases hx with hx | hx
            · exact Or.inl hx
            · exact Or.inr ⟨s, le_refl _, hs, hx⟩
          · simp at hp
      · have hf := flush_snd_length versatile f d v pr s e
        exact (ih _ e p hp).weaken e1 hf.1 hf.2 hs
    · rw [plan_pass_done _ _ _ _ _ _ _ _ hs] at hp
      simp at hp

theorem plan_pass_snd_versatile (f val : triple_t → Nat) (d : Nat)
    (v : List triple_t) : ∀ fuel pr s, s < v.length → v.length < s + fuel →
    (plan_pass true f val d v fuel pr s).2 = [] := by
  intro fuel
  induction fuel with
  | zero => intro pr s h1 h2; omega
  | succ k ihk =>
    intro pr s hs2 h2
    rw [plan_pass_succ _ _ _ _ _ _ _ _ hs2]
    obtain ⟨e1, e2, _, _⟩ := run_end_top f v s hs2
    generalize run_end f v s v.length (s + 1) = e at e1 e2
    by_cases he : e < v.length
    · exact ihk _ e he (by omega)
    · rw [plan_pass_done _ _ _ _ _ _ _ _ he]
      have hge : e ≥ v.length := by omega
      simp only [flush, if_true, if_pos (Or.inl hge : e ≥ v.length ∨ _)]

theorem plan_pass_snd_plain (f val : triple_t → Nat) (d : Nat)
    (v : List triple_t) : ∀ fuel pr s,
    (plan_pass false f val d v fuel pr s).2 = pr := by
  intro fuel
  induction fuel with
  | zero => intro pr s; rfl
  | succ k ihk =>
    intro pr s
    by_cases hs : s < v.length
    · rw [plan_pass_succ _ _ _ _ _ _ _ _ hs]
      simp only [flush]
      exact ihk _ _
    · rw [plan_pass_done _ _ _ _ _ _ _ _ hs]

theorem plan_pass_snd (versatile : Bool) (f val : triple_t → Nat) (d : Nat)
    (v : List triple_t) (fuel s : Nat) (h2 : v.length < s + fuel) :
    (plan_pass versatile f val d v fuel [] s).2 = [] := by
  by_cases hs : s < v.length
  · cases versatile with
    | false => exact plan_pass_snd_plain f val d v fuel [] s
    | true => exact plan_pass_snd_versatile f val d v fuel [] s hs h2
  · rw [plan_pass_done _ _ _ _ _ _ _ _ hs]

theorem slice_map_length (v : List triple_t) (val : triple_t → Nat) (a b : Nat) :
    (slice_map v val a b).length = b - a := by
  simp [slice_map]

theorem PassPut.valid {versatile : Bool} {f val : triple_t → Nat} {d : Nat}
    {v : List triple_t} {pr : List Nat} {s s0 : Nat} {p : Put} (ok : PassOK f v s0)
    (hs : s0 ≤ s) (hd : d < 2 ^ NBITS_DIR)
    (h : PassPut versatile f val d v pr s p) : p.valid := by
  have hpos : (0 : Nat) < 2 ^ NBITS_IDX := by decide
  rcases h with ⟨a, b, h1, h2, h3, _, _, h6⟩ | ⟨_, a, h1, h2, h3, h4, h5, _, _⟩
  · obtain ⟨i1, i2, i3, _⟩ := ok.ids a (by omega) (by omega)
    subst h6
    refine ⟨i2, i3, hd, ?_⟩
    intro e
    have := congrArg ikey_t.vid e
    simp only [Put.key, ikey_t.zero] at this
    omega
  · obtain ⟨i1, i2, _, _⟩ := ok.ids a (by omega) h2
    refine ⟨by rw [h3]; exact i2, by rw [h4]; exact hpos, by rw [h5]; exact hd, ?_⟩
    intro e
    have := congrArg ikey_t.vid e
    simp only [Put.key, ikey_t.zero] at this
    omega

theorem PassOK.no_match_after {f : triple_t → Nat} {v : List triple_t} {s0 : Nat}
    (ok : PassOK f v s0) {s e a : Nat} (hs : s0 ≤ s) (hse : s < e)
    (he : e = v.length ∨ ¬ same_run f v s e) (hea : e ≤ a) (ha : a < v.length) :
    ¬ same_run f v s a := by
  intro hm
  rcases he with he | he
  · omega
  · apply he
    have h1 := ok.sorted s e hs (by omega) (by omega)
    have h2 := ok.sorted e a (by omega) hea ha
    obtain ⟨m1, m2⟩ := hm
    constructor <;> omega

theorem PassOK.no_vertex_after {f : triple_t → Nat} {v : List triple_t} {s0 : Nat}
    (ok : PassOK f v s0) {s e a : Nat} (hs : s0 ≤ s) (hse : s < e)
    (he : e ≥ v.length ∨ f (triple_at v s) ≠ f (triple_at v e)) (hea : e ≤ a)
    (ha : a < v.length) : f (triple_at v a) ≠ f (triple_at v s) := by
  rcases he with he | he
  · omega
  · have h1 := ok.sorted s e hs (by omega) (by omega)
    have h2 := ok.sorted e a (by omega) hea ha
    omega

theorem plan_pass_distinct (versatile : Bool) (f val : triple_t → Nat) (d : Nat)
    (v : List triple_t) (s0 : Nat) (ok : PassOK f v s0) : ∀ fuel pr s, s0 ≤ s →
    ((plan_pass versatile f val d v fuel pr s).1).Pairwise fun p q => p.key ≠ q.key := by
  intro fuel
  induction fuel with
  | zero => intro pr s _; simp [plan_pass]
  | succ n ih =>
    intro pr s hs0
    by_cases hs : s < v.length
    · rw [plan_pass_succ _ _ _ _ _ _ _ _ hs]
      obtain ⟨e1, e2, e3, e4⟩ := run_end_top f v s hs
      have hshape := plan_pass_shape versatile f val d v n
        (flush versatile f d v pr s (run_end f v s v.length (s + 1))).2
        (run_end f v s v.length (s + 1))
      have ihe := ih (flush versatile f d v pr s (run_end f v s v.length (s + 1))).2
        (run_end f v s v.length (s + 1)) (by omega)
      generalize run_end f v s v.length (s + 1) = e at e1 e2 e3 e4 hshape ihe
      obtain ⟨_, _, _, hp0⟩ := ok.ids s hs0 hs
      -- the first key differs from every later key
      have hfirst : ∀ q, PassPut versatile f val d v
          (flush versatile f d v pr s e).2 e q →
          (⟨f (triple_at v s), (triple_at v s).p, d⟩ : ikey_t) ≠ q.key := by
        intro q hq heq
        rcases hq with ⟨a, b, h1, h2, h3, _, _, h6⟩ | ⟨_, a, h1, h2, h3, h4, _, _, _⟩
        · subst h6
          simp only [Put.key, ikey_t.mk.injEq] at heq
          exact ok.no_match_after hs0 e1 e4 h1 (by omega) ⟨heq.1, heq.2.1⟩
        · simp only [Put.key, ikey_t.mk.injEq] at heq
          exact hp0 (by rw [heq.2.1, h4])
      simp only [List.pairwise_cons, List.pairwise_append, List.mem_append]
      refine ⟨?_, ?_, ihe, ?_⟩
      · intro q hq
        rcases hq with hq | hq
        · simp only [flush] at hq
          cases versatile with
          | false => simp at hq
          | true =>
            simp only [if_true] at hq
            split_ifs at hq
            · simp only [List.mem_singleton] at hq
              subst hq
              simp only [Put.key, ne_eq, ikey_t.mk.injEq, not_and]
              intro _ hh
              exact absurd hh hp0
            · simp at hq
        · exact hfirst q (hshape q hq)
      · simp only [flush]
        cases versatile with
        | false => simp
        | true =>
          simp only [if_true]
          split_ifs <;> simp
      · intro p hp q hq
        simp only [flush] at hp
        cases versatile with
        | false => simp at hp
        | true =>
          simp only [if_true] at hp
          split_ifs at hp with hc
          · simp only [List.mem_singleton] at hp
            subst hp
            intro heq
            simp only [Put.key, ikey_t.mk.injEq] at heq
            rcases hshape q hq with ⟨a, b, h1, h2, h3, _, _, h6⟩ |
              ⟨_, a, h1, h2, h3, h4, _, _, _⟩
            · subst h6
              obtain ⟨_, _, _, hpa⟩ := ok.ids a (by omega) (by omega)
              exact hpa heq.2.1.symm
            · exact ok.no_vertex_after hs0 e1 hc h1 h2 (by rw [← h3, ← heq.1])
          · simp at hp
    · rw [plan_pass_done _ _ _ _ _ _ _ _ hs]
      simp

theorem plan_pass_cover (versatile : Bool) (f val : triple_t → Nat) (d : Nat)
    (v : List triple_t) : ∀ fuel pr s, v.length < s + fuel →
    (s = 0 ∨ ¬ same_run f v s (s - 1)) → ∀ i, s ≤ i → i < v.length →
    ∃ a b, s ≤ a ∧ a ≤ i ∧ i < b ∧ MaxRun f v a b ∧
      (⟨f (triple_at v a), (triple_at v a).p, d, slice_map v val a b⟩ : Put)
        ∈ (plan_pass versatile f val d v fuel pr s).1 := by
  intro fuel
  induction fuel with
  | zero => intro pr s h _ i h1 h2; omega
  | succ n ih =>
    intro pr s hfuel hleft i hi1 hi2
    have hs : s < v.length := by omega
    rw [plan_pass_succ _ _ _ _ _ _ _ _ hs]
    obtain ⟨e1, e2, e3, e4⟩ := run_end_top f v s hs
    have ihe := ih (flush versatile f d v pr s (run_end f v s v.length (s + 1))).2
      (run_end f v s v.length (s + 1))
    generalize run_end f v s v.length (s + 1) = e at e1 e2 e3 e4 ihe
    rcases Nat.lt_or_ge i e with hie | hie
    · exact ⟨s, e, le_refl _, hi1, hie, ⟨e1, e2, e3, hleft, e4⟩, List.mem_cons_self _ _⟩
    · have he : e < v.length := by omega
      have hleft2 : e = 0 ∨ ¬ same_run f v e (e - 1) := by
        right
        intro hm
        rcases e4 with e4 | e4
        · omega
        · exact e4 (same_run_trans (e3 (e - 1) (by omega) (by omega)) (same_run_symm hm))
      obtain ⟨a, b, h1, h2, h3, h4, h5⟩ := ihe (by omega) hleft2 i hie hi2
      exact ⟨a, b, by omega, h2, h3, h4,
        List.mem_cons_of_mem _ (List.mem_append_right _ h5)⟩

theorem plan_pass_size (versatile : Bool) (f val : triple_t → Nat) (d : Nat)
    (v : List triple_t) : ∀ fuel pr s,
    (plan_pass versatile f val d v fuel pr s).1.length ≤ 2 * (v.length - s) ∧
    total_vals (plan_pass versatile f val d v fuel pr s).1
      ≤ 2 * (v.length - s) + pr.length := by
  intro fuel
  induction fuel with
  | zero => intro pr s; simp [plan_pass, total_vals]
  | succ n ih =>
    intro pr s
    by_cases hs : s < v.length
    · rw [plan_pass_succ _ _ _ _ _ _ _ _ hs]
      obtain ⟨e1, e2, _, _⟩ := run_end_top f v s hs
      have ihe := ih (flush versatile f d v pr s (run_end f v s v.length (s + 1))).2
        (run_end f v s v.length (s + 1))
      generalize run_end f v s v.length (s + 1) = e at e1 e2 ihe
      have hsum : ∀ (p : Put) (A B : List Put),
          total_vals (p :: (A ++ B)) = p.vals.length + total_vals A + total_vals B := by
        intro p A B
        simp [total_vals]
        omega
      rw [hsum]
      simp only [List.length_cons, List.length_append, slice_map_length]
      simp only [flush] at ihe ⊢
      cases versatile with
      | false =>
        simp only [Bool.false_eq_true, if_false, List.length_nil, total_vals, List.map_nil,
          List.sum_nil] at ihe ⊢
        omega
      | true =>
        simp only [if_true] at ihe ⊢
        split_ifs at ihe ⊢ with hc
        · simp only [List.length_nil, List.length_singleton, total_vals, List.map_cons,
            List.map_nil, List.sum_cons, List.sum_nil, List.length_append] at ihe ⊢
          omega
        · simp only [List.length_nil, total_vals, List.map_nil, List.sum_nil,
            List.length_append, List.length_singleton] at ihe ⊢
          omega
    · rw [plan_pass_done _ _ _ _ _ _ _ _ hs]
      simp [total_vals]

/-! ### Streams -/

theorem triple_at_eq (v : List triple_t) (i : Nat) (h : i < v.length) :
    triple_at v i = v[i] := by
  simp [triple_at, List.getD_eq_getElem?_getD, h]

theorem triple_at_mem (v : List triple_t) (i : Nat) (h : i < v.length) :
    triple_at v i ∈ v := by
  rw [triple_at_eq v i h]
  exact List.getElem_mem _

theorem mem_triple_at {v : List triple_t} {t : triple_t} (h : t ∈ v) :
    ∃ i, i < v.length ∧ triple_at v i = t := by
  obtain ⟨i, hi, e⟩ := List.getElem_of_mem h
  exact ⟨i, hi, by rw [triple_at_eq v i hi, e]⟩

theorem pairwise_triple_at {R : triple_t → triple_t → Prop} {v : List triple_t}
    (h : v.Pairwise R) {i j : Nat} (hij : i < j) (hj : j < v.length) :
    R (triple_at v i) (triple_at v j) := by
  rw [triple_at_eq v i (by omega), triple_at_eq v j hj]
  exact List.pairwise_iff_getElem.1 h i j (by omega) hj hij

theorem is_vid_iff (x : Nat) :
    is_vid x = true ↔ 2 ^ NBITS_IDX ≤ x % 2 ^ 32 ∧ x % 2 ^ 32 < 2 ^ 31 := by
  simp [is_vid]

theorem is_vid_ge {x : Nat} (h : is_vid x = true) : 2 ^ NBITS_IDX ≤ x :=
  le_trans ((is_vid_iff x).1 h).1 (Nat.mod_le _ _)

theorem is_tpid_iff (x : Nat) : is_tpid x = true ↔ 1 < x ∧ x < 2 ^ NBITS_IDX := by
  simp [is_tpid]

theorem skip_type_triples_spec (ops : List triple_t) : ∀ fuel n, n ≤ ops.length →
    ops.length ≤ n + fuel → (∀ i, i < n → is_tpid (triple_at ops i).o = true) →
    skip_type_triples ops fuel n ≤ ops.length ∧
    (∀ i, i < skip_type_triples ops fuel n → is_tpid (triple_at ops i).o = true) ∧
    (skip_type_triples ops fuel n = ops.length ∨
      is_tpid (triple_at ops (skip_type_triples ops fuel n)).o = false) := by
  intro fuel
  induction fuel with
  | zero =>
    intro n h1 h2 h3
    simp only [skip_type_triples]
    exact ⟨h1, h3, Or.inl (by omega)⟩
  | succ k ih =>
    intro n h1 h2 h3
    simp only [skip_type_triples]
    split_ifs with hc
    · apply ih (n + 1) (by omega) (by omega)
      intro i hi
      rcases Nat.lt_or_ge i n with h | h
      · exact h3 i h
      · have : i = n := by omega
        subst this
        exact hc.2
    · refine ⟨h1, h3, ?_⟩
      by_cases hn : n < ops.length
      · right
        cases hb : is_tpid (triple_at ops n).o with
        | true => exact absurd ⟨hn, hb⟩ hc
        | false => rfl
      · left
        omega

theorem Streams.length_eq {spo ops : List triple_t} (st : Streams spo ops) :
    ops.length = spo.length := st.same.length_eq

theorem Streams.wf_ops {spo ops : List triple_t} (st : Streams spo ops) (i : Nat)
    (hi : i < ops.length) : (triple_at ops i).wellformed :=
  st.ids _ (st.same.mem_iff.1 (triple_at_mem ops i hi))

theorem Streams.pass_spo {spo ops : List triple_t} (st : Streams spo ops) :
    PassOK (fun t => t.s) spo 0 := by
  refine ⟨?_, ?_⟩
  · intro i _ hi
    obtain ⟨h1, h2, h3⟩ := st.ids _ (triple_at_mem spo i hi)
    refine ⟨h1, h2, ?_⟩
    rcases h3 with ⟨h3, _⟩ | ⟨h3, _⟩
    · rw [h3]
      exact ⟨by decide, by decide⟩
    · rw [is_tpid_iff] at h3
      exact ⟨h3.2, by simp only [PREDICATE_ID]; omega⟩
  · intro i j _ hij hj
    rcases Nat.eq_or_lt_of_le hij with e | e
    · subst e
      exact Or.inr ⟨rfl, le_refl _⟩
    · have := pairwise_triple_at st.sorted_spo e hj
      simp only [spo_lt] at this
      omega

theorem Streams.pass_ops {spo ops : List triple_t} (st : Streams spo ops) :
    PassOK (fun t => t.o) ops (skip_type_triples ops ops.length 0) ∧
    skip_type_triples ops ops.length 0 ≤ ops.length ∧
    (∀ i, i < ops.length → (triple_at ops i).p ≠ TYPE_ID →
      skip_type_triples ops ops.length 0 ≤ i) ∧
    (skip_type_triples ops ops.length 0 = 0 ∨
      ¬ same_run (fun t => t.o) ops (skip_type_triples ops ops.length 0)
        (skip_type_triples ops ops.length 0 - 1)) := by
  obtain ⟨h1, h2, h3⟩ := skip_type_triples_spec ops ops.length 0 (Nat.zero_le _) (by omega)
    (fun i hi => by omega)
  generalize skip_type_triples ops ops.length 0 = tt at h1 h2 h3
  -- from position `tt` on, every object is a vertex id
  have hvid : ∀ i, tt ≤ i → i < ops.length → 2 ^ NBITS_IDX ≤ (triple_at ops i).o := by
    intro i hi1 hi2
    rcases h3 with h3 | h3
    · omega
    · have hw := st.wf_ops tt (by omega)
      have htt : 2 ^ NBITS_IDX ≤ (triple_at ops tt).o := by
        rcases hw.2.2 with ⟨_, hw⟩ | ⟨_, hw, _⟩
        · rw [hw] at h3
          cases h3
        · exact hw
      rcases Nat.eq_or_lt_of_le hi1 with e | e
      · subst e
        exact htt
      · have := pairwise_triple_at st.sorted_ops e hi2
        simp only [ops_lt] at this
        omega
  have hnormal : ∀ i, tt ≤ i → i < ops.length →
      is_tpid (triple_at ops i).p = true ∧ (triple_at ops i).o < 2 ^ NBITS_VID := by
    intro i hi1 hi2
    have hw := st.wf_ops i hi2
    have hv := hvid i hi1 hi2
    rcases hw.2.2 with ⟨_, hw⟩ | ⟨hw1, _, hw3⟩
    · rw [is_tpid_iff] at hw
      omega
    · exact ⟨hw1, hw3⟩
  refine ⟨⟨?_, ?_⟩, h1, ?_, ?_⟩
  · intro i hi1 hi2
    obtain ⟨a1, a2⟩ := hnormal i hi1 hi2
    rw [is_tpid_iff] at a1
    exact ⟨hvid i hi1 hi2, a2, a1.2, by simp only [PREDICATE_ID]; omega⟩
  · intro i j _ hij hj
    rcases Nat.eq_or_lt_of_le hij with e | e
    · subst e
      exact Or.inr ⟨rfl, le_refl _⟩
    · have := pairwise_triple_at st.sorted_ops e hj
      simp only [ops_lt] at this
      omega
  · intro i hi hp
    by_contra hlt
    have hw := st.wf_ops i hi
    have ht := h2 i (by omega)
    rw [is_tpid_iff] at ht
    rcases hw.2.2 with ⟨hw, _⟩ | ⟨_, hw, _⟩
    · exact hp hw
    · omega
  · rcases Nat.eq_zero_or_pos tt with h0 | h0
    · exact Or.inl h0
    · right
      intro hm
      have ha := h2 (tt - 1) (by omega)
      rw [is_tpid_iff] at ha
      have hb := hvid tt (le_refl _) (by
        by_contra hge
        have hlen : tt = ops.length := by omega
        -- position `tt` is past the end: its default triple has object 0
        have : triple_at ops tt = ⟨0, 0, 0⟩ := by
          simp [triple_at, List.getD_eq_getElem?_getD, hlen]
        have hm1 := hm.1
        simp only [this] at hm1
        omega)
      have hm1 := hm.1
      simp only at hm1
      omega

/-! ### Correctness of one `insert_list` block -/

theorem iptr_make_inv {s o t : Nat} {p : iptr_t} (h : iptr_t.make s o t = .ok p) :
    p = ⟨s, o, t⟩ ∧ s < 2 ^ NBITS_SIZE ∧ o < 2 ^ NBITS_PTR := by
  simp only [iptr_t.make] at h
  split_ifs at h with hc
  injection h with h
  obtain ⟨h1, h2, h3⟩ := hc
  have e1 : s < 2 ^ NBITS_SIZE := by
    rw [← h1]; exact Nat.mod_lt _ (by decide)
  have e2 : o < 2 ^ NBITS_PTR := by
    rw [← h2]; exact Nat.mod_lt _ (by decide)
  refine ⟨?_, e1, e2⟩
  rw [← h]
  simp only [iptr_t.mk.injEq]
  exact ⟨h1, h2, h3⟩

theorem insert_key_total {hash_u64 : Nat → Nat} {g : GStore} (wf : WF hash_u64 g)
    (key : ikey_t) (check_dup : Bool) :
    insert_key hash_u64 g key check_dup ≠ .nofuel := by
  have hs := insert_key_spec wf key check_dup
  intro e
  rw [e] at hs
  cases hs

/-- Partial correctness of one block: it never runs out of loop budget, and
when it returns, the store holds the old pairs and the new one. -/
theorem insert_list_ok {hash_u64 : Nat → Nat} {g : GStore} {L : List Put}
    (ld : Loaded hash_u64 g L) (hnz : ∀ q, q ∈ L → q.key ≠ ikey_t.zero)
    (p : Put) (hv : p.valid) (hnew : ∀ q, q ∈ L → q.key ≠ p.key) :
    insert_list hash_u64 g p.vid p.pid p.d p.vals ≠ .nofuel ∧
    ∀ g3, insert_list hash_u64 g p.vid p.pid p.d p.vals = .ok g3 →
      Loaded hash_u64 g3 (L ++ [p]) ∧ SameConfig g g3 ∧ g3.last_ext ≤ g.last_ext + 1 ∧
      p.vals.length < 2 ^ NBITS_SIZE := by
  obtain ⟨hv1, hv2, hv3, hv4⟩ := hv
  have hmk : ikey_t.make p.vid p.pid p.d = .ok p.key := ikey_make_ok hv1 hv2 hv3
  simp only [insert_list, hmk, Outcome.bind]
  by_cases hfull : (g.last_entry + p.vals.length) % 2 ^ 64 ≥ g.num_entries
  · have hal : alloc_edges g p.vals.length = .abort := by
      simp only [alloc_edges]
      rw [if_pos hfull]
    simp only [hal]
    exact ⟨(fun h => nomatch h), (fun _ h => nomatch h)⟩
  have hal : alloc_edges g p.vals.length = .ok (g.last_entry,
      { g with last_entry := (g.last_entry + p.vals.length) % 2 ^ 64 }) := by
    simp only [alloc_edges]
    rw [if_neg hfull]
  simp only [hal]
  generalize hg1 : ({ g with last_entry := (g.last_entry + p.vals.length) % 2 ^ 64 } : GStore)
    = g1
  have wf1 : WF hash_u64 g1 := by
    subst hg1
    exact ld.wf.congr (fun _ => rfl) rfl rfl rfl rfl
  have hused1 : g1.used = g.used := by subst hg1; rfl
  have hka1 : ∀ c j, g1.key_at c j = g.key_at c j := by subst hg1; intro c j; rfl
  have hv1e : g1.vertices = g.vertices := by subst hg1; rfl
  have he1 : g1.edges = g.edges := by subst hg1; rfl
  have hle1 : g1.last_entry = (g.last_entry + p.vals.length) % 2 ^ 64 := by subst hg1; rfl
  have hext1 : g1.last_ext = g.last_ext := by subst hg1; rfl
  have hcfg1 : SameConfig g g1 := by subst hg1; exact ⟨rfl, rfl, rfl, rfl⟩
  have htot := insert_key_total wf1 p.key true
  cases hins : insert_key hash_u64 g1 p.key true with
  | nofuel => exact absurd hins htot
  | abort => exact ⟨(fun h => nomatch h), (fun _ h => nomatch h)⟩
  | ok r =>
    obtain ⟨s, g2⟩ := r
    simp only []
    cases hpm : iptr_t.make p.vals.length g.last_entry 0 with
    | nofuel =>
      simp only [iptr_t.make] at hpm
      split_ifs at hpm
    | abort => exact ⟨(fun h => nomatch h), (fun _ h => nomatch h)⟩
    | ok ptr =>
      refine ⟨(fun h => nomatch h), fun g3 h3 => ?_⟩
      injection h3 with h3
      obtain ⟨hptr0, hsz, hoff⟩ := iptr_make_inv hpm
      subst hptr0
      have hnowrap : (g.last_entry + p.vals.length) % 2 ^ 64 = g.last_entry + p.vals.length := by
        apply Nat.mod_eq_of_lt
        have h1 : (2 : Nat) ^ NBITS_PTR + 2 ^ NBITS_SIZE < 2 ^ 64 := by decide
        omega
      rw [hnowrap] at hle1
      have hlacks : g1.lacks p.key := by
        intro c j hc hj hcj
        rw [hka1] at hcj
        rw [hused1] at hc
        obtain ⟨q, hq, hqk⟩ := ld.only c j hc hj (by rw [hcj]; exact hv4)
        exact hnew q hq (by rw [hqk, hcj])
      have wf2 := insert_key_wf wf1 hins
      obtain ⟨⟨c, j, hc, hj, hsc, hkc⟩, hu12, hkeep, hnewk⟩ := insert_key_slots wf1 hins
      obtain ⟨hptr, hedges, hcfg2, hle2, hext2a, hext2b⟩ := insert_key_frame wf1 hins
      obtain ⟨w1, w2, w3, w4, w5, w6, w7⟩ :=
        write_edges_frame p.vals (g2.set_ptr s ⟨p.vals.length, g.last_entry, 0⟩) g.last_entry
      have hkeys : ∀ i, (g3.vertices i).key = (g2.vertices i).key := by
        intro i
        rw [← h3, w1]
        simp only [GStore.set_ptr]
        split_ifs with e
        · rw [e]
        · rfl
      rw [h3] at w1 w2 w3 w4 w5 w6 w7
      have hka3 : ∀ c j, g3.key_at c j = g2.key_at c j := fun c j => hkeys _
      have hused3 : g3.used = g2.used := by
        simp only [GStore.used, w3, w5]; rfl
      have wf3 : WF hash_u64 g3 := wf2.congr hkeys w2 w3 w4 w5
      refine ⟨⟨wf3, ?_, ?_, ?_⟩, ?_, ?_, hsz⟩
      · rw [w7, List.map_append, List.sum_append, ← ld.entry]
        show g2.last_entry = _
        rw [hle2, hle1]
        simp
      · intro q hq
        rcases List.mem_append.1 hq with hq | hq
        · obtain ⟨c2, j2, off2, a1, a2, a3, a4, a5, a6⟩ := ld.holds q hq
          have hqnz := hnz q hq
          have hk2 : g2.key_at c2 j2 = q.key := by
            rw [hkeep c2 j2 (by rw [hused1]; exact a1) a2 (by rw [hka1, a3]; exact hqnz),
              hka1, a3]
          have hslot : c2 * ASSOCIATIVITY + j2 ≠ s := by
            intro e
            rw [hsc] at e
            obtain ⟨e1, e2⟩ := slot_inj (by omega) (by omega) e
            subst e1 e2
            rw [hk2] at hkc
            exact hnew q hq hkc
          refine ⟨c2, j2, off2, by rw [hused3]; rw [hused1] at hu12; omega, a2,
            by rw [hka3, hk2], ?_, ?_, ?_⟩
          · rw [w1]
            simp only [GStore.set_ptr, if_neg hslot]
            rw [hptr, hv1e, a4]
          · rw [w7]
            show off2 + q.vals.length ≤ g2.last_entry
            rw [hle2, hle1]
            omega
          · rw [← h3, write_edges_read_other _ _ _ _ _ a5]
            show GStore.read_edges { g2 with vertices := _ } off2 _ = _
            simp only [GStore.read_edges, hedges, he1] at a6 ⊢
            exact a6
        · have hqp : q = p := by simpa using hq
          subst hqp
          refine ⟨c, j, g.last_entry, by rw [hused3]; exact hc, hj, by rw [hka3, hkc],
            ?_, ?_, ?_⟩
          · rw [w1, ← hsc]
            simp [GStore.set_ptr]
          · rw [w7]
            show _ ≤ g2.last_entry
            rw [hle2, hle1]
          · rw [← h3]
            exact write_edges_read _ _ _
      · intro c2 j2 hc2 hj2 hne
        rw [hka3] at hne ⊢
        rw [hused3] at hc2
        rcases hnewk c2 j2 hc2 hj2 hne with e | ⟨e1, e2⟩
        · exact ⟨p, List.mem_append_right _ (List.mem_singleton_self _), e.symm⟩
        · rw [e2, hka1] at hne ⊢
          rw [hused1] at e1
          obtain ⟨q, hq, hqk⟩ := ld.only c2 j2 e1 hj2 hne
          exact ⟨q, List.mem_append_left _ hq, hqk⟩
      · obtain ⟨b1, b2, b3, b4⟩ := hcfg2
        obtain ⟨d1, d2, d3, d4⟩ := hcfg1
        refine ⟨?_, ?_, ?_, ?_⟩
        · rw [w2]; show g2.num_slots = _; rw [b1, d1]
        · rw [w3]; show g2.num_buckets = _; rw [b2, d2]
        · rw [w4]; show g2.num_buckets_ext = _; rw [b3, d3]
        · rw [w6]; show g2.num_entries = _; rw [b4, d4]
      · rw [w5]
        show g2.last_ext ≤ _
        omega

/-- Total correctness of one block: with room for one more key and for the
values, the block returns. -/
theorem insert_list_returns {hash_u64 : Nat → Nat} {g : GStore} {L : List Put}
    (ld : Loaded hash_u64 g L) (p : Put) (hv : p.valid)
    (hnew : ∀ q, q ∈ L → q.key ≠ p.key) (hroom : Fits g [p]) :
    ∃ g3, insert_list hash_u64 g p.vid p.pid p.d p.vals = .ok g3 := by
  obtain ⟨hv1, hv2, hv3, hv4⟩ := hv
  have hcap1 := hroom.buckets
  have hcap2 := hroom.entries
  have hcap3 := hroom.ptr
  have hcap4 := hroom.size p (List.mem_singleton_self _)
  simp only [List.length_singleton, total_vals, List.map_cons, List.map_nil, List.sum_cons,
    List.sum_nil, Nat.add_zero] at hcap1 hcap2
  have hmk : ikey_t.make p.vid p.pid p.d = .ok p.key := ikey_make_ok hv1 hv2 hv3
  have hal := alloc_edges_ok hcap2 hcap3
  generalize hg1 : ({ g with last_entry := g.last_entry + p.vals.length } : GStore) = g1 at hal
  have wf1 : WF hash_u64 g1 := by
    subst hg1
    exact ld.wf.congr (fun _ => rfl) rfl rfl rfl rfl
  have hused1 : g1.used = g.used := by subst hg1; rfl
  have hka1 : ∀ c j, g1.key_at c j = g.key_at c j := by subst hg1; intro c j; rfl
  have hext1 : g1.last_ext = g.last_ext := by subst hg1; rfl
  have hcfg1 : SameConfig g g1 := by subst hg1; exact ⟨rfl, rfl, rfl, rfl⟩
  have hlacks : g1.lacks p.key := by
    intro c j hc hj hcj
    rw [hka1] at hcj
    rw [hused1] at hc
    obtain ⟨q, hq, hqk⟩ := ld.only c j hc hj (by rw [hcj]; exact hv4)
    exact hnew q hq (by rw [hqk, hcj])
  have hins : ∃ s g2, insert_key hash_u64 g1 p.key true = .ok (s, g2) := by
    have hs := insert_key_spec wf1 p.key true
    generalize insert_key hash_u64 g1 p.key true = r at hs
    cases hs with
    | dup_abort c j _ hc hj hk => exact absurd hk (hlacks c j hc hj)
    | full_abort c _ _ _ _ hfull _ =>
      exfalso
      rw [hcfg1.2.2.1, hext1] at hfull
      omega
    | found _ _ hcd _ _ _ => cases hcd
    | fill c j _ _ _ _ _ _ _ => exact ⟨_, _, rfl⟩
    | grow c _ _ _ _ _ _ => exact ⟨_, _, rfl⟩
  obtain ⟨s, g2, hins⟩ := hins
  have hoff : g.last_entry < 2 ^ NBITS_PTR := by omega
  have hpm := iptr_make_ok hcap4 hoff
  exact ⟨write_edges (g2.set_ptr s ⟨p.vals.length, g.last_entry, 0⟩) g.last_entry p.vals,
    by simp only [insert_list, hmk, Outcome.bind, hal, hins, hpm]⟩

/-! ### Sequences of `insert_list` blocks -/

theorem insert_lists_ok {hash_u64 : Nat → Nat} (P : List Put) : ∀ {g : GStore} {L : List Put},
    Loaded hash_u64 g L → Loadable (L ++ P) →
    insert_lists hash_u64 g P ≠ .nofuel ∧
    ∀ g2, insert_lists hash_u64 g P = .ok g2 →
      Loaded hash_u64 g2 (L ++ P) ∧ SameConfig g g2 ∧ g2.last_ext ≤ g.last_ext + P.length := by
  induction P with
  | nil =>
    intro g L ld _
    refine ⟨(fun h => nomatch h), fun g2 h => ?_⟩
    injection h with h
    subst h
    exact ⟨by rw [List.append_nil]; exact ld, ⟨rfl, rfl, rfl, rfl⟩, le_refl _⟩
  | cons p P ih =>
    intro g L ld hl
    have hpv : p.valid := hl.valid p (by simp)
    have hnz : ∀ q, q ∈ L → q.key ≠ ikey_t.zero := fun q hq =>
      (hl.valid q (List.mem_append_left _ hq)).2.2.2
    have hnew : ∀ q, q ∈ L → q.key ≠ p.key := by
      intro q hq
      have := List.pairwise_append.1 hl.distinct
      exact this.2.2 q hq p (by simp)
    obtain ⟨hnf, hok⟩ := insert_list_ok ld hnz p hpv hnew
    simp only [insert_lists]
    cases h1 : insert_list hash_u64 g p.vid p.pid p.d p.vals with
    | nofuel => exact absurd h1 hnf
    | abort => exact ⟨(fun h => nomatch h), (fun _ h => nomatch h)⟩
    | ok g1 =>
      obtain ⟨ld1, cfg1, hext1, _⟩ := hok g1 h1
      have hl1 : Loadable ((L ++ [p]) ++ P) := by
        rw [List.append_assoc, List.singleton_append]
        exact hl
      obtain ⟨hnf2, hok2⟩ := ih ld1 hl1
      simp only [Outcome.bind]
      refine ⟨hnf2, fun g2 h2 => ?_⟩
      obtain ⟨ld2, cfg2, hext2⟩ := hok2 g2 h2
      rw [List.append_assoc, List.singleton_append] at ld2
      exact ⟨ld2, cfg1.trans cfg2, by simp only [List.length_cons]; omega⟩

theorem insert_lists_returns {hash_u64 : Nat → Nat} (P : List Put) :
    ∀ {g : GStore} {L : List Put}, Loaded hash_u64 g L → Loadable (L ++ P) → Fits g P →
    ∃ g2, insert_lists hash_u64 g P = .ok g2 := by
  induction P with
  | nil => intro g L _ _ _; exact ⟨g, rfl⟩
  | cons p P ih =>
    intro g L ld hl hfit
    have hpv : p.valid := hl.valid p (by simp)
    have hnz : ∀ q, q ∈ L → q.key ≠ ikey_t.zero := fun q hq =>
      (hl.valid q (List.mem_append_left _ hq)).2.2.2
    have hnew : ∀ q, q ∈ L → q.key ≠ p.key := by
      intro q hq
      have := List.pairwise_append.1 hl.distinct
      exact this.2.2 q hq p (by simp)
    have hb := hfit.buckets
    have he := hfit.entries
    have hsum : total_vals (p :: P) = p.vals.length + total_vals P := by
      simp [total_vals]
    rw [hsum] at he
    simp only [List.length_cons] at hb
    have hfit1 : Fits g [p] := by
      refine ⟨by simp only [List.length_singleton]; omega, ?_, hfit.ptr, ?_⟩
      · simp only [total_vals, List.map_cons, List.map_nil, List.sum_cons, List.sum_nil]
        omega
      · intro q hq
        exact hfit.size q (by rw [List.mem_singleton.1 hq]; simp)
    obtain ⟨g1, h1⟩ := insert_list_returns ld p hpv hnew hfit1
    obtain ⟨ld1, cfg1, hext1, _⟩ := (insert_list_ok ld hnz p hpv hnew).2 g1 h1
    have hl1 : Loadable ((L ++ [p]) ++ P) := by
      rw [List.append_assoc, List.singleton_append]
      exact hl
    have hent1 : g1.last_entry = g.last_entry + p.vals.length := by
      rw [ld1.entry, ld.entry]
      simp
    have hfit2 : Fits g1 P := by
      refine ⟨by rw [cfg1.2.2.1]; omega, by rw [cfg1.2.2.2, hent1]; omega,
        by rw [cfg1.2.2.2]; exact hfit.ptr, fun q hq => hfit.size q (List.mem_cons_of_mem _ hq)⟩
    obtain ⟨g2, h2⟩ := ih ld1 hl1 hfit2
    exact ⟨g2, by simp only [insert_lists, h1, Outcome.bind, h2]⟩

/-! ### `insert_normal` as a sequence of blocks -/

theorem insert_lists_append (hash_u64 : Nat → Nat) (A B : List Put) : ∀ g,
    insert_lists hash_u64 g (A ++ B) =
      (insert_lists hash_u64 g A).bind fun g1 => insert_lists hash_u64 g1 B := by
  induction A with
  | nil => intro g; rfl
  | cons p A ih =>
    intro g
    simp only [List.cons_append, insert_lists]
    cases insert_list hash_u64 g p.vid p.pid p.d p.vals with
    | ok g1 => simp only [Outcome.bind]; exact ih g1
    | abort => rfl
    | nofuel => rfl

theorem skip_type_triples_le (ops : List triple_t) :
    skip_type_triples ops ops.length 0 ≤ ops.length :=
  (skip_type_triples_spec ops ops.length 0 (Nat.zero_le _) (by omega)
    (fun i hi => by omega)).1

theorem insert_normal_eq (hash_u64 : Nat → Nat) (versatile : Bool) (g : GStore)
    (spo ops : List triple_t) :
    insert_normal hash_u64 versatile g spo ops =
      insert_lists hash_u64 g (normal_plan versatile spo ops) := by
  simp only [insert_normal, normal_plan, insert_normal_spo_eq, insert_normal_ops_eq]
  rw [insert_pass_eq _ _ _ _ _ _ _ _ _ _ (Nat.zero_le _) (by omega), insert_lists_append]
  rw [plan_pass_snd _ _ _ _ _ _ _ (by omega)]
  cases insert_lists hash_u64 g
      (plan_pass versatile (fun t => t.s) (fun t => t.o) OUT spo (spo.length + 1) [] 0).1 with
  | ok g1 =>
    simp only [Outcome.bind]
    rw [insert_pass_eq _ _ _ _ _ _ _ _ _ _ (skip_type_triples_le ops) (by omega)]
    cases insert_lists hash_u64 g1 (plan_pass versatile (fun t => t.o) (fun t => t.s) IN ops
        (ops.length + 1) [] (skip_type_triples ops ops.length 0)).1 with
    | ok g2 => rfl
    | abort => rfl
    | nofuel => rfl
  | abort => rfl
  | nofuel => rfl

theorem normal_plan_shape {versatile : Bool} {spo ops : List triple_t} {p : Put}
    (hp : p ∈ normal_plan versatile spo ops) :
    PassPut versatile (fun t => t.s) (fun t => t.o) OUT spo [] 0 p ∨
    PassPut versatile (fun t => t.o) (fun t => t.s) IN ops []
      (skip_type_triples ops ops.length 0) p := by
  rcases List.mem_append.1 hp with h | h
  · exact Or.inl (plan_pass_shape _ _ _ _ _ _ _ _ _ h)
  · exact Or.inr (plan_pass_shape _ _ _ _ _ _ _ _ _ h)

theorem PassPut.dir {versatile : Bool} {f val : triple_t → Nat} {d : Nat}
    {v : List triple_t} {pr : List Nat} {s : Nat} {p : Put}
    (h : PassPut versatile f val d v pr s p) : p.d = d := by
  rcases h with ⟨a, b, _, _, _, _, _, h6⟩ | ⟨_, a, _, _, _, _, h5, _, _⟩
  · rw [h6]
  · exact h5

theorem normal_plan_valid {versatile : Bool} {spo ops : List triple_t} (st : Streams spo ops)
    {p : Put} (hp : p ∈ normal_plan versatile spo ops) : p.valid := by
  rcases normal_plan_shape hp with h | h
  · exact h.valid st.pass_spo (le_refl _) (by decide)
  · exact h.valid st.pass_ops.1 (le_refl _) (by decide)

theorem normal_plan_loadable {versatile : Bool} {spo ops : List triple_t}
    (st : Streams spo ops) : Loadable (normal_plan versatile spo ops) := by
  refine ⟨fun p hp => normal_plan_valid st hp, ?_⟩
  simp only [normal_plan, List.pairwise_append]
  refine ⟨plan_pass_distinct _ _ _ _ _ 0 st.pass_spo _ _ _ (le_refl _),
    plan_pass_distinct _ _ _ _ _ _ st.pass_ops.1 _ _ _ (le_refl _), ?_⟩
  intro p hp q hq heq
  have d1 := (plan_pass_shape _ _ _ _ _ _ _ _ _ hp).dir
  have d2 := (plan_pass_shape _ _ _ _ _ _ _ _ _ hq).dir
  have := congrArg ikey_t.dir heq
  simp only [Put.key] at this
  rw [d1, d2] at this
  exact absurd this (by decide)

theorem le_total_vals {L : List Put} {p : Put} (hp : p ∈ L) : p.vals.length ≤ total_vals L := by
  induction L with
  | nil => simp at hp
  | cons q L ih =>
    simp only [total_vals, List.map_cons, List.sum_cons]
    rcases List.mem_cons.1 hp with e | e
    · subst e
      omega
    · have := ih e
      simp only [total_vals] at this
      omega

theorem normal_plan_size (versatile : Bool) (spo ops : List triple_t)
    (hlen : ops.length = spo.length) :
    (normal_plan versatile spo ops).length ≤ 4 * spo.length ∧
    total_vals (normal_plan versatile spo ops) ≤ 4 * spo.length := by
  have s1 := plan_pass_size versatile (fun t => t.s) (fun t => t.o) OUT spo
    (spo.length + 1) [] 0
  have s2 := plan_pass_size versatile (fun t => t.o) (fun t => t.s) IN ops
    (ops.length + 1) [] (skip_type_triples ops ops.length 0)
  simp only [List.length_nil] at s1 s2
  simp only [normal_plan, List.length_append, total_vals_append]
  omega

theorem normal_plan_fits {versatile : Bool} {spo ops : List triple_t}
    (st : Streams spo ops) {g0 : GStore} (room : Roomy g0 (4 * spo.length)) :
    Fits (refresh g0) (normal_plan versatile spo ops) := by
  obtain ⟨s1, s2⟩ := normal_plan_size versatile spo ops st.length_eq
  have h1 := room.buckets
  have h2 := room.entries
  have h4 := room.size
  refine ⟨?_, ?_, room.ptr, ?_⟩
  · show 0 + _ ≤ g0.num_buckets_ext
    omega
  · show 0 + _ < g0.num_entries
    omega
  · intro p hp
    have := le_total_vals hp
    omega

/-- The first phase of the bulk load on well-formed streams: it never runs
out of loop budget, it returns when there is room, and when it returns the
store holds exactly the key/value pairs of `normal_plan`. -/
theorem insert_normal_loaded (hash_u64 : Nat → Nat) (versatile : Bool) (g0 : GStore)
    (spo ops : List triple_t) (cfg : Config g0) (st : Streams spo ops) :
    insert_normal hash_u64 versatile (refresh g0) spo ops ≠ .nofuel ∧
    (Roomy g0 (4 * spo.length) →
      ∃ g, insert_normal hash_u64 versatile (refresh g0) spo ops = .ok g) ∧
    ∀ g, insert_normal hash_u64 versatile (refresh g0) spo ops = .ok g →
      Loaded hash_u64 g (normal_plan versatile spo ops) ∧ SameConfig (refresh g0) g ∧
      g.last_ext ≤ (normal_plan versatile spo ops).length := by
  have hl : Loadable ([] ++ normal_plan versatile spo ops) := by
    rw [List.nil_append]
    exact normal_plan_loadable st
  have ld0 := refresh_loaded hash_u64 g0 cfg
  obtain ⟨h1, h2⟩ := insert_lists_ok (normal_plan versatile spo ops) ld0 hl
  rw [insert_normal_eq]
  refine ⟨h1, fun room => insert_lists_returns _ ld0 hl (normal_plan_fits st room), ?_⟩
  intro g hg
  obtain ⟨a1, a2, a3⟩ := h2 g hg
  rw [List.nil_append] at a1
  refine ⟨a1, a2, ?_⟩
  have : (refresh g0).last_ext = 0 := rfl
  omega

theorem mem_slice_map (v : List triple_t) (val : triple_t → Nat) {a b i : Nat}
    (h1 : a ≤ i) (h2 : i < b) : val (triple_at v i) ∈ slice_map v val a b := by
  simp only [slice_map, List.mem_map, List.mem_range]
  exact ⟨i - a, by omega, by rw [Nat.add_sub_cancel' h1]⟩

theorem demo_streams : Streams demo_triples demo_triples := by
  refine ⟨?_, ?_, List.Perm.refl _, ?_⟩
  · simp [demo_triples, spo_lt]
  · simp [demo_triples, ops_lt]
  · intro t ht
    simp only [demo_triples, List.mem_cons, List.mem_singleton, List.not_mem_nil, or_false] at ht
    rcases ht with rfl | rfl
    · exact ⟨by decide, by decide, Or.inl ⟨rfl, by decide⟩⟩
    · exact ⟨by decide, by decide, Or.inr ⟨by decide, by decide, by decide⟩⟩

theorem demo_roomy : Roomy demo_store (4 * demo_triples.length) :=
  ⟨by decide, by decide, by decide, by decide⟩

theorem demo_roomy_load : Roomy demo_store (20 * demo_triples.length + 3) :=
  ⟨by decide, by decide, by decide, by decide⟩

theorem demo_apart : TypesApart demo_triples := by
  intro t1 t2 h1 h2
  simp only [demo_triples, List.mem_cons, List.mem_singleton, List.not_mem_nil, or_false]
    at h1 h2
  rcases h1 with rfl | rfl <;> rcases h2 with rfl | rfl <;> decide

/-! ### The scan of `insert_index` -/

theorem scan_slot_eq (versatile : Bool) (g : GStore) (m : IndexMaps) (slot_id : Nat) :
    scan_slot versatile g m slot_id = scan_put versatile m (g.view slot_id) := rfl

theorem scan_puts_append (versatile : Bool) (A B : List Put) : ∀ m,
    scan_puts versatile m (A ++ B) =
      (scan_puts versatile m A).bind fun m1 => scan_puts versatile m1 B := by
  induction A with
  | nil => intro m; rfl
  | cons p A ih =>
    intro m
    simp only [List.cons_append, scan_puts]
    cases scan_put versatile m p with
    | ok m1 => simp only [Outcome.bind]; exact ih m1
    | abort => rfl
    | nofuel => rfl

theorem scan_bucket_eq (versatile : Bool) (g : GStore) : ∀ n slot_id m,
    scan_bucket versatile g n slot_id m =
      scan_puts versatile m ((occ_bucket g n slot_id).map g.view) := by
  intro n
  induction n with
  | zero => intro s m; rfl
  | succ n ih =>
    intro s m
    simp only [scan_bucket, occ_bucket]
    split_ifs with h
    · rfl
    · simp only [List.map_cons, scan_puts, scan_slot_eq]
      cases scan_put versatile m (g.view s) with
      | ok m1 => simp only [Outcome.bind]; exact ih _ _
      | abort => rfl
      | nofuel => rfl

theorem scan_buckets_eq (versatile : Bool) (g : GStore) : ∀ n bucket_id m,
    scan_buckets versatile g n bucket_id m =
      scan_puts versatile m ((occ_buckets g n bucket_id).map g.view) := by
  intro n
  induction n with
  | zero => intro b m; rfl
  | succ n ih =>
    intro b m
    simp only [scan_buckets, occ_buckets, List.map_append, scan_puts_append, scan_bucket_eq]
    cases scan_puts versatile m
        ((occ_bucket g (ASSOCIATIVITY - 1) (b * ASSOCIATIVITY)).map g.view) with
    | ok m1 => simp only [Outcome.bind]; exact ih _ _
    | abort => rfl
    | nofuel => rfl

theorem insert_index_map_eq (hash_u64 : Nat → Nat) (d : Nat) : ∀ (map : tbb_hash_map) g,
    insert_index_map hash_u64 g map d = insert_lists hash_u64 g (map_plan map d) := by
  intro map
  induction map with
  | nil => intro g; rfl
  | cons e rest ih =>
    intro g
    obtain ⟨pid, l⟩ := e
    simp only [insert_index_map, map_plan, List.map_cons, insert_lists]
    cases insert_list hash_u64 g 0 pid d l with
    | ok g1 => simp only [Outcome.bind]; exact ih g1
    | abort => rfl
    | nofuel => rfl

theorem insert_lists_single (hash_u64 : Nat → Nat) (g : GStore) (p : Put) :
    insert_lists hash_u64 g [p] = insert_list hash_u64 g p.vid p.pid p.d p.vals := by
  simp only [insert_lists]
  cases insert_list hash_u64 g p.vid p.pid p.d p.vals <;> rfl

theorem insert_index_eq (hash_u64 : Nat → Nat) (versatile : Bool) (g : GStore) :
    insert_index hash_u64 versatile g =
      (scan_puts versatile IndexMaps.empty (g.occupied.map g.view)).bind fun m =>
        insert_lists hash_u64 g (index_plan versatile m) := by
  simp only [insert_index, scan_buckets_eq, GStore.occupied, IndexMaps.empty]
  cases scan_puts versatile ⟨[], [], [], [], [], []⟩
      ((occ_buckets g (g.num_buckets + g.last_ext) 0).map g.view) with
  | abort => rfl
  | nofuel => rfl
  | ok m =>
    simp only [Outcome.bind, index_plan, insert_lists_append, insert_index_map_eq]
    cases insert_lists hash_u64 g (map_plan m.tidx_map IN) with
    | abort => rfl
    | nofuel => rfl
    | ok g1 =>
      simp only []
      cases insert_lists hash_u64 g1 (map_plan m.pidx_in_map IN) with
      | abort => rfl
      | nofuel => rfl
      | ok g2 =>
        simp only []
        cases insert_lists hash_u64 g2 (map_plan m.pidx_out_map OUT) with
        | abort => rfl
        | nofuel => rfl
        | ok g3 =>
          simp only []
          cases versatile with
          | false => rfl
          | true =>
            simp only [if_true, insert_index_set]
            have h3 : ∀ (a b c : Put) (g : GStore), insert_lists hash_u64 g [a, b, c] =
                (insert_list hash_u64 g a.vid a.pid a.d a.vals).bind fun g4 =>
                (insert_list hash_u64 g4 b.vid b.pid b.d b.vals).bind fun g5 =>
                insert_list hash_u64 g5 c.vid c.pid c.d c.vals := by
              intro a b c g
              simp only [insert_lists]
              cases insert_list hash_u64 g a.vid a.pid a.d a.vals with
              | abort => rfl
              | nofuel => rfl
              | ok g4 =>
                simp only [Outcome.bind]
                cases insert_list hash_u64 g4 b.vid b.pid b.d b.vals with
                | abort => rfl
                | nofuel => rfl
                | ok g5 =>
                  simp only []
                  cases insert_list hash_u64 g5 c.vid c.pid c.d c.vals <;> rfl
            rw [h3]
            rfl

/-! ### The slots visited by the scan -/

theorem occ_bucket_mem (g : GStore) : ∀ n s0 s,
    s ∈ occ_bucket g n s0 ↔
      s0 ≤ s ∧ s < s0 + n ∧ ∀ u, s0 ≤ u → u ≤ s → (g.vertices u).key ≠ ikey_t.zero := by
  intro n
  induction n with
  | zero =>
    intro s0 s
    simp only [occ_bucket, List.not_mem_nil, false_iff]
    intro h
    omega
  | succ n ih =>
    intro s0 s
    simp only [occ_bucket]
    by_cases he : (g.vertices s0).key.is_empty = true
    · rw [if_pos he]
      simp only [List.not_mem_nil, false_iff]
      intro ⟨h1, _, h3⟩
      exact h3 s0 (le_refl _) h1 ((ikey_t.is_empty_iff _).1 he)
    · rw [if_neg he]
      have hne : (g.vertices s0).key ≠ ikey_t.zero := fun h => he ((ikey_t.is_empty_iff _).2 h)
      simp only [List.mem_cons, ih]
      constructor
      · rintro (rfl | ⟨h1, h2, h3⟩)
        · refine ⟨le_refl _, by omega, fun u hu1 hu2 => ?_⟩
          have : u = s := by omega
          rw [this]
          exact hne
        · refine ⟨by omega, by omega, fun u hu1 hu2 => ?_⟩
          rcases Nat.eq_or_lt_of_le hu1 with e | e
          · rw [← e]
            exact hne
          · exact h3 u e hu2
      · rintro ⟨h1, h2, h3⟩
        rcases Nat.eq_or_lt_of_le h1 with e | e
        · exact Or.inl e.symm
        · exact Or.inr ⟨e, by omega, fun u hu1 hu2 => h3 u (by omega) hu2⟩

theorem occ_bucket_sorted (g : GStore) : ∀ n s0, (occ_bucket g n s0).Pairwise (· < ·) := by
  intro n
  induction n with
  | zero => intro s0; simp [occ_bucket]
  | succ n ih =>
    intro s0
    simp only [occ_bucket]
    split_ifs
    · simp
    · rw [List.pairwise_cons]
      refine ⟨fun s hs => ?_, ih _⟩
      have := ((occ_bucket_mem g n (s0 + 1) s).1 hs).1
      omega

theorem occ_buckets_mem (g : GStore) : ∀ n b0 s,
    s ∈ occ_buckets g n b0 ↔
      ∃ b j, b0 ≤ b ∧ b < b0 + n ∧ j < ASSOCIATIVITY - 1 ∧ s = b * ASSOCIATIVITY + j ∧
        ∀ i, i ≤ j → g.key_at b i ≠ ikey_t.zero := by
  intro n
  induction n with
  | zero =>
    intro b0 s
    simp only [occ_buckets, List.not_mem_nil, false_iff]
    rintro ⟨b, j, h1, h2, _⟩
    omega
  | succ n ih =>
    intro b0 s
    simp only [occ_buckets, List.mem_append, ih, occ_bucket_mem]
    constructor
    · rintro (⟨h1, h2, h3⟩ | ⟨b, j, h1, h2, h3, h4, h5⟩)
      · refine ⟨b0, s - b0 * ASSOCIATIVITY, le_refl _, by omega, by omega, by omega, ?_⟩
        intro i hi
        exact h3 _ (by omega) (by omega)
      · exact ⟨b, j, by omega, by omega, h3, h4, h5⟩
    · rintro ⟨b, j, h1, h2, h3, h4, h5⟩
      rcases Nat.eq_or_lt_of_le h1 with e | e
      · left
        subst e
        refine ⟨by omega, by omega, fun u hu1 hu2 => ?_⟩
        have := h5 (u - b0 * ASSOCIATIVITY) (by omega)
        unfold GStore.key_at at this
        rw [Nat.add_sub_cancel' hu1] at this
        exact this
      · right
        exact ⟨b, j, by omega, by omega, h3, h4, h5⟩

theorem occ_buckets_sorted (g : GStore) : ∀ n b0, (occ_buckets g n b0).Pairwise (· < ·) := by
  intro n
  induction n with
  | zero => intro b0; simp [occ_buckets]
  | succ n ih =>
    intro b0
    simp only [occ_buckets, List.pairwise_append]
    refine ⟨occ_bucket_sorted g _ _, ih _, ?_⟩
    intro s hs t ht
    obtain ⟨_, h2, _⟩ := (occ_bucket_mem g _ _ s).1 hs
    obtain ⟨b, j, h3, _, _, h6, _⟩ := (occ_buckets_mem g _ _ t).1 ht
    have : (b0 + 1) * ASSOCIATIVITY ≤ b * ASSOCIATIVITY := Nat.mul_le_mul_right _ h3
    simp only [ASSOCIATIVITY] at *
    omega

theorem occupied_mem {hash_u64 : Nat → Nat} {g : GStore} (wf : WF hash_u64 g) (s : Nat) :
    s ∈ g.occupied ↔ ∃ b j, b < g.used ∧ j < ASSOCIATIVITY - 1 ∧ s = b * ASSOCIATIVITY + j ∧
      g.key_at b j ≠ ikey_t.zero := by
  simp only [GStore.occupied, occ_buckets_mem]
  constructor
  · rintro ⟨b, j, _, h2, h3, h4, h5⟩
    exact ⟨b, j, by simp only [GStore.used]; omega, h3, h4, h5 j (le_refl _)⟩
  · rintro ⟨b, j, h1, h2, h3, h4⟩
    refine ⟨b, j, Nat.zero_le _, by simp only [GStore.used] at h1; omega, h2, h3, ?_⟩
    intro i hi
    rcases Nat.eq_or_lt_of_le hi with e | e
    · rw [e]; exact h4
    · exact wf.pfx b i j h1 e h2 h4

theorem occupied_nodup (g : GStore) : g.occupied.Nodup :=
  (occ_buckets_sorted g _ _).imp (fun h => Nat.ne_of_lt h)

theorem view_key (g : GStore) (b j : Nat) :
    (g.view (b * ASSOCIATIVITY + j)).key = g.key_at b j := rfl

/-- The scan visits exactly the pairs of a loaded store, each once. -/
theorem Loaded.scan_perm {hash_u64 : Nat → Nat} {g : GStore} {L : List Put}
    (ld : Loaded hash_u64 g L) (hl : Loadable L) :
    (g.occupied.map g.view).Perm L := by
  have hnodupL : L.Nodup := hl.distinct.imp (fun h e => h (by rw [e]))
  have hnodupO : (g.occupied.map g.view).Nodup := by
    apply List.Nodup.map_on _ (occupied_nodup g)
    intro x hx y hy hxy
    obtain ⟨b, j, h1, h2, h3, h4⟩ := (occupied_mem ld.wf x).1 hx
    obtain ⟨c, i, k1, k2, k3, k4⟩ := (occupied_mem ld.wf y).1 hy
    have hk : g.key_at b j = g.key_at c i := by
      rw [← view_key, ← view_key, ← h3, ← k3, hxy]
    obtain ⟨e1, e2⟩ := ld.wf.nodup b j c i h1 k1 h2 k2 h4 hk
    rw [h3, k3, e1, e2]
  rw [List.perm_ext_iff_of_nodup hnodupO hnodupL]
  intro p
  constructor
  · intro hp
    obtain ⟨s, hs, hsp⟩ := List.mem_map.1 hp
    obtain ⟨b, j, h1, h2, h3, h4⟩ := (occupied_mem ld.wf s).1 hs
    obtain ⟨q, hq, hqk⟩ := ld.only b j h1 h2 h4
    obtain ⟨c, i, off, a1, a2, a3, a4, _, a6⟩ := ld.holds q hq
    obtain ⟨e1, e2⟩ := ld.wf.nodup b j c i h1 a1 h2 a2 h4 (by rw [a3, hqk])
    subst e1 e2
    have : g.view s = q := by
      rw [h3]
      unfold GStore.view
      have hk : (g.vertices (b * ASSOCIATIVITY + j)).key = q.key := a3
      rw [a4, hk]
      simp only [a6, Put.key]
    rw [← hsp, this]
    exact hq
  · intro hp
    obtain ⟨c, i, off, a1, a2, a3, a4, _, a6⟩ := ld.holds p hp
    have hnz := (hl.valid p hp).2.2.2
    refine List.mem_map.2 ⟨c * ASSOCIATIVITY + i, ?_, ?_⟩
    · exact (occupied_mem ld.wf _).2 ⟨c, i, a1, a2, rfl, by rw [a3]; exact hnz⟩
    · unfold GStore.view
      have hk : (g.vertices (c * ASSOCIATIVITY + i)).key = p.key := a3
      rw [a4, hk]
      simp only [a6, Put.key]

/-! ### The maps filled by the scan -/

theorem map_get_push (m : tbb_hash_map) (k v k2 : Nat) :
    map_get (map_push m k v) k2 = if k = k2 then map_get m k2 ++ [v] else map_get m k2 := by
  induction m with
  | nil =>
    simp only [map_push, map_get]
    split_ifs <;> simp
  | cons e rest ih =>
    obtain ⟨k1, l⟩ := e
    simp only [map_push]
    by_cases h1 : k1 = k
    · subst h1
      simp only [if_true, map_get]
      split_ifs <;> rfl
    · simp only [if_neg h1, map_get, ih]
      by_cases h2 : k1 = k2
      · subst h2
        simp only [if_true]
        rw [if_neg (fun e => h1 e.symm)]
      · simp only [if_neg h2]

theorem map_keys_push (m : tbb_hash_map) (k v : Nat) :
    (∀ k2, k2 ∈ map_keys (map_push m k v) ↔ k2 = k ∨ k2 ∈ map_keys m) ∧
    ((map_keys m).Nodup → (map_keys (map_push m k v)).Nodup) ∧
    (map_push m k v).length ≤ m.length + 1 ∧
    map_vals (map_push m k v) = map_vals m + 1 := by
  induction m with
  | nil => simp [map_push, map_keys, map_vals]
  | cons e rest ih =>
    obtain ⟨k1, l⟩ := e
    obtain ⟨i1, i2, i3, i4⟩ := ih
    simp only [map_push]
    by_cases h1 : k1 = k
    · subst h1
      simp only [if_true]
      refine ⟨fun k2 => ?_, fun h => h, by simp, ?_⟩
      · simp only [map_keys, List.map_cons, List.mem_cons]
        tauto
      · simp only [map_vals, List.map_cons, List.sum_cons, List.length_append,
          List.length_singleton]
        omega
    · simp only [if_neg h1]
      refine ⟨fun k2 => ?_, fun h => ?_, by simp only [List.length_cons]; omega, ?_⟩
      · have := i1 k2
        simp only [map_keys, List.map_cons, List.mem_cons] at this ⊢
        rw [this]
        tauto
      · simp only [map_keys, List.map_cons, List.nodup_cons] at h ⊢
        refine ⟨fun hm => ?_, i2 h.2⟩
        rcases (i1 k1).1 hm with e | e
        · exact h1 e
        · exact h.1 e
      · simp only [map_vals, List.map_cons, List.sum_cons] at i4 ⊢
        omega

theorem map_get_of_mem {m : tbb_hash_map} (hn : (map_keys m).Nodup) {k : Nat} {l : List Nat}
    (h : (k, l) ∈ m) : map_get m k = l := by
  induction m with
  | nil => simp at h
  | cons e rest ih =>
    obtain ⟨k1, l1⟩ := e
    simp only [map_keys, List.map_cons, List.nodup_cons] at hn
    simp only [map_get]
    rcases List.mem_cons.1 h with e | e
    · injection e with e1 e2
      subst e1 e2
      simp
    · have hk : k ∈ map_keys rest := List.mem_map.2 ⟨(k, l), e, rfl⟩
      have : k1 ≠ k := fun e2 => hn.1 (by rw [e2]; exact hk)
      rw [if_neg this]
      exact ih hn.2 e

theorem mem_of_map_keys {m : tbb_hash_map} {k : Nat} (h : k ∈ map_keys m) :
    (k, map_get m k) ∈ m := by
  induction m with
  | nil => simp [map_keys] at h
  | cons e rest ih =>
    obtain ⟨k1, l1⟩ := e
    simp only [map_keys, List.map_cons, List.mem_cons] at h
    simp only [map_get]
    by_cases h1 : k1 = k
    · subst h1
      simp
    · rw [if_neg h1]
      rcases h with e | e
      · exact absurd e.symm h1
      · exact List.mem_cons_of_mem _ (ih e)

theorem set_insert_spec (s : List Nat) (v : Nat) :
    (set_insert s v).length ≤ s.length + 1 := by
  simp only [set_insert]
  split_ifs <;> simp

theorem foldl_set_insert_length (l : List Nat) : ∀ s : List Nat,
    (l.foldl set_insert s).length ≤ s.length + l.length := by
  induction l with
  | nil => intro s; simp
  | cons v l ih =>
    intro s
    simp only [List.foldl_cons, List.length_cons]
    have := ih (set_insert s v)
    have := set_insert_spec s v
    omega

theorem Scanned.refl (m : IndexMaps) : Scanned m m [] := by
  refine ⟨?_, ?_, ?_, ?_, ?_, ?_, id, id, id, ?_, ?_⟩ <;>
    simp [pidx_in_list, pidx_out_list, tidx_list, total_vals]

theorem pidx_in_list_cons (p : Put) (X : List Put) (pid : Nat) :
    pidx_in_list (p :: X) pid = pidx_in_list [p] pid ++ pidx_in_list X pid := by
  simp only [pidx_in_list, List.filter_cons, List.filter_nil]
  split_ifs <;> simp

theorem pidx_out_list_cons (p : Put) (X : List Put) (pid : Nat) :
    pidx_out_list (p :: X) pid = pidx_out_list [p] pid ++ pidx_out_list X pid := by
  simp only [pidx_out_list, List.filter_cons, List.filter_nil]
  split_ifs <;> simp

theorem total_vals_cons (p : Put) (X : List Put) :
    total_vals (p :: X) = p.vals.length + total_vals X := by
  simp [total_vals]

theorem Scanned.step {m0 m1 m2 : IndexMaps} {p : Put} {X : List Put}
    (h1 : Scanned m0 m1 [p]) (h2 : Scanned m1 m2 X) : Scanned m0 m2 (p :: X) := by
  have e1 : ∀ t, tidx_list [p] t = tidx_of t p := by
    intro t; simp [tidx_list]
  have e2 : ∀ t, tidx_list (p :: X) t = tidx_of t p ++ tidx_list X t := fun t => rfl
  refine ⟨?_, ?_, ?_, ?_, ?_, ?_, fun h => h2.nodup_in (h1.nodup_in h),
    fun h => h2.nodup_out (h1.nodup_out h), fun h => h2.nodup_t (h1.nodup_t h), ?_, ?_⟩
  · intro pid
    rw [h2.pin, h1.pin, pidx_in_list_cons p X, List.append_assoc]
  · intro pid
    rw [h2.pout, h1.pout, pidx_out_list_cons p X, List.append_assoc]
  · intro t
    rw [h2.tidx, h1.tidx, e1, e2, List.append_assoc]
  · intro k
    rw [h2.keys_in, h1.keys_in, pidx_in_list_cons p X]
    simp only [ne_eq, List.append_eq_nil, not_and_or]
    tauto
  · intro k
    rw [h2.keys_out, h1.keys_out, pidx_out_list_cons p X]
    simp only [ne_eq, List.append_eq_nil, not_and_or]
    tauto
  · intro k
    rw [h2.keys_t, h1.keys_t, e1, e2]
    simp only [ne_eq, List.append_eq_nil, not_and_or]
    tauto
  · have a := h1.nkeys
    have b := h2.nkeys
    simp only [List.length_cons, List.length_nil, total_vals_cons] at a b ⊢
    simp only [total_vals, List.map_nil, List.sum_nil] at a
    omega
  · have a := h1.nvals
    have b := h2.nvals
    simp only [List.length_cons, List.length_nil, total_vals_cons] at a b ⊢
    simp only [total_vals, List.map_nil, List.sum_nil] at a
    omega

/-- The inner loop of the scan over the types of a vertex. -/
theorem type_fold_spec (versatile : Bool) (vid : Nat) (vals : List Nat) : ∀ m1 : IndexMaps,
    (vals.foldl (fun a t => { a with
        tidx_map := map_push a.tidx_map t vid
        t_set := if versatile then set_insert a.t_set t else a.t_set }) m1).pidx_in_map
      = m1.pidx_in_map ∧
    (vals.foldl (fun a t => { a with
        tidx_map := map_push a.tidx_map t vid
        t_set := if versatile then set_insert a.t_set t else a.t_set }) m1).pidx_out_map
      = m1.pidx_out_map ∧
    (vals.foldl (fun a t => { a with
        tidx_map := map_push a.tidx_map t vid
        t_set := if versatile then set_insert a.t_set t else a.t_set }) m1).v_set
      = m1.v_set ∧
    (vals.foldl (fun a t => { a with
        tidx_map := map_push a.tidx_map t vid
        t_set := if versatile then set_insert a.t_set t else a.t_set }) m1).p_set
      = m1.p_set ∧
    (∀ t, map_get (vals.foldl (fun a t => { a with
        tidx_map := map_push a.tidx_map t vid
        t_set := if versatile then set_insert a.t_set t else a.t_set }) m1).tidx_map t
      = map_get m1.tidx_map t ++ List.replicate (vals.count t) vid) ∧
    (∀ k, k ∈ map_keys (vals.foldl (fun a t => { a with
        tidx_map := map_push a.tidx_map t vid
        t_set := if versatile then set_insert a.t_set t else a.t_set }) m1).tidx_map
      ↔ k ∈ map_keys m1.tidx_map ∨ k ∈ vals) ∧
    ((map_keys m1.tidx_map).Nodup → (map_keys (vals.foldl (fun a t => { a with
        tidx_map := map_push a.tidx_map t vid
        t_set := if versatile then set_insert a.t_set t else a.t_set }) m1).tidx_map).Nodup) ∧
    (vals.foldl (fun a t => { a with
        tidx_map := map_push a.tidx_map t vid
        t_set := if versatile then set_insert a.t_set t else a.t_set }) m1).tidx_map.length
      ≤ m1.tidx_map.length + vals.length ∧
    map_vals (vals.foldl (fun a t => { a with
        tidx_map := map_push a.tidx_map t vid
        t_set := if versatile then set_insert a.t_set t else a.t_set }) m1).tidx_map
      = map_vals m1.tidx_map + vals.length ∧
    (vals.foldl (fun a t => { a with
        tidx_map := map_push a.tidx_map t vid
        t_set := if versatile then set_insert a.t_set t else a.t_set }) m1).t_set.length
      ≤ m1.t_set.length + vals.length := by
  induction vals with
  | nil =>
    intro m1
    simp
  | cons v vals ih =>
    intro m1
    simp only [List.foldl_cons]
    obtain ⟨a1, a2, a3, a4, a5, a6, a7, a8, a9, a10⟩ := ih { m1 with
      tidx_map := map_push m1.tidx_map v vid
      t_set := if versatile then set_insert m1.t_set v else m1.t_set }
    obtain ⟨k1, k2, k3, k4⟩ := map_keys_push m1.tidx_map v vid
    refine ⟨a1, a2, a3, a4, ?_, ?_, fun h => a7 (k2 h), ?_, ?_, ?_⟩
    · intro t
      rw [a5 t]
      simp only [map_get_push, List.count_cons]
      by_cases h : v = t
      · subst h
        simp only [if_true, beq_self_eq_true, List.append_assoc]
        rw [List.replicate_succ']
        simp only [List.singleton_append, List.append_assoc]
        congr 1
        rw [← List.replicate_succ, List.replicate_succ']
      · have : (v == t) = false := by simpa using h
        simp only [if_neg h, this, Bool.false_eq_true, if_false, Nat.add_zero]
    · intro k
      rw [a6 k]
      simp only [k1 k, List.mem_cons]
      tauto
    · simp only [List.length_cons] at a8 ⊢
      omega
    · simp only [List.length_cons] at a9 ⊢
      omega
    · have hs := set_insert_spec m1.t_set v
      refine le_trans a10 ?_
      show (if versatile then set_insert m1.t_set v else m1.t_set).length + vals.length ≤ _
      simp only [List.length_cons]
      split_ifs <;> omega

theorem pidx_in_list_single (p : Put) (pid : Nat) :
    pidx_in_list [p] pid =
      if p.d ≠ IN ∧ p.pid = pid ∧ pid ≠ PREDICATE_ID ∧ pid ≠ TYPE_ID then [p.vid] else [] := by
  simp only [pidx_in_list, List.filter_cons, List.filter_nil]
  split_ifs <;> simp_all

theorem pidx_out_list_single (p : Put) (pid : Nat) :
    pidx_out_list [p] pid =
      if p.d = IN ∧ p.pid = pid ∧ pid ≠ PREDICATE_ID ∧ pid ≠ TYPE_ID then [p.vid] else [] := by
  simp only [pidx_out_list, List.filter_cons, List.filter_nil]
  split_ifs <;> simp_all

theorem tidx_list_single (p : Put) (t : Nat) : tidx_list [p] t = tidx_of t p := by
  simp [tidx_list]

/-- A scan step that leaves the three maps alone. -/
theorem Scanned.of_sets {m m2 : IndexMaps} {p : Put}
    (h1 : m2.pidx_in_map = m.pidx_in_map) (h2 : m2.pidx_out_map = m.pidx_out_map)
    (h3 : m2.tidx_map = m.tidx_map)
    (e1 : ∀ pid, pidx_in_list [p] pid = []) (e2 : ∀ pid, pidx_out_list [p] pid = [])
    (e3 : ∀ t, tidx_list [p] t = [])
    (hv : m2.v_set.length + m2.t_set.length + m2.p_set.length
      ≤ m.v_set.length + m.t_set.length + m.p_set.length + 2 + 2 * p.vals.length) :
    Scanned m m2 [p] := by
  refine ⟨?_, ?_, ?_, ?_, ?_, ?_, ?_, ?_, ?_, ?_, ?_⟩
  · intro pid; rw [h1, e1]; simp
  · intro pid; rw [h2, e2]; simp
  · intro t; rw [h3, e3]; simp
  · intro k; rw [h1, e1]; simp
  · intro k; rw [h2, e2]; simp
  · intro k; rw [h3, e3]; simp
  · rw [h1]; exact id
  · rw [h2]; exact id
  · rw [h3]; exact id
  · simp only [IndexMaps.keys, h1, h2, h3]; omega
  · simp only [IndexMaps.vals, h1, h2, h3, List.length_singleton, total_vals_cons]
    omega

theorem scan_put_spec (versatile : Bool) (m : IndexMaps) (p : Put) :
    (p.d = IN ∧ p.pid = TYPE_ID ∧ scan_put versatile m p = .abort) ∨
    (¬ (p.d = IN ∧ p.pid = TYPE_ID) ∧
      ∃ m2, scan_put versatile m p = .ok m2 ∧ Scanned m m2 [p]) := by
  have h01 : TYPE_ID ≠ PREDICATE_ID := by decide
  by_cases hd : p.d = IN
  · by_cases hp0 : p.pid = PREDICATE_ID
    · right
      refine ⟨fun h => h01 (by rw [← h.2, hp0]), ?_⟩
      have e1 : ∀ pid, pidx_in_list [p] pid = [] := by
        intro pid; rw [pidx_in_list_single, if_neg]; tauto
      have e2 : ∀ pid, pidx_out_list [p] pid = [] := by
        intro pid; rw [pidx_out_list_single, if_neg]
        rintro ⟨_, h2, h3, _⟩
        exact h3 (by rw [← h2, hp0])
      have e3 : ∀ t, tidx_list [p] t = [] := by
        intro t; rw [tidx_list_single, tidx_of, if_neg]; tauto
      cases versatile with
      | false =>
        refine ⟨m, ?_, Scanned.of_sets rfl rfl rfl e1 e2 e3 (by omega)⟩
        simp only [scan_put]
        rw [if_pos hd, if_pos hp0]
        rfl
      | true =>
        refine ⟨{ m with v_set := set_insert m.v_set p.vid
                         p_set := p.vals.foldl set_insert m.p_set }, ?_,
          Scanned.of_sets rfl rfl rfl e1 e2 e3 ?_⟩
        · simp only [scan_put]
          rw [if_pos hd, if_pos hp0]
          rfl
        · have a := set_insert_spec m.v_set p.vid
          have b := foldl_set_insert_length p.vals m.p_set
          show (set_insert m.v_set p.vid).length + m.t_set.length
            + (p.vals.foldl set_insert m.p_set).length ≤ _
          omega
    · by_cases hp1 : p.pid = TYPE_ID
      · left
        refine ⟨hd, hp1, ?_⟩
        simp only [scan_put]
        rw [if_pos hd, if_neg hp0, if_pos hp1]
      · right
        refine ⟨fun h => hp1 h.2,
          { m with pidx_out_map := map_push m.pidx_out_map p.pid p.vid }, ?_, ?_⟩
        · simp only [scan_put]
          rw [if_pos hd, if_neg hp0, if_neg hp1]
        obtain ⟨k1, k2, k3, k4⟩ := map_keys_push m.pidx_out_map p.pid p.vid
        have e1 : ∀ pid, pidx_in_list [p] pid = [] := by
          intro pid; rw [pidx_in_list_single, if_neg]; tauto
        have e3 : ∀ t, tidx_list [p] t = [] := by
          intro t; rw [tidx_list_single, tidx_of, if_neg]; tauto
        refine ⟨?_, ?_, ?_, ?_, ?_, ?_, id, k2, id, ?_, ?_⟩
        · intro pid; simp [e1]
        · intro pid
          simp only [map_get_push, pidx_out_list_single]
          by_cases h : p.pid = pid
          · subst h
            simp [hd, hp0, hp1]
          · simp [h]
        · intro t; simp [e3]
        · intro k; simp [e1]
        · intro k
          simp only [k1 k, pidx_out_list_single]
          by_cases h : p.pid = k
          · subst h
            simp [hd, hp0, hp1]
          · have : k ≠ p.pid := fun e => h e.symm
            simp [h, this]
        · intro k; simp [e3]
        · simp only [IndexMaps.keys, List.length_singleton]; omega
        · simp only [IndexMaps.vals, k4, List.length_singleton]; omega
  · right
    refine ⟨fun h => hd h.1, ?_⟩
    have e2 : ∀ pid, pidx_out_list [p] pid = [] := by
      intro pid; rw [pidx_out_list_single, if_neg]; tauto
    by_cases hp0 : p.pid = PREDICATE_ID
    · have e1 : ∀ pid, pidx_in_list [p] pid = [] := by
        intro pid; rw [pidx_in_list_single, if_neg]
        rintro ⟨_, h2, h3, _⟩
        exact h3 (by rw [← h2, hp0])
      have e3 : ∀ t, tidx_list [p] t = [] := by
        intro t; rw [tidx_list_single, tidx_of, if_neg]
        rintro ⟨_, h2⟩
        exact h01 (by rw [← h2, hp0])
      cases versatile with
      | false =>
        refine ⟨m, ?_, Scanned.of_sets rfl rfl rfl e1 e2 e3 (by omega)⟩
        simp only [scan_put]
        rw [if_neg hd, if_pos hp0]
        rfl
      | true =>
        refine ⟨{ m with v_set := set_insert m.v_set p.vid
                         p_set := p.vals.foldl set_insert m.p_set }, ?_,
          Scanned.of_sets rfl rfl rfl e1 e2 e3 ?_⟩
        · simp only [scan_put]
          rw [if_neg hd, if_pos hp0]
          rfl
        · have a := set_insert_spec m.v_set p.vid
          have b := foldl_set_insert_length p.vals m.p_set
          show (set_insert m.v_set p.vid).length + m.t_set.length
            + (p.vals.foldl set_insert m.p_set).length ≤ _
          omega
    · by_cases hp1 : p.pid = TYPE_ID
      · have e1 : ∀ pid, pidx_in_list [p] pid = [] := by
          intro pid; rw [pidx_in_list_single, if_neg]
          rintro ⟨_, h2, _, h4⟩
          exact h4 (by rw [← h2, hp1])
        obtain ⟨a1, a2, a3, a4, a5, a6, a7, a8, a9, a10⟩ := type_fold_spec versatile p.vid p.vals
          (if versatile then { m with v_set := set_insert m.v_set p.vid } else m)
        refine ⟨p.vals.foldl (fun a t => { a with
            tidx_map := map_push a.tidx_map t p.vid
            t_set := if versatile then set_insert a.t_set t else a.t_set })
          (if versatile then { m with v_set := set_insert m.v_set p.vid } else m), ?_, ?_⟩
        · simp only [scan_put]
          rw [if_neg hd, if_neg hp0, if_pos hp1]
        have hvs := set_insert_spec m.v_set p.vid
        have b1 : (if versatile then { m with v_set := set_insert m.v_set p.vid }
            else m).pidx_in_map = m.pidx_in_map := by split_ifs <;> rfl
        have b2 : (if versatile then { m with v_set := set_insert m.v_set p.vid }
            else m).pidx_out_map = m.pidx_out_map := by split_ifs <;> rfl
        have b3 : (if versatile then { m with v_set := set_insert m.v_set p.vid }
            else m).tidx_map = m.tidx_map := by split_ifs <;> rfl
        have b4 : (if versatile then { m with v_set := set_insert m.v_set p.vid }
            else m).t_set = m.t_set := by split_ifs <;> rfl
        have b5 : (if versatile then { m with v_set := set_insert m.v_set p.vid }
            else m).p_set = m.p_set := by split_ifs <;> rfl
        have b6 : (if versatile then { m with v_set := set_insert m.v_set p.vid }
            else m).v_set.length ≤ m.v_set.length + 1 := by
          split_ifs
          · exact hvs
          · omega
        rw [b3] at a5 a6 a7 a8 a9
        rw [b4] at a10
        rw [b1] at a1
        rw [b2] at a2
        rw [b5] at a4
        rw [← a3] at b6
        refine ⟨?_, ?_, ?_, ?_, ?_, ?_, ?_, ?_, a7, ?_, ?_⟩
        · intro pid; rw [a1, e1]; simp
        · intro pid; rw [a2, e2]; simp
        · intro t
          rw [a5, tidx_list_single, tidx_of, if_pos ⟨hd, hp1⟩]
        · intro k; rw [a1, e1]; simp
        · intro k; rw [a2, e2]; simp
        · intro k
          rw [a6, tidx_list_single, tidx_of, if_pos ⟨hd, hp1⟩]
          simp only [ne_eq, List.replicate_eq_nil_iff, List.count_eq_zero, not_not]
        · rw [a1]; exact id
        · rw [a2]; exact id
        · simp only [IndexMaps.keys, a1, a2, List.length_singleton, total_vals_cons]
          omega
        · simp only [IndexMaps.vals, a1, a2, a4, a9, List.length_singleton, total_vals_cons]
          omega
      · refine ⟨{ m with pidx_in_map := map_push m.pidx_in_map p.pid p.vid }, ?_, ?_⟩
        · simp only [scan_put]
          rw [if_neg hd, if_neg hp0, if_neg hp1]
        obtain ⟨k1, k2, k3, k4⟩ := map_keys_push m.pidx_in_map p.pid p.vid
        have e3 : ∀ t, tidx_list [p] t = [] := by
          intro t; rw [tidx_list_single, tidx_of, if_neg]; tauto
        refine ⟨?_, ?_, ?_, ?_, ?_, ?_, k2, id, id, ?_, ?_⟩
        · intro pid
          simp only [map_get_push, pidx_in_list_single]
          by_cases h : p.pid = pid
          · subst h
            simp [hd, hp0, hp1]
          · simp [h]
        · intro pid; simp [e2]
        · intro t; simp [e3]
        · intro k
          simp only [k1 k, pidx_in_list_single]
          by_cases h : p.pid = k
          · subst h
            simp [hd, hp0, hp1]
          · have : k ≠ p.pid := fun e => h e.symm
            simp [h, this]
        · intro k; simp [e2]
        · intro k; simp [e3]
        · simp only [IndexMaps.keys, List.length_singleton]; omega
        · simp only [IndexMaps.vals, k4, List.length_singleton]; omega

theorem scan_puts_spec (versatile : Bool) (X : List Put) : ∀ m : IndexMaps,
    ((∃ p, p ∈ X ∧ p.d = IN ∧ p.pid = TYPE_ID) ∧ scan_puts versatile m X = .abort) ∨
    ((∀ p, p ∈ X → ¬ (p.d = IN ∧ p.pid = TYPE_ID)) ∧
      ∃ m2, scan_puts versatile m X = .ok m2 ∧ Scanned m m2 X) := by
  induction X with
  | nil =>
    intro m
    exact Or.inr ⟨fun p hp => by simp at hp, m, rfl, Scanned.refl m⟩
  | cons p X ih =>
    intro m
    rcases scan_put_spec versatile m p with ⟨h1, h2, h3⟩ | ⟨h1, m1, h2, h3⟩
    · left
      exact ⟨⟨p, List.mem_cons_self _ _, h1, h2⟩, by simp only [scan_puts, h3, Outcome.bind]⟩
    · rcases ih m1 with ⟨⟨q, hq, k1, k2⟩, k3⟩ | ⟨k1, m2, k2, k3⟩
      · left
        exact ⟨⟨q, List.mem_cons_of_mem _ hq, k1, k2⟩,
          by simp only [scan_puts, h2, Outcome.bind, k3]⟩
      · right
        refine ⟨?_, m2, by simp only [scan_puts, h2, Outcome.bind, k2], h3.step k3⟩
        intro q hq
        rcases List.mem_cons.1 hq with e | e
        · rw [e]; exact h1
        · exact k1 q e

/-! ### The keys of the index build -/

theorem mem_pidx_in_list {X : List Put} {k : Nat} (h : pidx_in_list X k ≠ []) :
    ∃ p, p ∈ X ∧ p.d ≠ IN ∧ p.pid = k ∧ k ≠ PREDICATE_ID ∧ k ≠ TYPE_ID := by
  obtain ⟨v, hv⟩ := List.exists_mem_of_ne_nil _ h
  simp only [pidx_in_list, List.mem_map, List.mem_filter, decide_eq_true_eq] at hv
  obtain ⟨p, ⟨hp, h1⟩, _⟩ := hv
  exact ⟨p, hp, h1⟩

theorem mem_pidx_out_list {X : List Put} {k : Nat} (h : pidx_out_list X k ≠ []) :
    ∃ p, p ∈ X ∧ p.d = IN ∧ p.pid = k ∧ k ≠ PREDICATE_ID ∧ k ≠ TYPE_ID := by
  obtain ⟨v, hv⟩ := List.exists_mem_of_ne_nil _ h
  simp only [pidx_out_list, List.mem_map, List.mem_filter, decide_eq_true_eq] at hv
  obtain ⟨p, ⟨hp, h1⟩, _⟩ := hv
  exact ⟨p, hp, h1⟩

theorem mem_tidx_list {X : List Put} {t : Nat} (h : tidx_list X t ≠ []) :
    ∃ p, p ∈ X ∧ p.d ≠ IN ∧ p.pid = TYPE_ID ∧ t ∈ p.vals := by
  induction X with
  | nil => exact absurd rfl h
  | cons p X ih =>
    simp only [tidx_list, ne_eq, List.append_eq_nil, not_and_or] at h
    rcases h with h | h
    · simp only [tidx_of] at h
      split_ifs at h with hc
      · simp only [List.replicate_eq_nil_iff, List.count_eq_zero, not_not] at h
        exact ⟨p, List.mem_cons_self _ _, hc.1, hc.2, h⟩
      · exact absurd rfl h
    · obtain ⟨q, hq, h1⟩ := ih h
      exact ⟨q, List.mem_cons_of_mem _ hq, h1⟩

theorem map_plan_mem {m : tbb_hash_map} {d : Nat} {p : Put} (h : p ∈ map_plan m d)
    (hn : (map_keys m).Nodup) :
    p.pid ∈ map_keys m ∧ p.vid = 0 ∧ p.d = d ∧ p.vals = map_get m p.pid := by
  simp only [map_plan, List.mem_map] at h
  obtain ⟨⟨k, l⟩, he, rfl⟩ := h
  exact ⟨List.mem_map.2 ⟨(k, l), he, rfl⟩, rfl, rfl, (map_get_of_mem hn he).symm⟩

theorem mem_map_plan {m : tbb_hash_map} {d k : Nat} (h : k ∈ map_keys m) :
    (⟨0, k, d, map_get m k⟩ : Put) ∈ map_plan m d :=
  List.mem_map.2 ⟨(k, map_get m k), mem_of_map_keys h, rfl⟩

theorem map_plan_keys_nodup {m : tbb_hash_map} (d : Nat) (hn : (map_keys m).Nodup) :
    ((map_plan m d).map Put.key).Nodup := by
  have : (map_plan m d).map Put.key = (map_keys m).map fun k => (⟨0, k, d⟩ : ikey_t) := by
    simp [map_plan, map_keys, Put.key, Function.comp_def]
  rw [this]
  apply List.Nodup.map _ hn
  intro a b h
  injection h

theorem pairwise_key_iff (L : List Put) :
    L.Pairwise (fun p q => p.key ≠ q.key) ↔ (L.map Put.key).Nodup := by
  rw [List.Nodup, List.pairwise_map]

theorem map_plan_size (m : tbb_hash_map) (d : Nat) :
    (map_plan m d).length = m.length ∧ total_vals (map_plan m d) = map_vals m := by
  simp [map_plan, total_vals, map_vals, Function.comp_def]

theorem index_plan_kind {versatile : Bool} {L X : List Put} {m : IndexMaps}
    (hs : Scanned IndexMaps.empty m X) (hX : ∀ p, p ∈ X ↔ p ∈ L) {p : Put}
    (hp : p ∈ index_plan versatile m) : IndexKind versatile L m p := by
  have hn : ([] : List Nat).Nodup := List.nodup_nil
  simp only [index_plan, List.mem_append] at hp
  rcases hp with hp | hp | hp | hp
  · obtain ⟨h1, h2, h3, h4⟩ := map_plan_mem hp (hs.nodup_t hn)
    rcases (hs.keys_t _).1 h1 with h | h
    · simp [IndexMaps.empty, map_keys] at h
    · obtain ⟨q, hq, a1, a2, a3⟩ := mem_tidx_list h
      exact IndexKind.tidx q ((hX q).1 hq) a1 a2 a3 h2 h3 h4
  · obtain ⟨h1, h2, h3, h4⟩ := map_plan_mem hp (hs.nodup_in hn)
    rcases (hs.keys_in _).1 h1 with h | h
    · simp [IndexMaps.empty, map_keys] at h
    · obtain ⟨q, hq, a1, a2, a3, a4⟩ := mem_pidx_in_list h
      exact IndexKind.pidx_in q ((hX q).1 hq) a1 a2 a3 a4 h2 h3 h4
  · obtain ⟨h1, h2, h3, h4⟩ := map_plan_mem hp (hs.nodup_out hn)
    rcases (hs.keys_out _).1 h1 with h | h
    · simp [IndexMaps.empty, map_keys] at h
    · obtain ⟨q, hq, a1, a2, a3, a4⟩ := mem_pidx_out_list h
      exact IndexKind.pidx_out q ((hX q).1 hq) a1 a2 a3 a4 h2 h3 h4
  · cases versatile with
    | false => simp at hp
    | true =>
      simp only [if_true, List.mem_cons, List.mem_singleton, List.not_mem_nil, or_false] at hp
      exact IndexKind.sets rfl hp

theorem IndexKind.vid {versatile : Bool} {L : List Put} {m : IndexMaps} {p : Put}
    (h : IndexKind versatile L m p) : p.vid = 0 := by
  cases h with
  | tidx q _ _ _ _ h5 _ _ => exact h5
  | pidx_in q _ _ _ _ _ h6 _ _ => exact h6
  | pidx_out q _ _ _ _ _ h6 _ _ => exact h6
  | sets _ h2 => rcases h2 with rfl | rfl | rfl <;> rfl

theorem IndexKind.put_valid {versatile : Bool} {L : List Put} {m : IndexMaps} {p : Put}
    (hl : Loadable L)
    (hty : ∀ p, p ∈ L → p.d ≠ IN → p.pid = TYPE_ID → ∀ t, t ∈ p.vals → is_tpid t = true)
    (h : IndexKind versatile L m p) : p.valid := by
  have hpos : (0 : Nat) < 2 ^ NBITS_VID := by decide
  have key_ne : ∀ {q : Put}, q.pid ≠ 0 → q.key ≠ ikey_t.zero := by
    intro q hq e
    have := congrArg ikey_t.pid e
    exact hq this
  cases h with
  | tidx q h1 h2 h3 h4 h5 h6 _ =>
    have ht := hty q h1 h2 h3 _ h4
    rw [is_tpid_iff] at ht
    exact ⟨by rw [h5]; exact hpos, ht.2, by rw [h6]; decide, key_ne (by omega)⟩
  | pidx_in q h1 h2 h3 h4 h5 h6 h7 _ =>
    have hv := (hl.valid q h1).2.1
    exact ⟨by rw [h6]; exact hpos, by rw [← h3]; exact hv, by rw [h7]; decide, key_ne h4⟩
  | pidx_out q h1 h2 h3 h4 h5 h6 h7 _ =>
    have hv := (hl.valid q h1).2.1
    exact ⟨by rw [h6]; exact hpos, by rw [← h3]; exact hv, by rw [h7]; decide, key_ne h4⟩
  | sets _ h2 =>
    have h1 : TYPE_ID < 2 ^ NBITS_IDX := by decide
    have h0 : PREDICATE_ID < 2 ^ NBITS_IDX := by decide
    have hi : IN < 2 ^ NBITS_DIR := by decide
    have ho : OUT < 2 ^ NBITS_DIR := by decide
    have hz : (⟨0, PREDICATE_ID, OUT⟩ : ikey_t) ≠ ikey_t.zero := by decide
    rcases h2 with rfl | rfl | rfl
    · exact ⟨hpos, h1, hi, key_ne (by decide : TYPE_ID ≠ 0)⟩
    · exact ⟨hpos, h1, ho, key_ne (by decide : TYPE_ID ≠ 0)⟩
    · exact ⟨hpos, h0, ho, hz⟩

theorem index_plan_loadable {versatile : Bool} {L X : List Put} {m : IndexMaps}
    (ix : Indexable L) (hs : Scanned IndexMaps.empty m X) (hX : ∀ p, p ∈ X ↔ p ∈ L) :
    Loadable (L ++ index_plan versatile m) := by
  have hn : ([] : List Nat).Nodup := List.nodup_nil
  have hkind : ∀ p, p ∈ index_plan versatile m → IndexKind versatile L m p :=
    fun p hp => index_plan_kind hs hX hp
  constructor
  · intro p hp
    rcases List.mem_append.1 hp with h | h
    · exact ix.loadable.valid p h
    · exact (hkind p h).put_valid ix.loadable ix.types
  · rw [List.pairwise_append]
    refine ⟨ix.loadable.distinct, ?_, ?_⟩
    · -- the keys of the index build are pairwise different
      have hT : ∀ p, p ∈ map_plan m.tidx_map IN → IndexKind versatile L m p := fun p hp =>
        hkind p (by simp only [index_plan, List.mem_append]; exact Or.inl hp)
      have hPI : ∀ p, p ∈ map_plan m.pidx_in_map IN → IndexKind versatile L m p := fun p hp =>
        hkind p (by simp only [index_plan, List.mem_append]; exact Or.inr (Or.inl hp))
      have hPO : ∀ p, p ∈ map_plan m.pidx_out_map OUT → IndexKind versatile L m p :=
        fun p hp =>
        hkind p (by simp only [index_plan, List.mem_append]; exact Or.inr (Or.inr (Or.inl hp)))
      have dT : ∀ p, p ∈ map_plan m.tidx_map IN → p.d = IN ∧ ∃ q, q ∈ L ∧ q.d ≠ IN ∧
          q.pid = TYPE_ID ∧ p.pid ∈ q.vals := by
        intro p hp
        obtain ⟨h1, _, h3, _⟩ := map_plan_mem hp (hs.nodup_t hn)
        rcases (hs.keys_t _).1 h1 with h | h
        · simp [IndexMaps.empty, map_keys] at h
        · obtain ⟨q, hq, a1, a2, a3⟩ := mem_tidx_list h
          exact ⟨h3, q, (hX q).1 hq, a1, a2, a3⟩
      have dPI : ∀ p, p ∈ map_plan m.pidx_in_map IN → p.d = IN ∧ ∃ q, q ∈ L ∧ q.d ≠ IN ∧
          q.pid = p.pid ∧ p.pid ≠ PREDICATE_ID ∧ p.pid ≠ TYPE_ID := by
        intro p hp
        obtain ⟨h1, _, h3, _⟩ := map_plan_mem hp (hs.nodup_in hn)
        rcases (hs.keys_in _).1 h1 with h | h
        · simp [IndexMaps.empty, map_keys] at h
        · obtain ⟨q, hq, a1, a2, a3, a4⟩ := mem_pidx_in_list h
          exact ⟨h3, q, (hX q).1 hq, a1, a2, a3, a4⟩
      have dPO : ∀ p, p ∈ map_plan m.pidx_out_map OUT → p.d = OUT ∧
          p.pid ≠ PREDICATE_ID ∧ p.pid ≠ TYPE_ID := by
        intro p hp
        obtain ⟨h1, _, h3, _⟩ := map_plan_mem hp (hs.nodup_out hn)
        rcases (hs.keys_out _).1 h1 with h | h
        · simp [IndexMaps.empty, map_keys] at h
        · obtain ⟨q, hq, a1, a2, a3, a4⟩ := mem_pidx_out_list h
          exact ⟨h3, a3, a4⟩
      have hio : IN ≠ OUT := by decide
      simp only [index_plan, List.pairwise_append]
      refine ⟨(pairwise_key_iff _).2 (map_plan_keys_nodup IN (hs.nodup_t hn)),
        ⟨(pairwise_key_iff _).2 (map_plan_keys_nodup IN (hs.nodup_in hn)),
          ⟨(pairwise_key_iff _).2 (map_plan_keys_nodup OUT (hs.nodup_out hn)), ?_, ?_⟩, ?_⟩, ?_⟩
      · -- the three sets
        cases versatile with
        | false => simp
        | true =>
          simp only [if_true, List.pairwise_cons, List.mem_cons, List.mem_singleton,
            List.not_mem_nil, or_false, false_implies, implies_true, List.Pairwise.nil,
            and_true]
          have k1 : (⟨0, TYPE_ID, IN⟩ : ikey_t) ≠ ⟨0, TYPE_ID, OUT⟩ := by decide
          have k2 : (⟨0, TYPE_ID, IN⟩ : ikey_t) ≠ ⟨0, PREDICATE_ID, OUT⟩ := by decide
          have k3 : (⟨0, TYPE_ID, OUT⟩ : ikey_t) ≠ ⟨0, PREDICATE_ID, OUT⟩ := by decide
          refine ⟨?_, ?_⟩
          · rintro q (rfl | rfl)
            · exact k1
            · exact k2
          · rintro q rfl
            exact k3
      · -- predicate index (OUT side) against the sets
        intro p hp q hq he
        obtain ⟨h1, h2, h3⟩ := dPO p hp
        cases versatile with
        | false => simp at hq
        | true =>
          simp only [if_true, List.mem_cons, List.mem_singleton, List.not_mem_nil,
            or_false] at hq
          have e1 := congrArg ikey_t.pid he
          have e2 := congrArg ikey_t.dir he
          simp only [Put.key] at e1 e2
          rcases hq with rfl | rfl | rfl
          · exact hio (by rw [← h1, e2])
          · exact h3 e1
          · exact h2 e1
      · -- predicate index (IN side) against the OUT side and the sets
        intro p hp q hq he
        obtain ⟨h1, q0, _, _, _, h2, h3⟩ := dPI p hp
        have e1 := congrArg ikey_t.pid he
        have e2 := congrArg ikey_t.dir he
        simp only [Put.key] at e1 e2
        rcases List.mem_append.1 hq with hq | hq
        · exact hio (by rw [← h1, e2, (dPO q hq).1])
        · cases versatile with
          | false => simp at hq
          | true =>
            simp only [if_true, List.mem_cons, List.mem_singleton, List.not_mem_nil,
              or_false] at hq
            rcases hq with rfl | rfl | rfl
            · exact h3 e1
            · exact hio (by rw [← h1, e2])
            · exact h2 e1
      · -- type index against the rest
        intro p hp q hq he
        obtain ⟨h1, q0, k1, k2, k3, k4⟩ := dT p hp
        have ht := ix.types q0 k1 k2 k3 _ k4
        rw [is_tpid_iff] at ht
        have e1 := congrArg ikey_t.pid he
        have e2 := congrArg ikey_t.dir he
        simp only [Put.key] at e1 e2
        rcases List.mem_append.1 hq with hq | hq
        · obtain ⟨_, q1, j1, j2, j3, j4, j5⟩ := dPI q hq
          refine ix.disjoint q0 q1 k1 j1 k2 k3 j2 (by rw [j3]; exact j5) ?_
          rw [j3, ← e1]
          exact k4
        · rcases List.mem_append.1 hq with hq | hq
          · exact hio (by rw [← h1, e2, (dPO q hq).1])
          · cases versatile with
            | false => simp at hq
            | true =>
              simp only [if_true, List.mem_cons, List.mem_singleton, List.not_mem_nil,
                or_false] at hq
              rcases hq with rfl | rfl | rfl
              · simp only [TYPE_ID] at e1
                omega
              · exact hio (by rw [← h1, e2])
              · exact hio (by rw [← h1, e2])
    · intro p hp q hq he
      have h1 := ix.vids p hp
      have h2 := (hkind q hq).vid
      have := congrArg ikey_t.vid he
      simp only [Put.key] at this
      omega

/-! ### The index build on a loaded store -/

theorem index_plan_size (versatile : Bool) (m : IndexMaps) :
    (index_plan versatile m).length ≤ m.keys + 3 ∧
    total_vals (index_plan versatile m) ≤ m.vals := by
  obtain ⟨a1, a2⟩ := map_plan_size m.tidx_map IN
  obtain ⟨b1, b2⟩ := map_plan_size m.pidx_in_map IN
  obtain ⟨c1, c2⟩ := map_plan_size m.pidx_out_map OUT
  simp only [index_plan, List.length_append, total_vals_append, a1, a2, b1, b2, c1, c2,
    IndexMaps.keys, IndexMaps.vals]
  cases versatile with
  | false =>
    simp only [Bool.false_eq_true, if_false, List.length_nil, total_vals, List.map_nil,
      List.sum_nil]
    omega
  | true =>
    simp only [if_true, List.length_cons, List.length_nil, total_vals, List.map_cons,
      List.map_nil, List.sum_cons, List.sum_nil]
    omega

theorem total_vals_perm {A B : List Put} (h : A.Perm B) : total_vals A = total_vals B := by
  simp only [total_vals]
  exact (h.map _).sum_eq

theorem scan_empty_keys : IndexMaps.empty.keys = 0 ∧ IndexMaps.empty.vals = 0 := by
  simp [IndexMaps.empty, IndexMaps.keys, IndexMaps.vals, map_vals]

/-- The index build on a store that holds the pairs `L`: the scan returns maps
`m` that describe the scanned pairs; the build never runs out of loop budget,
returns when there is room for its keys, and when it returns the store holds
the pairs of `L` and those of the index. -/
theorem insert_index_loaded (hash_u64 : Nat → Nat) (versatile : Bool) {g : GStore}
    {L : List Put} (ld : Loaded hash_u64 g L) (ix : Indexable L) :
    ∃ m, scan_puts versatile IndexMaps.empty (g.occupied.map g.view) = .ok m ∧
      Scanned IndexMaps.empty m (g.occupied.map g.view) ∧
      (g.occupied.map g.view).Perm L ∧
      insert_index hash_u64 versatile g ≠ .nofuel ∧
      (Fits g (index_plan versatile m) → ∃ g2, insert_index hash_u64 versatile g = .ok g2) ∧
      ∀ g2, insert_index hash_u64 versatile g = .ok g2 →
        Loaded hash_u64 g2 (L ++ index_plan versatile m) ∧ SameConfig g g2 := by
  have hperm := ld.scan_perm ix.loadable
  have hX : ∀ p, p ∈ g.occupied.map g.view ↔ p ∈ L := fun p => hperm.mem_iff
  rcases scan_puts_spec versatile (g.occupied.map g.view) IndexMaps.empty with
    ⟨⟨p, hp, h1, h2⟩, _⟩ | ⟨_, m, hm, hs⟩
  · exact absurd ⟨h1, h2⟩ (ix.no_type_in p ((hX p).1 hp))
  · have hl : Loadable (L ++ index_plan versatile m) := index_plan_loadable ix hs hX
    obtain ⟨k1, k2⟩ := insert_lists_ok (index_plan versatile m) ld hl
    refine ⟨m, hm, hs, hperm, ?_, ?_, ?_⟩
    · rw [insert_index_eq, hm]
      exact k1
    · intro hfit
      rw [insert_index_eq, hm]
      exact insert_lists_returns _ ld hl hfit
    · intro g2 hg2
      rw [insert_index_eq, hm] at hg2
      obtain ⟨a1, a2, _⟩ := k2 g2 hg2
      exact ⟨a1, a2⟩

theorem index_plan_fits {versatile : Bool} {g : GStore} {L X : List Put} {m : IndexMaps}
    (hs : Scanned IndexMaps.empty m X) (hperm : X.Perm L) {n : Nat}
    (hlen : L.length ≤ n) (hvals : total_vals L ≤ n) (hext : g.last_ext ≤ L.length)
    (hent : g.last_entry = total_vals L)
    (h1 : 3 * n + 3 ≤ g.num_buckets_ext) (h2 : 5 * n < g.num_entries)
    (h3 : g.num_entries ≤ 2 ^ NBITS_PTR) (h4 : 4 * n < 2 ^ NBITS_SIZE) :
    Fits g (index_plan versatile m) := by
  obtain ⟨s1, s2⟩ := index_plan_size versatile m
  have k1 := hs.nkeys
  have k2 := hs.nvals
  rw [hperm.length_eq, total_vals_perm hperm, scan_empty_keys.1] at k1
  rw [hperm.length_eq, total_vals_perm hperm, scan_empty_keys.2] at k2
  refine ⟨by omega, by omega, h3, ?_⟩
  intro p hp
  have := le_total_vals hp
  omega

/-! ### The whole bulk load -/

theorem mem_slice_map_inv {v : List triple_t} {val : triple_t → Nat} {a b x : Nat}
    (h : x ∈ slice_map v val a b) : ∃ k, a ≤ k ∧ k < b ∧ x = val (triple_at v k) := by
  simp only [slice_map, List.mem_map, List.mem_range] at h
  obtain ⟨i, hi, e⟩ := h
  exact ⟨a + i, by omega, by omega, e.symm⟩

theorem PassPut.vid_ne {versatile : Bool} {f val : triple_t → Nat} {d : Nat}
    {v : List triple_t} {pr : List Nat} {s s0 : Nat} {p : Put} (ok : PassOK f v s0)
    (hs : s0 ≤ s) (h : PassPut versatile f val d v pr s p) : p.vid ≠ 0 := by
  have hpos : (0 : Nat) < 2 ^ NBITS_IDX := by decide
  rcases h with ⟨a, b, h1, h2, h3, _, _, h6⟩ | ⟨_, a, h1, h2, h3, _, _, _, _⟩
  · obtain ⟨i1, _⟩ := ok.ids a (by omega) (by omega)
    rw [h6]
    show f (triple_at v a) ≠ 0
    omega
  · obtain ⟨i1, _⟩ := ok.ids a (by omega) h2
    rw [h3]
    omega

/-- A pair of the first pass with predicate `TYPE_ID`: its key comes from a type
triple and its values are objects of type triples with the same subject. -/
theorem spo_type_put {versatile : Bool} {spo : List triple_t} {p : Put}
    (h : PassPut versatile (fun t => t.s) (fun t => t.o) OUT spo [] 0 p)
    (hp : p.pid = TYPE_ID) :
    ∀ t, t ∈ p.vals → ∃ u, u ∈ spo ∧ u.p = TYPE_ID ∧ u.o = t ∧ u.s = p.vid := by
  have h01 : PREDICATE_ID ≠ TYPE_ID := by decide
  rcases h with ⟨a, b, h1, h2, h3, h4, _, h6⟩ | ⟨_, a, _, _, _, h4, _, _, _⟩
  · subst h6
    intro t ht
    obtain ⟨k, k1, k2, k3⟩ := mem_slice_map_inv ht
    have hs := h4 k k1 k2
    simp only [same_run] at hs
    exact ⟨triple_at spo k, triple_at_mem spo k (by omega), by rw [← hs.2]; exact hp,
      k3.symm, hs.1.symm⟩
  · exact absurd (h4.symm.trans hp) h01

/-- A pair of the first pass whose predicate is neither reserved id: its
predicate is the predicate of a triple. -/
theorem spo_pred_put {versatile : Bool} {spo : List triple_t} {p : Put}
    (h : PassPut versatile (fun t => t.s) (fun t => t.o) OUT spo [] 0 p)
    (hp : p.pid ≠ PREDICATE_ID) : ∃ u, u ∈ spo ∧ u.p = p.pid ∧ u.s = p.vid := by
  rcases h with ⟨a, b, h1, h2, h3, h4, _, h6⟩ | ⟨_, a, _, _, _, h4, _, _, _⟩
  · subst h6
    exact ⟨triple_at spo a, triple_at_mem spo a (by omega), rfl, rfl⟩
  · exact absurd h4 hp

theorem ops_put_pid {versatile : Bool} {spo ops : List triple_t} (st : Streams spo ops)
    {p : Put}
    (h : PassPut versatile (fun t => t.o) (fun t => t.s) IN ops []
      (skip_type_triples ops ops.length 0) p) : p.pid ≠ TYPE_ID := by
  obtain ⟨ok, _, _, _⟩ := st.pass_ops
  have h01 : PREDICATE_ID ≠ TYPE_ID := by decide
  rcases h with ⟨a, b, h1, h2, h3, _, _, h6⟩ | ⟨_, a, _, _, _, h4, _, _, _⟩
  · subst h6
    have hw := st.wf_ops a (by omega)
    obtain ⟨i1, _, _, _⟩ := ok.ids a h1 (by omega)
    have i2 : 2 ^ NBITS_IDX ≤ (triple_at ops a).o := i1
    show (triple_at ops a).p ≠ TYPE_ID
    rcases hw.2.2 with ⟨_, hw⟩ | ⟨hw, _, _⟩
    · rw [is_tpid_iff] at hw
      omega
    · rw [is_tpid_iff] at hw
      simp only [TYPE_ID]
      omega
  · rw [h4]
    exact h01

/-- The pairs of `insert_normal` can be scanned by the index build: vertex
fields are vertex ids, no key is `(vid, TYPE_ID, IN)`, and the values under
`(vid, TYPE_ID, OUT)` are type ids. -/
theorem normal_plan_scannable {versatile : Bool} {spo ops : List triple_t}
    (st : Streams spo ops) :
    (∀ p, p ∈ normal_plan versatile spo ops → p.vid ≠ 0) ∧
    (∀ p, p ∈ normal_plan versatile spo ops → ¬ (p.d = IN ∧ p.pid = TYPE_ID)) ∧
    (∀ p, p ∈ normal_plan versatile spo ops → p.d ≠ IN → p.pid = TYPE_ID →
      ∀ t, t ∈ p.vals → is_tpid t = true) := by
  have hio : OUT ≠ IN := by decide
  refine ⟨?_, ?_, ?_⟩
  · intro p hp
    rcases normal_plan_shape hp with h | h
    · exact h.vid_ne st.pass_spo (le_refl _)
    · exact h.vid_ne st.pass_ops.1 (le_refl _)
  · intro p hp ⟨h1, h2⟩
    rcases normal_plan_shape hp with h | h
    · exact hio (by rw [← h.dir, h1])
    · exact ops_put_pid st h h2
  · intro p hp h1 h2 t ht
    rcases normal_plan_shape hp with h | h
    · obtain ⟨u, hu, u1, u2, _⟩ := spo_type_put h h2 t ht
      have hw := st.ids u hu
      rcases hw.2.2 with ⟨_, hw⟩ | ⟨hw, _, _⟩
      · rw [← u2]; exact hw
      · rw [is_tpid_iff, u1] at hw
        simp only [TYPE_ID] at hw
        omega
    · exact absurd h.dir h1

theorem normal_plan_indexable {versatile : Bool} {spo ops : List triple_t}
    (st : Streams spo ops) (apart : TypesApart spo) :
    Indexable (normal_plan versatile spo ops) := by
  have hio : OUT ≠ IN := by decide
  obtain ⟨s1, s2, s3⟩ := @normal_plan_scannable versatile spo ops st
  refine ⟨normal_plan_loadable st, s1, s2, s3, ?_⟩
  · intro p q hp hq h1 h2 h3 h4 hmem
    rcases normal_plan_shape hp with h | h
    · rcases normal_plan_shape hq with k | k
      · obtain ⟨u, hu, u1, u2, _⟩ := spo_type_put h h2 _ hmem
        by_cases hq0 : q.pid = PREDICATE_ID
        · -- a type id is never 0
          have hw := st.ids u hu
          rcases hw.2.2 with ⟨_, hw⟩ | ⟨hw, _, _⟩
          · rw [is_tpid_iff, u2, hq0] at hw
            simp only [PREDICATE_ID] at hw
            omega
          · rw [is_tpid_iff, u1] at hw
            simp only [TYPE_ID] at hw
            omega
        · obtain ⟨w, hw, w1, _⟩ := spo_pred_put k hq0
          exact apart u w hu hw u1 (by rw [w1, u2])
      · exact absurd k.dir h3
    · exact absurd h.dir h1

/-- The bulk load never runs out of fuel, returns when the store is roomy
enough, and leaves exactly the pairs of `insert_normal` followed by those of
`insert_index`, computed from a scan of the pairs of `insert_normal`. -/
theorem bulk_load_loaded (hash_u64 : Nat → Nat) (versatile : Bool) (g0 : GStore)
    (spo ops : List triple_t) (cfg : Config g0) (st : Streams spo ops)
    (apart : TypesApart spo) :
    bulk_load hash_u64 versatile g0 spo ops ≠ .nofuel ∧
    (Roomy g0 (20 * spo.length + 3) →
      ∃ g2, bulk_load hash_u64 versatile g0 spo ops = .ok g2) ∧
    ∀ g2, bulk_load hash_u64 versatile g0 spo ops = .ok g2 → ∃ g1 m,
      insert_normal hash_u64 versatile (refresh g0) spo ops = .ok g1 ∧
      Loaded hash_u64 g1 (normal_plan versatile spo ops) ∧
      scan_puts versatile IndexMaps.empty (g1.occupied.map g1.view) = .ok m ∧
      Scanned IndexMaps.empty m (g1.occupied.map g1.view) ∧
      (g1.occupied.map g1.view).Perm (normal_plan versatile spo ops) ∧
      insert_index hash_u64 versatile g1 = .ok g2 ∧
      Loaded hash_u64 g2 (normal_plan versatile spo ops ++ index_plan versatile m) := by
  obtain ⟨n1, n2, n3⟩ := insert_normal_loaded hash_u64 versatile g0 spo ops cfg st
  have ix : Indexable (normal_plan versatile spo ops) := normal_plan_indexable st apart
  have hsz := normal_plan_size versatile spo ops st.length_eq
  cases hn : insert_normal hash_u64 versatile (refresh g0) spo ops with
  | nofuel => exact absurd hn n1
  | abort =>
    refine ⟨?_, ?_, ?_⟩
    · simp [bulk_load, hn, Outcome.bind]
    · intro hr
      obtain ⟨g, hg⟩ := n2 ⟨by have := hr.buckets; omega, by have := hr.entries; omega,
        hr.ptr, by have := hr.size; omega⟩
      rw [hn] at hg
      cases hg
    · intro g2 h2
      simp [bulk_load, hn, Outcome.bind] at h2
  | ok g1 =>
    obtain ⟨ld, sc, hext⟩ := n3 g1 hn
    obtain ⟨m, m1, m2, m3, m4, m5, m6⟩ := insert_index_loaded hash_u64 versatile ld ix
    have hb : bulk_load hash_u64 versatile g0 spo ops = insert_index hash_u64 versatile g1 := by
      simp [bulk_load, hn, Outcome.bind]
    rw [hb]
    refine ⟨m4, ?_, ?_⟩
    · intro hr
      apply m5
      obtain ⟨s1, s2, s3, s4⟩ := sc
      have r1 : (refresh g0).num_buckets_ext = g0.num_buckets_ext := rfl
      have r2 : (refresh g0).num_entries = g0.num_entries := rfl
      have e1 := hr.buckets
      have e2 := hr.entries
      have e3 := hr.ptr
      have e4 := hr.size
      exact index_plan_fits m2 m3 (n := 4 * spo.length) hsz.1 hsz.2 hext ld.entry
        (by omega) (by omega) (by omega) (by omega)
    · intro g2 h2
      exact ⟨g1, m, rfl, ld, m1, m2, m3, h2, (m6 g2 h2).1⟩

/-! ### A block whose key is already present aborts -/

theorem insert_list_dup {hash_u64 : Nat → Nat} {g : GStore} {L : List Put}
    (ld : Loaded hash_u64 g L) (p : Put) (hv : p.valid) {q : Put} (hq : q ∈ L)
    (he : q.key = p.key) :
    insert_list hash_u64 g p.vid p.pid p.d p.vals = .abort := by
  obtain ⟨hv1, hv2, hv3, hv4⟩ := hv
  have hmk : ikey_t.make p.vid p.pid p.d = .ok p.key := ikey_make_ok hv1 hv2 hv3
  obtain ⟨c, j, off, a1, a2, a3, _⟩ := ld.holds q hq
  simp only [insert_list, hmk, Outcome.bind]
  by_cases hfull : (g.last_entry + p.vals.length) % 2 ^ 64 ≥ g.num_entries
  · have hal : alloc_edges g p.vals.length = .abort := by
      simp only [alloc_edges]
      rw [if_pos hfull]
    simp only [hal]
  have hal : alloc_edges g p.vals.length = .ok (g.last_entry,
      { g with last_entry := (g.last_entry + p.vals.length) % 2 ^ 64 }) := by
    simp only [alloc_edges]
    rw [if_neg hfull]
  simp only [hal]
  have wf1 : WF hash_u64
      ({ g with last_entry := (g.last_entry + p.vals.length) % 2 ^ 64 } : GStore) :=
    ld.wf.congr (fun _ => rfl) rfl rfl rfl rfl
  have hins := insert_key_present wf1 hv4 (c := c) (j := j) a1 a2 (a3.trans he) true
  rw [hins]
  rfl

/-- A sequence of blocks with valid keys never runs out of loop budget, and
when it returns, its keys were new and pairwise different. -/
theorem insert_lists_sound {hash_u64 : Nat → Nat} (P : List Put) :
    ∀ {g : GStore} {L : List Put}, Loaded hash_u64 g L → Loadable L →
    (∀ p, p ∈ P → p.valid) →
    insert_lists hash_u64 g P ≠ .nofuel ∧
    ∀ g2, insert_lists hash_u64 g P = .ok g2 → Loadable (L ++ P) := by
  induction P with
  | nil =>
    intro g L _ hl _
    refine ⟨(fun h => nomatch h), fun _ _ => ?_⟩
    rw [List.append_nil]
    exact hl
  | cons p P ih =>
    intro g L ld hl hv
    have hvp := hv p (List.mem_cons_self _ _)
    simp only [insert_lists]
    by_cases hdup : ∃ q, q ∈ L ∧ q.key = p.key
    · obtain ⟨q, hq, he⟩ := hdup
      rw [insert_list_dup ld p hvp hq he]
      exact ⟨(fun h => nomatch h), (fun _ h => nomatch h)⟩
    · have hnew : ∀ q, q ∈ L → q.key ≠ p.key := fun q hq he => hdup ⟨q, hq, he⟩
      obtain ⟨k1, k2⟩ := insert_list_ok ld (fun q hq => (hl.valid q hq).2.2.2) p hvp hnew
      cases hins : insert_list hash_u64 g p.vid p.pid p.d p.vals with
      | nofuel => exact absurd hins k1
      | abort => exact ⟨(fun h => nomatch h), (fun _ h => nomatch h)⟩
      | ok g1 =>
        obtain ⟨ld1, _⟩ := k2 g1 hins
        have hl1 : Loadable (L ++ [p]) := by
          constructor
          · intro q hq
            rcases List.mem_append.1 hq with h | h
            · exact hl.valid q h
            · rw [List.mem_singleton.1 h]
              exact hvp
          · rw [List.pairwise_append]
            refine ⟨hl.distinct, List.pairwise_singleton _ _, ?_⟩
            intro a ha b hb
            rw [List.mem_singleton.1 hb]
            exact hnew a ha
        obtain ⟨i1, i2⟩ := ih ld1 hl1 (fun q hq => hv q (List.mem_cons_of_mem _ hq))
        simp only [Outcome.bind]
        refine ⟨i1, fun g2 h2 => ?_⟩
        have := i2 g2 h2
        rw [List.append_assoc] at this
        exact this

/-! ### The lists of the index maps -/

theorem mem_pidx_in_list_iff {X : List Put} {k v : Nat} :
    v ∈ pidx_in_list X k ↔ ∃ p, p ∈ X ∧ p.d ≠ IN ∧ p.pid = k ∧ k ≠ PREDICATE_ID ∧
      k ≠ TYPE_ID ∧ p.vid = v := by
  simp [pidx_in_list, and_assoc]

theorem mem_pidx_out_list_iff {X : List Put} {k v : Nat} :
    v ∈ pidx_out_list X k ↔ ∃ p, p ∈ X ∧ p.d = IN ∧ p.pid = k ∧ k ≠ PREDICATE_ID ∧
      k ≠ TYPE_ID ∧ p.vid = v := by
  simp [pidx_out_list, and_assoc]

theorem mem_tidx_of_iff {p : Put} {t v : Nat} :
    v ∈ tidx_of t p ↔ p.d ≠ IN ∧ p.pid = TYPE_ID ∧ t ∈ p.vals ∧ p.vid = v := by
  simp only [tidx_of]
  split_ifs with h
  · simp only [List.mem_replicate, ne_eq, List.count_eq_zero]
    constructor
    · rintro ⟨h1, h2⟩
      exact ⟨h.1, h.2, not_not.1 h1, h2.symm⟩
    · rintro ⟨_, _, h3, h4⟩
      exact ⟨not_not.2 h3, h4.symm⟩
  · simp only [List.not_mem_nil, false_iff]
    rintro ⟨h1, h2, _⟩
    exact h ⟨h1, h2⟩

theorem mem_tidx_list_iff {X : List Put} {t v : Nat} :
    v ∈ tidx_list X t ↔ ∃ p, p ∈ X ∧ p.d ≠ IN ∧ p.pid = TYPE_ID ∧ t ∈ p.vals ∧ p.vid = v := by
  induction X with
  | nil => simp [tidx_list]
  | cons a X ih =>
    simp only [tidx_list, List.mem_append, ih, mem_tidx_of_iff, List.mem_cons]
    constructor
    · rintro (h | ⟨p, hp, h⟩)
      · exact ⟨a, Or.inl rfl, h⟩
      · exact ⟨p, Or.inr hp, h⟩
    · rintro ⟨p, rfl | hp, h⟩
      · exact Or.inl h
      · exact Or.inr ⟨p, hp, h⟩

theorem pidx_in_list_perm {X L : List Put} (h : X.Perm L) (k : Nat) :
    (pidx_in_list X k).Perm (pidx_in_list L k) := (h.filter _).map _

theorem pidx_out_list_perm {X L : List Put} (h : X.Perm L) (k : Nat) :
    (pidx_out_list X k).Perm (pidx_out_list L k) := (h.filter _).map _

theorem tidx_list_perm {X L : List Put} (h : X.Perm L) (t : Nat) :
    (tidx_list X t).Perm (tidx_list L t) := by
  induction h with
  | nil => exact List.Perm.refl _
  | cons a _ ih => exact List.Perm.append_left _ ih
  | swap a b l =>
    simp only [tidx_list]
    rw [← List.append_assoc, ← List.append_assoc]
    exact List.Perm.append_right _ List.perm_append_comm
  | trans _ _ ih1 ih2 => exact ih1.trans ih2

/-! ### The index build aborts on a type id that is also a predicate -/

theorem index_plan_apart {versatile : Bool} {L X : List Put} {m : IndexMaps}
    (hs : Scanned IndexMaps.empty m X) (hX : ∀ p, p ∈ X ↔ p ∈ L)
    (hty : ∀ p, p ∈ L → p.d ≠ IN → p.pid = TYPE_ID → ∀ t, t ∈ p.vals → is_tpid t = true)
    (hl : Loadable (L ++ index_plan versatile m)) :
    ∀ p q, p ∈ L → q ∈ L → p.d ≠ IN → p.pid = TYPE_ID → q.d ≠ IN →
      q.pid ≠ TYPE_ID → q.pid ∉ p.vals := by
  intro p q hp hq h1 h2 h3 h4 hmem
  have ht := hty p hp h1 h2 _ hmem
  rw [is_tpid_iff] at ht
  have h0 : q.pid ≠ PREDICATE_ID := by
    simp only [PREDICATE_ID]
    omega
  have e1 : tidx_list X q.pid ≠ [] := by
    apply List.ne_nil_of_mem (a := p.vid)
    exact mem_tidx_list_iff.2 ⟨p, (hX p).2 hp, h1, h2, hmem, rfl⟩
  have e2 : pidx_in_list X q.pid ≠ [] := by
    apply List.ne_nil_of_mem (a := q.vid)
    exact mem_pidx_in_list_iff.2 ⟨q, (hX q).2 hq, h3, rfl, h0, h4, rfl⟩
  have k1 := mem_map_plan (d := IN) ((hs.keys_t _).2 (Or.inr e1))
  have k2 := mem_map_plan (d := IN) ((hs.keys_in _).2 (Or.inr e2))
  have d1 := (List.pairwise_append.1 hl.distinct).2.1
  simp only [index_plan] at d1
  exact (List.pairwise_append.1 d1).2.2 _ k1 _ (List.mem_append_left _ k2) rfl

theorem insert_index_sound (hash_u64 : Nat → Nat) (versatile : Bool) {g : GStore}
    {L : List Put} (ld : Loaded hash_u64 g L) (hl : Loadable L)
    (hvid : ∀ p, p ∈ L → p.vid ≠ 0) (hnt : ∀ p, p ∈ L → ¬ (p.d = IN ∧ p.pid = TYPE_ID))
    (hty : ∀ p, p ∈ L → p.d ≠ IN → p.pid = TYPE_ID → ∀ t, t ∈ p.vals → is_tpid t = true) :
    insert_index hash_u64 versatile g ≠ .nofuel ∧
    ∀ g2, insert_index hash_u64 versatile g = .ok g2 → Indexable L := by
  have hperm := ld.scan_perm hl
  have hX : ∀ p, p ∈ g.occupied.map g.view ↔ p ∈ L := fun p => hperm.mem_iff
  rcases scan_puts_spec versatile (g.occupied.map g.view) IndexMaps.empty with
    ⟨⟨p, hp, h1, h2⟩, _⟩ | ⟨_, m, hm, hs⟩
  · exact absurd ⟨h1, h2⟩ (hnt p ((hX p).1 hp))
  · have hv : ∀ p, p ∈ index_plan versatile m → p.valid := fun p hp =>
      (index_plan_kind hs hX hp).put_valid hl hty
    obtain ⟨k1, k2⟩ := insert_lists_sound (index_plan versatile m) ld hl hv
    rw [insert_index_eq, hm]
    refine ⟨k1, fun g2 h2 => ?_⟩
    exact ⟨hl, hvid, hnt, hty, index_plan_apart hs hX hty (k2 g2 h2)⟩

/-! ### Every triple is covered by a pair of `insert_normal` -/

theorem spo_cover {versatile : Bool} {spo ops : List triple_t} {t : triple_t} (ht : t ∈ spo) :
    ∃ vals, (⟨t.s, t.p, OUT, vals⟩ : Put) ∈ normal_plan versatile spo ops ∧ t.o ∈ vals := by
  obtain ⟨i, hi, hti⟩ := mem_triple_at ht
  obtain ⟨a, b, _, ha, hb, hrun, hmem⟩ := plan_pass_cover versatile (fun u => u.s)
    (fun u => u.o) OUT spo (spo.length + 1) [] 0 (by omega) (Or.inl rfl) i (Nat.zero_le _) hi
  have hsame := hrun.2.2.1 i ha hb
  simp only [same_run, hti] at hsame
  rw [hsame.1, hsame.2] at hmem
  refine ⟨_, List.mem_append_left _ hmem, ?_⟩
  rw [← hti]
  exact mem_slice_map spo (fun u => u.o) ha hb

theorem ops_cover {versatile : Bool} {spo ops : List triple_t} (st : Streams spo ops)
    {t : triple_t} (ht : t ∈ spo) (hp : t.p ≠ TYPE_ID) :
    ∃ vals, (⟨t.o, t.p, IN, vals⟩ : Put) ∈ normal_plan versatile spo ops ∧ t.s ∈ vals := by
  have ht2 : t ∈ ops := st.same.mem_iff.2 ht
  obtain ⟨i, hi, hti⟩ := mem_triple_at ht2
  obtain ⟨_, _, hskip, hleft⟩ := st.pass_ops
  have htt := hskip i hi (by rw [hti]; exact hp)
  obtain ⟨a, b, _, ha, hb, hrun, hmem⟩ := plan_pass_cover versatile (fun u => u.o)
    (fun u => u.s) IN ops (ops.length + 1) [] _ (by omega) hleft i htt hi
  have hsame := hrun.2.2.1 i ha hb
  simp only [same_run, hti] at hsame
  rw [hsame.1, hsame.2] at hmem
  refine ⟨_, List.mem_append_right _ hmem, ?_⟩
  rw [← hti]
  exact mem_slice_map ops (fun u => u.s) ha hb

theorem types_apart_of_indexable {versatile : Bool} {spo ops : List triple_t}
    (st : Streams spo ops) (ix : Indexable (normal_plan versatile spo ops)) :
    TypesApart spo := by
  have hio : OUT ≠ IN := by decide
  intro t1 t2 h1 h2 hp he
  obtain ⟨v1, m1, o1⟩ := @spo_cover versatile spo ops t1 h1
  obtain ⟨v2, m2, _⟩ := @spo_cover versatile spo ops t2 h2
  have hw := st.ids t1 h1
  have ht : 1 < t1.o := by
    rcases hw.2.2 with ⟨_, hw⟩ | ⟨hw, _, _⟩
    · rw [is_tpid_iff] at hw
      exact hw.1
    · rw [is_tpid_iff, hp] at hw
      simp only [TYPE_ID] at hw
      omega
  refine ix.disjoint _ _ m1 m2 hio hp hio ?_ ?_
  · show t2.p ≠ TYPE_ID
    rw [he]
    simp only [TYPE_ID]
    omega
  · show t2.p ∈ v1
    rw [he]
    exact o1

/-- The bulk load never runs out of loop budget, and it returns only on streams
whose type ids and predicate ids are disjoint. -/
theorem bulk_load_sound (hash_u64 : Nat → Nat) (versatile : Bool) (g0 : GStore)
    (spo ops : List triple_t) (cfg : Config g0) (st : Streams spo ops) :
    bulk_load hash_u64 versatile g0 spo ops ≠ .nofuel ∧
    ∀ g2, bulk_load hash_u64 versatile g0 spo ops = .ok g2 → TypesApart spo := by
  obtain ⟨n1, _, n3⟩ := insert_normal_loaded hash_u64 versatile g0 spo ops cfg st
  cases hn : insert_normal hash_u64 versatile (refresh g0) spo ops with
  | nofuel => exact absurd hn n1
  | abort =>
    simp only [bulk_load, hn, Outcome.bind]
    exact ⟨(fun h => nomatch h), (fun _ h => nomatch h)⟩
  | ok g1 =>
    obtain ⟨ld, _, _⟩ := n3 g1 hn
    obtain ⟨s1, s2, s3⟩ := @normal_plan_scannable versatile spo ops st
    obtain ⟨k1, k2⟩ := insert_index_sound hash_u64 versatile ld (normal_plan_loadable st)
      s1 s2 s3
    simp only [bulk_load, hn, Outcome.bind]
    exact ⟨k1, fun g2 h2 => types_apart_of_indexable st (k2 g2 h2)⟩

/-! ### Looking up the keys of the index build -/

theorem Loaded.occupies_iff {hash_u64 : Nat → Nat} {g : GStore} {L : List Put}
    (ld : Loaded hash_u64 g L) {k : ikey_t} (hk : k ≠ ikey_t.zero) :
    g.occupies k ↔ ∃ p, p ∈ L ∧ p.key = k := by
  constructor
  · rintro ⟨c, j, hc, hj, e⟩
    obtain ⟨p, hp, hpk⟩ := ld.only c j hc hj (by rw [e]; exact hk)
    exact ⟨p, hp, hpk.trans e⟩
  · rintro ⟨p, hp, e⟩
    obtain ⟨c, j, _, a1, a2, a3, _⟩ := ld.holds p hp
    exact ⟨c, j, a1, a2, a3.trans e⟩

/-- A lookup that returns a list found the pair of the loaded store with that
key. -/
theorem Loaded.lookup_inv {hash_u64 : Nat → Nat} {g : GStore} {L : List Put}
    (ld : Loaded hash_u64 g L) (hl : Loadable L) {vid d pid n : Nat} {l : List Nat}
    (hne : (⟨vid, pid, d⟩ : ikey_t) ≠ ikey_t.zero)
    (h : get_edges_local hash_u64 g vid d pid = .ok (n, some l)) :
    (⟨vid, pid, d, l⟩ : Put) ∈ L := by
  by_cases hex : ∃ p, p ∈ L ∧ p.key = ⟨vid, pid, d⟩
  · obtain ⟨p, hp, e⟩ := hex
    have hlk := ld.lookup hp (hl.valid p hp)
    have e1 : p.vid = vid := congrArg ikey_t.vid e
    have e2 : p.pid = pid := congrArg ikey_t.pid e
    have e3 : p.d = d := congrArg ikey_t.dir e
    rw [e1, e2, e3, h] at hlk
    injection hlk with hlk
    injection hlk with _ hlk
    injection hlk with hlk
    have : p = ⟨vid, pid, d, l⟩ := by
      cases p
      simp only [Put.mk.injEq]
      exact ⟨e1, e2, e3, hlk.symm⟩
    rw [← this]
    exact hp
  · exfalso
    have hnone := ld.lookup_none (k := ⟨vid, pid, d⟩) (fun p hp e => hex ⟨p, hp, e⟩) hne
    simp only [get_edges_local] at h
    cases hmk : ikey_t.make vid pid d with
    | nofuel => rw [hmk] at h; exact nomatch h
    | abort => rw [hmk] at h; exact nomatch h
    | ok key =>
      have hkey : key = ⟨vid, pid, d⟩ := by
        simp only [ikey_t.make] at hmk
        split_ifs at hmk with hc
        injection hmk with hmk
        rw [← hmk]
        simp only [ikey_t.mk.injEq]
        exact ⟨hc.1, hc.2.2, hc.2.1⟩
      rw [hmk, hkey] at h
      simp only [Outcome.bind, hnone] at h
      exact nomatch h

theorem lookup_index_put {hash_u64 : Nat → Nat} {versatile : Bool} {g2 : GStore}
    {L X : List Put} {m : IndexMaps}
    (ld2 : Loaded hash_u64 g2 (L ++ index_plan versatile m)) (ix : Indexable L)
    (hs : Scanned IndexMaps.empty m X) (hperm : X.Perm L) {p : Put}
    (hp : p ∈ index_plan versatile m) :
    get_edges_local hash_u64 g2 p.vid p.d p.pid = .ok (p.vals.length, some p.vals) :=
  ld2.lookup (List.mem_append_right _ hp)
    ((index_plan_kind hs (fun _ => hperm.mem_iff) hp).put_valid ix.loadable ix.types)

theorem lookup_tidx {hash_u64 : Nat → Nat} {versatile : Bool} {g2 : GStore}
    {L X : List Put} {m : IndexMaps}
    (ld2 : Loaded hash_u64 g2 (L ++ index_plan versatile m)) (ix : Indexable L)
    (hs : Scanned IndexMaps.empty m X) (hperm : X.Perm L) {t : Nat}
    (hne : tidx_list L t ≠ []) :
    ∃ l, get_edges_local hash_u64 g2 0 IN t = .ok (l.length, some l) ∧
      l.Perm (tidx_list L t) := by
  have hpm := tidx_list_perm hperm t
  have hne2 : tidx_list X t ≠ [] := by
    intro e
    rw [e] at hpm
    exact hne hpm.symm.eq_nil
  have hk := mem_map_plan (d := IN) ((hs.keys_t _).2 (Or.inr hne2))
  have hmem : (⟨0, t, IN, map_get m.tidx_map t⟩ : Put) ∈ index_plan versatile m := by
    simp only [index_plan]
    exact List.mem_append_left _ hk
  have hlk := lookup_index_put ld2 ix hs hperm hmem
  have e : map_get m.tidx_map t = tidx_list X t := by
    rw [hs.tidx t]
    rfl
  simp only [e] at hlk
  exact ⟨_, hlk, hpm⟩

theorem lookup_pidx_in {hash_u64 : Nat → Nat} {versatile : Bool} {g2 : GStore}
    {L X : List Put} {m : IndexMaps}
    (ld2 : Loaded hash_u64 g2 (L ++ index_plan versatile m)) (ix : Indexable L)
    (hs : Scanned IndexMaps.empty m X) (hperm : X.Perm L) {k : Nat}
    (hne : pidx_in_list L k ≠ []) :
    ∃ l, get_edges_local hash_u64 g2 0 IN k = .ok (l.length, some l) ∧
      l.Perm (pidx_in_list L k) := by
  have hpm := pidx_in_list_perm hperm k
  have hne2 : pidx_in_list X k ≠ [] := by
    intro e
    rw [e] at hpm
    exact hne hpm.symm.eq_nil
  have hk := mem_map_plan (d := IN) ((hs.keys_in _).2 (Or.inr hne2))
  have hmem : (⟨0, k, IN, map_get m.pidx_in_map k⟩ : Put) ∈ index_plan versatile m := by
    simp only [index_plan]
    exact List.mem_append_right _ (List.mem_append_left _ hk)
  have hlk := lookup_index_put ld2 ix hs hperm hmem
  have e : map_get m.pidx_in_map k = pidx_in_list X k := by
    rw [hs.pin k]
    rfl
  simp only [e] at hlk
  exact ⟨_, hlk, hpm⟩

theorem lookup_pidx_out {hash_u64 : Nat → Nat} {versatile : Bool} {g2 : GStore}
    {L X : List Put} {m : IndexMaps}
    (ld2 : Loaded hash_u64 g2 (L ++ index_plan versatile m)) (ix : Indexable L)
    (hs : Scanned IndexMaps.empty m X) (hperm : X.Perm L) {k : Nat}
    (hne : pidx_out_list L k ≠ []) :
    ∃ l, get_edges_local hash_u64 g2 0 OUT k = .ok (l.length, some l) ∧
      l.Perm (pidx_out_list L k) := by
  have hpm := pidx_out_list_perm hperm k
  have hne2 : pidx_out_list X k ≠ [] := by
    intro e
    rw [e] at hpm
    exact hne hpm.symm.eq_nil
  have hk := mem_map_plan (d := OUT) ((hs.keys_out _).2 (Or.inr hne2))
  have hmem : (⟨0, k, OUT, map_get m.pidx_out_map k⟩ : Put) ∈ index_plan versatile m := by
    simp only [index_plan]
    exact List.mem_append_right _ (List.mem_append_right _ (List.mem_append_left _ hk))
  have hlk := lookup_index_put ld2 ix hs hperm hmem
  have e : map_get m.pidx_out_map k = pidx_out_list X k := by
    rw [hs.pout k]
    rfl
  simp only [e] at hlk
  exact ⟨_, hlk, hpm⟩

/-! ### No vertex is listed twice -/

theorem pidx_in_list_nodup {L : List Put} (hl : Loadable L) (k : Nat) :
    (pidx_in_list L k).Nodup := by
  simp only [pidx_in_list, List.Nodup, List.pairwise_map]
  refine List.Pairwise.imp_of_mem ?_ (hl.distinct.filter _)
  intro a b ha hb hab e
  rw [List.mem_filter] at ha hb
  have fa := of_decide_eq_true ha.2
  have fb := of_decide_eq_true hb.2
  have da := (hl.valid a ha.1).2.2.1
  have db := (hl.valid b hb.1).2.2.1
  apply hab
  have e3 : a.d = b.d := by
    have h1 := fa.1
    have h2 := fb.1
    simp only [IN, NBITS_DIR] at h1 h2 da db
    omega
  simp only [Put.key, ikey_t.mk.injEq]
  exact ⟨e, fa.2.1.trans fb.2.1.symm, e3⟩

theorem pidx_out_list_nodup {L : List Put} (hl : Loadable L) (k : Nat) :
    (pidx_out_list L k).Nodup := by
  simp only [pidx_out_list, List.Nodup, List.pairwise_map]
  refine List.Pairwise.imp_of_mem ?_ (hl.distinct.filter _)
  intro a b ha hb hab e
  rw [List.mem_filter] at ha hb
  have fa := of_decide_eq_true ha.2
  have fb := of_decide_eq_true hb.2
  apply hab
  simp only [Put.key, ikey_t.mk.injEq]
  exact ⟨e, fa.2.1.trans fb.2.1.symm, fa.1.trans fb.1.symm⟩

theorem tidx_list_nodup {L : List Put} (hl : Loadable L)
    (hnd : ∀ p, p ∈ L → p.d ≠ IN → p.pid = TYPE_ID → p.vals.Nodup) (t : Nat) :
    (tidx_list L t).Nodup := by
  induction L with
  | nil => exact List.nodup_nil
  | cons a L ih =>
    have hl2 : Loadable L :=
      ⟨fun p hp => hl.valid p (List.mem_cons_of_mem _ hp), (List.pairwise_cons.1 hl.distinct).2⟩
    have ih2 := ih hl2 (fun p hp => hnd p (List.mem_cons_of_mem _ hp))
    simp only [tidx_list]
    rw [List.nodup_append]
    refine ⟨?_, ih2, ?_⟩
    · simp only [tidx_of]
      split_ifs with h
      · have hc := List.nodup_iff_count_le_one.1 (hnd a (List.mem_cons_self _ _) h.1 h.2) t
        rcases Nat.le_one_iff_eq_zero_or_eq_one.1 hc with e | e
        · rw [e]; exact List.nodup_nil
        · rw [e]; exact List.nodup_singleton _
      · exact List.nodup_nil
    · intro v hv hv2
      obtain ⟨a1, a2, _, a4⟩ := mem_tidx_of_iff.1 hv
      obtain ⟨p, hp, b1, b2, _, b4⟩ := mem_tidx_list_iff.1 hv2
      have da := (hl.valid a (List.mem_cons_self _ _)).2.2.1
      have db := (hl.valid p (List.mem_cons_of_mem _ hp)).2.2.1
      apply (List.pairwise_cons.1 hl.distinct).1 p hp
      have e3 : a.d = p.d := by
        simp only [IN, NBITS_DIR] at a1 b1 da db
        omega
      simp only [Put.key, ikey_t.mk.injEq]
      exact ⟨a4.trans b4.symm, a2.trans b2.symm, e3⟩

/-- The objects of a run of `spo` are pairwise different. -/
theorem slice_map_nodup {spo : List triple_t} (hs : spo.Pairwise spo_lt) {a b : Nat}
    (hb : b ≤ spo.length) (hrun : ∀ k, a ≤ k → k < b → same_run (fun t => t.s) spo a k) :
    (slice_map spo (fun t => t.o) a b).Nodup := by
  simp only [slice_map]
  refine List.Nodup.map_on ?_ (List.nodup_range _)
  intro i hi j hj e
  rw [List.mem_range] at hi hj
  by_contra hne
  have key : ∀ i j, i < j → j < b - a →
      (triple_at spo (a + i)).o ≠ (triple_at spo (a + j)).o := by
    intro i j hij hj
    have hlt := pairwise_triple_at hs (i := a + i) (j := a + j) (by omega) (by omega)
    have r1 := hrun (a + i) (by omega) (by omega)
    have r2 := hrun (a + j) (by omega) (by omega)
    simp only [same_run] at r1 r2
    simp only [spo_lt] at hlt
    omega
  rcases Nat.lt_or_gt_of_ne hne with h | h
  · exact key i j h hj e
  · exact key j i h hi e.symm

theorem normal_plan_types_nodup {versatile : Bool} {spo ops : List triple_t}
    (st : Streams spo ops) :
    ∀ p, p ∈ normal_plan versatile spo ops → p.d ≠ IN → p.pid = TYPE_ID → p.vals.Nodup := by
  have h01 : PREDICATE_ID ≠ TYPE_ID := by decide
  intro p hp hd hpid
  rcases normal_plan_shape hp with h | h
  · rcases h with ⟨a, b, _, _, h3, h4, _, h6⟩ | ⟨_, a, _, _, _, h4, _, _, _⟩
    · rw [h6]
      exact slice_map_nodup st.sorted_spo h3 h4
    · exact absurd (h4.symm.trans hpid) h01
  · exact absurd h.dir hd

/-! ### The index lists in terms of the store before the index build -/

theorem dir_out_of_ne {p : Put} (hv : p.valid) (h : p.d ≠ IN) : p.d = OUT := by
  have hd := hv.2.2.1
  simp only [IN, OUT, NBITS_DIR] at *
  omega

theorem mem_pidx_in_occ {hash_u64 : Nat → Nat} {g1 : GStore} {L : List Put}
    (ld : Loaded hash_u64 g1 L) (hl : Loadable L) {k : Nat} (h0 : k ≠ PREDICATE_ID)
    (h1 : k ≠ TYPE_ID) (w : Nat) :
    w ∈ pidx_in_list L k ↔ g1.occupies ⟨w, k, OUT⟩ := by
  have hk : (⟨w, k, OUT⟩ : ikey_t) ≠ ikey_t.zero := fun e => h0 (congrArg ikey_t.pid e)
  have hio : OUT ≠ IN := by decide
  rw [ld.occupies_iff hk, mem_pidx_in_list_iff]
  constructor
  · rintro ⟨p, hp, a1, a2, _, _, a5⟩
    refine ⟨p, hp, ?_⟩
    simp only [Put.key, ikey_t.mk.injEq]
    exact ⟨a5, a2, dir_out_of_ne (hl.valid p hp) a1⟩
  · rintro ⟨p, hp, e⟩
    have e1 : p.vid = w := congrArg ikey_t.vid e
    have e2 : p.pid = k := congrArg ikey_t.pid e
    have e3 : p.d = OUT := congrArg ikey_t.dir e
    exact ⟨p, hp, by rw [e3]; exact hio, e2, h0, h1, e1⟩

theorem mem_pidx_out_occ {hash_u64 : Nat → Nat} {g1 : GStore} {L : List Put}
    (ld : Loaded hash_u64 g1 L) {k : Nat} (h0 : k ≠ PREDICATE_ID)
    (h1 : k ≠ TYPE_ID) (w : Nat) :
    w ∈ pidx_out_list L k ↔ g1.occupies ⟨w, k, IN⟩ := by
  have hk : (⟨w, k, IN⟩ : ikey_t) ≠ ikey_t.zero := fun e => h0 (congrArg ikey_t.pid e)
  rw [ld.occupies_iff hk, mem_pidx_out_list_iff]
  constructor
  · rintro ⟨p, hp, a1, a2, _, _, a5⟩
    refine ⟨p, hp, ?_⟩
    simp only [Put.key, ikey_t.mk.injEq]
    exact ⟨a5, a2, a1⟩
  · rintro ⟨p, hp, e⟩
    have e1 : p.vid = w := congrArg ikey_t.vid e
    have e2 : p.pid = k := congrArg ikey_t.pid e
    have e3 : p.d = IN := congrArg ikey_t.dir e
    exact ⟨p, hp, e3, e2, h0, h1, e1⟩

theorem mem_tidx_lookup {hash_u64 : Nat → Nat} {g1 : GStore} {L : List Put}
    (ld : Loaded hash_u64 g1 L) (hl : Loadable L) (t w : Nat) :
    w ∈ tidx_list L t ↔
      ∃ ts, get_edges_local hash_u64 g1 w OUT TYPE_ID = .ok (ts.length, some ts) ∧ t ∈ ts := by
  have hio : OUT ≠ IN := by decide
  rw [mem_tidx_list_iff]
  constructor
  · rintro ⟨p, hp, a1, a2, a3, a4⟩
    have hlk := ld.lookup hp (hl.valid p hp)
    rw [a4, a2, dir_out_of_ne (hl.valid p hp) a1] at hlk
    exact ⟨_, hlk, a3⟩
  · rintro ⟨ts, hts, ht⟩
    have h10 : TYPE_ID ≠ 0 := by decide
    have hk : (⟨w, TYPE_ID, OUT⟩ : ikey_t) ≠ ikey_t.zero := fun e =>
      h10 (congrArg ikey_t.pid e)
    exact ⟨_, ld.lookup_inv hl hk hts, hio, rfl, ht, rfl⟩

theorem count_one_of_perm {l l2 : List Nat} (hp : l.Perm l2) (hn : l2.Nodup) {v : Nat}
    (hv : v ∈ l2) : l.count v = 1 := by
  rw [hp.count_eq]
  exact List.count_eq_one_of_mem hn hv



/-! ### Online insertion: the index region stays well formed -/

theorem Outcome.bind_ok {α β : Type} {x : Outcome α} {f : α → Outcome β} {b : β}
    (h : x.bind f = .ok b) : ∃ a, x = .ok a ∧ f a = .ok b := by
  cases x with
  | ok a => exact ⟨a, rfl, h⟩
  | abort => exact nomatch h
  | nofuel => exact nomatch h

theorem SameKeys.rfl_keys (g : GStore) : SameKeys g g := ⟨fun _ => rfl, rfl, rfl, rfl, rfl⟩

theorem SameKeys.chain {a b c : GStore} (h1 : SameKeys a b) (h2 : SameKeys b c) :
    SameKeys a c :=
  ⟨fun i => (h2.1 i).trans (h1.1 i), h2.2.1.trans h1.2.1, h2.2.2.1.trans h1.2.2.1,
    h2.2.2.2.1.trans h1.2.2.2.1, h2.2.2.2.2.trans h1.2.2.2.2⟩

theorem SameKeys.wf_of {hash_u64 : Nat → Nat} {g g2 : GStore} (h : SameKeys g g2)
    (wf : WF hash_u64 g) : WF hash_u64 g2 :=
  wf.congr h.1 h.2.1 h.2.2.1 h.2.2.2.1 h.2.2.2.2

theorem same_keys_set_edge (g : GStore) (i v : Nat) : SameKeys g (g.set_edge i v) :=
  ⟨fun _ => rfl, rfl, rfl, rfl, rfl⟩

theorem same_keys_memcpy (g : GStore) (d s n : Nat) : SameKeys g (g.memcpy d s n) :=
  ⟨fun _ => rfl, rfl, rfl, rfl, rfl⟩

theorem same_keys_set_ptr (g : GStore) (i : Nat) (p : iptr_t) : SameKeys g (g.set_ptr i p) := by
  refine ⟨fun j => ?_, rfl, rfl, rfl, rfl⟩
  simp only [GStore.set_ptr]
  split_ifs with h
  · rw [h]
  · rfl

theorem same_keys_insert_sz {σ : Type} (E : DynEnv σ) (g : GStore) (f s o : Nat) :
    SameKeys g (insert_sz E g f s o) := same_keys_set_edge _ _ _

theorem sweep_free_g {σ : Type} (E : DynEnv σ) (st : DStore σ) : (sweep_free E st).g = st.g :=
  rfl

theorem alloc_edges_same_keys {σ : Type} {E : DynEnv σ} {st : DStore σ} {n : Nat} {tid : Int}
    {r : Nat × DStore σ} (h : st.alloc_edges E n tid = .ok r) : SameKeys st.g r.2.g := by
  simp only [DStore.alloc_edges] at h
  obtain ⟨a, _, h2⟩ := Outcome.bind_ok h
  injection h2 with h2
  rw [← h2]
  cases hc : E.global_enable_caching
  · simp only [hc, Bool.false_eq_true, if_false]
    exact same_keys_insert_sz _ _ _ _ _
  · simp only [hc, if_true]
    exact same_keys_insert_sz _ _ _ _ _

/-- The index region after `insert_vertex_edge` is the one `insert_key` left. -/
theorem insert_vertex_edge_keys {σ : Type} {E : DynEnv σ} {hash_u64 : Nat → Nat}
    {st : DStore σ} {key : ikey_t} {value : Nat} {d : Bool} {r : Bool × Bool × DStore σ}
    (h : insert_vertex_edge E hash_u64 st key value d = .ok r) :
    ∃ s g1, insert_key hash_u64 st.g key false = .ok (s, g1) ∧ SameKeys g1 r.2.2.g := by
  simp only [insert_vertex_edge] at h
  obtain ⟨⟨s, g1⟩, h1, h2⟩ := Outcome.bind_ok h
  refine ⟨s, g1, h1, ?_⟩
  simp only at h2
  split_ifs at h2 with c1 c2 c3 c4
  · obtain ⟨a, k1, k2⟩ := Outcome.bind_ok h2
    obtain ⟨p, _, k3⟩ := Outcome.bind_ok k2
    injection k3 with k3
    rw [← k3]
    exact (alloc_edges_same_keys k1).chain
      ((same_keys_set_edge _ _ _).chain (same_keys_set_ptr _ _ _))
  · injection h2 with h2
    rw [← h2]
    exact SameKeys.rfl_keys _
  · obtain ⟨a, k1, k2⟩ := Outcome.bind_ok h2
    obtain ⟨p, _, k3⟩ := Outcome.bind_ok k2
    injection k3 with k3
    rw [← k3]
    exact (alloc_edges_same_keys k1).chain ((same_keys_memcpy _ _ _ _).chain
      ((same_keys_set_edge _ _ _).chain ((same_keys_insert_sz _ _ _ _ _).chain
        (same_keys_set_ptr _ _ _))))
  · obtain ⟨a, k1, k2⟩ := Outcome.bind_ok h2
    obtain ⟨p, _, k3⟩ := Outcome.bind_ok k2
    injection k3 with k3
    rw [← k3]
    exact (alloc_edges_same_keys k1).chain ((same_keys_memcpy _ _ _ _).chain
      ((same_keys_set_edge _ _ _).chain ((same_keys_insert_sz _ _ _ _ _).chain
        (same_keys_set_ptr _ _ _))))
  · injection h2 with h2
    rw [← h2]
    exact (same_keys_insert_sz _ _ _ _ _).chain
      ((same_keys_set_edge _ _ _).chain (same_keys_set_ptr _ _ _))

theorem insert_vertex_edge_wf {σ : Type} {E : DynEnv σ} {hash_u64 : Nat → Nat}
    {st : DStore σ} {key : ikey_t} {value : Nat} {d : Bool} {r : Bool × Bool × DStore σ}
    (wf : WF hash_u64 st.g) (h : insert_vertex_edge E hash_u64 st key value d = .ok r) :
    WF hash_u64 r.2.2.g := by
  obtain ⟨s, g1, h1, h2⟩ := insert_vertex_edge_keys h
  exact h2.wf_of (insert_key_wf wf h1)

/-! ### What every `insert_vertex_edge` preserves, the online calls preserve -/

theorem insert_indexed_pres {σ : Type} {E : DynEnv σ} {hash_u64 : Nat → Nat}
    (P : DStore σ → Prop)
    (hP : ∀ st key v d r, P st → insert_vertex_edge E hash_u64 st key v d = .ok r → P r.2.2)
    {inner : Bool} {st st2 : DStore σ} {k kb k2 : Nat × Nat × Nat} {v v2 : Nat}
    (h0 : P st) (h : insert_indexed E hash_u64 inner st k kb v k2 v2 = .ok st2) : P st2 := by
  simp only [insert_indexed] at h
  obtain ⟨key, _, h⟩ := Outcome.bind_ok h
  obtain ⟨kb, _, h⟩ := Outcome.bind_ok h
  obtain ⟨r, h1, h⟩ := Outcome.bind_ok h
  have p1 := hP _ _ _ _ _ h0 h1
  split_ifs at h with c1
  · obtain ⟨ex, _, h⟩ := Outcome.bind_ok h
    split_ifs at h with c2
    · obtain ⟨key2, _, h⟩ := Outcome.bind_ok h
      obtain ⟨r2, h2, h⟩ := Outcome.bind_ok h
      injection h with h
      rw [← h]
      exact hP _ _ _ _ _ p1 h2
    · injection h with h
      rw [← h]
      exact p1
  · injection h with h
    rw [← h]
    exact p1

theorem insert_triple_out_pres {σ : Type} {E : DynEnv σ} {hash_u64 : Nat → Nat}
    (P : DStore σ → Prop)
    (hP : ∀ st key v d r, P st → insert_vertex_edge E hash_u64 st key v d = .ok r → P r.2.2)
    {versatile : Bool} {st st2 : DStore σ} {t : triple_t} {check_dup : Bool}
    (h0 : P st) (h : insert_triple_out E hash_u64 versatile st t check_dup = .ok st2) :
    P st2 := by
  simp only [insert_triple_out] at h
  by_cases c0 : t.p = TYPE_ID
  · rw [if_pos c0] at h
    obtain ⟨key, _, h⟩ := Outcome.bind_ok h
    obtain ⟨r1, h1, h⟩ := Outcome.bind_ok h
    have p1 := hP _ _ _ _ _ h0 h1
    obtain ⟨st3, h3, h⟩ := Outcome.bind_ok h
    have p3 : P st3 := by
      split_ifs at h3 with c1
      · exact insert_indexed_pres P hP p1 h3
      · injection h3 with h3
        rw [← h3]
        exact p1
    split_ifs at h with c2
    · obtain ⟨key4, _, h⟩ := Outcome.bind_ok h
      obtain ⟨r4, h4, h⟩ := Outcome.bind_ok h
      have p4 := hP _ _ _ _ _ p3 h4
      split_ifs at h with c3
      · obtain ⟨key5, _, h⟩ := Outcome.bind_ok h
        obtain ⟨r5, h5, h⟩ := Outcome.bind_ok h
        injection h with h
        rw [← h]
        exact hP _ _ _ _ _ p4 h5
      · injection h with h
        rw [← h]
        exact p4
    · injection h with h
      rw [← h]
      exact p3
  · rw [if_neg c0] at h
    obtain ⟨key, _, h⟩ := Outcome.bind_ok h
    obtain ⟨r1, h1, h⟩ := Outcome.bind_ok h
    have p1 := hP _ _ _ _ _ h0 h1
    by_cases c1 : r1.1 = true
    · rw [if_pos c1] at h
      obtain ⟨st3, h3, h⟩ := Outcome.bind_ok h
      have p3 := insert_indexed_pres P hP p1 h3
      split_ifs at h with c2
      · exact insert_indexed_pres P hP p3 h
      · injection h with h
        rw [← h]
        exact p3
    · rw [if_neg c1] at h
      injection h with h
      rw [← h]
      exact p1

theorem insert_triple_in_pres {σ : Type} {E : DynEnv σ} {hash_u64 : Nat → Nat}
    (P : DStore σ → Prop)
    (hP : ∀ st key v d r, P st → insert_vertex_edge E hash_u64 st key v d = .ok r → P r.2.2)
    {versatile : Bool} {st st2 : DStore σ} {t : triple_t} {check_dup : Bool}
    (h0 : P st) (h : insert_triple_in E hash_u64 versatile st t check_dup = .ok st2) :
    P st2 := by
  simp only [insert_triple_in] at h
  by_cases c0 : t.p = TYPE_ID
  · rw [if_pos c0] at h
    injection h with h
    rw [← h]
    exact h0
  · rw [if_neg c0] at h
    obtain ⟨key, _, h⟩ := Outcome.bind_ok h
    obtain ⟨r1, h1, h⟩ := Outcome.bind_ok h
    have p1 := hP _ _ _ _ _ h0 h1
    by_cases c1 : r1.1 = true
    · rw [if_pos c1] at h
      obtain ⟨st3, h3, h⟩ := Outcome.bind_ok h
      have p3 := insert_indexed_pres P hP p1 h3
      split_ifs at h with c2
      · exact insert_indexed_pres P hP p3 h
      · injection h with h
        rw [← h]
        exact p3
    · rw [if_neg c1] at h
      injection h with h
      rw [← h]
      exact p1

theorem run_calls_pres {σ : Type} {E : DynEnv σ} {hash_u64 : Nat → Nat}
    (P : DStore σ → Prop)
    (hP : ∀ st key v d r, P st → insert_vertex_edge E hash_u64 st key v d = .ok r → P r.2.2)
    {versatile : Bool} (calls : List Call) : ∀ {st st2 : DStore σ}, P st →
    run_calls E hash_u64 versatile st calls = .ok st2 → P st2 := by
  induction calls with
  | nil =>
    intro st st2 h0 h
    injection h with h
    rw [← h]
    exact h0
  | cons c cs ih =>
    intro st st2 h0 h
    simp only [run_calls] at h
    obtain ⟨st1, h1, h⟩ := Outcome.bind_ok h
    refine ih ?_ h
    simp only [Call.run] at h1
    split_ifs at h1
    · exact insert_triple_out_pres P hP h0 h1
    · exact insert_triple_in_pres P hP h0 h1

/-- Every store reached by online calls from a refreshed store has a well-formed
index region. -/
theorem run_calls_wf {σ : Type} {E : DynEnv σ} {hash_u64 : Nat → Nat} {versatile : Bool}
    {g0 : GStore} {heap : σ} (cfg : Config g0) {calls : List Call} {st : DStore σ}
    (h : run_calls E hash_u64 versatile (DStore.fresh g0 heap) calls = .ok st) :
    WF hash_u64 st.g :=
  run_calls_pres (fun s => WF hash_u64 s.g)
    (fun _ _ _ _ _ wf hr => insert_vertex_edge_wf wf hr) calls
    (refresh_wf hash_u64 g0 cfg) h

/-! ### Re-inserting a value that is already listed -/

theorem get_edges_local_inv {hash_u64 : Nat → Nat} {g : GStore} (wf : WF hash_u64 g)
    {vid d pid n : Nat} {l : List Nat}
    (h : get_edges_local hash_u64 g vid d pid = .ok (n, some l)) :
    ikey_t.make vid pid d = .ok ⟨vid, pid, d⟩ ∧ (⟨vid, pid, d⟩ : ikey_t) ≠ ikey_t.zero ∧
    ∃ c j, c < g.used ∧ j < ASSOCIATIVITY - 1 ∧ g.key_at c j = ⟨vid, pid, d⟩ ∧
      n = (g.vertices (c * ASSOCIATIVITY + j)).ptr.size ∧
      l = g.read_edges (g.vertices (c * ASSOCIATIVITY + j)).ptr.off
        (g.vertices (c * ASSOCIATIVITY + j)).ptr.size := by
  simp only [get_edges_local] at h
  obtain ⟨key, hmk, h⟩ := Outcome.bind_ok h
  have hkey : key = ⟨vid, pid, d⟩ := by
    simp only [ikey_t.make] at hmk
    split_ifs at hmk with hc
    injection hmk with hmk
    rw [← hmk]
    simp only [ikey_t.mk.injEq]
    exact ⟨hc.1, hc.2.2, hc.2.1⟩
  subst hkey
  obtain ⟨v, hv, h⟩ := Outcome.bind_ok h
  simp only [get_vertex_local] at hv
  obtain ⟨r, hr, hv⟩ := Outcome.bind_ok hv
  obtain ⟨r2, e1, e2, _⟩ := get_slot_local_spec wf (⟨vid, pid, d⟩ : ikey_t)
  rw [hr] at e1
  injection e1 with e1
  subst e1
  cases r with
  | none =>
    injection hv with hv
    rw [← hv] at h
    exact nomatch h
  | some s =>
    injection hv with hv
    obtain ⟨c, j, hc, hj, hs, hk⟩ := e2 s rfl
    subst hs
    have hvk : v.key = ⟨vid, pid, d⟩ := by rw [← hv]; exact hk
    split_ifs at h with he
    · injection h with h
      injection h with _ h2
      exact nomatch h2
    injection h with h
    injection h with h1 h2
    injection h2 with h2
    refine ⟨hmk, ?_, c, j, hc, hj, hk, ?_, ?_⟩
    · intro ez
      apply he
      rw [hvk, ez]
      rfl
    · rw [hv]; exact h1.symm
    · rw [hv]; exact h2.symm

theorem is_dup_iff (g : GStore) (v : vertex_t) (value : Nat) :
    is_dup g v value = true ↔ value ∈ g.read_edges v.ptr.off v.ptr.size := by
  simp only [is_dup, GStore.read_edges, List.any_eq_true, List.mem_range, decide_eq_true_eq,
    List.mem_map]

/-- With dedup requested, inserting a value that the list of an existing key
already holds changes nothing and reports a duplicate. -/
theorem insert_vertex_edge_dup {σ : Type} (E : DynEnv σ) {hash_u64 : Nat → Nat}
    {st : DStore σ} (wf : WF hash_u64 st.g) {vid d pid n value : Nat} {l : List Nat}
    (h : get_edges_local hash_u64 st.g vid d pid = .ok (n, some l)) (hv : value ∈ l) :
    ikey_t.make vid pid d = .ok ⟨vid, pid, d⟩ ∧
    insert_vertex_edge E hash_u64 st ⟨vid, pid, d⟩ value true = .ok (false, true, st) := by
  obtain ⟨hmk, hne, c, j, hc, hj, hk, hn, hl⟩ := get_edges_local_inv wf h
  refine ⟨hmk, ?_⟩
  have hins := insert_key_present wf hne hc hj hk false
  simp only [Bool.false_eq_true, if_false] at hins
  simp only [insert_vertex_edge, hins, Outcome.bind]
  have hsz : (st.g.vertices (c * ASSOCIATIVITY + j)).ptr.size ≠ 0 := by
    intro e
    rw [e] at hl
    rw [hl] at hv
    simp [GStore.read_edges] at hv
  rw [if_neg hsz]
  have hd : is_dup st.g (st.g.vertices (c * ASSOCIATIVITY + j)) value = true := by
    rw [is_dup_iff, ← hl]
    exact hv
  simp only [hd, Bool.and_self, if_true]

/-! ### `check_key_exist` -/

theorem check_key_exist_loop_spec {hash_u64 : Nat → Nat} {g : GStore} (wf : WF hash_u64 g)
    {key : ikey_t} (hkey : key ≠ ikey_t.zero) : ∀ fuel b, b < g.used → g.budget b ≤ fuel →
    ∃ r, check_key_exist_loop key g fuel (b * ASSOCIATIVITY) = .ok r ∧
      (r = true ↔ ∃ c j, OnChain g b c ∧ j < ASSOCIATIVITY - 1 ∧ g.key_at c j = key) := by
  intro fuel
  induction fuel with
  | zero =>
    intro b hb hf
    have := wf.budget_pos hb
    omega
  | succ fuel ih =>
    intro b hb hf
    unfold check_key_exist_loop
    have hslot : b * ASSOCIATIVITY < g.num_slots := by
      have := wf.slot_lt hb (j := 0) (by decide)
      omega
    rw [if_pos hslot]
    cases hp : probe_bucket g key (ASSOCIATIVITY - 1) (b * ASSOCIATIVITY) with
    | dup t =>
      obtain ⟨h1, h2, h3, _⟩ := probe_bucket_dup hp
      refine ⟨true, rfl, ?_⟩
      simp only [true_iff]
      refine ⟨b, t - b * ASSOCIATIVITY, OnChain.refl _, by omega, ?_⟩
      unfold GStore.key_at
      rw [← h3]
      congr 2
      omega
    | empty t =>
      obtain ⟨h1, h2, h3, h4, h5⟩ := probe_bucket_empty hp
      refine ⟨false, rfl, ?_⟩
      simp only [Bool.false_eq_true, false_iff]
      rintro ⟨c, j, hc, hj, hk⟩
      have ht : g.key_at b (t - b * ASSOCIATIVITY) = ikey_t.zero := by
        unfold GStore.key_at
        rw [← h4]
        congr 2
        omega
      by_cases hcb : c = b
      · subst hcb
        rcases Nat.lt_or_ge (c * ASSOCIATIVITY + j) t with hlt | hge
        · exact (h5 _ (by omega) hlt).1 hk
        · rcases Nat.eq_or_lt_of_le hge with e | e
          · apply hkey
            rw [← hk]
            unfold GStore.key_at
            rw [← e]
            exact h4
          · exact wf.pfx c (t - c * ASSOCIATIVITY) j hb (by omega) hj
              (by rw [hk]; exact hkey) ht
      · have hl := (hc.next hcb).1
        exact wf.link_full b (t - b * ASSOCIATIVITY) hb hl (by omega) ht
    | full t =>
      obtain ⟨h1, h2⟩ := probe_bucket_full hp
      have hhere : ∀ j, j < ASSOCIATIVITY - 1 → g.key_at b j ≠ key := fun j hj =>
        (h2 _ (by omega) (by omega)).1
      have ht : t = b * ASSOCIATIVITY + (ASSOCIATIVITY - 1) := h1
      simp only []
      by_cases hl : g.link b = ikey_t.zero
      · have hl2 : (g.vertices t).key.is_empty = true := by
          rw [ht]
          exact (ikey_t.is_empty_iff _).2 hl
        simp only [hl2, not_true_eq_false, if_false]
        refine ⟨false, rfl, ?_⟩
        simp only [Bool.false_eq_true, false_iff]
        rintro ⟨c, j, hc, hj, hk⟩
        rw [hc.end_eq hl] at hk
        exact hhere j hj hk
      · have hl2 : ¬ (g.vertices t).key.is_empty = true := by
          rw [ht]
          exact fun h => hl ((ikey_t.is_empty_iff _).1 h)
        simp only [hl2, not_false_eq_true, if_true]
        have hb2 := (wf.link_ok _ hb hl).2.2.2.2
        have hlt := wf.budget_link hb hl
        have hv : (g.vertices t).key.vid = (g.link b).vid := by rw [ht]; rfl
        rw [hv]
        obtain ⟨r, hr, hiff⟩ := ih (g.link b).vid hb2 (by omega)
        refine ⟨r, hr, hiff.trans ⟨?_, ?_⟩⟩
        · rintro ⟨c, j, h1, h2, h3⟩
          exact ⟨c, j, OnChain.head hl h1, h2, h3⟩
        · rintro ⟨c, j, hc, hj, hk⟩
          by_cases hcb : c = b
          · rw [hcb] at hk
            exact absurd hk (hhere j hj)
          · exact ⟨c, j, (hc.next hcb).2, hj, hk⟩

/-- On a well-formed index region `check_key_exist` returns, and it says whether
the key sits in a data slot. -/
theorem check_key_exist_spec {hash_u64 : Nat → Nat} {g : GStore} (wf : WF hash_u64 g)
    {key : ikey_t} (hkey : key ≠ ikey_t.zero) :
    ∃ r, check_key_exist hash_u64 g key = .ok r ∧ (r = true ↔ g.occupies key) := by
  have hhome : home hash_u64 g key < g.num_buckets := Nat.mod_lt _ wf.nb_pos
  have hb : home hash_u64 g key < g.used := by
    simp only [GStore.used]
    omega
  have h2 : g.budget (home hash_u64 g key) = g.last_ext + 1 := by
    rw [GStore.budget, if_pos hhome]
  obtain ⟨r, hr, hiff⟩ :=
    check_key_exist_loop_spec wf hkey (g.last_ext + 1) _ hb (le_of_eq h2)
  refine ⟨r, hr, hiff.trans ⟨?_, ?_⟩⟩
  · rintro ⟨c, j, h1, h3, h4⟩
    exact ⟨c, j, (h1.bounds wf hb).1, h3, h4⟩
  · rintro ⟨c, j, hc, hj, hk⟩
    have := wf.placed c j hc hj (by rw [hk]; exact hkey)
    rw [hk] at this
    exact ⟨c, j, this, hj, hk⟩

/-! ### The edge heap -/

theorem b2e_e2b (n : Nat) : b2e (e2b n) = n := by
  simp [b2e, e2b, SIZEOF_EDGE]

theorem Apart.symm {a b : Nat × Nat} (h : Apart a b) : Apart b a := Or.symm h

theorem HeapInv.free_head {σ : Type} {E : DynEnv σ} {blocks : σ → List (Nat × Nat)}
    (ok : Malloc_OK E blocks) {heap : σ} {q : free_blk} {queue : List free_blk}
    {offs : Nat → Prop} (h : HeapInv blocks heap (q :: queue) offs) :
    HeapInv blocks (E.edge_allocator.free heap (e2b q.off)) queue offs := by
  have hnd := h.pend_nodup
  simp only [List.map_cons, List.nodup_cons] at hnd
  have hq := h.pend q (List.mem_cons_self _ _)
  constructor
  · rw [ok.free_ok]
    exact h.apart.filter _
  · intro blk hb
    rw [ok.free_ok] at hb
    exact h.pos blk (List.mem_of_mem_filter hb)
  · intro o ho
    obtain ⟨len, hl⟩ := h.held o ho
    refine ⟨len, ?_⟩
    rw [ok.free_ok, List.mem_filter]
    refine ⟨hl, ?_⟩
    simp only [ne_eq, decide_not, Bool.not_eq_true', decide_eq_false_iff_not]
    intro e
    exact hq.2 (by rw [← e]; exact ho)
  · intro q2 hq2
    obtain ⟨⟨len, hl⟩, hno⟩ := h.pend q2 (List.mem_cons_of_mem _ hq2)
    refine ⟨⟨len, ?_⟩, hno⟩
    rw [ok.free_ok, List.mem_filter]
    refine ⟨hl, ?_⟩
    simp only [ne_eq, decide_not, Bool.not_eq_true', decide_eq_false_iff_not]
    intro e
    exact hnd.1 (List.mem_map.2 ⟨q2, hq2, e⟩)
  · exact hnd.2

theorem sweep_free_loop_inv {σ : Type} {E : DynEnv σ} {blocks : σ → List (Nat × Nat)}
    (ok : Malloc_OK E blocks) {offs : Nat → Prop} :
    ∀ (queue : List free_blk) (heap : σ) (clock : Nat), HeapInv blocks heap queue offs →
      HeapInv blocks (sweep_free_loop E queue heap clock).2.1
        (sweep_free_loop E queue heap clock).1 offs := by
  intro queue
  induction queue with
  | nil => intro heap clock h; exact h
  | cons q queue ih =>
    intro heap clock h
    simp only [sweep_free_loop]
    split_ifs with hc
    · exact h
    · exact ih _ _ (h.free_head ok)

theorem HeapInv.malloc {σ : Type} {E : DynEnv σ} {blocks : σ → List (Nat × Nat)}
    (ok : Malloc_OK E blocks) {heap heap2 : σ} {queue : List free_blk} {offs : Nat → Prop}
    (h : HeapInv blocks heap queue offs) {n b : Nat} {tid : Int} (hn : 0 < n)
    (hm : E.edge_allocator.malloc heap (e2b n) tid = .ok (b, heap2)) :
    HeapInv blocks heap2 queue (fun o => offs o ∨ o = b2e b) ∧ ¬ offs (b2e b) ∧
    (b2e b, blksz E n) ∈ blocks heap2 ∧
    (∀ o len, (o, len) ∈ blocks heap → (o, len) ∈ blocks heap2 ∧ Apart (b2e b, blksz E n) (o, len))
    := by
  obtain ⟨e1, e2⟩ := ok.malloc_ok _ _ _ _ _ hm
  have hpos : 0 < blksz E n := lt_of_lt_of_le hn (ok.blk_ge n)
  have hne : ∀ o len, (o, len) ∈ blocks heap → o ≠ b2e b := by
    intro o len hl e
    have ha := e2 _ hl
    have hp := h.pos _ hl
    simp only [Apart] at ha hp
    omega
  refine ⟨⟨?_, ?_, ?_, ?_, h.pend_nodup⟩, ?_, ?_, ?_⟩
  · rw [e1, List.pairwise_cons]
    exact ⟨e2, h.apart⟩
  · intro blk hb
    rw [e1, List.mem_cons] at hb
    rcases hb with rfl | hb
    · exact hpos
    · exact h.pos blk hb
  · rintro o (ho | rfl)
    · obtain ⟨len, hl⟩ := h.held o ho
      exact ⟨len, by rw [e1]; exact List.mem_cons_of_mem _ hl⟩
    · exact ⟨_, by rw [e1]; exact List.mem_cons_self _ _⟩
  · intro q hq
    obtain ⟨⟨len, hl⟩, hno⟩ := h.pend q hq
    refine ⟨⟨len, by rw [e1]; exact List.mem_cons_of_mem _ hl⟩, ?_⟩
    rintro (ho | ho)
    · exact hno ho
    · exact hne _ _ hl ho
  · intro ho
    obtain ⟨len, hl⟩ := h.held _ ho
    exact hne _ _ hl rfl
  · rw [e1]; exact List.mem_cons_self _ _
  · intro o len hl
    exact ⟨by rw [e1]; exact List.mem_cons_of_mem _ hl, e2 _ hl⟩

theorem HeapInv.release {σ : Type} {E : DynEnv σ} {blocks : σ → List (Nat × Nat)}
    (ok : Malloc_OK E blocks) {heap : σ} {queue : List free_blk} {offs : Nat → Prop}
    (h : HeapInv blocks heap queue offs) {old : Nat} (ho : offs old) :
    HeapInv blocks (E.edge_allocator.free heap (e2b old)) queue (fun o => offs o ∧ o ≠ old) := by
  have hqne : ∀ q, q ∈ queue → q.off ≠ old := fun q hq e => (h.pend q hq).2 (by rw [e]; exact ho)
  constructor
  · rw [ok.free_ok]
    exact h.apart.filter _
  · intro blk hb
    rw [ok.free_ok] at hb
    exact h.pos blk (List.mem_of_mem_filter hb)
  · rintro o ⟨ho1, ho2⟩
    obtain ⟨len, hl⟩ := h.held o ho1
    refine ⟨len, ?_⟩
    rw [ok.free_ok, List.mem_filter]
    exact ⟨hl, by simpa using ho2⟩
  · intro q hq
    obtain ⟨⟨len, hl⟩, hno⟩ := h.pend q hq
    refine ⟨⟨len, ?_⟩, fun hx => hno hx.1⟩
    rw [ok.free_ok, List.mem_filter]
    exact ⟨hl, by simpa using hqne q hq⟩
  · exact h.pend_nodup

theorem HeapInv.postpone {σ : Type} {blocks : σ → List (Nat × Nat)}
    {heap : σ} {queue : List free_blk} {offs : Nat → Prop}
    (h : HeapInv blocks heap queue offs) {old : Nat} (ho : offs old) (t : Nat) :
    HeapInv blocks heap (queue ++ [⟨old, t⟩]) (fun o => offs o ∧ o ≠ old) := by
  have hqne : ∀ q, q ∈ queue → q.off ≠ old := fun q hq e => (h.pend q hq).2 (by rw [e]; exact ho)
  refine ⟨h.apart, h.pos, fun o hx => h.held o hx.1, ?_, ?_⟩
  · intro q hq
    rcases List.mem_append.1 hq with hq | hq
    · exact ⟨(h.pend q hq).1, fun hx => (h.pend q hq).2 hx.1⟩
    · rw [List.mem_singleton.1 hq]
      exact ⟨h.held old ho, fun hx => hx.2 rfl⟩
  · rw [List.map_append, List.nodup_append]
    refine ⟨h.pend_nodup, List.nodup_singleton _, ?_⟩
    intro a ha hb
    simp only [List.map_cons, List.map_nil, List.mem_singleton] at hb
    obtain ⟨q, hq, e⟩ := List.mem_map.1 ha
    exact hqne q hq (by rw [e, hb])

theorem HeapInv.same_offs {σ : Type} {blocks : σ → List (Nat × Nat)}
    {heap : σ} {queue : List free_blk} {offs offs2 : Nat → Prop}
    (h : HeapInv blocks heap queue offs) (hsub : ∀ o, offs2 o ↔ offs o) :
    HeapInv blocks heap queue offs2 :=
  ⟨h.apart, h.pos, fun o ho => h.held o ((hsub o).1 ho),
    fun q hq => ⟨(h.pend q hq).1, fun hx => (h.pend q hq).2 ((hsub _).1 hx)⟩, h.pend_nodup⟩

/-! ### Value lists of the dynamic store -/

theorem vals_occ {hash_u64 : Nat → Nat} {g : GStore} (wf : WF hash_u64 g) {k : ikey_t}
    (hk : k ≠ ikey_t.zero) {c j : Nat} (hc : c < g.used) (hj : j < ASSOCIATIVITY - 1)
    (e : g.key_at c j = k) : vals hash_u64 g k = g.list_at (c * ASSOCIATIVITY + j) := by
  have hv := get_vertex_local_present wf hk hc hj e
  have hne : (g.vertices (c * ASSOCIATIVITY + j)).key.is_empty = false := by
    rw [ikey_t.is_empty_false_iff]
    exact fun ez => hk (e.symm.trans ez)
  simp only [vals, hv, hne, Bool.false_eq_true, if_false, GStore.list_at]

theorem vals_lacks {hash_u64 : Nat → Nat} {g : GStore} (wf : WF hash_u64 g) {k : ikey_t}
    (hl : g.lacks k) : vals hash_u64 g k = [] := by
  have hv := get_vertex_local_absent wf hl
  simp only [vals, hv]
  rfl

theorem vals_zero {hash_u64 : Nat → Nat} {g : GStore} (wf : WF hash_u64 g) :
    vals hash_u64 g ikey_t.zero = [] := by
  obtain ⟨r, e1, e2, _⟩ := get_slot_local_spec wf ikey_t.zero
  simp only [vals, get_vertex_local, e1, Outcome.bind]
  cases r with
  | none => rfl
  | some s =>
    obtain ⟨c, j, _, _, hs, hk⟩ := e2 s rfl
    have hz : (g.vertices s).key.is_empty = true := by
      rw [ikey_t.is_empty_iff, hs]
      exact hk
    simp only [hz, if_true]

theorem lacks_iff (g : GStore) (k : ikey_t) : g.lacks k ↔ ¬ g.occupies k := by
  simp only [GStore.lacks, GStore.occupies, not_exists, not_and]

theorem read_edges_length (g : GStore) (off n : Nat) : (g.read_edges off n).length = n := by
  simp [GStore.read_edges]

theorem read_edges_congr {g g2 : GStore} {off n : Nat}
    (h : ∀ i, i < n → g2.edges (off + i) = g.edges (off + i)) :
    g2.read_edges off n = g.read_edges off n := by
  simp only [GStore.read_edges]
  apply List.map_congr_left
  intro i hi
  exact h i (List.mem_range.1 hi)

/-- The general step of the dynamic store: after `insert_key` found or created
the slot `s` of `key`, the slot receives a pointer to a list `L` in a block of
its own, while the pointers, blocks and values of the other keys stay. -/
theorem DInv.advance {σ : Type} {E : DynEnv σ} {blocks : σ → List (Nat × Nat)}
    {hash_u64 : Nat → Nat} {st : DStore σ} (inv : DInv E blocks hash_u64 st)
    {key : ikey_t} (hk : key ≠ ikey_t.zero) {s : Nat} {g1 : GStore}
    (hins : insert_key hash_u64 st.g key false = .ok (s, g1))
    (st2 : DStore σ) (n2 off2 len2 : Nat) (L : List Nat) (hsame : SameKeys g1 st2.g)
    (hptr : ∀ t, t ≠ s → (st2.g.vertices t).ptr = (st.g.vertices t).ptr)
    (hszs : (st2.g.vertices s).ptr.size = n2)
    (hoffs : (st2.g.vertices s).ptr.off = off2) (hn0 : 0 < n2)
    (hn1 : n2 < 2 ^ NBITS_SIZE)
    (hblk : (off2, len2) ∈ blocks st2.heap) (hlen : blksz E (n2 + 1) ≤ len2)
    (hheap : HeapInv blocks st2.heap st2.free_queue
      (fun o => (∃ t, st.g.Occ t ∧ t ≠ s ∧ (st.g.vertices t).ptr.off = o) ∨ o = off2))
    (hkeep : ∀ t, st.g.Occ t → t ≠ s → ∀ len,
      ((st.g.vertices t).ptr.off, len) ∈ blocks st.heap →
      ((st.g.vertices t).ptr.off, len) ∈ blocks st2.heap)
    (hoff : ∀ t, st.g.Occ t → t ≠ s → (st.g.vertices t).ptr.off ≠ off2)
    (hdata : ∀ t, st.g.Occ t → t ≠ s → ∀ i, i < (st.g.vertices t).ptr.size →
      st2.g.edges ((st.g.vertices t).ptr.off + i) = st.g.edges ((st.g.vertices t).ptr.off + i))
    (hL : st2.g.read_edges off2 n2 = L) :
    DInv E blocks hash_u64 st2 ∧
    vals hash_u64 st2.g = fun k => if k = key then L else vals hash_u64 st.g k := by
  have wf := inv.wf
  have wf1 := insert_key_wf wf hins
  have wf2 : WF hash_u64 st2.g := hsame.wf_of wf1
  obtain ⟨⟨c0, j0, hc0, hj0, hs0, hk0⟩, hused, hold, hnewk⟩ := insert_key_slots wf hins
  have hka : ∀ c j, st2.g.key_at c j = g1.key_at c j := fun c j => hsame.1 _
  have hu2 : st2.g.used = g1.used := by
    simp only [GStore.used, hsame.2.2.1, hsame.2.2.2.2]
  have hcfg := (insert_key_frame wf hins).2.2.1
  -- the occupied slots afterwards: those before, and `s`
  have occ_new : ∀ t, st2.g.Occ t → t = s ∨ st.g.Occ t := by
    rintro t ⟨c, j, hc, hj, ht, hne⟩
    rw [hu2] at hc
    rw [hka] at hne
    rcases hnewk c j hc hj hne with e | ⟨e1, e2⟩
    · left
      obtain ⟨a, b⟩ := wf1.nodup c j c0 j0 hc hc0 hj hj0 hne (e.trans hk0.symm)
      rw [ht, hs0, a, b]
    · right
      exact ⟨c, j, e1, hj, ht, by rw [← e2]; exact hne⟩
  have occ_old : ∀ t, st.g.Occ t → st2.g.Occ t := by
    rintro t ⟨c, j, hc, hj, ht, hne⟩
    refine ⟨c, j, by rw [hu2]; omega, hj, ht, ?_⟩
    rw [hka, hold c j hc hj hne]
    exact hne
  have occ_s : st2.g.Occ s :=
    ⟨c0, j0, by rw [hu2]; exact hc0, hj0, hs0, by rw [hka, hk0]; exact hk⟩
  have off_new : ∀ t, st2.g.Occ t → t ≠ s →
      st.g.Occ t ∧ (st2.g.vertices t).ptr = (st.g.vertices t).ptr := by
    intro t ht hts
    rcases occ_new t ht with e | e
    · exact absurd e hts
    · exact ⟨e, hptr t hts⟩
  refine ⟨⟨wf2, ?_, ?_, ?_, ?_⟩, ?_⟩
  · -- empty slots keep empty pointers
    intro c j hc hj hz
    have hc1 : c < st.g.num_buckets + st.g.num_buckets_ext := by
      rw [hsame.2.2.1, hsame.2.2.2.1, hcfg.2.1, hcfg.2.2.1] at hc
      exact hc
    have hzold : st.g.key_at c j = ikey_t.zero := by
      by_contra hne
      have hcu := wf.lacks_of_unused hc1 hj hne
      rw [hka, hold c j hcu hj hne] at hz
      exact hne hz
    have hts : c * ASSOCIATIVITY + j ≠ s := by
      intro e
      rw [hs0] at e
      obtain ⟨a, b⟩ := slot_inj (by omega) (by omega) e
      rw [a, b, hka, hk0] at hz
      exact hk hz
    rw [hptr _ hts]
    exact inv.blank c j hc1 hj hzold
  · -- the heap
    refine hheap.same_offs fun o => ⟨?_, ?_⟩
    · rintro ⟨t, ht, e⟩
      by_cases hts : t = s
      · right
        rw [← e, hts, hoffs]
      · left
        obtain ⟨h1, h2⟩ := off_new t ht hts
        exact ⟨t, h1, hts, by rw [← h2]; exact e⟩
    · rintro (⟨t, ht, hts, e⟩ | e)
      · exact ⟨t, occ_old t ht, by rw [hptr t hts]; exact e⟩
      · exact ⟨s, occ_s, by rw [hoffs, e]⟩
  · -- every key owns a block
    intro t ht
    by_cases hts : t = s
    · rw [hts, hszs, hoffs]
      exact ⟨hn0, hn1, len2, hblk, hlen⟩
    · obtain ⟨h1, h2⟩ := off_new t ht hts
      rw [h2]
      obtain ⟨a, b, len, c, d⟩ := inv.own t h1
      exact ⟨a, b, len, hkeep t h1 hts len c, d⟩
  · -- different keys, different blocks
    intro t u ht hu htu
    by_cases hts : t = s
    · have hus : u ≠ s := fun e => htu (hts.trans e.symm)
      obtain ⟨h1, h2⟩ := off_new u hu hus
      rw [hts, hoffs, h2]
      exact fun e => hoff u h1 hus e.symm
    · obtain ⟨h1, h2⟩ := off_new t ht hts
      by_cases hus : u = s
      · rw [hus, hoffs, h2]
        exact hoff t h1 hts
      · obtain ⟨h3, h4⟩ := off_new u hu hus
        rw [h2, h4]
        exact inv.sep t u h1 h3 htu
  · -- the value lists
    funext k
    by_cases hkk : k = key
    · rw [if_pos hkk, hkk, vals_occ wf2 hk (by rw [hu2]; exact hc0) hj0 (by rw [hka]; exact hk0),
        ← hs0]
      simp only [GStore.list_at, hszs, hoffs]
      exact hL
    · rw [if_neg hkk]
      by_cases hkz : k = ikey_t.zero
      · rw [hkz, vals_zero wf2, vals_zero wf]
      by_cases hocc : st.g.occupies k
      · obtain ⟨c, j, hc, hj, e⟩ := hocc
        have hne : st.g.key_at c j ≠ ikey_t.zero := by rw [e]; exact hkz
        have e2 : st2.g.key_at c j = k := by rw [hka, hold c j hc hj hne]; exact e
        have hts : c * ASSOCIATIVITY + j ≠ s := by
          intro es
          rw [hs0] at es
          obtain ⟨a, b⟩ := slot_inj (by omega) (by omega) es
          rw [a, b, hka, hk0] at e2
          exact hkk e2.symm
        rw [vals_occ wf2 hkz (by rw [hu2]; omega) hj e2, vals_occ wf hkz hc hj e]
        simp only [GStore.list_at, hptr _ hts]
        exact read_edges_congr (hdata _ ⟨c, j, hc, hj, rfl, hne⟩ hts)
      · have hl2 : st2.g.lacks k := by
          intro c j hc hj e
          rw [hu2] at hc
          rw [hka] at e
          rcases hnewk c j hc hj (by rw [e]; exact hkz) with e3 | ⟨e3, e4⟩
          · exact hkk (e.symm.trans e3)
          · exact hocc ⟨c, j, e3, hj, by rw [← e4]; exact e⟩
        rw [vals_lacks wf2 hl2, vals_lacks wf ((lacks_iff _ _).2 hocc)]

/-! ### Allocation in the dynamic store -/

theorem sweep_free_loop_keeps {σ : Type} {E : DynEnv σ} {blocks : σ → List (Nat × Nat)}
    (ok : Malloc_OK E blocks) {offs : Nat → Prop} :
    ∀ (queue : List free_blk) (heap : σ) (clock : Nat), HeapInv blocks heap queue offs →
      ∀ o len, offs o → (o, len) ∈ blocks heap →
        (o, len) ∈ blocks (sweep_free_loop E queue heap clock).2.1 := by
  intro queue
  induction queue with
  | nil => intro heap clock _ o len _ h; exact h
  | cons q queue ih =>
    intro heap clock h o len ho hl
    simp only [sweep_free_loop]
    split_ifs with hc
    · exact hl
    · refine ih _ _ (h.free_head ok) o len ho ?_
      rw [ok.free_ok, List.mem_filter]
      refine ⟨hl, ?_⟩
      simp only [ne_eq, decide_not, Bool.not_eq_true', decide_eq_false_iff_not]
      intro e
      exact (h.pend q (List.mem_cons_self _ _)).2 (by rw [← e]; exact ho)

/-- The allocation of a block for `n` edges: the new block is apart from every
block in use, which all stay allocated, and only the flag cell of the new block
is written. -/
theorem alloc_edges_spec {σ : Type} {E : DynEnv σ} {blocks : σ → List (Nat × Nat)}
    (ok : Malloc_OK E blocks) (st : DStore σ) {offs : Nat → Prop}
    (h : HeapInv blocks st.heap st.free_queue offs) {n : Nat} {tid : Int}
    {r : Nat × DStore σ} (hr : st.alloc_edges E n tid = .ok r) :
    r.2.g = insert_sz E st.g n n r.1 ∧
    HeapInv blocks r.2.heap r.2.free_queue (fun o => offs o ∨ o = r.1) ∧
    ¬ offs r.1 ∧ (r.1, blksz E (n + 1)) ∈ blocks r.2.heap ∧
    ∀ o len, offs o → (o, len) ∈ blocks st.heap →
      (o, len) ∈ blocks r.2.heap ∧ Apart (r.1, blksz E (n + 1)) (o, len) := by
  simp only [DStore.alloc_edges] at hr
  obtain ⟨a, hm, h2⟩ := Outcome.bind_ok hr
  injection h2 with h2
  subst h2
  obtain ⟨b, heap2⟩ := a
  cases hc : E.global_enable_caching
  · simp only [hc, Bool.false_eq_true, if_false] at hm ⊢
    obtain ⟨k1, k2, k3, k4⟩ := h.malloc ok (Nat.succ_pos n) hm
    exact ⟨trivial, k1, k2, k3, fun o len _ hl => k4 o len hl⟩
  · simp only [hc, if_true] at hm ⊢
    have hsw := sweep_free_loop_inv ok st.free_queue st.heap st.clock h
    obtain ⟨k1, k2, k3, k4⟩ := HeapInv.malloc ok hsw (Nat.succ_pos n) hm
    exact ⟨rfl, k1, k2, k3, fun o len ho hl =>
      k4 o len (sweep_free_loop_keeps ok _ _ _ h o len ho hl)⟩

/-- A cell of the data of a block in use lies outside a block that is apart. -/
theorem apart_cell {a o len blk size i : Nat} (h : Apart (a, blk) (o, len))
    (hsz : size + 1 ≤ len) (hi : i < size) : ∀ x, a ≤ x → x < a + blk → x ≠ o + i := by
  intro x h1 h2 e
  simp only [Apart] at h
  omega

theorem set_edge_edges (g : GStore) (i v x : Nat) :
    (g.set_edge i v).edges x = if x = i then v else g.edges x := rfl

theorem set_ptr_edges (g : GStore) (i : Nat) (p : iptr_t) : (g.set_ptr i p).edges = g.edges :=
  rfl

theorem set_ptr_ptr (g : GStore) (i : Nat) (p : iptr_t) (t : Nat) :
    ((g.set_ptr i p).vertices t).ptr = if t = i then p else (g.vertices t).ptr := by
  simp only [GStore.set_ptr]
  split_ifs with h
  · rfl
  · rfl

theorem insert_sz_edges {σ : Type} (E : DynEnv σ) (g : GStore) (f s o x : Nat) :
    (insert_sz E g f s o).edges x = if x = o + blksz E (s + 1) - 1 then f else g.edges x := rfl

theorem insert_sz_vertices {σ : Type} (E : DynEnv σ) (g : GStore) (f s o : Nat) :
    (insert_sz E g f s o).vertices = g.vertices := rfl

/-! ### The effect of `insert_vertex_edge` on the value lists -/

theorem DInv.block_room {σ : Type} {E : DynEnv σ} {blocks : σ → List (Nat × Nat)}
    (ok : Malloc_OK E blocks) {n len : Nat} (h : blksz E (n + 1) ≤ len) : n + 1 ≤ len :=
  le_trans (ok.blk_ge _) h

/-- First edge of a key that does not exist yet. -/
theorem insert_vertex_edge_new {σ : Type} {E : DynEnv σ} {blocks : σ → List (Nat × Nat)}
    (ok : Malloc_OK E blocks) {hash_u64 : Nat → Nat} {st : DStore σ}
    (inv : DInv E blocks hash_u64 st) {key : ikey_t} (hk : key ≠ ikey_t.zero)
    (hocc : ¬ st.g.occupies key) {value : Nat} {d : Bool} {r : Bool × Bool × DStore σ}
    (hr : insert_vertex_edge E hash_u64 st key value d = .ok r) :
    DInv E blocks hash_u64 r.2.2 ∧ r.1 = true ∧ r.2.1 = false ∧
    vals hash_u64 r.2.2.g = fun k => if k = key then [value] else vals hash_u64 st.g k := by
  have wf := inv.wf
  simp only [insert_vertex_edge] at hr
  obtain ⟨⟨s, g1⟩, hins, hr⟩ := Outcome.bind_ok hr
  have wf1 := insert_key_wf wf hins
  obtain ⟨⟨c0, j0, hc0, hj0, hs0, hk0⟩, hused, hold, hnewk⟩ := insert_key_slots wf hins
  obtain ⟨fptr, fedges, fcfg, _, _, _⟩ := insert_key_frame wf hins
  -- the slot was empty before
  have hc0b : c0 < st.g.num_buckets + st.g.num_buckets_ext := by
    have h1 := wf1.ext_le
    have h2 : g1.used = g1.num_buckets + g1.last_ext := rfl
    rw [← fcfg.2.1, ← fcfg.2.2.1]
    omega
  have hzero : st.g.key_at c0 j0 = ikey_t.zero := by
    by_contra hne
    have hcu := wf.lacks_of_unused hc0b hj0 hne
    exact hocc ⟨c0, j0, hcu, hj0, (hold c0 j0 hcu hj0 hne).symm.trans hk0⟩
  have hnotocc : ¬ st.g.Occ s := by
    rintro ⟨c, j, hc, hj, e, hne⟩
    rw [hs0] at e
    obtain ⟨a, b⟩ := slot_inj (by omega) (by omega) e
    rw [a, b] at hzero
    exact hne hzero
  have hsz : (g1.vertices s).ptr.size = 0 := by
    rw [fptr, hs0]
    exact inv.blank c0 j0 hc0b hj0 hzero
  simp only [hsz, if_true] at hr
  obtain ⟨a, halloc, hr⟩ := Outcome.bind_ok hr
  obtain ⟨ptr, hmk, hr⟩ := Outcome.bind_ok hr
  injection hr with hr
  subst hr
  obtain ⟨hp, _, _⟩ := iptr_make_inv hmk
  subst hp
  have hheap0 : HeapInv blocks st.heap st.free_queue
      (fun o => ∃ t, st.g.Occ t ∧ (st.g.vertices t).ptr.off = o) := inv.heap
  obtain ⟨ag, aheap, anew, ablk, akeep⟩ :=
    alloc_edges_spec ok { st with g := g1 } hheap0 halloc
  have hb2 : 2 ≤ blksz E (1 + 1) := ok.blk_ge 2
  have hstep := DInv.advance inv hk hins
    { a.2 with g := (a.2.g.set_edge a.1 value).set_ptr s ⟨1, a.1, 0⟩ }
    1 a.1 (blksz E (1 + 1)) [value]
    (by
      rw [ag]
      exact (same_keys_insert_sz _ _ _ _ _).chain
        ((same_keys_set_edge _ _ _).chain (same_keys_set_ptr _ _ _)))
    (by
      intro t hts
      simp only [set_ptr_ptr, if_neg hts, ag]
      exact fptr t)
    (by simp only [set_ptr_ptr, if_true]) (by simp only [set_ptr_ptr, if_true])
    (by decide) (by decide) ablk (le_refl _)
    (aheap.same_offs fun o => ⟨fun h => h.elim (fun ⟨t, h1, _, h3⟩ => Or.inl ⟨t, h1, h3⟩) Or.inr,
      fun h => h.elim (fun ⟨t, h1, h3⟩ => Or.inl ⟨t, h1, fun e => hnotocc (e ▸ h1), h3⟩) Or.inr⟩)
    (by
      intro t ht _ len hl
      exact (akeep _ len ⟨t, ht, rfl⟩ hl).1)
    (by
      intro t ht _ e
      exact anew ⟨t, ht, e⟩)
    (by
      intro t ht _ i hi
      obtain ⟨_, _, len, hl, hlen⟩ := inv.own t ht
      have hap := (akeep _ len ⟨t, ht, rfl⟩ hl).2
      have hroom := DInv.block_room ok hlen
      have hcell := apart_cell hap hroom hi
      simp only [set_ptr_edges, set_edge_edges, ag, insert_sz_edges]
      rw [if_neg (fun e => hcell _ (le_refl _) (by omega) e.symm),
        if_neg (fun e => hcell _ (by omega) (by omega) e.symm), fedges])
    (by
      simp only [GStore.read_edges, set_ptr_edges, set_edge_edges]
      have h1 : List.range 1 = [0] := rfl
      rw [h1]
      simp only [List.map_cons, List.map_nil, Nat.add_zero, if_true])
  exact ⟨hstep.1, rfl, rfl, hstep.2⟩

theorem pairwise_apart {l : List (Nat × Nat)} (h : l.Pairwise Apart) {a b : Nat × Nat}
    (ha : a ∈ l) (hb : b ∈ l) (hab : a ≠ b) : Apart a b :=
  h.forall (fun _ _ hxy => hxy.symm) ha hb hab

theorem memcpy_edges (g : GStore) (dst src n x : Nat) :
    (g.memcpy dst src n).edges x =
      if dst ≤ x ∧ x < dst + n then g.edges (src + (x - dst)) else g.edges x := rfl

theorem memcpy_vertices (g : GStore) (dst src n : Nat) :
    (g.memcpy dst src n).vertices = g.vertices := rfl

theorem read_edges_succ (g : GStore) (off n : Nat) :
    g.read_edges off (n + 1) = g.read_edges off n ++ [g.edges (off + n)] := by
  simp only [GStore.read_edges, List.range_succ, List.map_append, List.map_cons, List.map_nil]

/-- The blocks of two different keys are apart. -/
theorem DInv.blocks_apart {σ : Type} {E : DynEnv σ} {blocks : σ → List (Nat × Nat)}
    {hash_u64 : Nat → Nat} {st : DStore σ} (inv : DInv E blocks hash_u64 st) {s t : Nat}
    (hs : st.g.Occ s) (ht : st.g.Occ t) (hst : t ≠ s) {len len2 : Nat}
    (h1 : ((st.g.vertices s).ptr.off, len) ∈ blocks st.heap)
    (h2 : ((st.g.vertices t).ptr.off, len2) ∈ blocks st.heap) :
    Apart ((st.g.vertices s).ptr.off, len) ((st.g.vertices t).ptr.off, len2) := by
  apply pairwise_apart inv.heap.apart h1 h2
  intro e
  exact inv.sep s t hs ht (fun e2 => hst e2.symm) (congrArg Prod.fst e)

/-- A further edge of an existing key, appended in place. -/
theorem insert_vertex_edge_inplace {σ : Type} {E : DynEnv σ} {blocks : σ → List (Nat × Nat)}
    (ok : Malloc_OK E blocks) {hash_u64 : Nat → Nat} {st : DStore σ}
    (inv : DInv E blocks hash_u64 st) {key : ikey_t} (hk : key ≠ ikey_t.zero)
    {c j : Nat} (hc : c < st.g.used) (hj : j < ASSOCIATIVITY - 1) (e : st.g.key_at c j = key)
    (value : Nat) {s size off : Nat} (hsdef : c * ASSOCIATIVITY + j = s)
    (hsz : (st.g.vertices s).ptr.size = size) (hof : (st.g.vertices s).ptr.off = off)
    (hroom : ¬ blksz E (size + 1) - 1 < size + 1) (g2 : GStore)
    (hg2 : g2 = ((insert_sz E st.g (size + 1) (size + 1) off).set_edge (off + size)
      value).set_ptr s { (st.g.vertices s).ptr with size := (size + 1) % 2 ^ NBITS_SIZE }) :
    DInv E blocks hash_u64 { st with g := g2 } ∧
    vals hash_u64 g2
      = fun k => if k = key then vals hash_u64 st.g key ++ [value] else vals hash_u64 st.g k := by
  have wf := inv.wf
  have hocc : st.g.Occ s := ⟨c, j, hc, hj, hsdef.symm, by rw [e]; exact hk⟩
  have hins := insert_key_present wf hk hc hj e false
  simp only [Bool.false_eq_true, if_false, hsdef] at hins
  obtain ⟨hs0, hs1, len, hblk, hlen⟩ := inv.own _ hocc
  rw [hsz] at hs0 hs1 hlen
  rw [hof] at hblk
  subst hg2
  have hb1 : size + 2 ≤ blksz E (size + 1) := by omega
  have hsmall := ok.blk_small (size + 1) (by omega)
  have hstab := ok.blk_stable (size + 1) (size + 1 + 1) (by omega) (by omega)
  have hge := ok.blk_ge (size + 1 + 1)
  have hmod : (size + 1) % 2 ^ NBITS_SIZE = size + 1 := Nat.mod_eq_of_lt (by omega)
  rw [hmod]
  have hval : vals hash_u64 st.g key = st.g.read_edges off size := by
    rw [vals_occ wf hk hc hj e, hsdef]
    simp only [GStore.list_at, hsz, hof]
  rw [hval]
  apply DInv.advance inv hk hins
    { st with g := ((insert_sz E st.g (size + 1) (size + 1) off).set_edge (off + size)
      value).set_ptr s { (st.g.vertices s).ptr with size := size + 1 } } (size + 1) off len
  · exact (same_keys_insert_sz _ _ _ _ _).chain
      ((same_keys_set_edge _ _ _).chain (same_keys_set_ptr _ _ _))
  · intro t hts
    simp only [set_ptr_ptr, if_neg hts]
    rfl
  · simp only [set_ptr_ptr, if_true]
  · simp only [set_ptr_ptr, if_true]
    exact hof
  · omega
  · omega
  · exact hblk
  · omega
  · refine inv.heap.same_offs fun o => ⟨?_, ?_⟩
    · rintro (⟨t, h1, _, h3⟩ | h)
      · exact ⟨t, h1, h3⟩
      · exact ⟨s, hocc, by rw [hof, h]⟩
    · rintro ⟨t, h1, h3⟩
      by_cases hts : t = s
      · right
        rw [← h3, hts, hof]
      · exact Or.inl ⟨t, h1, hts, h3⟩
  · intro t _ _ len2 hl
    exact hl
  · intro t ht hts
    have := inv.sep t s ht hocc hts
    rw [hof] at this
    exact this
  · intro t ht hts i hi
    obtain ⟨_, _, len2, hl2, hlen2⟩ := inv.own t ht
    have hap := inv.blocks_apart hocc ht hts (by rw [hof]; exact hblk) hl2
    rw [hof] at hap
    have hroom2 := DInv.block_room ok hlen2
    have hcell := apart_cell hap hroom2 hi
    simp only [set_ptr_edges, set_edge_edges, insert_sz_edges]
    rw [if_neg (fun e => hcell _ (by omega) (by omega) e.symm),
      if_neg (fun e => hcell _ (by omega) (by omega) e.symm)]
  · rw [read_edges_succ]
    congr 1
    · apply read_edges_congr
      intro i hi
      simp only [set_ptr_edges, set_edge_edges, insert_sz_edges]
      rw [if_neg (by omega), if_neg (by omega)]
    · simp only [set_ptr_edges, set_edge_edges, if_true]

theorem read_edges_shift {g g2 : GStore} {off off2 n : Nat}
    (h : ∀ i, i < n → g2.edges (off2 + i) = g.edges (off + i)) :
    g2.read_edges off2 n = g.read_edges off n := by
  simp only [GStore.read_edges]
  apply List.map_congr_left
  intro i hi
  exact h i (List.mem_range.1 hi)

/-- A further edge of an existing key, with the list moved to a new block. -/
theorem insert_vertex_edge_moved {σ : Type} {E : DynEnv σ} {blocks : σ → List (Nat × Nat)}
    (ok : Malloc_OK E blocks) {hash_u64 : Nat → Nat} {st : DStore σ}
    (inv : DInv E blocks hash_u64 st) {key : ikey_t} (hk : key ≠ ikey_t.zero)
    {c j : Nat} (hc : c < st.g.used) (hj : j < ASSOCIATIVITY - 1) (e : st.g.key_at c j = key)
    (value : Nat) {s size off : Nat} (hsdef : c * ASSOCIATIVITY + j = s)
    (hsz : (st.g.vertices s).ptr.size = size) (hof : (st.g.vertices s).ptr.off = off)
    {a : Nat × DStore σ} (halloc : st.alloc_edges E (size + 1) (-1) = .ok a)
    {ptr : iptr_t} (hmk : iptr_t.make (size + 1) a.1 0 = .ok ptr) (st3 : DStore σ)
    (hg : st3.g = (insert_sz E (((a.2.g.memcpy a.1 off size).set_edge (a.1 + size) value))
      INVALID_EDGES size off).set_ptr s ptr)
    (hh : (st3.heap = a.2.heap ∧ ∃ t, st3.free_queue = a.2.free_queue ++ [⟨off, t⟩]) ∨
      (st3.heap = E.edge_allocator.free a.2.heap (e2b off) ∧
        st3.free_queue = a.2.free_queue)) :
    DInv E blocks hash_u64 st3 ∧
    vals hash_u64 st3.g
      = fun k => if k = key then vals hash_u64 st.g key ++ [value] else vals hash_u64 st.g k := by
  have wf := inv.wf
  have hocc : st.g.Occ s := ⟨c, j, hc, hj, hsdef.symm, by rw [e]; exact hk⟩
  have hins := insert_key_present wf hk hc hj e false
  simp only [Bool.false_eq_true, if_false, hsdef] at hins
  obtain ⟨hs0, hs1, len, hblk, hlen⟩ := inv.own _ hocc
  rw [hsz] at hs0 hs1 hlen
  rw [hof] at hblk
  obtain ⟨hp, hszlt, _⟩ := iptr_make_inv hmk
  subst hp
  have hoffs : ∃ t, st.g.Occ t ∧ (st.g.vertices t).ptr.off = off := ⟨s, hocc, hof⟩
  obtain ⟨ag, aheap, anew, ablk, akeep⟩ := alloc_edges_spec ok st inv.heap halloc
  have hval : vals hash_u64 st.g key = st.g.read_edges off size := by
    rw [vals_occ wf hk hc hj e, hsdef]
    simp only [GStore.list_at, hsz, hof]
  rw [hval]
  have hoa : off ≠ a.1 := fun h => anew (h ▸ hoffs)
  have hge2 := ok.blk_ge (size + 1 + 1)
  have hge1 := ok.blk_ge (size + 1)
  have hapo := (akeep off len hoffs hblk).2
  have hnewblk : (a.1, blksz E (size + 1 + 1)) ∈ blocks st3.heap := by
    rcases hh with ⟨h1, _⟩ | ⟨h1, _⟩
    · rw [h1]; exact ablk
    · rw [h1, ok.free_ok, List.mem_filter]
      exact ⟨ablk, by simpa using fun h => hoa h.symm⟩
  apply DInv.advance inv hk hins st3 (size + 1) a.1 (blksz E (size + 1 + 1))
  · rw [hg, ag]
    exact (same_keys_insert_sz _ _ _ _ _).chain ((same_keys_memcpy _ _ _ _).chain
      ((same_keys_set_edge _ _ _).chain ((same_keys_insert_sz _ _ _ _ _).chain
        (same_keys_set_ptr _ _ _))))
  · intro t hts
    rw [hg]
    simp only [set_ptr_ptr, if_neg hts, ag]
    rfl
  · rw [hg]
    simp only [set_ptr_ptr, if_true]
  · rw [hg]
    simp only [set_ptr_ptr, if_true]
  · omega
  · exact hszlt
  · exact hnewblk
  · exact le_refl _
  · have hbase : HeapInv blocks st3.heap st3.free_queue
        (fun o => ((∃ t, st.g.Occ t ∧ (st.g.vertices t).ptr.off = o) ∨ o = a.1) ∧ o ≠ off) := by
      rcases hh with ⟨h1, t, h2⟩ | ⟨h1, h2⟩
      · rw [h1, h2]
        exact aheap.postpone (Or.inl hoffs) t
      · rw [h1, h2]
        exact aheap.release ok (Or.inl hoffs)
    refine hbase.same_offs fun o => ⟨?_, ?_⟩
    · rintro (⟨t, h1, h2, h3⟩ | h)
      · refine ⟨Or.inl ⟨t, h1, h3⟩, ?_⟩
        rw [← h3, ← hof]
        exact inv.sep t s h1 hocc h2
      · exact ⟨Or.inr h, by rw [h]; exact fun h2 => hoa h2.symm⟩
    · rintro ⟨⟨t, h1, h3⟩ | h, h4⟩
      · refine Or.inl ⟨t, h1, ?_, h3⟩
        intro hts
        rw [hts, hof] at h3
        exact h4 h3.symm
      · exact Or.inr h
  · intro t ht hts len2 hl
    have h1 := (akeep _ len2 ⟨t, ht, rfl⟩ hl).1
    rcases hh with ⟨h2, _⟩ | ⟨h2, _⟩
    · rw [h2]; exact h1
    · rw [h2, ok.free_ok, List.mem_filter]
      refine ⟨h1, ?_⟩
      have := inv.sep t s ht hocc hts
      rw [hof] at this
      simpa using this
  · intro t ht _ h
    exact anew ⟨t, ht, h⟩
  · intro t ht hts i hi
    obtain ⟨_, _, len2, hl2, hlen2⟩ := inv.own t ht
    have hap := inv.blocks_apart hocc ht hts (by rw [hof]; exact hblk) hl2
    rw [hof] at hap
    have hap2 := (akeep _ len2 ⟨t, ht, rfl⟩ hl2).2
    have hroom2 := DInv.block_room ok hlen2
    have hcell := apart_cell hap hroom2 hi
    have hcell2 := apart_cell hap2 hroom2 hi
    rw [hg]
    simp only [set_ptr_edges, set_edge_edges, insert_sz_edges, memcpy_edges, ag]
    rw [if_neg (fun e => hcell _ (by omega) (by omega) e.symm),
      if_neg (fun e => hcell2 _ (by omega) (by omega) e.symm),
      if_neg (fun e => hcell2 _ e.1 (by omega) rfl),
      if_neg (fun e => hcell2 _ (by omega) (by omega) e.symm)]
  · rw [hg, read_edges_succ]
    simp only [Apart] at hapo
    congr 1
    · apply read_edges_shift
      intro i hi
      simp only [set_ptr_edges, set_edge_edges, insert_sz_edges, memcpy_edges, ag]
      rw [if_neg (by omega), if_neg (by omega), if_pos (by omega), if_neg (by omega)]
      congr 1
      omega
    · simp only [set_ptr_edges, set_edge_edges, insert_sz_edges]
      rw [if_neg (by omega)]
      simp

/-- On the value lists, `insert_vertex_edge` is `kv_insert`, and it keeps the
invariant of the dynamic store. -/
theorem insert_vertex_edge_effect {σ : Type} {E : DynEnv σ} {blocks : σ → List (Nat × Nat)}
    (ok : Malloc_OK E blocks) {hash_u64 : Nat → Nat} {st : DStore σ}
    (inv : DInv E blocks hash_u64 st) {key : ikey_t} (hk : key ≠ ikey_t.zero)
    {value : Nat} {d : Bool} {r : Bool × Bool × DStore σ}
    (hr : insert_vertex_edge E hash_u64 st key value d = .ok r) :
    DInv E blocks hash_u64 r.2.2 ∧
    r.1 = (kv_insert (vals hash_u64 st.g) key value d).1 ∧
    r.2.1 = (kv_insert (vals hash_u64 st.g) key value d).2.1 ∧
    vals hash_u64 r.2.2.g = (kv_insert (vals hash_u64 st.g) key value d).2.2 := by
  have wf := inv.wf
  by_cases hocc : st.g.occupies key
  · obtain ⟨c, j, hc, hj, e⟩ := hocc
    have hoc : st.g.Occ (c * ASSOCIATIVITY + j) := ⟨c, j, hc, hj, rfl, by rw [e]; exact hk⟩
    obtain ⟨hs0, hs1, len, hblk, hlen⟩ := inv.own _ hoc
    have hins := insert_key_present wf hk hc hj e false
    simp only [Bool.false_eq_true, if_false] at hins
    have hval : vals hash_u64 st.g key = st.g.list_at (c * ASSOCIATIVITY + j) :=
      vals_occ wf hk hc hj e
    have hne : vals hash_u64 st.g key ≠ [] := by
      intro h0
      have := congrArg List.length h0
      rw [hval, GStore.list_at, read_edges_length] at this
      simp only [List.length_nil] at this
      omega
    have hdup : is_dup st.g (st.g.vertices (c * ASSOCIATIVITY + j)) value
        = decide (value ∈ vals hash_u64 st.g key) := by
      rw [hval, GStore.list_at, Bool.eq_iff_iff, is_dup_iff]
      simp only [decide_eq_true_eq]
    simp only [insert_vertex_edge, hins, Outcome.bind] at hr
    rw [if_neg (by omega)] at hr
    simp only [kv_insert, if_neg hne]
    by_cases hd : (d && decide (value ∈ vals hash_u64 st.g key)) = true
    · rw [hdup, if_pos hd] at hr
      injection hr with hr
      subst hr
      rw [if_pos hd]
      exact ⟨inv, rfl, rfl, rfl⟩
    · rw [hdup, if_neg hd] at hr
      rw [if_neg hd]
      by_cases hroom : blksz E ((st.g.vertices (c * ASSOCIATIVITY + j)).ptr.size + 1) - 1
          < (st.g.vertices (c * ASSOCIATIVITY + j)).ptr.size + 1
      · rw [if_pos hroom] at hr
        obtain ⟨a, halloc, hr⟩ := Outcome.bind_ok hr
        obtain ⟨ptr, hmk, hr⟩ := Outcome.bind_ok hr
        cases hc2 : E.global_enable_caching
        · simp only [hc2, Bool.false_eq_true, if_false] at hr
          injection hr with hr
          have := insert_vertex_edge_moved ok inv hk hc hj e value rfl rfl rfl halloc hmk
            r.2.2 (by subst hr; rfl) (by subst hr; exact Or.inr ⟨rfl, rfl⟩)
          exact ⟨this.1, by subst hr; rfl, by subst hr; rfl, this.2⟩
        · simp only [hc2, if_true] at hr
          injection hr with hr
          have := insert_vertex_edge_moved ok inv hk hc hj e value rfl rfl rfl halloc hmk
            r.2.2 (by subst hr; rfl) (by subst hr; exact Or.inl ⟨rfl, _, rfl⟩)
          exact ⟨this.1, by subst hr; rfl, by subst hr; rfl, this.2⟩
      · rw [if_neg hroom] at hr
        injection hr with hr
        have := insert_vertex_edge_inplace ok inv hk hc hj e value rfl rfl rfl hroom
          r.2.2.g (by subst hr; rfl)
        have hst : r.2.2 = { st with g := r.2.2.g } := by subst hr; rfl
        rw [hst]
        exact ⟨this.1, by subst hr; rfl, by subst hr; rfl, this.2⟩
  · obtain ⟨h1, h2, h3, h4⟩ := insert_vertex_edge_new ok inv hk hocc hr
    have hnil : vals hash_u64 st.g key = [] := vals_lacks wf ((lacks_iff _ _).2 hocc)
    simp only [kv_insert, if_pos hnil]
    refine ⟨h1, h2, h3, ?_⟩
    rw [h4]
    funext k
    simp only [KV.push, hnil, List.nil_append]

/-! ### The online calls on the value lists -/

theorem ikey_make_inv {v p d : Nat} {key : ikey_t} (h : ikey_t.make v p d = .ok key) :
    key = ⟨v, p, d⟩ := by
  simp only [ikey_t.make] at h
  split_ifs at h with hc
  injection h with h
  rw [← h]
  simp only [ikey_t.mk.injEq]
  exact ⟨hc.1, hc.2.2, hc.2.1⟩

theorem DInv.vals_nil_iff {σ : Type} {E : DynEnv σ} {blocks : σ → List (Nat × Nat)}
    {hash_u64 : Nat → Nat} {st : DStore σ} (inv : DInv E blocks hash_u64 st) {k : ikey_t}
    (hk : k ≠ ikey_t.zero) : vals hash_u64 st.g k = [] ↔ ¬ st.g.occupies k := by
  constructor
  · rintro h ⟨c, j, hc, hj, e⟩
    have hoc : st.g.Occ (c * ASSOCIATIVITY + j) := ⟨c, j, hc, hj, rfl, by rw [e]; exact hk⟩
    have hs := (inv.own _ hoc).1
    have := congrArg List.length h
    rw [vals_occ inv.wf hk hc hj e, GStore.list_at, read_edges_length] at this
    simp only [List.length_nil] at this
    omega
  · intro h
    exact vals_lacks inv.wf ((lacks_iff _ _).2 h)

theorem check_key_exist_vals {σ : Type} {E : DynEnv σ} {blocks : σ → List (Nat × Nat)}
    {hash_u64 : Nat → Nat} {st : DStore σ} (inv : DInv E blocks hash_u64 st) {k : ikey_t}
    (hk : k ≠ ikey_t.zero) {ex : Bool} (h : check_key_exist hash_u64 st.g k = .ok ex) :
    (!ex) = decide (vals hash_u64 st.g k = []) := by
  obtain ⟨r, hr, hiff⟩ := check_key_exist_spec inv.wf hk
  rw [hr] at h
  injection h with h
  subst h
  rw [Bool.eq_iff_iff]
  simp only [Bool.not_eq_true', decide_eq_true_eq, inv.vals_nil_iff hk, ← hiff]
  cases r <;> simp

theorem insert_indexed_effect {σ : Type} {E : DynEnv σ} {blocks : σ → List (Nat × Nat)}
    (ok : Malloc_OK E blocks) {hash_u64 : Nat → Nat} {st st2 : DStore σ}
    (inv : DInv E blocks hash_u64 st) {inner : Bool} {k kb k2 : Nat × Nat × Nat} {v v2 : Nat}
    (h : insert_indexed E hash_u64 inner st k kb v k2 v2 = .ok st2)
    (h1 : (⟨k.1, k.2.1, k.2.2⟩ : ikey_t) ≠ ikey_t.zero)
    (h2 : (⟨kb.1, kb.2.1, kb.2.2⟩ : ikey_t) ≠ ikey_t.zero)
    (h3 : (⟨k2.1, k2.2.1, k2.2.2⟩ : ikey_t) ≠ ikey_t.zero) :
    DInv E blocks hash_u64 st2 ∧
    vals hash_u64 st2.g = kv_indexed inner (vals hash_u64 st.g) ⟨k.1, k.2.1, k.2.2⟩
      ⟨kb.1, kb.2.1, kb.2.2⟩ v ⟨k2.1, k2.2.1, k2.2.2⟩ v2 := by
  simp only [insert_indexed] at h
  obtain ⟨key, e1, h⟩ := Outcome.bind_ok h
  obtain ⟨bkey, e2, h⟩ := Outcome.bind_ok h
  have e1 := ikey_make_inv e1
  have e2 := ikey_make_inv e2
  subst e1 e2
  obtain ⟨r, hr, h⟩ := Outcome.bind_ok h
  obtain ⟨i1, a1, _, a3⟩ := insert_vertex_edge_effect ok inv h1 hr
  simp only [kv_indexed]
  rw [← a1, ← a3]
  by_cases c1 : r.1 = true
  · rw [if_pos c1] at h ⊢
    obtain ⟨ex, hex, h⟩ := Outcome.bind_ok h
    have hb := check_key_exist_vals i1 h2 hex
    rw [← hb]
    by_cases c2 : (!ex && inner) = true
    · rw [if_pos c2] at h ⊢
      obtain ⟨key2, e3, h⟩ := Outcome.bind_ok h
      have e3 := ikey_make_inv e3
      subst e3
      obtain ⟨r2, hr2, h⟩ := Outcome.bind_ok h
      injection h with h
      subst h
      obtain ⟨i2, _, _, b3⟩ := insert_vertex_edge_effect ok i1 h3 hr2
      exact ⟨i2, b3⟩
    · rw [if_neg c2] at h ⊢
      injection h with h
      subst h
      exact ⟨i1, rfl⟩
  · rw [if_neg c1] at h ⊢
    injection h with h
    subst h
    exact ⟨i1, rfl⟩

theorem key_ne_zero_of_vid {v : Nat} (p d : Nat) (hv : v ≠ 0) :
    (⟨v, p, d⟩ : ikey_t) ≠ ikey_t.zero := fun e => hv (congrArg ikey_t.vid e)

theorem key_ne_zero_of_pid (v : Nat) {p : Nat} (d : Nat) (hp : p ≠ 0) :
    (⟨v, p, d⟩ : ikey_t) ≠ ikey_t.zero := fun e => hp (congrArg ikey_t.pid e)

theorem key_ne_zero_out (v p : Nat) : (⟨v, p, OUT⟩ : ikey_t) ≠ ikey_t.zero := by
  have h : OUT ≠ 0 := by decide
  exact fun e => h (congrArg ikey_t.dir e)

theorem wellformed_ids {t : triple_t} (h : t.wellformed) :
    t.s ≠ 0 ∧ t.p ≠ 0 ∧ t.o ≠ 0 ∧ (t.p ≠ TYPE_ID → 2 ≤ t.p ∧ 2 ^ NBITS_IDX ≤ t.o) ∧
    (t.p = TYPE_ID → 2 ≤ t.o ∧ t.o < 2 ^ NBITS_IDX) ∧ 2 ^ NBITS_IDX ≤ t.s := by
  obtain ⟨h1, _, h3⟩ := h
  have hpos : 0 < 2 ^ NBITS_IDX := by decide
  rcases h3 with ⟨a, b⟩ | ⟨a, b, _⟩
  · rw [is_tpid_iff] at b
    refine ⟨by omega, by rw [a]; decide, by omega, fun h => absurd a h, fun _ => ⟨by omega, b.2⟩,
      h1⟩
  · rw [is_tpid_iff] at a
    refine ⟨by omega, by omega, by omega, fun _ => ⟨by omega, b⟩, fun h => ?_, h1⟩
    rw [h] at a
    simp only [TYPE_ID] at a
    omega

theorem insert_triple_out_effect {σ : Type} {E : DynEnv σ} {blocks : σ → List (Nat × Nat)}
    (ok : Malloc_OK E blocks) {hash_u64 : Nat → Nat} {versatile : Bool} {st st2 : DStore σ}
    (inv : DInv E blocks hash_u64 st) {t : triple_t} (ht : t.wellformed) {check_dup : Bool}
    (h : insert_triple_out E hash_u64 versatile st t check_dup = .ok st2) :
    DInv E blocks hash_u64 st2 ∧
    vals hash_u64 st2.g = kv_triple_out versatile (vals hash_u64 st.g) t check_dup := by
  obtain ⟨hs, hp, ho, _, _, _⟩ := wellformed_ids ht
  have h10 : TYPE_ID ≠ 0 := by decide
  simp only [insert_triple_out] at h
  simp only [kv_triple_out, kv_type_head]
  by_cases c0 : t.p = TYPE_ID
  · rw [if_pos c0] at h ⊢
    obtain ⟨key, e1, h⟩ := Outcome.bind_ok h
    have e1 := ikey_make_inv e1
    subst e1
    obtain ⟨r1, hr1, h⟩ := Outcome.bind_ok h
    obtain ⟨i1, a1, a2, a3⟩ := insert_vertex_edge_effect ok inv (key_ne_zero_out _ _) hr1
    generalize kv_insert (vals hash_u64 st.g) ⟨t.s, t.p, OUT⟩ t.o true = q at a1 a2 a3 ⊢
    obtain ⟨qa, qb, qm⟩ := q
    simp only at a1 a2 a3 ⊢
    subst a1 a2 a3
    obtain ⟨st3, h3, h⟩ := Outcome.bind_ok h
    have p3 : DInv E blocks hash_u64 st3 ∧ vals hash_u64 st3.g =
        if (r1.1 && versatile) = true then
          kv_indexed true (vals hash_u64 r1.2.2.g) ⟨t.s, PREDICATE_ID, OUT⟩
            ⟨t.s, PREDICATE_ID, IN⟩ t.p ⟨0, TYPE_ID, IN⟩ t.s
        else vals hash_u64 r1.2.2.g := by
      by_cases c1 : (r1.1 && versatile) = true
      · rw [if_pos c1] at h3 ⊢
        have hx := insert_indexed_effect ok i1 h3 (key_ne_zero_out _ _)
          (key_ne_zero_of_vid _ _ hs) (key_ne_zero_of_pid _ _ h10)
        exact hx
      · rw [if_neg c1] at h3 ⊢
        injection h3 with h3
        subst h3
        exact ⟨i1, rfl⟩
    rw [← p3.2]
    by_cases c2 : (!r1.2.1) = true
    · rw [if_pos c2] at h ⊢
      obtain ⟨key4, e4, h⟩ := Outcome.bind_ok h
      have e4 := ikey_make_inv e4
      subst e4
      obtain ⟨r4, hr4, h⟩ := Outcome.bind_ok h
      obtain ⟨i4, b1, _, b3⟩ := insert_vertex_edge_effect ok p3.1 (key_ne_zero_of_pid _ _ ho) hr4
      generalize kv_insert (vals hash_u64 st3.g) ⟨0, t.o, IN⟩ t.s false = q4 at b1 b3 ⊢
      obtain ⟨qa, qb, qm⟩ := q4
      simp only at b1 b3 ⊢
      subst b1 b3
      by_cases c3 : (r4.1 && versatile) = true
      · rw [if_pos c3] at h ⊢
        obtain ⟨key5, e5, h⟩ := Outcome.bind_ok h
        have e5 := ikey_make_inv e5
        subst e5
        obtain ⟨r5, hr5, h⟩ := Outcome.bind_ok h
        injection h with h
        subst h
        obtain ⟨i5, _, _, d3⟩ := insert_vertex_edge_effect ok i4 (key_ne_zero_out _ _) hr5
        exact ⟨i5, d3⟩
      · rw [if_neg c3] at h ⊢
        injection h with h
        subst h
        exact ⟨i4, rfl⟩
    · rw [if_neg c2] at h ⊢
      injection h with h
      subst h
      exact ⟨p3.1, rfl⟩
  · rw [if_neg c0] at h ⊢
    obtain ⟨key, e1, h⟩ := Outcome.bind_ok h
    have e1 := ikey_make_inv e1
    subst e1
    obtain ⟨r1, hr1, h⟩ := Outcome.bind_ok h
    obtain ⟨i1, a1, _, a3⟩ := insert_vertex_edge_effect ok inv (key_ne_zero_out _ _) hr1
    generalize kv_insert (vals hash_u64 st.g) ⟨t.s, t.p, OUT⟩ t.o check_dup = q at a1 a3 ⊢
    obtain ⟨qa, qb, qm⟩ := q
    simp only at a1 a3 ⊢
    subst a1 a3
    by_cases c1 : r1.1 = true
    · rw [if_pos c1] at h ⊢
      obtain ⟨st3, h3, h⟩ := Outcome.bind_ok h
      obtain ⟨i3, b3⟩ := insert_indexed_effect ok i1 h3 (key_ne_zero_of_pid _ _ hp)
        (key_ne_zero_out _ _) (key_ne_zero_out _ _)
      rw [← b3]
      cases versatile with
      | false =>
        simp only [Bool.false_eq_true, if_false] at h ⊢
        injection h with h
        subst h
        exact ⟨i3, rfl⟩
      | true =>
        simp only [if_true] at h ⊢
        have hx := insert_indexed_effect ok i3 h (key_ne_zero_out _ _)
          (key_ne_zero_of_vid _ _ hs) (key_ne_zero_of_pid _ _ h10)
        exact hx
    · rw [if_neg c1] at h ⊢
      injection h with h
      subst h
      exact ⟨i1, rfl⟩

theorem insert_triple_in_effect {σ : Type} {E : DynEnv σ} {blocks : σ → List (Nat × Nat)}
    (ok : Malloc_OK E blocks) {hash_u64 : Nat → Nat} {versatile : Bool} {st st2 : DStore σ}
    (inv : DInv E blocks hash_u64 st) {t : triple_t} (ht : t.wellformed) {check_dup : Bool}
    (h : insert_triple_in E hash_u64 versatile st t check_dup = .ok st2) :
    DInv E blocks hash_u64 st2 ∧
    vals hash_u64 st2.g = kv_triple_in versatile (vals hash_u64 st.g) t check_dup := by
  obtain ⟨hs, hp, ho, _, _, _⟩ := wellformed_ids ht
  have h10 : TYPE_ID ≠ 0 := by decide
  simp only [insert_triple_in] at h
  simp only [kv_triple_in]
  by_cases c0 : t.p = TYPE_ID
  · rw [if_pos c0] at h ⊢
    injection h with h
    subst h
    exact ⟨inv, rfl⟩
  · rw [if_neg c0] at h ⊢
    obtain ⟨key, e1, h⟩ := Outcome.bind_ok h
    have e1 := ikey_make_inv e1
    subst e1
    obtain ⟨r1, hr1, h⟩ := Outcome.bind_ok h
    obtain ⟨i1, a1, _, a3⟩ := insert_vertex_edge_effect ok inv (key_ne_zero_of_vid _ _ ho) hr1
    generalize kv_insert (vals hash_u64 st.g) ⟨t.o, t.p, IN⟩ t.s check_dup = q at a1 a3 ⊢
    obtain ⟨qa, qb, qm⟩ := q
    simp only at a1 a3 ⊢
    subst a1 a3
    by_cases c1 : r1.1 = true
    · rw [if_pos c1] at h ⊢
      obtain ⟨st3, h3, h⟩ := Outcome.bind_ok h
      obtain ⟨i3, b3⟩ := insert_indexed_effect ok i1 h3 (key_ne_zero_out _ _)
        (key_ne_zero_of_pid _ _ hp) (key_ne_zero_out _ _)
      rw [← b3]
      cases versatile with
      | false =>
        simp only [Bool.false_eq_true, if_false] at h ⊢
        injection h with h
        subst h
        exact ⟨i3, rfl⟩
      | true =>
        simp only [if_true] at h ⊢
        have hx := insert_indexed_effect ok i3 h (key_ne_zero_of_vid _ _ ho)
          (key_ne_zero_out _ _) (key_ne_zero_of_pid _ _ h10)
        exact hx
    · rw [if_neg c1] at h ⊢
      injection h with h
      subst h
      exact ⟨i1, rfl⟩

/-! ### The dynamic store after `refresh()` and after a sequence of calls -/

theorem refresh_vertex (g : GStore) (cfg : Config g) {b j : Nat}
    (hb : b < g.num_buckets + g.num_buckets_ext) (hj : j < ASSOCIATIVITY) :
    (refresh g).vertices (b * ASSOCIATIVITY + j) = vertex_t.zero := by
  have := cfg.fits
  simp only [ASSOCIATIVITY] at *
  have hlt : b * 8 + j < g.num_slots := by omega
  simp [refresh, hlt]

theorem fresh_inv {σ : Type} (E : DynEnv σ) {blocks : σ → List (Nat × Nat)}
    (hash_u64 : Nat → Nat) {g0 : GStore} (cfg : Config g0) {heap : σ}
    (hheap : blocks heap = []) :
    DInv E blocks hash_u64 (DStore.fresh g0 heap) ∧
    vals hash_u64 (DStore.fresh g0 heap).g = fun _ => [] := by
  have wf := refresh_wf hash_u64 g0 cfg
  have hu : (refresh g0).used = g0.num_buckets := by simp [GStore.used, refresh]
  have hz : ∀ b j, b < (refresh g0).used → j < ASSOCIATIVITY - 1 →
      (refresh g0).key_at b j = ikey_t.zero := by
    intro b j hb hj
    rw [hu] at hb
    have := refresh_vertex g0 cfg (b := b) (j := j) (by omega) (by omega)
    simp only [GStore.key_at, this]
    rfl
  have hno : ∀ s, ¬ (refresh g0).Occ s := by
    rintro s ⟨c, j, hc, hj, _, hne⟩
    exact hne (hz c j hc hj)
  refine ⟨⟨wf, ?_, ⟨?_, ?_, ?_, ?_, ?_⟩, ?_, ?_⟩, ?_⟩
  · intro c j hc hj _
    have := refresh_vertex g0 cfg (b := c) (j := j) hc (by omega)
    show ((refresh g0).vertices (c * ASSOCIATIVITY + j)).ptr.size = 0
    rw [this]
    rfl
  · show (blocks heap).Pairwise Apart
    rw [hheap]
    exact List.Pairwise.nil
  · intro blk hb
    have hb2 : blk ∈ blocks heap := hb
    rw [hheap] at hb2
    exact absurd hb2 (List.not_mem_nil _)
  · rintro o ⟨s, hs, _⟩
    exact absurd hs (hno s)
  · intro q hq
    exact absurd hq (List.not_mem_nil _)
  · exact List.nodup_nil
  · intro s hs
    exact absurd hs (hno s)
  · intro s t hs
    exact absurd hs (hno s)
  · funext k
    by_cases hk : k = ikey_t.zero
    · rw [hk]
      exact vals_zero wf
    · apply vals_lacks wf
      intro c j hc hj e
      exact hk (e.symm.trans (hz c j hc hj))

theorem run_calls_effect {σ : Type} {E : DynEnv σ} {blocks : σ → List (Nat × Nat)}
    (ok : Malloc_OK E blocks) {hash_u64 : Nat → Nat} {versatile : Bool} (calls : List Call) :
    ∀ {st st2 : DStore σ}, DInv E blocks hash_u64 st →
    (∀ c, c ∈ calls → c.triple.wellformed) →
    run_calls E hash_u64 versatile st calls = .ok st2 →
    DInv E blocks hash_u64 st2 ∧
    vals hash_u64 st2.g = kv_run versatile (vals hash_u64 st.g) calls := by
  induction calls with
  | nil =>
    intro st st2 inv _ h
    injection h with h
    subst h
    exact ⟨inv, rfl⟩
  | cons c cs ih =>
    intro st st2 inv hwf h
    simp only [run_calls] at h
    obtain ⟨st1, h1, h⟩ := Outcome.bind_ok h
    have hc := hwf c (List.mem_cons_self _ _)
    have step : DInv E blocks hash_u64 st1 ∧ vals hash_u64 st1.g =
        (if c.out then kv_triple_out versatile (vals hash_u64 st.g) c.triple c.check_dup
         else kv_triple_in versatile (vals hash_u64 st.g) c.triple c.check_dup) := by
      simp only [Call.run] at h1
      by_cases co : c.out = true
      · rw [if_pos co] at h1 ⊢
        exact insert_triple_out_effect ok inv hc h1
      · rw [if_neg co] at h1 ⊢
        exact insert_triple_in_effect ok inv hc h1
    obtain ⟨i2, e2⟩ := ih step.1 (fun c2 h2 => hwf c2 (List.mem_cons_of_mem _ h2)) h
    refine ⟨i2, ?_⟩
    rw [e2, step.2]
    rfl

/-! ### Value lists without repetition -/

theorem push_same (m : KV) (k : ikey_t) (v : Nat) : m.push k v k = m k ++ [v] := by
  simp only [KV.push, if_true]

theorem push_other (m : KV) {k K : ikey_t} (v : Nat) (h : K ≠ k) : m.push k v K = m K := by
  simp only [KV.push, if_neg h]

theorem push_ne_nil (m : KV) (k : ikey_t) (v : Nat) {K : ikey_t} (h : m K ≠ []) :
    m.push k v K ≠ [] := by
  by_cases e : K = k
  · rw [e, push_same]
    exact List.append_ne_nil_of_right_ne_nil _ (List.cons_ne_nil _ _)
  · rw [push_other m v e]
    exact h

theorem push_mem (m : KV) (k : ikey_t) (v : Nat) {K : ikey_t} {x : Nat} (h : x ∈ m K) :
    x ∈ m.push k v K := by
  by_cases e : K = k
  · rw [e, push_same]
    exact List.mem_append_left _ (e ▸ h)
  · rw [push_other m v e]
    exact h

theorem mem_push {m : KV} {k : ikey_t} {v : Nat} {K : ikey_t} {x : Nat}
    (h : x ∈ m.push k v K) : x ∈ m K ∨ (K = k ∧ x = v) := by
  by_cases e : K = k
  · rw [e, push_same, List.mem_append, List.mem_singleton] at h
    rcases h with h | h
    · exact Or.inl (e ▸ h)
    · exact Or.inr ⟨e, h⟩
  · rw [push_other m v e] at h
    exact Or.inl h

/-- Appending a value that the list does not hold keeps the invariant, when the
new entry has its origin. -/
theorem KvInv.push {Ty : Nat → Prop} {m : KV} (inv : KvInv Ty m) (k : ikey_t) (v : Nat)
    (hnew : v ∉ m k)
    (n1 : ∀ p, ¬ Ty p → 2 ≤ p → k = ⟨0, p, IN⟩ → m ⟨v, p, OUT⟩ ≠ [])
    (n1t : ∀ t, Ty t → k = ⟨0, t, IN⟩ → t ∈ m ⟨v, TYPE_ID, OUT⟩)
    (n2 : ∀ p, 2 ≤ p → k = ⟨0, p, OUT⟩ → m ⟨v, p, IN⟩ ≠ [])
    (n3 : ∀ s, s ≠ 0 → k = ⟨s, PREDICATE_ID, OUT⟩ → m ⟨s, v, OUT⟩ ≠ [])
    (n4 : ∀ o, o ≠ 0 → k = ⟨o, PREDICATE_ID, IN⟩ → m ⟨o, v, IN⟩ ≠ [])
    (n5 : k = ⟨0, TYPE_ID, IN⟩ →
      m ⟨v, PREDICATE_ID, OUT⟩ ≠ [] ∨ m ⟨v, PREDICATE_ID, IN⟩ ≠ [])
    (n6 : k = ⟨0, TYPE_ID, OUT⟩ → m ⟨0, v, IN⟩ ≠ [])
    (n7 : k = ⟨0, PREDICATE_ID, OUT⟩ → m ⟨0, v, IN⟩ ≠ [] ∨ m ⟨0, v, OUT⟩ ≠ []) :
    KvInv Ty (m.push k v) := by
  constructor
  · intro K
    by_cases e : K = k
    · rw [e, push_same]
      exact List.Nodup.append (inv.nodup k) (List.nodup_singleton v)
        (by
          intro a ha hb
          rw [List.mem_singleton] at hb
          exact hnew (hb ▸ ha))
    · rw [push_other m v e]
      exact inv.nodup K
  · intro p s h1 h2 h
    apply push_ne_nil
    rcases mem_push h with h | ⟨e, rfl⟩
    · exact inv.j1 p s h1 h2 h
    · exact n1 p h1 h2 e.symm
  · intro t s h1 h
    apply push_mem
    rcases mem_push h with h | ⟨e, rfl⟩
    · exact inv.j1t t s h1 h
    · exact n1t t h1 e.symm
  · intro p o h1 h
    apply push_ne_nil
    rcases mem_push h with h | ⟨e, rfl⟩
    · exact inv.j2 p o h1 h
    · exact n2 p h1 e.symm
  · intro s x h1 h
    apply push_ne_nil
    rcases mem_push h with h | ⟨e, rfl⟩
    · exact inv.j3 s x h1 h
    · exact n3 s h1 e.symm
  · intro o x h1 h
    apply push_ne_nil
    rcases mem_push h with h | ⟨e, rfl⟩
    · exact inv.j4 o x h1 h
    · exact n4 o h1 e.symm
  · intro x h
    have key : m ⟨x, PREDICATE_ID, OUT⟩ ≠ [] ∨ m ⟨x, PREDICATE_ID, IN⟩ ≠ [] := by
      rcases mem_push h with h | ⟨e, rfl⟩
      · exact inv.j5 x h
      · exact n5 e.symm
    exact key.imp (push_ne_nil m k v) (push_ne_nil m k v)
  · intro t h
    apply push_ne_nil
    rcases mem_push h with h | ⟨e, rfl⟩
    · exact inv.j6 t h
    · exact n6 e.symm
  · intro p h
    have key : m ⟨0, p, IN⟩ ≠ [] ∨ m ⟨0, p, OUT⟩ ≠ [] := by
      rcases mem_push h with h | ⟨e, rfl⟩
      · exact inv.j7 p h
      · exact n7 e.symm
    exact key.imp (push_ne_nil m k v) (push_ne_nil m k v)

/-! ### `kv_insert` -/

theorem kv_insert_fst (m : KV) (k : ikey_t) (v : Nat) (d : Bool) :
    (kv_insert m k v d).1 = decide (m k = []) := by
  simp only [kv_insert]
  split_ifs with h1 h2
  · simp [h1]
  · simp [h1]
  · simp [h1]

theorem kv_insert_cases (m : KV) (k : ikey_t) (v : Nat) (d : Bool) :
    ((kv_insert m k v d).2.2 = m ∧ (kv_insert m k v d).2.1 = true ∧ d = true ∧ v ∈ m k ∧
      m k ≠ []) ∨
    ((kv_insert m k v d).2.2 = m.push k v ∧ (kv_insert m k v d).2.1 = false ∧
      (d = true → v ∉ m k)) := by
  simp only [kv_insert]
  split_ifs with h1 h2
  · right
    refine ⟨rfl, rfl, fun _ hv => ?_⟩
    rw [h1] at hv
    exact absurd hv (List.not_mem_nil _)
  · left
    simp only [Bool.and_eq_true, decide_eq_true_eq] at h2
    exact ⟨rfl, h2.1, h2.1, h2.2, h1⟩
  · right
    refine ⟨rfl, rfl, fun hd hv => h2 ?_⟩
    simp only [Bool.and_eq_true, decide_eq_true_eq]
    exact ⟨hd, hv⟩

theorem kv_insert_other (m : KV) {k K : ikey_t} (v : Nat) (d : Bool) (h : K ≠ k) :
    (kv_insert m k v d).2.2 K = m K := by
  rcases kv_insert_cases m k v d with ⟨e, _⟩ | ⟨e, _⟩
  · rw [e]
  · rw [e, push_other m v h]

theorem kv_insert_ne_nil (m : KV) (k : ikey_t) (v : Nat) (d : Bool) {K : ikey_t}
    (h : m K ≠ []) : (kv_insert m k v d).2.2 K ≠ [] := by
  rcases kv_insert_cases m k v d with ⟨e, _⟩ | ⟨e, _⟩
  · rw [e]; exact h
  · rw [e]; exact push_ne_nil m k v h

theorem kv_insert_mem (m : KV) (k : ikey_t) (v : Nat) (d : Bool) {K : ikey_t} {x : Nat}
    (h : x ∈ m K) : x ∈ (kv_insert m k v d).2.2 K := by
  rcases kv_insert_cases m k v d with ⟨e, _⟩ | ⟨e, _⟩
  · rw [e]; exact h
  · rw [e]; exact push_mem m k v h

theorem kv_insert_self (m : KV) (k : ikey_t) (v : Nat) (d : Bool) :
    v ∈ (kv_insert m k v d).2.2 k := by
  rcases kv_insert_cases m k v d with ⟨e, _, _, hv, _⟩ | ⟨e, _⟩
  · rw [e]; exact hv
  · rw [e, push_same]
    exact List.mem_append_right _ (List.mem_singleton_self v)

theorem kv_insert_self_ne_nil (m : KV) (k : ikey_t) (v : Nat) (d : Bool) :
    (kv_insert m k v d).2.2 k ≠ [] := List.ne_nil_of_mem (kv_insert_self m k v d)

/-- The general case of `kv_insert` keeping the invariant. -/
theorem kv_insert_inv {Ty : Nat → Prop} {m : KV} (inv : KvInv Ty m) (k : ikey_t) (v : Nat)
    (d : Bool) (hnew : d = false → v ∉ m k)
    (n1 : ∀ p, ¬ Ty p → 2 ≤ p → k = ⟨0, p, IN⟩ → m ⟨v, p, OUT⟩ ≠ [])
    (n1t : ∀ t, Ty t → k = ⟨0, t, IN⟩ → t ∈ m ⟨v, TYPE_ID, OUT⟩)
    (n2 : ∀ p, 2 ≤ p → k = ⟨0, p, OUT⟩ → m ⟨v, p, IN⟩ ≠ [])
    (n3 : ∀ s, s ≠ 0 → k = ⟨s, PREDICATE_ID, OUT⟩ → m ⟨s, v, OUT⟩ ≠ [])
    (n4 : ∀ o, o ≠ 0 → k = ⟨o, PREDICATE_ID, IN⟩ → m ⟨o, v, IN⟩ ≠ [])
    (n5 : k = ⟨0, TYPE_ID, IN⟩ →
      m ⟨v, PREDICATE_ID, OUT⟩ ≠ [] ∨ m ⟨v, PREDICATE_ID, IN⟩ ≠ [])
    (n6 : k = ⟨0, TYPE_ID, OUT⟩ → m ⟨0, v, IN⟩ ≠ [])
    (n7 : k = ⟨0, PREDICATE_ID, OUT⟩ → m ⟨0, v, IN⟩ ≠ [] ∨ m ⟨0, v, OUT⟩ ≠ []) :
    KvInv Ty (kv_insert m k v d).2.2 := by
  rcases kv_insert_cases m k v d with ⟨e, _⟩ | ⟨e, _, hd⟩
  · rw [e]; exact inv
  · rw [e]
    refine inv.push k v ?_ n1 n1t n2 n3 n4 n5 n6 n7
    cases d with
    | false => exact hnew rfl
    | true => exact hd rfl

/-! ### Appending to each kind of key -/

theorem KvInv.push_plain {Ty : Nat → Prop} {m : KV} (inv : KvInv Ty m) {k : ikey_t} {v : Nat}
    (hv : k.vid ≠ 0) (hp : k.pid ≠ 0) (hnew : v ∉ m k) : KvInv Ty (m.push k v) := by
  refine inv.push k v hnew ?_ ?_ ?_ ?_ ?_ ?_ ?_ ?_
  · intro p _ _ e; rw [e] at hv; exact absurd rfl hv
  · intro p _ e; rw [e] at hv; exact absurd rfl hv
  · intro p _ e; rw [e] at hv; exact absurd rfl hv
  · intro p _ e; rw [e] at hp; exact absurd rfl hp
  · intro p _ e; rw [e] at hp; exact absurd rfl hp
  · intro e; rw [e] at hv; exact absurd rfl hv
  · intro e; rw [e] at hv; exact absurd rfl hv
  · intro e; rw [e] at hv; exact absurd rfl hv

theorem KvInv.push_pidx_in {Ty : Nat → Prop} {m : KV} (inv : KvInv Ty m) {p s : Nat}
    (hty : ¬ Ty p) (hp : 2 ≤ p) (hnew : s ∉ m ⟨0, p, IN⟩) (h : m ⟨s, p, OUT⟩ ≠ []) :
    KvInv Ty (m.push ⟨0, p, IN⟩ s) := by
  have hd : IN ≠ OUT := by decide
  refine inv.push _ s hnew ?_ ?_ ?_ ?_ ?_ ?_ ?_ ?_
  · intro q _ _ e
    rw [ikey_t.mk.injEq] at e
    rw [← e.2.1]; exact h
  · intro q hq e
    rw [ikey_t.mk.injEq] at e
    rw [← e.2.1] at hq; exact absurd hq hty
  · intro q _ e
    rw [ikey_t.mk.injEq] at e
    exact absurd e.2.2 hd
  · intro q _ e
    rw [ikey_t.mk.injEq] at e
    exact absurd e.2.2 hd
  · intro q hq e
    rw [ikey_t.mk.injEq] at e
    exact absurd e.1.symm hq
  · intro e
    rw [ikey_t.mk.injEq] at e
    have := e.2.1
    simp only [TYPE_ID] at this
    omega
  · intro e
    rw [ikey_t.mk.injEq] at e
    exact absurd e.2.2 hd
  · intro e
    rw [ikey_t.mk.injEq] at e
    exact absurd e.2.2 hd

theorem KvInv.push_tidx {Ty : Nat → Prop} {m : KV} (inv : KvInv Ty m) {t s : Nat}
    (hty : Ty t) (ht : 2 ≤ t) (hnew : s ∉ m ⟨0, t, IN⟩) (h : t ∈ m ⟨s, TYPE_ID, OUT⟩) :
    KvInv Ty (m.push ⟨0, t, IN⟩ s) := by
  have hd : IN ≠ OUT := by decide
  refine inv.push _ s hnew ?_ ?_ ?_ ?_ ?_ ?_ ?_ ?_
  · intro q hq _ e
    rw [ikey_t.mk.injEq] at e
    rw [← e.2.1] at hq; exact absurd hty hq
  · intro q _ e
    rw [ikey_t.mk.injEq] at e
    rw [← e.2.1]; exact h
  · intro q _ e
    rw [ikey_t.mk.injEq] at e
    exact absurd e.2.2 hd
  · intro q _ e
    rw [ikey_t.mk.injEq] at e
    exact absurd e.2.2 hd
  · intro q hq e
    rw [ikey_t.mk.injEq] at e
    exact absurd e.1.symm hq
  · intro e
    rw [ikey_t.mk.injEq] at e
    have := e.2.1
    simp only [TYPE_ID] at this
    omega
  · intro e
    rw [ikey_t.mk.injEq] at e
    exact absurd e.2.2 hd
  · intro e
    rw [ikey_t.mk.injEq] at e
    exact absurd e.2.2 hd

theorem KvInv.push_pidx_out {Ty : Nat → Prop} {m : KV} (inv : KvInv Ty m) {p o : Nat}
    (hp : 2 ≤ p) (hnew : o ∉ m ⟨0, p, OUT⟩) (h : m ⟨o, p, IN⟩ ≠ []) :
    KvInv Ty (m.push ⟨0, p, OUT⟩ o) := by
  have hd : OUT ≠ IN := by decide
  refine inv.push _ o hnew ?_ ?_ ?_ ?_ ?_ ?_ ?_ ?_
  · intro q _ _ e
    rw [ikey_t.mk.injEq] at e
    exact absurd e.2.2 hd
  · intro q _ e
    rw [ikey_t.mk.injEq] at e
    exact absurd e.2.2 hd
  · intro q _ e
    rw [ikey_t.mk.injEq] at e
    rw [← e.2.1]; exact h
  · intro q hq e
    rw [ikey_t.mk.injEq] at e
    exact absurd e.1.symm hq
  · intro q _ e
    rw [ikey_t.mk.injEq] at e
    exact absurd e.2.2 hd
  · intro e
    rw [ikey_t.mk.injEq] at e
    exact absurd e.2.2 hd
  · intro e
    rw [ikey_t.mk.injEq] at e
    have := e.2.1
    simp only [TYPE_ID] at this
    omega
  · intro e
    rw [ikey_t.mk.injEq] at e
    have := e.2.1
    simp only [PREDICATE_ID] at this
    omega

theorem KvInv.push_vp_out {Ty : Nat → Prop} {m : KV} (inv : KvInv Ty m) {s x : Nat}
    (hs : s ≠ 0) (hnew : x ∉ m ⟨s, PREDICATE_ID, OUT⟩) (h : m ⟨s, x, OUT⟩ ≠ []) :
    KvInv Ty (m.push ⟨s, PREDICATE_ID, OUT⟩ x) := by
  have hd : OUT ≠ IN := by decide
  refine inv.push _ x hnew ?_ ?_ ?_ ?_ ?_ ?_ ?_ ?_
  · intro q _ _ e
    rw [ikey_t.mk.injEq] at e
    exact absurd e.2.2 hd
  · intro q _ e
    rw [ikey_t.mk.injEq] at e
    exact absurd e.2.2 hd
  · intro q _ e
    rw [ikey_t.mk.injEq] at e
    exact absurd e.1 hs
  · intro q _ e
    rw [ikey_t.mk.injEq] at e
    rw [← e.1]; exact h
  · intro q _ e
    rw [ikey_t.mk.injEq] at e
    exact absurd e.2.2 hd
  · intro e
    rw [ikey_t.mk.injEq] at e
    exact absurd e.2.2 hd
  · intro e
    rw [ikey_t.mk.injEq] at e
    exact absurd e.1 hs
  · intro e
    rw [ikey_t.mk.injEq] at e
    exact absurd e.1 hs

theorem KvInv.push_vp_in {Ty : Nat → Prop} {m : KV} (inv : KvInv Ty m) {o x : Nat}
    (ho : o ≠ 0) (hnew : x ∉ m ⟨o, PREDICATE_ID, IN⟩) (h : m ⟨o, x, IN⟩ ≠ []) :
    KvInv Ty (m.push ⟨o, PREDICATE_ID, IN⟩ x) := by
  have hd : IN ≠ OUT := by decide
  refine inv.push _ x hnew ?_ ?_ ?_ ?_ ?_ ?_ ?_ ?_
  · intro q _ _ e
    rw [ikey_t.mk.injEq] at e
    exact absurd e.1 ho
  · intro q _ e
    rw [ikey_t.mk.injEq] at e
    exact absurd e.1 ho
  · intro q _ e
    rw [ikey_t.mk.injEq] at e
    exact absurd e.1 ho
  · intro q _ e
    rw [ikey_t.mk.injEq] at e
    exact absurd e.2.2 hd
  · intro q _ e
    rw [ikey_t.mk.injEq] at e
    rw [← e.1]; exact h
  · intro e
    rw [ikey_t.mk.injEq] at e
    exact absurd e.1 ho
  · intro e
    rw [ikey_t.mk.injEq] at e
    exact absurd e.1 ho
  · intro e
    rw [ikey_t.mk.injEq] at e
    exact absurd e.1 ho

theorem KvInv.push_all_v {Ty : Nat → Prop} {m : KV} (inv : KvInv Ty m) {v : Nat}
    (hty : ¬ Ty TYPE_ID) (hnew : v ∉ m ⟨0, TYPE_ID, IN⟩)
    (h : m ⟨v, PREDICATE_ID, OUT⟩ ≠ [] ∨ m ⟨v, PREDICATE_ID, IN⟩ ≠ []) :
    KvInv Ty (m.push ⟨0, TYPE_ID, IN⟩ v) := by
  have hd : IN ≠ OUT := by decide
  refine inv.push _ v hnew ?_ ?_ ?_ ?_ ?_ ?_ ?_ ?_
  · intro q _ hq e
    rw [ikey_t.mk.injEq] at e
    have := e.2.1
    simp only [TYPE_ID] at this
    omega
  · intro q hq e
    rw [ikey_t.mk.injEq] at e
    rw [← e.2.1] at hq; exact absurd hq hty
  · intro q _ e
    rw [ikey_t.mk.injEq] at e
    exact absurd e.2.2 hd
  · intro q _ e
    rw [ikey_t.mk.injEq] at e
    exact absurd e.2.2 hd
  · intro q hq e
    rw [ikey_t.mk.injEq] at e
    exact absurd e.1.symm hq
  · intro _
    exact h
  · intro e
    rw [ikey_t.mk.injEq] at e
    exact absurd e.2.2 hd
  · intro e
    rw [ikey_t.mk.injEq] at e
    exact absurd e.2.2 hd

theorem KvInv.push_all_t {Ty : Nat → Prop} {m : KV} (inv : KvInv Ty m) {t : Nat}
    (hnew : t ∉ m ⟨0, TYPE_ID, OUT⟩) (h : m ⟨0, t, IN⟩ ≠ []) :
    KvInv Ty (m.push ⟨0, TYPE_ID, OUT⟩ t) := by
  have hd : OUT ≠ IN := by decide
  have h10 : TYPE_ID ≠ PREDICATE_ID := by decide
  refine inv.push _ t hnew ?_ ?_ ?_ ?_ ?_ ?_ ?_ ?_
  · intro q _ _ e
    rw [ikey_t.mk.injEq] at e
    exact absurd e.2.2 hd
  · intro q _ e
    rw [ikey_t.mk.injEq] at e
    exact absurd e.2.2 hd
  · intro q hq e
    rw [ikey_t.mk.injEq] at e
    have := e.2.1
    simp only [TYPE_ID] at this
    omega
  · intro q hq e
    rw [ikey_t.mk.injEq] at e
    exact absurd e.1.symm hq
  · intro q _ e
    rw [ikey_t.mk.injEq] at e
    exact absurd e.2.2 hd
  · intro e
    rw [ikey_t.mk.injEq] at e
    exact absurd e.2.2 hd
  · intro _
    exact h
  · intro e
    rw [ikey_t.mk.injEq] at e
    exact absurd e.2.1 h10

theorem KvInv.push_all_p {Ty : Nat → Prop} {m : KV} (inv : KvInv Ty m) {p : Nat}
    (hnew : p ∉ m ⟨0, PREDICATE_ID, OUT⟩) (h : m ⟨0, p, IN⟩ ≠ [] ∨ m ⟨0, p, OUT⟩ ≠ []) :
    KvInv Ty (m.push ⟨0, PREDICATE_ID, OUT⟩ p) := by
  have hd : OUT ≠ IN := by decide
  have h10 : PREDICATE_ID ≠ TYPE_ID := by decide
  refine inv.push _ p hnew ?_ ?_ ?_ ?_ ?_ ?_ ?_ ?_
  · intro q _ _ e
    rw [ikey_t.mk.injEq] at e
    exact absurd e.2.2 hd
  · intro q _ e
    rw [ikey_t.mk.injEq] at e
    exact absurd e.2.2 hd
  · intro q hq e
    rw [ikey_t.mk.injEq] at e
    have := e.2.1
    simp only [PREDICATE_ID] at this
    omega
  · intro q hq e
    rw [ikey_t.mk.injEq] at e
    exact absurd e.1.symm hq
  · intro q _ e
    rw [ikey_t.mk.injEq] at e
    exact absurd e.2.2 hd
  · intro e
    rw [ikey_t.mk.injEq] at e
    exact absurd e.2.2 hd
  · intro e
    rw [ikey_t.mk.injEq] at e
    exact absurd e.2.1 h10
  · intro _
    exact h

/-! ### `kv_indexed` -/

theorem kv_insert_false (m : KV) (k : ikey_t) (v : Nat) :
    (kv_insert m k v false).2.2 = m.push k v := by
  rcases kv_insert_cases m k v false with ⟨_, _, h, _⟩ | ⟨e, _⟩
  · exact absurd h (by decide)
  · exact e

theorem kv_indexed_cases (i : Bool) (m : KV) (key b : ikey_t) (v : Nat) (key2 : ikey_t)
    (v2 : Nat) :
    kv_indexed i m key b v key2 v2 = m.push key v ∨
    (m key = [] ∧ m.push key v b = [] ∧
      kv_indexed i m key b v key2 v2 = (m.push key v).push key2 v2) := by
  simp only [kv_indexed, kv_insert_false, kv_insert_fst]
  split_ifs with h1 h2
  · right
    simp only [Bool.and_eq_true, decide_eq_true_eq] at h1 h2
    exact ⟨h1, h2.1, rfl⟩
  · exact Or.inl rfl
  · exact Or.inl rfl

theorem kv_indexed_other (i : Bool) (m : KV) {key K : ikey_t} (b : ikey_t) (v : Nat)
    {key2 : ikey_t} (v2 : Nat) (h1 : K ≠ key) (h2 : K ≠ key2) :
    kv_indexed i m key b v key2 v2 K = m K := by
  rcases kv_indexed_cases i m key b v key2 v2 with e | ⟨_, _, e⟩
  · rw [e, push_other m v h1]
  · rw [e, push_other _ v2 h2, push_other m v h1]

theorem kv_indexed_ne_nil (i : Bool) (m : KV) (key b : ikey_t) (v : Nat) (key2 : ikey_t)
    (v2 : Nat) {K : ikey_t} (h : m K ≠ []) : kv_indexed i m key b v key2 v2 K ≠ [] := by
  rcases kv_indexed_cases i m key b v key2 v2 with e | ⟨_, _, e⟩
  · rw [e]; exact push_ne_nil m key v h
  · rw [e]; exact push_ne_nil _ key2 v2 (push_ne_nil m key v h)

theorem kv_indexed_mem (i : Bool) (m : KV) (key b : ikey_t) (v : Nat) (key2 : ikey_t)
    (v2 : Nat) {K : ikey_t} {x : Nat} (h : x ∈ m K) :
    x ∈ kv_indexed i m key b v key2 v2 K := by
  rcases kv_indexed_cases i m key b v key2 v2 with e | ⟨_, _, e⟩
  · rw [e]; exact push_mem m key v h
  · rw [e]; exact push_mem _ key2 v2 (push_mem m key v h)

theorem push_self_ne_nil (m : KV) (k : ikey_t) (v : Nat) : m.push k v k ≠ [] := by
  rw [push_same]
  exact List.append_ne_nil_of_right_ne_nil _ (List.cons_ne_nil _ _)

theorem push_nil {m : KV} {k : ikey_t} {v : Nat} {K : ikey_t} (h : m.push k v K = []) :
    m K = [] := by
  by_contra hc
  exact push_ne_nil m k v hc h

/-- The predicate index of subjects and the list of all predicates. -/
theorem kv_indexed_pidx_in {Ty : Nat → Prop} {m : KV} (inv : KvInv Ty m) {p s : Nat}
    (hty : ¬ Ty p) (hp : 2 ≤ p) (h : m ⟨s, p, OUT⟩ ≠ []) (hn : s ∉ m ⟨0, p, IN⟩) (i : Bool) :
    KvInv Ty (kv_indexed i m ⟨0, p, IN⟩ ⟨0, p, OUT⟩ s ⟨0, PREDICATE_ID, OUT⟩ p) := by
  have hd : OUT ≠ IN := by decide
  have a := inv.push_pidx_in hty hp hn h
  rcases kv_indexed_cases i m ⟨0, p, IN⟩ ⟨0, p, OUT⟩ s ⟨0, PREDICATE_ID, OUT⟩ p with
    e | ⟨e1, e2, e⟩
  · rw [e]; exact a
  · rw [e]
    refine a.push_all_p ?_ (Or.inl (push_self_ne_nil _ _ _))
    intro hx
    rcases mem_push hx with hx | ⟨e3, _⟩
    · rcases inv.j7 p hx with h7 | h7
      · exact h7 e1
      · exact h7 (push_nil e2)
    · exact hd (congrArg ikey_t.dir e3)

/-- The predicate index of objects and the list of all predicates. -/
theorem kv_indexed_pidx_out {Ty : Nat → Prop} {m : KV} (inv : KvInv Ty m) {p o : Nat}
    (hp : 2 ≤ p) (h : m ⟨o, p, IN⟩ ≠ []) (hn : o ∉ m ⟨0, p, OUT⟩) (i : Bool) :
    KvInv Ty (kv_indexed i m ⟨0, p, OUT⟩ ⟨0, p, IN⟩ o ⟨0, PREDICATE_ID, OUT⟩ p) := by
  have a := inv.push_pidx_out hp hn h
  rcases kv_indexed_cases i m ⟨0, p, OUT⟩ ⟨0, p, IN⟩ o ⟨0, PREDICATE_ID, OUT⟩ p with
    e | ⟨e1, e2, e⟩
  · rw [e]; exact a
  · rw [e]
    refine a.push_all_p ?_ (Or.inr (push_self_ne_nil _ _ _))
    intro hx
    rcases mem_push hx with hx | ⟨e3, _⟩
    · rcases inv.j7 p hx with h7 | h7
      · exact h7 (push_nil e2)
      · exact h7 e1
    · have := congrArg ikey_t.pid e3
      simp only [PREDICATE_ID] at this
      omega

/-- The predicates of a subject and the list of all vertices. -/
theorem kv_indexed_vp_out {Ty : Nat → Prop} {m : KV} (inv : KvInv Ty m) {s x : Nat}
    (hty : ¬ Ty TYPE_ID) (hs : s ≠ 0) (h : m ⟨s, x, OUT⟩ ≠ [])
    (hn : x ∉ m ⟨s, PREDICATE_ID, OUT⟩) (i : Bool) :
    KvInv Ty (kv_indexed i m ⟨s, PREDICATE_ID, OUT⟩ ⟨s, PREDICATE_ID, IN⟩ x
      ⟨0, TYPE_ID, IN⟩ s) := by
  have hd : IN ≠ OUT := by decide
  have a := inv.push_vp_out hs hn h
  rcases kv_indexed_cases i m ⟨s, PREDICATE_ID, OUT⟩ ⟨s, PREDICATE_ID, IN⟩ x
    ⟨0, TYPE_ID, IN⟩ s with e | ⟨e1, e2, e⟩
  · rw [e]; exact a
  · rw [e]
    refine a.push_all_v hty ?_ (Or.inl (push_self_ne_nil _ _ _))
    intro hx
    rcases mem_push hx with hx | ⟨e3, _⟩
    · rcases inv.j5 s hx with h5 | h5
      · exact h5 e1
      · exact h5 (push_nil e2)
    · exact hd (congrArg ikey_t.dir e3)

/-- The predicates of an object and the list of all vertices. -/
theorem kv_indexed_vp_in {Ty : Nat → Prop} {m : KV} (inv : KvInv Ty m) {o x : Nat}
    (hty : ¬ Ty TYPE_ID) (ho : o ≠ 0) (h : m ⟨o, x, IN⟩ ≠ [])
    (hn : x ∉ m ⟨o, PREDICATE_ID, IN⟩) (i : Bool) :
    KvInv Ty (kv_indexed i m ⟨o, PREDICATE_ID, IN⟩ ⟨o, PREDICATE_ID, OUT⟩ x
      ⟨0, TYPE_ID, IN⟩ o) := by
  have a := inv.push_vp_in ho hn h
  rcases kv_indexed_cases i m ⟨o, PREDICATE_ID, IN⟩ ⟨o, PREDICATE_ID, OUT⟩ x
    ⟨0, TYPE_ID, IN⟩ o with e | ⟨e1, e2, e⟩
  · rw [e]; exact a
  · rw [e]
    refine a.push_all_v hty ?_ (Or.inr (push_self_ne_nil _ _ _))
    intro hx
    rcases mem_push hx with hx | ⟨e3, _⟩
    · rcases inv.j5 o hx with h5 | h5
      · exact h5 (push_nil e2)
      · exact h5 e1
    · exact ho (congrArg ikey_t.vid e3).symm

/-- A deduplicating insert under a key of a vertex and a predicate. -/
theorem kv_insert_plain {Ty : Nat → Prop} {m : KV} (inv : KvInv Ty m) {k : ikey_t}
    (hv : k.vid ≠ 0) (hp : k.pid ≠ 0) (v : Nat) : KvInv Ty (kv_insert m k v true).2.2 := by
  rcases kv_insert_cases m k v true with ⟨e, _⟩ | ⟨e, _, hd⟩
  · rw [e]; exact inv
  · rw [e]; exact inv.push_plain hv hp (hd rfl)

theorem kv_insert_nil {m : KV} {k : ikey_t} {v : Nat} {d : Bool}
    (h : (kv_insert m k v d).1 = true) : m k = [] := by
  rw [kv_insert_fst] at h
  exact of_decide_eq_true h

/-! ### The online methods keep the lists free of repetition -/

theorem kv_type_head_other (ver : Bool) (m : KV) (t : triple_t) {K : ikey_t}
    (h1 : K ≠ ⟨t.s, t.p, OUT⟩) (h2 : K ≠ ⟨t.s, PREDICATE_ID, OUT⟩)
    (h3 : K ≠ ⟨0, TYPE_ID, IN⟩) : kv_type_head ver m t K = m K := by
  simp only [kv_type_head]
  split_ifs
  · rw [kv_indexed_other _ _ _ _ _ h2 h3, kv_insert_other m _ _ h1]
  · rw [kv_insert_other m _ _ h1]

theorem kv_type_head_mem (ver : Bool) (m : KV) (t : triple_t) {K : ikey_t} {x : Nat}
    (h : x ∈ (kv_insert m ⟨t.s, t.p, OUT⟩ t.o true).2.2 K) : x ∈ kv_type_head ver m t K := by
  simp only [kv_type_head]
  split_ifs
  · exact kv_indexed_mem _ _ _ _ _ _ _ h
  · exact h

theorem kv_type_head_inv {Ty : Nat → Prop} {m : KV} (inv : KvInv Ty m) (hty : ¬ Ty TYPE_ID)
    {t : triple_t} (ht : t.wellformed) (ver : Bool) : KvInv Ty (kv_type_head ver m t) := by
  obtain ⟨hs, hp, _, _, _, _⟩ := wellformed_ids ht
  have inv1 : KvInv Ty (kv_insert m ⟨t.s, t.p, OUT⟩ t.o true).2.2 :=
    kv_insert_plain inv hs hp t.o
  simp only [kv_type_head]
  split_ifs with h
  · simp only [Bool.and_eq_true] at h
    refine kv_indexed_vp_out inv1 hty hs (kv_insert_self_ne_nil _ _ _ _) ?_ true
    rw [kv_insert_other m _ _ (fun e => hp (congrArg ikey_t.pid e).symm)]
    intro hx
    exact inv.j3 t.s t.p hs hx (kv_insert_nil h.1)
  · exact inv1

theorem kv_triple_out_inv {Ty : Nat → Prop} {m : KV} (inv : KvInv Ty m) (hty : ¬ Ty TYPE_ID)
    {t : triple_t} (ht : t.wellformed) (hT : t.p = TYPE_ID → Ty t.o)
    (hP : t.p ≠ TYPE_ID → ¬ Ty t.p) (ver : Bool) :
    KvInv Ty (kv_triple_out ver m t true) := by
  obtain ⟨hs, hp, ho, hn, hy, _⟩ := wellformed_ids ht
  have hd : IN ≠ OUT := by decide
  have inv1 : KvInv Ty (kv_insert m ⟨t.s, t.p, OUT⟩ t.o true).2.2 :=
    kv_insert_plain inv hs hp t.o
  simp only [kv_triple_out]
  by_cases hpt : t.p = TYPE_ID
  · rw [if_pos hpt]
    have invh := kv_type_head_inv inv hty ht ver
    have ho2 := (hy hpt).1
    have h1 : (1 : Nat) = TYPE_ID := rfl
    by_cases hdup : (kv_insert m ⟨t.s, t.p, OUT⟩ t.o true).2.1 = true
    · rw [if_neg (by simp [hdup])]
      exact invh
    · rw [if_pos (by simpa using hdup)]
      have hfresh : t.o ∉ m ⟨t.s, t.p, OUT⟩ := by
        rcases kv_insert_cases m ⟨t.s, t.p, OUT⟩ t.o true with ⟨_, e, _⟩ | ⟨_, _, e⟩
        · exact absurd e hdup
        · exact e rfl
      have hk : kv_type_head ver m t ⟨0, t.o, IN⟩ = m ⟨0, t.o, IN⟩ :=
        kv_type_head_other ver m t (fun e => hd (congrArg ikey_t.dir e))
          (fun e => hd (congrArg ikey_t.dir e))
          (fun e => by
            have := congrArg ikey_t.pid e
            simp only [TYPE_ID] at this
            omega)
      have inv4 : KvInv Ty ((kv_type_head ver m t).push ⟨0, t.o, IN⟩ t.s) := by
        refine invh.push_tidx (hT hpt) ho2 ?_ ?_
        · rw [hk]
          intro hx
          have := inv.j1t t.o t.s (hT hpt) hx
          rw [← hpt] at this
          exact hfresh this
        · apply kv_type_head_mem
          rw [← hpt]
          exact kv_insert_self _ _ _ _
      simp only [kv_insert_false]
      split_ifs with h5
      · simp only [Bool.and_eq_true] at h5
        have hnil := kv_insert_nil h5.1
        refine inv4.push_all_t ?_ (push_self_ne_nil _ _ _)
        rw [push_other _ _ (fun e => hd (congrArg ikey_t.dir e).symm),
          kv_type_head_other ver m t (fun e => hs (congrArg ikey_t.vid e).symm)
            (fun e => hs (congrArg ikey_t.vid e).symm)
            (fun e => hd (congrArg ikey_t.dir e).symm)]
        intro hx
        rw [hk] at hnil
        exact inv.j6 t.o hx hnil
      · exact inv4
  · rw [if_neg hpt]
    have hp2 := (hn hpt).1
    split_ifs with h6 hv
    · have hnil := kv_insert_nil h6
      have inva : KvInv Ty (kv_indexed ver (kv_insert m ⟨t.s, t.p, OUT⟩ t.o true).2.2
          ⟨0, t.p, IN⟩ ⟨0, t.p, OUT⟩ t.s ⟨0, PREDICATE_ID, OUT⟩ t.p) := by
        refine kv_indexed_pidx_in inv1 (hP hpt) hp2 (kv_insert_self_ne_nil _ _ _ _) ?_ ver
        rw [kv_insert_other m _ _ (fun e => hs (congrArg ikey_t.vid e).symm)]
        intro hx
        exact inv.j1 t.p t.s (hP hpt) hp2 hx hnil
      refine kv_indexed_vp_out inva hty hs
        (kv_indexed_ne_nil _ _ _ _ _ _ _ (kv_insert_self_ne_nil _ _ _ _)) ?_ true
      rw [kv_indexed_other _ _ _ _ _ (fun e => hd (congrArg ikey_t.dir e).symm)
          (fun e => hs (congrArg ikey_t.vid e)),
        kv_insert_other m _ _ (fun e => hp (congrArg ikey_t.pid e).symm)]
      intro hx
      exact inv.j3 t.s t.p hs hx hnil
    · have hnil := kv_insert_nil h6
      refine kv_indexed_pidx_in inv1 (hP hpt) hp2 (kv_insert_self_ne_nil _ _ _ _) ?_ ver
      rw [kv_insert_other m _ _ (fun e => hs (congrArg ikey_t.vid e).symm)]
      intro hx
      exact inv.j1 t.p t.s (hP hpt) hp2 hx hnil
    · exact inv1

theorem kv_triple_in_inv {Ty : Nat → Prop} {m : KV} (inv : KvInv Ty m) (hty : ¬ Ty TYPE_ID)
    {t : triple_t} (ht : t.wellformed) (ver : Bool) :
    KvInv Ty (kv_triple_in ver m t true) := by
  obtain ⟨hs, hp, ho, hn, hy, _⟩ := wellformed_ids ht
  have hd : IN ≠ OUT := by decide
  simp only [kv_triple_in]
  by_cases hpt : t.p = TYPE_ID
  · rw [if_pos hpt]
    exact inv
  · rw [if_neg hpt]
    have hp2 := (hn hpt).1
    have inv1 : KvInv Ty (kv_insert m ⟨t.o, t.p, IN⟩ t.s true).2.2 :=
      kv_insert_plain inv ho hp t.s
    split_ifs with h6 hv
    · have hnil := kv_insert_nil h6
      have inva : KvInv Ty (kv_indexed ver (kv_insert m ⟨t.o, t.p, IN⟩ t.s true).2.2
          ⟨0, t.p, OUT⟩ ⟨0, t.p, IN⟩ t.o ⟨0, PREDICATE_ID, OUT⟩ t.p) := by
        refine kv_indexed_pidx_out inv1 hp2 (kv_insert_self_ne_nil _ _ _ _) ?_ ver
        rw [kv_insert_other m _ _ (fun e => ho (congrArg ikey_t.vid e).symm)]
        intro hx
        exact inv.j2 t.p t.o hp2 hx hnil
      refine kv_indexed_vp_in inva hty ho
        (kv_indexed_ne_nil _ _ _ _ _ _ _ (kv_insert_self_ne_nil _ _ _ _)) ?_ true
      rw [kv_indexed_other _ _ _ _ _ (fun e => hd (congrArg ikey_t.dir e))
          (fun e => hd (congrArg ikey_t.dir e)),
        kv_insert_other m _ _ (fun e => hp (congrArg ikey_t.pid e).symm)]
      intro hx
      exact inv.j4 t.o t.p ho hx hnil
    · have hnil := kv_insert_nil h6
      refine kv_indexed_pidx_out inv1 hp2 (kv_insert_self_ne_nil _ _ _ _) ?_ ver
      rw [kv_insert_other m _ _ (fun e => ho (congrArg ikey_t.vid e).symm)]
      intro hx
      exact inv.j2 t.p t.o hp2 hx hnil
    · exact inv1

theorem kv_empty_inv (Ty : Nat → Prop) : KvInv Ty (fun _ => []) :=
  ⟨fun _ => List.nodup_nil, fun _ _ _ _ h => absurd h (List.not_mem_nil _),
    fun _ _ _ h => absurd h (List.not_mem_nil _), fun _ _ _ h => absurd h (List.not_mem_nil _),
    fun _ _ _ h => absurd h (List.not_mem_nil _), fun _ _ _ h => absurd h (List.not_mem_nil _),
    fun _ h => absurd h (List.not_mem_nil _), fun _ h => absurd h (List.not_mem_nil _),
    fun _ h => absurd h (List.not_mem_nil _)⟩

theorem kv_run_inv {Ty : Nat → Prop} (hty : ¬ Ty TYPE_ID) (ver : Bool) (calls : List Call) :
    ∀ {m : KV}, KvInv Ty m → (∀ c, c ∈ calls → c.check_dup = true) →
    (∀ c, c ∈ calls → c.triple.wellformed) →
    (∀ c, c ∈ calls → c.out = true → c.triple.p = TYPE_ID → Ty c.triple.o) →
    (∀ c, c ∈ calls → c.out = true → c.triple.p ≠ TYPE_ID → ¬ Ty c.triple.p) →
    KvInv Ty (kv_run ver m calls) := by
  induction calls with
  | nil => intro m inv _ _ _ _; exact inv
  | cons c cs ih =>
    intro m inv h1 h2 h3 h4
    simp only [kv_run]
    apply ih
    · have e := h1 c (List.mem_cons_self _ _)
      by_cases hc : c.out = true
      · rw [if_pos hc, e]
        exact kv_triple_out_inv inv hty (h2 c (List.mem_cons_self _ _))
          (h3 c (List.mem_cons_self _ _) hc) (h4 c (List.mem_cons_self _ _) hc) ver
      · rw [if_neg hc, e]
        exact kv_triple_in_inv inv hty (h2 c (List.mem_cons_self _ _)) ver
    · exact fun x hx => h1 x (List.mem_cons_of_mem _ hx)
    · exact fun x hx => h2 x (List.mem_cons_of_mem _ hx)
    · exact fun x hx => h3 x (List.mem_cons_of_mem _ hx)
    · exact fun x hx => h4 x (List.mem_cons_of_mem _ hx)

theorem le_block_top {s : List (Nat × Nat)} {blk : Nat × Nat} (h : blk ∈ s) :
    blk.1 + blk.2 ≤ block_top s := by
  induction s with
  | nil => exact absurd h (List.not_mem_nil _)
  | cons a s ih =>
    simp only [block_top]
    rcases List.mem_cons.mp h with rfl | h
    · exact le_max_left _ _
    · exact le_trans (ih h) (le_max_right _ _)

theorem block_malloc_ok : Malloc_OK block_env id := by
  have hb : ∀ n, blksz block_env n = 16 * ((n * 4 + 15) / 16) / 4 := fun _ => rfl
  have hsz : (2 : Nat) ^ NBITS_SIZE = 268435456 := by decide
  refine ⟨?_, ?_, ?_, ?_, ?_⟩
  · intro n
    rw [hb]
    omega
  · intro n m h1 h2
    rw [hb] at h2 ⊢
    rw [hb]
    omega
  · intro n h
    rw [hb, hsz]
    rw [hsz] at h
    omega
  · intro s n tid b s2 h
    have e : b = e2b (block_top s) ∧
        s2 = (block_top s, b2e (16 * ((e2b n + 15) / 16))) :: s := by
      simp only [block_env, block_malloc] at h
      injection h with h
      injection h with h1 h2
      exact ⟨h1.symm, h2.symm⟩
    obtain ⟨rfl, rfl⟩ := e
    rw [b2e_e2b]
    refine ⟨rfl, fun blk hblk => Or.inr ?_⟩
    exact le_block_top hblk
  · intro s o
    simp only [block_env, block_malloc, b2e_e2b, id]

/-- In a store that online calls with dedup reach from the empty store, the
value lists are those of the list model, and they hold no value twice. -/
theorem online_vals_nodup {σ : Type} {E : DynEnv σ} {blocks : σ → List (Nat × Nat)}
    (ok : Malloc_OK E blocks) (hash_u64 : Nat → Nat) (versatile : Bool) {g0 : GStore}
    (cfg : Config g0) {heap : σ} (hheap : blocks heap = []) {calls : List Call}
    (hdup : ∀ c, c ∈ calls → c.check_dup = true)
    (hwf : ∀ c, c ∈ calls → c.triple.wellformed)
    (hap : TypesApart (calls.map Call.triple)) {st : DStore σ}
    (hrun : online E hash_u64 versatile g0 heap calls = .ok st) :
    WF hash_u64 st.g ∧ ∀ k, (vals hash_u64 st.g k).Nodup := by
  obtain ⟨inv0, hv0⟩ := fresh_inv E hash_u64 cfg hheap
  obtain ⟨inv, hv⟩ := run_calls_effect ok calls inv0 hwf hrun
  refine ⟨inv.wf, fun k => ?_⟩
  rw [hv, hv0]
  have hty : ¬ type_ids calls TYPE_ID := by
    rintro ⟨c, hc, hp, ho⟩
    have := ((wellformed_ids (hwf c hc)).2.2.2.2.1 hp).1
    rw [ho] at this
    simp only [TYPE_ID] at this
    omega
  refine (kv_run_inv hty versatile calls (kv_empty_inv _) hdup hwf ?_ ?_).nodup k
  · intro c hc _ hp
    exact ⟨c, hc, hp, rfl⟩
  · intro c hc _ _
    rintro ⟨c2, hc2, hp2, ho2⟩
    exact hap c2.triple c.triple (List.mem_map_of_mem _ hc2) (List.mem_map_of_mem _ hc) hp2
      ho2.symm

theorem ikey_make_iff (v p d : Nat) :
    ikey_t.make v p d = .ok ⟨v, p, d⟩ ↔
      (v < 2 ^ NBITS_VID ∧ p < 2 ^ NBITS_IDX ∧ d < 2 ^ NBITS_DIR) := by
  constructor
  · intro h
    simp only [ikey_t.make] at h
    split_ifs at h with hc
    obtain ⟨h1, h2, h3⟩ := hc
    have e1 : (0 : Nat) < 2 ^ NBITS_VID := by decide
    have e2 : (0 : Nat) < 2 ^ NBITS_IDX := by decide
    have e3 : (0 : Nat) < 2 ^ NBITS_DIR := by decide
    exact ⟨h1 ▸ Nat.mod_lt _ e1, h3 ▸ Nat.mod_lt _ e2, h2 ▸ Nat.mod_lt _ e3⟩
  · rintro ⟨h1, h2, h3⟩
    exact ikey_make_ok h1 h2 h3

theorem ikey_make_abort {v p d : Nat}
    (h : ¬ (v < 2 ^ NBITS_VID ∧ p < 2 ^ NBITS_IDX ∧ d < 2 ^ NBITS_DIR)) :
    ikey_t.make v p d = .abort := by
  simp only [ikey_t.make]
  split_ifs with hc
  · exfalso
    apply h
    obtain ⟨h1, h2, h3⟩ := hc
    have e1 : (0 : Nat) < 2 ^ NBITS_VID := by decide
    have e2 : (0 : Nat) < 2 ^ NBITS_IDX := by decide
    have e3 : (0 : Nat) < 2 ^ NBITS_DIR := by decide
    exact ⟨h1 ▸ Nat.mod_lt _ e1, h3 ▸ Nat.mod_lt _ e2, h2 ▸ Nat.mod_lt _ e3⟩
  · rfl

theorem iptr_make_full {s o t : Nat} (hs : s < 2 ^ NBITS_SIZE) (ho : o < 2 ^ NBITS_PTR)
    (ht : t < 2 ^ NBITS_TYPE) : iptr_t.make s o t = .ok ⟨s, o, t⟩ := by
  simp only [iptr_t.make, Nat.mod_eq_of_lt hs, Nat.mod_eq_of_lt ho, Nat.mod_eq_of_lt ht,
    and_self, if_true]

theorem iptr_make_abort {s o t : Nat}
    (h : ¬ (s < 2 ^ NBITS_SIZE ∧ o < 2 ^ NBITS_PTR ∧ t < 2 ^ NBITS_TYPE)) :
    iptr_t.make s o t = .abort := by
  simp only [iptr_t.make]
  split_ifs with hc
  · exfalso
    apply h
    obtain ⟨h1, h2, h3⟩ := hc
    have e1 : (0 : Nat) < 2 ^ NBITS_SIZE := by decide
    have e2 : (0 : Nat) < 2 ^ NBITS_PTR := by decide
    have e3 : (0 : Nat) < 2 ^ NBITS_TYPE := by decide
    exact ⟨h1 ▸ Nat.mod_lt _ e1, h2 ▸ Nat.mod_lt _ e2, h3 ▸ Nat.mod_lt _ e3⟩
  · rfl

theorem packed_eq {k : ikey_t} (h : k.fits) :
    k.packed = k.vid * 2 ^ 18 + k.pid * 2 + k.dir ∧ k.packed < 2 ^ 64 := by
  obtain ⟨h1, h2, h3⟩ := h
  have e1 : (2 : Nat) ^ NBITS_VID = 70368744177664 := by decide
  have e2 : (2 : Nat) ^ NBITS_IDX = 131072 := by decide
  have e3 : (2 : Nat) ^ NBITS_DIR = 2 := by decide
  have e4 : (2 : Nat) ^ 64 = 18446744073709551616 := by norm_num
  have e5 : (2 : Nat) ^ 18 = 262144 := by norm_num
  rw [e1] at h1
  rw [e2] at h2
  rw [e3] at h3
  simp only [ikey_t.packed, e2, e3, e4, e5, Nat.zero_add]
  omega

/-! ### One chain growing -/

theorem Outcome.ok_get {α : Type} {x : Outcome α} (h : x.returns = true) (d : α) :
    x = .ok (x.get d) := by
  cases x with
  | ok a => rfl
  | abort => exact Bool.noConfusion h
  | nofuel => exact Bool.noConfusion h

theorem chain_bucket_cases (g : GStore) (h m : Nat) :
    (m = 0 ∧ chain_bucket g h m = h) ∨ (0 < m ∧ chain_bucket g h m = g.num_buckets + (m - 1)) := by
  simp only [chain_bucket]
  split_ifs with e
  · exact Or.inl ⟨e, rfl⟩
  · exact Or.inr ⟨Nat.pos_of_ne_zero e, rfl⟩

theorem chain_bucket_congr {g g2 : GStore} (e : g2.num_buckets = g.num_buckets) (h m : Nat) :
    chain_bucket g2 h m = chain_bucket g h m := by
  simp only [chain_bucket, e]

theorem Filled.on_chain {hash_u64 : Nat → Nat} {g : GStore} {h : Nat} {ks : List ikey_t}
    (F : Filled hash_u64 g h ks) : ∀ {a c : Nat}, OnChain g a c →
    ∀ m, a = chain_bucket g h m → m ≤ g.last_ext →
    ∃ m2, m ≤ m2 ∧ m2 ≤ g.last_ext ∧ c = chain_bucket g h m2 := by
  intro a c hch
  induction hch with
  | refl b =>
    intro m e hm
    exact ⟨m, le_refl _, hm, e⟩
  | head hl _ ih =>
    intro m e hm
    subst e
    have hne : m ≠ g.last_ext := by
      intro e2
      rw [e2] at hl
      exact hl F.last
    have hlk := F.links m (by omega)
    obtain ⟨m2, h1, h2, h3⟩ := ih (m + 1) (by rw [hlk]) (by omega)
    exact ⟨m2, by omega, h2, h3⟩

theorem Filled.end_of_chain {hash_u64 : Nat → Nat} {g : GStore} {h : Nat} {ks : List ikey_t}
    (F : Filled hash_u64 g h ks) {m : Nat} (hm : m ≤ g.last_ext)
    (hl : g.link (chain_bucket g h m) = ikey_t.zero) : m = g.last_ext := by
  by_contra hne
  have hlk := F.links m (by omega)
  rw [hlk] at hl
  have hv := congrArg ikey_t.vid hl
  have hb := F.hb
  rcases chain_bucket_cases g h (m + 1) with ⟨h1, _⟩ | ⟨_, h2⟩
  · omega
  · rw [h2] at hv
    have : (ikey_t.zero).vid = 0 := rfl
    rw [this] at hv
    simp only at hv
    omega

theorem Filled.full_len {hash_u64 : Nat → Nat} {g : GStore} {h : Nat} {ks : List ikey_t}
    (F : Filled hash_u64 g h ks)
    (hf : ∀ j, j < ASSOCIATIVITY - 1 → g.key_at (chain_bucket g h g.last_ext) j ≠ ikey_t.zero) :
    ks.length = 7 * g.last_ext + 7 := by
  have h6 := hf 6 (by decide)
  have hb := F.blank g.last_ext 6 (le_refl _) (by decide)
  have he := F.ext
  by_cases hc : ks.length ≤ 7 * g.last_ext + 6
  · exact absurd (hb hc) h6
  · omega

theorem Filled.at_refresh (hash_u64 : Nat → Nat) {g0 : GStore} (cfg : Config g0) {h : Nat}
    (hb : h < g0.num_buckets) : Filled hash_u64 (refresh g0) h [] := by
  have hz : ∀ b j, b < g0.num_buckets + g0.num_buckets_ext → j < ASSOCIATIVITY →
      (refresh g0).key_at b j = ikey_t.zero := by
    intro b j hb2 hj
    have hf := cfg.fits
    simp only [ASSOCIATIVITY] at hf hj
    simp only [GStore.key_at, refresh, ASSOCIATIVITY]
    rw [if_pos (by omega)]
    rfl
  refine ⟨refresh_wf hash_u64 g0 cfg, hb, rfl, fun k hk => absurd hk (List.not_mem_nil _),
    fun i hi => absurd hi (Nat.not_lt_zero _), ?_, fun m hm => absurd hm (Nat.not_lt_zero _), ?_,
    ?_⟩
  · intro m j hm hj _
    have : m = 0 := Nat.le_zero.1 hm
    subst this
    exact hz _ _ (by simp only [chain_bucket, if_true]; exact Nat.lt_add_right _ hb)
      (by simp only [ASSOCIATIVITY]; omega)
  · exact hz _ _ (by
      show chain_bucket (refresh g0) h 0 < _
      simp only [chain_bucket, if_true]
      exact Nat.lt_add_right _ hb) (by decide)
  · intro c j hc hj hne
    exact absurd (hz c j (by
      have : (refresh g0).used = g0.num_buckets := by simp [GStore.used, refresh]
      rw [this] at hc
      exact Nat.lt_add_right _ hc) (by simp only [ASSOCIATIVITY]; omega)) hne

theorem getD_mem_of_lt {ks : List ikey_t} {i : Nat} (hi : i < ks.length) :
    ks.getD i ikey_t.zero ∈ ks := by
  rw [List.getD_eq_getElem _ _ hi]
  exact List.getElem_mem _

/-- One more key of the same main bucket. -/
theorem Filled.add_key {hash_u64 : Nat → Nat} {g : GStore} {h : Nat} {ks : List ikey_t}
    (F : Filled hash_u64 g h ks) {k : ikey_t} (hk : k ≠ ikey_t.zero) (hnew : k ∉ ks)
    (hh : home hash_u64 g k = h) (hroom : ks.length / 7 ≤ g.num_buckets_ext)
    (check_dup : Bool) :
    ∃ s g2, insert_key hash_u64 g k check_dup = .ok (s, g2) ∧
      Filled hash_u64 g2 h (ks ++ [k]) ∧ g2.num_buckets = g.num_buckets ∧
      g2.num_buckets_ext = g.num_buckets_ext := by
  have wf := F.wf
  have hb := F.hb
  have hext := F.ext
  have hlacks : g.lacks k := by
    intro c j hc hj e
    exact hnew (e ▸ F.only c j hc hj (by rw [e]; exact hk))
  have hstart : home hash_u64 g k = chain_bucket g h 0 := by
    rw [hh]
    simp only [chain_bucket, if_true]
  have hspec := insert_key_spec wf k check_dup
  generalize hr : insert_key hash_u64 g k check_dup = r at hspec
  cases hspec with
  | dup_abort c j _ hc hj e => exact absurd e (hlacks c j hc hj)
  | found c j _ hc hj e => exact absurd e (hlacks c j hc hj)
  | full_abort c hc hch hl hf hfs _ =>
    obtain ⟨m, _, hm, rfl⟩ := F.on_chain hch 0 hstart (Nat.zero_le _)
    have hml := F.end_of_chain hm hl
    subst hml
    have hlen := F.full_len hf
    omega
  | fill c j hc hj hz hpre _ _ hch =>
    obtain ⟨m, _, hm, rfl⟩ := F.on_chain hch 0 hstart (Nat.zero_le _)
    have hj7 : j < 7 := hj
    have hlen : 7 * m + j = ks.length := by
      have h1 : ks.length ≤ 7 * m + j := by
        by_contra hc2
        have hp := F.place (7 * m + j) (by omega)
        have e1 : (7 * m + j) / 7 = m := by omega
        have e2 : (7 * m + j) % 7 = j := by omega
        rw [e1, e2, hz] at hp
        exact F.nz _ (getD_mem_of_lt (by omega)) hp.symm
      have h2 : 7 * m + j ≤ ks.length := by
        by_cases hj0 : j = 0
        · omega
        · have hp := hpre (j - 1) (by omega)
          by_contra hc2
          exact hp (F.blank m (j - 1) hm (by omega) (by omega))
      omega
    obtain ⟨g2, hg2⟩ : ∃ g2, g2 = g.set_key (chain_bucket g h m * ASSOCIATIVITY + j) k :=
      ⟨_, rfl⟩
    rw [← hg2] at hr
    have hkey : ∀ b i, g2.key_at b i =
        if b * 8 + i = chain_bucket g h m * 8 + j then k else g.key_at b i := by
      intro b i
      rw [hg2]
      exact set_key_key_at g _ k b i
    have hnb : g2.num_buckets = g.num_buckets := by rw [hg2]; rfl
    have hnbe : g2.num_buckets_ext = g.num_buckets_ext := by rw [hg2]; rfl
    have hle : g2.last_ext = g.last_ext := by rw [hg2]; rfl
    have hcb : ∀ x, chain_bucket g2 h x = chain_bucket g h x := chain_bucket_congr hnb h
    have hu2 : g2.used = g.num_buckets + g.last_ext := by
      simp only [GStore.used, hnb, hle]
    rw [← hg2]
    refine ⟨_, g2, rfl, ⟨insert_key_wf wf hr, by rw [hnb]; exact hb, ?_, ?_, ?_, ?_, ?_, ?_, ?_⟩,
      hnb, hnbe⟩
    · rw [hle, List.length_append, List.length_singleton]
      omega
    · intro x hx
      rcases List.mem_append.1 hx with hx | hx
      · exact F.nz x hx
      · rw [List.mem_singleton.1 hx]
        exact hk
    · intro i hi
      rw [List.length_append, List.length_singleton] at hi
      rw [hcb, hkey]
      by_cases hil : i < ks.length
      · have hne : chain_bucket g h (i / 7) * 8 + i % 7 ≠ chain_bucket g h m * 8 + j := by
          intro e
          rcases chain_bucket_cases g h (i / 7) with ⟨a1, a2⟩ | ⟨a1, a2⟩ <;>
            rcases chain_bucket_cases g h m with ⟨b1, b2⟩ | ⟨b1, b2⟩ <;> omega
        rw [if_neg hne, List.getD_append _ _ _ _ hil]
        exact F.place i hil
      · have hie : i = ks.length := by omega
        have e1 : i / 7 = m := by omega
        have e2 : i % 7 = j := by omega
        rw [e1, e2, if_pos rfl, hie, List.getD_append_right _ _ _ _ (le_refl _)]
        simp
    · intro m2 j2 hm2 hj2 hl2
      rw [List.length_append, List.length_singleton] at hl2
      rw [hcb, hkey]
      have hm2g : m2 ≤ g.last_ext := by rw [← hle]; exact hm2
      have hne : chain_bucket g h m2 * 8 + j2 ≠ chain_bucket g h m * 8 + j := by
        intro e
        rcases chain_bucket_cases g h m2 with ⟨a1, a2⟩ | ⟨a1, a2⟩ <;>
          rcases chain_bucket_cases g h m with ⟨b1, b2⟩ | ⟨b1, b2⟩ <;> omega
      rw [if_neg hne]
      exact F.blank m2 j2 hm2g hj2 (by omega)
    · intro m2 hm2
      have hm2g : m2 < g.last_ext := by rw [← hle]; exact hm2
      rw [hcb, hcb]
      show g2.key_at _ _ = _
      rw [hkey, if_neg (by simp only [ASSOCIATIVITY]; omega)]
      exact F.links m2 hm2g
    · rw [hle, hcb]
      show g2.key_at _ _ = _
      rw [hkey, if_neg (by simp only [ASSOCIATIVITY]; omega)]
      exact F.last
    · intro c2 j2 hc2 hj2 hne
      rw [hu2] at hc2
      rw [hkey] at hne ⊢
      split_ifs at hne ⊢ with e
      · exact List.mem_append_right _ (List.mem_singleton_self k)
      · exact List.mem_append_left _ (F.only c2 j2 hc2 hj2 hne)
  | grow c hc hch hl hf hlt _ =>
    obtain ⟨m, _, hm, rfl⟩ := F.on_chain hch 0 hstart (Nat.zero_le _)
    have hml := F.end_of_chain hm hl
    subst hml
    have hlen := F.full_len hf
    have hu : g.used = g.num_buckets + g.last_ext := rfl
    obtain ⟨r2, hr2⟩ : ∃ r2, r2 = g.alloc_ext (chain_bucket g h g.last_ext * ASSOCIATIVITY
        + (ASSOCIATIVITY - 1)) k := ⟨_, rfl⟩
    rw [← hr2] at hr
    have hkey : ∀ b i, r2.2.key_at b i =
        if b * 8 + i = (g.num_buckets + g.last_ext) * 8 then k
        else if b * 8 + i = chain_bucket g h g.last_ext * 8 + 7 then
          ⟨g.num_buckets + g.last_ext, 0, 0⟩
        else g.key_at b i := by
      intro b i
      rw [hr2]
      exact alloc_ext_key_at wf hlt hl k b i
    have hcl : chain_bucket g h g.last_ext < g.num_buckets + g.last_ext := hc
    have hnb : r2.2.num_buckets = g.num_buckets := by rw [hr2]; rfl
    have hnbe : r2.2.num_buckets_ext = g.num_buckets_ext := by rw [hr2]; rfl
    have hle : r2.2.last_ext = g.last_ext + 1 := by rw [hr2]; rfl
    have hcb : ∀ x, chain_bucket r2.2 h x = chain_bucket g h x := chain_bucket_congr hnb h
    have hu2 : r2.2.used = g.num_buckets + (g.last_ext + 1) := by
      simp only [GStore.used, hnb, hle]
    have hfresh : ∀ i, i < 8 → g.key_at (g.num_buckets + g.last_ext) i = ikey_t.zero :=
      fun i hi => wf.fresh _ i (le_refl _) (by omega) hi
    rw [← hr2]
    refine ⟨r2.1, r2.2, rfl, ⟨insert_key_wf wf hr, by rw [hnb]; exact hb, ?_, ?_, ?_, ?_, ?_, ?_,
      ?_⟩, hnb, hnbe⟩
    · rw [hle, List.length_append, List.length_singleton]
      omega
    · intro x hx
      rcases List.mem_append.1 hx with hx | hx
      · exact F.nz x hx
      · rw [List.mem_singleton.1 hx]
        exact hk
    · intro i hi
      rw [List.length_append, List.length_singleton] at hi
      rw [hcb, hkey]
      by_cases hil : i < ks.length
      · have hne : chain_bucket g h (i / 7) * 8 + i % 7 ≠ (g.num_buckets + g.last_ext) * 8 := by
          intro e
          rcases chain_bucket_cases g h (i / 7) with ⟨a1, a2⟩ | ⟨a1, a2⟩ <;> omega
        rw [if_neg hne, if_neg (by omega), List.getD_append _ _ _ _ hil]
        exact F.place i hil
      · have hie : i = ks.length := by omega
        have e1 : i / 7 = g.last_ext + 1 := by omega
        have e2 : i % 7 = 0 := by omega
        have e3 : chain_bucket g h (g.last_ext + 1) = g.num_buckets + g.last_ext := by
          simp only [chain_bucket, Nat.add_one_ne_zero, if_false, Nat.add_sub_cancel]
        rw [e1, e2, e3, if_pos (Nat.add_zero _), hie, List.getD_append_right _ _ _ _ (le_refl _)]
        simp
    · intro m2 j2 hm2 hj2 hl2
      rw [hle] at hm2
      rw [List.length_append, List.length_singleton] at hl2
      have hm2e : m2 = g.last_ext + 1 := by omega
      have e3 : chain_bucket g h (g.last_ext + 1) = g.num_buckets + g.last_ext := by
        simp only [chain_bucket, Nat.add_one_ne_zero, if_false, Nat.add_sub_cancel]
      rw [hcb, hkey, hm2e, e3, if_neg (by omega), if_neg (by omega)]
      exact hfresh j2 (by omega)
    · intro m2 hm2
      rw [hle] at hm2
      rw [hcb, hcb]
      have e3 : chain_bucket g h (g.last_ext + 1) = g.num_buckets + g.last_ext := by
        simp only [chain_bucket, Nat.add_one_ne_zero, if_false, Nat.add_sub_cancel]
      show r2.2.key_at _ _ = _
      rw [hkey]
      by_cases hm2l : m2 = g.last_ext
      · subst hm2l
        rw [if_neg (by simp only [ASSOCIATIVITY]; omega),
          if_pos (by simp only [ASSOCIATIVITY]), e3]
      · have hne : chain_bucket g h m2 ≠ chain_bucket g h g.last_ext := by
          intro e
          rcases chain_bucket_cases g h m2 with ⟨a1, a2⟩ | ⟨a1, a2⟩ <;>
            rcases chain_bucket_cases g h g.last_ext with ⟨b1, b2⟩ | ⟨b1, b2⟩ <;> omega
        have hlt2 : chain_bucket g h m2 < g.num_buckets + g.last_ext := by
          rcases chain_bucket_cases g h m2 with ⟨a1, a2⟩ | ⟨a1, a2⟩ <;> omega
        rw [if_neg (by simp only [ASSOCIATIVITY]; omega),
          if_neg (by simp only [ASSOCIATIVITY]; omega)]
        exact F.links m2 (by omega)
    · rw [hle, hcb]
      have e3 : chain_bucket g h (g.last_ext + 1) = g.num_buckets + g.last_ext := by
        simp only [chain_bucket, Nat.add_one_ne_zero, if_false, Nat.add_sub_cancel]
      show r2.2.key_at _ _ = _
      rw [hkey, e3, if_neg (by simp only [ASSOCIATIVITY]; omega),
        if_neg (by simp only [ASSOCIATIVITY]; omega)]
      exact hfresh 7 (by omega)
    · intro c2 j2 hc2 hj2 hne
      have hc2u : c2 < g.num_buckets + (g.last_ext + 1) := by rw [← hu2]; exact hc2
      rw [hkey] at hne ⊢
      split_ifs at hne ⊢ with e1 e2
      · exact List.mem_append_right _ (List.mem_singleton_self k)
      · omega
      · by_cases hcu : c2 < g.num_buckets + g.last_ext
        · exact List.mem_append_left _ (F.only c2 j2 hcu hj2 hne)
        · have : c2 = g.num_buckets + g.last_ext := by omega
          rw [this] at hne
          exact absurd (hfresh j2 (by omega)) hne

theorem insert_keys_filled {hash_u64 : Nat → Nat} {h : Nat} (new : List ikey_t) :
    ∀ {g : GStore} {ks : List ikey_t}, Filled hash_u64 g h ks → (ks ++ new).Nodup →
    (∀ k, k ∈ new → k ≠ ikey_t.zero) →
    (∀ k, k ∈ new → k.hash hash_u64 % g.num_buckets = h) →
    (ks.length + new.length - 1) / 7 ≤ g.num_buckets_ext →
    ∃ g2, insert_keys hash_u64 g new = .ok g2 ∧ Filled hash_u64 g2 h (ks ++ new) := by
  induction new with
  | nil =>
    intro g ks F _ _ _ _
    exact ⟨g, rfl, by rw [List.append_nil]; exact F⟩
  | cons k new ih =>
    intro g ks F hnd hnz hh hroom
    have hk := hnz k (List.mem_cons_self _ _)
    have hnew : k ∉ ks := by
      intro hm
      have := (List.nodup_append.1 hnd).2.2
      exact this hm (List.mem_cons_self _ _)
    rw [List.length_cons] at hroom
    obtain ⟨s, g2, hins, F2, hnb, hnbe⟩ :=
      F.add_key hk hnew (hh k (List.mem_cons_self _ _)) (by omega) true
    have hassoc : ks ++ k :: new = (ks ++ [k]) ++ new := by
      rw [List.append_assoc]
      rfl
    obtain ⟨g3, hrun, F3⟩ := ih F2 (hassoc ▸ hnd)
      (fun x hx => hnz x (List.mem_cons_of_mem _ hx))
      (fun x hx => by rw [hnb]; exact hh x (List.mem_cons_of_mem _ hx))
      (by
        rw [hnbe, List.length_append, List.length_singleton]
        omega)
    refine ⟨g3, ?_, hassoc ▸ F3⟩
    simp only [insert_keys, hins, Outcome.bind]
    exact hrun

theorem Filled.retrieve {hash_u64 : Nat → Nat} {g : GStore} {h : Nat} {ks : List ikey_t}
    (F : Filled hash_u64 g h ks) {k : ikey_t} (hk : k ∈ ks) :
    ∃ v, get_vertex_local hash_u64 g k = .ok v ∧ v.key = k := by
  obtain ⟨i, hi, e⟩ := List.mem_iff_getElem.1 hk
  have hp := F.place i hi
  rw [List.getD_eq_getElem _ _ hi, e] at hp
  have hext := F.ext
  have hb := F.hb
  have hc : chain_bucket g h (i / 7) < g.used := by
    show _ < g.num_buckets + g.last_ext
    rcases chain_bucket_cases g h (i / 7) with ⟨a1, a2⟩ | ⟨a1, a2⟩ <;> omega
  have hj : i % 7 < ASSOCIATIVITY - 1 := by
    show i % 7 < 7
    omega
  exact ⟨_, get_vertex_local_present F.wf (F.nz k hk) hc hj hp, hp⟩

theorem insert_keys_trace {hash_u64 : Nat → Nat} {g0 : GStore} (ks : List ikey_t) :
    ∀ {g g2 : GStore} {log : List (ikey_t × Nat)}, Trace hash_u64 g0 log g →
    insert_keys hash_u64 g ks = .ok g2 → ∃ log2, Trace hash_u64 g0 log2 g2 := by
  induction ks with
  | nil =>
    intro g g2 log t h
    injection h with h
    exact ⟨log, h ▸ t⟩
  | cons k ks ih =>
    intro g g2 log t h
    simp only [insert_keys] at h
    obtain ⟨r, hins, h⟩ := Outcome.bind_ok h
    exact ih (Trace.step k true r.1 t hins) h

theorem Filled.lacks_new {hash_u64 : Nat → Nat} {g : GStore} {h : Nat} {ks : List ikey_t}
    (F : Filled hash_u64 g h ks) {k : ikey_t} (hk : k ≠ ikey_t.zero) (hnew : k ∉ ks) :
    g.lacks k := by
  intro c j hc hj e
  exact hnew (e ▸ F.only c j hc hj (by rw [e]; exact hk))

theorem Filled.chain_full {hash_u64 : Nat → Nat} {g : GStore} {h : Nat} {ks : List ikey_t}
    (F : Filled hash_u64 g h ks) (hlen : ks.length = 7 * g.last_ext + 7) {c : Nat}
    (hch : OnChain g h c) {j : Nat} (hj : j < ASSOCIATIVITY - 1) :
    g.key_at c j ≠ ikey_t.zero := by
  obtain ⟨m, _, hm, rfl⟩ := F.on_chain hch 0 (by simp only [chain_bucket, if_true])
    (Nat.zero_le _)
  have hj7 : j < 7 := hj
  have hp := F.place (7 * m + j) (by omega)
  have e1 : (7 * m + j) / 7 = m := by omega
  have e2 : (7 * m + j) % 7 = j := by omega
  rw [e1, e2] at hp
  rw [hp]
  exact F.nz _ (getD_mem_of_lt (by omega))

/-! ### The static edge heap does not alias -/

theorem refresh_no_alias {g0 : GStore} (cfg : Config g0) : NoAlias (refresh g0) := by
  have hno : ∀ s, ¬ (refresh g0).Occ s := by
    rintro s ⟨c, j, hc, hj, _, hne⟩
    apply hne
    have hu : (refresh g0).used = g0.num_buckets := by simp [GStore.used, refresh]
    rw [hu] at hc
    have hf := cfg.fits
    simp only [ASSOCIATIVITY] at hf hj
    simp only [GStore.key_at, refresh, ASSOCIATIVITY]
    rw [if_pos (by omega)]
    rfl
  exact ⟨fun s hs => absurd hs (hno s), fun s _ hs => absurd hs (hno s)⟩

theorem insert_list_no_alias {hash_u64 : Nat → Nat} {g g3 : GStore} (wf : WF hash_u64 g)
    (na : NoAlias g) {vid pid d : Nat} {vals : List Nat}
    (h : insert_list hash_u64 g vid pid d vals = .ok g3) :
    WF hash_u64 g3 ∧ NoAlias g3 := by
  simp only [insert_list] at h
  obtain ⟨key, _, h⟩ := Outcome.bind_ok h
  obtain ⟨r1, hal, h⟩ := Outcome.bind_ok h
  obtain ⟨r2, hins, h⟩ := Outcome.bind_ok h
  obtain ⟨ptr, hpm, h⟩ := Outcome.bind_ok h
  injection h with h
  obtain ⟨s, g2⟩ := r2
  have hr1 : r1 = (g.last_entry, { g with last_entry := (g.last_entry + vals.length) % 2 ^ 64 })
      ∧ (g.last_entry + vals.length) % 2 ^ 64 < g.num_entries := by
    simp only [alloc_edges] at hal
    by_cases hc : (g.last_entry + vals.length) % 2 ^ 64 ≥ g.num_entries
    · rw [if_pos hc] at hal
      exact Outcome.noConfusion hal
    · rw [if_neg hc] at hal
      injection hal with hal
      exact ⟨hal.symm, by omega⟩
  obtain ⟨hr1, hlt⟩ := hr1
  subst hr1
  simp only at hins hpm h
  obtain ⟨hp, hsz, hoff⟩ := iptr_make_inv hpm
  subst hp
  have hnowrap : (g.last_entry + vals.length) % 2 ^ 64 = g.last_entry + vals.length := by
    apply Nat.mod_eq_of_lt
    have h1 : (2 : Nat) ^ NBITS_PTR + 2 ^ NBITS_SIZE < 2 ^ 64 := by decide
    omega
  rw [hnowrap] at hins hlt
  generalize hg1 : ({ g with last_entry := g.last_entry + vals.length } : GStore) = g1 at hins
  have wf1 : WF hash_u64 g1 := by
    subst hg1
    exact wf.congr (fun _ => rfl) rfl rfl rfl rfl
  have hused1 : g1.used = g.used := by subst hg1; rfl
  have hka1 : ∀ c j, g1.key_at c j = g.key_at c j := by subst hg1; intro c j; rfl
  have hv1 : g1.vertices = g.vertices := by subst hg1; rfl
  have hle1 : g1.last_entry = g.last_entry + vals.length := by subst hg1; rfl
  have hne1 : g1.num_entries = g.num_entries := by subst hg1; rfl
  have wf2 := insert_key_wf wf1 hins
  obtain ⟨⟨c0, j0, hc0, hj0, hs0, hk0⟩, _, _, hnewk⟩ := insert_key_slots wf1 hins
  obtain ⟨fptr, _, fcfg, fle, _, _⟩ := insert_key_frame wf1 hins
  obtain ⟨fv, f1, f2, f3, f4, f5, f6⟩ := write_edges_frame vals (g2.set_ptr s ⟨vals.length,
    g.last_entry, 0⟩) g.last_entry
  rw [h] at fv f1 f2 f3 f4 f5 f6
  have hkeys : ∀ i, (g3.vertices i).key = (g2.vertices i).key := by
    intro i
    rw [fv]
    simp only [GStore.set_ptr]
    split_ifs with e
    · rw [e]
    · rfl
  have hptr : ∀ i, (g3.vertices i).ptr =
      if i = s then ⟨vals.length, g.last_entry, 0⟩ else (g.vertices i).ptr := by
    intro i
    rw [fv]
    simp only [GStore.set_ptr]
    split_ifs with e
    · rfl
    · rw [fptr, hv1]
  have wf3 : WF hash_u64 g3 := wf2.congr hkeys f1 f2 f3 f4
  have hle3 : g3.last_entry = g.last_entry + vals.length := by
    rw [f6]
    show g2.last_entry = _
    rw [fle, hle1]
  have hne3 : g3.num_entries = g.num_entries := by
    rw [f5]
    show g2.num_entries = _
    rw [fcfg.2.2.2, hne1]
  have hocc : ∀ t, g3.Occ t → t ≠ s → g.Occ t := by
    rintro t ⟨c, j, hc, hj, ht, hne⟩ hts
    have hu3 : g3.used = g2.used := by
      simp only [GStore.used, f2, f4]
      rfl
    rw [hu3] at hc
    have hk3 : g3.key_at c j = g2.key_at c j := hkeys _
    rw [hk3] at hne
    rcases hnewk c j hc hj hne with e | ⟨hcu, e⟩
    · exfalso
      apply hts
      have := wf2.nodup c j c0 j0 hc hc0 hj hj0 hne (e.trans hk0.symm)
      rw [ht, hs0, this.1, this.2]
    · rw [hused1] at hcu
      rw [hka1] at e
      exact ⟨c, j, hcu, hj, ht, by rw [← e]; exact hne⟩
  refine ⟨wf3, ⟨?_, ?_⟩⟩
  · intro t ht
    rw [hle3, hne3, hptr]
    refine ⟨?_, hlt⟩
    split_ifs with e
    · exact le_refl _
    · have := (na.inside t (hocc t ht e)).1
      omega
  · intro t u ht hu htu
    rw [hptr, hptr]
    by_cases e1 : t = s
    · have e2 : u ≠ s := fun e => htu (e1.trans e.symm)
      rw [if_pos e1, if_neg e2]
      right
      exact (na.inside u (hocc u hu e2)).1
    · rw [if_neg e1]
      by_cases e2 : u = s
      · rw [if_pos e2]
        left
        exact (na.inside t (hocc t ht e1)).1
      · rw [if_neg e2]
        exact na.apart t u (hocc t ht e1) (hocc u hu e2) htu

theorem insert_lists_no_alias {hash_u64 : Nat → Nat} (P : List Put) :
    ∀ {g g2 : GStore}, WF hash_u64 g → NoAlias g → insert_lists hash_u64 g P = .ok g2 →
    WF hash_u64 g2 ∧ NoAlias g2 := by
  induction P with
  | nil =>
    intro g g2 wf na h
    injection h with h
    subst h
    exact ⟨wf, na⟩
  | cons p P ih =>
    intro g g2 wf na h
    simp only [insert_lists] at h
    obtain ⟨g1, h1, h⟩ := Outcome.bind_ok h
    obtain ⟨wf1, na1⟩ := insert_list_no_alias wf na h1
    exact ih wf1 na1 h

theorem bulk_load_no_alias {hash_u64 : Nat → Nat} {versatile : Bool} {g0 g : GStore}
    (cfg : Config g0) {spo ops : List triple_t}
    (h : bulk_load hash_u64 versatile g0 spo ops = .ok g) : WF hash_u64 g ∧ NoAlias g := by
  simp only [bulk_load] at h
  obtain ⟨g1, h1, h⟩ := Outcome.bind_ok h
  rw [insert_normal_eq] at h1
  obtain ⟨wf1, na1⟩ := insert_lists_no_alias _ (refresh_wf hash_u64 g0 cfg)
    (refresh_no_alias cfg) h1
  rw [insert_index_eq] at h
  obtain ⟨m, _, h⟩ := Outcome.bind_ok h
  exact insert_lists_no_alias _ wf1 na1 h

/-! ### The size flags -/

theorem apart_any {a o len blk i : Nat} (h : Apart (a, blk) (o, len)) (hi : i < len) :
    ∀ x, a ≤ x → x < a + blk → x ≠ o + i := by
  intro x h1 h2 e
  simp only [Apart] at h
  omega

theorem Tagged.keep {σ : Type} {E : DynEnv σ} {blocks : σ → List (Nat × Nat)}
    (ok : Malloc_OK E blocks) {hash_u64 : Nat → Nat} {st : DStore σ}
    (inv : DInv E blocks hash_u64 st) (tg : Tagged E st.g) {key : ikey_t} {s : Nat}
    {g1 : GStore} (hins : insert_key hash_u64 st.g key false = .ok (s, g1)) (g2 : GStore)
    (hsame : SameKeys g1 g2)
    (hptr : ∀ t, t ≠ s → (g2.vertices t).ptr = (st.g.vertices t).ptr)
    (htag : g2.edges ((g2.vertices s).ptr.off + blksz E ((g2.vertices s).ptr.size + 1) - 1)
      = (g2.vertices s).ptr.size)
    (hcells : ∀ t, st.g.Occ t → t ≠ s → ∀ len,
      ((st.g.vertices t).ptr.off, len) ∈ blocks st.heap → ∀ i, i < len →
      g2.edges ((st.g.vertices t).ptr.off + i) = st.g.edges ((st.g.vertices t).ptr.off + i)) :
    Tagged E g2 := by
  intro t ht
  by_cases hts : t = s
  · subst hts
    exact htag
  · obtain ⟨c, j, hc, hj, htd, hne⟩ := ht
    obtain ⟨hk2, _, hnb, _, hle⟩ := hsame
    have hcu : c < g1.used := by
      simp only [GStore.used] at hc ⊢
      rw [hnb, hle] at hc
      exact hc
    have hke : g2.key_at c j = g1.key_at c j := hk2 _
    rw [hke] at hne
    obtain ⟨⟨c0, j0, hc0, hj0, hs0, hk0⟩, _, _, hnewk⟩ := insert_key_slots inv.wf hins
    have wf1 := insert_key_wf inv.wf hins
    rcases hnewk c j hcu hj hne with e | ⟨hcg, e⟩
    · exfalso
      apply hts
      have := wf1.nodup c j c0 j0 hcu hc0 hj hj0 hne (e.trans hk0.symm)
      rw [htd, hs0, this.1, this.2]
    · have hocc : st.g.Occ t := ⟨c, j, hcg, hj, htd, by rw [← e]; exact hne⟩
      obtain ⟨h0, h1, len, hblk, hlen⟩ := inv.own t hocc
      rw [hptr t hts]
      have hge := ok.blk_ge ((st.g.vertices t).ptr.size + 1)
      have hcell := hcells t hocc hts len hblk
        (blksz E ((st.g.vertices t).ptr.size + 1) - 1) (by omega)
      have e2 : (st.g.vertices t).ptr.off + blksz E ((st.g.vertices t).ptr.size + 1) - 1
          = (st.g.vertices t).ptr.off + (blksz E ((st.g.vertices t).ptr.size + 1) - 1) := by
        omega
      rw [e2, hcell, ← e2]
      exact tg t hocc

/-- The size flags after the first edge of a new key. -/
theorem tagged_new {σ : Type} {E : DynEnv σ} {blocks : σ → List (Nat × Nat)}
    (ok : Malloc_OK E blocks) {hash_u64 : Nat → Nat} {st : DStore σ}
    (inv : DInv E blocks hash_u64 st) (tg : Tagged E st.g) {key : ikey_t}
    (_hk : key ≠ ikey_t.zero) (hocc : ¬ st.g.occupies key) {value : Nat} {d : Bool}
    {r : Bool × Bool × DStore σ}
    (hr : insert_vertex_edge E hash_u64 st key value d = .ok r) : Tagged E r.2.2.g := by
  have wf := inv.wf
  simp only [insert_vertex_edge] at hr
  obtain ⟨⟨s, g1⟩, hins, hr⟩ := Outcome.bind_ok hr
  have wf1 := insert_key_wf wf hins
  obtain ⟨⟨c0, j0, hc0, hj0, hs0, hk0⟩, hused, hold, hnewk⟩ := insert_key_slots wf hins
  obtain ⟨fptr, fedges, fcfg, _, _, _⟩ := insert_key_frame wf hins
  have hc0b : c0 < st.g.num_buckets + st.g.num_buckets_ext := by
    have h1 := wf1.ext_le
    have h2 : g1.used = g1.num_buckets + g1.last_ext := rfl
    rw [← fcfg.2.1, ← fcfg.2.2.1]
    omega
  have hzero : st.g.key_at c0 j0 = ikey_t.zero := by
    by_contra hne
    have hcu := wf.lacks_of_unused hc0b hj0 hne
    exact hocc ⟨c0, j0, hcu, hj0, (hold c0 j0 hcu hj0 hne).symm.trans hk0⟩
  have hsz : (g1.vertices s).ptr.size = 0 := by
    rw [fptr, hs0]
    exact inv.blank c0 j0 hc0b hj0 hzero
  simp only [hsz, if_true] at hr
  obtain ⟨a, halloc, hr⟩ := Outcome.bind_ok hr
  obtain ⟨ptr, hmk, hr⟩ := Outcome.bind_ok hr
  injection hr with hr
  subst hr
  obtain ⟨hp, _, _⟩ := iptr_make_inv hmk
  subst hp
  have hheap0 : HeapInv blocks st.heap st.free_queue
      (fun o => ∃ t, st.g.Occ t ∧ (st.g.vertices t).ptr.off = o) := inv.heap
  obtain ⟨ag, aheap, anew, ablk, akeep⟩ :=
    alloc_edges_spec ok { st with g := g1 } hheap0 halloc
  have hb2 : 2 ≤ blksz E (1 + 1) := ok.blk_ge 2
  apply Tagged.keep ok inv tg hins
  · show SameKeys g1 ((a.2.g.set_edge a.1 value).set_ptr s ⟨1, a.1, 0⟩)
    rw [ag]
    exact (same_keys_insert_sz _ _ _ _ _).chain
      ((same_keys_set_edge _ _ _).chain (same_keys_set_ptr _ _ _))
  · intro t hts
    show (((a.2.g.set_edge a.1 value).set_ptr s ⟨1, a.1, 0⟩).vertices t).ptr = _
    simp only [set_ptr_ptr, if_neg hts, ag]
    exact fptr t
  · show ((a.2.g.set_edge a.1 value).set_ptr s ⟨1, a.1, 0⟩).edges _ = _
    simp only [set_ptr_ptr, if_true, set_ptr_edges, set_edge_edges, ag, insert_sz_edges]
    rw [if_neg (by omega)]
  · intro t ht _ len hl i hi
    have hap := (akeep _ len ⟨t, ht, rfl⟩ hl).2
    have hcell := apart_any hap hi
    show ((a.2.g.set_edge a.1 value).set_ptr s ⟨1, a.1, 0⟩).edges _ = _
    simp only [set_ptr_edges, set_edge_edges, ag, insert_sz_edges]
    rw [if_neg (fun e => hcell _ (le_refl _) (by omega) e.symm),
      if_neg (fun e => hcell _ (by omega) (by omega) e.symm), fedges]

/-- The size flags after an edge appended in place. -/
theorem tagged_inplace {σ : Type} {E : DynEnv σ} {blocks : σ → List (Nat × Nat)}
    (ok : Malloc_OK E blocks) {hash_u64 : Nat → Nat} {st : DStore σ}
    (inv : DInv E blocks hash_u64 st) (tg : Tagged E st.g) {key : ikey_t}
    (hk : key ≠ ikey_t.zero)
    {c j : Nat} (hc : c < st.g.used) (hj : j < ASSOCIATIVITY - 1) (e : st.g.key_at c j = key)
    (value : Nat) {s size off : Nat} (hsdef : c * ASSOCIATIVITY + j = s)
    (hsz : (st.g.vertices s).ptr.size = size) (hof : (st.g.vertices s).ptr.off = off)
    (hroom : ¬ blksz E (size + 1) - 1 < size + 1) (g2 : GStore)
    (hg2 : g2 = ((insert_sz E st.g (size + 1) (size + 1) off).set_edge (off + size)
      value).set_ptr s { (st.g.vertices s).ptr with size := (size + 1) % 2 ^ NBITS_SIZE }) :
    Tagged E g2 := by
  have wf := inv.wf
  have hocc : st.g.Occ s := ⟨c, j, hc, hj, hsdef.symm, by rw [e]; exact hk⟩
  have hins := insert_key_present wf hk hc hj e false
  simp only [Bool.false_eq_true, if_false, hsdef] at hins
  obtain ⟨hs0, hs1, len, hblk, hlen⟩ := inv.own _ hocc
  rw [hsz] at hs0 hs1 hlen
  rw [hof] at hblk
  subst hg2
  have hb1 : size + 2 ≤ blksz E (size + 1) := by omega
  have hsmall := ok.blk_small (size + 1) (by omega)
  have hstab := ok.blk_stable (size + 1) (size + 1 + 1) (by omega) (by omega)
  have hge := ok.blk_ge (size + 1 + 1)
  have hmod : (size + 1) % 2 ^ NBITS_SIZE = size + 1 := Nat.mod_eq_of_lt (by omega)
  rw [hmod]
  apply Tagged.keep ok inv tg hins
  · exact (same_keys_insert_sz _ _ _ _ _).chain
      ((same_keys_set_edge _ _ _).chain (same_keys_set_ptr _ _ _))
  · intro t hts
    simp only [set_ptr_ptr, if_neg hts]
    rfl
  · simp only [set_ptr_ptr, if_true, set_ptr_edges, set_edge_edges, insert_sz_edges, hof]
    rw [if_neg (by omega)]
  · intro t ht hts len2 hl2 i hi
    have hap := inv.blocks_apart hocc ht hts (by rw [hof]; exact hblk) hl2
    rw [hof] at hap
    have hcell := apart_any hap hi
    simp only [set_ptr_edges, set_edge_edges, insert_sz_edges]
    rw [if_neg (fun e => hcell _ (by omega) (by omega) e.symm),
      if_neg (fun e => hcell _ (by omega) (by omega) e.symm)]

/-- The size flags after the list of a key has moved to a new block. -/
theorem tagged_moved {σ : Type} {E : DynEnv σ} {blocks : σ → List (Nat × Nat)}
    (ok : Malloc_OK E blocks) {hash_u64 : Nat → Nat} {st : DStore σ}
    (inv : DInv E blocks hash_u64 st) (tg : Tagged E st.g) {key : ikey_t}
    (hk : key ≠ ikey_t.zero)
    {c j : Nat} (hc : c < st.g.used) (hj : j < ASSOCIATIVITY - 1) (e : st.g.key_at c j = key)
    (value : Nat) {s size off : Nat} (hsdef : c * ASSOCIATIVITY + j = s)
    (hsz : (st.g.vertices s).ptr.size = size) (hof : (st.g.vertices s).ptr.off = off)
    {a : Nat × DStore σ} (halloc : st.alloc_edges E (size + 1) (-1) = .ok a)
    {ptr : iptr_t} (hmk : iptr_t.make (size + 1) a.1 0 = .ok ptr) (g3 : GStore)
    (hg : g3 = (insert_sz E (((a.2.g.memcpy a.1 off size).set_edge (a.1 + size) value))
      INVALID_EDGES size off).set_ptr s ptr) :
    Tagged E g3 := by
  have wf := inv.wf
  have hocc : st.g.Occ s := ⟨c, j, hc, hj, hsdef.symm, by rw [e]; exact hk⟩
  have hins := insert_key_present wf hk hc hj e false
  simp only [Bool.false_eq_true, if_false, hsdef] at hins
  obtain ⟨hs0, hs1, len, hblk, hlen⟩ := inv.own _ hocc
  rw [hsz] at hs0 hs1 hlen
  rw [hof] at hblk
  obtain ⟨hp, hszlt, _⟩ := iptr_make_inv hmk
  subst hp
  have hoffs : ∃ t, st.g.Occ t ∧ (st.g.vertices t).ptr.off = off := ⟨s, hocc, hof⟩
  obtain ⟨ag, aheap, anew, ablk, akeep⟩ := alloc_edges_spec ok st inv.heap halloc
  have hge2 := ok.blk_ge (size + 1 + 1)
  have hge1 := ok.blk_ge (size + 1)
  have hapo := (akeep off len hoffs hblk).2
  subst hg
  apply Tagged.keep ok inv tg hins
  · rw [ag]
    exact (same_keys_insert_sz _ _ _ _ _).chain ((same_keys_memcpy _ _ _ _).chain
      ((same_keys_set_edge _ _ _).chain ((same_keys_insert_sz _ _ _ _ _).chain
        (same_keys_set_ptr _ _ _))))
  · intro t hts
    simp only [set_ptr_ptr, if_neg hts, ag]
    rfl
  · simp only [set_ptr_ptr, if_true, set_ptr_edges, set_edge_edges, insert_sz_edges,
      memcpy_edges, ag]
    simp only [Apart] at hapo
    rw [if_neg (by omega), if_neg (by omega), if_neg (by omega)]
  · intro t ht hts len2 hl2 i hi
    have hap := inv.blocks_apart hocc ht hts (by rw [hof]; exact hblk) hl2
    rw [hof] at hap
    have hap2 := (akeep _ len2 ⟨t, ht, rfl⟩ hl2).2
    have hcell := apart_any hap hi
    have hcell2 := apart_any hap2 hi
    simp only [set_ptr_edges, set_edge_edges, insert_sz_edges, memcpy_edges, ag]
    rw [if_neg (fun e => hcell _ (by omega) (by omega) e.symm),
      if_neg (fun e => hcell2 _ (by omega) (by omega) e.symm),
      if_neg (fun e => hcell2 _ e.1 (by omega) rfl),
      if_neg (fun e => hcell2 _ (by omega) (by omega) e.symm)]

/-- The call `insert_vertex_edge` keeps the size flags right. -/
theorem insert_vertex_edge_tagged {σ : Type} {E : DynEnv σ} {blocks : σ → List (Nat × Nat)}
    (ok : Malloc_OK E blocks) {hash_u64 : Nat → Nat} {st : DStore σ}
    (inv : DInv E blocks hash_u64 st) (tg : Tagged E st.g) {key : ikey_t}
    (hk : key ≠ ikey_t.zero) {value : Nat} {d : Bool} {r : Bool × Bool × DStore σ}
    (hr : insert_vertex_edge E hash_u64 st key value d = .ok r) : Tagged E r.2.2.g := by
  have wf := inv.wf
  by_cases hocc : st.g.occupies key
  · obtain ⟨c, j, hc, hj, e⟩ := hocc
    have hoc : st.g.Occ (c * ASSOCIATIVITY + j) := ⟨c, j, hc, hj, rfl, by rw [e]; exact hk⟩
    obtain ⟨hs0, hs1, len, hblk, hlen⟩ := inv.own _ hoc
    have hins := insert_key_present wf hk hc hj e false
    simp only [Bool.false_eq_true, if_false] at hins
    simp only [insert_vertex_edge, hins, Outcome.bind] at hr
    rw [if_neg (by omega)] at hr
    by_cases hd : (d && is_dup st.g (st.g.vertices (c * ASSOCIATIVITY + j)) value) = true
    · rw [if_pos hd] at hr
      injection hr with hr
      subst hr
      exact tg
    · rw [if_neg hd] at hr
      by_cases hroom : blksz E ((st.g.vertices (c * ASSOCIATIVITY + j)).ptr.size + 1) - 1
          < (st.g.vertices (c * ASSOCIATIVITY + j)).ptr.size + 1
      · rw [if_pos hroom] at hr
        obtain ⟨a, halloc, hr⟩ := Outcome.bind_ok hr
        obtain ⟨ptr, hmk, hr⟩ := Outcome.bind_ok hr
        refine tagged_moved ok inv tg hk hc hj e value rfl rfl rfl halloc hmk r.2.2.g ?_
        cases hc2 : E.global_enable_caching
        · simp only [hc2, Bool.false_eq_true, if_false] at hr
          injection hr with hr
          subst hr
          rfl
        · simp only [hc2, if_true] at hr
          injection hr with hr
          subst hr
          rfl
      · rw [if_neg hroom] at hr
        injection hr with hr
        exact tagged_inplace ok inv tg hk hc hj e value rfl rfl rfl hroom r.2.2.g
          (by subst hr; rfl)
  · exact tagged_new ok inv tg hk hocc hr

theorem Grown.invariant {σ : Type} {E : DynEnv σ} {blocks : σ → List (Nat × Nat)}
    (ok : Malloc_OK E blocks) {hash_u64 : Nat → Nat} {g0 : GStore} (cfg : Config g0)
    {heap : σ} (hheap : blocks heap = []) {st : DStore σ}
    (h : Grown E hash_u64 g0 heap st) : DInv E blocks hash_u64 st ∧ Tagged E st.g := by
  induction h with
  | init =>
    obtain ⟨inv0, hv0⟩ := fresh_inv E hash_u64 cfg hheap
    refine ⟨inv0, ?_⟩
    intro s hs
    obtain ⟨c, j, hc, hj, _, hne⟩ := hs
    exfalso
    have hnil := congrFun hv0 ((DStore.fresh g0 heap).g.key_at c j)
    have hocc : (DStore.fresh g0 heap).g.occupies ((DStore.fresh g0 heap).g.key_at c j) :=
      ⟨c, j, hc, hj, rfl⟩
    exact (inv0.vals_nil_iff hne).1 hnil hocc
  | step key value d r _ hk hr ih =>
    exact ⟨(insert_vertex_edge_effect ok ih.1 hk hr).1,
      insert_vertex_edge_tagged ok ih.1 ih.2 hk hr⟩

theorem vertex_edges_grown {σ : Type} {E : DynEnv σ} {hash_u64 : Nat → Nat} {g0 : GStore}
    {heap : σ} (l : List (ikey_t × Nat × Bool)) :
    ∀ {st st2 : DStore σ}, Grown E hash_u64 g0 heap st → (∀ c, c ∈ l → c.1 ≠ ikey_t.zero) →
    vertex_edges E hash_u64 st l = .ok st2 → Grown E hash_u64 g0 heap st2 := by
  induction l with
  | nil =>
    intro st st2 h _ hr
    injection hr with hr
    exact hr ▸ h
  | cons c cs ih =>
    intro st st2 h hk hr
    simp only [vertex_edges] at hr
    obtain ⟨r, h1, hr⟩ := Outcome.bind_ok hr
    exact ih (Grown.step c.1 c.2.1 c.2.2 r h (hk c (List.mem_cons_self _ _)) h1)
      (fun x hx => hk x (List.mem_cons_of_mem _ hx)) hr

theorem cache_malloc_ok : Malloc_OK cache_env id :=
  ⟨block_malloc_ok.blk_ge, block_malloc_ok.blk_stable, block_malloc_ok.blk_small,
    block_malloc_ok.malloc_ok, block_malloc_ok.free_ok⟩

theorem block_blksz_mono {E : DynEnv (List (Nat × Nat))} (h : E.edge_allocator = block_malloc)
    (a b : Nat) (hab : a ≤ b) : blksz E a ≤ blksz E b := by
  have hb : ∀ n, blksz E n = 16 * ((n * 4 + 15) / 16) / 4 := by
    intro n
    simp only [blksz, h]
    rfl
  rw [hb, hb]
  omega

theorem demo_edges_grown (E : DynEnv (List (Nat × Nat))) (n : Nat)
    (h : (vertex_edges E demo_hash (DStore.fresh demo_store []) (demo_edge_calls n)).returns
      = true) :
    Grown E demo_hash demo_store [] (demo_edges E n) := by
  apply vertex_edges_grown (demo_edge_calls n) Grown.init
  · intro c hc
    have hm := List.mem_of_mem_take hc
    simp only [List.mem_cons, List.mem_singleton, List.not_mem_nil, or_false] at hm
    have hk : demo_key ≠ ikey_t.zero := by decide
    rcases hm with rfl | rfl | rfl | rfl <;> exact hk
  · exact Outcome.ok_get h _

/-- Classes of block sizes that are the least power of two holding the request
have the properties of block sizes that the store relies on. -/
theorem buddy_classes {σ : Type} (E : DynEnv σ)
    (hpow : ∀ m, ∃ k, blksz E m = 2 ^ k) (hge : ∀ m, m ≤ blksz E m)
    (hleast : ∀ m k, m ≤ 2 ^ k → blksz E m ≤ 2 ^ k) :
    (∀ n m, n ≤ m → m ≤ blksz E n → blksz E m ≤ blksz E n) ∧
    (∀ n, n ≤ 2 ^ NBITS_SIZE → blksz E n ≤ 2 ^ NBITS_SIZE) ∧
    (∀ a b, a ≤ b → blksz E a ≤ blksz E b) := by
  refine ⟨?_, ?_, ?_⟩
  · intro n m _ h
    obtain ⟨k, hk⟩ := hpow n
    rw [hk] at h ⊢
    exact hleast m k h
  · intro n h
    exact hleast n NBITS_SIZE h
  · intro a b hab
    obtain ⟨k, hk⟩ := hpow b
    rw [hk]
    apply hleast
    rw [← hk]
    exact le_trans hab (hge b)

/-! ### Remote reads -/

theorem ikey_eq_iff (a b : ikey_t) : a.eq b = true ↔ a = b := by
  cases a with
  | mk av ap ad =>
    cases b with
    | mk bv bp bd =>
      simp only [ikey_t.eq, ikey_t.mk.injEq]
      split_ifs with h
      · exact ⟨fun _ => h, fun _ => rfl⟩
      · exact ⟨fun h2 => h2.elim, fun h2 => absurd h2 h⟩

theorem read_edges_getD (g : GStore) (off n i : Nat) (hi : i < n) :
    (g.read_edges off n).getD i 0 = g.edges (off + i) := by
  simp only [GStore.read_edges]
  rw [List.getD_eq_getElem _ _ (by simpa using hi)]
  simp

theorem read_edges_take (g : GStore) (off n m : Nat) (h : m ≤ n) :
    (g.read_edges off n).take m = g.read_edges off m := by
  simp only [GStore.read_edges, ← List.map_take]
  congr 1
  rw [List.take_range, Nat.min_eq_left h]

theorem get_vertex_remote_loop_eq (R : RdmaEnv) (key : ikey_t)
    (hbuf : ASSOCIATIVITY * SIZEOF_VERTEX < R.buffer_size) : ∀ fuel bucket_id,
    get_vertex_remote_loop R key fuel bucket_id =
      (get_slot_local_loop key R.peer fuel bucket_id).bind fun r =>
        match r with
        | some s => .ok (some (R.peer.vertices s))
        | none => .ok none := by
  intro fuel
  induction fuel with
  | zero => intro b; rfl
  | succ fuel ih =>
    intro b
    simp only [get_vertex_remote_loop, get_slot_local_loop, hbuf, not_true_eq_false, if_false]
    cases find_in_bucket R.peer key (ASSOCIATIVITY - 1) (b * ASSOCIATIVITY) with
    | some s => rfl
    | none =>
      simp only []
      split_ifs with h
      · rfl
      · exact ih _

/-- One retry of `get_edges_remote`: the cache gives a vertex whose block on the
peer has a size flag that does not match, and the index of the peer gives a
vertex whose block has the matching flag. -/
theorem get_edges_remote_retry {σ : Type} (E : DynEnv σ) (R : RdmaEnv) (hash_u64 : Nat → Nat)
    (hrdma : R.global_use_rdma = true) (hcache : E.global_enable_caching = true)
    (hbufv : ASSOCIATIVITY * SIZEOF_VERTEX < R.buffer_size)
    (wf : WF hash_u64 R.peer) (hnb : R.num_buckets = R.peer.num_buckets)
    {k : ikey_t} (hk : k ≠ ikey_t.zero) (hfit : k.fits)
    {c j : Nat} (hc : c < R.peer.used) (hj : j < ASSOCIATIVITY - 1) (hkey : R.peer.key_at c j = k)
    (rd : Reader) (hvk : (rd.items (k.hash hash_u64 % NUM_ITEMS)).v.key = k)
    (hlive : E.get_usec rd.clock < (rd.items (k.hash hash_u64 % NUM_ITEMS)).expire_time)
    (hb1 : 0 < blksz E ((rd.items (k.hash hash_u64 % NUM_ITEMS)).v.ptr.size + 1))
    (hstale : R.peer.edges ((rd.items (k.hash hash_u64 % NUM_ITEMS)).v.ptr.off
        + blksz E ((rd.items (k.hash hash_u64 % NUM_ITEMS)).v.ptr.size + 1) - 1)
      ≠ (rd.items (k.hash hash_u64 % NUM_ITEMS)).v.ptr.size)
    (hb2 : 0 < blksz E ((R.peer.vertices (c * ASSOCIATIVITY + j)).ptr.size + 1))
    (htag : R.peer.edges ((R.peer.vertices (c * ASSOCIATIVITY + j)).ptr.off
        + blksz E ((R.peer.vertices (c * ASSOCIATIVITY + j)).ptr.size + 1) - 1)
      = (R.peer.vertices (c * ASSOCIATIVITY + j)).ptr.size)
    (hbuf1 : blksz E ((rd.items (k.hash hash_u64 % NUM_ITEMS)).v.ptr.size + 1) * SIZEOF_EDGE
      < R.buffer_size)
    (hbuf2 : blksz E ((R.peer.vertices (c * ASSOCIATIVITY + j)).ptr.size + 1) * SIZEOF_EDGE
      < R.buffer_size)
    (fuel : Nat) :
    ∃ rd2, get_edges_remote E R hash_u64 (fuel + 2) rd k.vid k.dir k.pid
        = .ok ((R.peer.vertices (c * ASSOCIATIVITY + j)).ptr.size,
          some (R.peer.read_edges (R.peer.vertices (c * ASSOCIATIVITY + j)).ptr.off
            (blksz E ((R.peer.vertices (c * ASSOCIATIVITY + j)).ptr.size + 1))), rd2, 1) ∧
      (rd2.items (k.hash hash_u64 % NUM_ITEMS)).v = R.peer.vertices (c * ASSOCIATIVITY + j) := by
  obtain ⟨hf1, hf2, hf3⟩ := hfit
  have hmk : ikey_t.make k.vid k.pid k.dir = .ok k := ikey_make_ok hf1 hf2 hf3
  generalize hidx : k.hash hash_u64 % NUM_ITEMS = idx at *
  generalize hvc : (rd.items idx).v = vc at *
  generalize hs : c * ASSOCIATIVITY + j = s at *
  have hvp : (R.peer.vertices s).key = k := by rw [← hs]; exact hkey
  have hne1 : vc.key.is_empty = false := by
    rw [ikey_t.is_empty_false_iff, hvk]
    exact hk
  have hne2 : (R.peer.vertices s).key.is_empty = false := by
    rw [ikey_t.is_empty_false_iff, hvp]
    exact hk
  -- the first lookup hits the cache
  have hl1 : RDMA_Cache.lookup E hash_u64 rd k = (some vc, { rd with clock := rd.clock + 1 }) := by
    simp only [RDMA_Cache.lookup, hcache, Bool.not_true, Bool.false_eq_true, if_false, hidx, hvc]
    rw [if_pos ((ikey_eq_iff _ _).2 hvk), if_pos hlive]
  have hg1 : get_vertex_remote E R hash_u64 rd k = .ok (vc, { rd with clock := rd.clock + 1 }) := by
    simp only [get_vertex_remote, hrdma, Bool.not_true, Bool.false_eq_true, if_false, hl1]
  have he1 : rdma_get_edges E R vc = .ok (R.peer.read_edges vc.ptr.off (blksz E (vc.ptr.size + 1)))
      := by
    simp only [rdma_get_edges, hrdma, Bool.not_true, Bool.false_eq_true, if_false, hbuf1,
      not_true_eq_false]
  have hv1 : edge_is_valid E vc (R.peer.read_edges vc.ptr.off (blksz E (vc.ptr.size + 1)))
      = false := by
    simp only [edge_is_valid, hcache, Bool.not_true, Bool.false_eq_true, if_false]
    rw [read_edges_getD _ _ _ _ (by omega)]
    have e : vc.ptr.off + (blksz E (vc.ptr.size + 1) - 1)
        = vc.ptr.off + blksz E (vc.ptr.size + 1) - 1 := by omega
    rw [e]
    exact decide_eq_false hstale
  -- the entry is invalidated, and the second lookup misses
  generalize hrd1 : ({ rd with clock := rd.clock + 1 } : Reader) = rd1 at *
  have hit1 : (rd1.items idx).v = vc := by rw [← hrd1]; exact hvc
  have hinv : RDMA_Cache.invalidate E hash_u64 rd1 k =
      { rd1 with items := fun i =>
          if i = idx then { rd1.items idx with v := { (rd1.items idx).v with key := ikey_t.zero } }
          else rd1.items i } := by
    simp only [RDMA_Cache.invalidate, hcache, Bool.not_true, Bool.false_eq_true, if_false, hidx]
    rw [if_pos ((ikey_eq_iff _ _).2 (by rw [hit1]; exact hvk))]
  generalize hrd2 : RDMA_Cache.invalidate E hash_u64 rd1 k = rd2 at *
  have hit2 : (rd2.items idx).v.key = ikey_t.zero := by
    rw [hinv]
    simp only [if_true]
  have hl2 : RDMA_Cache.lookup E hash_u64 rd2 k = (none, rd2) := by
    simp only [RDMA_Cache.lookup, hcache, Bool.not_true, Bool.false_eq_true, if_false, hidx]
    rw [if_neg]
    rw [ikey_eq_iff, hit2]
    exact fun h => hk h.symm
  have hloop : get_vertex_remote_loop R k (R.peer.last_ext + 1)
      (k.hash hash_u64 % R.num_buckets) = .ok (some (R.peer.vertices s)) := by
    rw [get_vertex_remote_loop_eq R k hbufv, hnb]
    have := get_slot_local_present wf hk hc hj hkey
    simp only [get_slot_local] at this
    rw [this, hs]
    rfl
  have hg2 : get_vertex_remote E R hash_u64 rd2 k
      = .ok (R.peer.vertices s, RDMA_Cache.insert E hash_u64 rd2 (R.peer.vertices s)) := by
    simp only [get_vertex_remote, hrdma, Bool.not_true, Bool.false_eq_true, if_false, hl2, hloop,
      Outcome.bind]
  have he2 : rdma_get_edges E R (R.peer.vertices s)
      = .ok (R.peer.read_edges (R.peer.vertices s).ptr.off
        (blksz E ((R.peer.vertices s).ptr.size + 1))) := by
    simp only [rdma_get_edges, hrdma, Bool.not_true, Bool.false_eq_true, if_false, hbuf2,
      not_true_eq_false]
  have hv2 : edge_is_valid E (R.peer.vertices s)
      (R.peer.read_edges (R.peer.vertices s).ptr.off (blksz E ((R.peer.vertices s).ptr.size + 1)))
      = true := by
    simp only [edge_is_valid, hcache, Bool.not_true, Bool.false_eq_true, if_false]
    rw [read_edges_getD _ _ _ _ (by omega)]
    have e : (R.peer.vertices s).ptr.off + (blksz E ((R.peer.vertices s).ptr.size + 1) - 1)
        = (R.peer.vertices s).ptr.off + blksz E ((R.peer.vertices s).ptr.size + 1) - 1 := by
      omega
    rw [e]
    exact decide_eq_true htag
  refine ⟨RDMA_Cache.insert E hash_u64 rd2 (R.peer.vertices s), ?_, ?_⟩
  · simp only [get_edges_remote, hmk, Outcome.bind, hg1, hne1, Bool.false_eq_true, if_false, he1,
      get_edges_remote_loop, hv1, hrd2, hg2, he2, hv2, if_true]
  · simp only [RDMA_Cache.insert, hcache, Bool.not_true, Bool.false_eq_true, if_false, hvp,
      hidx, if_true]

/-! ### The remote cache -/

theorem ikey_eq_self (k : ikey_t) : k.eq k = true := (ikey_eq_iff k k).2 rfl

theorem ikey_eq_false {a b : ikey_t} (h : a ≠ b) : a.eq b = false := by
  cases hab : a.eq b with
  | false => rfl
  | true => exact absurd ((ikey_eq_iff a b).1 hab) h

/-! ### Remote reads and local reads -/

theorem remote_view_self (peer : GStore) (other : Nat → Nat) :
    remote_view peer.num_slots peer other = peer := by
  have h : (remote_view peer.num_slots peer other).edges = peer.edges := by
    funext j
    simp only [remote_view, SIZEOF_EDGE]
    rw [if_pos (Nat.le_add_right _ _), Nat.add_sub_cancel_left, Nat.mul_div_cancel _ (by decide)]
  cases peer
  simp only [remote_view] at h ⊢
  rw [h]

theorem refresh_blank {g0 : GStore} (cfg : Config g0) : BlankPtr (refresh g0) := by
  intro c j hc hj _
  have hfit := cfg.fits
  simp only [ASSOCIATIVITY] at hfit hj ⊢
  have hlt : c * 8 + j < g0.num_slots := by
    have : (refresh g0).num_buckets + (refresh g0).num_buckets_ext
        = g0.num_buckets + g0.num_buckets_ext := rfl
    omega
  simp only [refresh, if_pos hlt]
  rfl

/-- The pointers of empty slots stay empty when a non-empty key is inserted and
only the slot returned gets a new pointer. -/
theorem blank_insert_key {hash_u64 : Nat → Nat} {g : GStore} (wf : WF hash_u64 g)
    (bl : BlankPtr g) {key : ikey_t} (hk : key ≠ ikey_t.zero) {check_dup : Bool} {s : Nat}
    {g1 : GStore} (h : insert_key hash_u64 g key check_dup = .ok (s, g1)) (g2 : GStore)
    (hkeys : ∀ i, (g2.vertices i).key = (g1.vertices i).key)
    (hptr : ∀ t, t ≠ s → (g2.vertices t).ptr = (g1.vertices t).ptr)
    (hnb : g2.num_buckets = g.num_buckets) (hnbe : g2.num_buckets_ext = g.num_buckets_ext) :
    BlankPtr g2 := by
  intro c j hc hj hz
  rw [hnb, hnbe] at hc
  obtain ⟨⟨c1, j1, _, hj1, hs1, hk1⟩, _, hold, _⟩ := insert_key_slots wf h
  obtain ⟨hp, _, _, _, _, _⟩ := insert_key_frame wf h
  have hz1 : g1.key_at c j = ikey_t.zero := by
    rw [← hz]
    exact (hkeys _).symm
  have hne : c * ASSOCIATIVITY + j ≠ s := by
    intro e
    rw [hs1] at e
    obtain ⟨rfl, rfl⟩ := slot_inj (by omega) (by omega) e
    exact hk (hk1.symm.trans hz1)
  rw [hptr _ hne, hp]
  apply bl c j hc hj
  by_cases hcu : c < g.used
  · by_contra hnz
    exact hnz ((hold c j hcu hj hnz).symm.trans hz1)
  · exact wf.fresh c j (Nat.le_of_not_lt hcu) hc (by omega)

theorem insert_list_blank {hash_u64 : Nat → Nat} {g g3 : GStore} (wf : WF hash_u64 g)
    (bl : BlankPtr g) {vid pid d : Nat} {vals : List Nat}
    (hk : (⟨vid, pid, d⟩ : ikey_t) ≠ ikey_t.zero)
    (h : insert_list hash_u64 g vid pid d vals = .ok g3) : BlankPtr g3 := by
  simp only [insert_list] at h
  obtain ⟨key, hmk, h2⟩ := Outcome.bind_ok h
  obtain ⟨r1, hal, h3⟩ := Outcome.bind_ok h2
  obtain ⟨r2, hins, h4⟩ := Outcome.bind_ok h3
  obtain ⟨ptr, _, h5⟩ := Outcome.bind_ok h4
  injection h5 with h6
  have hkey := ikey_make_inv hmk
  subst hkey
  have hr1 : r1.2 = { g with last_entry := (g.last_entry + vals.length) % 2 ^ 64 } := by
    simp only [alloc_edges] at hal
    split_ifs at hal
    injection hal with hal
    rw [← hal]
  have wf1 : WF hash_u64 r1.2 := by
    rw [hr1]
    exact wf.congr (fun _ => rfl) rfl rfl rfl rfl
  have bl1 : BlankPtr r1.2 := by
    rw [hr1]
    exact bl
  have e2 : r2 = (r2.1, r2.2) := rfl
  rw [e2] at hins
  have hfr := (write_edges_frame vals (r2.2.set_ptr r2.1 ptr) r1.1)
  have hcfg := (insert_key_frame wf1 hins).2.2.1
  have hnb1 : r1.2.num_buckets = g.num_buckets := by rw [hr1]
  have hnbe1 : r1.2.num_buckets_ext = g.num_buckets_ext := by rw [hr1]
  rw [← h6]
  exact blank_insert_key wf1 bl1 hk hins (write_edges (r2.2.set_ptr r2.1 ptr) r1.1 vals)
    (fun i => by
      rw [hfr.1]
      exact (same_keys_set_ptr _ _ _).1 i)
    (fun t ht => by
      rw [hfr.1, set_ptr_ptr, if_neg ht])
    (by rw [hfr.2.2.1]; exact hcfg.2.1) (by rw [hfr.2.2.2.1]; exact hcfg.2.2.1)

/-- The stores reached by blocks of `insert_list` with non-empty keys are well
formed, their value lists do not alias, and their empty slots have empty
pointers. -/
theorem insert_lists_blank {hash_u64 : Nat → Nat} (P : List Put) :
    ∀ {g g2 : GStore}, WF hash_u64 g → NoAlias g → BlankPtr g →
      (∀ p, p ∈ P → p.key ≠ ikey_t.zero) → insert_lists hash_u64 g P = .ok g2 →
      WF hash_u64 g2 ∧ NoAlias g2 ∧ BlankPtr g2 := by
  induction P with
  | nil =>
    intro g g2 wf na bl _ h
    injection h with h
    rw [← h]
    exact ⟨wf, na, bl⟩
  | cons p P ih =>
    intro g g2 wf na bl hP h
    simp only [insert_lists] at h
    obtain ⟨g1, h1, h⟩ := Outcome.bind_ok h
    obtain ⟨wf1, na1⟩ := insert_list_no_alias wf na h1
    have bl1 := insert_list_blank wf bl (hP p (List.mem_cons_self _ _)) h1
    exact ih wf1 na1 bl1 (fun q hq => hP q (List.mem_cons_of_mem _ hq)) h

theorem alloc_edges_vertices {σ : Type} {E : DynEnv σ} {st : DStore σ} {n : Nat} {tid : Int}
    {r : Nat × DStore σ} (h : st.alloc_edges E n tid = .ok r) :
    r.2.g.vertices = st.g.vertices := by
  simp only [DStore.alloc_edges] at h
  obtain ⟨a, _, h2⟩ := Outcome.bind_ok h
  injection h2 with h2
  rw [← h2]
  cases hc : E.global_enable_caching
  · simp only [hc, Bool.false_eq_true, if_false]
    rfl
  · simp only [hc, if_true]
    rfl

/-- A call of `insert_vertex_edge` changes the pointer of no slot but the one
that `insert_key` returns. -/
theorem insert_vertex_edge_ptrs {σ : Type} {E : DynEnv σ} {hash_u64 : Nat → Nat}
    {st : DStore σ} {key : ikey_t} {value : Nat} {d : Bool} {r : Bool × Bool × DStore σ}
    (h : insert_vertex_edge E hash_u64 st key value d = .ok r) :
    ∃ s g1, insert_key hash_u64 st.g key false = .ok (s, g1) ∧
      ∀ t, t ≠ s → (r.2.2.g.vertices t).ptr = (g1.vertices t).ptr := by
  simp only [insert_vertex_edge] at h
  obtain ⟨⟨s, g1⟩, h1, h2⟩ := Outcome.bind_ok h
  refine ⟨s, g1, h1, ?_⟩
  simp only at h2
  split_ifs at h2 with c1 c2 c3 c4
  · obtain ⟨a, k1, k2⟩ := Outcome.bind_ok h2
    obtain ⟨p, _, k3⟩ := Outcome.bind_ok k2
    injection k3 with k3
    rw [← k3]
    intro t ht
    have hv := alloc_edges_vertices k1
    simp only at hv
    show (((a.2.g.set_edge a.1 value).set_ptr s p).vertices t).ptr = _
    rw [set_ptr_ptr, if_neg ht]
    show (a.2.g.vertices t).ptr = _
    rw [hv]
  · injection h2 with h2
    rw [← h2]
    intro t _
    rfl
  · obtain ⟨a, k1, k2⟩ := Outcome.bind_ok h2
    obtain ⟨p, _, k3⟩ := Outcome.bind_ok k2
    injection k3 with k3
    rw [← k3]
    intro t ht
    have hv := alloc_edges_vertices k1
    simp only at hv
    simp only [add_pending_free]
    rw [set_ptr_ptr, if_neg ht]
    show (a.2.g.vertices t).ptr = _
    rw [hv]
  · obtain ⟨a, k1, k2⟩ := Outcome.bind_ok h2
    obtain ⟨p, _, k3⟩ := Outcome.bind_ok k2
    injection k3 with k3
    rw [← k3]
    intro t ht
    have hv := alloc_edges_vertices k1
    simp only at hv
    simp only []
    rw [set_ptr_ptr, if_neg ht]
    show (a.2.g.vertices t).ptr = _
    rw [hv]
  · injection h2 with h2
    rw [← h2]
    intro t ht
    simp only []
    rw [set_ptr_ptr, if_neg ht]
    rfl

theorem Grown.blank_ptr {σ : Type} {E : DynEnv σ} {hash_u64 : Nat → Nat} {g0 : GStore}
    (cfg : Config g0) {heap : σ} {st : DStore σ} (h : Grown E hash_u64 g0 heap st) :
    WF hash_u64 st.g ∧ BlankPtr st.g := by
  induction h with
  | init => exact ⟨refresh_wf hash_u64 g0 cfg, refresh_blank cfg⟩
  | step key value d r _ hk hr ih =>
    obtain ⟨s, g1, h1, hsame⟩ := insert_vertex_edge_keys hr
    obtain ⟨s2, g2, h2, hp⟩ := insert_vertex_edge_ptrs hr
    rw [h1] at h2
    injection h2 with h2
    injection h2 with e1 e2
    subst e1 e2
    have hcfg := (insert_key_frame ih.1 h1).2.2.1
    refine ⟨insert_vertex_edge_wf ih.1 hr, ?_⟩
    exact blank_insert_key ih.1 ih.2 hk h1 r.2.2.g hsame.1 hp
      (by rw [hsame.2.2.1, hcfg.2.1]) (by rw [hsame.2.2.2.1, hcfg.2.2.1])

theorem get_vertex_local_zero {hash_u64 : Nat → Nat} {g : GStore} (wf : WF hash_u64 g)
    (bl : BlankPtr g) : get_vertex_local hash_u64 g ikey_t.zero = .ok vertex_t.zero := by
  obtain ⟨r, hr, hs, _⟩ := get_slot_local_spec wf ikey_t.zero
  simp only [get_vertex_local, hr, Outcome.bind]
  cases r with
  | none => rfl
  | some s =>
    obtain ⟨c, j, hc, hj, hsl, hkey⟩ := hs s rfl
    have hle := wf.ext_le
    have hb := bl c j (by simp only [GStore.used] at hc; omega) hj hkey
    simp only [GStore.key_at] at hkey
    rw [hsl]
    show Outcome.ok (g.vertices (c * ASSOCIATIVITY + j)) = _
    congr 1
    cases hv : g.vertices (c * ASSOCIATIVITY + j) with
    | mk k p =>
      rw [hv] at hkey hb
      simp only at hkey hb
      rw [hkey, hb]
      rfl

/-- A non-empty vertex returned by `get_vertex_local` is the slot of the key. -/
theorem get_vertex_local_cases {hash_u64 : Nat → Nat} {g : GStore} (wf : WF hash_u64 g)
    {k : ikey_t} {v : vertex_t} (h : get_vertex_local hash_u64 g k = .ok v)
    (hne : v.key.is_empty = false) :
    ∃ c j, c < g.used ∧ j < ASSOCIATIVITY - 1 ∧ g.key_at c j = k ∧
      v = g.vertices (c * ASSOCIATIVITY + j) ∧ k ≠ ikey_t.zero := by
  obtain ⟨r, hr, hs, _⟩ := get_slot_local_spec wf k
  simp only [get_vertex_local, hr, Outcome.bind] at h
  cases r with
  | none =>
    simp only at h
    injection h with h
    rw [← h] at hne
    exact absurd hne (by decide)
  | some s =>
    simp only at h
    injection h with h
    obtain ⟨c, j, hc, hj, hsl, hkey⟩ := hs s rfl
    refine ⟨c, j, hc, hj, hkey, by rw [← h, hsl], ?_⟩
    intro hk
    rw [← h, hsl] at hne
    simp only [GStore.key_at] at hkey
    rw [hkey, hk] at hne
    exact absurd hne (by decide)

/-- The chain walk of `get_vertex_remote` on the peer, in terms of the local
lookup on the peer. -/
theorem get_vertex_remote_loop_local {hash_u64 : Nat → Nat} (R : RdmaEnv) (key : ikey_t)
    (hbuf : ASSOCIATIVITY * SIZEOF_VERTEX < R.buffer_size)
    (hnb : R.num_buckets = R.peer.num_buckets) (wf : WF hash_u64 R.peer) :
    ∃ r, get_slot_local hash_u64 R.peer key = .ok r ∧
      get_vertex_remote_loop R key (R.peer.last_ext + 1) (key.hash hash_u64 % R.num_buckets)
        = .ok (r.map R.peer.vertices) ∧
      get_vertex_local hash_u64 R.peer key
        = .ok ((r.map R.peer.vertices).getD vertex_t.zero) := by
  obtain ⟨r, hr, _, _⟩ := get_slot_local_spec wf key
  refine ⟨r, hr, ?_, ?_⟩
  · rw [get_vertex_remote_loop_eq R key hbuf, hnb]
    simp only [get_slot_local] at hr
    rw [hr]
    cases r <;> rfl
  · simp only [get_vertex_local, hr, Outcome.bind]
    cases r <;> rfl

theorem get_vertex_remote_static_eq {hash_u64 : Nat → Nat} (caching : Bool) (R : RdmaEnv)
    (hrdma : R.global_use_rdma = true) (hbuf : ASSOCIATIVITY * SIZEOF_VERTEX < R.buffer_size)
    (hnb : R.num_buckets = R.peer.num_buckets) (wf : WF hash_u64 R.peer) (bl : BlankPtr R.peer)
    (rd : Reader) (hcold : caching = true → ∀ i, (rd.items i).v = vertex_t.zero) (k : ikey_t) :
    ∃ v rd2, get_vertex_local hash_u64 R.peer k = .ok v ∧
      get_vertex_remote_static caching R hash_u64 rd k = .ok (v, rd2) := by
  obtain ⟨r, _, hloop, hloc⟩ := get_vertex_remote_loop_local R k hbuf hnb wf
  have hmiss : RDMA_Cache.lookup_static caching hash_u64 rd k = none →
      ∃ rd2, get_vertex_remote_static caching R hash_u64 rd k
        = .ok ((r.map R.peer.vertices).getD vertex_t.zero, rd2) := by
    intro hl
    simp only [get_vertex_remote_static, hrdma, Bool.not_true, Bool.false_eq_true, if_false, hl,
      hloop, Outcome.bind]
    cases r with
    | none => exact ⟨_, rfl⟩
    | some s => exact ⟨_, rfl⟩
  by_cases hk : k = ikey_t.zero
  · subst hk
    rw [get_vertex_local_zero wf bl] at hloc ⊢
    injection hloc with hloc
    cases hl : RDMA_Cache.lookup_static caching hash_u64 rd ikey_t.zero with
    | none =>
      obtain ⟨rd2, h2⟩ := hmiss hl
      exact ⟨_, rd2, rfl, by rw [h2, ← hloc]⟩
    | some vert =>
      refine ⟨_, rd, rfl, ?_⟩
      simp only [get_vertex_remote_static, hrdma, Bool.not_true, Bool.false_eq_true, if_false, hl]
      cases hc : caching with
      | false =>
        simp only [RDMA_Cache.lookup_static, hc, Bool.not_false, if_true] at hl
        exact Option.noConfusion hl
      | true =>
        simp only [RDMA_Cache.lookup_static, hcold hc] at hl
        split_ifs at hl
        injection hl with hl
        rw [hl]
  · have hl : RDMA_Cache.lookup_static caching hash_u64 rd k = none := by
      cases hc : caching with
      | false => simp only [RDMA_Cache.lookup_static, Bool.not_false, if_true]
      | true =>
        simp only [RDMA_Cache.lookup_static, hcold hc]
        have : vertex_t.zero.key.eq k = false := ikey_eq_false (Ne.symm hk)
        rw [this]
        simp
    obtain ⟨rd2, h2⟩ := hmiss hl
    exact ⟨_, rd2, hloc, h2⟩

theorem get_vertex_remote_cold {σ : Type} (E : DynEnv σ) {hash_u64 : Nat → Nat} (R : RdmaEnv)
    (hrdma : R.global_use_rdma = true) (hbuf : ASSOCIATIVITY * SIZEOF_VERTEX < R.buffer_size)
    (hnb : R.num_buckets = R.peer.num_buckets) (wf : WF hash_u64 R.peer) (bl : BlankPtr R.peer)
    (rd : Reader) (hcold : E.global_enable_caching = true → ∀ i, (rd.items i).v = vertex_t.zero)
    (k : ikey_t) :
    ∃ v rd2, get_vertex_local hash_u64 R.peer k = .ok v ∧
      get_vertex_remote E R hash_u64 rd k = .ok (v, rd2) := by
  obtain ⟨r, _, hloop, hloc⟩ := get_vertex_remote_loop_local R k hbuf hnb wf
  have hmiss : (RDMA_Cache.lookup E hash_u64 rd k).1 = none →
      ∃ rd2, get_vertex_remote E R hash_u64 rd k
        = .ok ((r.map R.peer.vertices).getD vertex_t.zero, rd2) := by
    intro hl
    simp only [get_vertex_remote, hrdma, Bool.not_true, Bool.false_eq_true, if_false, hl,
      hloop, Outcome.bind]
    cases r with
    | none => exact ⟨_, rfl⟩
    | some s => exact ⟨_, rfl⟩
  by_cases hk : k = ikey_t.zero
  · subst hk
    rw [get_vertex_local_zero wf bl] at hloc ⊢
    injection hloc with hloc
    cases hl : (RDMA_Cache.lookup E hash_u64 rd ikey_t.zero).1 with
    | none =>
      obtain ⟨rd2, h2⟩ := hmiss hl
      exact ⟨_, rd2, rfl, by rw [h2, ← hloc]⟩
    | some vert =>
      refine ⟨_, (RDMA_Cache.lookup E hash_u64 rd ikey_t.zero).2, rfl, ?_⟩
      simp only [get_vertex_remote, hrdma, Bool.not_true, Bool.false_eq_true, if_false, hl]
      cases hc : E.global_enable_caching with
      | false =>
        simp only [RDMA_Cache.lookup, hc, Bool.not_false, if_true] at hl
        exact Option.noConfusion hl
      | true =>
        simp only [RDMA_Cache.lookup, hcold hc] at hl
        split_ifs at hl
        injection hl with hl
        rw [hl]
  · have hl : (RDMA_Cache.lookup E hash_u64 rd k).1 = none := by
      cases hc : E.global_enable_caching with
      | false => simp only [RDMA_Cache.lookup, hc, Bool.not_false, if_true]
      | true =>
        simp only [RDMA_Cache.lookup, hcold hc]
        have : vertex_t.zero.key.eq k = false := ikey_eq_false (Ne.symm hk)
        rw [this]
        simp only [Bool.false_eq_true, if_false]
        split_ifs <;> rfl
    obtain ⟨rd2, h2⟩ := hmiss hl
    exact ⟨_, rd2, hloc, h2⟩

theorem get_edges_remote_static_eq {hash_u64 : Nat → Nat} (caching : Bool) (R : RdmaEnv)
    (hrdma : R.global_use_rdma = true) (hbuf : ASSOCIATIVITY * SIZEOF_VERTEX < R.buffer_size)
    (hnb : R.num_buckets = R.peer.num_buckets) (wf : WF hash_u64 R.peer) (bl : BlankPtr R.peer)
    (rd : Reader) (hcold : caching = true → ∀ i, (rd.items i).v = vertex_t.zero)
    (vid d pid : Nat)
    (hb : ∀ v, get_vertex_local hash_u64 R.peer ⟨vid, pid, d⟩ = .ok v →
      v.ptr.size * SIZEOF_EDGE < R.buffer_size) :
    ((get_edges_remote_static caching R hash_u64 rd vid d pid).bind fun r => .ok (r.1, r.2.1))
      = get_edges_local hash_u64 R.peer vid d pid := by
  simp only [get_edges_remote_static, get_edges_local]
  cases hmk : ikey_t.make vid pid d with
  | abort => rfl
  | nofuel => rfl
  | ok key =>
    have hkey := ikey_make_inv hmk
    subst hkey
    obtain ⟨v, rd2, hloc, hrem⟩ :=
      get_vertex_remote_static_eq caching R hrdma hbuf hnb wf bl rd hcold ⟨vid, pid, d⟩
    simp only [Outcome.bind, hloc, hrem]
    cases he : v.key.is_empty with
    | true => simp only [if_true]
    | false =>
      simp only [Bool.false_eq_true, if_false, rdma_get_edges_static, hrdma, Bool.not_true,
        hb v hloc, not_true_eq_false]

theorem get_edges_remote_cold {σ : Type} (E : DynEnv σ) (hge : ∀ n, n ≤ blksz E n)
    {hash_u64 : Nat → Nat} (R : RdmaEnv)
    (hrdma : R.global_use_rdma = true) (hbuf : ASSOCIATIVITY * SIZEOF_VERTEX < R.buffer_size)
    (hnb : R.num_buckets = R.peer.num_buckets) (wf : WF hash_u64 R.peer) (bl : BlankPtr R.peer)
    (tg : Tagged E R.peer)
    (rd : Reader) (hcold : E.global_enable_caching = true → ∀ i, (rd.items i).v = vertex_t.zero)
    (vid d pid : Nat)
    (hb : ∀ v, get_vertex_local hash_u64 R.peer ⟨vid, pid, d⟩ = .ok v →
      blksz E (v.ptr.size + 1) * SIZEOF_EDGE < R.buffer_size) (fuel : Nat) :
    ((get_edges_remote E R hash_u64 (fuel + 1) rd vid d pid).bind fun r =>
        .ok (r.1, r.2.1.map (List.take r.1), r.2.2.2))
      = (get_edges_local hash_u64 R.peer vid d pid).bind fun r => .ok (r.1, r.2, 0) := by
  simp only [get_edges_remote, get_edges_local]
  cases hmk : ikey_t.make vid pid d with
  | abort => rfl
  | nofuel => rfl
  | ok key =>
    have hkey := ikey_make_inv hmk
    subst hkey
    obtain ⟨v, rd2, hloc, hrem⟩ :=
      get_vertex_remote_cold E R hrdma hbuf hnb wf bl rd hcold ⟨vid, pid, d⟩
    simp only [Outcome.bind, hloc, hrem]
    cases he : v.key.is_empty with
    | true => simp only [if_true, Option.map_none']
    | false =>
      obtain ⟨c, j, hc, hj, hkey, hv, hk⟩ := get_vertex_local_cases wf hloc he
      have hoc : R.peer.Occ (c * ASSOCIATIVITY + j) := ⟨c, j, hc, hj, rfl, by rw [hkey]; exact hk⟩
      have htag := tg _ hoc
      rw [← hv] at htag
      have h1 := hge (v.ptr.size + 1)
      have hval : edge_is_valid E v (R.peer.read_edges v.ptr.off (blksz E (v.ptr.size + 1)))
          = true := by
        simp only [edge_is_valid]
        split_ifs
        · rfl
        · rw [read_edges_getD _ _ _ _ (by omega)]
          have e : v.ptr.off + (blksz E (v.ptr.size + 1) - 1)
              = v.ptr.off + blksz E (v.ptr.size + 1) - 1 := by omega
          rw [e]
          exact decide_eq_true htag
      simp only [Bool.false_eq_true, if_false, rdma_get_edges, hrdma, Bool.not_true,
        hb v hloc, not_true_eq_false, get_edges_remote_loop, hval, if_true, Option.map_some',
        read_edges_take _ _ _ _ (Nat.le_of_succ_le h1)]

/-! ### Bytes and words -/

theorem pow64 : (2 : Nat) ^ 64 = 18446744073709551616 := by norm_num

theorem ceil_eight {x : Nat} (h : x + 8 < 2 ^ 64) : ceil x SIZEOF_U64 = (x + 7) / 8 * 8 := by
  rw [pow64] at h
  simp only [ceil, SIZEOF_U64, pow64]
  split_ifs with h1
  · omega
  · rw [Nat.mod_eq_of_lt (by omega)]
    omega

theorem mod_add_lt {a n i : Nat} (h : a % n + i < n) : (a + i) % n = a % n + i := by
  rw [Nat.add_mod, Nat.mod_eq_of_lt (show i < n by omega), Nat.mod_eq_of_lt h]

theorem add_mod_cases (a d : Nat) {n : Nat} (hn : 0 < n) (hd : d < n) :
    (a + d) % n = a % n + d ∨ (a + d) % n + n = a % n + d := by
  have hr := Nat.mod_lt a hn
  by_cases h : a % n + d < n
  · exact Or.inl (mod_add_lt h)
  · right
    rw [Nat.add_mod, Nat.mod_eq_of_lt hd, Nat.mod_eq_sub_mod (Nat.le_of_not_lt h),
      Nat.mod_eq_of_lt (by omega)]
    omega

theorem blit_window (m : Nat → Nat) (f : Nat → Nat) {n w a k x : Nat} (hn : 0 < n)
    (hfit : a % n + k ≤ n) (hwa : w ≤ a) (hak : a + k ≤ w + n) (hwx : w ≤ x) (hxw : x < w + n) :
    blit m (a % n) k f (x % n) = if a ≤ x ∧ x < a + k then f (x - a) else m (x % n) := by
  simp only [blit]
  have hra := Nat.mod_lt a hn
  have hrx := Nat.mod_lt x hn
  by_cases hk0 : k = 0
  · rw [if_neg (by omega), if_neg (by omega)]
  by_cases hax : a ≤ x
  · obtain ⟨d, rfl⟩ := Nat.exists_eq_add_of_le hax
    have hd : d < n := by omega
    rcases add_mod_cases a d hn hd with h | h
    · by_cases hk : d < k
      · rw [if_pos (by omega), if_pos (by omega), h]
        congr 1
        omega
      · rw [if_neg (by omega), if_neg (by omega)]
    · rw [if_neg (by omega), if_neg (by omega)]
  · obtain ⟨d, rfl⟩ := Nat.exists_eq_add_of_le (Nat.le_of_lt (Nat.lt_of_not_le hax))
    have hd : d < n := by omega
    rcases add_mod_cases x d hn hd with h | h
    · rw [if_neg (by omega), if_neg (by omega)]
    · rw [if_neg (by omega), if_neg (by omega)]

theorem load_le_congr {m1 m2 : Nat → Nat} : ∀ (k p : Nat),
    (∀ i, i < k → m1 (p + i) = m2 (p + i)) → load_le m1 p k = load_le m2 p k := by
  intro k
  induction k with
  | zero => intro p _; rfl
  | succ k ih =>
    intro p h
    simp only [load_le]
    have h0 := h 0 (Nat.succ_pos _)
    rw [Nat.add_zero] at h0
    rw [h0, ih (p + 1) (fun i hi => by
      have := h (i + 1) (by omega)
      rw [Nat.add_assoc, Nat.add_comm 1 i]
      exact this)]

theorem load64_congr {m1 m2 : Nat → Nat} {p : Nat} (h : ∀ i, i < 8 → m1 (p + i) = m2 (p + i)) :
    load64 m1 p = load64 m2 p := load_le_congr 8 p h

theorem load_le_bytes (m : Nat → Nat) (p v : Nat) : ∀ (k j : Nat),
    (∀ i, i < k → m (p + j + i) = u64_byte v (j + i)) →
    load_le m (p + j) k = v / 256 ^ j % 256 ^ k := by
  intro k
  induction k with
  | zero => intro j _; simp [load_le, Nat.mod_one]
  | succ k ih =>
    intro j h
    simp only [load_le]
    have h0 := h 0 (Nat.succ_pos _)
    simp only [Nat.add_zero] at h0
    rw [h0, Nat.add_assoc p j 1, ih (j + 1) (fun i hi => by
      have := h (i + 1) (by omega)
      rw [show p + (j + 1) + i = p + j + (i + 1) by omega, show j + 1 + i = j + (i + 1) by omega]
      exact this)]
    simp only [u64_byte, Nat.mod_mod]
    rw [Nat.pow_succ 256 j, ← Nat.div_div_eq_div_mul, Nat.pow_succ 256 k, Nat.mul_comm (256 ^ k) 256,
      Nat.mod_mul]

/-- A word read where its eight bytes were written is the word written. -/
theorem load64_bytes {m : Nat → Nat} {p v : Nat} (hv : v < 2 ^ 64)
    (h : ∀ i, i < 8 → m (p + i) = u64_byte v i) : load64 m p = v := by
  have := load_le_bytes m p v 8 0 (fun i hi => by simpa using h i hi)
  simp only [Nat.add_zero, Nat.pow_zero, Nat.div_one] at this
  rw [load64, this]
  exact Nat.mod_eq_of_lt (by rw [pow64] at hv; omega)

theorem load64_zero {m : Nat → Nat} {p : Nat} (h : ∀ i, i < 8 → m (p + i) = 0) :
    load64 m p = 0 :=
  load64_bytes (by decide) (fun i hi => by rw [h i hi]; simp [u64_byte])

theorem list_eq_map_getD (s : List Nat) : s = (List.range s.length).map fun i => s.getD i 0 := by
  apply List.ext_getElem
  · simp
  · intro i h1 h2
    simp only [List.getElem_map, List.getElem_range]
    rw [List.getD_eq_getElem _ _ h1]

/-! ### Writes into the ring -/

theorem Writes.of_blit (m f : Nat → Nat) {n w a k : Nat} (hn : 0 < n) (hfit : a % n + k ≤ n)
    (hwa : w ≤ a) (hak : a + k ≤ w + n) : Writes n w m (blit m (a % n) k f) a k f :=
  fun _ hwx hxw => blit_window m f hn hfit hwa hak hwx hxw

theorem Writes.none (n w : Nat) (m f : Nat → Nat) (a : Nat) : Writes n w m m a 0 f := by
  intro x _ _
  rw [if_neg (by omega)]

theorem Writes.split {n w : Nat} {m m1 m2 f1 f2 : Nat → Nat} {a k1 k2 : Nat}
    (h1 : Writes n w m m1 a k1 f1) (h2 : Writes n w m1 m2 (a + k1) k2 f2) :
    Writes n w m m2 a (k1 + k2) fun i => if i < k1 then f1 i else f2 (i - k1) := by
  intro x hwx hxw
  rw [h2 x hwx hxw, h1 x hwx hxw]
  beta_reduce
  by_cases c1 : a + k1 ≤ x ∧ x < a + k1 + k2
  · rw [if_pos c1, if_pos (by omega), if_neg (by omega)]
    congr 1
    omega
  · rw [if_neg c1]
    by_cases c2 : a ≤ x ∧ x < a + k1
    · rw [if_pos c2, if_pos (by omega), if_pos (by omega)]
    · rw [if_neg c2, if_neg (by omega)]

theorem Writes.ext_on {n w : Nat} {m m2 f g : Nat → Nat} {a k : Nat}
    (h : Writes n w m m2 a k f) (hfg : ∀ i, i < k → f i = g i) : Writes n w m m2 a k g := by
  intro x hwx hxw
  rw [h x hwx hxw]
  split_ifs with c
  · exact hfg _ (by omega)
  · rfl

/-- The value at a position of the window after a write. -/
theorem Writes.get {n w : Nat} {m m2 f : Nat → Nat} {a k : Nat} (h : Writes n w m m2 a k f)
    {x : Nat} (hwx : w ≤ x) (hxw : x < w + n) (hi : a ≤ x ∧ x < a + k) :
    m2 (x % n) = f (x - a) := by
  rw [h x hwx hxw, if_pos hi]

theorem Writes.outside {n w : Nat} {m m2 f : Nat → Nat} {a k : Nat} (h : Writes n w m m2 a k f)
    {x : Nat} (hwx : w ≤ x) (hxw : x < w + n) (ho : x < a ∨ a + k ≤ x) :
    m2 (x % n) = m (x % n) := by
  rw [h x hwx hxw, if_neg (by omega)]

/-! ### `send` writes a frame -/

theorem wrap_zero (a : Nat) {n : Nat} (hn : 0 < n) : (a + (n - a % n)) % n = 0 := by
  have hra := Nat.mod_lt a hn
  have : a + (n - a % n) = n * (a / n + 1) := by
    have := Nat.div_add_mod a n
    rw [Nat.mul_add, Nat.mul_one]
    omega
  rw [this, Nat.mul_mod_right]

/-- The test `off / rbf_sz == (off + len - 1) / rbf_sz` of `send`. -/
theorem wrap_test {a n len : Nat} (hn : 0 < n) (hl : 1 ≤ len) :
    a / n = (a + len - 1) / n ↔ a % n + len ≤ n := by
  have hra := Nat.mod_lt a hn
  have h1 : a + len - 1 = n * (a / n) + (a % n + len - 1) := by
    have := Nat.div_add_mod a n
    omega
  rw [h1, Nat.mul_add_div hn]
  constructor
  · intro h
    rcases Nat.lt_or_ge (a % n + len - 1) n with h2 | h2
    · omega
    · have := Nat.div_pos h2 hn
      omega
  · intro h
    rw [Nat.div_eq_of_lt (show a % n + len - 1 < n by omega)]
    rfl

theorem sub_one_u64 {x : Nat} (h1 : 1 ≤ x) (h2 : x < 2 ^ 64) :
    (x + 2 ^ 64 - 1) % 2 ^ 64 = x - 1 := by
  rw [show x + 2 ^ 64 - 1 = x - 1 + 2 ^ 64 by omega, Nat.add_mod_right,
    Nat.mod_eq_of_lt (by omega)]

/-- A write in the two pieces into which the code splits it at the end of the
ring. -/
theorem Writes.wrap (m f1 f2 g : Nat → Nat) {n w a k2 : Nat} (hn : 0 < n) (hwa : w ≤ a)
    (hak : a + (n - a % n) + k2 ≤ w + n)
    (h1 : ∀ i, i < n - a % n → f1 i = g i) (h2 : ∀ i, i < k2 → f2 i = g (n - a % n + i)) :
    Writes n w m (blit (blit m (a % n) (n - a % n) f1) 0 k2 f2) a (n - a % n + k2) g := by
  have hra := Nat.mod_lt a hn
  have w1 : Writes n w m (blit m (a % n) (n - a % n) f1) a (n - a % n) f1 :=
    Writes.of_blit m f1 hn (by omega) hwa (by omega)
  have hz := wrap_zero a hn
  have w2 : Writes n w (blit m (a % n) (n - a % n) f1)
      (blit (blit m (a % n) (n - a % n) f1) 0 k2 f2) (a + (n - a % n)) k2 f2 := by
    have := Writes.of_blit (blit m (a % n) (n - a % n) f1) f2
      (n := n) (w := w) (a := a + (n - a % n)) (k := k2) hn (by rw [hz]; omega) (by omega) hak
    rw [hz] at this
    exact this
  apply (w1.split w2).ext_on
  intro i hi
  beta_reduce
  split_ifs with c
  · exact h1 i c
  · rw [h2 (i - (n - a % n)) (by omega)]
    congr 1
    omega

theorem getD_take {s : List Nat} {k i : Nat} (h : i < k) : (s.take k).getD i 0 = s.getD i 0 := by
  rw [List.getD_eq_getElem?_getD, List.getD_eq_getElem?_getD, List.getElem?_take_of_lt h]

theorem getD_drop (s : List Nat) (k i : Nat) : (s.drop k).getD i 0 = s.getD (k + i) 0 := by
  rw [List.getD_eq_getElem?_getD, List.getD_eq_getElem?_getD, List.getElem?_drop]

/-- The data part of `send` into a local ring writes the string from position
`off` on, unless the string is empty and `off` is at the end of the ring. -/
theorem send_data_writes (m : Nat → Nat) {n w off : Nat} (s : List Nat) (beyond : Nat → Nat)
    (hn : 0 < n) (h1 : 1 ≤ off) (h2 : off + s.length < 2 ^ 64) (hwa : w ≤ off)
    (hak : off + s.length ≤ w + n) (hne : s ≠ [] ∨ off % n ≠ 0) :
    ∃ m2, send_data n m off s beyond = m2 ∧
      Writes n w m m2 off s.length (fun i => s.getD i 0) := by
  have hra := Nat.mod_lt off hn
  have e1 : (off + s.length + 2 ^ 64 - 1) % 2 ^ 64 = off + s.length - 1 :=
    sub_one_u64 (by omega) h2
  simp only [send_data, e1]
  by_cases hfit : off % n + s.length ≤ n
  · have htest : off / n = (off + s.length - 1) / n := by
      by_cases hl : s.length = 0
      · have hs : s = [] := List.length_eq_zero.1 hl
        have h0 : off % n ≠ 0 := hne.resolve_left (fun h => h hs)
        rw [hl, Nat.add_zero]
        have e : off - 1 = n * (off / n) + (off % n - 1) := by
          have := Nat.div_add_mod off n
          omega
        rw [e, Nat.mul_add_div hn, Nat.div_eq_of_lt (show off % n - 1 < n by omega)]
        rfl
      · exact (wrap_test hn (by omega)).2 hfit
    rw [if_pos htest]
    exact ⟨_, rfl, Writes.of_blit m _ hn hfit hwa hak⟩
  · have hl : 1 ≤ s.length := by omega
    have htest : ¬ off / n = (off + s.length - 1) / n := fun h => hfit ((wrap_test hn hl).1 h)
    rw [if_neg htest]
    refine ⟨_, rfl, ?_⟩
    have e : (s.length + 2 ^ 64 - (n - off % n)) % 2 ^ 64 = s.length - (n - off % n) := by
      rw [show s.length + 2 ^ 64 - (n - off % n) = s.length - (n - off % n) + 2 ^ 64 by omega,
        Nat.add_mod_right]
      exact Nat.mod_eq_of_lt (by omega)
    rw [e]
    have := @Writes.wrap m (c_str s beyond) (fun i => c_str s beyond (n - off % n + i))
      (fun i => s.getD i 0) n w off (s.length - (n - off % n)) hn hwa (by omega)
      (fun i hi => by simp only [c_str]; rw [if_pos (by omega)])
      (fun i hi => by simp only [c_str]; rw [if_pos (by omega)])
    rw [show n - off % n + (s.length - (n - off % n)) = s.length by omega] at this
    exact this

theorem frame_sz_eq (len : Nat) (h : frame_sz len < 2 ^ 64) :
    (SIZEOF_U64 + ceil len SIZEOF_U64 + SIZEOF_U64) % 2 ^ 64 = frame_sz len := by
  simp only [frame_sz] at h
  rw [ceil_eight (by omega)]
  simp only [SIZEOF_U64, frame_sz]
  rw [Nat.mod_eq_of_lt (by rw [pow64] at h ⊢; omega)]
  omega

theorem rbf_full_eq (A : Adaptor) (r : Ring) (msg_sz : Nat) (hpub : r.remote_head ≤ r.tail)
    (hw : r.tail + msg_sz < 2 ^ 64) :
    rbf_full A r msg_sz = decide (A.rbf_sz < r.tail - r.remote_head + msg_sz) := by
  simp only [rbf_full]
  rw [show r.tail + 2 ^ 64 - r.remote_head = r.tail - r.remote_head + 2 ^ 64 by omega,
    Nat.add_mod_right, Nat.mod_eq_of_lt (a := r.tail - r.remote_head) (by omega),
    Nat.mod_eq_of_lt (by omega)]

/-- A `send` into a ring with room writes a frame at the tail and moves the
tail behind it; the words of the heads stay.  On a local ring the case of an
empty string whose data would start at the end of the ring is left out. -/
theorem send_frame (W : Adaptor) (dst : Nat) (r : Ring) (s : List Nat) {w : Nat}
    (hinit : W.init = true) (hn : 0 < W.rbf_sz)
    (hmsg : frame_sz s.length < W.rbf_sz) (hw : r.tail + W.rbf_sz < 2 ^ 64)
    (hpub : r.remote_head ≤ r.tail)
    (hroom : r.tail + frame_sz s.length ≤ r.remote_head + W.rbf_sz)
    (hhdr : r.tail % W.rbf_sz + 8 ≤ W.rbf_sz)
    (hftr : (r.tail + 8 + (s.length + 7) / 8 * 8) % W.rbf_sz + 8 ≤ W.rbf_sz)
    (hloc : W.sid = dst → s ≠ [] ∨ (r.tail + 8) % W.rbf_sz ≠ 0)
    (hrem : W.sid ≠ dst → frame_sz s.length < W.buf_sz)
    (hwa : w ≤ r.tail) (hak : r.tail + frame_sz s.length ≤ w + W.rbf_sz) :
    ∃ r2 F, RDMA_Adaptor.send W dst r s = .ok (true, r2) ∧
      r2.tail = r.tail + frame_sz s.length ∧ r2.head = r.head ∧
      r2.local_head = r.local_head ∧ r2.remote_head = r.remote_head ∧
      Writes W.rbf_sz w r.rbf r2.rbf r.tail (frame_sz s.length) F ∧ FrameFn s F := by
  have hfs : frame_sz s.length = 16 + (s.length + 7) / 8 * 8 := rfl
  have hc : ceil s.length SIZEOF_U64 = (s.length + 7) / 8 * 8 := ceil_eight (by omega)
  have e1 := frame_sz_eq s.length (by omega)
  rw [hc] at e1
  have e2 : rbf_full W r (frame_sz s.length) = false := by
    rw [rbf_full_eq W r _ hpub (by omega)]
    exact decide_eq_false (by omega)
  have e3 : (r.tail + frame_sz s.length) % 2 ^ 64 = r.tail + frame_sz s.length :=
    Nat.mod_eq_of_lt (by omega)
  have e4 : (r.tail + SIZEOF_U64) % 2 ^ 64 = r.tail + 8 :=
    Nat.mod_eq_of_lt (show r.tail + 8 < 2 ^ 64 by omega)
  have e6 : (r.tail + 8 + (s.length + 7) / 8 * 8) % 2 ^ 64 = r.tail + 8 + (s.length + 7) / 8 * 8 :=
    Nat.mod_eq_of_lt (by omega)
  have e7 : (r.tail + frame_sz s.length + 2 ^ 64 - 1) % 2 ^ 64 = r.tail + frame_sz s.length - 1 :=
    sub_one_u64 (by omega) (by omega)
  simp only [RDMA_Adaptor.send, hinit, Bool.not_true, Bool.false_eq_true, if_false, e1, hmsg,
    not_true_eq_false, e2, e3, e4, hc, e6, e7]
  by_cases hl : W.sid = dst
  · rw [if_pos hl]
    obtain ⟨m2, hm2, wdata⟩ := send_data_writes (store64 r.rbf (r.tail % W.rbf_sz) s.length) s
      W.beyond (n := W.rbf_sz) (w := w) hn (show 1 ≤ r.tail + 8 by omega) (by omega) (by omega)
      (by omega) (hloc hl)
    rw [hm2]
    have wh : Writes W.rbf_sz w r.rbf (store64 r.rbf (r.tail % W.rbf_sz) s.length) r.tail 8
        (u64_byte s.length) := Writes.of_blit _ _ hn hhdr hwa (by omega)
    have wf : Writes W.rbf_sz w m2
        (store64 m2 ((r.tail + 8 + (s.length + 7) / 8 * 8) % W.rbf_sz) s.length)
        (r.tail + 8 + (s.length + 7) / 8 * 8) 8 (u64_byte s.length) :=
      Writes.of_blit _ _ hn hftr (by omega) (by omega)
    refine ⟨_, fun i => if i < 8 then u64_byte s.length i
        else if i < 8 + s.length then s.getD (i - 8) 0
        else if i < 8 + (s.length + 7) / 8 * 8 then r.rbf ((r.tail + i) % W.rbf_sz)
        else u64_byte s.length (i - (8 + (s.length + 7) / 8 * 8)), rfl, rfl, rfl, rfl, rfl, ?_, ?_⟩
    · intro x hwx hxw
      show store64 m2 ((r.tail + 8 + (s.length + 7) / 8 * 8) % W.rbf_sz) s.length (x % W.rbf_sz) = _
      rw [wf x hwx hxw, wdata x hwx hxw, wh x hwx hxw]
      beta_reduce
      generalize u64_byte s.length = U
      by_cases c0 : r.tail ≤ x ∧ x < r.tail + frame_sz s.length
      · obtain ⟨d, rfl⟩ := Nat.exists_eq_add_of_le c0.1
        rw [if_pos c0, Nat.add_sub_cancel_left]
        by_cases c1 : d < 8
        · rw [if_neg (by omega), if_neg (by omega), if_pos (by omega), if_pos c1]
        by_cases c2 : d < 8 + s.length
        · rw [if_neg (by omega), if_pos (by omega), if_neg c1, if_pos c2,
            show r.tail + d - (r.tail + 8) = d - 8 by omega]
        by_cases c3 : d < 8 + (s.length + 7) / 8 * 8
        · rw [if_neg (by omega), if_neg (by omega), if_neg (by omega), if_neg c1, if_neg c2,
            if_pos c3]
        · rw [if_pos (by omega), if_neg c1, if_neg c2, if_neg c3,
            show r.tail + d - (r.tail + 8 + (s.length + 7) / 8 * 8)
              = d - (8 + (s.length + 7) / 8 * 8) by omega]
      · rw [if_neg (by omega), if_neg (by omega), if_neg (by omega), if_neg c0]
    · constructor
      · intro i hi
        beta_reduce
        rw [if_pos hi]
      · intro i hi
        beta_reduce
        rw [if_neg (by omega), if_pos (by omega), Nat.add_sub_cancel_left]
      · intro i hi
        beta_reduce
        rw [if_neg (by omega), if_neg (by omega), if_neg (by omega), Nat.add_sub_cancel_left]
  · rw [if_neg hl]
    simp only [hrem hl, not_true_eq_false, if_false, SIZEOF_U64]
    have hb : FrameFn s (store64 (mem_write (store64 r.buf 0 s.length) 8 s)
        (8 + (s.length + 7) / 8 * 8) s.length) := by
      constructor
      · intro i hi
        simp only [store64, mem_write, blit]
        rw [if_neg (by omega), if_neg (by omega), if_pos (by omega), Nat.sub_zero]
      · intro i hi
        simp only [store64, mem_write, blit]
        rw [if_neg (by omega), if_pos (by omega), Nat.add_sub_cancel_left]
      · intro i hi
        simp only [store64, mem_write, blit]
        rw [if_pos (by omega), Nat.add_sub_cancel_left]
    generalize store64 (mem_write (store64 r.buf 0 s.length) 8 s)
        (8 + (s.length + 7) / 8 * 8) s.length = b3 at hb ⊢
    have hra := Nat.mod_lt r.tail hn
    by_cases hfit : r.tail % W.rbf_sz + frame_sz s.length ≤ W.rbf_sz
    · rw [if_pos ((wrap_test hn (by omega)).2 hfit)]
      refine ⟨_, b3, rfl, rfl, rfl, rfl, rfl, ?_, hb⟩
      exact (Writes.of_blit r.rbf (fun i => b3 (0 + i)) hn hfit hwa hak).ext_on
        (fun i _ => by rw [Nat.zero_add])
    · rw [if_neg (fun h => hfit ((wrap_test hn (by omega)).1 h))]
      have e8 : (frame_sz s.length + 2 ^ 64 - (W.rbf_sz - r.tail % W.rbf_sz)) % 2 ^ 64
          = frame_sz s.length - (W.rbf_sz - r.tail % W.rbf_sz) := by
        rw [show frame_sz s.length + 2 ^ 64 - (W.rbf_sz - r.tail % W.rbf_sz)
          = frame_sz s.length - (W.rbf_sz - r.tail % W.rbf_sz) + 2 ^ 64 by omega,
          Nat.add_mod_right, Nat.mod_eq_of_lt (by omega)]
      rw [e8]
      refine ⟨_, b3, rfl, rfl, rfl, rfl, rfl, ?_, hb⟩
      have := @Writes.wrap r.rbf (fun i => b3 (0 + i))
        (fun i => b3 (W.rbf_sz - r.tail % W.rbf_sz + i)) b3 W.rbf_sz w r.tail
        (frame_sz s.length - (W.rbf_sz - r.tail % W.rbf_sz)) hn hwa (by omega)
        (fun i _ => by beta_reduce; rw [Nat.zero_add]) (fun i _ => rfl)
      rw [show W.rbf_sz - r.tail % W.rbf_sz + (frame_sz s.length - (W.rbf_sz - r.tail % W.rbf_sz))
        = frame_sz s.length by omega] at this
      exact this

/-! ### `fetch` reads a frame -/

theorem u64_byte_zero (i : Nat) : u64_byte 0 i = 0 := by simp [u64_byte]

theorem Frame.of_writes {n w a : Nat} {m m2 F : Nat → Nat} {s : List Nat}
    (hW : Writes n w m m2 a (frame_sz s.length) F) (hF : FrameFn s F) (hwa : w ≤ a)
    (hak : a + frame_sz s.length ≤ w + n) : Frame n m2 a s := by
  have hfs : frame_sz s.length = 16 + (s.length + 7) / 8 * 8 := rfl
  refine ⟨fun i hi => ?_, fun i hi => ?_, fun i hi => ?_⟩
  · rw [hW.get (by omega) (by omega) (by omega), Nat.add_sub_cancel_left]
    exact hF.header i hi
  · rw [hW.get (by omega) (by omega) (by omega), show a + 8 + i - a = 8 + i by omega]
    exact hF.data i hi
  · rw [hW.get (by omega) (by omega) (by omega),
      show a + 8 + (s.length + 7) / 8 * 8 + i - a = 8 + (s.length + 7) / 8 * 8 + i by omega]
    exact hF.footer i hi

/-- A write away from a frame leaves the frame. -/
theorem Frame.stays {n w a b k : Nat} {m m2 f : Nat → Nat} {s : List Nat}
    (h : Frame n m a s) (hW : Writes n w m m2 b k f) (hwa : w ≤ a)
    (hak : a + frame_sz s.length ≤ w + n) (hd : a + frame_sz s.length ≤ b ∨ b + k ≤ a) :
    Frame n m2 a s := by
  have hfs : frame_sz s.length = 16 + (s.length + 7) / 8 * 8 := rfl
  obtain ⟨h1, h2, h3⟩ := h
  refine ⟨fun i hi => ?_, fun i hi => ?_, fun i hi => ?_⟩
  · rw [hW.outside (by omega) (by omega) (by omega)]
    exact h1 i hi
  · rw [hW.outside (by omega) (by omega) (by omega)]
    exact h2 i hi
  · rw [hW.outside (by omega) (by omega) (by omega)]
    exact h3 i hi

theorem Frame.header_word {n a : Nat} {m : Nat → Nat} {s : List Nat} (h : Frame n m a s)
    (hlen : s.length < 2 ^ 64) (hin : a % n + 8 ≤ n) : load64 m (a % n) = s.length :=
  load64_bytes hlen (fun i hi => by
    rw [← mod_add_lt (by omega)]
    exact h.1 i hi)

theorem Frame.footer_word {n a : Nat} {m : Nat → Nat} {s : List Nat} (h : Frame n m a s)
    (hlen : s.length < 2 ^ 64) (hin : (a + 8 + (s.length + 7) / 8 * 8) % n + 8 ≤ n) :
    load64 m ((a + 8 + (s.length + 7) / 8 * 8) % n) = s.length :=
  load64_bytes hlen (fun i hi => by
    rw [← mod_add_lt (by omega)]
    exact h.2.2 i hi)

theorem wait_footer_ok {m : Nat → Nat} {fpos v : Nat} (h : load64 m fpos = v) (fuel : Nat) :
    wait_footer m fpos v (fuel + 1) = .ok () := by
  simp only [wait_footer]
  rw [if_pos h]

theorem mem_read_eq {m : Nat → Nat} {p : Nat} (s : List Nat)
    (h : ∀ i, i < s.length → m (p + i) = s.getD i 0) : mem_read m p s.length = s := by
  rw [mem_read]
  conv_rhs => rw [list_eq_map_getD s]
  exact List.map_congr_left (fun i hi => h i (List.mem_range.1 hi))

theorem mem_read_split {m : Nat → Nat} {p k1 k2 : Nat} (s : List Nat) (hk : k1 + k2 = s.length)
    (h1 : ∀ i, i < k1 → m (p + i) = s.getD i 0)
    (h2 : ∀ i, i < k2 → m (0 + i) = s.getD (k1 + i) 0) :
    mem_read m p k1 ++ mem_read m 0 k2 = s := by
  have a := @mem_read_eq m p (s.take k1) (fun i hi => by
    rw [List.length_take, Nat.min_eq_left (by omega)] at hi
    rw [getD_take hi]
    exact h1 i hi)
  have b := @mem_read_eq m 0 (s.drop k1) (fun i hi => by
    rw [List.length_drop] at hi
    rw [getD_drop]
    exact h2 i (by omega))
  rw [List.length_take, Nat.min_eq_left (by omega)] at a
  rw [List.length_drop, show s.length - k1 = k2 by omega] at b
  rw [a, b, List.take_append_drop]

/-- The copy of the data in `fetch` returns the string of the frame; on a ring
and at a position that are multiples of eight the cleaning covers the data and
its padding. -/
theorem fetch_data_frame {n a : Nat} {m : Nat → Nat} (s : List Nat) (hn : 0 < n)
    (hl : 1 ≤ s.length) (hfit : frame_sz s.length ≤ n) (hw : s.length + 8 < 2 ^ 64)
    (hd : ∀ i, i < s.length → m ((a + 8 + i) % n) = s.getD i 0) :
    ∃ m3, fetch_data m ((a + 8) % n) ((a + 8 + s.length) % n) s.length = .ok (s, m3) ∧
      (8 ∣ n → 8 ∣ a → Writes n a m m3 (a + 8) ((s.length + 7) / 8 * 8) fun _ => 0) := by
  have hfs : frame_sz s.length = 16 + (s.length + 7) / 8 * 8 := rfl
  have hra := Nat.mod_lt (a + 8) hn
  have hre := Nat.mod_lt (a + 8 + s.length) hn
  have hc := ceil_eight hw
  simp only [fetch_data, hc, mem_zero]
  rcases add_mod_cases (a + 8) s.length hn (by omega) with h | h
  · rw [if_pos (by omega)]
    refine ⟨blit m ((a + 8) % n) ((s.length + 7) / 8 * 8) fun _ => 0, ?_, ?_⟩
    · rw [mem_read_eq s (fun i hi => by
        rw [← mod_add_lt (by omega)]
        exact hd i hi)]
    · intro h8n h8a
      obtain ⟨j, hj⟩ := (Nat.dvd_mod_iff h8n).2 (Dvd.dvd.add h8a (dvd_refl 8))
      obtain ⟨k, hk⟩ := h8n
      exact Writes.of_blit m _ hn (by omega) (by omega) (by omega)
  · rw [if_neg (by omega), if_neg (by omega)]
    have e : s.length - (a + 8 + s.length) % n = n - (a + 8) % n := by omega
    have hce : ceil ((a + 8 + s.length) % n) SIZEOF_U64 = ((a + 8 + s.length) % n + 7) / 8 * 8 :=
      ceil_eight (by omega)
    rw [hce, e]
    refine ⟨blit (blit m ((a + 8) % n) (n - (a + 8) % n) fun _ => 0) 0
      (((a + 8 + s.length) % n + 7) / 8 * 8) fun _ => 0, ?_, ?_⟩
    · rw [mem_read_split s (by omega) (fun i hi => by
        rw [← mod_add_lt (by omega)]
        exact hd i (by omega)) (fun i hi => by
        have e2 : (a + 8 + (n - (a + 8) % n + i)) % n = 0 + i := by
          rw [show a + 8 + (n - (a + 8) % n + i) = (a + 8 + (n - (a + 8) % n)) + i by omega,
            Nat.add_mod, wrap_zero _ hn, Nat.zero_add, Nat.mod_mod, Nat.mod_eq_of_lt (by omega),
            Nat.zero_add]
        rw [← e2]
        exact hd _ (by omega))]
    · intro h8n h8a
      obtain ⟨j, hj⟩ := (Nat.dvd_mod_iff h8n).2 (Dvd.dvd.add h8a (dvd_refl 8))
      obtain ⟨k, hk⟩ := h8n
      have e3 : n - (a + 8) % n + ((a + 8 + s.length) % n + 7) / 8 * 8
          = (s.length + 7) / 8 * 8 := by omega
      have := @Writes.wrap m (fun _ => 0) (fun _ => 0) (fun _ => 0) n a (a + 8)
        (((a + 8 + s.length) % n + 7) / 8 * 8) hn (by omega) (by omega)
        (fun _ _ => rfl) (fun _ _ => rfl)
      rw [e3] at this
      exact this

/-- A `fetch` at a frame returns its string and moves the head behind it; the
head is published when it is more than an eighth of the ring ahead.  On a ring
and at a position that are multiples of eight the frame is cleaned. -/
theorem fetch_frame (A : Adaptor) (r : Ring) (s : List Nat) (hn : 0 < A.rbf_sz)
    (hf : Frame A.rbf_sz r.rbf r.head s) (hs : s ≠ []) (hfit : frame_sz s.length ≤ A.rbf_sz)
    (hw : r.head + A.rbf_sz < 2 ^ 64)
    (hhdr : r.head % A.rbf_sz + 8 ≤ A.rbf_sz)
    (hftr : (r.head + 8 + (s.length + 7) / 8 * 8) % A.rbf_sz + 8 ≤ A.rbf_sz) (fuel : Nat) :
    ∃ r2, RDMA_Adaptor.fetch A (fuel + 1) r = .ok (s, r2) ∧
      r2.head = r.head + frame_sz s.length ∧ r2.tail = r.tail ∧
      (r.local_head ≤ r.head →
        (A.rbf_sz / 8 < r.head + frame_sz s.length - r.local_head →
          r2.local_head = r.head + frame_sz s.length ∧
          r2.remote_head = r.head + frame_sz s.length) ∧
        (¬ A.rbf_sz / 8 < r.head + frame_sz s.length - r.local_head →
          r2.local_head = r.local_head ∧ r2.remote_head = r.remote_head)) ∧
      (8 ∣ A.rbf_sz → 8 ∣ r.head →
        Writes A.rbf_sz r.head r.rbf r2.rbf r.head (frame_sz s.length) fun _ => 0) := by
  have hfs : frame_sz s.length = 16 + (s.length + 7) / 8 * 8 := rfl
  have hl : 1 ≤ s.length := List.length_pos.2 hs
  have hlen : s.length < 2 ^ 64 := by omega
  have hc : ceil s.length 8 = (s.length + 7) / 8 * 8 := ceil_eight (by omega)
  have h1 := hf.header_word hlen hhdr
  have h3 := hf.footer_word hlen hftr
  have ea : (8 + (s.length + 7) / 8 * 8) % 2 ^ 64 = 8 + (s.length + 7) / 8 * 8 :=
    Nat.mod_eq_of_lt (by omega)
  have eb : (r.head + (8 + (s.length + 7) / 8 * 8)) % 2 ^ 64
      = r.head + 8 + (s.length + 7) / 8 * 8 := by
    rw [Nat.mod_eq_of_lt (by omega)]
    omega
  have ec : (r.head + 8) % 2 ^ 64 = r.head + 8 := Nat.mod_eq_of_lt (by omega)
  have ed : (r.head + 8 + s.length) % 2 ^ 64 = r.head + 8 + s.length :=
    Nat.mod_eq_of_lt (by omega)
  have ee : (2 * 8 + (s.length + 7) / 8 * 8) % 2 ^ 64 = frame_sz s.length := by
    rw [Nat.mod_eq_of_lt (by omega)]
    omega
  have ee2 : (16 + (s.length + 7) / 8 * 8) % 2 ^ 64 = frame_sz s.length :=
    Nat.mod_eq_of_lt (by omega)
  have ef : (r.head + frame_sz s.length) % 2 ^ 64 = r.head + frame_sz s.length :=
    Nat.mod_eq_of_lt (by omega)
  have w1a : Writes A.rbf_sz r.head r.rbf (store64 r.rbf (r.head % A.rbf_sz) 0) r.head 8
      (u64_byte 0) := Writes.of_blit r.rbf (u64_byte 0) hn hhdr (Nat.le_refl _) (by omega)
  have w1 : Writes A.rbf_sz r.head r.rbf (store64 r.rbf (r.head % A.rbf_sz) 0) r.head 8
      fun _ => 0 := @Writes.ext_on _ _ _ _ _ (fun _ => 0) _ _ w1a (fun i _ => u64_byte_zero i)
  have w2a : Writes A.rbf_sz r.head (store64 r.rbf (r.head % A.rbf_sz) 0)
      (store64 (store64 r.rbf (r.head % A.rbf_sz) 0)
        ((r.head + 8 + (s.length + 7) / 8 * 8) % A.rbf_sz) 0)
      (r.head + 8 + (s.length + 7) / 8 * 8) 8 (u64_byte 0) :=
    Writes.of_blit _ (u64_byte 0) hn hftr (by omega) (by omega)
  have w2 : Writes A.rbf_sz r.head (store64 r.rbf (r.head % A.rbf_sz) 0)
      (store64 (store64 r.rbf (r.head % A.rbf_sz) 0)
        ((r.head + 8 + (s.length + 7) / 8 * 8) % A.rbf_sz) 0)
      (r.head + 8 + (s.length + 7) / 8 * 8) 8 fun _ => 0 :=
    @Writes.ext_on _ _ _ _ _ (fun _ => 0) _ _ w2a (fun i _ => u64_byte_zero i)
  have hfoot : load64 (store64 r.rbf (r.head % A.rbf_sz) 0)
      ((r.head + 8 + (s.length + 7) / 8 * 8) % A.rbf_sz) = s.length := by
    refine Eq.trans (load64_congr (fun i hi => ?_)) h3
    rw [← mod_add_lt (by omega)]
    exact w1.outside (by omega) (by omega) (by omega)
  have hd : ∀ i, i < s.length → store64 (store64 r.rbf (r.head % A.rbf_sz) 0)
      ((r.head + 8 + (s.length + 7) / 8 * 8) % A.rbf_sz) 0 ((r.head + 8 + i) % A.rbf_sz)
      = s.getD i 0 := fun i hi => by
    rw [w2.outside (by omega) (by omega) (by omega), w1.outside (by omega) (by omega) (by omega)]
    exact hf.2.1 i hi
  obtain ⟨m3, hm3, w3⟩ := fetch_data_frame s hn hl hfit (by omega) hd
  simp only [RDMA_Adaptor.fetch, SIZEOF_U64, h1, hc, ea, eb, ec, ed, wait_footer_ok hfoot,
    Outcome.bind, hm3, ee, ee2, ef]
  have hW : 8 ∣ A.rbf_sz → 8 ∣ r.head →
      Writes A.rbf_sz r.head r.rbf m3 r.head (frame_sz s.length) fun _ => 0 := by
    intro h8n h8a x hwx hxw
    rw [w3 h8n h8a x hwx hxw, w2 x hwx hxw, w1 x hwx hxw]
    by_cases c0 : r.head ≤ x ∧ x < r.head + frame_sz s.length
    · rw [if_pos c0]
      by_cases c1 : r.head + 8 ≤ x ∧ x < r.head + 8 + (s.length + 7) / 8 * 8
      · rw [if_pos c1]
      rw [if_neg c1]
      by_cases c2 : r.head + 8 + (s.length + 7) / 8 * 8 ≤ x
          ∧ x < r.head + 8 + (s.length + 7) / 8 * 8 + 8
      · rw [if_pos c2]
      rw [if_neg c2, if_pos (by omega)]
    · rw [if_neg c0, if_neg (by omega), if_neg (by omega), if_neg (by omega)]
  by_cases hp : A.rbf_sz / 8 < (r.head + frame_sz s.length + 2 ^ 64 - r.local_head) % 2 ^ 64
  · rw [if_pos hp]
    refine ⟨_, rfl, rfl, rfl, fun hlh => ⟨fun _ => ⟨rfl, rfl⟩, fun hq => ?_⟩, hW⟩
    rw [show r.head + frame_sz s.length + 2 ^ 64 - r.local_head
      = r.head + frame_sz s.length - r.local_head + 2 ^ 64 by omega, Nat.add_mod_right,
      Nat.mod_eq_of_lt (by omega)] at hp
    exact absurd hp hq
  · rw [if_neg hp]
    refine ⟨_, rfl, rfl, rfl, fun hlh => ⟨fun hq => ?_, fun _ => ⟨rfl, rfl⟩⟩, hW⟩
    rw [show r.head + frame_sz s.length + 2 ^ 64 - r.local_head
      = r.head + frame_sz s.length - r.local_head + 2 ^ 64 by omega, Nat.add_mod_right,
      Nat.mod_eq_of_lt (by omega)] at hp
    exact absurd hq hp

/-! ### The ring between `send` and `fetch` -/

theorem frame_sz_dvd (len : Nat) : 8 ∣ frame_sz len :=
  ⟨2 + (len + 7) / 8, by simp only [frame_sz]; omega⟩

theorem aligned_word {a n : Nat} (hn : 0 < n) (h8n : 8 ∣ n) (h8a : 8 ∣ a) : a % n + 8 ≤ n := by
  obtain ⟨j, hj⟩ := (Nat.dvd_mod_iff h8n).2 h8a
  obtain ⟨k, hk⟩ := h8n
  have := Nat.mod_lt a hn
  omega

theorem Frames.le {n : Nat} {m : Nat → Nat} {q : List (List Nat)} :
    ∀ {a b : Nat}, Frames n m q a b → a ≤ b := by
  induction q with
  | nil =>
    intro a b h
    exact Nat.le_of_eq h
  | cons s q ih =>
    intro a b h
    have := ih h.2.2
    omega

theorem Frames.dvd {n : Nat} {m : Nat → Nat} {q : List (List Nat)} :
    ∀ {a b : Nat}, Frames n m q a b → 8 ∣ a → 8 ∣ b := by
  induction q with
  | nil =>
    intro a b h h8
    have e : a = b := h
    rw [← e]
    exact h8
  | cons s q ih =>
    intro a b h h8
    exact ih h.2.2 (Nat.dvd_add h8 (frame_sz_dvd _))

/-- A write before or behind the frames leaves them. -/
theorem Frames.stay {n w c k : Nat} {m m2 f : Nat → Nat} {q : List (List Nat)}
    (hW : Writes n w m m2 c k f) :
    ∀ {a b : Nat}, Frames n m q a b → w ≤ a → b ≤ w + n → (b ≤ c ∨ c + k ≤ a) →
      Frames n m2 q a b := by
  induction q with
  | nil =>
    intro a b h _ _ _
    exact h
  | cons s q ih =>
    intro a b h hwa hb hd
    have hle := Frames.le h.2.2
    exact ⟨h.1, h.2.1.stays hW hwa (by omega) (by omega), ih h.2.2 (by omega) hb (by omega)⟩

theorem Frames.add_last {n : Nat} {m : Nat → Nat} {q : List (List Nat)} {s : List Nat}
    (hs : s ≠ []) :
    ∀ {a b : Nat}, Frames n m q a b → Frame n m b s →
      Frames n m (q ++ [s]) a (b + frame_sz s.length) := by
  induction q with
  | nil =>
    intro a b h hf
    have e : a = b := h
    subst e
    exact ⟨hs, hf, rfl⟩
  | cons t q ih =>
    intro a b h hf
    exact ⟨h.1, h.2.1, ih h.2.2 hf⟩

/-- What a `send` that returns true has passed. -/
theorem send_ok_true {W : Adaptor} {dst : Nat} {r r2 : Ring} {s : List Nat}
    (h : RDMA_Adaptor.send W dst r s = .ok (true, r2)) :
    W.init = true ∧ (SIZEOF_U64 + ceil s.length SIZEOF_U64 + SIZEOF_U64) % 2 ^ 64 < W.rbf_sz ∧
    rbf_full W r ((SIZEOF_U64 + ceil s.length SIZEOF_U64 + SIZEOF_U64) % 2 ^ 64) = false ∧
    (W.sid ≠ dst →
      (SIZEOF_U64 + ceil s.length SIZEOF_U64 + SIZEOF_U64) % 2 ^ 64 < W.buf_sz) := by
  cases hi : W.init with
  | false =>
    simp only [RDMA_Adaptor.send, hi, Bool.not_false, if_true] at h
    exact nomatch h
  | true =>
    simp only [RDMA_Adaptor.send, hi, Bool.not_true, Bool.false_eq_true, if_false] at h
    by_cases hm : (SIZEOF_U64 + ceil s.length SIZEOF_U64 + SIZEOF_U64) % 2 ^ 64 < W.rbf_sz
    · rw [if_neg (not_not.2 hm)] at h
      cases hf : rbf_full W r ((SIZEOF_U64 + ceil s.length SIZEOF_U64 + SIZEOF_U64) % 2 ^ 64) with
      | true =>
        rw [hf, if_pos rfl] at h
        injection h with h
        injection h with h
        exact nomatch h
      | false =>
        refine ⟨rfl, hm, rfl, fun hne => ?_⟩
        by_contra hb
        rw [hf, if_neg (by decide), if_neg hne, if_pos hb] at h
        exact nomatch h
    · rw [if_pos hm] at h
      exact nomatch h

/-- A `send` into a full ring returns false and leaves the ring as it is. -/
theorem send_full (W : Adaptor) (dst : Nat) (r : Ring) (s : List Nat) (hinit : W.init = true)
    (hmsg : frame_sz s.length < W.rbf_sz) (hw : r.tail + W.rbf_sz < 2 ^ 64)
    (hpub : r.remote_head ≤ r.tail)
    (hfull : W.rbf_sz < r.tail - r.remote_head + frame_sz s.length) :
    RDMA_Adaptor.send W dst r s = .ok (false, r) := by
  have e1 := frame_sz_eq s.length (by omega)
  have e2 : rbf_full W r (frame_sz s.length) = true := by
    rw [rbf_full_eq W r _ hpub (by omega)]
    exact decide_eq_true hfull
  simp only [RDMA_Adaptor.send, hinit, Bool.not_true, Bool.false_eq_true, if_false, e1, hmsg,
    not_true_eq_false, e2, if_true]

/-- A `send` that returns true appends its string to the ring. -/
theorem RingInv.sent {n : Nat} {r r2 : Ring} {q : List (List Nat)} (inv : RingInv n r q)
    {W : Adaptor} {dst : Nat} {s : List Nat} (hsz : W.rbf_sz = n) (hs : s ≠ [])
    (hlen : s.length + 24 < 2 ^ 64) (hb : r.tail + n < 2 ^ 64)
    (h : RDMA_Adaptor.send W dst r s = .ok (true, r2)) :
    RingInv n r2 (q ++ [s]) ∧ r2.tail = r.tail + frame_sz s.length ∧
      r2.remote_head = r.remote_head ∧ r2.head = r.head ∧
      r.tail + frame_sz s.length ≤ r.remote_head + n := by
  subst hsz
  have hfs : frame_sz s.length = 16 + (s.length + 7) / 8 * 8 := rfl
  obtain ⟨hinit, hmsg, hfull, hbuf⟩ := send_ok_true h
  have e1 := frame_sz_eq s.length (by omega)
  rw [e1] at hmsg hfull hbuf
  have hle := inv.frames.le
  have hp := inv.pub
  have hpub : r.remote_head ≤ r.tail := Nat.le_trans inv.pub hle
  rw [rbf_full_eq W r _ hpub (by omega)] at hfull
  have hroom : r.tail + frame_sz s.length ≤ r.remote_head + W.rbf_sz := by
    have := of_decide_eq_false hfull
    omega
  have h8t : 8 ∣ r.tail := inv.frames.dvd inv.hal
  obtain ⟨r3, F, hsend, ht, hh, hl, hr, hW, hF⟩ := @send_frame W dst r s r.head hinit inv.pos
    hmsg hb hpub hroom (aligned_word inv.pos inv.al h8t)
    (aligned_word inv.pos inv.al
      (Nat.dvd_add (Nat.dvd_add h8t (dvd_refl 8)) (Nat.dvd_mul_left 8 _)))
    (fun _ => Or.inl hs) hbuf hle (by omega)
  rw [h] at hsend
  injection hsend with hsend
  injection hsend with _ hr2
  subst hr2
  refine ⟨⟨inv.pos, inv.al, ?_, ?_, ?_, ?_, ?_, ?_⟩, ht, hr, hh, hroom⟩
  · rw [hh]
    exact inv.hal
  · rw [hr, hh]
    exact inv.pub
  · rw [hl, hr]
    exact inv.lh
  · rw [hr, hh]
    exact inv.lag
  · rw [ht, hr]
    exact hroom
  · rw [hh, ht]
    exact (Frames.stay hW inv.frames (Nat.le_refl _) (by omega) (Or.inl (Nat.le_refl _))).add_last hs
      (Frame.of_writes hW hF hle (by omega))

/-- A `send` of a string that fits into the room of the ring returns true. -/
theorem RingInv.send_room {n : Nat} {r : Ring} {q : List (List Nat)} (inv : RingInv n r q)
    {W : Adaptor} {dst : Nat} {s : List Nat} (hsz : W.rbf_sz = n) (hinit : W.init = true)
    (hs : s ≠ []) (hmsg : frame_sz s.length < n) (hb : r.tail + n < 2 ^ 64)
    (hroom : r.tail + frame_sz s.length ≤ r.remote_head + n)
    (hbuf : W.sid ≠ dst → frame_sz s.length < W.buf_sz) :
    ∃ r2, RDMA_Adaptor.send W dst r s = .ok (true, r2) := by
  subst hsz
  have hle := inv.frames.le
  have hp := inv.pub
  have h8t : 8 ∣ r.tail := inv.frames.dvd inv.hal
  obtain ⟨r3, F, hsend, _⟩ := @send_frame W dst r s r.head hinit inv.pos
    hmsg hb (by omega) hroom (aligned_word inv.pos inv.al h8t)
    (aligned_word inv.pos inv.al
      (Nat.dvd_add (Nat.dvd_add h8t (dvd_refl 8)) (Nat.dvd_mul_left 8 _)))
    (fun _ => Or.inl hs) hbuf hle (by omega)
  exact ⟨r3, hsend⟩

/-- A `fetch` on a ring that holds a string returns the oldest one. -/
theorem RingInv.fetched {n : Nat} {r : Ring} {s : List Nat} {q : List (List Nat)}
    (inv : RingInv n r (s :: q)) (A : Adaptor) (hsz : A.rbf_sz = n) (hb : r.tail + n < 2 ^ 64)
    (fuel : Nat) :
    ∃ r2, RDMA_Adaptor.fetch A (fuel + 1) r = .ok (s, r2) ∧ RingInv n r2 q ∧
      r2.tail = r.tail ∧ r2.head = r.head + frame_sz s.length := by
  subst hsz
  have hfs : frame_sz s.length = 16 + (s.length + 7) / 8 * 8 := rfl
  obtain ⟨hs, hf, hq⟩ := inv.frames
  have hle := hq.le
  have hroom := inv.room
  have hpub := inv.pub
  have hlag := inv.lag
  have hlh := inv.lh
  obtain ⟨r2, hfetch, hh, ht, hpubl, hW⟩ := fetch_frame A r s inv.pos hf hs (by omega) (by omega)
    (aligned_word inv.pos inv.al inv.hal)
    (aligned_word inv.pos inv.al
      (Nat.dvd_add (Nat.dvd_add inv.hal (dvd_refl 8)) (Nat.dvd_mul_left 8 _))) fuel
  have hW := hW inv.al inv.hal
  have hp := hpubl (by omega)
  have h8 : 8 ∣ r2.head := by
    rw [hh]
    exact Nat.dvd_add inv.hal (frame_sz_dvd _)
  have hfr : Frames A.rbf_sz r2.rbf q r2.head r2.tail := by
    rw [hh, ht]
    exact Frames.stay hW hq (by omega) (by omega) (Or.inr (Nat.le_refl _))
  refine ⟨r2, hfetch, ?_, ht, hh⟩
  by_cases c : A.rbf_sz / 8 < r.head + frame_sz s.length - r.local_head
  · obtain ⟨e1, e2⟩ := hp.1 c
    exact ⟨inv.pos, inv.al, h8, by omega, by omega, by omega, by omega, hfr⟩
  · obtain ⟨e1, e2⟩ := hp.2 c
    exact ⟨inv.pos, inv.al, h8, by omega, by omega, by omega, by omega, hfr⟩

/-- The head word of a ring that holds a string is not zero. -/
theorem RingInv.check {n : Nat} {r : Ring} {s : List Nat} {q : List (List Nat)}
    (inv : RingInv n r (s :: q)) (A : Adaptor) (hsz : A.rbf_sz = n) (hb : r.tail + n < 2 ^ 64) :
    RDMA_Adaptor.check A r = true := by
  subst hsz
  have hfs : frame_sz s.length = 16 + (s.length + 7) / 8 * 8 := rfl
  obtain ⟨hs, hf, hq⟩ := inv.frames
  have hle := hq.le
  have hl : 1 ≤ s.length := List.length_pos.2 hs
  have h1 := hf.header_word (by omega) (aligned_word inv.pos inv.al inv.hal)
  simp only [RDMA_Adaptor.check, h1]
  exact decide_eq_true (by omega)

theorem sends_true {n : Nat} {W : Adaptor} {dst : Nat} (hsz : W.rbf_sz = n) :
    ∀ (ms : List (List Nat)) {r r2 : Ring} {q : List (List Nat)}, RingInv n r q →
      (∀ s, s ∈ ms → s ≠ [] ∧ s.length + 24 < 2 ^ 64) → r.remote_head + 2 * n < 2 ^ 64 →
      sends W dst r ms = .ok (ms.map fun _ => true, r2) →
      RingInv n r2 (q ++ ms) ∧ r2.remote_head = r.remote_head ∧ r2.head = r.head
  | [], r, r2, q, inv, _, _, h => by
    simp only [sends] at h
    injection h with h
    injection h with _ h
    subst h
    rw [List.append_nil]
    exact ⟨inv, rfl, rfl⟩
  | s :: ms, r, r2, q, inv, hms, hb, h => by
    simp only [sends, List.map_cons] at h
    obtain ⟨x, hx, h⟩ := Outcome.bind_ok h
    obtain ⟨y, hy, h⟩ := Outcome.bind_ok h
    obtain ⟨x1, x2⟩ := x
    obtain ⟨y1, y2⟩ := y
    injection h with h
    injection h with h1 h2
    injection h1 with h1 h3
    simp only at h1 h2 h3 hy
    subst h1 h2 h3
    have hroom := inv.room
    have hm := hms s (List.mem_cons_self _ _)
    obtain ⟨inv2, ht, hr, hh, _⟩ := inv.sent hsz hm.1 hm.2 (by omega) hx
    obtain ⟨inv3, hr3, hh3⟩ := sends_true hsz ms inv2
      (fun t ht => hms t (List.mem_cons_of_mem _ ht)) (by rw [hr]; exact hb) hy
    rw [List.append_assoc, List.singleton_append] at inv3
    exact ⟨inv3, hr3.trans hr, hh3.trans hh⟩

theorem fetches_all {n : Nat} (A : Adaptor) (hsz : A.rbf_sz = n) (fuel : Nat) :
    ∀ (q : List (List Nat)) {r : Ring}, RingInv n r q → r.tail + n < 2 ^ 64 →
      ∃ r2, fetches A (fuel + 1) q.length r = .ok (q, r2) ∧ RingInv n r2 [] ∧ r2.tail = r.tail
  | [], r, inv, _ => ⟨r, rfl, inv, rfl⟩
  | s :: q, r, inv, hb => by
    obtain ⟨r1, hf, inv1, ht, _⟩ := inv.fetched A hsz hb fuel
    obtain ⟨r2, hf2, inv2, ht2⟩ := fetches_all A hsz fuel q inv1 (by rw [ht]; exact hb)
    refine ⟨r2, ?_, inv2, ht2.trans ht⟩
    simp only [fetches, List.length_cons, hf, Outcome.bind, hf2]

/-! ### `recv` -/

theorem recv_walk (A : Adaptor) (spin src : Nat) (s : List Nat) (r2 : Ring)
    (hinit : A.init = true) (hN : 0 < A.num_servers) :
    ∀ (d : Nat) (t : Rings) (fuel : Nat), (t.rr_cnt + d) % A.num_servers = src →
      t.rr_cnt + d < 2 ^ 64 → d < fuel →
      (∀ i, i < A.num_servers → i ≠ src → RDMA_Adaptor.check A (t.ring i) = false) →
      RDMA_Adaptor.check A (t.ring src) = true →
      RDMA_Adaptor.fetch A spin (t.ring src) = .ok (s, r2) →
      ∃ t2, RDMA_Adaptor.recv A spin fuel t = .ok (s, t2) := by
  intro d
  induction d with
  | zero =>
    intro t fuel hd _ hf _ hc hfe
    obtain ⟨fuel, rfl⟩ := Nat.exists_eq_add_of_lt hf
    rw [Nat.add_zero] at hd
    simp only [Nat.zero_add, RDMA_Adaptor.recv, hinit, Bool.not_true, Bool.false_eq_true,
      if_false, hd, hc, if_true, hfe, Outcome.bind]
    exact ⟨_, rfl⟩
  | succ d ih =>
    intro t fuel hd hb hf ho hc hfe
    obtain ⟨fuel, rfl⟩ := Nat.exists_eq_add_of_lt hf
    by_cases hi : t.rr_cnt % A.num_servers = src
    · simp only [RDMA_Adaptor.recv, hinit, Bool.not_true, Bool.false_eq_true,
        if_false, hi, hc, if_true, hfe, Outcome.bind]
      exact ⟨_, rfl⟩
    · have e : (t.rr_cnt + 1) % 2 ^ 64 = t.rr_cnt + 1 := Nat.mod_eq_of_lt (by omega)
      simp only [RDMA_Adaptor.recv, hinit, Bool.not_true, Bool.false_eq_true,
        if_false, ho _ (Nat.mod_lt _ hN) hi, e]
      exact ih ⟨t.ring, t.rr_cnt + 1⟩ (d + 1 + fuel)
        (by rw [← hd]; exact congrArg (· % A.num_servers) (show t.rr_cnt + 1 + d = _ by omega))
        (show t.rr_cnt + 1 + d < 2 ^ 64 by omega) (by omega) ho hc hfe

/-- With a message in the ring of server `src` and none in the other rings,
`recv` returns that message after at most `num_servers` rounds. -/
theorem recv_finds (A : Adaptor) (spin src : Nat) (s : List Nat) (r2 : Ring) (t : Rings)
    (hinit : A.init = true) (hsrc : src < A.num_servers)
    (hcnt : t.rr_cnt + A.num_servers < 2 ^ 64)
    (ho : ∀ i, i < A.num_servers → i ≠ src → RDMA_Adaptor.check A (t.ring i) = false)
    (hc : RDMA_Adaptor.check A (t.ring src) = true)
    (hfe : RDMA_Adaptor.fetch A spin (t.ring src) = .ok (s, r2)) (fuel : Nat)
    (hfuel : A.num_servers ≤ fuel) :
    ∃ t2, RDMA_Adaptor.recv A spin fuel t = .ok (s, t2) := by
  have hN : 0 < A.num_servers := by omega
  have hr := Nat.mod_lt t.rr_cnt hN
  have hdm := Nat.div_add_mod t.rr_cnt A.num_servers
  by_cases hle : t.rr_cnt % A.num_servers ≤ src
  · refine recv_walk A spin src s r2 hinit hN (src - t.rr_cnt % A.num_servers) t fuel ?_
      (by omega) (by omega) ho hc hfe
    rw [show t.rr_cnt + (src - t.rr_cnt % A.num_servers)
      = A.num_servers * (t.rr_cnt / A.num_servers) + src by omega, Nat.mul_add_mod,
      Nat.mod_eq_of_lt hsrc]
  · refine recv_walk A spin src s r2 hinit hN (src + A.num_servers - t.rr_cnt % A.num_servers)
      t fuel ?_ (by omega) (by omega) ho hc hfe
    rw [show t.rr_cnt + (src + A.num_servers - t.rr_cnt % A.num_servers)
      = A.num_servers * (t.rr_cnt / A.num_servers + 1) + src by
        rw [Nat.mul_add, Nat.mul_one]
        omega, Nat.mul_add_mod,
      Nat.mod_eq_of_lt hsrc]

/-- With no message in any ring `recv` does not return. -/
theorem recv_empty (A : Adaptor) (spin : Nat) (hinit : A.init = true) :
    ∀ (fuel : Nat) (t : Rings), (∀ i, RDMA_Adaptor.check A (t.ring i) = false) →
      RDMA_Adaptor.recv A spin fuel t = .nofuel := by
  intro fuel
  induction fuel with
  | zero =>
    intro t _
    rfl
  | succ fuel ih =>
    intro t h
    simp only [RDMA_Adaptor.recv, hinit, Bool.not_true, Bool.false_eq_true, if_false, h]
    exact ih ⟨t.ring, _⟩ h

theorem Outcome.ok_pair {α β : Type} {x : Outcome (α × β)} {a : α} (d : α × β)
    (h : x.returns = true) (ha : (x.get d).1 = a) : x = .ok (a, (x.get d).2) := by
  cases x with
  | ok v =>
    subst ha
    rfl
  | abort => exact Bool.noConfusion h
  | nofuel => exact Bool.noConfusion h

/-- A `send` into a ring with room returns true and moves the tail by the size
of the frame, wherever the ring stands.  On a local ring the case of an empty
string whose data would start at the end of the ring is left out. -/
theorem send_room_returns (W : Adaptor) (dst : Nat) (r : Ring) (s : List Nat)
    (hinit : W.init = true) (hmsg : frame_sz s.length < W.rbf_sz)
    (hw : r.tail + W.rbf_sz < 2 ^ 64) (hpub : r.remote_head ≤ r.tail)
    (hroom : r.tail + frame_sz s.length ≤ r.remote_head + W.rbf_sz)
    (hloc : W.sid = dst → s ≠ [] ∨ (r.tail + 8) % W.rbf_sz ≠ 0)
    (hrem : W.sid ≠ dst → frame_sz s.length < W.buf_sz) :
    ∃ r2, RDMA_Adaptor.send W dst r s = .ok (true, r2) ∧
      r2.tail = r.tail + frame_sz s.length ∧ r2.head = r.head ∧
      r2.remote_head = r.remote_head := by
  have hfs : frame_sz s.length = 16 + (s.length + 7) / 8 * 8 := rfl
  have hn : 0 < W.rbf_sz := by omega
  have hc : ceil s.length SIZEOF_U64 = (s.length + 7) / 8 * 8 := ceil_eight (by omega)
  have e1 := frame_sz_eq s.length (by omega)
  rw [hc] at e1
  have e2 : rbf_full W r (frame_sz s.length) = false := by
    rw [rbf_full_eq W r _ hpub (by omega)]
    exact decide_eq_false (by omega)
  have e3 : (r.tail + frame_sz s.length) % 2 ^ 64 = r.tail + frame_sz s.length :=
    Nat.mod_eq_of_lt (by omega)
  have e4 : (r.tail + SIZEOF_U64) % 2 ^ 64 = r.tail + 8 :=
    Nat.mod_eq_of_lt (show r.tail + 8 < 2 ^ 64 by omega)
  simp only [RDMA_Adaptor.send, hinit, Bool.not_true, Bool.false_eq_true, if_false, e1, hmsg,
    not_true_eq_false, e2, e3, e4, hc]
  by_cases hl : W.sid = dst
  · rw [if_pos hl]
    obtain ⟨m2, hm2, _⟩ := @send_data_writes (store64 r.rbf (r.tail % W.rbf_sz) s.length)
      W.rbf_sz (r.tail + 8) (r.tail + 8) s W.beyond hn (by omega) (by omega) (Nat.le_refl _) (by omega)
      (hloc hl)
    rw [hm2]
    exact ⟨_, rfl, rfl, rfl, rfl⟩
  · rw [if_neg hl]
    simp only [hrem hl, not_true_eq_false, if_false]
    split_ifs
    · exact ⟨_, rfl, rfl, rfl, rfl⟩
    · exact ⟨_, rfl, rfl, rfl, rfl⟩

/-- On a ring in order a `send` returns false, when the frame does not fit into
the room, or true. -/
theorem RingInv.send_step {n : Nat} {r : Ring} {q : List (List Nat)} (inv : RingInv n r q)
    {W : Adaptor} {dst : Nat} {s : List Nat} (hsz : W.rbf_sz = n) (hinit : W.init = true)
    (hs : s ≠ []) (hmsg : frame_sz s.length < n) (hb : r.tail + n < 2 ^ 64)
    (hbuf : W.sid ≠ dst → frame_sz s.length < W.buf_sz) :
    (n < r.tail - r.remote_head + frame_sz s.length ∧
      RDMA_Adaptor.send W dst r s = .ok (false, r)) ∨
    (r.tail + frame_sz s.length ≤ r.remote_head + n ∧
      ∃ r2, RDMA_Adaptor.send W dst r s = .ok (true, r2) ∧ RingInv n r2 (q ++ [s]) ∧
        r2.tail = r.tail + frame_sz s.length ∧ r2.remote_head = r.remote_head) := by
  have hfs : frame_sz s.length = 16 + (s.length + 7) / 8 * 8 := rfl
  have hle := inv.frames.le
  have hp := inv.pub
  obtain ⟨j, hj⟩ := inv.al
  by_cases hfull : n < r.tail - r.remote_head + frame_sz s.length
  · left
    subst hsz
    exact ⟨hfull, send_full W dst r s hinit hmsg hb (by omega) hfull⟩
  · right
    have hroom : r.tail + frame_sz s.length ≤ r.remote_head + n := by omega
    obtain ⟨r2, h2⟩ := inv.send_room hsz hinit hs hmsg hb hroom hbuf
    obtain ⟨inv2, ht, hr, _, _⟩ := inv.sent hsz hs (by omega) hb h2
    exact ⟨hroom, r2, h2, inv2, ht, hr⟩

/-- After the reader has fetched every string of a ring, a `send` of a string
that leaves an eighth of the ring free returns true. -/
theorem RingInv.drain_send {n : Nat} {r : Ring} {q : List (List Nat)} (inv : RingInv n r q)
    {W A : Adaptor} {dst : Nat} {s : List Nat} (hW : W.rbf_sz = n) (hA : A.rbf_sz = n)
    (hinit : W.init = true) (hs : s ≠ []) (hmsg : frame_sz s.length + n / 8 ≤ n)
    (hlt : frame_sz s.length < n) (hb : r.tail + n < 2 ^ 64)
    (hbuf : W.sid ≠ dst → frame_sz s.length < W.buf_sz) (spin : Nat) :
    ∃ r3, fetches A (spin + 1) q.length r = .ok (q, r3) ∧
      ∃ r4, RDMA_Adaptor.send W dst r3 s = .ok (true, r4) := by
  obtain ⟨r3, hf, inv3, ht⟩ := fetches_all A hA spin q inv hb
  have e : r3.head = r3.tail := inv3.frames
  have := inv3.lag
  exact ⟨r3, hf, inv3.send_room hW hinit hs hlt (by rw [ht]; exact hb) (by omega) hbuf⟩

/-! ### Reached index states -/

theorem Built.wellformed {hash_u64 : Nat → Nat} {g0 : GStore} (cfg : Config g0) {g : GStore}
    (b : Built hash_u64 g0 g) : WF hash_u64 g := by
  induction b with
  | init => exact refresh_wf hash_u64 g0 cfg
  | insert key cd s _ h ih => exact insert_key_wf ih h
  | write _ h ih => exact h.wf_of ih

theorem Trace.built {hash_u64 : Nat → Nat} {g0 : GStore} {log : List (ikey_t × Nat)}
    {g : GStore} (t : Trace hash_u64 g0 log g) : Built hash_u64 g0 g := by
  induction t with
  | init => exact Built.init
  | step key cd s _ h ih => exact Built.insert key cd s ih h

/-- What a successful `insert_key` call does to the keys of all slots: either
the returned data slot, which held the key or was empty, holds the key and
nothing else changed, or a new indirect bucket was linked to an empty chain link
and the key went into its first slot. -/
theorem insert_key_shape {hash_u64 : Nat → Nat} {g : GStore} (wf : WF hash_u64 g)
    {key : ikey_t} {check_dup : Bool} {s : Nat} {g2 : GStore}
    (h : insert_key hash_u64 g key check_dup = .ok (s, g2)) :
    (g2.last_ext = g.last_ext ∧ ∃ c j, c < g.used ∧ j < ASSOCIATIVITY - 1 ∧
        s = c * ASSOCIATIVITY + j ∧ (g.key_at c j = key ∨ g.key_at c j = ikey_t.zero) ∧
        ∀ n, (g2.vertices n).key = if n = s then key else (g.vertices n).key) ∨
    (g2.last_ext = g.last_ext + 1 ∧ g.last_ext < g.num_buckets_ext ∧
        s = g.used * ASSOCIATIVITY ∧ ∃ c, c < g.used ∧ g.link c = ikey_t.zero ∧
        (∀ j, j < ASSOCIATIVITY - 1 → g.key_at c j ≠ ikey_t.zero) ∧
        ∀ n, (g2.vertices n).key = if n = s then key
          else if n = c * ASSOCIATIVITY + (ASSOCIATIVITY - 1) then ⟨g.used, 0, 0⟩
          else (g.vertices n).key) := by
  have hs := insert_key_spec wf key check_dup
  rw [h] at hs
  generalize hr : Outcome.ok (s, g2) = r at hs
  cases hs with
  | dup_abort => cases hr
  | full_abort => cases hr
  | found c j _ hc hj hk =>
    injection hr with hr
    injection hr with h1 h2
    subst h1 h2
    refine Or.inl ⟨rfl, c, j, hc, hj, rfl, Or.inl hk, fun n => ?_⟩
    split_ifs with e
    · rw [e]; exact hk
    · rfl
  | fill c j hc hj hz hpre hkey hlacks hch =>
    injection hr with hr
    injection hr with h1 h2
    subst h1 h2
    refine Or.inl ⟨rfl, c, j, hc, hj, rfl, Or.inr hz, fun n => ?_⟩
    simp only [GStore.set_key]
    split_ifs <;> rfl
  | grow c hc hch hl hfull hroom hlacks =>
    injection hr with hr
    have hfst := alloc_ext_fst wf hroom (c * ASSOCIATIVITY + (ASSOCIATIVITY - 1)) key
    have h1 : s = g.used * ASSOCIATIVITY := by rw [← hfst, ← hr]
    have h2 : g2 = (g.alloc_ext (c * ASSOCIATIVITY + (ASSOCIATIVITY - 1)) key).2 := by
      rw [← hr]
    have hka := alloc_ext_key_at wf hroom hl key
    rw [← h2] at hka
    have hle : g2.last_ext = g.last_ext + 1 := by
      rw [h2]; simp [GStore.alloc_ext, GStore.set_key]
    refine Or.inr ⟨hle, hroom, h1, c, hc, hl, hfull, fun n => ?_⟩
    have hn : n / ASSOCIATIVITY * ASSOCIATIVITY + n % ASSOCIATIVITY = n :=
      Nat.div_add_mod' n ASSOCIATIVITY
    have := hka (n / ASSOCIATIVITY) (n % ASSOCIATIVITY)
    unfold GStore.key_at at this
    rw [hn] at this
    rw [this, h1]

theorem insert_key_used {hash_u64 : Nat → Nat} {g : GStore} (wf : WF hash_u64 g)
    {key : ikey_t} {check_dup : Bool} {s : Nat} {g2 : GStore}
    (h : insert_key hash_u64 g key check_dup = .ok (s, g2)) :
    g2.num_buckets = g.num_buckets ∧ g2.num_buckets_ext = g.num_buckets_ext ∧
      g2.num_slots = g.num_slots := by
  obtain ⟨_, _, ⟨h1, h2, h3, _⟩, _⟩ := insert_key_frame wf h
  exact ⟨h2, h3, h1⟩

/-- A successful `insert_key` call writes a chain link only where the link was
empty, and what it writes is the id of the new indirect bucket. -/
theorem insert_key_link {hash_u64 : Nat → Nat} {g : GStore} (wf : WF hash_u64 g)
    {key : ikey_t} {check_dup : Bool} {s : Nat} {g2 : GStore}
    (h : insert_key hash_u64 g key check_dup = .ok (s, g2)) (b : Nat)
    (hne : g2.link b ≠ g.link b) :
    g.link b = ikey_t.zero ∧ g2.link b = ⟨g.used, 0, 0⟩ ∧ g2.last_ext = g.last_ext + 1 ∧
      g.last_ext < g.num_buckets_ext ∧ b < g.used := by
  rcases insert_key_shape wf h with ⟨_, c, j, _, hj, hs, _, hk⟩ | ⟨hle, hroom, hs, c, hc, hl, _, hk⟩
  · exfalso
    apply hne
    unfold GStore.link GStore.key_at
    rw [hk, if_neg]
    intro e
    have := (slot_inj (by simp [ASSOCIATIVITY]) (by omega) (e.trans hs)).2
    omega
  · have e1 : b * ASSOCIATIVITY + (ASSOCIATIVITY - 1) ≠ s := by
      intro e
      have := (slot_inj0 (by simp [ASSOCIATIVITY]) (e.trans hs)).2
      simp [ASSOCIATIVITY] at this
    have hb : g2.link b = if b * ASSOCIATIVITY + (ASSOCIATIVITY - 1)
        = c * ASSOCIATIVITY + (ASSOCIATIVITY - 1) then ⟨g.used, 0, 0⟩ else g.link b := by
      unfold GStore.link GStore.key_at
      rw [hk, if_neg e1]
    by_cases e2 : b * ASSOCIATIVITY + (ASSOCIATIVITY - 1)
        = c * ASSOCIATIVITY + (ASSOCIATIVITY - 1)
    · have hbc : b = c := (slot_inj (by simp [ASSOCIATIVITY]) (by simp [ASSOCIATIVITY]) e2).1
      rw [if_pos e2] at hb
      subst hbc
      exact ⟨hl, hb, hle, hroom, hc⟩
    · rw [if_neg e2] at hb
      exact absurd hb hne

theorem refresh_linked (g : GStore) : Linked (refresh g) := by
  intro e h1 h2
  simp only [GStore.used, refresh] at h1 h2
  omega

theorem SameKeys.link_eq {g g2 : GStore} (h : SameKeys g g2) (b : Nat) :
    g2.link b = g.link b := h.1 _

theorem SameKeys.used_eq {g g2 : GStore} (h : SameKeys g g2) : g2.used = g.used := by
  unfold GStore.used
  rw [h.2.2.1, h.2.2.2.2]

theorem SameKeys.linked {g g2 : GStore} (h : SameKeys g g2) (l : Linked g) : Linked g2 := by
  intro e h1 h2
  rw [h.used_eq] at h2
  rw [h.2.2.1] at h1
  obtain ⟨b, hb, hl, hv, hu⟩ := l e h1 h2
  refine ⟨b, by rw [h.used_eq]; exact hb, by rw [h.link_eq]; exact hl,
    by rw [h.link_eq]; exact hv, fun c hc hcl hcv => ?_⟩
  rw [h.used_eq] at hc
  rw [h.link_eq] at hcl hcv
  exact hu c hc hcl hcv

theorem insert_key_linked {hash_u64 : Nat → Nat} {g : GStore} (wf : WF hash_u64 g)
    (l : Linked g) {key : ikey_t} {check_dup : Bool} {s : Nat} {g2 : GStore}
    (h : insert_key hash_u64 g key check_dup = .ok (s, g2)) : Linked g2 := by
  obtain ⟨hnb, hnbe, _⟩ := insert_key_used wf h
  have hlink := insert_key_link wf h
  by_cases hgrow : g2.last_ext = g.last_ext
  · have hsame : ∀ b, g2.link b = g.link b := by
      intro b
      by_contra hne
      have := (hlink b hne).2.2.1
      omega
    have hu : g2.used = g.used := by unfold GStore.used; rw [hnb, hgrow]
    intro e h1 h2
    rw [hu] at h2
    rw [hnb] at h1
    obtain ⟨b, hb, hl, hv, huq⟩ := l e h1 h2
    refine ⟨b, by rw [hu]; exact hb, by rw [hsame]; exact hl, by rw [hsame]; exact hv,
      fun c hc hcl hcv => ?_⟩
    rw [hu] at hc
    rw [hsame] at hcl hcv
    exact huq c hc hcl hcv
  · rcases insert_key_shape wf h with ⟨hle, _⟩ | ⟨hle, hroom, hs, c, hc, hl, _, hk⟩
    · exact absurd hle hgrow
    · have hu : g2.used = g.used + 1 := by unfold GStore.used; rw [hnb, hle]; omega
      have hfresh : g.link g.used = ikey_t.zero :=
        wf.fresh g.used (ASSOCIATIVITY - 1) (le_refl _)
          (by unfold GStore.used; omega) (by simp [ASSOCIATIVITY])
      have hc2 : g2.link c = ⟨g.used, 0, 0⟩ := by
        unfold GStore.link GStore.key_at
        rw [hk, if_neg, if_pos rfl]
        intro e
        have := (slot_inj0 (by simp [ASSOCIATIVITY]) (e.trans hs)).2
        simp [ASSOCIATIVITY] at this
      have hother : ∀ b, b ≠ c → g2.link b = g.link b := by
        intro b hbc
        by_contra hne
        have h1 := (hlink b hne).1
        have h2 := (hlink b hne).2.1
        have e1 : b * ASSOCIATIVITY + (ASSOCIATIVITY - 1) ≠ s := by
          intro e
          have := (slot_inj0 (by simp [ASSOCIATIVITY]) (e.trans hs)).2
          simp [ASSOCIATIVITY] at this
        have e2 : b * ASSOCIATIVITY + (ASSOCIATIVITY - 1)
            ≠ c * ASSOCIATIVITY + (ASSOCIATIVITY - 1) := by
          intro e
          exact hbc (slot_inj (by simp [ASSOCIATIVITY]) (by simp [ASSOCIATIVITY]) e).1
        apply hne
        unfold GStore.link GStore.key_at
        rw [hk, if_neg e1, if_neg e2]
      have hnz : (⟨g.used, 0, 0⟩ : ikey_t) ≠ ikey_t.zero := by
        intro e
        have h0 : g.used = 0 := congrArg ikey_t.vid e
        have := wf.nb_pos
        unfold GStore.used at h0
        omega
      intro e h1 h2
      rw [hu] at h2
      rw [hnb] at h1
      by_cases he : e = g.used
      · subst he
        refine ⟨c, by omega, by rw [hc2]; exact hnz, by rw [hc2], fun b hb hbl hbv => ?_⟩
        by_contra hbc
        rw [hother b hbc] at hbl hbv
        rw [hu] at hb
        rcases Nat.lt_or_ge b g.used with hlt | hge
        · have := (wf.link_ok b hlt hbl).2.2.2.2
          omega
        · have hb2 : b = g.used := by omega
          rw [hb2] at hbl
          exact hbl hfresh
      · obtain ⟨b, hb, hbl, hbv, huq⟩ := l e h1 (by omega)
        have hbc : b ≠ c := by
          intro e2
          rw [e2] at hbl
          exact hbl hl
        refine ⟨b, by omega, by rw [hother b hbc]; exact hbl, by rw [hother b hbc]; exact hbv,
          fun b2 hb2 hb2l hb2v => ?_⟩
        by_cases hb2c : b2 = c
        · rw [hb2c, hc2] at hb2v
          exact absurd hb2v.symm he
        · rw [hother b2 hb2c] at hb2l hb2v
          rw [hu] at hb2
          rcases Nat.lt_or_ge b2 g.used with hlt | hge
          · exact huq b2 hlt hb2l hb2v
          · have hb3 : b2 = g.used := by omega
            rw [hb3] at hb2l
            exact absurd hfresh hb2l

theorem Built.chain_linked {hash_u64 : Nat → Nat} {g0 : GStore} (cfg : Config g0) {g : GStore}
    (b : Built hash_u64 g0 g) : Linked g := by
  induction b with
  | init => exact refresh_linked g0
  | @insert g1 g2 key cd s b1 h ih => exact insert_key_linked (b1.wellformed cfg) ih h
  | write _ h ih => exact h.linked ih

/-! ### The reads of a lookup -/

theorem find_in_bucket_reads_mem (g : GStore) (key : ikey_t) : ∀ n s t,
    t ∈ find_in_bucket_reads g key n s → s ≤ t ∧ t < s + n := by
  intro n
  induction n with
  | zero => intro s t h; simp [find_in_bucket_reads] at h
  | succ n ih =>
    intro s t h
    unfold find_in_bucket_reads at h
    split_ifs at h
    · simp at h; omega
    · rcases List.mem_cons.1 h with e | h2
      · omega
      · have := ih _ _ h2
        omega

theorem get_slot_local_visits_hit {g : GStore} {key : ikey_t} {b t : Nat} (fuel : Nat)
    (h : find_in_bucket g key (ASSOCIATIVITY - 1) (b * ASSOCIATIVITY) = some t) :
    get_slot_local_visits key g (fuel + 1) b
      = [(b, find_in_bucket_reads g key (ASSOCIATIVITY - 1) (b * ASSOCIATIVITY))] ∧
    get_slot_local_loop key g (fuel + 1) b = .ok (some t) := by
  rw [get_slot_local_visits, get_slot_local_loop, h]
  exact ⟨rfl, rfl⟩

theorem get_slot_local_visits_end {g : GStore} {key : ikey_t} {b : Nat} (fuel : Nat)
    (h : find_in_bucket g key (ASSOCIATIVITY - 1) (b * ASSOCIATIVITY) = none)
    (hl : (g.vertices (b * ASSOCIATIVITY + (ASSOCIATIVITY - 1))).key.is_empty = true) :
    get_slot_local_visits key g (fuel + 1) b
      = [(b, find_in_bucket_reads g key (ASSOCIATIVITY - 1) (b * ASSOCIATIVITY)
          ++ [b * ASSOCIATIVITY + (ASSOCIATIVITY - 1)])] ∧
    get_slot_local_loop key g (fuel + 1) b = .ok none := by
  rw [get_slot_local_visits, get_slot_local_loop, h]
  simp only [hl, if_true]
  exact ⟨trivial, trivial⟩

theorem get_slot_local_visits_next {g : GStore} {key : ikey_t} {b : Nat} (fuel : Nat)
    (h : find_in_bucket g key (ASSOCIATIVITY - 1) (b * ASSOCIATIVITY) = none)
    (hl : ¬ (g.vertices (b * ASSOCIATIVITY + (ASSOCIATIVITY - 1))).key.is_empty = true) :
    get_slot_local_visits key g (fuel + 1) b
      = (b, find_in_bucket_reads g key (ASSOCIATIVITY - 1) (b * ASSOCIATIVITY)
          ++ [b * ASSOCIATIVITY + (ASSOCIATIVITY - 1)])
        :: get_slot_local_visits key g fuel (g.link b).vid ∧
    get_slot_local_loop key g (fuel + 1) b = get_slot_local_loop key g fuel (g.link b).vid := by
  rw [get_slot_local_visits, get_slot_local_loop, h]
  simp only [if_neg hl]
  exact ⟨rfl, rfl⟩

/-- With enough budget for the chain, the loop of `get_vertex_local` visits no
more buckets than the budget of its first bucket, all of them in use, and reads
only slots of the buckets it visits; more budget changes nothing. -/
theorem get_slot_local_visits_spec {hash_u64 : Nat → Nat} {g : GStore} (wf : WF hash_u64 g)
    (key : ikey_t) : ∀ fuel b, b < g.used → g.budget b ≤ fuel →
    (get_slot_local_visits key g fuel b).length ≤ g.budget b ∧
    (∀ p, p ∈ get_slot_local_visits key g fuel b → p.1 < g.used ∧
      ∀ t, t ∈ p.2 → p.1 * ASSOCIATIVITY ≤ t ∧ t < p.1 * ASSOCIATIVITY + ASSOCIATIVITY) ∧
    ∀ fuel2, g.budget b ≤ fuel2 →
      get_slot_local_loop key g fuel2 b = get_slot_local_loop key g fuel b ∧
      get_slot_local_visits key g fuel2 b = get_slot_local_visits key g fuel b := by
  intro fuel
  induction fuel with
  | zero =>
    intro b hb hf
    have := wf.budget_pos hb
    omega
  | succ fuel ih =>
    intro b hb hf
    have hpos := wf.budget_pos hb
    have hreads : ∀ t, t ∈ find_in_bucket_reads g key (ASSOCIATIVITY - 1) (b * ASSOCIATIVITY) →
        b * ASSOCIATIVITY ≤ t ∧ t < b * ASSOCIATIVITY + ASSOCIATIVITY := by
      intro t ht
      have := find_in_bucket_reads_mem g key _ _ _ ht
      simp only [ASSOCIATIVITY] at this ⊢
      omega
    have hreads2 : ∀ t, t ∈ find_in_bucket_reads g key (ASSOCIATIVITY - 1) (b * ASSOCIATIVITY)
          ++ [b * ASSOCIATIVITY + (ASSOCIATIVITY - 1)] →
        b * ASSOCIATIVITY ≤ t ∧ t < b * ASSOCIATIVITY + ASSOCIATIVITY := by
      intro t ht
      rcases List.mem_append.1 ht with h1 | h1
      · exact hreads t h1
      · simp only [List.mem_singleton] at h1
        simp only [ASSOCIATIVITY] at h1 ⊢
        omega
    cases hfind : find_in_bucket g key (ASSOCIATIVITY - 1) (b * ASSOCIATIVITY) with
    | some t =>
      obtain ⟨e1, e2⟩ := get_slot_local_visits_hit fuel hfind
      refine ⟨?_, ?_, ?_⟩
      · rw [e1]
        simpa using hpos
      · intro p hp
        rw [e1, List.mem_singleton] at hp
        subst hp
        exact ⟨hb, hreads⟩
      · intro fuel2 hf2
        obtain ⟨f2, rfl⟩ : ∃ f2, fuel2 = f2 + 1 := ⟨fuel2 - 1, by omega⟩
        obtain ⟨e3, e4⟩ := get_slot_local_visits_hit f2 hfind
        rw [e1, e2, e3, e4]
        exact ⟨rfl, rfl⟩
    | none =>
      by_cases hl : g.link b = ikey_t.zero
      · have hl2 : (g.vertices (b * ASSOCIATIVITY + (ASSOCIATIVITY - 1))).key.is_empty = true :=
          (ikey_t.is_empty_iff _).2 hl
        obtain ⟨e1, e2⟩ := get_slot_local_visits_end fuel hfind hl2
        refine ⟨?_, ?_, ?_⟩
        · rw [e1]
          simpa using hpos
        · intro p hp
          rw [e1, List.mem_singleton] at hp
          subst hp
          exact ⟨hb, hreads2⟩
        · intro fuel2 hf2
          obtain ⟨f2, rfl⟩ : ∃ f2, fuel2 = f2 + 1 := ⟨fuel2 - 1, by omega⟩
          obtain ⟨e3, e4⟩ := get_slot_local_visits_end f2 hfind hl2
          rw [e1, e2, e3, e4]
          exact ⟨rfl, rfl⟩
      · have hl2 : ¬ (g.vertices (b * ASSOCIATIVITY + (ASSOCIATIVITY - 1))).key.is_empty = true :=
          fun h => hl ((ikey_t.is_empty_iff _).1 h)
        have hb2 := (wf.link_ok _ hb hl).2.2.2.2
        have hlt := wf.budget_link hb hl
        obtain ⟨i1, i2, i3⟩ := ih (g.link b).vid hb2 (by omega)
        obtain ⟨e1, e2⟩ := get_slot_local_visits_next fuel hfind hl2
        refine ⟨?_, ?_, ?_⟩
        · rw [e1, List.length_cons]
          omega
        · intro p hp
          rw [e1, List.mem_cons] at hp
          rcases hp with hp | hp
          · subst hp
            exact ⟨hb, hreads2⟩
          · exact i2 p hp
        · intro fuel2 hf2
          obtain ⟨f2, rfl⟩ : ∃ f2, fuel2 = f2 + 1 := ⟨fuel2 - 1, by omega⟩
          obtain ⟨j1, j2⟩ := i3 f2 (by omega)
          obtain ⟨e3, e4⟩ := get_slot_local_visits_next f2 hfind hl2
          rw [e1, e2, e3, e4]
          exact ⟨j1, by rw [j2]⟩

/-! ### The demo store with one indirect bucket -/

theorem demo_full_run :
    insert_keys demo_hash (refresh demo_store) (demo_chain_keys.take 7) = .ok demo_full_store :=
  Outcome.ok_get (by decide) (refresh demo_store)

theorem demo_full_built : Built demo_hash demo_store demo_full_store := by
  obtain ⟨log, t⟩ := insert_keys_trace (demo_chain_keys.take 7) Trace.init demo_full_run
  exact t.built

theorem demo_grown_step :
    insert_key demo_hash demo_full_store demo_eighth_key true = .ok demo_grown :=
  Outcome.ok_get (by decide) (0, demo_full_store)

theorem demo_grown_built : Built demo_hash demo_store demo_grown.2 :=
  Built.insert demo_eighth_key true demo_grown.1 demo_full_built demo_grown_step

/-! ### Ring states reached by sends and fetches -/

theorem send_false_same {W : Adaptor} {dst : Nat} {r r2 : Ring} {s : List Nat}
    (h : RDMA_Adaptor.send W dst r s = .ok (false, r2)) : r2 = r := by
  cases hi : W.init with
  | false =>
    simp only [RDMA_Adaptor.send, hi, Bool.not_false, if_true] at h
    exact nomatch h
  | true =>
    simp only [RDMA_Adaptor.send, hi, Bool.not_true, Bool.false_eq_true, if_false] at h
    by_cases hm : (SIZEOF_U64 + ceil s.length SIZEOF_U64 + SIZEOF_U64) % 2 ^ 64 < W.rbf_sz
    · rw [if_neg (not_not.2 hm)] at h
      cases hf : rbf_full W r ((SIZEOF_U64 + ceil s.length SIZEOF_U64 + SIZEOF_U64) % 2 ^ 64) with
      | true =>
        rw [hf, if_pos rfl] at h
        injection h with h
        injection h with _ h
        exact h.symm
      | false =>
        rw [hf, if_neg (by decide)] at h
        exfalso
        by_cases hl : W.sid = dst
        · rw [if_pos hl] at h
          injection h with h
          injection h with h
          exact Bool.noConfusion h
        · rw [if_neg hl] at h
          split_ifs at h <;> exact nomatch h
    · rw [if_pos hm] at h
      exact nomatch h

theorem RingOK.start {n : Nat} (hpos : 0 < n) (h8 : 8 ∣ n) (h64 : n < 2 ^ 64)
    (buf : Nat → Nat) : RingOK n ⟨fun _ => 0, 0, 0, 0, 0, buf⟩ :=
  ⟨hpos, h8, Nat.dvd_zero 8, Nat.dvd_zero 8, Nat.le_refl _, rfl, Nat.zero_le _, Nat.zero_le _,
    by simpa using h64, [], 0, rfl, Nat.le_refl _, fun _ _ _ => rfl, fun _ _ _ _ => rfl⟩

/-- A `send` that returns keeps the invariant, unless it puts the empty string
at the end of a local ring: when it returns false nothing changed, and when it
returns true the tail went up by the size of the frame. -/
theorem RingOK.after_send {n : Nat} {r r2 : Ring} (ok : RingOK n r) {W : Adaptor} {dst : Nat}
    {s : List Nat} {b : Bool} (hsz : W.rbf_sz = n) (hlen : s.length + 24 < 2 ^ 64)
    (hb : r.tail + 2 * n < 2 ^ 64)
    (haway : W.sid = dst → s = [] → (r.tail + 8) % W.rbf_sz ≠ 0)
    (h : RDMA_Adaptor.send W dst r s = .ok (b, r2)) :
    RingOK n r2 ∧ r2.head = r.head ∧ r2.remote_head = r.remote_head ∧
      r2.local_head = r.local_head ∧
      (b = false → r2 = r) ∧ (b = true → r2.tail = r.tail + frame_sz s.length) := by
  subst hsz
  cases b with
  | false =>
    have := send_false_same h
    subst this
    exact ⟨ok, rfl, rfl, rfl, fun _ => rfl, fun h => Bool.noConfusion h⟩
  | true =>
    have hfs : frame_sz s.length = 16 + (s.length + 7) / 8 * 8 := rfl
    obtain ⟨hinit, hmsg, hfull, hbuf⟩ := send_ok_true h
    have e1 := frame_sz_eq s.length (by omega)
    rw [e1] at hmsg hfull hbuf
    obtain ⟨q, mid, hq, hmid, hdead, hzero⟩ := ok.live
    have hle := hq.le
    have hp := ok.pub
    have hpub : r.remote_head ≤ r.tail := by omega
    rw [rbf_full_eq W r _ hpub (by omega)] at hfull
    have hroom : r.tail + frame_sz s.length ≤ r.remote_head + W.rbf_sz := by
      have := of_decide_eq_false hfull
      omega
    have h8t := ok.tal
    have h8m : 8 ∣ mid := hq.dvd ok.hal
    have hloc : W.sid = dst → s ≠ [] ∨ (r.tail + 8) % W.rbf_sz ≠ 0 := by
      intro hl
      by_cases hs : s = []
      · exact Or.inr (haway hl hs)
      · exact Or.inl hs
    obtain ⟨r3, F, hsend, ht, hh, hl, hr, hW, hF⟩ := @send_frame W dst r s r.head hinit ok.pos
      hmsg (by omega) hpub hroom (aligned_word ok.pos ok.al h8t)
      (aligned_word ok.pos ok.al
        (Nat.dvd_add (Nat.dvd_add h8t (dvd_refl 8)) (Nat.dvd_mul_left 8 _)))
      hloc hbuf (by omega) (by omega)
    rw [h] at hsend
    injection hsend with hsend
    injection hsend with _ hr2
    subst hr2
    have hstay : Frames W.rbf_sz r2.rbf q r.head mid :=
      Frames.stay hW hq (Nat.le_refl _) (by omega) (Or.inl hmid)
    refine ⟨⟨ok.pos, ok.al, ?_, ?_, ?_, ?_, ?_, ?_, ?_, ?_⟩, hh, hr, hl,
      fun h => Bool.noConfusion h, fun _ => ht⟩
    · rw [hh]
      exact ok.hal
    · rw [ht]
      exact Nat.dvd_add h8t (frame_sz_dvd _)
    · rw [hr, hh]
      exact ok.pub
    · rw [hl, hr]
      exact ok.lh
    · rw [hr, hh]
      exact ok.lag
    · rw [ht, hr]
      exact hroom
    · rw [ht]
      omega
    · rw [hh, ht]
      by_cases hmt : mid = r.tail
      · by_cases hs : s = []
        · refine ⟨q, mid, hstay, by omega, fun _ i hi => ?_, fun e => by omega⟩
          rw [hW.get (by omega) (by omega) (by omega), hmt, Nat.add_sub_cancel_left,
            hF.header i hi, hs]
          exact u64_byte_zero i
        · refine ⟨q ++ [s], mid + frame_sz s.length, ?_, by omega, fun e => by omega,
            fun _ x hx1 hx2 => ?_⟩
          · refine hstay.add_last hs ?_
            rw [hmt]
            exact Frame.of_writes hW hF (by omega) (by omega)
          · rw [hW.outside (by omega) (by omega) (by omega)]
            exact hzero hmt x (by omega) hx2
      · have hlt : mid < r.tail := by omega
        obtain ⟨j1, hj1⟩ := h8m
        obtain ⟨j2, hj2⟩ := h8t
        refine ⟨q, mid, hstay, by omega, fun _ i hi => ?_, fun e => by omega⟩
        rw [hW.outside (by omega) (by omega) (by omega)]
        exact hdead hlt i hi

/-- On a ring that satisfies the invariant `check` returns true only when a
frame of a non-empty string lies at the head. -/
theorem RingOK.checked {n : Nat} {r : Ring} (ok : RingOK n r) {A : Adaptor}
    (hsz : A.rbf_sz = n) (hc : RDMA_Adaptor.check A r = true) :
    ∃ s q mid, s ≠ [] ∧ Frame n r.rbf r.head s ∧
      Frames n r.rbf q (r.head + frame_sz s.length) mid ∧ mid ≤ r.tail ∧
      (mid < r.tail → ∀ i, i < 8 → r.rbf ((mid + i) % n) = 0) ∧
      (mid = r.tail → ∀ x, r.tail ≤ x → x < r.head + n → r.rbf (x % n) = 0) := by
  subst hsz
  obtain ⟨q, mid, hq, hmid, hdead, hzero⟩ := ok.live
  cases q with
  | nil =>
    exfalso
    have hm : r.head = mid := hq
    have haw := aligned_word ok.pos ok.al ok.hal
    have hz : load64 r.rbf (r.head % A.rbf_sz) = 0 := by
      apply load64_zero
      intro i hi
      rw [← mod_add_lt (by omega)]
      by_cases hmt : mid = r.tail
      · exact hzero hmt _ (by omega) (by omega)
      · rw [hm]
        exact hdead (by omega) i hi
    simp only [RDMA_Adaptor.check, hz] at hc
    exact absurd hc (by decide)
  | cons s q =>
    obtain ⟨hs, hf, hq2⟩ := hq
    exact ⟨s, q, mid, hs, hf, hq2, hmid, hdead, hzero⟩

/-- A `fetch` after a `check` that returned true keeps the invariant, moves the
head forward, not beyond the tail, and publishes the head exactly when it is
more than an eighth of the ring ahead of the published one. -/
theorem RingOK.after_fetch {n : Nat} {r r2 : Ring} (ok : RingOK n r) {A : Adaptor}
    (hsz : A.rbf_sz = n) (hc : RDMA_Adaptor.check A r = true) {fuel : Nat} {s : List Nat}
    (h : RDMA_Adaptor.fetch A fuel r = .ok (s, r2)) :
    RingOK n r2 ∧ r2.tail = r.tail ∧ r.head < r2.head ∧
      (n / 8 < r2.head - r.remote_head → r2.remote_head = r2.head) ∧
      (¬ n / 8 < r2.head - r.remote_head → r2.remote_head = r.remote_head) := by
  obtain ⟨s1, q, mid, hs, hf, hq, hmid, hdead, hzero⟩ := ok.checked hsz hc
  subst hsz
  have hfs : frame_sz s1.length = 16 + (s1.length + 7) / 8 * 8 := rfl
  have hle := hq.le
  have hroom := ok.room
  have hpub := ok.pub
  have hlag := ok.lag
  have hlh := ok.lh
  have hnw := ok.nowrap
  obtain ⟨f, rfl⟩ : ∃ f, fuel = f + 1 := by
    cases fuel with
    | zero =>
      simp only [RDMA_Adaptor.fetch, wait_footer, Outcome.bind] at h
      exact nomatch h
    | succ f => exact ⟨f, rfl⟩
  obtain ⟨r3, hfetch, hh, ht, hpubl, hW⟩ := fetch_frame A r s1 ok.pos hf hs (by omega) (by omega)
    (aligned_word ok.pos ok.al ok.hal)
    (aligned_word ok.pos ok.al
      (Nat.dvd_add (Nat.dvd_add ok.hal (dvd_refl 8)) (Nat.dvd_mul_left 8 _))) f
  rw [h] at hfetch
  injection hfetch with hfetch
  injection hfetch with _ hr3
  subst hr3
  have hW := hW ok.al ok.hal
  have hp := hpubl (by omega)
  have h8 : 8 ∣ r2.head := by
    rw [hh]
    exact Nat.dvd_add ok.hal (frame_sz_dvd _)
  have h8t : 8 ∣ r2.tail := by
    rw [ht]
    exact ok.tal
  have h8m : 8 ∣ mid := hq.dvd (by rw [← hh]; exact h8)
  have hlive : ∃ q mid, Frames A.rbf_sz r2.rbf q r2.head mid ∧ mid ≤ r2.tail ∧
      (mid < r2.tail → ∀ i, i < 8 → r2.rbf ((mid + i) % A.rbf_sz) = 0) ∧
      (mid = r2.tail → ∀ x, r2.tail ≤ x → x < r2.head + A.rbf_sz →
        r2.rbf (x % A.rbf_sz) = 0) := by
    rw [hh, ht]
    refine ⟨q, mid, Frames.stay hW hq (by omega) (by omega) (Or.inr (Nat.le_refl _)), hmid,
      fun hlt i hi => ?_, fun hmt x hx1 hx2 => ?_⟩
    · obtain ⟨j1, hj1⟩ := h8m
      obtain ⟨j2, hj2⟩ := ok.tal
      rw [hW.outside (by omega) (by omega) (by omega)]
      exact hdead hlt i hi
    · by_cases hx : x < r.head + A.rbf_sz
      · rw [hW.outside (by omega) hx (by omega)]
        exact hzero hmt x hx1 hx
      · have e : x % A.rbf_sz = (x - A.rbf_sz) % A.rbf_sz := by
          conv_lhs => rw [show x = x - A.rbf_sz + A.rbf_sz by omega]
          exact Nat.add_mod_right _ _
        rw [e, hW.get (by omega) (by omega) (by omega)]
  have hsub : r.head + frame_sz s1.length - r.local_head
      = r2.head - r.remote_head := by rw [hh, hlh]
  rw [hsub] at hp
  refine ⟨?_, ht, by omega, fun c => (hp.1 c).2.trans hh.symm, fun c => (hp.2 c).2⟩
  by_cases c : A.rbf_sz / 8 < r2.head - r.remote_head
  · obtain ⟨e1, e2⟩ := hp.1 c
    exact ⟨ok.pos, ok.al, h8, h8t, by omega, by omega, by omega, by omega, by omega, hlive⟩
  · obtain ⟨e1, e2⟩ := hp.2 c
    exact ⟨ok.pos, ok.al, h8, h8t, by omega, by omega, by omega, by omega, by omega, hlive⟩

theorem ReachedAway.ok {W A : Adaptor} {dst n : Nat} (hW : W.rbf_sz = n) (hA : A.rbf_sz = n)
    (hpos : 0 < n) (h8 : 8 ∣ n) (h64 : n < 2 ^ 64) {r : Ring} (hr : ReachedAway W A dst r) :
    RingOK n r := by
  induction hr with
  | init buf => exact RingOK.start hpos h8 h64 buf
  | send s b _ hlen hb haway h ih =>
    exact (ih.after_send hW hlen (by rw [← hW]; exact hb) haway h).1
  | fetch s fuel _ hc h ih => exact (ih.after_fetch hA hc h).1

theorem ReachedAway.reached {W A : Adaptor} {dst : Nat} {r : Ring}
    (hr : ReachedAway W A dst r) : Reached W A dst r := by
  induction hr with
  | init buf => exact Reached.init buf
  | send s b _ hlen hb _ h ih => exact Reached.send s b ih hlen hb h
  | fetch s fuel _ hc h ih => exact Reached.fetch s fuel ih hc h

theorem RingOK.head_le_tail {n : Nat} {r : Ring} (ok : RingOK n r) : r.head ≤ r.tail := by
  obtain ⟨q, mid, hq, hmid, _⟩ := ok.live
  have := hq.le
  omega

/-- On a ring of `n > 0` bytes with `n` a multiple of 8 (and below `2 ^ 64`),
in every state reached from the initial state by calls of `send`, none of which
puts the empty string at the end of a local ring, and by calls of `fetch` that
follow a `check` that returned true, as in `recv` and `tryrecv`, the published head is at most the head, the head at most the tail,
the tail at most one ring ahead of the published head, head and tail are
multiples of 8, the two copies of the published head agree, and the head is at
most `n / 8` ahead of the published head; a further such `fetch` leaves the
tail, moves the head forward but not beyond the tail, and sets the published
head to the new head exactly when the new head is more than `n / 8` ahead of
it, so that afterwards the head is at most `n / 8` ahead of the published
head. -/
theorem cursor_invariant_away (W A : Adaptor) (dst n : Nat) (hW : W.rbf_sz = n)
    (hA : A.rbf_sz = n) (hpos : 0 < n) (h8 : 8 ∣ n) (h64 : n < 2 ^ 64) (r : Ring)
    (hr : ReachedAway W A dst r) :
    (r.remote_head ≤ r.head ∧ r.head ≤ r.tail ∧ r.tail - r.remote_head ≤ n ∧
      8 ∣ r.head ∧ 8 ∣ r.tail ∧ r.local_head = r.remote_head ∧
      r.head - r.remote_head ≤ n / 8) ∧
    ∀ fuel s r2, RDMA_Adaptor.check A r = true → RDMA_Adaptor.fetch A fuel r = .ok (s, r2) →
      r2.tail = r.tail ∧ r.head < r2.head ∧ r2.head ≤ r2.tail ∧
      (n / 8 < r2.head - r.remote_head →
        r2.remote_head = r2.head ∧ r2.local_head = r2.head) ∧
      (¬ n / 8 < r2.head - r.remote_head →
        r2.remote_head = r.remote_head ∧ r2.local_head = r.remote_head) ∧
      r2.head - r2.remote_head ≤ n / 8 := by
  have ok := hr.ok hW hA hpos h8 h64
  have hle := ok.head_le_tail
  have h1 := ok.pub
  have h2 := ok.room
  have h3 := ok.lag
  refine ⟨⟨h1, hle, by omega, ok.hal, ok.tal, ok.lh, by omega⟩, ?_⟩
  intro fuel s r2 hc hf
  obtain ⟨ok2, ht, hlt, hp1, hp2⟩ := ok.after_fetch hA hc hf
  have hle2 := ok2.head_le_tail
  have h4 := ok2.lag
  have h5 := ok2.lh
  refine ⟨ht, hlt, hle2, fun c => ?_, fun c => ?_, by omega⟩
  · have := hp1 c
    exact ⟨this, h5.trans this⟩
  · have := hp2 c
    exact ⟨this, h5.trans this⟩

/-! ### The empty payload -/

theorem tryrecv_none (A : Adaptor) (spin : Nat) (t : Rings) (str : List Nat)
    (hinit : A.init = true)
    (hc : ∀ i, i < A.num_servers → RDMA_Adaptor.check A (t.ring i) = false) :
    RDMA_Adaptor.tryrecv A spin t str = .ok (false, str, t) := by
  have : ∀ k d, d + k = A.num_servers → tryrecv_loop A spin t str k d = .ok (false, str, t) := by
    intro k
    induction k with
    | zero => intro d _; rfl
    | succ k ih =>
      intro d hd
      simp only [tryrecv_loop, hc d (by omega), Bool.false_eq_true, if_false]
      exact ih (d + 1) (by omega)
  simp only [RDMA_Adaptor.tryrecv, hinit, Bool.not_true, Bool.false_eq_true, if_false]
  exact this _ 0 (by omega)

/-- Away from the end of a local ring, a `send` of the empty string into a ring
of zero bytes returns true and moves the tail by 16, the ring stays zero, and
`check` on it is false. -/
theorem send_empty_unseen (W A : Adaptor) (dst : Nat) (r : Ring) (hsz : A.rbf_sz = W.rbf_sz)
    (h8 : 8 ∣ W.rbf_sz) (h8t : 8 ∣ r.tail) (h8h : 8 ∣ r.head) (hinit : W.init = true)
    (hmsg : 16 < W.rbf_sz) (hw : r.tail + W.rbf_sz < 2 ^ 64)
    (hz : ∀ a, a < W.rbf_sz → r.rbf a = 0) (hpub : r.remote_head ≤ r.tail)
    (hroom : r.tail + 16 ≤ r.remote_head + W.rbf_sz)
    (hloc : W.sid = dst → (r.tail + 8) % W.rbf_sz ≠ 0)
    (hrem : W.sid ≠ dst → 16 < W.buf_sz) :
    ∃ r2, RDMA_Adaptor.send W dst r [] = .ok (true, r2) ∧ r2.tail = r.tail + 16 ∧
      r2.head = r.head ∧ (∀ a, a < W.rbf_sz → r2.rbf a = 0) ∧
      RDMA_Adaptor.check A r2 = false := by
  have hn : 0 < W.rbf_sz := by omega
  have hfs : frame_sz ([] : List Nat).length = 16 := rfl
  obtain ⟨r2, F, hsend, ht, hh, _, _, hW, hF⟩ := @send_frame W dst r [] r.tail hinit hn
    (by rw [hfs]; exact hmsg) hw hpub (by rw [hfs]; exact hroom) (aligned_word hn h8 h8t)
    (aligned_word hn h8 (Nat.dvd_add (Nat.dvd_add h8t (dvd_refl 8)) (Nat.dvd_mul_left 8 _)))
    (fun hl => Or.inr (hloc hl)) (fun hl => by rw [hfs]; exact hrem hl) (Nat.le_refl _)
    (by rw [hfs]; omega)
  rw [hfs] at ht hW
  have hzero : ∀ a, a < W.rbf_sz → r2.rbf a = 0 := by
    intro a ha
    have hr := Nat.mod_lt r.tail hn
    obtain ⟨x, hx1, hx2, hx3⟩ : ∃ x, r.tail ≤ x ∧ x < r.tail + W.rbf_sz ∧ x % W.rbf_sz = a := by
      by_cases c : r.tail % W.rbf_sz ≤ a
      · refine ⟨r.tail + (a - r.tail % W.rbf_sz), by omega, by omega, ?_⟩
        rw [mod_add_lt (by omega)]
        omega
      · refine ⟨r.tail + (W.rbf_sz - r.tail % W.rbf_sz + a), by omega, by omega, ?_⟩
        have h1 := Nat.div_add_mod r.tail W.rbf_sz
        have : r.tail + (W.rbf_sz - r.tail % W.rbf_sz + a)
            = a + W.rbf_sz * (r.tail / W.rbf_sz + 1) := by
          rw [Nat.mul_add, Nat.mul_one]
          omega
        rw [this, Nat.add_mul_mod_self_left]
        exact Nat.mod_eq_of_lt ha
    rw [← hx3, hW x hx1 hx2]
    split_ifs with c
    · obtain ⟨d, rfl⟩ := Nat.exists_eq_add_of_le c.1
      rw [Nat.add_sub_cancel_left]
      by_cases hd : d < 8
      · rw [hF.header d hd]
        exact u64_byte_zero d
      · have := hF.footer (d - 8) (by omega)
        simp only [List.length_nil] at this
        rw [show 8 + (0 + 7) / 8 * 8 + (d - 8) = d by omega] at this
        rw [this]
        exact u64_byte_zero _
    · rw [hx3]
      exact hz a ha
  refine ⟨r2, hsend, ht, hh, hzero, ?_⟩
  have haw := aligned_word hn h8 h8h
  have hzl : load64 r2.rbf (r2.head % A.rbf_sz) = 0 := by
    apply load64_zero
    intro i hi
    rw [hh, hsz]
    exact hzero _ (by omega)
  simp only [RDMA_Adaptor.check, hzl]
  decide

/-! ### The demo ring -/

theorem demo_ring_sent_step :
    RDMA_Adaptor.send (demo_adaptor 128) 0 (Ring.at_pos 0) (demo_payload 8)
      = .ok demo_ring_sent :=
  Outcome.ok_get (by decide) (false, Ring.at_pos 0)

set_option maxRecDepth 100000 in
theorem demo_ring_fetched_step :
    RDMA_Adaptor.fetch (demo_adaptor 128) 1 demo_ring_sent.2 = .ok demo_ring_fetched :=
  Outcome.ok_get (by decide) ([], Ring.at_pos 0)

/-! ### The integrity verifier -/

theorem find_dup_clean (x : Nat) (brk : Bool) (e : Report) : ∀ (xs : List Nat) (found : Bool),
    (found = true → x ∉ xs) → (found = false → xs.count x ≤ 1) →
    (find_dup x brk e xs found).2 = [] ∧
      (find_dup x brk e xs found).1 = (found || decide (x ∈ xs)) := by
  intro xs
  induction xs with
  | nil => intro found _ _; simp [find_dup]
  | cons v vs ih =>
    intro found h1 h2
    unfold find_dup
    by_cases hv : v = x
    · subst hv
      cases found with
      | false =>
        have h3 := h2 rfl
        rw [List.count_cons_self] at h3
        have hnot : v ∉ vs := by
          intro hm
          have := List.count_pos_iff.2 hm
          omega
        obtain ⟨i1, i2⟩ := ih true (fun _ => hnot) (fun h => Bool.noConfusion h)
        simp only [true_and, if_true, i1, i2]
        simp
      | true =>
        exact absurd (List.mem_cons_self _ _) (h1 rfl)
    · rw [if_neg (fun h => hv h.1), if_neg (fun h => hv h.1)]
      obtain ⟨i1, i2⟩ := ih found
        (fun hf hm => h1 hf (List.mem_cons_of_mem _ hm))
        (fun hf => by
          have := h2 hf
          rw [List.count_cons_of_ne (Ne.symm hv)] at this
          exact this)
      refine ⟨i1, ?_⟩
      rw [i2]
      have : (x ∈ v :: vs) ↔ x ∈ vs := by
        simp only [List.mem_cons]
        constructor
        · rintro (h | h)
          · exact absurd h.symm hv
          · exact h
        · exact Or.inr
      simp only [this]

theorem find_dup_sites (x : Nat) (brk : Bool) (e : Report) : ∀ (xs : List Nat) (found : Bool)
    (e2 : Report), e2 ∈ (find_dup x brk e xs found).2 → e2.site = e.site := by
  intro xs
  induction xs with
  | nil => intro found e2 h; simp [find_dup] at h
  | cons v vs ih =>
    intro found e2 h
    unfold find_dup at h
    split_ifs at h
    · exact ih _ _ h
    · simp only [List.mem_singleton] at h
      rw [h]
    · rcases List.mem_cons.1 h with h1 | h1
      · rw [h1]
      · exact ih _ _ h1
    · exact ih _ _ h

/-- One occurrence in a list without repetition: the loop finds the value and
reports nothing. -/
theorem find_dup_once (x : Nat) (brk : Bool) (e : Report) {xs : List Nat} (hn : xs.Nodup)
    (hx : x ∈ xs) :
    (find_dup x brk e xs false).2 = [] ∧ (find_dup x brk e xs false).1 = true := by
  obtain ⟨h1, h2⟩ := find_dup_clean x brk e xs false (fun h => Bool.noConfusion h)
    (fun _ => List.nodup_iff_count_le_one.1 hn x)
  refine ⟨h1, ?_⟩
  rw [h2]
  simp [hx]

theorem find_dup_nodup (x : Nat) (brk : Bool) (e : Report) {xs : List Nat} (hn : xs.Nodup) :
    (find_dup x brk e xs false).2 = [] ∧
      (find_dup x brk e xs false).1 = decide (x ∈ xs) := by
  obtain ⟨h1, h2⟩ := find_dup_clean x brk e xs false (fun h => Bool.noConfusion h)
    (fun _ => List.nodup_iff_count_le_one.1 hn x)
  refine ⟨h1, ?_⟩
  rw [h2]
  simp

theorem get_vertex_local_returns {hash_u64 : Nat → Nat} {g : GStore} (wf : WF hash_u64 g)
    (k : ikey_t) : ∃ v, get_vertex_local hash_u64 g k = .ok v := by
  obtain ⟨r, hr, _⟩ := get_slot_local_spec wf k
  unfold get_vertex_local
  rw [hr]
  cases r with
  | some s => exact ⟨_, rfl⟩
  | none => exact ⟨_, rfl⟩

/-- A key with a non-empty value list is found by `get_vertex_local`. -/
theorem get_vertex_local_of_vals {hash_u64 : Nat → Nat} {g : GStore} (wf : WF hash_u64 g)
    {k : ikey_t} (h : vals hash_u64 g k ≠ []) :
    ∃ v, get_vertex_local hash_u64 g k = .ok v ∧ v.key.is_empty = false := by
  obtain ⟨v, hv⟩ := get_vertex_local_returns wf k
  refine ⟨v, hv, ?_⟩
  simp only [vals, hv] at h
  cases he : v.key.is_empty with
  | false => rfl
  | true =>
    rw [he] at h
    exact absurd rfl h

/-- The result of `get_edges_local` for ids that fit the key: the value list
of the key and its length. -/
theorem get_edges_local_vals {hash_u64 : Nat → Nat} {g : GStore} (wf : WF hash_u64 g)
    {vid d pid : Nat} (hv : vid < 2 ^ NBITS_VID) (hp : pid < 2 ^ NBITS_IDX)
    (hd : d < 2 ^ NBITS_DIR) :
    ∃ r, get_edges_local hash_u64 g vid d pid = .ok r ∧
      edges_of r = vals hash_u64 g ⟨vid, pid, d⟩ ∧
      r.1 = (vals hash_u64 g ⟨vid, pid, d⟩).length := by
  obtain ⟨v, hget⟩ := get_vertex_local_returns wf ⟨vid, pid, d⟩
  simp only [get_edges_local, ikey_make_ok hv hp hd, Outcome.bind, hget, vals]
  cases he : v.key.is_empty with
  | true => exact ⟨_, rfl, rfl, rfl⟩
  | false =>
    refine ⟨_, rfl, rfl, ?_⟩
    simp [read_edges_length]

theorem ikey_t.fits_of {k : ikey_t} (h : k.fits) :
    k.vid < 2 ^ NBITS_VID ∧ k.pid < 2 ^ NBITS_IDX ∧ k.dir < 2 ^ NBITS_DIR := h

theorem dir_in_fits : IN < 2 ^ NBITS_DIR := by decide

theorem dir_out_fits : OUT < 2 ^ NBITS_DIR := by decide

theorem type_id_fits : TYPE_ID < 2 ^ NBITS_IDX := by decide

theorem predicate_id_fits : PREDICATE_ID < 2 ^ NBITS_IDX := by decide

theorem zero_vid_fits : 0 < 2 ^ NBITS_VID := by decide

/-! #### The checks return -/

theorem ver_idx_loop_total {hash_u64 : Nat → Nat} {g : GStore} (wf : WF hash_u64 g)
    (key : ikey_t) (d : Nat) (hd : d < 2 ^ NBITS_DIR) (s1 s2 s3 s4 : Site) : ∀ L : List Nat,
    (∀ v, v ∈ L → v < 2 ^ NBITS_VID) →
    ∃ l, ver_idx_loop hash_u64 g key d s1 s2 s3 s4 L = .ok l ∧
      ∀ e, e ∈ l → e.site = s1 ∨ e.site = s2 ∨ e.site = s3 ∨ e.site = s4 := by
  intro L
  induction L with
  | nil => intro _; exact ⟨[], rfl, fun e he => nomatch he⟩
  | cons v vs ih =>
    intro hL
    have hv := hL v (List.mem_cons_self _ _)
    obtain ⟨rest, hrest, hsites⟩ := ih (fun w hw => hL w (List.mem_cons_of_mem _ hw))
    obtain ⟨sores, hso, _, _⟩ := get_edges_local_vals wf zero_vid_fits type_id_fits dir_in_fits
    obtain ⟨p2res, hp2, _, _⟩ := get_edges_local_vals wf hv predicate_id_fits hd
    simp only [ver_idx_loop, hso, hp2, Outcome.bind, hrest]
    refine ⟨_, rfl, ?_⟩
    intro e he
    simp only [List.mem_append] at he
    rcases he with (((he | he) | he) | he) | he
    · exact Or.inl (find_dup_sites _ _ _ _ _ e he)
    · split_ifs at he
      · simp only [List.mem_singleton] at he
        subst he
        exact Or.inr (Or.inl rfl)
      · exact nomatch he
    · exact Or.inr (Or.inr (Or.inl (find_dup_sites _ _ _ _ _ e he)))
    · split_ifs at he
      · simp only [List.mem_singleton] at he
        subst he
        exact Or.inr (Or.inr (Or.inr rfl))
      · exact nomatch he
    · exact hsites e he

theorem find_dup_versatile (x : Nat) (brk : Bool) (e : Report) (he : e.site.versatile = true)
    (xs : List Nat) (found : Bool) (e2 : Report) (h : e2 ∈ (find_dup x brk e xs found).2) :
    e2.site.versatile = true := by
  rw [find_dup_sites x brk e xs found e2 h]
  exact he

theorem ver_idx_check_indir_total {hash_u64 : Nat → Nat} {g : GStore} (wf : WF hash_u64 g)
    (key : ikey_t) (hp : key.pid < 2 ^ NBITS_IDX)
    (hvid : ∀ x, x ∈ vals hash_u64 g ⟨0, key.pid, IN⟩ → x < 2 ^ NBITS_VID) (check : Bool) :
    ∃ l, ver_idx_check_indir hash_u64 g key check = .ok l ∧
      ∀ e, e ∈ l → e.site.versatile = true := by
  cases check with
  | false => exact ⟨[], rfl, fun e he => nomatch he⟩
  | true =>
    obtain ⟨vres, h1, _, _⟩ := @get_edges_local_vals hash_u64 g wf 0 OUT TYPE_ID zero_vid_fits
      type_id_fits dir_out_fits
    obtain ⟨pres, h2, _, _⟩ := @get_edges_local_vals hash_u64 g wf 0 OUT PREDICATE_ID
      zero_vid_fits predicate_id_fits dir_out_fits
    obtain ⟨vres2, h3, h4, _⟩ := @get_edges_local_vals hash_u64 g wf 0 IN key.pid zero_vid_fits
      hp dir_in_fits
    obtain ⟨rest, h5, h6⟩ := ver_idx_loop_total wf key OUT dir_out_fits .ver_in_so_dup
      .ver_in_so_miss .ver_in_vp_dup .ver_in_vp_miss (edges_of vres2)
      (fun v hv => hvid v (by rw [← h4]; exact hv))
    simp only [ver_idx_check_indir, Bool.not_true, Bool.false_eq_true, if_false, h1,
      Outcome.bind]
    by_cases hf : (find_dup key.pid false ⟨.ver_in_types_dup, key, key.pid⟩ (edges_of vres)
        false).1 = false
    · rw [if_pos hf]
      simp only [h2, h3, Outcome.bind]
      by_cases hz : vres2.1 = 0
      · rw [if_pos hz]
        refine ⟨_, rfl, fun e he => ?_⟩
        simp only [List.mem_append, List.mem_singleton] at he
        rcases he with ((he | he) | he) | he
        · exact find_dup_versatile _ _ _ (by rfl) _ _ e he
        · exact find_dup_versatile _ _ _ (by rfl) _ _ e he
        · split_ifs at he
          · simp only [List.mem_cons, List.mem_singleton] at he
            rcases he with he | he | he
            · rw [he]; rfl
            · rw [he]; rfl
            · exact nomatch he
          · exact nomatch he
        · rw [he]; rfl
      · rw [if_neg hz, h5]
        refine ⟨_, rfl, fun e he => ?_⟩
        simp only [List.mem_append] at he
        rcases he with ((he | he) | he) | he
        · exact find_dup_versatile _ _ _ (by rfl) _ _ e he
        · exact find_dup_versatile _ _ _ (by rfl) _ _ e he
        · split_ifs at he
          · simp only [List.mem_cons, List.mem_singleton] at he
            rcases he with he | he | he
            · rw [he]; rfl
            · rw [he]; rfl
            · exact nomatch he
          · exact nomatch he
        · rcases h6 e he with h | h | h | h <;> rw [h] <;> rfl
    · rw [if_neg hf]
      exact ⟨_, rfl, fun e he => find_dup_versatile _ _ _ (by rfl) _ _ e he⟩

theorem ver_idx_check_outdir_total {hash_u64 : Nat → Nat} {g : GStore} (wf : WF hash_u64 g)
    (key : ikey_t) (hp : key.pid < 2 ^ NBITS_IDX)
    (hvid : ∀ x, x ∈ vals hash_u64 g ⟨0, key.pid, OUT⟩ → x < 2 ^ NBITS_VID) (check : Bool) :
    ∃ l, ver_idx_check_outdir hash_u64 g key check = .ok l ∧
      ∀ e, e ∈ l → e.site.versatile = true := by
  cases check with
  | false => exact ⟨[], rfl, fun e he => nomatch he⟩
  | true =>
    obtain ⟨pres, h2, _, _⟩ := @get_edges_local_vals hash_u64 g wf 0 OUT PREDICATE_ID
      zero_vid_fits predicate_id_fits dir_out_fits
    obtain ⟨vres, h3, h4, _⟩ := @get_edges_local_vals hash_u64 g wf 0 OUT key.pid zero_vid_fits
      hp dir_out_fits
    obtain ⟨rest, h5, h6⟩ := ver_idx_loop_total wf key IN dir_in_fits .ver_out_so_dup
      .ver_out_so_miss .ver_out_vp_dup .ver_out_vp_miss (edges_of vres)
      (fun v hv => hvid v (by rw [← h4]; exact hv))
    simp only [ver_idx_check_outdir, Bool.not_true, Bool.false_eq_true, if_false, h2, h3, h5,
      Outcome.bind]
    refine ⟨_, rfl, fun e he => ?_⟩
    simp only [List.mem_append] at he
    rcases he with (he | he) | he
    · exact find_dup_versatile _ _ _ (by rfl) _ _ e he
    · split_ifs at he
      · simp only [List.mem_singleton] at he
        rw [he]; rfl
      · exact nomatch he
    · rcases h6 e he with h | h | h | h <;> rw [h] <;> rfl

theorem ver_nt_check_total {hash_u64 : Nat → Nat} {g : GStore} (wf : WF hash_u64 g)
    (key : ikey_t) (hv : key.vid < 2 ^ NBITS_VID) (hp : key.pid < 2 ^ NBITS_IDX)
    (check : Bool) :
    ∃ l, ver_nt_check hash_u64 g key check = .ok l ∧
      ∀ e, e ∈ l → e.site.versatile = true := by
  cases check with
  | false => exact ⟨[], rfl, fun e he => nomatch he⟩
  | true =>
    obtain ⟨pres, h2, _, _⟩ := @get_edges_local_vals hash_u64 g wf key.vid OUT PREDICATE_ID
      hv predicate_id_fits dir_out_fits
    obtain ⟨osres, h3, _, _⟩ := @get_edges_local_vals hash_u64 g wf 0 IN key.pid zero_vid_fits
      hp dir_in_fits
    simp only [ver_nt_check, Bool.not_true, Bool.false_eq_true, if_false, h2, h3, Outcome.bind]
    refine ⟨_, rfl, fun e he => ?_⟩
    simp only [List.mem_append] at he
    rcases he with ((he | he) | he) | he
    · exact find_dup_versatile _ _ _ (by rfl) _ _ e he
    · split_ifs at he
      · simp only [List.mem_singleton] at he
        rw [he]; rfl
      · exact nomatch he
    · exact find_dup_versatile _ _ _ (by rfl) _ _ e he
    · split_ifs at he
      · simp only [List.mem_singleton] at he
        rw [he]; rfl
      · exact nomatch he

theorem ikey_eta (k : ikey_t) : (⟨k.vid, k.pid, k.dir⟩ : ikey_t) = k := by
  cases k
  rfl

/-- The scan of `gstore_check` returns when the check of every non-empty key of
a data slot returns, and its reports are reports of these checks. -/
theorem check_buckets_all {hash_u64 : Nat → Nat} {g : GStore} (versatile : Bool)
    (index_check normal_check : Bool) (P : Report → Prop)
    (h : ∀ b j, b < g.num_buckets + g.num_buckets_ext → j < ASSOCIATIVITY - 1 →
      g.key_at b j ≠ ikey_t.zero →
      ∃ l, check_on_vertex hash_u64 versatile g (g.key_at b j) index_check normal_check
          = .ok l ∧ ∀ e, e ∈ l → P e) :
    ∃ log, gstore_check hash_u64 versatile g index_check normal_check = .ok (0, log) ∧
      ∀ e, e ∈ log → P e := by
  have hb : ∀ b, b < g.num_buckets + g.num_buckets_ext → ∀ n j, j + n = ASSOCIATIVITY - 1 →
      ∃ l, check_bucket hash_u64 versatile g index_check normal_check n
          (b * ASSOCIATIVITY + j) = .ok l ∧ ∀ e, e ∈ l → P e := by
    intro b hb n
    induction n with
    | zero => intro j _; exact ⟨[], rfl, fun e he => nomatch he⟩
    | succ n ih =>
      intro j hj
      obtain ⟨l2, h2, p2⟩ := ih (j + 1) (by omega)
      rw [← Nat.add_assoc] at h2
      simp only [check_bucket, h2]
      by_cases he : (g.vertices (b * ASSOCIATIVITY + j)).key.is_empty = true
      · rw [if_pos he]
        exact ⟨_, rfl, fun e he => p2 e (by simpa using he)⟩
      · rw [if_neg he]
        have hne : g.key_at b j ≠ ikey_t.zero := fun e => he ((ikey_t.is_empty_iff _).2 e)
        obtain ⟨l1, h1, p1⟩ := h b j hb (by omega) hne
        have h1b : check_on_vertex hash_u64 versatile g (g.vertices (b * ASSOCIATIVITY + j)).key
            index_check normal_check = .ok l1 := h1
        rw [h1b]
        refine ⟨_, rfl, fun e he => ?_⟩
        rcases List.mem_append.1 he with h | h
        · exact p1 e h
        · exact p2 e h
  have hbs : ∀ n b, b + n = g.num_buckets + g.num_buckets_ext →
      ∃ l, check_buckets hash_u64 versatile g index_check normal_check n b = .ok l ∧
        ∀ e, e ∈ l → P e := by
    intro n
    induction n with
    | zero => intro b _; exact ⟨[], rfl, fun e he => nomatch he⟩
    | succ n ih =>
      intro b hbn
      obtain ⟨l2, h2, p2⟩ := ih (b + 1) (by omega)
      obtain ⟨l1, h1, p1⟩ := hb b (by omega) (ASSOCIATIVITY - 1) 0 (by omega)
      rw [Nat.add_zero] at h1
      simp only [check_buckets, h1, h2, Outcome.bind]
      refine ⟨_, rfl, fun e he => ?_⟩
      rcases List.mem_append.1 he with h | h
      · exact p1 e h
      · exact p2 e h
  obtain ⟨log, h1, p1⟩ := hbs (g.num_buckets + g.num_buckets_ext) 0 (by omega)
  simp only [gstore_check, h1, Outcome.bind]
  exact ⟨log, rfl, p1⟩

theorem Sane.vid_in {Ty : Nat → Prop} {m : KV} (sane : Sane Ty m) {p v : Nat}
    (hp : is_tpid p = true) (hv : v ∈ m ⟨0, p, IN⟩) : v < 2 ^ NBITS_VID := by
  obtain ⟨_, h | h⟩ := sane.j1 p v hp hv
  · exact (sane.fit ⟨v, TYPE_ID, OUT⟩ (List.ne_nil_of_mem h.2)).1
  · exact (sane.fit ⟨v, p, OUT⟩ h.2).1

theorem Sane.vid_out {Ty : Nat → Prop} {m : KV} (sane : Sane Ty m) {p v : Nat}
    (hp : is_tpid p = true) (hv : v ∈ m ⟨0, p, OUT⟩) : v < 2 ^ NBITS_VID :=
  (sane.fit ⟨v, p, IN⟩ (sane.j2 p v hp hv).2).1

theorem idx_check_indir_clean {hash_u64 : Nat → Nat} {g : GStore} (wf : WF hash_u64 g)
    {Ty : Nat → Prop} (sane : Sane Ty (vals hash_u64 g)) {p : Nat} (hp : is_tpid p = true) :
    idx_check_indir hash_u64 g ⟨0, p, IN⟩ true = .ok [] := by
  have hp2 := ((is_tpid_iff p).1 hp).2
  have hloop : ∀ L : List Nat, (∀ v, v ∈ L → v ∈ vals hash_u64 g ⟨0, p, IN⟩) →
      idx_check_indir_loop hash_u64 g ⟨0, p, IN⟩ L = .ok [] := by
    intro L
    induction L with
    | nil => intro _; rfl
    | cons v vs ih =>
      intro hL
      have hv := hL v (List.mem_cons_self _ _)
      have hrest := ih (fun w hw => hL w (List.mem_cons_of_mem _ hw))
      have hvf := sane.vid_in hp hv
      obtain ⟨hvid, hcase⟩ := sane.j1 p v hp hv
      obtain ⟨tres, ht, ht2, ht3⟩ := get_edges_local_vals wf hvf type_id_fits dir_out_fits
      obtain ⟨f1, f2⟩ := find_dup_nodup p false ⟨.idx_in_dup_type, ⟨0, p, IN⟩, p⟩
        (sane.nd_type v hvid)
      simp only [idx_check_indir_loop, ht, Outcome.bind, hrest, ht2, f1, f2,
        ikey_make_ok hvf hp2 dir_out_fits]
      rcases hcase with h | h
      · have : ¬ (tres.1 ≠ 0 ∧ decide (p ∈ vals hash_u64 g ⟨v, TYPE_ID, OUT⟩) = false) := by
          intro hc
          have := hc.2
          simp only [decide_eq_false_iff_not] at this
          exact this h.2
        rw [if_neg this]
        rfl
      · obtain ⟨vx, hvx, hne⟩ := get_vertex_local_of_vals wf h.2
        split_ifs
        · simp only [hvx, hne, Bool.false_eq_true, if_false]
          rfl
        · rfl
  obtain ⟨vres, h1, h2, _⟩ := @get_edges_local_vals hash_u64 g wf 0 IN p zero_vid_fits hp2
    dir_in_fits
  simp only [idx_check_indir, Bool.not_true, Bool.false_eq_true, if_false, h1, Outcome.bind]
  exact hloop _ (fun v hv => by rw [← h2]; exact hv)

theorem idx_check_outdir_clean {hash_u64 : Nat → Nat} {g : GStore} (wf : WF hash_u64 g)
    {Ty : Nat → Prop} (sane : Sane Ty (vals hash_u64 g)) {p : Nat} (hp : is_tpid p = true) :
    idx_check_outdir hash_u64 g ⟨0, p, OUT⟩ true = .ok [] := by
  have hp2 := ((is_tpid_iff p).1 hp).2
  have hloop : ∀ L : List Nat, (∀ v, v ∈ L → v ∈ vals hash_u64 g ⟨0, p, OUT⟩) →
      idx_check_outdir_loop hash_u64 g ⟨0, p, OUT⟩ L = .ok [] := by
    intro L
    induction L with
    | nil => intro _; rfl
    | cons v vs ih =>
      intro hL
      have hv := hL v (List.mem_cons_self _ _)
      have hrest := ih (fun w hw => hL w (List.mem_cons_of_mem _ hw))
      have hvf := sane.vid_out hp hv
      obtain ⟨vx, hvx, hne⟩ := get_vertex_local_of_vals wf (sane.j2 p v hp hv).2
      simp only [idx_check_outdir_loop, Outcome.bind, hrest, ikey_make_ok hvf hp2 dir_in_fits,
        hvx, hne, Bool.false_eq_true, if_false, List.append_nil]
  obtain ⟨vres, h1, h2, _⟩ := @get_edges_local_vals hash_u64 g wf 0 OUT p zero_vid_fits hp2
    dir_out_fits
  simp only [idx_check_outdir, Bool.not_true, Bool.false_eq_true, if_false, h1, Outcome.bind]
  exact hloop _ (fun v hv => by rw [← h2]; exact hv)

theorem nt_check_clean {hash_u64 : Nat → Nat} {g : GStore} (wf : WF hash_u64 g)
    {Ty : Nat → Prop} (sane : Sane Ty (vals hash_u64 g)) {v : Nat} (hv : 2 ^ NBITS_IDX ≤ v)
    (hvf : v < 2 ^ NBITS_VID) :
    nt_check hash_u64 g ⟨v, TYPE_ID, OUT⟩ true = .ok [] := by
  have hloop : ∀ L : List Nat, (∀ t, t ∈ L → t ∈ vals hash_u64 g ⟨v, TYPE_ID, OUT⟩) →
      nt_check_loop hash_u64 g ⟨v, TYPE_ID, OUT⟩ L = .ok [] := by
    intro L
    induction L with
    | nil => intro _; rfl
    | cons t ts ih =>
      intro hL
      have ht := hL t (List.mem_cons_self _ _)
      have hrest := ih (fun w hw => hL w (List.mem_cons_of_mem _ hw))
      obtain ⟨_, htp, hmem⟩ := sane.c2 v t hv ht
      have htf := ((is_tpid_iff t).1 htp).2
      obtain ⟨vres, h1, h2, _⟩ := @get_edges_local_vals hash_u64 g wf 0 IN t zero_vid_fits htf
        dir_in_fits
      obtain ⟨f1, f2⟩ := find_dup_once v false ⟨.nt_dup, ⟨v, TYPE_ID, OUT⟩, t⟩
        (sane.nd_in t htp) hmem
      simp only [nt_check_loop, h1, Outcome.bind, hrest, h2, f1, f2, Bool.true_eq_false,
        if_false, List.append_nil]
  obtain ⟨tres, h1, h2, _⟩ := @get_edges_local_vals hash_u64 g wf v OUT TYPE_ID hvf
    type_id_fits dir_out_fits
  simp only [nt_check, Bool.not_true, Bool.false_eq_true, if_false, h1, Outcome.bind]
  exact hloop _ (fun t ht => by rw [← h2]; exact ht)

theorem np_check_in_clean {hash_u64 : Nat → Nat} {g : GStore} (wf : WF hash_u64 g)
    {Ty : Nat → Prop} (sane : Sane Ty (vals hash_u64 g)) {v p : Nat} (hv : 2 ^ NBITS_IDX ≤ v)
    (hp : is_tpid p = true) (hne : vals hash_u64 g ⟨v, p, OUT⟩ ≠ []) :
    np_check hash_u64 g ⟨v, p, OUT⟩ IN true = .ok [] := by
  have hp2 := ((is_tpid_iff p).1 hp).2
  obtain ⟨vres, h1, h2, _⟩ := @get_edges_local_vals hash_u64 g wf 0 IN p zero_vid_fits hp2
    dir_in_fits
  obtain ⟨f1, f2⟩ := find_dup_once v true ⟨.np_dup, ⟨v, p, OUT⟩, IN⟩ (sane.nd_in p hp)
    (sane.c1 v p hv hp hne).2
  simp only [np_check, Bool.not_true, Bool.false_eq_true, if_false, h1, Outcome.bind, h2, f1,
    f2, Bool.true_eq_false, List.append_nil]

theorem np_check_out_clean {hash_u64 : Nat → Nat} {g : GStore} (wf : WF hash_u64 g)
    {Ty : Nat → Prop} (sane : Sane Ty (vals hash_u64 g)) {v p : Nat} (hv : 2 ^ NBITS_IDX ≤ v)
    (hp : is_tpid p = true) (hne : vals hash_u64 g ⟨v, p, IN⟩ ≠ []) :
    np_check hash_u64 g ⟨v, p, IN⟩ OUT true = .ok [] := by
  have hp2 := ((is_tpid_iff p).1 hp).2
  obtain ⟨vres, h1, h2, _⟩ := @get_edges_local_vals hash_u64 g wf 0 OUT p zero_vid_fits hp2
    dir_out_fits
  obtain ⟨f1, f2⟩ := find_dup_once v true ⟨.np_dup, ⟨v, p, IN⟩, OUT⟩ (sane.nd_out p hp)
    (sane.c3 v p hv hp hne)
  simp only [np_check, Bool.not_true, Bool.false_eq_true, if_false, h1, Outcome.bind, h2, f1,
    f2, Bool.true_eq_false, List.append_nil]

/-- On a store with sound value lists, the check of a key that fits and, unless
it is a key of `VERSATILE`, has a non-empty list returns, and what it reports
comes from the checks of `VERSATILE`. -/
theorem check_on_vertex_clean {hash_u64 : Nat → Nat} {g : GStore} (wf : WF hash_u64 g)
    {Ty : Nat → Prop} (sane : Sane Ty (vals hash_u64 g)) (versatile : Bool) (key : ikey_t)
    (hk : key.fits) (hfull : ¬ key.aux → vals hash_u64 g key ≠ []) :
    ∃ l, check_on_vertex hash_u64 versatile g key true true = .ok l ∧
      ∀ e, e ∈ l → e.site.versatile = true ∧ versatile = true := by
  obtain ⟨v, p, d⟩ := key
  have hk1 : v < 2 ^ NBITS_VID := hk.1
  have hk2 : p < 2 ^ NBITS_IDX := hk.2.1
  unfold check_on_vertex
  simp only []
  by_cases c1 : v = 0 ∧ is_tpid p = true ∧ d = IN
  · obtain ⟨rfl, hp, rfl⟩ := c1
    rw [if_pos ⟨rfl, hp, rfl⟩, idx_check_indir_clean wf sane hp]
    obtain ⟨l2, h2, p2⟩ := ver_idx_check_indir_total wf ⟨0, p, IN⟩ hk2
      (fun x hx => sane.vid_in hp hx) true
    cases versatile with
    | false => exact ⟨_, rfl, fun e he => nomatch he⟩
    | true =>
      simp only [Outcome.bind, if_true, h2]
      exact ⟨_, rfl, fun e he => ⟨p2 e (by simpa using he), trivial⟩⟩
  rw [if_neg c1]
  by_cases c2 : v = 0 ∧ is_tpid p = true ∧ d = OUT
  · obtain ⟨rfl, hp, rfl⟩ := c2
    rw [if_pos ⟨rfl, hp, rfl⟩, idx_check_outdir_clean wf sane hp]
    obtain ⟨l2, h2, p2⟩ := ver_idx_check_outdir_total wf ⟨0, p, OUT⟩ hk2
      (fun x hx => sane.vid_out hp hx) true
    cases versatile with
    | false => exact ⟨_, rfl, fun e he => nomatch he⟩
    | true =>
      simp only [Outcome.bind, if_true, h2]
      exact ⟨_, rfl, fun e he => ⟨p2 e (by simpa using he), trivial⟩⟩
  rw [if_neg c2]
  by_cases c3 : is_vid v = true ∧ p = TYPE_ID ∧ d = OUT
  · obtain ⟨hv, rfl, rfl⟩ := c3
    rw [if_pos ⟨hv, rfl, rfl⟩, nt_check_clean wf sane (is_vid_ge hv) hk1]
    obtain ⟨l2, h2, p2⟩ := ver_nt_check_total wf ⟨v, TYPE_ID, OUT⟩ hk1 hk2 true
    cases versatile with
    | false => exact ⟨_, rfl, fun e he => nomatch he⟩
    | true =>
      simp only [Outcome.bind, if_true, h2]
      exact ⟨_, rfl, fun e he => ⟨p2 e (by simpa using he), trivial⟩⟩
  rw [if_neg c3]
  by_cases c4 : is_vid v = true ∧ is_tpid p = true ∧ d = OUT
  · obtain ⟨hv, hp, rfl⟩ := c4
    have hna : ¬ (⟨v, p, OUT⟩ : ikey_t).aux := by
      have h1 := (is_tpid_iff p).1 hp
      have h2 := is_vid_ge hv
      simp only [ikey_t.aux, PREDICATE_ID, TYPE_ID, NBITS_IDX] at h2 ⊢
      omega
    rw [if_pos ⟨hv, hp, rfl⟩, np_check_in_clean wf sane (is_vid_ge hv) hp (hfull hna)]
    exact ⟨_, rfl, fun e he => nomatch he⟩
  rw [if_neg c4]
  by_cases c5 : is_vid v = true ∧ is_tpid p = true ∧ d = IN
  · obtain ⟨hv, hp, rfl⟩ := c5
    have hna : ¬ (⟨v, p, IN⟩ : ikey_t).aux := by
      have h1 := (is_tpid_iff p).1 hp
      have h2 := is_vid_ge hv
      simp only [ikey_t.aux, PREDICATE_ID, TYPE_ID, NBITS_IDX] at h2 ⊢
      omega
    rw [if_pos ⟨hv, hp, rfl⟩, np_check_out_clean wf sane (is_vid_ge hv) hp (hfull hna)]
    exact ⟨_, rfl, fun e he => nomatch he⟩
  rw [if_neg c5]
  exact ⟨_, rfl, fun e he => nomatch he⟩

/-- The verifier on a store with sound value lists: it returns 0, and every
report comes from a check of `VERSATILE`; without `VERSATILE` there is none. -/
theorem gstore_check_clean {hash_u64 : Nat → Nat} {g : GStore} (wf : WF hash_u64 g)
    {Ty : Nat → Prop} (sane : Sane Ty (vals hash_u64 g)) (versatile : Bool)
    (hkeys : ∀ k, g.occupies k → k ≠ ikey_t.zero → k.fits)
    (hfull : ∀ k, g.occupies k → k ≠ ikey_t.zero → ¬ k.aux → vals hash_u64 g k ≠ []) :
    ∃ log, gstore_check hash_u64 versatile g true true = .ok (0, log) ∧
      (∀ e, e ∈ log → e.site.versatile = true) ∧ (versatile = false → log = []) := by
  obtain ⟨log, h1, h2⟩ := @check_buckets_all hash_u64 g versatile true true
    (fun e => e.site.versatile = true ∧ versatile = true) (fun b j hb hj hne => by
      have hocc : g.occupies (g.key_at b j) :=
        ⟨b, j, wf.lacks_of_unused hb hj hne, hj, rfl⟩
      exact check_on_vertex_clean wf sane versatile _ (hkeys _ hocc hne)
        (hfull _ hocc hne))
  refine ⟨log, h1, fun e he => (h2 e he).1, fun hv => ?_⟩
  cases log with
  | nil => rfl
  | cons e l =>
    have := (h2 e (List.mem_cons_self _ _)).2
    rw [hv] at this
    exact Bool.noConfusion this


/-! #### The verifier on loaded stores -/

theorem same_keys_write_edges (g : GStore) (off : Nat) (vs : List Nat) :
    SameKeys g (write_edges g off vs) := by
  obtain ⟨a1, a2, a3, a4, a5, _, _⟩ := write_edges_frame vs g off
  exact ⟨fun i => by rw [a1], a2, a3, a4, a5⟩

/-- A block `insert_list` keeps the index region among the reached states. -/
theorem insert_list_built {hash_u64 : Nat → Nat} {g0 g g3 : GStore} (b : Built hash_u64 g0 g)
    {vid pid d : Nat} {vs : List Nat} (h : insert_list hash_u64 g vid pid d vs = .ok g3) :
    Built hash_u64 g0 g3 := by
  unfold insert_list at h
  obtain ⟨key, _, h⟩ := Outcome.bind_ok h
  obtain ⟨r1, h1, h⟩ := Outcome.bind_ok h
  obtain ⟨r2, h2, h⟩ := Outcome.bind_ok h
  obtain ⟨ptr, _, h⟩ := Outcome.bind_ok h
  injection h with h
  have e1 : SameKeys g r1.2 := by
    simp only [alloc_edges] at h1
    split_ifs at h1
    injection h1 with h1
    rw [← h1]
    exact ⟨fun _ => rfl, rfl, rfl, rfl, rfl⟩
  have b1 : Built hash_u64 g0 r1.2 := Built.write b e1
  have b2 : Built hash_u64 g0 r2.2 := Built.insert key true r2.1 b1 h2
  rw [← h]
  exact Built.write b2 ((same_keys_set_ptr _ _ _).chain (same_keys_write_edges _ _ _))

theorem insert_lists_built {hash_u64 : Nat → Nat} {g0 : GStore} (P : List Put) :
    ∀ {g g3 : GStore}, Built hash_u64 g0 g → insert_lists hash_u64 g P = .ok g3 →
      Built hash_u64 g0 g3 := by
  induction P with
  | nil =>
    intro g g3 b h
    injection h with h
    rw [← h]
    exact b
  | cons p ps ih =>
    intro g g3 b h
    simp only [insert_lists] at h
    obtain ⟨g1, h1, h2⟩ := Outcome.bind_ok h
    exact ih (insert_list_built b h1) h2

theorem Loaded.vals_mem {hash_u64 : Nat → Nat} {g : GStore} {L : List Put}
    (ld : Loaded hash_u64 g L) {p : Put} (hp : p ∈ L) (hv : p.valid) :
    vals hash_u64 g p.key = p.vals := by
  obtain ⟨c, j, off, a1, a2, a3, a4, _, a6⟩ := ld.holds p hp
  rw [vals_occ ld.wf hv.2.2.2 a1 a2 a3, GStore.list_at, a4]
  exact a6

theorem Loaded.vals_none {hash_u64 : Nat → Nat} {g : GStore} {L : List Put}
    (ld : Loaded hash_u64 g L) {k : ikey_t} (hk : ∀ p, p ∈ L → p.key ≠ k) :
    vals hash_u64 g k = [] := by
  by_cases hz : k = ikey_t.zero
  · rw [hz]
    exact vals_zero ld.wf
  · apply vals_lacks ld.wf
    intro c j hc hj e
    obtain ⟨q, hq, hqk⟩ := ld.only c j hc hj (by rw [e]; exact hz)
    exact hk q hq (by rw [hqk, e])

theorem push_mem_rev {m : KV} {k K : ikey_t} {v x : Nat} (h : x ∈ m.push k v K) :
    x ∈ m K ∨ (K = k ∧ x = v) := by
  by_cases e : K = k
  · rw [e, push_same, List.mem_append, List.mem_singleton] at h
    rcases h with h | h
    · exact Or.inl (by rw [e]; exact h)
    · exact Or.inr ⟨e, h⟩
  · rw [push_other m v e] at h
    exact Or.inl h

theorem push_ne_nil_rev {m : KV} {k K : ikey_t} {v : Nat} (h : m.push k v K ≠ []) :
    m K ≠ [] ∨ K = k := by
  by_cases e : K = k
  · exact Or.inr e
  · rw [push_other m v e] at h
    exact Or.inl h

theorem push_nodup {m : KV} {k K : ikey_t} {v : Nat} (h : (m K).Nodup)
    (hn : K = k → v ∉ m k) : (m.push k v K).Nodup := by
  by_cases e : K = k
  · rw [e, push_same]
    rw [e] at h
    refine List.nodup_append.2 ⟨h, List.nodup_singleton v, fun a ha hb => ?_⟩
    rw [List.mem_singleton] at hb
    rw [hb] at ha
    exact hn e ha
  · rw [push_other m v e]
    exact h

theorem push_new (m : KV) (k : ikey_t) (v : Nat) : v ∈ m.push k v k := by
  rw [push_same]
  exact List.mem_append_right _ (List.mem_singleton_self v)

theorem push2_mem_rev {m : KV} {k1 k2 K : ikey_t} {v1 v2 x : Nat}
    (h : x ∈ (m.push k1 v1).push k2 v2 K) :
    x ∈ m K ∨ (K = k1 ∧ x = v1) ∨ (K = k2 ∧ x = v2) := by
  rcases push_mem_rev h with h | h
  · rcases push_mem_rev h with h | h
    · exact Or.inl h
    · exact Or.inr (Or.inl h)
  · exact Or.inr (Or.inr h)

theorem push2_ne_nil_rev {m : KV} {k1 k2 K : ikey_t} {v1 v2 : Nat}
    (h : (m.push k1 v1).push k2 v2 K ≠ []) : m K ≠ [] ∨ K = k1 ∨ K = k2 := by
  rcases push_ne_nil_rev h with h | h
  · rcases push_ne_nil_rev h with h | h
    · exact Or.inl h
    · exact Or.inr (Or.inl h)
  · exact Or.inr (Or.inr h)

theorem fits_mk {v p d : Nat} (hv : v < 2 ^ NBITS_VID) (hp : p < 2 ^ NBITS_IDX) (hd : d < 2) :
    (⟨v, p, d⟩ : ikey_t).fits := ⟨hv, hp, hd⟩

theorem not_aux_of_vid {v p d : Nat} (hv : 2 ^ NBITS_IDX ≤ v) (hp : p ≠ PREDICATE_ID) :
    ¬ (⟨v, p, d⟩ : ikey_t).aux := by
  have h := hv
  simp only [ikey_t.aux, NBITS_IDX] at h ⊢
  omega

theorem not_aux_of_tpid {v p d : Nat} (hp : is_tpid p = true) :
    ¬ (⟨v, p, d⟩ : ikey_t).aux := by
  have h := (is_tpid_iff p).1 hp
  simp only [ikey_t.aux, PREDICATE_ID, TYPE_ID] at h ⊢
  omega

/-- The invariant only looks at the keys outside `VERSATILE`. -/
theorem sane_of_core {Ty : Nat → Prop} {m m2 : KV} (h : Sane Ty m) (e : CoreEq m m2)
    (hf : KeysFit m2) : Sane Ty m2 := by
  have e1 : ∀ v, 2 ^ NBITS_IDX ≤ v → m2 ⟨v, TYPE_ID, OUT⟩ = m ⟨v, TYPE_ID, OUT⟩ :=
    fun v hv => e _ (not_aux_of_vid hv (by decide))
  have e2 : ∀ v p d, is_tpid p = true → m2 ⟨v, p, d⟩ = m ⟨v, p, d⟩ :=
    fun v p d hp => e _ (not_aux_of_tpid hp)
  refine ⟨hf, ?_, ?_, ?_, ?_, ?_, ?_, ?_, ?_⟩
  · intro v hv
    rw [e1 v hv]
    exact h.nd_type v hv
  · intro p hp
    rw [e2 0 p IN hp]
    exact h.nd_in p hp
  · intro p hp
    rw [e2 0 p OUT hp]
    exact h.nd_out p hp
  · intro p v hp hv
    rw [e2 0 p IN hp] at hv
    obtain ⟨a, b⟩ := h.j1 p v hp hv
    refine ⟨a, ?_⟩
    rw [e1 v a, e2 v p OUT hp]
    exact b
  · intro p v hp hv
    rw [e2 0 p OUT hp] at hv
    rw [e2 v p IN hp]
    exact h.j2 p v hp hv
  · intro v p hv hp hne
    rw [e2 v p OUT hp] at hne
    rw [e2 0 p IN hp]
    exact h.c1 v p hv hp hne
  · intro v t hv ht
    rw [e1 v hv] at ht
    obtain ⟨a, b, c⟩ := h.c2 v t hv ht
    refine ⟨a, b, ?_⟩
    rw [e2 0 t IN b]
    exact c
  · intro v p hv hp hne
    rw [e2 v p IN hp] at hne
    rw [e2 0 p OUT hp]
    exact h.c3 v p hv hp hne

/-- A new type of a vertex together with its entry in the type index. -/
theorem sane_push_type {Ty : Nat → Prop} {m : KV} (h : Sane Ty m) {s o : Nat}
    (hs : 2 ^ NBITS_IDX ≤ s) (hs2 : s < 2 ^ NBITS_VID) (ho : is_tpid o = true) (hty : Ty o)
    (hnew : o ∉ m ⟨s, TYPE_ID, OUT⟩) :
    Sane Ty ((m.push ⟨s, TYPE_ID, OUT⟩ o).push ⟨0, o, IN⟩ s) := by
  have hsv := hs
  have hot := (is_tpid_iff o).1 ho
  simp only [NBITS_IDX] at hsv hot
  have mono : ∀ {K : ikey_t} {x : Nat}, x ∈ m K →
      x ∈ (m.push ⟨s, TYPE_ID, OUT⟩ o).push ⟨0, o, IN⟩ s K :=
    fun hx => push_mem _ _ _ (push_mem _ _ _ hx)
  have mono2 : ∀ {K : ikey_t}, m K ≠ [] →
      (m.push ⟨s, TYPE_ID, OUT⟩ o).push ⟨0, o, IN⟩ s K ≠ [] :=
    fun hx => push_ne_nil _ _ _ (push_ne_nil _ _ _ hx)
  refine ⟨?_, ?_, ?_, ?_, ?_, ?_, ?_, ?_, ?_⟩
  · intro K hK
    rcases push2_ne_nil_rev hK with h1 | h1 | h1
    · exact h.fit K h1
    · rw [h1]
      exact fits_mk hs2 (by decide) (by decide)
    · rw [h1]
      exact fits_mk (by decide) (by simp only [NBITS_IDX]; omega) (by decide)
  · intro v hv
    apply push_nodup
    · apply push_nodup (h.nd_type v hv)
      intro e
      exact hnew
    · intro e
      exact absurd (congrArg ikey_t.dir e) (by simp [IN, OUT])
  · intro p hp
    apply push_nodup
    · apply push_nodup (h.nd_in p hp)
      intro e
      exact absurd (congrArg ikey_t.dir e) (by simp [IN, OUT])
    · intro e hx
      have e2 : p = o := congrArg ikey_t.pid e
      rcases push_mem_rev hx with hx | ⟨hx, _⟩
      · rcases (h.j1 o s ho hx).2 with ⟨_, a⟩ | ⟨a, _⟩
        · exact hnew a
        · exact a hty
      · exact absurd (congrArg ikey_t.dir hx) (by simp [IN, OUT])
  · intro p hp
    apply push_nodup
    · apply push_nodup (h.nd_out p hp)
      intro e
      have := congrArg ikey_t.vid e
      simp only at this
      omega
    · intro e
      exact absurd (congrArg ikey_t.dir e) (by simp [IN, OUT])
  · intro p v hp hv
    rcases push2_mem_rev hv with h1 | ⟨h1, _⟩ | ⟨h1, h2⟩
    · obtain ⟨a, b⟩ := h.j1 p v hp h1
      refine ⟨a, ?_⟩
      rcases b with ⟨b1, b2⟩ | ⟨b1, b2⟩
      · exact Or.inl ⟨b1, mono b2⟩
      · exact Or.inr ⟨b1, mono2 b2⟩
    · exact absurd (congrArg ikey_t.dir h1) (by simp [IN, OUT])
    · have e2 : p = o := congrArg ikey_t.pid h1
      rw [h2, e2]
      exact ⟨hs, Or.inl ⟨hty, push_mem _ _ _ (push_new _ _ _)⟩⟩
  · intro p v hp hv
    rcases push2_mem_rev hv with h1 | ⟨h1, _⟩ | ⟨h1, _⟩
    · obtain ⟨a, b⟩ := h.j2 p v hp h1
      exact ⟨a, mono2 b⟩
    · have := congrArg ikey_t.vid h1
      simp only at this
      omega
    · exact absurd (congrArg ikey_t.dir h1) (by simp [IN, OUT])
  · intro v p hv hp hne
    rcases push2_ne_nil_rev hne with h1 | h1 | h1
    · obtain ⟨a, b⟩ := h.c1 v p hv hp h1
      exact ⟨a, mono b⟩
    · have := congrArg ikey_t.pid h1
      have hp2 := (is_tpid_iff p).1 hp
      simp only [TYPE_ID] at this
      omega
    · exact absurd (congrArg ikey_t.dir h1) (by simp [IN, OUT])
  · intro v t hv ht
    rcases push2_mem_rev ht with h1 | ⟨h1, h2⟩ | ⟨h1, _⟩
    · obtain ⟨a, b, c⟩ := h.c2 v t hv h1
      exact ⟨a, b, mono c⟩
    · have e2 : v = s := congrArg ikey_t.vid h1
      rw [h2, e2]
      exact ⟨hty, ho, push_new _ _ _⟩
    · exact absurd (congrArg ikey_t.dir h1) (by simp [IN, OUT])
  · intro v p hv hp hne
    rcases push2_ne_nil_rev hne with h1 | h1 | h1
    · exact mono (h.c3 v p hv hp h1)
    · exact absurd (congrArg ikey_t.dir h1) (by simp [IN, OUT])
    · have := congrArg ikey_t.vid h1
      have hv2 := hv
      simp only [NBITS_IDX] at this hv2
      omega

/-- A new key `(s, p, OUT)` together with its entry in the predicate index. -/
theorem sane_push_out {Ty : Nat → Prop} {m : KV} (h : Sane Ty m) {s p o : Nat}
    (hs : 2 ^ NBITS_IDX ≤ s) (hs2 : s < 2 ^ NBITS_VID) (hp : is_tpid p = true) (hty : ¬ Ty p)
    (hnew : m ⟨s, p, OUT⟩ = []) :
    Sane Ty ((m.push ⟨s, p, OUT⟩ o).push ⟨0, p, IN⟩ s) := by
  have hsv := hs
  have hpt := (is_tpid_iff p).1 hp
  simp only [NBITS_IDX] at hsv hpt
  have mono : ∀ {K : ikey_t} {x : Nat}, x ∈ m K →
      x ∈ (m.push ⟨s, p, OUT⟩ o).push ⟨0, p, IN⟩ s K :=
    fun hx => push_mem _ _ _ (push_mem _ _ _ hx)
  have mono2 : ∀ {K : ikey_t}, m K ≠ [] →
      (m.push ⟨s, p, OUT⟩ o).push ⟨0, p, IN⟩ s K ≠ [] :=
    fun hx => push_ne_nil _ _ _ (push_ne_nil _ _ _ hx)
  refine ⟨?_, ?_, ?_, ?_, ?_, ?_, ?_, ?_, ?_⟩
  · intro K hK
    rcases push2_ne_nil_rev hK with h1 | h1 | h1
    · exact h.fit K h1
    · rw [h1]
      exact fits_mk hs2 (by simp only [NBITS_IDX]; omega) (by decide)
    · rw [h1]
      exact fits_mk (by decide) (by simp only [NBITS_IDX]; omega) (by decide)
  · intro v hv
    apply push_nodup
    · apply push_nodup (h.nd_type v hv)
      intro e
      have := congrArg ikey_t.pid e
      simp only [TYPE_ID] at this
      omega
    · intro e
      exact absurd (congrArg ikey_t.dir e) (by simp [IN, OUT])
  · intro q hq
    apply push_nodup
    · apply push_nodup (h.nd_in q hq)
      intro e
      exact absurd (congrArg ikey_t.dir e) (by simp [IN, OUT])
    · intro e hx
      rcases push_mem_rev hx with hx | ⟨hx, _⟩
      · rcases (h.j1 p s hp hx).2 with ⟨a, _⟩ | ⟨_, a⟩
        · exact hty a
        · exact a hnew
      · exact absurd (congrArg ikey_t.dir hx) (by simp [IN, OUT])
  · intro q hq
    apply push_nodup
    · apply push_nodup (h.nd_out q hq)
      intro e
      have := congrArg ikey_t.vid e
      simp only at this
      omega
    · intro e
      exact absurd (congrArg ikey_t.dir e) (by simp [IN, OUT])
  · intro q v hq hv
    rcases push2_mem_rev hv with h1 | ⟨h1, _⟩ | ⟨h1, h2⟩
    · obtain ⟨a, b⟩ := h.j1 q v hq h1
      refine ⟨a, ?_⟩
      rcases b with ⟨b1, b2⟩ | ⟨b1, b2⟩
      · exact Or.inl ⟨b1, mono b2⟩
      · exact Or.inr ⟨b1, mono2 b2⟩
    · exact absurd (congrArg ikey_t.dir h1) (by simp [IN, OUT])
    · have e2 : q = p := congrArg ikey_t.pid h1
      rw [h2, e2]
      exact ⟨hs, Or.inr ⟨hty, push_ne_nil _ _ _ (push_self_ne_nil _ _ _)⟩⟩
  · intro q v hq hv
    rcases push2_mem_rev hv with h1 | ⟨h1, _⟩ | ⟨h1, _⟩
    · obtain ⟨a, b⟩ := h.j2 q v hq h1
      exact ⟨a, mono2 b⟩
    · have := congrArg ikey_t.vid h1
      simp only at this
      omega
    · exact absurd (congrArg ikey_t.dir h1) (by simp [IN, OUT])
  · intro v q hv hq hne
    rcases push2_ne_nil_rev hne with h1 | h1 | h1
    · obtain ⟨a, b⟩ := h.c1 v q hv hq h1
      exact ⟨a, mono b⟩
    · have e1 : v = s := congrArg ikey_t.vid h1
      have e2 : q = p := congrArg ikey_t.pid h1
      rw [e1, e2]
      exact ⟨hty, push_new _ _ _⟩
    · exact absurd (congrArg ikey_t.dir h1) (by simp [IN, OUT])
  · intro v t hv ht
    rcases push2_mem_rev ht with h1 | ⟨h1, _⟩ | ⟨h1, _⟩
    · obtain ⟨a, b, c⟩ := h.c2 v t hv h1
      exact ⟨a, b, mono c⟩
    · have := congrArg ikey_t.pid h1
      simp only [TYPE_ID] at this
      omega
    · exact absurd (congrArg ikey_t.dir h1) (by simp [IN, OUT])
  · intro v q hv hq hne
    rcases push2_ne_nil_rev hne with h1 | h1 | h1
    · exact mono (h.c3 v q hv hq h1)
    · exact absurd (congrArg ikey_t.dir h1) (by simp [IN, OUT])
    · have := congrArg ikey_t.vid h1
      have hv2 := hv
      simp only [NBITS_IDX] at this hv2
      omega

/-- A new key `(o, p, IN)` together with its entry in the predicate index. -/
theorem sane_push_in {Ty : Nat → Prop} {m : KV} (h : Sane Ty m) {s p o : Nat}
    (ho : 2 ^ NBITS_IDX ≤ o) (ho2 : o < 2 ^ NBITS_VID) (hp : is_tpid p = true)
    (hnew : m ⟨o, p, IN⟩ = []) :
    Sane Ty ((m.push ⟨o, p, IN⟩ s).push ⟨0, p, OUT⟩ o) := by
  have hov := ho
  have hpt := (is_tpid_iff p).1 hp
  simp only [NBITS_IDX] at hov hpt
  have mono : ∀ {K : ikey_t} {x : Nat}, x ∈ m K →
      x ∈ (m.push ⟨o, p, IN⟩ s).push ⟨0, p, OUT⟩ o K :=
    fun hx => push_mem _ _ _ (push_mem _ _ _ hx)
  have mono2 : ∀ {K : ikey_t}, m K ≠ [] →
      (m.push ⟨o, p, IN⟩ s).push ⟨0, p, OUT⟩ o K ≠ [] :=
    fun hx => push_ne_nil _ _ _ (push_ne_nil _ _ _ hx)
  refine ⟨?_, ?_, ?_, ?_, ?_, ?_, ?_, ?_, ?_⟩
  · intro K hK
    rcases push2_ne_nil_rev hK with h1 | h1 | h1
    · exact h.fit K h1
    · rw [h1]
      exact fits_mk ho2 (by simp only [NBITS_IDX]; omega) (by decide)
    · rw [h1]
      exact fits_mk (by decide) (by simp only [NBITS_IDX]; omega) (by decide)
  · intro v hv
    apply push_nodup
    · apply push_nodup (h.nd_type v hv)
      intro e
      exact absurd (congrArg ikey_t.dir e) (by simp [IN, OUT])
    · intro e
      have := congrArg ikey_t.pid e
      simp only [TYPE_ID] at this
      omega
  · intro q hq
    apply push_nodup
    · apply push_nodup (h.nd_in q hq)
      intro e
      have := congrArg ikey_t.vid e
      simp only at this
      omega
    · intro e
      exact absurd (congrArg ikey_t.dir e) (by simp [IN, OUT])
  · intro q hq
    apply push_nodup
    · apply push_nodup (h.nd_out q hq)
      intro e
      exact absurd (congrArg ikey_t.dir e) (by simp [IN, OUT])
    · intro e hx
      rcases push_mem_rev hx with hx | ⟨hx, _⟩
      · exact (h.j2 p o hp hx).2 hnew
      · exact absurd (congrArg ikey_t.dir hx) (by simp [IN, OUT])
  · intro q v hq hv
    rcases push2_mem_rev hv with h1 | ⟨h1, _⟩ | ⟨h1, _⟩
    · obtain ⟨a, b⟩ := h.j1 q v hq h1
      refine ⟨a, ?_⟩
      rcases b with ⟨b1, b2⟩ | ⟨b1, b2⟩
      · exact Or.inl ⟨b1, mono b2⟩
      · exact Or.inr ⟨b1, mono2 b2⟩
    · have := congrArg ikey_t.vid h1
      simp only at this
      omega
    · exact absurd (congrArg ikey_t.dir h1) (by simp [IN, OUT])
  · intro q v hq hv
    rcases push2_mem_rev hv with h1 | ⟨h1, _⟩ | ⟨h1, h2⟩
    · obtain ⟨a, b⟩ := h.j2 q v hq h1
      exact ⟨a, mono2 b⟩
    · exact absurd (congrArg ikey_t.dir h1) (by simp [IN, OUT])
    · have e2 : q = p := congrArg ikey_t.pid h1
      rw [h2, e2]
      exact ⟨ho, push_ne_nil _ _ _ (push_self_ne_nil _ _ _)⟩
  · intro v q hv hq hne
    rcases push2_ne_nil_rev hne with h1 | h1 | h1
    · obtain ⟨a, b⟩ := h.c1 v q hv hq h1
      exact ⟨a, mono b⟩
    · exact absurd (congrArg ikey_t.dir h1) (by simp [IN, OUT])
    · have := congrArg ikey_t.vid h1
      have hv2 := hv
      simp only [NBITS_IDX] at this hv2
      omega
  · intro v t hv ht
    rcases push2_mem_rev ht with h1 | ⟨h1, _⟩ | ⟨h1, _⟩
    · obtain ⟨a, b, c⟩ := h.c2 v t hv h1
      exact ⟨a, b, mono c⟩
    · exact absurd (congrArg ikey_t.dir h1) (by simp [IN, OUT])
    · have := congrArg ikey_t.pid h1
      simp only [TYPE_ID] at this
      omega
  · intro v q hv hq hne
    rcases push2_ne_nil_rev hne with h1 | h1 | h1
    · exact mono (h.c3 v q hv hq h1)
    · have e1 : v = o := congrArg ikey_t.vid h1
      have e2 : q = p := congrArg ikey_t.pid h1
      rw [e1, e2]
      exact push_new _ _ _
    · have := congrArg ikey_t.vid h1
      have hv2 := hv
      simp only [NBITS_IDX] at this hv2
      omega

/-- One more value under an existing key of a vertex and a predicate. -/
theorem sane_push_plain {Ty : Nat → Prop} {m : KV} (h : Sane Ty m) {s p d x : Nat}
    (hs : 2 ^ NBITS_IDX ≤ s) (hp : is_tpid p = true) (hne : m ⟨s, p, d⟩ ≠ []) :
    Sane Ty (m.push ⟨s, p, d⟩ x) := by
  have hsv := hs
  have hpt := (is_tpid_iff p).1 hp
  simp only [NBITS_IDX] at hsv hpt
  have mono : ∀ {K : ikey_t} {y : Nat}, y ∈ m K → y ∈ m.push ⟨s, p, d⟩ x K :=
    fun hx => push_mem _ _ _ hx
  have mono2 : ∀ {K : ikey_t}, m K ≠ [] → m.push ⟨s, p, d⟩ x K ≠ [] :=
    fun hx => push_ne_nil _ _ _ hx
  have rev2 : ∀ {K : ikey_t}, m.push ⟨s, p, d⟩ x K ≠ [] → m K ≠ [] := by
    intro K hK
    rcases push_ne_nil_rev hK with h1 | h1
    · exact h1
    · rw [h1]
      exact hne
  have e0 : ∀ q dd, m.push ⟨s, p, d⟩ x ⟨0, q, dd⟩ = m ⟨0, q, dd⟩ := by
    intro q dd
    apply push_other
    intro e
    have := congrArg ikey_t.vid e
    simp only at this
    omega
  have e1 : ∀ v, m.push ⟨s, p, d⟩ x ⟨v, TYPE_ID, OUT⟩ = m ⟨v, TYPE_ID, OUT⟩ := by
    intro v
    apply push_other
    intro e
    have := congrArg ikey_t.pid e
    simp only [TYPE_ID] at this
    omega
  refine ⟨fun K hK => h.fit K (rev2 hK), ?_, ?_, ?_, ?_, ?_, ?_, ?_, ?_⟩
  · intro v hv
    rw [e1]
    exact h.nd_type v hv
  · intro q hq
    rw [e0]
    exact h.nd_in q hq
  · intro q hq
    rw [e0]
    exact h.nd_out q hq
  · intro q v hq hv
    rw [e0] at hv
    obtain ⟨a, b⟩ := h.j1 q v hq hv
    refine ⟨a, ?_⟩
    rcases b with ⟨b1, b2⟩ | ⟨b1, b2⟩
    · exact Or.inl ⟨b1, mono b2⟩
    · exact Or.inr ⟨b1, mono2 b2⟩
  · intro q v hq hv
    rw [e0] at hv
    obtain ⟨a, b⟩ := h.j2 q v hq hv
    exact ⟨a, mono2 b⟩
  · intro v q hv hq hn
    obtain ⟨a, b⟩ := h.c1 v q hv hq (rev2 hn)
    exact ⟨a, mono b⟩
  · intro v t hv ht
    rw [e1] at ht
    obtain ⟨a, b, c⟩ := h.c2 v t hv ht
    exact ⟨a, b, mono c⟩
  · intro v q hv hq hn
    exact mono (h.c3 v q hv hq (rev2 hn))

theorem kv_indexed_false (m : KV) (key b : ikey_t) (v : Nat) (key2 : ikey_t) (v2 : Nat) :
    kv_indexed false m key b v key2 v2 = m.push key v := by
  simp only [kv_indexed, kv_insert_false, Bool.and_false, Bool.false_eq_true, if_false,
    ite_self]

theorem kv_type_head_false (m : KV) (t : triple_t) :
    kv_type_head false m t = (kv_insert m ⟨t.s, t.p, OUT⟩ t.o true).2.2 := by
  simp only [kv_type_head, Bool.and_false, Bool.false_eq_true, if_false]

/-- Method `insert_triple_out` without `VERSATILE` keeps the invariant. -/
theorem kv_triple_out_sane {Ty : Nat → Prop} {m : KV} (h : Sane Ty m) {t : triple_t}
    (ht : t.wellformed) (hT : t.p = TYPE_ID → Ty t.o) (hP : t.p ≠ TYPE_ID → ¬ Ty t.p)
    (cd : Bool) : Sane Ty (kv_triple_out false m t cd) := by
  obtain ⟨hs, hs2, hk⟩ := ht
  by_cases hpt : t.p = TYPE_ID
  · have ho : is_tpid t.o = true := by
      rcases hk with ⟨_, a⟩ | ⟨a, _⟩
      · exact a
      · rw [hpt] at a
        exact absurd a (by decide)
    simp only [kv_triple_out, if_pos hpt, kv_type_head_false, Bool.and_false,
      Bool.false_eq_true, if_false, kv_insert_false]
    rcases kv_insert_cases m ⟨t.s, t.p, OUT⟩ t.o true with ⟨e, e2, _⟩ | ⟨e, e2, hd⟩
    · simp only [e, e2, Bool.not_true, Bool.false_eq_true, if_false]
      exact h
    · simp only [e, e2, Bool.not_false, if_true]
      have hnew := hd rfl
      rw [hpt] at hnew ⊢
      exact sane_push_type h hs hs2 ho (hT hpt) hnew
  · have hp : is_tpid t.p = true := by
      rcases hk with ⟨a, _⟩ | ⟨a, _⟩
      · exact absurd a hpt
      · exact a
    simp only [kv_triple_out, if_neg hpt, kv_indexed_false, Bool.false_eq_true, if_false]
    by_cases hnil : m ⟨t.s, t.p, OUT⟩ = []
    · have e1 : kv_insert m ⟨t.s, t.p, OUT⟩ t.o cd = (true, false, m.push ⟨t.s, t.p, OUT⟩ t.o) := by
        simp only [kv_insert, if_pos hnil]
      simp only [e1, if_true]
      exact sane_push_out h hs hs2 hp (hP hpt) hnil
    · have e1 : (kv_insert m ⟨t.s, t.p, OUT⟩ t.o cd).1 = false := by
        rw [kv_insert_fst]
        simp [hnil]
      simp only [e1, Bool.false_eq_true, if_false]
      rcases kv_insert_cases m ⟨t.s, t.p, OUT⟩ t.o cd with ⟨e, _⟩ | ⟨e, _⟩
      · rw [e]
        exact h
      · rw [e]
        exact sane_push_plain h hs hp hnil

/-- Method `insert_triple_in` without `VERSATILE` keeps the invariant. -/
theorem kv_triple_in_sane {Ty : Nat → Prop} {m : KV} (h : Sane Ty m) {t : triple_t}
    (ht : t.wellformed) (cd : Bool) : Sane Ty (kv_triple_in false m t cd) := by
  obtain ⟨hs, hs2, hk⟩ := ht
  by_cases hpt : t.p = TYPE_ID
  · simp only [kv_triple_in, if_pos hpt]
    exact h
  · obtain ⟨hp, ho, ho2⟩ : is_tpid t.p = true ∧ 2 ^ NBITS_IDX ≤ t.o ∧ t.o < 2 ^ NBITS_VID := by
      rcases hk with ⟨a, _⟩ | a
      · exact absurd a hpt
      · exact a
    simp only [kv_triple_in, if_neg hpt, kv_indexed_false, Bool.false_eq_true, if_false]
    by_cases hnil : m ⟨t.o, t.p, IN⟩ = []
    · have e1 : kv_insert m ⟨t.o, t.p, IN⟩ t.s cd = (true, false, m.push ⟨t.o, t.p, IN⟩ t.s) := by
        simp only [kv_insert, if_pos hnil]
      simp only [e1, if_true]
      exact sane_push_in h ho ho2 hp hnil
    · have e1 : (kv_insert m ⟨t.o, t.p, IN⟩ t.s cd).1 = false := by
        rw [kv_insert_fst]
        simp [hnil]
      simp only [e1, Bool.false_eq_true, if_false]
      rcases kv_insert_cases m ⟨t.o, t.p, IN⟩ t.s cd with ⟨e, _⟩ | ⟨e, _⟩
      · rw [e]
        exact h
      · rw [e]
        exact sane_push_plain h ho hp hnil

/-! #### The keys of `VERSATILE` do not disturb the others -/

theorem core_eq_refl (m : KV) : CoreEq m m := fun _ _ => rfl

theorem core_eq_trans {a b c : KV} (h1 : CoreEq a b) (h2 : CoreEq b c) : CoreEq a c :=
  fun K hK => (h2 K hK).trans (h1 K hK)

theorem core_eq_push {a b : KV} (h : CoreEq a b) (k : ikey_t) (v : Nat) :
    CoreEq (a.push k v) (b.push k v) := by
  intro K hK
  by_cases e : K = k
  · rw [e, push_same, push_same, ← e, h K hK]
  · rw [push_other a v e, push_other b v e, h K hK]

theorem core_eq_push_aux (m : KV) {k : ikey_t} (hk : k.aux) (v : Nat) :
    CoreEq m (m.push k v) := by
  intro K hK
  exact push_other m v (fun e => hK (e ▸ hk))

theorem core_eq_insert_aux (m : KV) {k : ikey_t} (hk : k.aux) (v : Nat) (d : Bool) :
    CoreEq m (kv_insert m k v d).2.2 := by
  intro K hK
  exact kv_insert_other m v d (fun e => hK (e ▸ hk))

theorem core_eq_indexed_aux (i : Bool) (m : KV) {key key2 : ikey_t} (b : ikey_t) (v v2 : Nat)
    (h1 : key.aux) (h2 : key2.aux) : CoreEq m (kv_indexed i m key b v key2 v2) := by
  intro K hK
  exact kv_indexed_other i m b v v2 (fun e => hK (e ▸ h1)) (fun e => hK (e ▸ h2))

theorem core_eq_indexed (i : Bool) (m : KV) (key : ikey_t) {key2 : ikey_t} (b : ikey_t)
    (v v2 : Nat) (h2 : key2.aux) : CoreEq (m.push key v) (kv_indexed i m key b v key2 v2) := by
  rcases kv_indexed_cases i m key b v key2 v2 with e | ⟨_, _, e⟩
  · rw [e]
    exact core_eq_refl _
  · rw [e]
    exact core_eq_push_aux _ h2 v2

theorem core_eq_type_head (ver : Bool) (m : KV) (t : triple_t) :
    CoreEq (kv_type_head false m t) (kv_type_head ver m t) := by
  rw [kv_type_head_false]
  simp only [kv_type_head]
  split_ifs
  · exact core_eq_indexed_aux _ _ _ _ _ (Or.inl rfl) (Or.inr ⟨rfl, rfl⟩)
  · exact core_eq_refl _

/-- With `VERSATILE`, `insert_triple_out` does to the other keys what it does
without. -/
theorem kv_triple_out_core (ver : Bool) (m : KV) (t : triple_t) (cd : Bool) :
    CoreEq (kv_triple_out false m t cd) (kv_triple_out ver m t cd) := by
  by_cases hpt : t.p = TYPE_ID
  · simp only [kv_triple_out, if_pos hpt, kv_insert_false, Bool.and_false, Bool.false_eq_true,
      if_false]
    split_ifs
    · exact core_eq_trans (core_eq_push (core_eq_type_head ver m t) _ _)
        (core_eq_push_aux _ (Or.inr ⟨rfl, rfl⟩) _)
    · exact core_eq_push (core_eq_type_head ver m t) _ _
    · exact core_eq_type_head ver m t
  · simp only [kv_triple_out, if_neg hpt, kv_indexed_false, Bool.false_eq_true, if_false]
    split_ifs
    · exact core_eq_trans (core_eq_indexed _ _ _ _ _ _ (Or.inl rfl))
        (core_eq_indexed_aux _ _ _ _ _ (Or.inl rfl) (Or.inr ⟨rfl, rfl⟩))
    · exact core_eq_indexed _ _ _ _ _ _ (Or.inl rfl)
    · exact core_eq_refl _

/-- With `VERSATILE`, `insert_triple_in` does to the other keys what it does
without. -/
theorem kv_triple_in_core (ver : Bool) (m : KV) (t : triple_t) (cd : Bool) :
    CoreEq (kv_triple_in false m t cd) (kv_triple_in ver m t cd) := by
  by_cases hpt : t.p = TYPE_ID
  · simp only [kv_triple_in, if_pos hpt]
    exact core_eq_refl _
  · simp only [kv_triple_in, if_neg hpt, kv_indexed_false, Bool.false_eq_true, if_false]
    split_ifs
    · exact core_eq_trans (core_eq_indexed _ _ _ _ _ _ (Or.inl rfl))
        (core_eq_indexed_aux _ _ _ _ _ (Or.inl rfl) (Or.inr ⟨rfl, rfl⟩))
    · exact core_eq_indexed _ _ _ _ _ _ (Or.inl rfl)
    · exact core_eq_refl _

/-! #### The keys of the online methods fit -/

theorem kv_insert_fit {m : KV} (hm : KeysFit m) {k : ikey_t} (hk : k.fits) (v : Nat)
    (d : Bool) : KeysFit (kv_insert m k v d).2.2 := by
  intro K hK
  rcases kv_insert_cases m k v d with ⟨e, _⟩ | ⟨e, _⟩
  · rw [e] at hK
    exact hm K hK
  · rw [e] at hK
    rcases push_ne_nil_rev hK with h1 | h1
    · exact hm K h1
    · rw [h1]
      exact hk

theorem kv_indexed_fit (i : Bool) {m : KV} (hm : KeysFit m) {key key2 : ikey_t} (b : ikey_t)
    (v v2 : Nat) (h1 : key.fits) (h2 : key2.fits) :
    KeysFit (kv_indexed i m key b v key2 v2) := by
  simp only [kv_indexed]
  split_ifs
  · exact kv_insert_fit (kv_insert_fit hm h1 _ _) h2 _ _
  · exact kv_insert_fit hm h1 _ _
  · exact kv_insert_fit hm h1 _ _

theorem kv_triple_out_fit (ver : Bool) {m : KV} (hm : KeysFit m) {t : triple_t}
    (ht : t.wellformed) (cd : Bool) : KeysFit (kv_triple_out ver m t cd) := by
  obtain ⟨hs, hs2, hk⟩ := ht
  have f0 : ∀ p d, p < 2 ^ NBITS_IDX → d < 2 → (⟨0, p, d⟩ : ikey_t).fits :=
    fun p d hp hd => fits_mk (by decide) hp hd
  have fs : ∀ p d, p < 2 ^ NBITS_IDX → d < 2 → (⟨t.s, p, d⟩ : ikey_t).fits :=
    fun p d hp hd => fits_mk hs2 hp hd
  by_cases hpt : t.p = TYPE_ID
  · have ho : t.o < 2 ^ NBITS_IDX := by
      rcases hk with ⟨_, a⟩ | ⟨a, _⟩
      · exact ((is_tpid_iff _).1 a).2
      · rw [hpt] at a
        exact absurd a (by decide)
    have hh : KeysFit (kv_type_head ver m t) := by
      simp only [kv_type_head, hpt]
      split_ifs
      · exact kv_indexed_fit _ (kv_insert_fit hm (fs _ _ (by decide) (by decide)) _ _) _ _ _
          (fs _ _ (by decide) (by decide)) (f0 _ _ (by decide) (by decide))
      · exact kv_insert_fit hm (fs _ _ (by decide) (by decide)) _ _
    simp only [kv_triple_out, if_pos hpt]
    split_ifs
    · exact kv_insert_fit (kv_insert_fit hh (f0 _ _ ho (by decide)) _ _)
        (f0 _ _ (by decide) (by decide)) _ _
    · exact kv_insert_fit hh (f0 _ _ ho (by decide)) _ _
    · exact hh
  · have hp : t.p < 2 ^ NBITS_IDX := by
      rcases hk with ⟨a, _⟩ | ⟨a, _⟩
      · exact absurd a hpt
      · exact ((is_tpid_iff _).1 a).2
    have h1 : KeysFit (kv_insert m ⟨t.s, t.p, OUT⟩ t.o cd).2.2 :=
      kv_insert_fit hm (fs _ _ hp (by decide)) _ _
    simp only [kv_triple_out, if_neg hpt]
    split_ifs
    · exact kv_indexed_fit _ (kv_indexed_fit _ h1 _ _ _ (f0 _ _ hp (by decide))
        (f0 _ _ (by decide) (by decide))) _ _ _ (fs _ _ (by decide) (by decide))
        (f0 _ _ (by decide) (by decide))
    · exact kv_indexed_fit _ h1 _ _ _ (f0 _ _ hp (by decide)) (f0 _ _ (by decide) (by decide))
    · exact h1

theorem kv_triple_in_fit (ver : Bool) {m : KV} (hm : KeysFit m) {t : triple_t}
    (ht : t.wellformed) (cd : Bool) : KeysFit (kv_triple_in ver m t cd) := by
  obtain ⟨hs, hs2, hk⟩ := ht
  have f0 : ∀ p d, p < 2 ^ NBITS_IDX → d < 2 → (⟨0, p, d⟩ : ikey_t).fits :=
    fun p d hp hd => fits_mk (by decide) hp hd
  by_cases hpt : t.p = TYPE_ID
  · simp only [kv_triple_in, if_pos hpt]
    exact hm
  · obtain ⟨hp, ho, ho2⟩ : is_tpid t.p = true ∧ 2 ^ NBITS_IDX ≤ t.o ∧ t.o < 2 ^ NBITS_VID := by
      rcases hk with ⟨a, _⟩ | a
      · exact absurd a hpt
      · exact a
    have hp2 := ((is_tpid_iff _).1 hp).2
    have fo : ∀ p d, p < 2 ^ NBITS_IDX → d < 2 → (⟨t.o, p, d⟩ : ikey_t).fits :=
      fun p d hp hd => fits_mk ho2 hp hd
    have h1 : KeysFit (kv_insert m ⟨t.o, t.p, IN⟩ t.s cd).2.2 :=
      kv_insert_fit hm (fo _ _ hp2 (by decide)) _ _
    simp only [kv_triple_in, if_neg hpt]
    split_ifs
    · exact kv_indexed_fit _ (kv_indexed_fit _ h1 _ _ _ (f0 _ _ hp2 (by decide))
        (f0 _ _ (by decide) (by decide))) _ _ _ (fo _ _ (by decide) (by decide))
        (f0 _ _ (by decide) (by decide))
    · exact kv_indexed_fit _ h1 _ _ _ (f0 _ _ hp2 (by decide)) (f0 _ _ (by decide) (by decide))
    · exact h1

/-- A sequence of online calls keeps the invariant of the verifier, with and
without `VERSATILE` and whatever the calls ask about duplicates, when the
triples are well-formed, the objects of the type triples are type ids and the
predicates of the other triples are not. -/
theorem kv_run_sane {Ty : Nat → Prop} (ver : Bool) (calls : List Call) :
    ∀ {m : KV}, Sane Ty m → (∀ c, c ∈ calls → c.triple.wellformed) →
    (∀ c, c ∈ calls → c.out = true → c.triple.p = TYPE_ID → Ty c.triple.o) →
    (∀ c, c ∈ calls → c.out = true → c.triple.p ≠ TYPE_ID → ¬ Ty c.triple.p) →
    Sane Ty (kv_run ver m calls) := by
  induction calls with
  | nil => intro m h _ _ _; exact h
  | cons c cs ih =>
    intro m h hw hT hP
    have hc := hw c (List.mem_cons_self _ _)
    simp only [kv_run]
    apply ih _ (fun c2 h2 => hw c2 (List.mem_cons_of_mem _ h2))
      (fun c2 h2 => hT c2 (List.mem_cons_of_mem _ h2))
      (fun c2 h2 => hP c2 (List.mem_cons_of_mem _ h2))
    by_cases co : c.out = true
    · rw [if_pos co]
      exact sane_of_core (kv_triple_out_sane h hc (hT c (List.mem_cons_self _ _) co)
        (hP c (List.mem_cons_self _ _) co) c.check_dup) (kv_triple_out_core ver m _ _)
        (kv_triple_out_fit ver h.fit hc _)
    · rw [if_neg co]
      exact sane_of_core (kv_triple_in_sane h hc c.check_dup) (kv_triple_in_core ver m _ _)
        (kv_triple_in_fit ver h.fit hc _)

/-! ### The bulk load of the dynamic build -/

theorem probe_bucket_edges (g : GStore) (e2 : Nat → Nat) (key : ikey_t) : ∀ n slot_id,
    probe_bucket { g with edges := e2 } key n slot_id = probe_bucket g key n slot_id := by
  intro n
  induction n with
  | zero => intro s; rfl
  | succ n ih =>
    intro s
    simp only [probe_bucket]
    rw [ih]

theorem insert_key_done_edges (g : GStore) (e2 : Nat → Nat) (key : ikey_t) (s : Nat) :
    insert_key_done key { g with edges := e2 } s =
      (insert_key_done key g s).bind fun r => .ok (r.1, { r.2 with edges := e2 }) := by
  simp only [insert_key_done]
  split_ifs <;> rfl

theorem insert_key_loop_edges (e2 : Nat → Nat) (key : ikey_t) (check_dup : Bool) :
    ∀ fuel (g : GStore) slot_id,
    insert_key_loop key check_dup fuel { g with edges := e2 } slot_id =
      (insert_key_loop key check_dup fuel g slot_id).bind fun r =>
        .ok (r.1, { r.2 with edges := e2 }) := by
  intro fuel
  induction fuel with
  | zero => intro g s; rfl
  | succ n ih =>
    intro g s
    simp only [insert_key_loop, probe_bucket_edges]
    by_cases h1 : s < g.num_slots
    · simp only [if_pos h1]
      cases probe_bucket g key (ASSOCIATIVITY - 1) s with
      | dup t =>
        simp only []
        cases check_dup with
        | true => rfl
        | false => exact insert_key_done_edges g e2 key t
      | empty t => exact insert_key_done_edges (g.set_key t key) e2 key t
      | full t =>
        simp only []
        by_cases h2 : ¬ (g.vertices t).key.is_empty = true
        · simp only [if_pos h2]
          exact ih g _
        · simp only [if_neg h2]
          by_cases h3 : g.last_ext ≥ g.num_buckets_ext
          · simp only [if_pos h3]
            rfl
          · simp only [if_neg h3]
            exact insert_key_done_edges (g.alloc_ext t key).2 e2 key _
    · simp only [if_neg h1]
      exact insert_key_done_edges g e2 key s

/-- Method `insert_key` does not look at the edges. -/
theorem insert_key_edges (hash_u64 : Nat → Nat) (g : GStore) (e2 : Nat → Nat) (key : ikey_t)
    (check_dup : Bool) :
    insert_key hash_u64 { g with edges := e2 } key check_dup =
      (insert_key hash_u64 g key check_dup).bind fun r =>
        .ok (r.1, { r.2 with edges := e2 }) :=
  insert_key_loop_edges e2 key check_dup _ g _

theorem insert_key_loop_unchecked (key : ikey_t) : ∀ fuel (g : GStore) slot_id r,
    insert_key_loop key true fuel g slot_id = .ok r →
    insert_key_loop key false fuel g slot_id = .ok r := by
  intro fuel
  induction fuel with
  | zero => intro g s r h; exact nomatch h
  | succ n ih =>
    intro g s r h
    simp only [insert_key_loop] at h ⊢
    by_cases h1 : s < g.num_slots
    · simp only [if_pos h1] at h ⊢
      cases hp : probe_bucket g key (ASSOCIATIVITY - 1) s with
      | dup t =>
        rw [hp] at h
        exact nomatch h
      | empty t =>
        rw [hp] at h
        exact h
      | full t =>
        rw [hp] at h
        simp only [] at h ⊢
        by_cases h2 : ¬ (g.vertices t).key.is_empty = true
        · simp only [if_pos h2] at h ⊢
          exact ih g _ r h
        · simp only [if_neg h2] at h ⊢
          exact h
    · simp only [if_neg h1] at h ⊢
      exact h

/-- A call of `insert_key` that succeeds with the check for duplicates
succeeds without it, with the same result. -/
theorem insert_key_unchecked {hash_u64 : Nat → Nat} {g : GStore} {key : ikey_t}
    {r : Nat × GStore} (h : insert_key hash_u64 g key true = .ok r) :
    insert_key hash_u64 g key false = .ok r :=
  insert_key_loop_unchecked key _ g _ r h

/-- A call of `insert_key` that succeeds with the check for duplicates found
no slot with the key. -/
theorem insert_key_fresh {hash_u64 : Nat → Nat} {g : GStore} (wf : WF hash_u64 g)
    {key : ikey_t} (hk : key ≠ ikey_t.zero) {r : Nat × GStore}
    (h : insert_key hash_u64 g key true = .ok r) : ¬ g.occupies key := by
  have hs := insert_key_spec wf key true
  rw [h] at hs
  rw [← lacks_iff]
  generalize hr : Outcome.ok r = x at hs
  cases hs with
  | dup_abort => cases hr
  | full_abort => cases hr
  | found c j hc => exact absurd hc (by decide)
  | fill c j _ _ _ _ _ hl _ => exact hl
  | grow c _ _ _ _ _ hl => exact hl hk

theorem write_edges_vertices (vs : List Nat) (g : GStore) (off : Nat) :
    (write_edges g off vs).vertices = g.vertices := (write_edges_frame vs g off).1


/-- One block of the bulk load in the dynamic build: the key is new, it
receives the values in a block of its own, and the lists of the other keys
stay. -/
theorem dyn_insert_list_effect {σ : Type} {E : DynEnv σ} {blocks : σ → List (Nat × Nat)}
    (ok : Malloc_OK E blocks) {hash_u64 : Nat → Nat} {st st2 : DStore σ}
    (inv : DInv E blocks hash_u64 st) {vid pid d : Nat} {vs : List Nat} {tid : Int}
    (hk : (⟨vid, pid, d⟩ : ikey_t) ≠ ikey_t.zero) (hne : vs ≠ [])
    (hr : st.insert_list E hash_u64 vid pid d vs tid = .ok st2) :
    DInv E blocks hash_u64 st2 ∧
    vals hash_u64 st2.g = kv_put (vals hash_u64 st.g) ⟨vid, pid, d, vs⟩ ∧
    ¬ st.g.occupies ⟨vid, pid, d⟩ := by
  have wf := inv.wf
  simp only [DStore.insert_list] at hr
  obtain ⟨key, hmk, hr⟩ := Outcome.bind_ok hr
  obtain ⟨a, halloc, hr⟩ := Outcome.bind_ok hr
  obtain ⟨⟨s, g2⟩, hins2, hr⟩ := Outcome.bind_ok hr
  obtain ⟨ptr, hpm, hr⟩ := Outcome.bind_ok hr
  injection hr with hr
  subst hr
  have hkey := ikey_make_inv hmk
  subst hkey
  obtain ⟨hp, hsz, _⟩ := iptr_make_inv hpm
  subst hp
  obtain ⟨ag, aheap, anew, ablk, akeep⟩ := alloc_edges_spec ok st inv.heap halloc
  rw [ag] at hins2
  have hins3 : insert_key hash_u64 { st.g with edges := (insert_sz E st.g vs.length vs.length
      a.1).edges } ⟨vid, pid, d⟩ true = .ok (s, g2) := hins2
  rw [insert_key_edges] at hins3
  obtain ⟨⟨s1, g1⟩, hins1, h2⟩ := Outcome.bind_ok hins3
  injection h2 with h2
  injection h2 with hs1 hg2
  simp only at hs1 hg2
  subst hs1
  have hins := insert_key_unchecked hins1
  have hocc := insert_key_fresh wf hk hins1
  have wf1 := insert_key_wf wf hins
  obtain ⟨⟨c0, j0, hc0, hj0, hs0, hk0⟩, hused, hold, hnewk⟩ := insert_key_slots wf hins
  obtain ⟨fptr, fedges, fcfg, _, _, _⟩ := insert_key_frame wf hins
  have hc0b : c0 < st.g.num_buckets + st.g.num_buckets_ext := by
    have h1 := wf1.ext_le
    have h2 : g1.used = g1.num_buckets + g1.last_ext := rfl
    rw [← fcfg.2.1, ← fcfg.2.2.1]
    omega
  have hzero : st.g.key_at c0 j0 = ikey_t.zero := by
    by_contra hne0
    have hcu := wf.lacks_of_unused hc0b hj0 hne0
    exact hocc ⟨c0, j0, hcu, hj0, (hold c0 j0 hcu hj0 hne0).symm.trans hk0⟩
  have hnotocc : ¬ st.g.Occ s1 := by
    rintro ⟨c, j, hc, hj, e, hne0⟩
    rw [hs0] at e
    obtain ⟨a1, b1⟩ := slot_inj (by omega) (by omega) e
    rw [a1, b1] at hzero
    exact hne0 hzero
  have hn0 : 0 < vs.length := List.length_pos.2 hne
  have hroom0 : vs.length + 1 ≤ blksz E (vs.length + 1) := ok.blk_ge _
  have hv2 : g2.vertices = g1.vertices := by rw [← hg2]
  have he2 : ∀ x, g2.edges x =
      if x = a.1 + blksz E (vs.length + 1) - 1 then vs.length else g1.edges x := by
    intro x
    rw [← hg2]
    simp only [insert_sz_edges, fedges]
  have hstep := DInv.advance inv hk hins
    { a.2 with g := write_edges (g2.set_ptr s1 ⟨vs.length, a.1, 0⟩) a.1 vs }
    vs.length a.1 (blksz E (vs.length + 1)) vs
    (by
      have h1 : SameKeys g1 g2 := by
        rw [← hg2]
        exact ⟨fun _ => rfl, rfl, rfl, rfl, rfl⟩
      exact h1.chain ((same_keys_set_ptr _ _ _).chain (same_keys_write_edges _ _ _)))
    (by
      intro t hts
      simp only [write_edges_vertices, set_ptr_ptr, if_neg hts, hv2]
      exact fptr t)
    (by simp only [write_edges_vertices, set_ptr_ptr, if_true])
    (by simp only [write_edges_vertices, set_ptr_ptr, if_true])
    hn0 hsz ablk (le_refl _)
    (aheap.same_offs fun o => ⟨fun h => h.elim (fun ⟨t, h1, _, h3⟩ => Or.inl ⟨t, h1, h3⟩) Or.inr,
      fun h => h.elim (fun ⟨t, h1, h3⟩ => Or.inl ⟨t, h1, fun e => hnotocc (e ▸ h1), h3⟩) Or.inr⟩)
    (by
      intro t ht _ len hl
      exact (akeep _ len ⟨t, ht, rfl⟩ hl).1)
    (by
      intro t ht _ e
      exact anew ⟨t, ht, e⟩)
    (by
      intro t ht _ i hi
      obtain ⟨_, _, len, hl, hlen⟩ := inv.own t ht
      have hap := (akeep _ len ⟨t, ht, rfl⟩ hl).2
      have hroom := DInv.block_room ok hlen
      have hcell := apart_cell hap hroom hi
      simp only [write_edges_get, set_ptr_edges, he2]
      rw [if_neg (fun e => hcell _ e.1 (by omega) rfl),
        if_neg (fun e => hcell _ (by omega) (by omega) e.symm), fedges])
    (write_edges_read vs _ a.1)
  exact ⟨hstep.1, hstep.2, hocc⟩

theorem kv_puts_nil (m : KV) : kv_puts m [] = m := rfl

theorem kv_puts_cons (m : KV) (p : Put) (L : List Put) :
    kv_puts m (p :: L) = kv_puts (kv_put m p) L := rfl

theorem kv_puts_append (m : KV) (A B : List Put) :
    kv_puts m (A ++ B) = kv_puts (kv_puts m A) B := by
  simp only [kv_puts, List.foldl_append]

/-- A sequence of blocks of the bulk load in the dynamic build: the invariant
of the store is kept, the keys receive their lists, and the keys were new. -/
theorem dyn_insert_lists_effect {σ : Type} {E : DynEnv σ} {blocks : σ → List (Nat × Nat)}
    (ok : Malloc_OK E blocks) {hash_u64 : Nat → Nat} {tid : Int} (P : List Put) :
    ∀ {st st2 : DStore σ}, DInv E blocks hash_u64 st →
    (∀ p, p ∈ P → p.key ≠ ikey_t.zero ∧ p.vals ≠ []) →
    DStore.insert_lists E hash_u64 tid st P = .ok st2 →
    DInv E blocks hash_u64 st2 ∧ vals hash_u64 st2.g = kv_puts (vals hash_u64 st.g) P ∧
    (∀ p, p ∈ P → ¬ st.g.occupies p.key) ∧ P.Pairwise (fun p q => p.key ≠ q.key) := by
  induction P with
  | nil =>
    intro st st2 inv _ h
    injection h with h
    subst h
    exact ⟨inv, rfl, fun p hp => absurd hp (List.not_mem_nil _), List.Pairwise.nil⟩
  | cons p P ih =>
    intro st st2 inv hP h
    simp only [DStore.insert_lists] at h
    obtain ⟨st1, h1, h⟩ := Outcome.bind_ok h
    obtain ⟨hz, hne⟩ := hP p (List.mem_cons_self _ _)
    obtain ⟨i1, v1, o1⟩ := dyn_insert_list_effect ok inv hz hne h1
    obtain ⟨i2, v2, o2, d2⟩ := ih i1 (fun q hq => hP q (List.mem_cons_of_mem _ hq)) h
    have hocc1 : st1.g.occupies p.key := by
      by_contra hno
      have := vals_lacks i1.wf ((lacks_iff _ _).2 hno)
      rw [v1] at this
      simp only [kv_put, if_true] at this
      exact hne this
    have hkeep : ∀ k, ¬ st1.g.occupies k → k ≠ ikey_t.zero → ¬ st.g.occupies k := by
      intro k hno hk
      have h3 := vals_lacks i1.wf ((lacks_iff _ _).2 hno)
      rw [v1] at h3
      simp only [kv_put] at h3
      split_ifs at h3 with e
      · exact absurd h3 hne
      · exact (inv.vals_nil_iff hk).1 h3
    refine ⟨i2, ?_, ?_, ?_⟩
    · rw [v2, v1]
      rfl
    · intro q hq
      rcases List.mem_cons.1 hq with e | hq
      · rw [e]
        exact o1
      · exact hkeep _ (o2 q hq) (hP q (List.mem_cons_of_mem _ hq)).1
    · rw [List.pairwise_cons]
      refine ⟨fun q hq e => o2 q hq ?_, d2⟩
      rw [← e]
      exact hocc1


/-! #### The passes of the dynamic build perform the same blocks -/

theorem dyn_insert_spo_eq {σ : Type} (E : DynEnv σ) (hash_u64 : Nat → Nat) (versatile : Bool)
    (spo : List triple_t) (tid : Int) : ∀ fuel (st : DStore σ) predicates s, s ≤ spo.length →
    spo.length < s + fuel →
    DStore.insert_normal_spo E hash_u64 versatile spo tid fuel st predicates s =
      (DStore.insert_lists E hash_u64 tid st
        (plan_pass versatile (fun t => t.s) (fun t => t.o) OUT spo fuel predicates s).1).bind
        fun st2 => .ok (st2,
          (plan_pass versatile (fun t => t.s) (fun t => t.o) OUT spo fuel predicates s).2) := by
  intro fuel
  induction fuel with
  | zero => intro g p s h1 h2; omega
  | succ n ih =>
    intro g p s h1 h2
    simp only [DStore.insert_normal_spo, plan_pass, run_end_spo_eq]
    by_cases hs : s < spo.length
    · obtain ⟨e1, e2, _, _⟩ := run_end_top (fun t => t.s) spo s hs
      simp only [if_pos hs]
      cases versatile with
      | false =>
        simp only [Bool.false_eq_true, if_false, DStore.insert_lists]
        cases DStore.insert_list E hash_u64 g (triple_at spo s).s (triple_at spo s).p OUT
            (slice_map spo (fun t => t.o) s
              (run_end (fun t => t.s) spo s spo.length (s + 1))) tid with
        | ok g1 =>
          simp only [Outcome.bind]
          exact ih g1 p _ e2 (by omega)
        | abort => rfl
        | nofuel => rfl
      | true =>
        simp only [if_true]
        split_ifs with hc
        · simp only [DStore.insert_lists]
          cases DStore.insert_list E hash_u64 g (triple_at spo s).s (triple_at spo s).p OUT
              (slice_map spo (fun t => t.o) s
                (run_end (fun t => t.s) spo s spo.length (s + 1))) tid with
          | ok g1 =>
            simp only [Outcome.bind]
            cases DStore.insert_list E hash_u64 g1 (triple_at spo s).s PREDICATE_ID OUT
                (p ++ [(triple_at spo s).p]) tid with
            | ok g2 =>
              simp only []
              exact ih g2 [] _ e2 (by omega)
            | abort => rfl
            | nofuel => rfl
          | abort => rfl
          | nofuel => rfl
        · simp only [DStore.insert_lists]
          cases DStore.insert_list E hash_u64 g (triple_at spo s).s (triple_at spo s).p OUT
              (slice_map spo (fun t => t.o) s
                (run_end (fun t => t.s) spo s spo.length (s + 1))) tid with
          | ok g1 =>
            simp only [Outcome.bind]
            exact ih g1 _ _ e2 (by omega)
          | abort => rfl
          | nofuel => rfl
    · simp only [if_neg hs, DStore.insert_lists, Outcome.bind]

theorem dyn_insert_ops_eq {σ : Type} (E : DynEnv σ) (hash_u64 : Nat → Nat) (versatile : Bool)
    (ops : List triple_t) (tid : Int) : ∀ fuel (st : DStore σ) predicates s, s ≤ ops.length →
    ops.length < s + fuel →
    DStore.insert_normal_ops E hash_u64 versatile ops tid fuel st predicates s =
      (DStore.insert_lists E hash_u64 tid st
        (plan_pass versatile (fun t => t.o) (fun t => t.s) IN ops fuel predicates s).1).bind
        fun st2 => .ok (st2,
          (plan_pass versatile (fun t => t.o) (fun t => t.s) IN ops fuel predicates s).2) := by
  intro fuel
  induction fuel with
  | zero => intro g p s h1 h2; omega
  | succ n ih =>
    intro g p s h1 h2
    simp only [DStore.insert_normal_ops, plan_pass, run_end_ops_eq]
    by_cases hs : s < ops.length
    · obtain ⟨e1, e2, _, _⟩ := run_end_top (fun t => t.o) ops s hs
      simp only [if_pos hs]
      cases versatile with
      | false =>
        simp only [Bool.false_eq_true, if_false, DStore.insert_lists]
        cases DStore.insert_list E hash_u64 g (triple_at ops s).o (triple_at ops s).p IN
            (slice_map ops (fun t => t.s) s
              (run_end (fun t => t.o) ops s ops.length (s + 1))) tid with
        | ok g1 =>
          simp only [Outcome.bind]
          exact ih g1 p _ e2 (by omega)
        | abort => rfl
        | nofuel => rfl
      | true =>
        simp only [if_true]
        split_ifs with hc
        · simp only [DStore.insert_lists]
          cases DStore.insert_list E hash_u64 g (triple_at ops s).o (triple_at ops s).p IN
              (slice_map ops (fun t => t.s) s
                (run_end (fun t => t.o) ops s ops.length (s + 1))) tid with
          | ok g1 =>
            simp only [Outcome.bind]
            cases DStore.insert_list E hash_u64 g1 (triple_at ops s).o PREDICATE_ID IN
                (p ++ [(triple_at ops s).p]) tid with
            | ok g2 =>
              simp only []
              exact ih g2 [] _ e2 (by omega)
            | abort => rfl
            | nofuel => rfl
          | abort => rfl
          | nofuel => rfl
        · simp only [DStore.insert_lists]
          cases DStore.insert_list E hash_u64 g (triple_at ops s).o (triple_at ops s).p IN
              (slice_map ops (fun t => t.s) s
                (run_end (fun t => t.o) ops s ops.length (s + 1))) tid with
          | ok g1 =>
            simp only [Outcome.bind]
            exact ih g1 _ _ e2 (by omega)
          | abort => rfl
          | nofuel => rfl
    · simp only [if_neg hs, DStore.insert_lists, Outcome.bind]

theorem dyn_insert_lists_append {σ : Type} (E : DynEnv σ) (hash_u64 : Nat → Nat) (tid : Int)
    (A B : List Put) : ∀ st : DStore σ,
    DStore.insert_lists E hash_u64 tid st (A ++ B) =
      (DStore.insert_lists E hash_u64 tid st A).bind fun st1 =>
        DStore.insert_lists E hash_u64 tid st1 B := by
  induction A with
  | nil => intro st; rfl
  | cons p A ih =>
    intro st
    simp only [List.cons_append, DStore.insert_lists]
    cases DStore.insert_list E hash_u64 st p.vid p.pid p.d p.vals tid with
    | ok st1 => simp only [Outcome.bind]; exact ih st1
    | abort => rfl
    | nofuel => rfl

/-- Method `insert_normal` of the dynamic build performs the blocks of
`normal_plan`. -/
theorem dyn_insert_normal_eq {σ : Type} (E : DynEnv σ) (hash_u64 : Nat → Nat)
    (versatile : Bool) (st : DStore σ) (spo ops : List triple_t) (tid : Int) :
    DStore.insert_normal E hash_u64 versatile st spo ops tid =
      DStore.insert_lists E hash_u64 tid st (normal_plan versatile spo ops) := by
  simp only [DStore.insert_normal, normal_plan]
  rw [dyn_insert_spo_eq _ _ _ _ _ _ _ _ _ (Nat.zero_le _) (by omega), dyn_insert_lists_append]
  rw [plan_pass_snd _ _ _ _ _ _ _ (by omega)]
  cases DStore.insert_lists E hash_u64 tid st
      (plan_pass versatile (fun t => t.s) (fun t => t.o) OUT spo (spo.length + 1) [] 0).1 with
  | ok g1 =>
    simp only [Outcome.bind]
    rw [dyn_insert_ops_eq _ _ _ _ _ _ _ _ _ (skip_type_triples_le ops) (by omega)]
    cases DStore.insert_lists E hash_u64 tid g1
        (plan_pass versatile (fun t => t.o) (fun t => t.s) IN ops
          (ops.length + 1) [] (skip_type_triples ops ops.length 0)).1 with
    | ok g2 => rfl
    | abort => rfl
    | nofuel => rfl
  | abort => rfl
  | nofuel => rfl

theorem dyn_insert_index_map_eq {σ : Type} (E : DynEnv σ) (hash_u64 : Nat → Nat) (d : Nat) :
    ∀ (map : tbb_hash_map) (st : DStore σ),
    DStore.insert_index_map E hash_u64 st map d =
      DStore.insert_lists E hash_u64 (-1) st (map_plan map d) := by
  intro map
  induction map with
  | nil => intro g; rfl
  | cons e rest ih =>
    intro g
    obtain ⟨pid, l⟩ := e
    simp only [DStore.insert_index_map, map_plan, List.map_cons, DStore.insert_lists]
    cases DStore.insert_list E hash_u64 g 0 pid d l (-1) with
    | ok g1 => simp only [Outcome.bind]; exact ih g1
    | abort => rfl
    | nofuel => rfl

/-- Method `insert_index` of the dynamic build scans the pairs of the store and
performs the blocks of `index_plan`. -/
theorem dyn_insert_index_eq {σ : Type} (E : DynEnv σ) (merge_freelists : σ → σ)
    (hash_u64 : Nat → Nat) (versatile : Bool) (st : DStore σ) :
    DStore.insert_index E merge_freelists hash_u64 versatile st =
      (scan_puts versatile IndexMaps.empty (st.g.occupied.map st.g.view)).bind fun m =>
        (DStore.insert_lists E hash_u64 (-1)
          { st with clock := st.clock + 1 + 1, heap := merge_freelists st.heap }
          (index_plan versatile m)).bind fun s6 => .ok { s6 with clock := s6.clock + 1 } := by
  simp only [DStore.insert_index, scan_buckets_eq, GStore.occupied, IndexMaps.empty]
  cases scan_puts versatile ⟨[], [], [], [], [], []⟩
      ((occ_buckets st.g (st.g.num_buckets + st.g.last_ext) 0).map st.g.view) with
  | abort => rfl
  | nofuel => rfl
  | ok m =>
    simp only [Outcome.bind, index_plan, dyn_insert_lists_append, dyn_insert_index_map_eq]
    cases DStore.insert_lists E hash_u64 (-1)
        { st with clock := st.clock + 1 + 1, heap := merge_freelists st.heap }
        (map_plan m.tidx_map IN) with
    | abort => rfl
    | nofuel => rfl
    | ok g1 =>
      simp only []
      cases DStore.insert_lists E hash_u64 (-1) g1 (map_plan m.pidx_in_map IN) with
      | abort => rfl
      | nofuel => rfl
      | ok g2 =>
        simp only []
        cases DStore.insert_lists E hash_u64 (-1) g2 (map_plan m.pidx_out_map OUT) with
        | abort => rfl
        | nofuel => rfl
        | ok g3 =>
          simp only []
          cases versatile with
          | false => rfl
          | true =>
            simp only [if_true, DStore.insert_index_set, DStore.insert_lists]
            cases DStore.insert_list E hash_u64 g3 0 TYPE_ID IN m.v_set (-1) with
            | abort => rfl
            | nofuel => rfl
            | ok g4 =>
              simp only [Outcome.bind]
              cases DStore.insert_list E hash_u64 g4 0 TYPE_ID OUT m.t_set (-1) with
              | abort => rfl
              | nofuel => rfl
              | ok g5 =>
                simp only []
                cases DStore.insert_list E hash_u64 g5 0 PREDICATE_ID OUT m.p_set (-1) with
                | abort => rfl
                | nofuel => rfl
                | ok g6 => rfl

/-! ### The value lists of a bulk load -/

theorem kv_puts_not_mem (L : List Put) : ∀ (m : KV) (k : ikey_t),
    (∀ p, p ∈ L → p.key ≠ k) → kv_puts m L k = m k := by
  induction L with
  | nil => intro m k _; rfl
  | cons a L ih =>
    intro m k h
    rw [kv_puts_cons, ih _ _ (fun p hp => h p (List.mem_cons_of_mem _ hp))]
    simp only [kv_put]
    rw [if_neg (fun e => h a (List.mem_cons_self _ _) e.symm)]

theorem kv_puts_mem (L : List Put) : ∀ (m : KV),
    L.Pairwise (fun p q => p.key ≠ q.key) → ∀ p, p ∈ L → kv_puts m L p.key = p.vals := by
  induction L with
  | nil => intro m _ p hp; exact absurd hp (List.not_mem_nil _)
  | cons a L ih =>
    intro m hd p hp
    rw [List.pairwise_cons] at hd
    rw [kv_puts_cons]
    rcases List.mem_cons.1 hp with e | hp
    · rw [e, kv_puts_not_mem L _ _ (fun q hq e2 => hd.1 q hq e2.symm)]
      simp only [kv_put, if_true]
    · exact ih _ hd.2 p hp

theorem kv_puts_cases (L : List Put) : ∀ (m : KV) (k : ikey_t),
    kv_puts m L k = m k ∨ ∃ p, p ∈ L ∧ p.key = k ∧ kv_puts m L k = p.vals := by
  induction L with
  | nil => intro m k; exact Or.inl rfl
  | cons a L ih =>
    intro m k
    rw [kv_puts_cons]
    rcases ih (kv_put m a) k with h | ⟨p, hp, e, h⟩
    · by_cases hk : k = a.key
      · right
        refine ⟨a, List.mem_cons_self _ _, hk.symm, ?_⟩
        rw [h]
        simp only [kv_put, if_pos hk]
      · left
        rw [h]
        simp only [kv_put, if_neg hk]
    · exact Or.inr ⟨p, List.mem_cons_of_mem _ hp, e, h⟩

/-- The value lists of a loaded store are those of its pairs. -/
theorem loaded_vals_eq {hash_u64 : Nat → Nat} {g : GStore} {L : List Put}
    (ld : Loaded hash_u64 g L) (hl : Loadable L) :
    vals hash_u64 g = kv_puts (fun _ => []) L := by
  funext k
  by_cases hex : ∃ p, p ∈ L ∧ p.key = k
  · obtain ⟨p, hp, e⟩ := hex
    rw [← e, ld.vals_mem hp (hl.valid p hp), kv_puts_mem L _ hl.distinct p hp]
  · rw [ld.vals_none (fun p hp e => hex ⟨p, hp, e⟩),
      kv_puts_not_mem L _ _ (fun p hp e => hex ⟨p, hp, e⟩)]

/-- The invariant of the dynamic store only looks at the blocks of the
allocator. -/
theorem dyn_inv_heap {σ : Type} {E : DynEnv σ} {blocks : σ → List (Nat × Nat)}
    {hash_u64 : Nat → Nat} {st st2 : DStore σ} (inv : DInv E blocks hash_u64 st)
    (hg : st2.g = st.g) (hb : blocks st2.heap = blocks st.heap)
    (hq : st2.free_queue = st.free_queue) : DInv E blocks hash_u64 st2 := by
  obtain ⟨wf, blank, heap, own, sep⟩ := inv
  refine ⟨?_, ?_, ?_, ?_, ?_⟩
  · rw [hg]
    exact wf
  · rw [hg]
    exact blank
  · rw [hg, hq]
    refine ⟨?_, ?_, ?_, ?_, heap.pend_nodup⟩
    · rw [hb]
      exact heap.apart
    · rw [hb]
      exact heap.pos
    · rw [hb]
      exact heap.held
    · rw [hb]
      exact heap.pend
  · rw [hg, hb]
    exact own
  · rw [hg]
    exact sep

/-- The scan of `insert_index` over a store of the dynamic build visits
exactly the pairs that the blocks before it created, each once. -/
theorem dyn_scan_perm {σ : Type} {E : DynEnv σ} {blocks : σ → List (Nat × Nat)}
    {hash_u64 : Nat → Nat} {st : DStore σ} (inv : DInv E blocks hash_u64 st) {L : List Put}
    (hd : L.Pairwise (fun p q => p.key ≠ q.key))
    (hne : ∀ p, p ∈ L → p.key ≠ ikey_t.zero ∧ p.vals ≠ [])
    (hv : vals hash_u64 st.g = kv_puts (fun _ => []) L) :
    (st.g.occupied.map st.g.view).Perm L := by
  have wf := inv.wf
  have hnodupL : L.Nodup := hd.imp (fun h e => h (by rw [e]))
  have hnodupO : (st.g.occupied.map st.g.view).Nodup := by
    apply List.Nodup.map_on _ (occupied_nodup st.g)
    intro x hx y hy hxy
    obtain ⟨b, j, h1, h2, h3, h4⟩ := (occupied_mem wf x).1 hx
    obtain ⟨c, i, k1, k2, k3, k4⟩ := (occupied_mem wf y).1 hy
    have hk : st.g.key_at b j = st.g.key_at c i := by
      rw [← view_key, ← view_key, ← h3, ← k3, hxy]
    obtain ⟨e1, e2⟩ := wf.nodup b j c i h1 k1 h2 k2 h4 hk
    rw [h3, k3, e1, e2]
  have hview : ∀ b j, b < st.g.used → j < ASSOCIATIVITY - 1 →
      st.g.key_at b j ≠ ikey_t.zero →
      st.g.view (b * ASSOCIATIVITY + j) =
        ⟨(st.g.key_at b j).vid, (st.g.key_at b j).pid, (st.g.key_at b j).dir,
          vals hash_u64 st.g (st.g.key_at b j)⟩ := by
    intro b j hb hj hk
    rw [vals_occ wf hk hb hj rfl]
    rfl
  rw [List.perm_ext_iff_of_nodup hnodupO hnodupL]
  intro p
  constructor
  · intro hp
    obtain ⟨s, hs, hsp⟩ := List.mem_map.1 hp
    obtain ⟨b, j, h1, h2, h3, h4⟩ := (occupied_mem wf s).1 hs
    have hvw := hview b j h1 h2 h4
    have hnn : vals hash_u64 st.g (st.g.key_at b j) ≠ [] := by
      intro e
      exact (inv.vals_nil_iff h4).1 e ⟨b, j, h1, h2, rfl⟩
    rcases kv_puts_cases L (fun _ => []) (st.g.key_at b j) with h | ⟨q, hq, e, h⟩
    · rw [hv] at hnn
      exact absurd h hnn
    · rw [← hsp, h3, hvw, hv, h, ← e]
      exact hq
  · intro hp
    obtain ⟨hz, hn⟩ := hne p hp
    have e1 : vals hash_u64 st.g p.key = p.vals := by
      rw [hv]
      exact kv_puts_mem L _ hd p hp
    have hocc : st.g.occupies p.key := by
      by_contra hno
      rw [(inv.vals_nil_iff hz).2 hno] at e1
      exact hn e1.symm
    obtain ⟨c, i, a1, a2, a3⟩ := hocc
    refine List.mem_map.2 ⟨c * ASSOCIATIVITY + i, ?_, ?_⟩
    · exact (occupied_mem wf _).2 ⟨c, i, a1, a2, rfl, by rw [a3]; exact hz⟩
    · rw [hview c i a1 a2 (by rw [a3]; exact hz), a3, e1]
      rfl

/-! ### The pairs of the bulk load have values -/

theorem plan_pass_nonempty (versatile : Bool) (f val : triple_t → Nat) (d : Nat)
    (v : List triple_t) : ∀ fuel pr s p, p ∈ (plan_pass versatile f val d v fuel pr s).1 →
    p.vals ≠ [] := by
  intro fuel
  induction fuel with
  | zero => intro pr s p hp; simp [plan_pass] at hp
  | succ n ih =>
    intro pr s p hp
    by_cases hs : s < v.length
    · rw [plan_pass_succ _ _ _ _ _ _ _ _ hs] at hp
      obtain ⟨e1, _, _, _⟩ := run_end_top f v s hs
      simp only [List.mem_cons, List.mem_append] at hp
      rcases hp with hp | hp | hp
      · rw [hp]
        intro e
        have := congrArg List.length e
        simp only [slice_map_length, List.length_nil] at this
        omega
      · simp only [flush] at hp
        cases versatile with
        | false => simp at hp
        | true =>
          simp only [if_true] at hp
          split_ifs at hp
          · simp only [List.mem_singleton] at hp
            rw [hp]
            exact List.append_ne_nil_of_right_ne_nil _ (List.cons_ne_nil _ _)
          · simp at hp
      · exact ih _ _ p hp
    · rw [plan_pass_done _ _ _ _ _ _ _ _ hs] at hp
      simp at hp

theorem normal_plan_nonempty {versatile : Bool} {spo ops : List triple_t} {p : Put}
    (hp : p ∈ normal_plan versatile spo ops) : p.vals ≠ [] := by
  rcases List.mem_append.1 hp with h | h
  · exact plan_pass_nonempty _ _ _ _ _ _ _ _ p h
  · exact plan_pass_nonempty _ _ _ _ _ _ _ _ p h

theorem pass_put_vid {versatile : Bool} {f val : triple_t → Nat} {d : Nat}
    {v : List triple_t} {pr : List Nat} {s s0 : Nat} {p : Put} (ok : PassOK f v s0)
    (hs : s0 ≤ s) (h : PassPut versatile f val d v pr s p) : 2 ^ NBITS_IDX ≤ p.vid := by
  rcases h with ⟨a, b, h1, h2, h3, _, _, h6⟩ | ⟨_, a, h1, h2, h3, _, _, _, _⟩
  · obtain ⟨i1, _⟩ := ok.ids a (by omega) (by omega)
    rw [h6]
    exact i1
  · obtain ⟨i1, _⟩ := ok.ids a (by omega) h2
    rw [h3]
    exact i1

theorem normal_plan_vid {versatile : Bool} {spo ops : List triple_t} (st : Streams spo ops)
    {p : Put} (hp : p ∈ normal_plan versatile spo ops) : 2 ^ NBITS_IDX ≤ p.vid := by
  rcases normal_plan_shape hp with h | h
  · exact pass_put_vid st.pass_spo (le_refl _) h
  · exact pass_put_vid st.pass_ops.1 (le_refl _) h

/-- With `VERSATILE`, a pass over a stream that is not exhausted writes the
predicate list of a vertex. -/
theorem plan_pass_flushes (f val : triple_t → Nat) (d : Nat) (v : List triple_t) :
    ∀ fuel pr s, s < v.length → v.length < s + fuel →
    ∃ p, p ∈ (plan_pass true f val d v fuel pr s).1 ∧ p.pid = PREDICATE_ID := by
  intro fuel
  induction fuel with
  | zero => intro pr s h1 h2; omega
  | succ n ih =>
    intro pr s hs h2
    rw [plan_pass_succ _ _ _ _ _ _ _ _ hs]
    obtain ⟨e1, e2, _, _⟩ := run_end_top f v s hs
    generalize run_end f v s v.length (s + 1) = e at e1 e2
    by_cases hc : e ≥ v.length ∨ f (triple_at v s) ≠ f (triple_at v e)
    · refine ⟨⟨f (triple_at v s), PREDICATE_ID, d, pr ++ [(triple_at v s).p]⟩, ?_, rfl⟩
      apply List.mem_cons_of_mem
      apply List.mem_append_left
      simp only [flush, if_true, if_pos hc, List.mem_singleton]
    · have he : e < v.length := by
        by_contra hge
        exact hc (Or.inl (by omega))
      obtain ⟨p, hp, hpp⟩ := ih (flush true f d v pr s e).2 e he (by omega)
      exact ⟨p, List.mem_cons_of_mem _ (List.mem_append_right _ hp), hpp⟩

/-! ### The sets of the scan -/

theorem set_insert_ne_nil (s : List Nat) (v : Nat) : set_insert s v ≠ [] := by
  simp only [set_insert]
  split_ifs with h
  · exact List.ne_nil_of_mem h
  · exact List.append_ne_nil_of_right_ne_nil _ (List.cons_ne_nil _ _)

theorem foldl_set_insert_ne_nil (l : List Nat) : ∀ s : List Nat, s ≠ [] ∨ l ≠ [] →
    l.foldl set_insert s ≠ [] := by
  induction l with
  | nil =>
    intro s h
    rcases h with h | h
    · exact h
    · exact absurd rfl h
  | cons a l ih =>
    intro s _
    exact ih _ (Or.inl (set_insert_ne_nil s a))

theorem scan_type_fold_sets (versatile : Bool) (vid : Nat) : ∀ (l : List Nat) (a : IndexMaps),
    (l.foldl (fun a t => { a with tidx_map := map_push a.tidx_map t vid
                                  t_set := if versatile then set_insert a.t_set t
                                           else a.t_set }) a).v_set = a.v_set ∧
    (l.foldl (fun a t => { a with tidx_map := map_push a.tidx_map t vid
                                  t_set := if versatile then set_insert a.t_set t
                                           else a.t_set }) a).p_set = a.p_set ∧
    (a.t_set ≠ [] ∨ (versatile = true ∧ l ≠ []) →
      (l.foldl (fun a t => { a with tidx_map := map_push a.tidx_map t vid
                                    t_set := if versatile then set_insert a.t_set t
                                             else a.t_set }) a).t_set ≠ []) := by
  intro l
  induction l with
  | nil =>
    intro a
    refine ⟨rfl, rfl, fun h => ?_⟩
    rcases h with h | ⟨_, h⟩
    · exact h
    · exact absurd rfl h
  | cons t l ih =>
    intro a
    simp only [List.foldl_cons]
    obtain ⟨h1, h2, h3⟩ := ih { a with tidx_map := map_push a.tidx_map t vid
                                       t_set := if versatile then set_insert a.t_set t
                                                else a.t_set }
    refine ⟨h1, h2, fun h => h3 (Or.inl ?_)⟩
    simp only []
    rcases h with h | ⟨hv, _⟩
    · split_ifs
      · exact set_insert_ne_nil _ _
      · exact h
    · rw [if_pos hv]
      exact set_insert_ne_nil _ _

/-- The sets of the scan only grow, and with `VERSATILE` a pair with values
that holds the predicates or the types of a vertex leaves the sets it feeds
non-empty. -/
theorem scan_put_sets {versatile : Bool} {m m2 : IndexMaps} {p : Put}
    (h : scan_put versatile m p = .ok m2) :
    (m.v_set ≠ [] → m2.v_set ≠ []) ∧ (m.t_set ≠ [] → m2.t_set ≠ []) ∧
    (m.p_set ≠ [] → m2.p_set ≠ []) ∧
    (versatile = true → p.vals ≠ [] →
      (p.pid = PREDICATE_ID → m2.v_set ≠ [] ∧ m2.p_set ≠ []) ∧
      (p.d ≠ IN → p.pid = TYPE_ID → m2.v_set ≠ [] ∧ m2.t_set ≠ [])) := by
  have h01 : PREDICATE_ID ≠ TYPE_ID := by decide
  simp only [scan_put] at h
  by_cases hd : p.d = IN
  · simp only [if_pos hd] at h
    by_cases hp : p.pid = PREDICATE_ID
    · simp only [if_pos hp] at h
      cases versatile with
      | false =>
        simp only [Bool.false_eq_true, if_false] at h
        injection h with h
        subst h
        exact ⟨id, id, id, fun hv => absurd hv (by decide)⟩
      | true =>
        simp only [if_true] at h
        injection h with h
        subst h
        refine ⟨fun _ => set_insert_ne_nil _ _, id,
          fun hx => foldl_set_insert_ne_nil _ _ (Or.inl hx), fun _ hv => ⟨fun _ =>
            ⟨set_insert_ne_nil _ _, foldl_set_insert_ne_nil _ _ (Or.inr hv)⟩,
            fun hh => absurd hd hh⟩⟩
    · simp only [if_neg hp] at h
      by_cases ht : p.pid = TYPE_ID
      · simp only [if_pos ht] at h
        exact nomatch h
      · simp only [if_neg ht] at h
        injection h with h
        subst h
        exact ⟨id, id, id, fun _ _ => ⟨fun e => absurd e hp, fun hh => absurd hd hh⟩⟩
  · simp only [if_neg hd] at h
    by_cases hp : p.pid = PREDICATE_ID
    · simp only [if_pos hp] at h
      cases versatile with
      | false =>
        simp only [Bool.false_eq_true, if_false] at h
        injection h with h
        subst h
        exact ⟨id, id, id, fun hv => absurd hv (by decide)⟩
      | true =>
        simp only [if_true] at h
        injection h with h
        subst h
        refine ⟨fun _ => set_insert_ne_nil _ _, id,
          fun hx => foldl_set_insert_ne_nil _ _ (Or.inl hx), fun _ hv => ⟨fun _ =>
            ⟨set_insert_ne_nil _ _, foldl_set_insert_ne_nil _ _ (Or.inr hv)⟩,
            fun _ e => absurd (hp.symm.trans e) h01⟩⟩
    · simp only [if_neg hp] at h
      by_cases ht : p.pid = TYPE_ID
      · simp only [if_pos ht] at h
        injection h with h
        obtain ⟨f1, f2, f3⟩ := scan_type_fold_sets versatile p.vid p.vals
          (if versatile = true then { m with v_set := set_insert m.v_set p.vid } else m)
        rw [h] at f1 f2 f3
        cases versatile with
        | false =>
          simp only [Bool.false_eq_true, if_false] at f1 f2 f3
          refine ⟨fun hx => by rw [f1]; exact hx, fun hx => f3 (Or.inl hx),
            fun hx => by rw [f2]; exact hx, fun hv => absurd hv (by decide)⟩
        | true =>
          simp only [if_true] at f1 f2 f3
          refine ⟨fun _ => by rw [f1]; exact set_insert_ne_nil _ _, fun hx => f3 (Or.inl hx),
            fun hx => by rw [f2]; exact hx, fun _ hv => ⟨fun e => absurd e hp, fun _ _ =>
              ⟨by rw [f1]; exact set_insert_ne_nil _ _, f3 (Or.inr ⟨trivial, hv⟩)⟩⟩⟩
      · simp only [if_neg ht] at h
        injection h with h
        subst h
        exact ⟨id, id, id, fun _ _ => ⟨fun e => absurd e hp, fun _ e => absurd e ht⟩⟩

theorem scan_puts_sets {versatile : Bool} (X : List Put) : ∀ {m m2 : IndexMaps},
    scan_puts versatile m X = .ok m2 →
    (m.v_set ≠ [] → m2.v_set ≠ []) ∧ (m.t_set ≠ [] → m2.t_set ≠ []) ∧
    (m.p_set ≠ [] → m2.p_set ≠ []) ∧
    (versatile = true → ∀ p, p ∈ X → p.vals ≠ [] →
      (p.pid = PREDICATE_ID → m2.v_set ≠ [] ∧ m2.p_set ≠ []) ∧
      (p.d ≠ IN → p.pid = TYPE_ID → m2.v_set ≠ [] ∧ m2.t_set ≠ [])) := by
  induction X with
  | nil =>
    intro m m2 h
    injection h with h
    subst h
    exact ⟨id, id, id, fun _ p hp => absurd hp (List.not_mem_nil _)⟩
  | cons a X ih =>
    intro m m2 h
    simp only [scan_puts] at h
    obtain ⟨m1, h1, h⟩ := Outcome.bind_ok h
    obtain ⟨a1, a2, a3, a4⟩ := scan_put_sets h1
    obtain ⟨b1, b2, b3, b4⟩ := ih h
    refine ⟨fun hx => b1 (a1 hx), fun hx => b2 (a2 hx), fun hx => b3 (a3 hx), ?_⟩
    intro hv p hp hn
    rcases List.mem_cons.1 hp with e | hp
    · rw [e]
      obtain ⟨c1, c2⟩ := a4 hv (e ▸ hn)
      exact ⟨fun hh => ⟨b1 (c1 hh).1, b3 (c1 hh).2⟩,
        fun hh1 hh2 => ⟨b1 (c2 hh1 hh2).1, b2 (c2 hh1 hh2).2⟩⟩
    · exact b4 hv p hp hn


/-! ### The value lists after the bulk load satisfy the invariant of the verifier -/

/-- The pairs of the index build: an index list with its values, or one of
the three sets of `VERSATILE`. -/
theorem index_kind_cases {versatile : Bool} {L X : List Put} {m : IndexMaps} {p : Put}
    (hs : Scanned IndexMaps.empty m X) (hX : ∀ p, p ∈ X ↔ p ∈ L)
    (h : IndexKind versatile L m p) :
    p.vid = 0 ∧
    ((p.d = IN ∧ p.vals = tidx_list X p.pid ∧ p.vals ≠ []) ∨
     (p.d = IN ∧ p.vals = pidx_in_list X p.pid ∧ p.vals ≠ []) ∨
     (p.d = OUT ∧ p.vals = pidx_out_list X p.pid ∧ p.vals ≠ []) ∨
     (versatile = true ∧ (p = ⟨0, TYPE_ID, IN, m.v_set⟩ ∨ p = ⟨0, TYPE_ID, OUT, m.t_set⟩ ∨
        p = ⟨0, PREDICATE_ID, OUT, m.p_set⟩))) := by
  cases h with
  | tidx q h1 h2 h3 h4 h5 h6 h7 =>
    have e : p.vals = tidx_list X p.pid := by
      rw [h7, hs.tidx]
      rfl
    refine ⟨h5, Or.inl ⟨h6, e, ?_⟩⟩
    rw [e]
    exact List.ne_nil_of_mem (mem_tidx_list_iff.2 ⟨q, (hX q).2 h1, h2, h3, h4, rfl⟩)
  | pidx_in q h1 h2 h3 h4 h5 h6 h7 h8 =>
    have e : p.vals = pidx_in_list X p.pid := by
      rw [h8, hs.pin]
      rfl
    refine ⟨h6, Or.inr (Or.inl ⟨h7, e, ?_⟩)⟩
    rw [e]
    exact List.ne_nil_of_mem (mem_pidx_in_list_iff.2 ⟨q, (hX q).2 h1, h2, h3, h4, h5, rfl⟩)
  | pidx_out q h1 h2 h3 h4 h5 h6 h7 h8 =>
    have e : p.vals = pidx_out_list X p.pid := by
      rw [h8, hs.pout]
      rfl
    refine ⟨h6, Or.inr (Or.inr (Or.inl ⟨h7, e, ?_⟩))⟩
    rw [e]
    exact List.ne_nil_of_mem (mem_pidx_out_list_iff.2 ⟨q, (hX q).2 h1, h2, h3, h4, h5, rfl⟩)
  | sets hv h =>
    refine ⟨?_, Or.inr (Or.inr (Or.inr ⟨hv, h⟩))⟩
    rcases h with h | h | h <;> rw [h]

/-- The value lists that the blocks of the bulk load leave satisfy the
invariant of the verifier, when the objects of the type triples are the type
ids and no predicate of another triple is one. -/
theorem plan_sane {versatile : Bool} {spo ops : List triple_t} (st : Streams spo ops)
    {Ty : Nat → Prop} (hT : ∀ u, u ∈ spo → u.p = TYPE_ID → Ty u.o)
    (hP : ∀ u, u ∈ spo → u.p ≠ TYPE_ID → ¬ Ty u.p)
    (ix : Indexable (normal_plan versatile spo ops)) {m : IndexMaps} {X : List Put}
    (hs : Scanned IndexMaps.empty m X) (hperm : X.Perm (normal_plan versatile spo ops)) :
    Sane Ty (kv_puts (fun _ => []) (normal_plan versatile spo ops ++ index_plan versatile m)) := by
  have hX : ∀ p, p ∈ X ↔ p ∈ normal_plan versatile spo ops := fun p => hperm.mem_iff
  have hl := @index_plan_loadable versatile _ _ m ix hs hX
  have hio : OUT ≠ IN := by decide
  have hkind : ∀ p, p ∈ index_plan versatile m →
      IndexKind versatile (normal_plan versatile spo ops) m p :=
    fun p hp => index_plan_kind hs hX hp
  generalize hM : kv_puts (fun _ => []) (normal_plan versatile spo ops ++ index_plan versatile m)
    = M
  have F1 : ∀ p, p ∈ normal_plan versatile spo ops ++ index_plan versatile m →
      M p.key = p.vals := by
    intro p hp
    rw [← hM]
    exact kv_puts_mem _ _ hl.distinct p hp
  have F2 : ∀ k, M k ≠ [] → ∃ p, p ∈ normal_plan versatile spo ops ++ index_plan versatile m ∧
      p.key = k ∧ M k = p.vals := by
    intro k hk
    rw [← hM] at hk ⊢
    rcases kv_puts_cases _ (fun _ => []) k with h | h
    · exact absurd h hk
    · exact h
  have FN : ∀ v p d, 2 ^ NBITS_IDX ≤ v → M ⟨v, p, d⟩ ≠ [] →
      ∃ r, r ∈ normal_plan versatile spo ops ∧ r.key = ⟨v, p, d⟩ ∧ M ⟨v, p, d⟩ = r.vals := by
    intro v p d hv hne
    obtain ⟨r, hr, e, hval⟩ := F2 _ hne
    rcases List.mem_append.1 hr with h | h
    · exact ⟨r, h, e, hval⟩
    · have h0 := (index_kind_cases hs hX (hkind r h)).1
      have e1 : r.vid = v := congrArg ikey_t.vid e
      have hv2 := hv
      simp only [NBITS_IDX] at hv2
      omega
  have FI : ∀ p d, M ⟨0, p, d⟩ ≠ [] →
      ∃ r, r ∈ index_plan versatile m ∧ r.key = ⟨0, p, d⟩ ∧ M ⟨0, p, d⟩ = r.vals := by
    intro p d hne
    obtain ⟨r, hr, e, hval⟩ := F2 _ hne
    rcases List.mem_append.1 hr with h | h
    · exact absurd (congrArg ikey_t.vid e) (ix.vids r h)
    · exact ⟨r, h, e, hval⟩
  have HIN : ∀ p, is_tpid p = true → M ⟨0, p, IN⟩ ≠ [] →
      M ⟨0, p, IN⟩ = tidx_list X p ∨ M ⟨0, p, IN⟩ = pidx_in_list X p := by
    intro p hp hne
    obtain ⟨r, hr, e, hval⟩ := FI _ _ hne
    have e2 : r.pid = p := congrArg ikey_t.pid e
    have e3 : r.d = IN := congrArg ikey_t.dir e
    have hp2 := (is_tpid_iff p).1 hp
    rcases (index_kind_cases hs hX (hkind r hr)).2 with ⟨_, h, _⟩ | ⟨_, h, _⟩ | ⟨h, _⟩ |
      ⟨_, h | h | h⟩
    · left
      rw [hval, h, e2]
    · right
      rw [hval, h, e2]
    · exact absurd (e3.symm.trans h) hio.symm
    · rw [h] at e2
      simp only [TYPE_ID] at e2
      omega
    · rw [h] at e2
      simp only [TYPE_ID] at e2
      omega
    · rw [h] at e2
      simp only [PREDICATE_ID] at e2
      omega
  have HOUT : ∀ p, is_tpid p = true → M ⟨0, p, OUT⟩ ≠ [] →
      M ⟨0, p, OUT⟩ = pidx_out_list X p := by
    intro p hp hne
    obtain ⟨r, hr, e, hval⟩ := FI _ _ hne
    have e2 : r.pid = p := congrArg ikey_t.pid e
    have e3 : r.d = OUT := congrArg ikey_t.dir e
    have hp2 := (is_tpid_iff p).1 hp
    rcases (index_kind_cases hs hX (hkind r hr)).2 with ⟨h, _⟩ | ⟨h, _⟩ | ⟨_, h, _⟩ |
      ⟨_, h | h | h⟩
    · exact absurd (e3.symm.trans h) hio
    · exact absurd (e3.symm.trans h) hio
    · rw [hval, h, e2]
    · rw [h] at e2
      simp only [TYPE_ID] at e2
      omega
    · rw [h] at e2
      simp only [TYPE_ID] at e2
      omega
    · rw [h] at e2
      simp only [PREDICATE_ID] at e2
      omega
  have GT : ∀ p, tidx_list X p ≠ [] → M ⟨0, p, IN⟩ = tidx_list X p := by
    intro p h
    have hk := @mem_map_plan m.tidx_map IN p ((hs.keys_t _).2 (Or.inr h))
    have hmem : (⟨0, p, IN, map_get m.tidx_map p⟩ : Put) ∈
        normal_plan versatile spo ops ++ index_plan versatile m := by
      apply List.mem_append_right
      simp only [index_plan]
      exact List.mem_append_left _ hk
    have := F1 _ hmem
    simp only [Put.key] at this
    rw [this, hs.tidx]
    rfl
  have GP : ∀ p, pidx_in_list X p ≠ [] → M ⟨0, p, IN⟩ = pidx_in_list X p := by
    intro p h
    have hk := @mem_map_plan m.pidx_in_map IN p ((hs.keys_in _).2 (Or.inr h))
    have hmem : (⟨0, p, IN, map_get m.pidx_in_map p⟩ : Put) ∈
        normal_plan versatile spo ops ++ index_plan versatile m := by
      apply List.mem_append_right
      simp only [index_plan]
      exact List.mem_append_right _ (List.mem_append_left _ hk)
    have := F1 _ hmem
    simp only [Put.key] at this
    rw [this, hs.pin]
    rfl
  have GO : ∀ p, pidx_out_list X p ≠ [] → M ⟨0, p, OUT⟩ = pidx_out_list X p := by
    intro p h
    have hk := @mem_map_plan m.pidx_out_map OUT p ((hs.keys_out _).2 (Or.inr h))
    have hmem : (⟨0, p, OUT, map_get m.pidx_out_map p⟩ : Put) ∈
        normal_plan versatile spo ops ++ index_plan versatile m := by
      apply List.mem_append_right
      simp only [index_plan]
      exact List.mem_append_right _ (List.mem_append_right _ (List.mem_append_left _ hk))
    have := F1 _ hmem
    simp only [Put.key] at this
    rw [this, hs.pout]
    rfl
  have tyA : ∀ r, r ∈ normal_plan versatile spo ops → r.d ≠ IN → r.pid = TYPE_ID →
      ∀ t, t ∈ r.vals → Ty t := by
    intro r hr hd hp t ht
    rcases normal_plan_shape hr with h | h
    · obtain ⟨u, hu, u1, u2, _⟩ := spo_type_put h hp t ht
      rw [← u2]
      exact hT u hu u1
    · exact absurd h.dir hd
  have tyB : ∀ r, r ∈ normal_plan versatile spo ops → r.d ≠ IN → r.pid ≠ TYPE_ID →
      r.pid ≠ PREDICATE_ID → ¬ Ty r.pid := by
    intro r hr hd hp hp0
    rcases normal_plan_shape hr with h | h
    · obtain ⟨u, hu, u1, _⟩ := spo_pred_put h hp0
      rw [← u1]
      exact hP u hu (by rw [u1]; exact hp)
    · exact absurd h.dir hd
  have hin : ∀ r, r ∈ normal_plan versatile spo ops → M r.key = r.vals :=
    fun r hr => F1 r (List.mem_append_left _ hr)
  have keyN : ∀ (r : Put) v p d, r.key = (⟨v, p, d⟩ : ikey_t) →
      r.vid = v ∧ r.pid = p ∧ r.d = d :=
    fun r v p d e => ⟨congrArg ikey_t.vid e, congrArg ikey_t.pid e, congrArg ikey_t.dir e⟩
  refine ⟨?_, ?_, ?_, ?_, ?_, ?_, ?_, ?_, ?_⟩
  · intro k hk
    obtain ⟨r, hr, e, _⟩ := F2 k hk
    obtain ⟨a, b, c, _⟩ := hl.valid r hr
    rw [← e]
    exact ⟨a, b, c⟩
  · intro v hv
    by_cases hne : M ⟨v, TYPE_ID, OUT⟩ = []
    · rw [hne]
      exact List.nodup_nil
    · obtain ⟨r, hr, e, hval⟩ := FN _ _ _ hv hne
      obtain ⟨_, e2, e3⟩ := keyN r _ _ _ e
      rw [hval]
      exact normal_plan_types_nodup st r hr (by rw [e3]; exact hio) e2
  · intro p hp
    by_cases hne : M ⟨0, p, IN⟩ = []
    · rw [hne]
      exact List.nodup_nil
    · rcases HIN p hp hne with h | h
      · rw [h]
        exact (tidx_list_perm hperm p).nodup_iff.2
          (tidx_list_nodup ix.loadable (normal_plan_types_nodup st) p)
      · rw [h]
        exact (pidx_in_list_perm hperm p).nodup_iff.2 (pidx_in_list_nodup ix.loadable p)
  · intro p hp
    by_cases hne : M ⟨0, p, OUT⟩ = []
    · rw [hne]
      exact List.nodup_nil
    · rw [HOUT p hp hne]
      exact (pidx_out_list_perm hperm p).nodup_iff.2 (pidx_out_list_nodup ix.loadable p)
  · intro p v hp hv
    have hp2 := (is_tpid_iff p).1 hp
    rcases HIN p hp (List.ne_nil_of_mem hv) with h | h
    · rw [h] at hv
      obtain ⟨r, hr, a1, a2, a3, a4⟩ := mem_tidx_list_iff.1 hv
      have hr2 := (hX r).1 hr
      have hvid := normal_plan_vid st hr2
      rw [a4] at hvid
      refine ⟨hvid, Or.inl ⟨tyA r hr2 a1 a2 p a3, ?_⟩⟩
      have hk : r.key = ⟨v, TYPE_ID, OUT⟩ := by
        simp only [Put.key, ikey_t.mk.injEq]
        exact ⟨a4, a2, dir_out_of_ne (ix.loadable.valid r hr2) a1⟩
      rw [← hk, hin r hr2]
      exact a3
    · rw [h] at hv
      obtain ⟨r, hr, a1, a2, a3, a4, a5⟩ := mem_pidx_in_list_iff.1 hv
      have hr2 := (hX r).1 hr
      have hvid := normal_plan_vid st hr2
      rw [a5] at hvid
      have hty := tyB r hr2 a1 (by rw [a2]; exact a4) (by rw [a2]; exact a3)
      rw [a2] at hty
      refine ⟨hvid, Or.inr ⟨hty, ?_⟩⟩
      have hk : r.key = ⟨v, p, OUT⟩ := by
        simp only [Put.key, ikey_t.mk.injEq]
        exact ⟨a5, a2, dir_out_of_ne (ix.loadable.valid r hr2) a1⟩
      rw [← hk, hin r hr2]
      exact normal_plan_nonempty hr2
  · intro p v hp hv
    rw [HOUT p hp (List.ne_nil_of_mem hv)] at hv
    obtain ⟨r, hr, a1, a2, _, _, a5⟩ := mem_pidx_out_list_iff.1 hv
    have hr2 := (hX r).1 hr
    have hvid := normal_plan_vid st hr2
    rw [a5] at hvid
    refine ⟨hvid, ?_⟩
    have hk : r.key = ⟨v, p, IN⟩ := by
      simp only [Put.key, ikey_t.mk.injEq]
      exact ⟨a5, a2, a1⟩
    rw [← hk, hin r hr2]
    exact normal_plan_nonempty hr2
  · intro v p hv hp hne
    have hp2 := (is_tpid_iff p).1 hp
    obtain ⟨r, hr, e, _⟩ := FN _ _ _ hv hne
    obtain ⟨e1, e2, e3⟩ := keyN r _ _ _ e
    have hd : r.d ≠ IN := by rw [e3]; exact hio
    have hpt : p ≠ TYPE_ID := by simp only [TYPE_ID]; omega
    have hp0 : p ≠ PREDICATE_ID := by simp only [PREDICATE_ID]; omega
    have hty := tyB r hr hd (by rw [e2]; exact hpt) (by rw [e2]; exact hp0)
    rw [e2] at hty
    have hmem : v ∈ pidx_in_list X p :=
      mem_pidx_in_list_iff.2 ⟨r, (hX r).2 hr, hd, e2, hp0, hpt, e1⟩
    refine ⟨hty, ?_⟩
    rw [GP p (List.ne_nil_of_mem hmem)]
    exact hmem
  · intro v t hv ht
    obtain ⟨r, hr, e, hval⟩ := FN _ _ _ hv (List.ne_nil_of_mem ht)
    obtain ⟨e1, e2, e3⟩ := keyN r _ _ _ e
    have hd : r.d ≠ IN := by rw [e3]; exact hio
    rw [hval] at ht
    have hmem : v ∈ tidx_list X t := mem_tidx_list_iff.2 ⟨r, (hX r).2 hr, hd, e2, ht, e1⟩
    refine ⟨tyA r hr hd e2 t ht, ix.types r hr hd e2 t ht, ?_⟩
    rw [GT t (List.ne_nil_of_mem hmem)]
    exact hmem
  · intro v p hv hp hne
    have hp2 := (is_tpid_iff p).1 hp
    obtain ⟨r, hr, e, _⟩ := FN _ _ _ hv hne
    obtain ⟨e1, e2, e3⟩ := keyN r _ _ _ e
    have hpt : p ≠ TYPE_ID := by simp only [TYPE_ID]; omega
    have hp0 : p ≠ PREDICATE_ID := by simp only [PREDICATE_ID]; omega
    have hmem : v ∈ pidx_out_list X p :=
      mem_pidx_out_list_iff.2 ⟨r, (hX r).2 hr, e3, e2, hp0, hpt, e1⟩
    rw [GO p (List.ne_nil_of_mem hmem)]
    exact hmem


/-! ### The verifier after the bulk load and after online insertion -/

theorem types_apart_of_ty {spo ops : List triple_t} (st : Streams spo ops) {Ty : Nat → Prop}
    (hT : ∀ u, u ∈ spo → u.p = TYPE_ID → Ty u.o)
    (hP : ∀ u, u ∈ spo → u.p ≠ TYPE_ID → ¬ Ty u.p) : TypesApart spo := by
  intro t1 t2 h1 h2 hp he
  have ht1 := hT t1 h1 hp
  by_cases h : t2.p = TYPE_ID
  · have hw := st.ids t1 h1
    rcases hw.2.2 with ⟨_, hw⟩ | ⟨hw, _, _⟩
    · rw [← he, h] at hw
      exact absurd hw (by decide)
    · rw [hp] at hw
      exact absurd hw (by decide)
  · exact hP t2 h2 h (by rw [he]; exact ht1)

/-- The pairs of the index build with a key outside `VERSATILE` have values. -/
theorem index_plan_core_nonempty {versatile : Bool} {L X : List Put} {m : IndexMaps}
    (hs : Scanned IndexMaps.empty m X) (hX : ∀ p, p ∈ X ↔ p ∈ L) {p : Put}
    (hp : p ∈ index_plan versatile m) (hna : ¬ p.key.aux) : p.vals ≠ [] := by
  rcases (index_kind_cases hs hX (index_plan_kind hs hX hp)).2 with ⟨_, _, h⟩ | ⟨_, _, h⟩ |
    ⟨_, _, h⟩ | ⟨_, h | h | h⟩
  · exact h
  · exact h
  · exact h
  · exact absurd (by rw [h]; exact Or.inr ⟨rfl, rfl⟩) hna
  · exact absurd (by rw [h]; exact Or.inr ⟨rfl, rfl⟩) hna
  · exact absurd (by rw [h]; exact Or.inl rfl) hna

/-- After the bulk load of the static build, the verifier reports nothing from
its four checks. -/
theorem bulk_load_clean (hash_u64 : Nat → Nat) (versatile : Bool) (g0 : GStore)
    (spo ops : List triple_t) (cfg : Config g0) (st : Streams spo ops) {Ty : Nat → Prop}
    (hT : ∀ u, u ∈ spo → u.p = TYPE_ID → Ty u.o)
    (hP : ∀ u, u ∈ spo → u.p ≠ TYPE_ID → ¬ Ty u.p) {g : GStore}
    (h : bulk_load hash_u64 versatile g0 spo ops = .ok g) :
    ∃ log, gstore_check hash_u64 versatile g true true = .ok (0, log) ∧
      (∀ e, e ∈ log → e.site.versatile = true) ∧ (versatile = false → log = []) := by
  have apart := types_apart_of_ty st hT hP
  have ix : Indexable (normal_plan versatile spo ops) := normal_plan_indexable st apart
  obtain ⟨g1, m, _, _, _, hs, hperm, _, ld⟩ :=
    (bulk_load_loaded hash_u64 versatile g0 spo ops cfg st apart).2.2 g h
  have hX : ∀ p, p ∈ g1.occupied.map g1.view ↔ p ∈ normal_plan versatile spo ops :=
    fun p => hperm.mem_iff
  have hl := @index_plan_loadable versatile _ _ m ix hs hX
  have sane := plan_sane st hT hP ix hs hperm
  rw [← loaded_vals_eq ld hl] at sane
  apply gstore_check_clean ld.wf sane versatile
  · intro k hk hz
    obtain ⟨p, hp, e⟩ := (ld.occupies_iff hz).1 hk
    obtain ⟨a, b, c, _⟩ := hl.valid p hp
    rw [← e]
    exact ⟨a, b, c⟩
  · intro k hk hz hna
    obtain ⟨p, hp, e⟩ := (ld.occupies_iff hz).1 hk
    rw [← e, ld.vals_mem hp (hl.valid p hp)]
    rw [← e] at hna
    rcases List.mem_append.1 hp with h1 | h1
    · exact normal_plan_nonempty h1
    · exact index_plan_core_nonempty hs hX h1 hna

/-! ### The dynamic store with empty sets -/

theorem HeapInv.shrink {σ : Type} {blocks : σ → List (Nat × Nat)}
    {heap : σ} {queue : List free_blk} {offs offs2 : Nat → Prop}
    (h : HeapInv blocks heap queue offs) (hsub : ∀ o, offs2 o → offs o) :
    HeapInv blocks heap queue offs2 :=
  ⟨h.apart, h.pos, fun o ho => h.held o (hsub o ho),
    fun q hq => ⟨(h.pend q hq).1, fun hx => (h.pend q hq).2 (hsub _ hx)⟩, h.pend_nodup⟩

theorem DInv.to_weak {σ : Type} {E : DynEnv σ} {blocks : σ → List (Nat × Nat)}
    {hash_u64 : Nat → Nat} {st : DStore σ} (inv : DInv E blocks hash_u64 st) :
    DInv0 E blocks hash_u64 st :=
  ⟨inv.wf, inv.blank, inv.heap, fun s hs => (inv.own s hs).2, inv.sep,
    fun s hs _ => (inv.own s hs).1⟩

theorem not_set_of_vid {v : Nat} (p d : Nat) (hv : v ≠ 0) : ¬ (⟨v, p, d⟩ : ikey_t).is_set := by
  rintro (h | h | h) <;> exact hv (congrArg ikey_t.vid h)

theorem not_set_of_pid (v : Nat) {p : Nat} (d : Nat) (hp : p ≠ 0) (ht : ¬ p = TYPE_ID) :
    ¬ (⟨v, p, d⟩ : ikey_t).is_set := by
  rintro (h | h | h)
  · exact ht (congrArg ikey_t.pid h)
  · exact ht (congrArg ikey_t.pid h)
  · exact hp (congrArg ikey_t.pid h)

/-- The general step of the dynamic store: after `insert_key` found or created
the slot `s` of `key`, the slot receives a pointer to a list `L` in a block of
its own, while the pointers, blocks and values of the other keys stay; the
list may be empty when the key is one of the three sets. -/
theorem dinv0_advance {σ : Type} {E : DynEnv σ} {blocks : σ → List (Nat × Nat)}
    {hash_u64 : Nat → Nat} {st : DStore σ} (inv : DInv0 E blocks hash_u64 st)
    {key : ikey_t} (hk : key ≠ ikey_t.zero) {s : Nat} {g1 : GStore}
    (hins : insert_key hash_u64 st.g key false = .ok (s, g1))
    (st2 : DStore σ) (n2 off2 len2 : Nat) (L : List Nat) (hsame : SameKeys g1 st2.g)
    (hptr : ∀ t, t ≠ s → (st2.g.vertices t).ptr = (st.g.vertices t).ptr)
    (hszs : (st2.g.vertices s).ptr.size = n2)
    (hoffs : (st2.g.vertices s).ptr.off = off2) (hn0 : ¬ key.is_set → 0 < n2)
    (hn1 : n2 < 2 ^ NBITS_SIZE)
    (hblk : (off2, len2) ∈ blocks st2.heap) (hlen : blksz E (n2 + 1) ≤ len2)
    (hheap : HeapInv blocks st2.heap st2.free_queue
      (fun o => (∃ t, st.g.Occ t ∧ t ≠ s ∧ (st.g.vertices t).ptr.off = o) ∨ o = off2))
    (hkeep : ∀ t, st.g.Occ t → t ≠ s → ∀ len,
      ((st.g.vertices t).ptr.off, len) ∈ blocks st.heap →
      ((st.g.vertices t).ptr.off, len) ∈ blocks st2.heap)
    (hoff : ∀ t, st.g.Occ t → t ≠ s → (st.g.vertices t).ptr.off ≠ off2)
    (hdata : ∀ t, st.g.Occ t → t ≠ s → ∀ i, i < (st.g.vertices t).ptr.size →
      st2.g.edges ((st.g.vertices t).ptr.off + i) = st.g.edges ((st.g.vertices t).ptr.off + i))
    (hL : st2.g.read_edges off2 n2 = L) :
    DInv0 E blocks hash_u64 st2 ∧
    vals hash_u64 st2.g = fun k => if k = key then L else vals hash_u64 st.g k := by
  have wf := inv.wf
  have wf1 := insert_key_wf wf hins
  have wf2 : WF hash_u64 st2.g := hsame.wf_of wf1
  obtain ⟨⟨c0, j0, hc0, hj0, hs0, hk0⟩, hused, hold, hnewk⟩ := insert_key_slots wf hins
  have hka : ∀ c j, st2.g.key_at c j = g1.key_at c j := fun c j => hsame.1 _
  have hu2 : st2.g.used = g1.used := by
    simp only [GStore.used, hsame.2.2.1, hsame.2.2.2.2]
  have hcfg := (insert_key_frame wf hins).2.2.1
  -- the occupied slots afterwards: those before, and `s`
  have occ_new : ∀ t, st2.g.Occ t → t = s ∨ st.g.Occ t := by
    rintro t ⟨c, j, hc, hj, ht, hne⟩
    rw [hu2] at hc
    rw [hka] at hne
    rcases hnewk c j hc hj hne with e | ⟨e1, e2⟩
    · left
      obtain ⟨a, b⟩ := wf1.nodup c j c0 j0 hc hc0 hj hj0 hne (e.trans hk0.symm)
      rw [ht, hs0, a, b]
    · right
      exact ⟨c, j, e1, hj, ht, by rw [← e2]; exact hne⟩
  have occ_old : ∀ t, st.g.Occ t → st2.g.Occ t := by
    rintro t ⟨c, j, hc, hj, ht, hne⟩
    refine ⟨c, j, by rw [hu2]; omega, hj, ht, ?_⟩
    rw [hka, hold c j hc hj hne]
    exact hne
  have occ_s : st2.g.Occ s :=
    ⟨c0, j0, by rw [hu2]; exact hc0, hj0, hs0, by rw [hka, hk0]; exact hk⟩
  have off_new : ∀ t, st2.g.Occ t → t ≠ s →
      st.g.Occ t ∧ (st2.g.vertices t).ptr = (st.g.vertices t).ptr := by
    intro t ht hts
    rcases occ_new t ht with e | e
    · exact absurd e hts
    · exact ⟨e, hptr t hts⟩
  refine ⟨⟨wf2, ?_, ?_, ?_, ?_, ?_⟩, ?_⟩
  · -- empty slots keep empty pointers
    intro c j hc hj hz
    have hc1 : c < st.g.num_buckets + st.g.num_buckets_ext := by
      rw [hsame.2.2.1, hsame.2.2.2.1, hcfg.2.1, hcfg.2.2.1] at hc
      exact hc
    have hzold : st.g.key_at c j = ikey_t.zero := by
      by_contra hne
      have hcu := wf.lacks_of_unused hc1 hj hne
      rw [hka, hold c j hcu hj hne] at hz
      exact hne hz
    have hts : c * ASSOCIATIVITY + j ≠ s := by
      intro e
      rw [hs0] at e
      obtain ⟨a, b⟩ := slot_inj (by omega) (by omega) e
      rw [a, b, hka, hk0] at hz
      exact hk hz
    rw [hptr _ hts]
    exact inv.blank c j hc1 hj hzold
  · -- the heap
    refine hheap.same_offs fun o => ⟨?_, ?_⟩
    · rintro ⟨t, ht, e⟩
      by_cases hts : t = s
      · right
        rw [← e, hts, hoffs]
      · left
        obtain ⟨h1, h2⟩ := off_new t ht hts
        exact ⟨t, h1, hts, by rw [← h2]; exact e⟩
    · rintro (⟨t, ht, hts, e⟩ | e)
      · exact ⟨t, occ_old t ht, by rw [hptr t hts]; exact e⟩
      · exact ⟨s, occ_s, by rw [hoffs, e]⟩
  · -- every key owns a block
    intro t ht
    by_cases hts : t = s
    · rw [hts, hszs, hoffs]
      exact ⟨hn1, len2, hblk, hlen⟩
    · obtain ⟨h1, h2⟩ := off_new t ht hts
      rw [h2]
      obtain ⟨b, len, c, d⟩ := inv.own t h1
      exact ⟨b, len, hkeep t h1 hts len c, d⟩
  · -- different keys, different blocks
    intro t u ht hu htu
    by_cases hts : t = s
    · have hus : u ≠ s := fun e => htu (hts.trans e.symm)
      obtain ⟨h1, h2⟩ := off_new u hu hus
      rw [hts, hoffs, h2]
      exact fun e => hoff u h1 hus e.symm
    · obtain ⟨h1, h2⟩ := off_new t ht hts
      by_cases hus : u = s
      · rw [hus, hoffs, h2]
        exact hoff t h1 hts
      · obtain ⟨h3, h4⟩ := off_new u hu hus
        rw [h2, h4]
        exact inv.sep t u h1 h3 htu
  · -- only the keys of the three sets have empty lists
    intro t ht hns
    by_cases hts : t = s
    · rw [hts, hszs]
      apply hn0
      have e : (st2.g.vertices s).key = key := by
        rw [hs0]
        exact (hka c0 j0).trans hk0
      rw [hts, e] at hns
      exact hns
    · obtain ⟨h1, h2⟩ := off_new t ht hts
      rw [h2]
      apply inv.solid t h1
      obtain ⟨c, j, hc, hj, e, hne⟩ := h1
      have e2 : (st2.g.vertices t).key = (st.g.vertices t).key := by
        rw [e]
        exact (hka c j).trans (hold c j hc hj hne)
      rw [← e2]
      exact hns
  · -- the value lists
    funext k
    by_cases hkk : k = key
    · rw [if_pos hkk, hkk, vals_occ wf2 hk (by rw [hu2]; exact hc0) hj0 (by rw [hka]; exact hk0),
        ← hs0]
      simp only [GStore.list_at, hszs, hoffs]
      exact hL
    · rw [if_neg hkk]
      by_cases hkz : k = ikey_t.zero
      · rw [hkz, vals_zero wf2, vals_zero wf]
      by_cases hocc : st.g.occupies k
      · obtain ⟨c, j, hc, hj, e⟩ := hocc
        have hne : st.g.key_at c j ≠ ikey_t.zero := by rw [e]; exact hkz
        have e2 : st2.g.key_at c j = k := by rw [hka, hold c j hc hj hne]; exact e
        have hts : c * ASSOCIATIVITY + j ≠ s := by
          intro es
          rw [hs0] at es
          obtain ⟨a, b⟩ := slot_inj (by omega) (by omega) es
          rw [a, b, hka, hk0] at e2
          exact hkk e2.symm
        rw [vals_occ wf2 hkz (by rw [hu2]; omega) hj e2, vals_occ wf hkz hc hj e]
        simp only [GStore.list_at, hptr _ hts]
        exact read_edges_congr (hdata _ ⟨c, j, hc, hj, rfl, hne⟩ hts)
      · have hl2 : st2.g.lacks k := by
          intro c j hc hj e
          rw [hu2] at hc
          rw [hka] at e
          rcases hnewk c j hc hj (by rw [e]; exact hkz) with e3 | ⟨e3, e4⟩
          · exact hkk (e.symm.trans e3)
          · exact hocc ⟨c, j, e3, hj, by rw [← e4]; exact e⟩
        rw [vals_lacks wf2 hl2, vals_lacks wf ((lacks_iff _ _).2 hocc)]

/-- The blocks of two different keys are apart. -/
theorem dinv0_blocks_apart {σ : Type} {E : DynEnv σ} {blocks : σ → List (Nat × Nat)}
    {hash_u64 : Nat → Nat} {st : DStore σ} (inv : DInv0 E blocks hash_u64 st) {s t : Nat}
    (hs : st.g.Occ s) (ht : st.g.Occ t) (hst : t ≠ s) {len len2 : Nat}
    (h1 : ((st.g.vertices s).ptr.off, len) ∈ blocks st.heap)
    (h2 : ((st.g.vertices t).ptr.off, len2) ∈ blocks st.heap) :
    Apart ((st.g.vertices s).ptr.off, len) ((st.g.vertices t).ptr.off, len2) := by
  apply pairwise_apart inv.heap.apart h1 h2
  intro e
  exact inv.sep s t hs ht (fun e2 => hst e2.symm) (congrArg Prod.fst e)

/-- First edge of a key that does not exist yet, or that exists with an empty
list: `insert_vertex_edge` tests the size of the list, not the presence of the
key. -/
theorem vertex_edge_first {σ : Type} {E : DynEnv σ} {blocks : σ → List (Nat × Nat)}
    (ok : Malloc_OK E blocks) {hash_u64 : Nat → Nat} {st : DStore σ}
    (inv : DInv0 E blocks hash_u64 st) {key : ikey_t} (hk : key ≠ ikey_t.zero)
    (hnil : vals hash_u64 st.g key = []) {value : Nat} {d : Bool} {r : Bool × Bool × DStore σ}
    (hr : insert_vertex_edge E hash_u64 st key value d = .ok r) :
    DInv0 E blocks hash_u64 r.2.2 ∧ r.1 = true ∧ r.2.1 = false ∧
    vals hash_u64 r.2.2.g = fun k => if k = key then [value] else vals hash_u64 st.g k := by
  have wf := inv.wf
  simp only [insert_vertex_edge] at hr
  obtain ⟨⟨s, g1⟩, hins, hr⟩ := Outcome.bind_ok hr
  have wf1 := insert_key_wf wf hins
  obtain ⟨⟨c0, j0, hc0, hj0, hs0, hk0⟩, hused, hold, hnewk⟩ := insert_key_slots wf hins
  obtain ⟨fptr, fedges, fcfg, _, _, _⟩ := insert_key_frame wf hins
  have hc0b : c0 < st.g.num_buckets + st.g.num_buckets_ext := by
    have h1 := wf1.ext_le
    have h2 : g1.used = g1.num_buckets + g1.last_ext := rfl
    rw [← fcfg.2.1, ← fcfg.2.2.1]
    omega
  have hsz : (g1.vertices s).ptr.size = 0 := by
    rw [fptr, hs0]
    by_cases hz : st.g.key_at c0 j0 = ikey_t.zero
    · exact inv.blank c0 j0 hc0b hj0 hz
    · have hcu := wf.lacks_of_unused hc0b hj0 hz
      have e : st.g.key_at c0 j0 = key := (hold c0 j0 hcu hj0 hz).symm.trans hk0
      have := congrArg List.length hnil
      rw [vals_occ wf hk hcu hj0 e, GStore.list_at, read_edges_length] at this
      exact this
  simp only [hsz, if_true] at hr
  obtain ⟨a, halloc, hr⟩ := Outcome.bind_ok hr
  obtain ⟨ptr, hmk, hr⟩ := Outcome.bind_ok hr
  injection hr with hr
  subst hr
  obtain ⟨hp, _, _⟩ := iptr_make_inv hmk
  subst hp
  have hheap0 : HeapInv blocks st.heap st.free_queue
      (fun o => ∃ t, st.g.Occ t ∧ (st.g.vertices t).ptr.off = o) := inv.heap
  obtain ⟨ag, aheap, anew, ablk, akeep⟩ :=
    alloc_edges_spec ok { st with g := g1 } hheap0 halloc
  have hb2 : 2 ≤ blksz E (1 + 1) := ok.blk_ge 2
  have hstep := dinv0_advance inv hk hins
    { a.2 with g := (a.2.g.set_edge a.1 value).set_ptr s ⟨1, a.1, 0⟩ }
    1 a.1 (blksz E (1 + 1)) [value]
    (by
      rw [ag]
      exact (same_keys_insert_sz _ _ _ _ _).chain
        ((same_keys_set_edge _ _ _).chain (same_keys_set_ptr _ _ _)))
    (by
      intro t hts
      simp only [set_ptr_ptr, if_neg hts, ag]
      exact fptr t)
    (by simp only [set_ptr_ptr, if_true]) (by simp only [set_ptr_ptr, if_true])
    (fun _ => by decide) (by decide) ablk (le_refl _)
    (aheap.shrink fun o h => h.elim (fun ⟨t, h1, _, h3⟩ => Or.inl ⟨t, h1, h3⟩) Or.inr)
    (by
      intro t ht _ len hl
      exact (akeep _ len ⟨t, ht, rfl⟩ hl).1)
    (by
      intro t ht _ e
      exact anew ⟨t, ht, e⟩)
    (by
      intro t ht _ i hi
      obtain ⟨_, len, hl, hlen⟩ := inv.own t ht
      have hap := (akeep _ len ⟨t, ht, rfl⟩ hl).2
      have hroom := DInv.block_room ok hlen
      have hcell := apart_cell hap hroom hi
      simp only [set_ptr_edges, set_edge_edges, ag, insert_sz_edges]
      rw [if_neg (fun e => hcell _ (le_refl _) (by omega) e.symm),
        if_neg (fun e => hcell _ (by omega) (by omega) e.symm), fedges])
    (by
      simp only [GStore.read_edges, set_ptr_edges, set_edge_edges]
      have h1 : List.range 1 = [0] := rfl
      rw [h1]
      simp only [List.map_cons, List.map_nil, Nat.add_zero, if_true])
  exact ⟨hstep.1, rfl, rfl, hstep.2⟩

/-- A further edge of an existing key, appended in place. -/
theorem vertex_edge_inplace0 {σ : Type} {E : DynEnv σ} {blocks : σ → List (Nat × Nat)}
    (ok : Malloc_OK E blocks) {hash_u64 : Nat → Nat} {st : DStore σ}
    (inv : DInv0 E blocks hash_u64 st) {key : ikey_t} (hk : key ≠ ikey_t.zero)
    {c j : Nat} (hc : c < st.g.used) (hj : j < ASSOCIATIVITY - 1) (e : st.g.key_at c j = key)
    (value : Nat) {s size off : Nat} (hsdef : c * ASSOCIATIVITY + j = s)
    (hsz : (st.g.vertices s).ptr.size = size) (hs0 : 0 < size) (hof : (st.g.vertices s).ptr.off = off)
    (hroom : ¬ blksz E (size + 1) - 1 < size + 1) (g2 : GStore)
    (hg2 : g2 = ((insert_sz E st.g (size + 1) (size + 1) off).set_edge (off + size)
      value).set_ptr s { (st.g.vertices s).ptr with size := (size + 1) % 2 ^ NBITS_SIZE }) :
    DInv0 E blocks hash_u64 { st with g := g2 } ∧
    vals hash_u64 g2
      = fun k => if k = key then vals hash_u64 st.g key ++ [value] else vals hash_u64 st.g k := by
  have wf := inv.wf
  have hocc : st.g.Occ s := ⟨c, j, hc, hj, hsdef.symm, by rw [e]; exact hk⟩
  have hins := insert_key_present wf hk hc hj e false
  simp only [Bool.false_eq_true, if_false, hsdef] at hins
  obtain ⟨hs1, len, hblk, hlen⟩ := inv.own _ hocc
  rw [hsz] at hs1 hlen
  rw [hof] at hblk
  subst hg2
  have hb1 : size + 2 ≤ blksz E (size + 1) := by omega
  have hsmall := ok.blk_small (size + 1) (by omega)
  have hstab := ok.blk_stable (size + 1) (size + 1 + 1) (by omega) (by omega)
  have hge := ok.blk_ge (size + 1 + 1)
  have hmod : (size + 1) % 2 ^ NBITS_SIZE = size + 1 := Nat.mod_eq_of_lt (by omega)
  rw [hmod]
  have hval : vals hash_u64 st.g key = st.g.read_edges off size := by
    rw [vals_occ wf hk hc hj e, hsdef]
    simp only [GStore.list_at, hsz, hof]
  rw [hval]
  apply dinv0_advance inv hk hins
    { st with g := ((insert_sz E st.g (size + 1) (size + 1) off).set_edge (off + size)
      value).set_ptr s { (st.g.vertices s).ptr with size := size + 1 } } (size + 1) off len
  · exact (same_keys_insert_sz _ _ _ _ _).chain
      ((same_keys_set_edge _ _ _).chain (same_keys_set_ptr _ _ _))
  · intro t hts
    simp only [set_ptr_ptr, if_neg hts]
    rfl
  · simp only [set_ptr_ptr, if_true]
  · simp only [set_ptr_ptr, if_true]
    exact hof
  · intro _
    omega
  · omega
  · exact hblk
  · omega
  · refine inv.heap.same_offs fun o => ⟨?_, ?_⟩
    · rintro (⟨t, h1, _, h3⟩ | h)
      · exact ⟨t, h1, h3⟩
      · exact ⟨s, hocc, by rw [hof, h]⟩
    · rintro ⟨t, h1, h3⟩
      by_cases hts : t = s
      · right
        rw [← h3, hts, hof]
      · exact Or.inl ⟨t, h1, hts, h3⟩
  · intro t _ _ len2 hl
    exact hl
  · intro t ht hts
    have := inv.sep t s ht hocc hts
    rw [hof] at this
    exact this
  · intro t ht hts i hi
    obtain ⟨_, len2, hl2, hlen2⟩ := inv.own t ht
    have hap := dinv0_blocks_apart inv hocc ht hts (by rw [hof]; exact hblk) hl2
    rw [hof] at hap
    have hroom2 := DInv.block_room ok hlen2
    have hcell := apart_cell hap hroom2 hi
    simp only [set_ptr_edges, set_edge_edges, insert_sz_edges]
    rw [if_neg (fun e => hcell _ (by omega) (by omega) e.symm),
      if_neg (fun e => hcell _ (by omega) (by omega) e.symm)]
  · rw [read_edges_succ]
    congr 1
    · apply read_edges_congr
      intro i hi
      simp only [set_ptr_edges, set_edge_edges, insert_sz_edges]
      rw [if_neg (by omega), if_neg (by omega)]
    · simp only [set_ptr_edges, set_edge_edges, if_true]

/-- A further edge of an existing key, with the list moved to a new block. -/
theorem vertex_edge_moved0 {σ : Type} {E : DynEnv σ} {blocks : σ → List (Nat × Nat)}
    (ok : Malloc_OK E blocks) {hash_u64 : Nat → Nat} {st : DStore σ}
    (inv : DInv0 E blocks hash_u64 st) {key : ikey_t} (hk : key ≠ ikey_t.zero)
    {c j : Nat} (hc : c < st.g.used) (hj : j < ASSOCIATIVITY - 1) (e : st.g.key_at c j = key)
    (value : Nat) {s size off : Nat} (hsdef : c * ASSOCIATIVITY + j = s)
    (hsz : (st.g.vertices s).ptr.size = size) (hs0 : 0 < size) (hof : (st.g.vertices s).ptr.off = off)
    {a : Nat × DStore σ} (halloc : st.alloc_edges E (size + 1) (-1) = .ok a)
    {ptr : iptr_t} (hmk : iptr_t.make (size + 1) a.1 0 = .ok ptr) (st3 : DStore σ)
    (hg : st3.g = (insert_sz E (((a.2.g.memcpy a.1 off size).set_edge (a.1 + size) value))
      INVALID_EDGES size off).set_ptr s ptr)
    (hh : (st3.heap = a.2.heap ∧ ∃ t, st3.free_queue = a.2.free_queue ++ [⟨off, t⟩]) ∨
      (st3.heap = E.edge_allocator.free a.2.heap (e2b off) ∧
        st3.free_queue = a.2.free_queue)) :
    DInv0 E blocks hash_u64 st3 ∧
    vals hash_u64 st3.g
      = fun k => if k = key then vals hash_u64 st.g key ++ [value] else vals hash_u64 st.g k := by
  have wf := inv.wf
  have hocc : st.g.Occ s := ⟨c, j, hc, hj, hsdef.symm, by rw [e]; exact hk⟩
  have hins := insert_key_present wf hk hc hj e false
  simp only [Bool.false_eq_true, if_false, hsdef] at hins
  obtain ⟨hs1, len, hblk, hlen⟩ := inv.own _ hocc
  rw [hsz] at hs1 hlen
  rw [hof] at hblk
  obtain ⟨hp, hszlt, _⟩ := iptr_make_inv hmk
  subst hp
  have hoffs : ∃ t, st.g.Occ t ∧ (st.g.vertices t).ptr.off = off := ⟨s, hocc, hof⟩
  obtain ⟨ag, aheap, anew, ablk, akeep⟩ := alloc_edges_spec ok st inv.heap halloc
  have hval : vals hash_u64 st.g key = st.g.read_edges off size := by
    rw [vals_occ wf hk hc hj e, hsdef]
    simp only [GStore.list_at, hsz, hof]
  rw [hval]
  have hoa : off ≠ a.1 := fun h => anew (h ▸ hoffs)
  have hge2 := ok.blk_ge (size + 1 + 1)
  have hge1 := ok.blk_ge (size + 1)
  have hapo := (akeep off len hoffs hblk).2
  have hnewblk : (a.1, blksz E (size + 1 + 1)) ∈ blocks st3.heap := by
    rcases hh with ⟨h1, _⟩ | ⟨h1, _⟩
    · rw [h1]; exact ablk
    · rw [h1, ok.free_ok, List.mem_filter]
      exact ⟨ablk, by simpa using fun h => hoa h.symm⟩
  apply dinv0_advance inv hk hins st3 (size + 1) a.1 (blksz E (size + 1 + 1))
  · rw [hg, ag]
    exact (same_keys_insert_sz _ _ _ _ _).chain ((same_keys_memcpy _ _ _ _).chain
      ((same_keys_set_edge _ _ _).chain ((same_keys_insert_sz _ _ _ _ _).chain
        (same_keys_set_ptr _ _ _))))
  · intro t hts
    rw [hg]
    simp only [set_ptr_ptr, if_neg hts, ag]
    rfl
  · rw [hg]
    simp only [set_ptr_ptr, if_true]
  · rw [hg]
    simp only [set_ptr_ptr, if_true]
  · intro _
    omega
  · exact hszlt
  · exact hnewblk
  · exact le_refl _
  · have hbase : HeapInv blocks st3.heap st3.free_queue
        (fun o => ((∃ t, st.g.Occ t ∧ (st.g.vertices t).ptr.off = o) ∨ o = a.1) ∧ o ≠ off) := by
      rcases hh with ⟨h1, t, h2⟩ | ⟨h1, h2⟩
      · rw [h1, h2]
        exact aheap.postpone (Or.inl hoffs) t
      · rw [h1, h2]
        exact aheap.release ok (Or.inl hoffs)
    refine hbase.same_offs fun o => ⟨?_, ?_⟩
    · rintro (⟨t, h1, h2, h3⟩ | h)
      · refine ⟨Or.inl ⟨t, h1, h3⟩, ?_⟩
        rw [← h3, ← hof]
        exact inv.sep t s h1 hocc h2
      · exact ⟨Or.inr h, by rw [h]; exact fun h2 => hoa h2.symm⟩
    · rintro ⟨⟨t, h1, h3⟩ | h, h4⟩
      · refine Or.inl ⟨t, h1, ?_, h3⟩
        intro hts
        rw [hts, hof] at h3
        exact h4 h3.symm
      · exact Or.inr h
  · intro t ht hts len2 hl
    have h1 := (akeep _ len2 ⟨t, ht, rfl⟩ hl).1
    rcases hh with ⟨h2, _⟩ | ⟨h2, _⟩
    · rw [h2]; exact h1
    · rw [h2, ok.free_ok, List.mem_filter]
      refine ⟨h1, ?_⟩
      have := inv.sep t s ht hocc hts
      rw [hof] at this
      simpa using this
  · intro t ht _ h
    exact anew ⟨t, ht, h⟩
  · intro t ht hts i hi
    obtain ⟨_, len2, hl2, hlen2⟩ := inv.own t ht
    have hap := dinv0_blocks_apart inv hocc ht hts (by rw [hof]; exact hblk) hl2
    rw [hof] at hap
    have hap2 := (akeep _ len2 ⟨t, ht, rfl⟩ hl2).2
    have hroom2 := DInv.block_room ok hlen2
    have hcell := apart_cell hap hroom2 hi
    have hcell2 := apart_cell hap2 hroom2 hi
    rw [hg]
    simp only [set_ptr_edges, set_edge_edges, insert_sz_edges, memcpy_edges, ag]
    rw [if_neg (fun e => hcell _ (by omega) (by omega) e.symm),
      if_neg (fun e => hcell2 _ (by omega) (by omega) e.symm),
      if_neg (fun e => hcell2 _ e.1 (by omega) rfl),
      if_neg (fun e => hcell2 _ (by omega) (by omega) e.symm)]
  · rw [hg, read_edges_succ]
    simp only [Apart] at hapo
    congr 1
    · apply read_edges_shift
      intro i hi
      simp only [set_ptr_edges, set_edge_edges, insert_sz_edges, memcpy_edges, ag]
      rw [if_neg (by omega), if_neg (by omega), if_pos (by omega), if_neg (by omega)]
      congr 1
      omega
    · simp only [set_ptr_edges, set_edge_edges, insert_sz_edges]
      rw [if_neg (by omega)]
      simp

/-- On the value lists, `insert_vertex_edge` is `kv_insert`, and it keeps the
invariant of the dynamic store, also with empty lists under the keys of the
three sets. -/
theorem vertex_edge_effect0 {σ : Type} {E : DynEnv σ} {blocks : σ → List (Nat × Nat)}
    (ok : Malloc_OK E blocks) {hash_u64 : Nat → Nat} {st : DStore σ}
    (inv : DInv0 E blocks hash_u64 st) {key : ikey_t} (hk : key ≠ ikey_t.zero)
    {value : Nat} {d : Bool} {r : Bool × Bool × DStore σ}
    (hr : insert_vertex_edge E hash_u64 st key value d = .ok r) :
    DInv0 E blocks hash_u64 r.2.2 ∧
    r.1 = (kv_insert (vals hash_u64 st.g) key value d).1 ∧
    r.2.1 = (kv_insert (vals hash_u64 st.g) key value d).2.1 ∧
    vals hash_u64 r.2.2.g = (kv_insert (vals hash_u64 st.g) key value d).2.2 := by
  have wf := inv.wf
  by_cases hnil : vals hash_u64 st.g key = []
  · obtain ⟨h1, h2, h3, h4⟩ := vertex_edge_first ok inv hk hnil hr
    simp only [kv_insert, if_pos hnil]
    refine ⟨h1, h2, h3, ?_⟩
    rw [h4]
    funext k
    simp only [KV.push, hnil, List.nil_append]
  · have hocc : st.g.occupies key := by
      by_contra hno
      exact hnil (vals_lacks wf ((lacks_iff _ _).2 hno))
    obtain ⟨c, j, hc, hj, e⟩ := hocc
    have hoc : st.g.Occ (c * ASSOCIATIVITY + j) := ⟨c, j, hc, hj, rfl, by rw [e]; exact hk⟩
    obtain ⟨hs1, len, hblk, hlen⟩ := inv.own _ hoc
    have hins := insert_key_present wf hk hc hj e false
    simp only [Bool.false_eq_true, if_false] at hins
    have hval : vals hash_u64 st.g key = st.g.list_at (c * ASSOCIATIVITY + j) :=
      vals_occ wf hk hc hj e
    have hs0 : 0 < (st.g.vertices (c * ASSOCIATIVITY + j)).ptr.size := by
      rcases Nat.eq_zero_or_pos (st.g.vertices (c * ASSOCIATIVITY + j)).ptr.size with h0 | h0
      · exfalso
        apply hnil
        rw [hval, GStore.list_at, h0]
        rfl
      · exact h0
    have hdup : is_dup st.g (st.g.vertices (c * ASSOCIATIVITY + j)) value
        = decide (value ∈ vals hash_u64 st.g key) := by
      rw [hval, GStore.list_at, Bool.eq_iff_iff, is_dup_iff]
      simp only [decide_eq_true_eq]
    simp only [insert_vertex_edge, hins, Outcome.bind] at hr
    rw [if_neg (by omega)] at hr
    simp only [kv_insert, if_neg hnil]
    by_cases hd : (d && decide (value ∈ vals hash_u64 st.g key)) = true
    · rw [hdup, if_pos hd] at hr
      injection hr with hr
      subst hr
      rw [if_pos hd]
      exact ⟨inv, rfl, rfl, rfl⟩
    · rw [hdup, if_neg hd] at hr
      rw [if_neg hd]
      by_cases hroom : blksz E ((st.g.vertices (c * ASSOCIATIVITY + j)).ptr.size + 1) - 1
          < (st.g.vertices (c * ASSOCIATIVITY + j)).ptr.size + 1
      · rw [if_pos hroom] at hr
        obtain ⟨a, halloc, hr⟩ := Outcome.bind_ok hr
        obtain ⟨ptr, hmk, hr⟩ := Outcome.bind_ok hr
        cases hc2 : E.global_enable_caching
        · simp only [hc2, Bool.false_eq_true, if_false] at hr
          injection hr with hr
          have := vertex_edge_moved0 ok inv hk hc hj e value rfl rfl hs0 rfl halloc hmk
            r.2.2 (by subst hr; rfl) (by subst hr; exact Or.inr ⟨rfl, rfl⟩)
          exact ⟨this.1, by subst hr; rfl, by subst hr; rfl, this.2⟩
        · simp only [hc2, if_true] at hr
          injection hr with hr
          have := vertex_edge_moved0 ok inv hk hc hj e value rfl rfl hs0 rfl halloc hmk
            r.2.2 (by subst hr; rfl) (by subst hr; exact Or.inl ⟨rfl, _, rfl⟩)
          exact ⟨this.1, by subst hr; rfl, by subst hr; rfl, this.2⟩
      · rw [if_neg hroom] at hr
        injection hr with hr
        have := vertex_edge_inplace0 ok inv hk hc hj e value rfl rfl hs0 rfl hroom
          r.2.2.g (by subst hr; rfl)
        have hst : r.2.2 = { st with g := r.2.2.g } := by subst hr; rfl
        rw [hst]
        exact ⟨this.1, by subst hr; rfl, by subst hr; rfl, this.2⟩

theorem dinv0_vals_nil_iff {σ : Type} {E : DynEnv σ} {blocks : σ → List (Nat × Nat)}
    {hash_u64 : Nat → Nat} {st : DStore σ} (inv : DInv0 E blocks hash_u64 st) {k : ikey_t}
    (hk : k ≠ ikey_t.zero) (hs : ¬ k.is_set) :
    vals hash_u64 st.g k = [] ↔ ¬ st.g.occupies k := by
  constructor
  · rintro h ⟨c, j, hc, hj, e⟩
    have hoc : st.g.Occ (c * ASSOCIATIVITY + j) := ⟨c, j, hc, hj, rfl, by rw [e]; exact hk⟩
    have hs := inv.solid _ hoc (by
      have e2 : (st.g.vertices (c * ASSOCIATIVITY + j)).key = k := e
      rw [e2]
      exact hs)
    have := congrArg List.length h
    rw [vals_occ inv.wf hk hc hj e, GStore.list_at, read_edges_length] at this
    simp only [List.length_nil] at this
    omega
  · intro h
    exact vals_lacks inv.wf ((lacks_iff _ _).2 h)

theorem key_exist_vals0 {σ : Type} {E : DynEnv σ} {blocks : σ → List (Nat × Nat)}
    {hash_u64 : Nat → Nat} {st : DStore σ} (inv : DInv0 E blocks hash_u64 st) {k : ikey_t}
    (hk : k ≠ ikey_t.zero) (hs : ¬ k.is_set) {ex : Bool}
    (h : check_key_exist hash_u64 st.g k = .ok ex) :
    (!ex) = decide (vals hash_u64 st.g k = []) := by
  obtain ⟨r, hr, hiff⟩ := check_key_exist_spec inv.wf hk
  rw [hr] at h
  injection h with h
  subst h
  rw [Bool.eq_iff_iff]
  simp only [Bool.not_eq_true', decide_eq_true_eq, dinv0_vals_nil_iff inv hk hs, ← hiff]
  cases r <;> simp

theorem indexed_effect0 {σ : Type} {E : DynEnv σ} {blocks : σ → List (Nat × Nat)}
    (ok : Malloc_OK E blocks) {hash_u64 : Nat → Nat} {st st2 : DStore σ}
    (inv : DInv0 E blocks hash_u64 st) {inner : Bool} {k kb k2 : Nat × Nat × Nat} {v v2 : Nat}
    (h : insert_indexed E hash_u64 inner st k kb v k2 v2 = .ok st2)
    (h1 : (⟨k.1, k.2.1, k.2.2⟩ : ikey_t) ≠ ikey_t.zero)
    (h2 : (⟨kb.1, kb.2.1, kb.2.2⟩ : ikey_t) ≠ ikey_t.zero)
    (h3 : (⟨k2.1, k2.2.1, k2.2.2⟩ : ikey_t) ≠ ikey_t.zero)
    (h2s : ¬ (⟨kb.1, kb.2.1, kb.2.2⟩ : ikey_t).is_set) :
    DInv0 E blocks hash_u64 st2 ∧
    vals hash_u64 st2.g = kv_indexed inner (vals hash_u64 st.g) ⟨k.1, k.2.1, k.2.2⟩
      ⟨kb.1, kb.2.1, kb.2.2⟩ v ⟨k2.1, k2.2.1, k2.2.2⟩ v2 := by
  simp only [insert_indexed] at h
  obtain ⟨key, e1, h⟩ := Outcome.bind_ok h
  obtain ⟨bkey, e2, h⟩ := Outcome.bind_ok h
  have e1 := ikey_make_inv e1
  have e2 := ikey_make_inv e2
  subst e1 e2
  obtain ⟨r, hr, h⟩ := Outcome.bind_ok h
  obtain ⟨i1, a1, _, a3⟩ := vertex_edge_effect0 ok inv h1 hr
  simp only [kv_indexed]
  rw [← a1, ← a3]
  by_cases c1 : r.1 = true
  · rw [if_pos c1] at h ⊢
    obtain ⟨ex, hex, h⟩ := Outcome.bind_ok h
    have hb := key_exist_vals0 i1 h2 h2s hex
    rw [← hb]
    by_cases c2 : (!ex && inner) = true
    · rw [if_pos c2] at h ⊢
      obtain ⟨key2, e3, h⟩ := Outcome.bind_ok h
      have e3 := ikey_make_inv e3
      subst e3
      obtain ⟨r2, hr2, h⟩ := Outcome.bind_ok h
      injection h with h
      subst h
      obtain ⟨i2, _, _, b3⟩ := vertex_edge_effect0 ok i1 h3 hr2
      exact ⟨i2, b3⟩
    · rw [if_neg c2] at h ⊢
      injection h with h
      subst h
      exact ⟨i1, rfl⟩
  · rw [if_neg c1] at h ⊢
    injection h with h
    subst h
    exact ⟨i1, rfl⟩

theorem triple_out_effect0 {σ : Type} {E : DynEnv σ} {blocks : σ → List (Nat × Nat)}
    (ok : Malloc_OK E blocks) {hash_u64 : Nat → Nat} {versatile : Bool} {st st2 : DStore σ}
    (inv : DInv0 E blocks hash_u64 st) {t : triple_t} (ht : t.wellformed) {check_dup : Bool}
    (h : insert_triple_out E hash_u64 versatile st t check_dup = .ok st2) :
    DInv0 E blocks hash_u64 st2 ∧
    vals hash_u64 st2.g = kv_triple_out versatile (vals hash_u64 st.g) t check_dup := by
  obtain ⟨hs, hp, ho, _, _, _⟩ := wellformed_ids ht
  have h10 : TYPE_ID ≠ 0 := by decide
  simp only [insert_triple_out] at h
  simp only [kv_triple_out, kv_type_head]
  by_cases c0 : t.p = TYPE_ID
  · rw [if_pos c0] at h ⊢
    obtain ⟨key, e1, h⟩ := Outcome.bind_ok h
    have e1 := ikey_make_inv e1
    subst e1
    obtain ⟨r1, hr1, h⟩ := Outcome.bind_ok h
    obtain ⟨i1, a1, a2, a3⟩ := vertex_edge_effect0 ok inv (key_ne_zero_out _ _) hr1
    generalize kv_insert (vals hash_u64 st.g) ⟨t.s, t.p, OUT⟩ t.o true = q at a1 a2 a3 ⊢
    obtain ⟨qa, qb, qm⟩ := q
    simp only at a1 a2 a3 ⊢
    subst a1 a2 a3
    obtain ⟨st3, h3, h⟩ := Outcome.bind_ok h
    have p3 : DInv0 E blocks hash_u64 st3 ∧ vals hash_u64 st3.g =
        if (r1.1 && versatile) = true then
          kv_indexed true (vals hash_u64 r1.2.2.g) ⟨t.s, PREDICATE_ID, OUT⟩
            ⟨t.s, PREDICATE_ID, IN⟩ t.p ⟨0, TYPE_ID, IN⟩ t.s
        else vals hash_u64 r1.2.2.g := by
      by_cases c1 : (r1.1 && versatile) = true
      · rw [if_pos c1] at h3 ⊢
        have hx := indexed_effect0 ok i1 h3 (key_ne_zero_out _ _)
          (key_ne_zero_of_vid _ _ hs) (key_ne_zero_of_pid _ _ h10) (not_set_of_vid _ _ hs)
        exact hx
      · rw [if_neg c1] at h3 ⊢
        injection h3 with h3
        subst h3
        exact ⟨i1, rfl⟩
    rw [← p3.2]
    by_cases c2 : (!r1.2.1) = true
    · rw [if_pos c2] at h ⊢
      obtain ⟨key4, e4, h⟩ := Outcome.bind_ok h
      have e4 := ikey_make_inv e4
      subst e4
      obtain ⟨r4, hr4, h⟩ := Outcome.bind_ok h
      obtain ⟨i4, b1, _, b3⟩ := vertex_edge_effect0 ok p3.1 (key_ne_zero_of_pid _ _ ho) hr4
      generalize kv_insert (vals hash_u64 st3.g) ⟨0, t.o, IN⟩ t.s false = q4 at b1 b3 ⊢
      obtain ⟨qa, qb, qm⟩ := q4
      simp only at b1 b3 ⊢
      subst b1 b3
      by_cases c3 : (r4.1 && versatile) = true
      · rw [if_pos c3] at h ⊢
        obtain ⟨key5, e5, h⟩ := Outcome.bind_ok h
        have e5 := ikey_make_inv e5
        subst e5
        obtain ⟨r5, hr5, h⟩ := Outcome.bind_ok h
        injection h with h
        subst h
        obtain ⟨i5, _, _, d3⟩ := vertex_edge_effect0 ok i4 (key_ne_zero_out _ _) hr5
        exact ⟨i5, d3⟩
      · rw [if_neg c3] at h ⊢
        injection h with h
        subst h
        exact ⟨i4, rfl⟩
    · rw [if_neg c2] at h ⊢
      injection h with h
      subst h
      exact ⟨p3.1, rfl⟩
  · rw [if_neg c0] at h ⊢
    obtain ⟨key, e1, h⟩ := Outcome.bind_ok h
    have e1 := ikey_make_inv e1
    subst e1
    obtain ⟨r1, hr1, h⟩ := Outcome.bind_ok h
    obtain ⟨i1, a1, _, a3⟩ := vertex_edge_effect0 ok inv (key_ne_zero_out _ _) hr1
    generalize kv_insert (vals hash_u64 st.g) ⟨t.s, t.p, OUT⟩ t.o check_dup = q at a1 a3 ⊢
    obtain ⟨qa, qb, qm⟩ := q
    simp only at a1 a3 ⊢
    subst a1 a3
    by_cases c1 : r1.1 = true
    · rw [if_pos c1] at h ⊢
      obtain ⟨st3, h3, h⟩ := Outcome.bind_ok h
      obtain ⟨i3, b3⟩ := indexed_effect0 ok i1 h3 (key_ne_zero_of_pid _ _ hp)
        (key_ne_zero_out _ _) (key_ne_zero_out _ _) (not_set_of_pid _ _ hp c0)
      rw [← b3]
      cases versatile with
      | false =>
        simp only [Bool.false_eq_true, if_false] at h ⊢
        injection h with h
        subst h
        exact ⟨i3, rfl⟩
      | true =>
        simp only [if_true] at h ⊢
        have hx := indexed_effect0 ok i3 h (key_ne_zero_out _ _)
          (key_ne_zero_of_vid _ _ hs) (key_ne_zero_of_pid _ _ h10) (not_set_of_vid _ _ hs)
        exact hx
    · rw [if_neg c1] at h ⊢
      injection h with h
      subst h
      exact ⟨i1, rfl⟩

theorem triple_in_effect0 {σ : Type} {E : DynEnv σ} {blocks : σ → List (Nat × Nat)}
    (ok : Malloc_OK E blocks) {hash_u64 : Nat → Nat} {versatile : Bool} {st st2 : DStore σ}
    (inv : DInv0 E blocks hash_u64 st) {t : triple_t} (ht : t.wellformed) {check_dup : Bool}
    (h : insert_triple_in E hash_u64 versatile st t check_dup = .ok st2) :
    DInv0 E blocks hash_u64 st2 ∧
    vals hash_u64 st2.g = kv_triple_in versatile (vals hash_u64 st.g) t check_dup := by
  obtain ⟨hs, hp, ho, _, _, _⟩ := wellformed_ids ht
  have h10 : TYPE_ID ≠ 0 := by decide
  simp only [insert_triple_in] at h
  simp only [kv_triple_in]
  by_cases c0 : t.p = TYPE_ID
  · rw [if_pos c0] at h ⊢
    injection h with h
    subst h
    exact ⟨inv, rfl⟩
  · rw [if_neg c0] at h ⊢
    obtain ⟨key, e1, h⟩ := Outcome.bind_ok h
    have e1 := ikey_make_inv e1
    subst e1
    obtain ⟨r1, hr1, h⟩ := Outcome.bind_ok h
    obtain ⟨i1, a1, _, a3⟩ := vertex_edge_effect0 ok inv (key_ne_zero_of_vid _ _ ho) hr1
    generalize kv_insert (vals hash_u64 st.g) ⟨t.o, t.p, IN⟩ t.s check_dup = q at a1 a3 ⊢
    obtain ⟨qa, qb, qm⟩ := q
    simp only at a1 a3 ⊢
    subst a1 a3
    by_cases c1 : r1.1 = true
    · rw [if_pos c1] at h ⊢
      obtain ⟨st3, h3, h⟩ := Outcome.bind_ok h
      obtain ⟨i3, b3⟩ := indexed_effect0 ok i1 h3 (key_ne_zero_out _ _)
        (key_ne_zero_of_pid _ _ hp) (key_ne_zero_out _ _) (not_set_of_pid _ _ hp c0)
      rw [← b3]
      cases versatile with
      | false =>
        simp only [Bool.false_eq_true, if_false] at h ⊢
        injection h with h
        subst h
        exact ⟨i3, rfl⟩
      | true =>
        simp only [if_true] at h ⊢
        have hx := indexed_effect0 ok i3 h (key_ne_zero_of_vid _ _ ho)
          (key_ne_zero_out _ _) (key_ne_zero_of_pid _ _ h10) (not_set_of_vid _ _ ho)
        exact hx
    · rw [if_neg c1] at h ⊢
      injection h with h
      subst h
      exact ⟨i1, rfl⟩

theorem run_calls_effect0 {σ : Type} {E : DynEnv σ} {blocks : σ → List (Nat × Nat)}
    (ok : Malloc_OK E blocks) {hash_u64 : Nat → Nat} {versatile : Bool} (calls : List Call) :
    ∀ {st st2 : DStore σ}, DInv0 E blocks hash_u64 st →
    (∀ c, c ∈ calls → c.triple.wellformed) →
    run_calls E hash_u64 versatile st calls = .ok st2 →
    DInv0 E blocks hash_u64 st2 ∧
    vals hash_u64 st2.g = kv_run versatile (vals hash_u64 st.g) calls := by
  induction calls with
  | nil =>
    intro st st2 inv _ h
    injection h with h
    subst h
    exact ⟨inv, rfl⟩
  | cons c cs ih =>
    intro st st2 inv hwf h
    simp only [run_calls] at h
    obtain ⟨st1, h1, h⟩ := Outcome.bind_ok h
    have hc := hwf c (List.mem_cons_self _ _)
    have step : DInv0 E blocks hash_u64 st1 ∧ vals hash_u64 st1.g =
        (if c.out then kv_triple_out versatile (vals hash_u64 st.g) c.triple c.check_dup
         else kv_triple_in versatile (vals hash_u64 st.g) c.triple c.check_dup) := by
      simp only [Call.run] at h1
      by_cases co : c.out = true
      · rw [if_pos co] at h1 ⊢
        exact triple_out_effect0 ok inv hc h1
      · rw [if_neg co] at h1 ⊢
        exact triple_in_effect0 ok inv hc h1
    obtain ⟨i2, e2⟩ := ih step.1 (fun c2 h2 => hwf c2 (List.mem_cons_of_mem _ h2)) h
    refine ⟨i2, ?_⟩
    rw [e2, step.2]
    rfl

/-- One block of the bulk load in the dynamic build: the key is new, it
receives the values in a block of its own, and the lists of the other keys
stay. -/
theorem dyn_insert_list_effect0 {σ : Type} {E : DynEnv σ} {blocks : σ → List (Nat × Nat)}
    (ok : Malloc_OK E blocks) {hash_u64 : Nat → Nat} {st st2 : DStore σ}
    (inv : DInv0 E blocks hash_u64 st) {vid pid d : Nat} {vs : List Nat} {tid : Int}
    (hk : (⟨vid, pid, d⟩ : ikey_t) ≠ ikey_t.zero)
    (hne : vs = [] → (⟨vid, pid, d⟩ : ikey_t).is_set)
    (hr : st.insert_list E hash_u64 vid pid d vs tid = .ok st2) :
    DInv0 E blocks hash_u64 st2 ∧
    vals hash_u64 st2.g = kv_put (vals hash_u64 st.g) ⟨vid, pid, d, vs⟩ ∧
    ¬ st.g.occupies ⟨vid, pid, d⟩ := by
  have wf := inv.wf
  simp only [DStore.insert_list] at hr
  obtain ⟨key, hmk, hr⟩ := Outcome.bind_ok hr
  obtain ⟨a, halloc, hr⟩ := Outcome.bind_ok hr
  obtain ⟨⟨s, g2⟩, hins2, hr⟩ := Outcome.bind_ok hr
  obtain ⟨ptr, hpm, hr⟩ := Outcome.bind_ok hr
  injection hr with hr
  subst hr
  have hkey := ikey_make_inv hmk
  subst hkey
  obtain ⟨hp, hsz, _⟩ := iptr_make_inv hpm
  subst hp
  obtain ⟨ag, aheap, anew, ablk, akeep⟩ := alloc_edges_spec ok st inv.heap halloc
  rw [ag] at hins2
  have hins3 : insert_key hash_u64 { st.g with edges := (insert_sz E st.g vs.length vs.length
      a.1).edges } ⟨vid, pid, d⟩ true = .ok (s, g2) := hins2
  rw [insert_key_edges] at hins3
  obtain ⟨⟨s1, g1⟩, hins1, h2⟩ := Outcome.bind_ok hins3
  injection h2 with h2
  injection h2 with hs1 hg2
  simp only at hs1 hg2
  subst hs1
  have hins := insert_key_unchecked hins1
  have hocc := insert_key_fresh wf hk hins1
  have wf1 := insert_key_wf wf hins
  obtain ⟨⟨c0, j0, hc0, hj0, hs0, hk0⟩, hused, hold, hnewk⟩ := insert_key_slots wf hins
  obtain ⟨fptr, fedges, fcfg, _, _, _⟩ := insert_key_frame wf hins
  have hc0b : c0 < st.g.num_buckets + st.g.num_buckets_ext := by
    have h1 := wf1.ext_le
    have h2 : g1.used = g1.num_buckets + g1.last_ext := rfl
    rw [← fcfg.2.1, ← fcfg.2.2.1]
    omega
  have hzero : st.g.key_at c0 j0 = ikey_t.zero := by
    by_contra hne0
    have hcu := wf.lacks_of_unused hc0b hj0 hne0
    exact hocc ⟨c0, j0, hcu, hj0, (hold c0 j0 hcu hj0 hne0).symm.trans hk0⟩
  have hnotocc : ¬ st.g.Occ s1 := by
    rintro ⟨c, j, hc, hj, e, hne0⟩
    rw [hs0] at e
    obtain ⟨a1, b1⟩ := slot_inj (by omega) (by omega) e
    rw [a1, b1] at hzero
    exact hne0 hzero
  have hn0 : ¬ (⟨vid, pid, d⟩ : ikey_t).is_set → 0 < vs.length :=
    fun hns => List.length_pos.2 (fun e => hns (hne e))
  have hroom0 : vs.length + 1 ≤ blksz E (vs.length + 1) := ok.blk_ge _
  have hv2 : g2.vertices = g1.vertices := by rw [← hg2]
  have he2 : ∀ x, g2.edges x =
      if x = a.1 + blksz E (vs.length + 1) - 1 then vs.length else g1.edges x := by
    intro x
    rw [← hg2]
    simp only [insert_sz_edges, fedges]
  have hstep := dinv0_advance inv hk hins
    { a.2 with g := write_edges (g2.set_ptr s1 ⟨vs.length, a.1, 0⟩) a.1 vs }
    vs.length a.1 (blksz E (vs.length + 1)) vs
    (by
      have h1 : SameKeys g1 g2 := by
        rw [← hg2]
        exact ⟨fun _ => rfl, rfl, rfl, rfl, rfl⟩
      exact h1.chain ((same_keys_set_ptr _ _ _).chain (same_keys_write_edges _ _ _)))
    (by
      intro t hts
      simp only [write_edges_vertices, set_ptr_ptr, if_neg hts, hv2]
      exact fptr t)
    (by simp only [write_edges_vertices, set_ptr_ptr, if_true])
    (by simp only [write_edges_vertices, set_ptr_ptr, if_true])
    hn0 hsz ablk (le_refl _)
    (aheap.shrink fun o h => h.elim (fun ⟨t, h1, _, h3⟩ => Or.inl ⟨t, h1, h3⟩) Or.inr)
    (by
      intro t ht _ len hl
      exact (akeep _ len ⟨t, ht, rfl⟩ hl).1)
    (by
      intro t ht _ e
      exact anew ⟨t, ht, e⟩)
    (by
      intro t ht _ i hi
      obtain ⟨_, len, hl, hlen⟩ := inv.own t ht
      have hap := (akeep _ len ⟨t, ht, rfl⟩ hl).2
      have hroom := DInv.block_room ok hlen
      have hcell := apart_cell hap hroom hi
      simp only [write_edges_get, set_ptr_edges, he2]
      rw [if_neg (fun e => hcell _ e.1 (by omega) rfl),
        if_neg (fun e => hcell _ (by omega) (by omega) e.symm), fedges])
    (write_edges_read vs _ a.1)
  exact ⟨hstep.1, hstep.2, hocc⟩

theorem dyn_insert_lists_effect0 {σ : Type} {E : DynEnv σ} {blocks : σ → List (Nat × Nat)}
    (ok : Malloc_OK E blocks) {hash_u64 : Nat → Nat} {tid : Int} (P : List Put) :
    ∀ {st st2 : DStore σ}, DInv0 E blocks hash_u64 st →
    (∀ p, p ∈ P → p.key ≠ ikey_t.zero ∧ (p.vals = [] → p.key.is_set)) →
    DStore.insert_lists E hash_u64 tid st P = .ok st2 →
    DInv0 E blocks hash_u64 st2 ∧ vals hash_u64 st2.g = kv_puts (vals hash_u64 st.g) P := by
  induction P with
  | nil =>
    intro st st2 inv _ h
    injection h with h
    subst h
    exact ⟨inv, rfl⟩
  | cons p P ih =>
    intro st st2 inv hP h
    simp only [DStore.insert_lists] at h
    obtain ⟨st1, h1, h⟩ := Outcome.bind_ok h
    obtain ⟨hz, hne⟩ := hP p (List.mem_cons_self _ _)
    obtain ⟨i1, v1, _⟩ := dyn_insert_list_effect0 ok inv hz hne h1
    obtain ⟨i2, v2⟩ := ih i1 (fun q hq => hP q (List.mem_cons_of_mem _ hq)) h
    refine ⟨i2, ?_⟩
    rw [v2, v1]
    rfl

/-- The invariant of the dynamic store only looks at the blocks of the
allocator. -/
theorem dyn_inv_heap0 {σ : Type} {E : DynEnv σ} {blocks : σ → List (Nat × Nat)}
    {hash_u64 : Nat → Nat} {st st2 : DStore σ} (inv : DInv0 E blocks hash_u64 st)
    (hg : st2.g = st.g) (hb : blocks st2.heap = blocks st.heap)
    (hq : st2.free_queue = st.free_queue) : DInv0 E blocks hash_u64 st2 := by
  obtain ⟨wf, blank, heap, own, sep, solid⟩ := inv
  refine ⟨?_, ?_, ?_, ?_, ?_, ?_⟩
  · rw [hg]
    exact wf
  · rw [hg]
    exact blank
  · rw [hg, hq]
    refine ⟨?_, ?_, ?_, ?_, heap.pend_nodup⟩
    · rw [hb]
      exact heap.apart
    · rw [hb]
      exact heap.pos
    · rw [hb]
      exact heap.held
    · rw [hb]
      exact heap.pend
  · rw [hg, hb]
    exact own
  · rw [hg]
    exact sep
  · rw [hg]
    exact solid

/-- The bulk load of the dynamic build keeps the invariant of the store and
leaves the value lists of the pairs of `insert_normal` and of the index build,
computed from a scan of the former; under `VERSATILE` the lists of the three
sets may be empty. -/
theorem dyn_bulk_load_effect {σ : Type} {E : DynEnv σ} {blocks : σ → List (Nat × Nat)}
    (ok : Malloc_OK E blocks) {merge_freelists : σ → σ}
    (hmerge : ∀ h, blocks (merge_freelists h) = blocks h) {hash_u64 : Nat → Nat}
    {versatile : Bool} {g0 : GStore} (cfg : Config g0) {heap : σ} (hheap : blocks heap = [])
    {spo ops : List triple_t} (st : Streams spo ops) (apart : TypesApart spo)
    {tid : Int} {st2 : DStore σ}
    (h : DStore.bulk_load E merge_freelists hash_u64 versatile g0 heap spo ops tid = .ok st2) :
    DInv0 E blocks hash_u64 st2 ∧ ∃ m X, Scanned IndexMaps.empty m X ∧
      X.Perm (normal_plan versatile spo ops) ∧
      vals hash_u64 st2.g =
        kv_puts (fun _ => []) (normal_plan versatile spo ops ++ index_plan versatile m) := by
  have ix : Indexable (normal_plan versatile spo ops) := normal_plan_indexable st apart
  simp only [DStore.bulk_load] at h
  obtain ⟨stn, hn, hi⟩ := Outcome.bind_ok h
  rw [dyn_insert_normal_eq] at hn
  obtain ⟨inv0, v0⟩ := @fresh_inv σ E blocks hash_u64 g0 cfg heap hheap
  have hne0 : ∀ p, p ∈ normal_plan versatile spo ops → p.key ≠ ikey_t.zero ∧ p.vals ≠ [] :=
    fun p hp => ⟨(normal_plan_valid st hp).2.2.2, normal_plan_nonempty hp⟩
  obtain ⟨invn, vn, _, dn⟩ := dyn_insert_lists_effect ok _ inv0 hne0 hn
  rw [v0] at vn
  rw [dyn_insert_index_eq] at hi
  obtain ⟨m, hscan, hi⟩ := Outcome.bind_ok hi
  obtain ⟨s6, hidx, hfin⟩ := Outcome.bind_ok hi
  injection hfin with hfin
  have hperm := dyn_scan_perm invn dn hne0 vn
  have hX : ∀ p, p ∈ stn.g.occupied.map stn.g.view ↔ p ∈ normal_plan versatile spo ops :=
    fun p => hperm.mem_iff
  have hs : Scanned IndexMaps.empty m (stn.g.occupied.map stn.g.view) := by
    rcases scan_puts_spec versatile (stn.g.occupied.map stn.g.view) IndexMaps.empty with
      ⟨_, hab⟩ | ⟨_, m2, hm2, hs2⟩
    · rw [hab] at hscan
      exact nomatch hscan
    · rw [hm2] at hscan
      injection hscan with hscan
      rw [← hscan]
      exact hs2
  have hneI : ∀ p, p ∈ index_plan versatile m →
      p.key ≠ ikey_t.zero ∧ (p.vals = [] → p.key.is_set) := by
    intro p hp
    have hk := index_plan_kind hs hX hp
    refine ⟨(hk.put_valid ix.loadable ix.types).2.2.2, fun e => ?_⟩
    rcases (index_kind_cases hs hX hk).2 with ⟨_, _, h⟩ | ⟨_, _, h⟩ | ⟨_, _, h⟩ |
      ⟨_, h | h | h⟩
    · exact absurd e h
    · exact absurd e h
    · exact absurd e h
    · rw [h]
      exact Or.inl rfl
    · rw [h]
      exact Or.inr (Or.inl rfl)
    · rw [h]
      exact Or.inr (Or.inr rfl)
  have inv1 : DInv0 E blocks hash_u64
      { stn with clock := stn.clock + 1 + 1, heap := merge_freelists stn.heap } :=
    dyn_inv_heap0 invn.to_weak rfl (hmerge _) rfl
  obtain ⟨inv6, v6⟩ := dyn_insert_lists_effect0 ok _ inv1 hneI hidx
  have inv2 : DInv0 E blocks hash_u64 st2 := by
    rw [← hfin]
    exact dyn_inv_heap0 inv6 rfl rfl rfl
  refine ⟨inv2, m, _, hs, hperm, ?_⟩
  rw [← hfin, kv_puts_append, ← vn]
  exact v6

/-- After the bulk load of the dynamic build and any sequence of online calls,
the verifier reports nothing from its four checks. -/
theorem dyn_load_calls_clean {σ : Type} {E : DynEnv σ} {blocks : σ → List (Nat × Nat)}
    (ok : Malloc_OK E blocks) {merge_freelists : σ → σ}
    (hmerge : ∀ h, blocks (merge_freelists h) = blocks h) {hash_u64 : Nat → Nat}
    {versatile : Bool} {g0 : GStore} (cfg : Config g0) {heap : σ} (hheap : blocks heap = [])
    {spo ops : List triple_t} (st : Streams spo ops) {Ty : Nat → Prop}
    (hT : ∀ u, u ∈ spo → u.p = TYPE_ID → Ty u.o)
    (hP : ∀ u, u ∈ spo → u.p ≠ TYPE_ID → ¬ Ty u.p)
    {tid : Int}
    {calls : List Call} (hw : ∀ c, c ∈ calls → c.triple.wellformed)
    (hT2 : ∀ c, c ∈ calls → c.out = true → c.triple.p = TYPE_ID → Ty c.triple.o)
    (hP2 : ∀ c, c ∈ calls → c.out = true → c.triple.p ≠ TYPE_ID → ¬ Ty c.triple.p)
    {st1 st2 : DStore σ}
    (h1 : DStore.bulk_load E merge_freelists hash_u64 versatile g0 heap spo ops tid = .ok st1)
    (h2 : run_calls E hash_u64 versatile st1 calls = .ok st2) :
    ∃ log, gstore_check hash_u64 versatile st2.g true true = .ok (0, log) ∧
      (∀ e, e ∈ log → e.site.versatile = true) ∧ (versatile = false → log = []) := by
  have apart := types_apart_of_ty st hT hP
  have ix : Indexable (normal_plan versatile spo ops) := normal_plan_indexable st apart
  obtain ⟨inv1, m, X, hs, hperm, v1⟩ := dyn_bulk_load_effect ok hmerge cfg hheap st apart h1
  obtain ⟨inv2, v2⟩ := run_calls_effect0 ok calls inv1 hw h2
  have sane := kv_run_sane versatile calls (plan_sane st hT hP ix hs hperm) hw hT2 hP2
  rw [← v1, ← v2] at sane
  apply gstore_check_clean inv2.wf sane versatile
  · intro k hk hz
    by_cases hs : k.is_set
    · rcases hs with e | e | e <;> (rw [e]; exact ⟨by decide, by decide, by decide⟩)
    · exact sane.fit k (fun e => (dinv0_vals_nil_iff inv2 hz hs).1 e hk)
  · intro k hk hz hna e
    have hs : ¬ k.is_set := by
      rintro (e2 | e2 | e2)
      · exact hna (by rw [e2]; exact Or.inr ⟨rfl, rfl⟩)
      · exact hna (by rw [e2]; exact Or.inr ⟨rfl, rfl⟩)
      · exact hna (by rw [e2]; exact Or.inl rfl)
    exact (dinv0_vals_nil_iff inv2 hz hs).1 e hk

theorem demo_dyn_loaded_run :
    DStore.bulk_load block_env id demo_hash true demo_store [] demo_triples demo_triples 0
      = .ok demo_dyn_loaded :=
  Outcome.ok_get (by decide) (DStore.fresh demo_store [])

theorem demo_dyn_final_run :
    run_calls block_env demo_hash true demo_dyn_loaded demo_late_calls = .ok demo_dyn_final :=
  Outcome.ok_get (by decide) demo_dyn_loaded

theorem demo_void_loaded_run :
    DStore.bulk_load block_env id demo_hash true demo_store [] [] [] 0 = .ok demo_void_loaded :=
  Outcome.ok_get (by decide) (DStore.fresh demo_store [])

theorem demo_void_final_run :
    run_calls block_env demo_hash true demo_void_loaded demo_late_calls = .ok demo_void_final :=
  Outcome.ok_get (by decide) demo_void_loaded

theorem demo_void_streams : Streams ([] : List triple_t) [] :=
  ⟨List.Pairwise.nil, List.Pairwise.nil, List.Perm.refl _, fun _ ht => absurd ht (List.not_mem_nil _)⟩

/-! # The claims -/

/-- C8: in a store reached from `refresh()` by successful `insert_key` calls, a
non-empty key that was inserted is found by `get_vertex_local` in the slot whose
id `insert_key` returned, and that slot holds the key; a non-empty key that was
never inserted yields the empty vertex as a normal result, and then
`get_edges_local` reports size 0 and returns no edges. -/
theorem local_lookup_finds_inserted (hash_u64 : Nat → Nat) (g0 g : GStore)
    (log : List (ikey_t × Nat)) (cfg : Config g0) (t : Trace hash_u64 g0 log g)
    (k : ikey_t) (hk : k ≠ ikey_t.zero) :
    (∀ s, (k, s) ∈ log →
      get_slot_local hash_u64 g k = .ok (some s) ∧
      get_vertex_local hash_u64 g k = .ok (g.vertices s) ∧ (g.vertices s).key = k) ∧
    ((∀ s, (k, s) ∉ log) →
      get_vertex_local hash_u64 g k = .ok vertex_t.zero ∧
      ∀ vid d pid, ikey_t.make vid pid d = .ok k →
        get_edges_local hash_u64 g vid d pid = .ok (0, none)) := by
  have wf := t.wf cfg
  obtain ⟨h1, h2⟩ := t.logged cfg
  constructor
  · intro s hs
    obtain ⟨c, j, hc, hj, e, hkey⟩ := h1 k s hs hk
    rw [e]
    exact ⟨get_slot_local_present wf hk hc hj hkey, get_vertex_local_present wf hk hc hj hkey,
      hkey⟩
  · intro hno
    have hl : g.lacks k := by
      intro c j hc hj hcj
      obtain ⟨s, hs⟩ := h2 c j hc hj (by rw [hcj]; exact hk)
      rw [hcj] at hs
      exact hno s hs
    refine ⟨get_vertex_local_absent wf hl, fun vid d pid hm => ?_⟩
    simp [get_edges_local, hm, Outcome.bind, get_vertex_local_absent wf hl, vertex_t.zero,
      ikey_t.is_empty, ikey_t.zero]

theorem local_lookup_finds_inserted_witness :
    (∀ s, (demo_key, s) ∈ [(demo_key, 0)] →
      get_slot_local demo_hash ((refresh demo_store).set_key 0 demo_key) demo_key
        = .ok (some s) ∧
      get_vertex_local demo_hash ((refresh demo_store).set_key 0 demo_key) demo_key
        = .ok (((refresh demo_store).set_key 0 demo_key).vertices s) ∧
      (((refresh demo_store).set_key 0 demo_key).vertices s).key = demo_key) ∧
    ((∀ s, (demo_key, s) ∉ [(demo_key, 0)]) →
      get_vertex_local demo_hash ((refresh demo_store).set_key 0 demo_key) demo_key
        = .ok vertex_t.zero ∧
      ∀ vid d pid, ikey_t.make vid pid d = .ok demo_key →
        get_edges_local demo_hash ((refresh demo_store).set_key 0 demo_key) vid d pid
          = .ok (0, none)) :=
  local_lookup_finds_inserted demo_hash demo_store _ _ demo_config demo_trace demo_key
    (by decide)

/-- C9: when a non-empty key is already present in a data slot of a reachable
store, `insert_key` with `check_dup = true` fails its assertion, and with
`check_dup = false` it returns the id of the slot that holds the key and leaves
the whole store (every slot, every chain link, `last_ext`) as it was. -/
theorem insert_key_duplicate (hash_u64 : Nat → Nat) (g0 g : GStore)
    (log : List (ikey_t × Nat)) (cfg : Config g0) (t : Trace hash_u64 g0 log g)
    (k : ikey_t) (hk : k ≠ ikey_t.zero) (c j : Nat)
    (hc : c < g.num_buckets + g.num_buckets_ext) (hj : j < ASSOCIATIVITY - 1)
    (hpresent : g.key_at c j = k) :
    insert_key hash_u64 g k true = .abort ∧
    insert_key hash_u64 g k false = .ok (c * ASSOCIATIVITY + j, g) := by
  have wf := t.wf cfg
  have hc2 : c < g.used := wf.lacks_of_unused hc hj (by rw [hpresent]; exact hk)
  constructor
  · rw [insert_key_present wf hk hc2 hj hpresent true]
    rfl
  · rw [insert_key_present wf hk hc2 hj hpresent false]
    rfl

theorem insert_key_duplicate_witness :
    insert_key demo_hash ((refresh demo_store).set_key 0 demo_key) demo_key true = .abort ∧
    insert_key demo_hash ((refresh demo_store).set_key 0 demo_key) demo_key false
      = .ok (0 * ASSOCIATIVITY + 0, (refresh demo_store).set_key 0 demo_key) :=
  insert_key_duplicate demo_hash demo_store _ _ demo_config demo_trace demo_key
    (by decide) 0 0 (by decide) (by decide) rfl

/-- C10: in every store reached from `refresh()` by `insert_key` calls (with
either value of `check_dup`), two data slots of the main and indirect bucket
regions that hold the same non-empty key are the same slot. -/
theorem no_duplicate_key (hash_u64 : Nat → Nat) (g0 g : GStore)
    (log : List (ikey_t × Nat)) (cfg : Config g0) (t : Trace hash_u64 g0 log g)
    (b j c i : Nat) (hb : b < g.num_buckets + g.num_buckets_ext)
    (hc : c < g.num_buckets + g.num_buckets_ext) (hj : j < ASSOCIATIVITY - 1)
    (hi : i < ASSOCIATIVITY - 1) (hne : g.key_at b j ≠ ikey_t.zero)
    (heq : g.key_at b j = g.key_at c i) :
    b * ASSOCIATIVITY + j = c * ASSOCIATIVITY + i := by
  have wf := t.wf cfg
  have hb2 : b < g.used := wf.lacks_of_unused hb hj hne
  have hc2 : c < g.used := wf.lacks_of_unused hc hi (by rw [← heq]; exact hne)
  obtain ⟨e1, e2⟩ := wf.nodup b j c i hb2 hc2 hj hi hne heq
  rw [e1, e2]

theorem no_duplicate_key_witness :
    Config demo_store ∧
    ∀ b j c i, b < 5 + 59 → c < 5 + 59 → j < ASSOCIATIVITY - 1 → i < ASSOCIATIVITY - 1 →
      ((refresh demo_store).set_key 0 demo_key).key_at b j ≠ ikey_t.zero →
      ((refresh demo_store).set_key 0 demo_key).key_at b j
        = ((refresh demo_store).set_key 0 demo_key).key_at c i →
      b * ASSOCIATIVITY + j = c * ASSOCIATIVITY + i :=
  ⟨demo_config, fun b j c i =>
    no_duplicate_key demo_hash demo_store _ _ demo_config demo_trace b j c i⟩

/-- C1: on streams `spo` (sorted by (s, p, o)) and `ops` (the same triples sorted
by (o, p, s)) without repeated triples, `insert_normal` after `refresh()` never
loops forever, returns when the store has room, and whenever it returns, every
triple `(s, p, o)` with `p ≠ TYPE_ID` has `o` in the list that `get_edges_local`
returns for `(s, OUT, p)` and `s` in the list returned for `(o, IN, p)`; the list
under `(s, p, OUT)` is the objects of the maximal `(s, p)` run of `spo` that
contains the triple, in stream order. -/
theorem bulk_load_normal_edges (hash_u64 : Nat → Nat) (versatile : Bool) (g0 : GStore)
    (spo ops : List triple_t) (cfg : Config g0) (st : Streams spo ops) :
    insert_normal hash_u64 versatile (refresh g0) spo ops ≠ .nofuel ∧
    (Roomy g0 (4 * spo.length) →
      ∃ g, insert_normal hash_u64 versatile (refresh g0) spo ops = .ok g) ∧
    ∀ g, insert_normal hash_u64 versatile (refresh g0) spo ops = .ok g →
      ∀ t, t ∈ spo → t.p ≠ TYPE_ID →
        (∃ a b, MaxRun (fun u => u.s) spo a b ∧ (∃ i, a ≤ i ∧ i < b ∧ triple_at spo i = t) ∧
          get_edges_local hash_u64 g t.s OUT t.p
            = .ok (b - a, some (slice_map spo (fun u => u.o) a b)) ∧
          t.o ∈ slice_map spo (fun u => u.o) a b) ∧
        (∃ l, get_edges_local hash_u64 g t.o IN t.p = .ok (l.length, some l) ∧ t.s ∈ l) := by
  obtain ⟨h1, h2, h3⟩ := insert_normal_loaded hash_u64 versatile g0 spo ops cfg st
  refine ⟨h1, h2, fun g hg t ht hp => ?_⟩
  obtain ⟨ld, _, _⟩ := h3 g hg
  constructor
  · obtain ⟨i, hi, hti⟩ := mem_triple_at ht
    obtain ⟨a, b, _, ha, hb, hrun, hmem⟩ := plan_pass_cover versatile (fun u => u.s)
      (fun u => u.o) OUT spo (spo.length + 1) [] 0 (by omega) (Or.inl rfl) i (Nat.zero_le _) hi
    have hmem2 : (⟨(triple_at spo a).s, (triple_at spo a).p, OUT,
        slice_map spo (fun u => u.o) a b⟩ : Put) ∈ normal_plan versatile spo ops :=
      List.mem_append_left _ hmem
    have hlk := ld.lookup hmem2 (normal_plan_valid st hmem2)
    have hsame := hrun.2.2.1 i ha hb
    simp only [same_run] at hsame
    simp only [slice_map_length] at hlk
    rw [hti] at hsame
    rw [hsame.1, hsame.2] at hlk
    refine ⟨a, b, hrun, ⟨i, ha, hb, hti⟩, hlk, ?_⟩
    rw [← hti]
    exact mem_slice_map spo (fun u => u.o) ha hb
  · have ht2 : t ∈ ops := st.same.mem_iff.2 ht
    obtain ⟨i, hi, hti⟩ := mem_triple_at ht2
    obtain ⟨_, _, hskip, hleft⟩ := st.pass_ops
    have htt := hskip i hi (by rw [hti]; exact hp)
    obtain ⟨a, b, _, ha, hb, hrun, hmem⟩ := plan_pass_cover versatile (fun u => u.o)
      (fun u => u.s) IN ops (ops.length + 1) [] _ (by omega) hleft i htt hi
    have hmem2 : (⟨(triple_at ops a).o, (triple_at ops a).p, IN,
        slice_map ops (fun u => u.s) a b⟩ : Put) ∈ normal_plan versatile spo ops :=
      List.mem_append_right _ hmem
    have hlk := ld.lookup hmem2 (normal_plan_valid st hmem2)
    have hsame := hrun.2.2.1 i ha hb
    simp only [same_run] at hsame
    rw [hti] at hsame
    rw [hsame.1, hsame.2] at hlk
    refine ⟨_, hlk, ?_⟩
    rw [← hti]
    exact mem_slice_map ops (fun u => u.s) ha hb

theorem bulk_load_normal_edges_witness :
    insert_normal demo_hash false (refresh demo_store) demo_triples demo_triples ≠ .nofuel ∧
    (Roomy demo_store (4 * demo_triples.length) →
      ∃ g, insert_normal demo_hash false (refresh demo_store) demo_triples demo_triples
        = .ok g) ∧
    ∀ g, insert_normal demo_hash false (refresh demo_store) demo_triples demo_triples = .ok g →
      ∀ t, t ∈ demo_triples → t.p ≠ TYPE_ID →
        (∃ a b, MaxRun (fun u => u.s) demo_triples a b ∧
          (∃ i, a ≤ i ∧ i < b ∧ triple_at demo_triples i = t) ∧
          get_edges_local demo_hash g t.s OUT t.p
            = .ok (b - a, some (slice_map demo_triples (fun u => u.o) a b)) ∧
          t.o ∈ slice_map demo_triples (fun u => u.o) a b) ∧
        (∃ l, get_edges_local demo_hash g t.o IN t.p = .ok (l.length, some l) ∧ t.s ∈ l) :=
  bulk_load_normal_edges demo_hash false demo_store demo_triples demo_triples demo_config
    demo_streams

/-- C2: type triples are index-only.  After `refresh()`, `insert_normal` and
`insert_index` on well-formed sorted streams (a run that never exhausts its
loop budget, and that returns when type ids and predicate ids are disjoint and
the store is roomy enough), for every type triple `(s, TYPE_ID, t)` of the
input `get_edges_local(s, OUT, TYPE_ID)` contains `t`,
`get_edges_local(0, IN, t)` contains `s`, and the key `(t, TYPE_ID, IN)` does
not exist: `get_vertex_local` returns the empty vertex. -/
theorem type_triples_index_only (hash_u64 : Nat → Nat) (versatile : Bool) (g0 : GStore)
    (spo ops : List triple_t) (cfg : Config g0) (st : Streams spo ops) :
    bulk_load hash_u64 versatile g0 spo ops ≠ .nofuel ∧
    (TypesApart spo → Roomy g0 (20 * spo.length + 3) →
      ∃ g, bulk_load hash_u64 versatile g0 spo ops = .ok g) ∧
    ∀ g, bulk_load hash_u64 versatile g0 spo ops = .ok g →
      ∀ t, t ∈ spo → t.p = TYPE_ID →
        (∃ l, get_edges_local hash_u64 g t.s OUT TYPE_ID = .ok (l.length, some l) ∧ t.o ∈ l) ∧
        (∃ l, get_edges_local hash_u64 g 0 IN t.o = .ok (l.length, some l) ∧ t.s ∈ l) ∧
        get_vertex_local hash_u64 g ⟨t.o, TYPE_ID, IN⟩ = .ok vertex_t.zero := by
  obtain ⟨s1, s2⟩ := bulk_load_sound hash_u64 versatile g0 spo ops cfg st
  refine ⟨s1, fun apart => (bulk_load_loaded hash_u64 versatile g0 spo ops cfg st apart).2.1,
    fun g hg t ht hp => ?_⟩
  have apart := s2 g hg
  have hio : OUT ≠ IN := by decide
  obtain ⟨g1, m, _, ld1, _, hs, hperm, _, ld2⟩ :=
    (bulk_load_loaded hash_u64 versatile g0 spo ops cfg st apart).2.2 g hg
  have ix : Indexable (normal_plan versatile spo ops) := normal_plan_indexable st apart
  obtain ⟨vals, hmem, hval⟩ := @spo_cover versatile spo ops t ht
  have hto : 1 < t.o := by
    have hw := st.ids t ht
    rcases hw.2.2 with ⟨_, hw⟩ | ⟨hw, _, _⟩
    · rw [is_tpid_iff] at hw
      exact hw.1
    · rw [is_tpid_iff, hp] at hw
      simp only [TYPE_ID] at hw
      omega
  refine ⟨?_, ?_, ?_⟩
  · have hlk := ld2.lookup (List.mem_append_left _ hmem) (ix.loadable.valid _ hmem)
    simp only [hp] at hlk
    exact ⟨vals, hlk, hval⟩
  · have hin : t.s ∈ tidx_list (normal_plan versatile spo ops) t.o :=
      mem_tidx_list_iff.2 ⟨_, hmem, hio, hp, hval, rfl⟩
    obtain ⟨l, hl1, hl2⟩ := lookup_tidx ld2 ix hs hperm (List.ne_nil_of_mem hin)
    exact ⟨l, hl1, hl2.mem_iff.2 hin⟩
  · apply ld2.lookup_none
    · intro p hp2 e
      rcases List.mem_append.1 hp2 with h | h
      · exact ix.no_type_in p h ⟨congrArg ikey_t.dir e, congrArg ikey_t.pid e⟩
      · have hv := (index_plan_kind hs (fun _ => hperm.mem_iff) h).vid
        have e1 : p.vid = t.o := congrArg ikey_t.vid e
        omega
    · intro e
      have h10 : TYPE_ID ≠ 0 := by decide
      exact h10 (congrArg ikey_t.pid e)

theorem type_triples_index_only_witness :
    bulk_load demo_hash false demo_store demo_triples demo_triples ≠ .nofuel ∧
    (TypesApart demo_triples → Roomy demo_store (20 * demo_triples.length + 3) →
      ∃ g, bulk_load demo_hash false demo_store demo_triples demo_triples = .ok g) ∧
    ∀ g, bulk_load demo_hash false demo_store demo_triples demo_triples = .ok g →
      ∀ t, t ∈ demo_triples → t.p = TYPE_ID →
        (∃ l, get_edges_local demo_hash g t.s OUT TYPE_ID = .ok (l.length, some l) ∧ t.o ∈ l) ∧
        (∃ l, get_edges_local demo_hash g 0 IN t.o = .ok (l.length, some l) ∧ t.s ∈ l) ∧
        get_vertex_local demo_hash g ⟨t.o, TYPE_ID, IN⟩ = .ok vertex_t.zero :=
  type_triples_index_only demo_hash false demo_store demo_triples demo_triples demo_config
    demo_streams

/-- C4: the index build materialises exactly the scanned slots.  On well-formed
streams with disjoint type ids and predicate ids the whole load never exhausts
its loop budget and returns when the store is roomy enough; and whenever
`insert_index` returns on the store `g1` filled by `insert_normal`, then for
every pid other than `TYPE_ID` and `PREDICATE_ID` an occupied slot
`(vid, pid, OUT)` of `g1` makes `get_edges_local(0, IN, pid)` return a list that
holds `vid` exactly once and holds exactly the vertices of the occupied slots
`(w, pid, OUT)`; an occupied slot `(vid, pid, IN)` does the same for
`get_edges_local(0, OUT, pid)`; and for every type `t` listed under some
`(vid, TYPE_ID, OUT)` of `g1`, `get_edges_local(0, IN, t)` returns a list that
holds `vid` exactly once and holds exactly the vertices whose
`(w, TYPE_ID, OUT)` list contains `t`. -/
theorem index_build_materialises (hash_u64 : Nat → Nat) (versatile : Bool) (g0 : GStore)
    (spo ops : List triple_t) (cfg : Config g0) (st : Streams spo ops)
    (apart : TypesApart spo) :
    bulk_load hash_u64 versatile g0 spo ops ≠ .nofuel ∧
    (Roomy g0 (20 * spo.length + 3) →
      ∃ g1 g2, insert_normal hash_u64 versatile (refresh g0) spo ops = .ok g1 ∧
        insert_index hash_u64 versatile g1 = .ok g2) ∧
    ∀ g1 g2, insert_normal hash_u64 versatile (refresh g0) spo ops = .ok g1 →
      insert_index hash_u64 versatile g1 = .ok g2 →
      (∀ vid pid, pid ≠ TYPE_ID → pid ≠ PREDICATE_ID → g1.occupies ⟨vid, pid, OUT⟩ →
        ∃ l, get_edges_local hash_u64 g2 0 IN pid = .ok (l.length, some l) ∧
          l.count vid = 1 ∧ ∀ w, w ∈ l ↔ g1.occupies ⟨w, pid, OUT⟩) ∧
      (∀ vid pid, pid ≠ TYPE_ID → pid ≠ PREDICATE_ID → g1.occupies ⟨vid, pid, IN⟩ →
        ∃ l, get_edges_local hash_u64 g2 0 OUT pid = .ok (l.length, some l) ∧
          l.count vid = 1 ∧ ∀ w, w ∈ l ↔ g1.occupies ⟨w, pid, IN⟩) ∧
      (∀ vid t ts, get_edges_local hash_u64 g1 vid OUT TYPE_ID = .ok (ts.length, some ts) →
        t ∈ ts →
        ∃ l, get_edges_local hash_u64 g2 0 IN t = .ok (l.length, some l) ∧
          l.count vid = 1 ∧
          ∀ w, w ∈ l ↔ ∃ ts2, get_edges_local hash_u64 g1 w OUT TYPE_ID
            = .ok (ts2.length, some ts2) ∧ t ∈ ts2) := by
  obtain ⟨b1, b2, b3⟩ := bulk_load_loaded hash_u64 versatile g0 spo ops cfg st apart
  have ix : Indexable (normal_plan versatile spo ops) := normal_plan_indexable st apart
  have hl := ix.loadable
  refine ⟨b1, fun hr => ?_, fun g1 g2 h1 h2 => ?_⟩
  · obtain ⟨g2, hg2⟩ := b2 hr
    obtain ⟨g1, _, k1, _, _, _, _, k2, _⟩ := b3 g2 hg2
    exact ⟨g1, g2, k1, k2⟩
  have hb : bulk_load hash_u64 versatile g0 spo ops = .ok g2 := by
    simp only [bulk_load, h1, Outcome.bind]
    exact h2
  obtain ⟨g1b, m, k1, ld1, _, hs, hperm, _, ld2⟩ := b3 g2 hb
  rw [h1] at k1
  injection k1 with k1
  subst k1
  refine ⟨?_, ?_, ?_⟩
  · intro vid pid hp1 hp0 hocc
    have hin := (mem_pidx_in_occ ld1 hl hp0 hp1 vid).2 hocc
    obtain ⟨l, e1, e2⟩ := lookup_pidx_in ld2 ix hs hperm (List.ne_nil_of_mem hin)
    exact ⟨l, e1, count_one_of_perm e2 (pidx_in_list_nodup hl pid) hin,
      fun w => e2.mem_iff.trans (mem_pidx_in_occ ld1 hl hp0 hp1 w)⟩
  · intro vid pid hp1 hp0 hocc
    have hin := (mem_pidx_out_occ ld1 hp0 hp1 vid).2 hocc
    obtain ⟨l, e1, e2⟩ := lookup_pidx_out ld2 ix hs hperm (List.ne_nil_of_mem hin)
    exact ⟨l, e1, count_one_of_perm e2 (pidx_out_list_nodup hl pid) hin,
      fun w => e2.mem_iff.trans (mem_pidx_out_occ ld1 hp0 hp1 w)⟩
  · intro vid t ts hts ht
    have hin := (mem_tidx_lookup ld1 hl t vid).2 ⟨ts, hts, ht⟩
    obtain ⟨l, e1, e2⟩ := lookup_tidx ld2 ix hs hperm (List.ne_nil_of_mem hin)
    exact ⟨l, e1, count_one_of_perm e2 (tidx_list_nodup hl (normal_plan_types_nodup st) t) hin,
      fun w => e2.mem_iff.trans (mem_tidx_lookup ld1 hl t w)⟩

theorem index_build_materialises_witness :
    bulk_load demo_hash false demo_store demo_triples demo_triples ≠ .nofuel ∧
    (Roomy demo_store (20 * demo_triples.length + 3) →
      ∃ g1 g2, insert_normal demo_hash false (refresh demo_store) demo_triples demo_triples
          = .ok g1 ∧
        insert_index demo_hash false g1 = .ok g2) ∧
    ∀ g1 g2, insert_normal demo_hash false (refresh demo_store) demo_triples demo_triples
        = .ok g1 →
      insert_index demo_hash false g1 = .ok g2 →
      (∀ vid pid, pid ≠ TYPE_ID → pid ≠ PREDICATE_ID → g1.occupies ⟨vid, pid, OUT⟩ →
        ∃ l, get_edges_local demo_hash g2 0 IN pid = .ok (l.length, some l) ∧
          l.count vid = 1 ∧ ∀ w, w ∈ l ↔ g1.occupies ⟨w, pid, OUT⟩) ∧
      (∀ vid pid, pid ≠ TYPE_ID → pid ≠ PREDICATE_ID → g1.occupies ⟨vid, pid, IN⟩ →
        ∃ l, get_edges_local demo_hash g2 0 OUT pid = .ok (l.length, some l) ∧
          l.count vid = 1 ∧ ∀ w, w ∈ l ↔ g1.occupies ⟨w, pid, IN⟩) ∧
      (∀ vid t ts, get_edges_local demo_hash g1 vid OUT TYPE_ID = .ok (ts.length, some ts) →
        t ∈ ts →
        ∃ l, get_edges_local demo_hash g2 0 IN t = .ok (l.length, some l) ∧
          l.count vid = 1 ∧
          ∀ w, w ∈ l ↔ ∃ ts2, get_edges_local demo_hash g1 w OUT TYPE_ID
            = .ok (ts2.length, some ts2) ∧ t ∈ ts2) :=
  index_build_materialises demo_hash false demo_store demo_triples demo_triples demo_config
    demo_streams demo_apart

/-- C3, as the code has it: with `t = 2`, `p = 3`, `s = 131072`, `o = 131073`,
bulk-loading the triples `(s, TYPE_ID, t)` and `(s, p, o)` never exhausts its
loop budget, returns when the store is roomy enough, and then the local lookups
give `(s, TYPE_ID, OUT) = [t]`, `(0, t, IN) = [s]`, `(s, p, OUT) = [o]`,
`(o, p, IN) = [s]`, `(0, p, OUT) = [o]` and `(0, p, IN) = [s]`: the predicate
index under `(0, p, IN)` lists the subjects and the one under `(0, p, OUT)` the
objects. -/
theorem minimal_graph_lookups (hash_u64 : Nat → Nat) (versatile : Bool) (g0 : GStore)
    (cfg : Config g0) :
    bulk_load hash_u64 versatile g0 demo_triples demo_triples ≠ .nofuel ∧
    (Roomy g0 (20 * demo_triples.length + 3) →
      ∃ g, bulk_load hash_u64 versatile g0 demo_triples demo_triples = .ok g) ∧
    ∀ g, bulk_load hash_u64 versatile g0 demo_triples demo_triples = .ok g →
      get_edges_local hash_u64 g 131072 OUT TYPE_ID = .ok (1, some [2]) ∧
      get_edges_local hash_u64 g 0 IN 2 = .ok (1, some [131072]) ∧
      get_edges_local hash_u64 g 131072 OUT 3 = .ok (1, some [131073]) ∧
      get_edges_local hash_u64 g 131073 IN 3 = .ok (1, some [131072]) ∧
      get_edges_local hash_u64 g 0 OUT 3 = .ok (1, some [131073]) ∧
      get_edges_local hash_u64 g 0 IN 3 = .ok (1, some [131072]) := by
  obtain ⟨b1, b2, b3⟩ :=
    bulk_load_loaded hash_u64 versatile g0 demo_triples demo_triples cfg
      demo_streams demo_apart
  refine ⟨b1, b2, fun g hg => ?_⟩
  obtain ⟨g1, m, _, _, _, hs, hperm, _, ld2⟩ := b3 g hg
  have ix : Indexable (normal_plan versatile demo_triples demo_triples) :=
    normal_plan_indexable demo_streams demo_apart
  have m1 : (⟨131072, TYPE_ID, OUT, [2]⟩ : Put) ∈ normal_plan versatile demo_triples
      demo_triples := by cases versatile <;> decide
  have m2 : (⟨131072, 3, OUT, [131073]⟩ : Put) ∈ normal_plan versatile demo_triples
      demo_triples := by cases versatile <;> decide
  have m3 : (⟨131073, 3, IN, [131072]⟩ : Put) ∈ normal_plan versatile demo_triples
      demo_triples := by cases versatile <;> decide
  have t1 : tidx_list (normal_plan versatile demo_triples demo_triples) 2 = [131072] := by
    cases versatile <;> decide
  have t2 : pidx_out_list (normal_plan versatile demo_triples demo_triples) 3 = [131073] := by
    cases versatile <;> decide
  have t3 : pidx_in_list (normal_plan versatile demo_triples demo_triples) 3 = [131072] := by
    cases versatile <;> decide
  refine ⟨?_, ?_, ?_, ?_, ?_, ?_⟩
  · exact ld2.lookup (List.mem_append_left _ m1) (ix.loadable.valid _ m1)
  · obtain ⟨l, e1, e2⟩ := lookup_tidx ld2 ix hs hperm (t := 2) (by rw [t1]; exact List.cons_ne_nil _ _)
    rw [t1, List.perm_singleton] at e2
    rw [e2] at e1
    exact e1
  · exact ld2.lookup (List.mem_append_left _ m2) (ix.loadable.valid _ m2)
  · exact ld2.lookup (List.mem_append_left _ m3) (ix.loadable.valid _ m3)
  · obtain ⟨l, e1, e2⟩ := lookup_pidx_out ld2 ix hs hperm (k := 3)
      (by rw [t2]; exact List.cons_ne_nil _ _)
    rw [t2, List.perm_singleton] at e2
    rw [e2] at e1
    exact e1
  · obtain ⟨l, e1, e2⟩ := lookup_pidx_in ld2 ix hs hperm (k := 3)
      (by rw [t3]; exact List.cons_ne_nil _ _)
    rw [t3, List.perm_singleton] at e2
    rw [e2] at e1
    exact e1

theorem minimal_graph_lookups_witness :
    bulk_load demo_hash false demo_store demo_triples demo_triples ≠ .nofuel ∧
    (Roomy demo_store (20 * demo_triples.length + 3) →
      ∃ g, bulk_load demo_hash false demo_store demo_triples demo_triples = .ok g) ∧
    ∀ g, bulk_load demo_hash false demo_store demo_triples demo_triples = .ok g →
      get_edges_local demo_hash g 131072 OUT TYPE_ID = .ok (1, some [2]) ∧
      get_edges_local demo_hash g 0 IN 2 = .ok (1, some [131072]) ∧
      get_edges_local demo_hash g 131072 OUT 3 = .ok (1, some [131073]) ∧
      get_edges_local demo_hash g 131073 IN 3 = .ok (1, some [131072]) ∧
      get_edges_local demo_hash g 0 OUT 3 = .ok (1, some [131073]) ∧
      get_edges_local demo_hash g 0 IN 3 = .ok (1, some [131072]) :=
  minimal_graph_lookups demo_hash false demo_store demo_config

/-- The run that refutes C3 as stated: on the minimal graph the lookup of
`(0, p, OUT)` gives `[o] = [131073]`, not `[s] = [131072]`, and the lookup of
`(0, p, IN)` gives `[s]`, not `[o]`. -/
theorem minimal_graph_predicate_index :
    lookup demo_hash (bulk_load demo_hash false demo_store demo_triples demo_triples)
      0 3 OUT = .ok (1, some [131073]) ∧
    lookup demo_hash (bulk_load demo_hash false demo_store demo_triples demo_triples)
      0 3 OUT ≠ .ok (1, some [131072]) ∧
    lookup demo_hash (bulk_load demo_hash false demo_store demo_triples demo_triples)
      0 3 IN = .ok (1, some [131072]) ∧
    lookup demo_hash (bulk_load demo_hash false demo_store demo_triples demo_triples)
      0 3 IN ≠ .ok (1, some [131073]) :=
  ⟨by decide, by decide, by decide, by decide⟩



/-- C6: re-inserting a triple online with dedup requested is a no-op.  In every
store reached from a refreshed store by online calls, if the list under
`(s, p, OUT)` holds `o`, then `insert_triple_out((s, p, o), true)` returns and
leaves the whole state as it was; if the list under `(o, p, IN)` holds `s`, so
does `insert_triple_in((s, p, o), true)`; and `insert_triple_in` of a type
triple never changes anything.  Stated on outcomes: the calls followed by the
re-insertion give the outcome of the calls alone. -/
theorem reinsert_is_noop {σ : Type} (E : DynEnv σ) (hash_u64 : Nat → Nat) (versatile : Bool)
    (g0 : GStore) (heap : σ) (cfg : Config g0) (calls : List Call) (T : triple_t) :
    (∀ n l, dlookup hash_u64 (online E hash_u64 versatile g0 heap calls) T.s T.p OUT
        = .ok (n, some l) → T.o ∈ l →
      ((online E hash_u64 versatile g0 heap calls).bind fun st =>
        insert_triple_out E hash_u64 versatile st T true)
        = online E hash_u64 versatile g0 heap calls) ∧
    (∀ n l, dlookup hash_u64 (online E hash_u64 versatile g0 heap calls) T.o T.p IN
        = .ok (n, some l) → T.s ∈ l →
      ((online E hash_u64 versatile g0 heap calls).bind fun st =>
        insert_triple_in E hash_u64 versatile st T true)
        = online E hash_u64 versatile g0 heap calls) ∧
    (T.p = TYPE_ID →
      ((online E hash_u64 versatile g0 heap calls).bind fun st =>
        insert_triple_in E hash_u64 versatile st T true)
        = online E hash_u64 versatile g0 heap calls) := by
  cases hrun : online E hash_u64 versatile g0 heap calls with
  | nofuel => exact ⟨(fun _ _ h => nomatch h), (fun _ _ h => nomatch h), (fun _ => rfl)⟩
  | abort => exact ⟨(fun _ _ h => nomatch h), (fun _ _ h => nomatch h), (fun _ => rfl)⟩
  | ok st =>
    have wf : WF hash_u64 st.g := run_calls_wf cfg hrun
    simp only [dlookup, Outcome.bind]
    refine ⟨fun n l h hv => ?_, fun n l h hv => ?_, fun hp => ?_⟩
    · obtain ⟨hmk, hins⟩ := insert_vertex_edge_dup E wf h hv
      simp only [insert_triple_out]
      by_cases c0 : T.p = TYPE_ID
      · rw [if_pos c0]
        simp only [hmk, Outcome.bind, hins, Bool.false_and, Bool.false_eq_true, if_false,
          Bool.not_true]
      · rw [if_neg c0]
        simp only [hmk, Outcome.bind, hins, Bool.false_eq_true, if_false]
    · obtain ⟨hmk, hins⟩ := insert_vertex_edge_dup E wf h hv
      simp only [insert_triple_in]
      by_cases c0 : T.p = TYPE_ID
      · rw [if_pos c0]
      · rw [if_neg c0]
        simp only [hmk, Outcome.bind, hins, Bool.false_eq_true, if_false]
    · simp only [insert_triple_in]
      rw [if_pos hp]

theorem reinsert_is_noop_witness :
    Config demo_store ∧
    dlookup demo_hash (online demo_env demo_hash false demo_store 0 demo_calls)
      131072 3 OUT = .ok (1, some [131073]) ∧
    ((online demo_env demo_hash false demo_store 0 demo_calls).bind fun st =>
      insert_triple_out demo_env demo_hash false st ⟨131072, 3, 131073⟩ true)
      = online demo_env demo_hash false demo_store 0 demo_calls ∧
    dlookup demo_hash (online demo_env demo_hash false demo_store 0 demo_calls)
      131073 3 IN = .ok (1, some [131072]) ∧
    ((online demo_env demo_hash false demo_store 0 demo_calls).bind fun st =>
      insert_triple_in demo_env demo_hash false st ⟨131072, 3, 131073⟩ true)
      = online demo_env demo_hash false demo_store 0 demo_calls :=
  ⟨demo_config, by decide,
    (reinsert_is_noop demo_env demo_hash false demo_store 0 demo_config demo_calls
      ⟨131072, 3, 131073⟩).1 1 [131073] (by decide) (by decide),
    by decide,
    (reinsert_is_noop demo_env demo_hash false demo_store 0 demo_config demo_calls
      ⟨131072, 3, 131073⟩).2.1 1 [131072] (by decide) (by decide)⟩

/-- C5, where the two paths part: in a `VERSATILE` build, for the single type
triple `(131072, TYPE_ID, 2)`, the bulk load (here with the static allocator)
lists `TYPE_ID` under `(0, PREDICATE_ID, OUT)`, while after the online calls
`insert_triple_out` and `insert_triple_in` of the same triple that key does not
exist.  The keys `(131072, TYPE_ID, OUT)`, `(0, 2, IN)`,
`(131072, PREDICATE_ID, OUT)`, `(0, TYPE_ID, IN)` and `(0, TYPE_ID, OUT)` hold
the same lists on both sides. -/
theorem bulk_online_predicate_set :
    lookup demo_hash (bulk_load demo_hash true demo_store [⟨131072, 1, 2⟩] [⟨131072, 1, 2⟩])
      0 PREDICATE_ID OUT = .ok (1, some [TYPE_ID]) ∧
    dlookup demo_hash (online demo_env demo_hash true demo_store 0
      [⟨true, ⟨131072, 1, 2⟩, true⟩, ⟨false, ⟨131072, 1, 2⟩, true⟩])
      0 PREDICATE_ID OUT = .ok (0, none) ∧
    (∀ k, k ∈ [(131072, TYPE_ID, OUT), (0, 2, IN), (131072, PREDICATE_ID, OUT),
        (0, TYPE_ID, IN), (0, TYPE_ID, OUT)] →
      lookup demo_hash (bulk_load demo_hash true demo_store [⟨131072, 1, 2⟩] [⟨131072, 1, 2⟩])
        k.1 k.2.1 k.2.2
      = dlookup demo_hash (online demo_env demo_hash true demo_store 0
          [⟨true, ⟨131072, 1, 2⟩, true⟩, ⟨false, ⟨131072, 1, 2⟩, true⟩]) k.1 k.2.1 k.2.2) :=
  ⟨by decide, by decide, by decide⟩

/-- C7: no value list contains duplicates.  With an edge allocator that keeps
its blocks apart (`Malloc_OK`), in every store reached from the empty store by
calls of `insert_triple_out` and `insert_triple_in` with `check_dup = true`, on
triples that follow the encoding rules and whose type ids are not predicate
ids, the value list that `get_edges_local` returns for any key holds no value
twice; this covers the derived lists `(0, p, IN)`, `(0, p, OUT)` and
`(0, t, IN)`, which are appended to without a dedup scan. -/
theorem value_lists_nodup {σ : Type} (E : DynEnv σ) (blocks : σ → List (Nat × Nat))
    (ok : Malloc_OK E blocks) (hash_u64 : Nat → Nat) (versatile : Bool) (g0 : GStore)
    (cfg : Config g0) (heap : σ) (hheap : blocks heap = []) (calls : List Call)
    (hdup : ∀ c, c ∈ calls → c.check_dup = true)
    (hwf : ∀ c, c ∈ calls → c.triple.wellformed)
    (hap : TypesApart (calls.map Call.triple)) (vid pid d n : Nat) (l : List Nat)
    (h : dlookup hash_u64 (online E hash_u64 versatile g0 heap calls) vid pid d
      = .ok (n, some l)) :
    l.Nodup := by
  obtain ⟨st, hrun, hget⟩ := Outcome.bind_ok h
  obtain ⟨wf, hnd⟩ := online_vals_nodup ok hash_u64 versatile cfg hheap hdup hwf hap hrun
  obtain ⟨_, hk, c, j, hc, hj, hkey, _, hl⟩ := get_edges_local_inv wf hget
  have e := vals_occ wf hk hc hj hkey
  rw [GStore.list_at, ← hl] at e
  rw [← e]
  exact hnd _

theorem value_lists_nodup_witness :
    Malloc_OK block_env id ∧ Config demo_store ∧
    (∀ c, c ∈ demo_dedup_calls → c.check_dup = true) ∧
    (∀ c, c ∈ demo_dedup_calls → c.triple.wellformed) ∧
    TypesApart (demo_dedup_calls.map Call.triple) ∧
    dlookup demo_hash (online block_env demo_hash true demo_store [] demo_dedup_calls)
      131072 PREDICATE_ID OUT = .ok (2, some [TYPE_ID, 3]) ∧
    [TYPE_ID, 3].Nodup :=
  have h1 : ∀ c, c ∈ demo_dedup_calls → c.check_dup = true := by decide
  have h2 : ∀ c, c ∈ demo_dedup_calls → c.triple.wellformed := by
    intro c hc
    simp only [demo_dedup_calls, List.mem_cons, List.mem_singleton, List.not_mem_nil,
      or_false] at hc
    rcases hc with rfl | rfl | rfl | rfl <;> (simp only [triple_t.wellformed]; decide)
  have h3 : TypesApart (demo_dedup_calls.map Call.triple) := by
    intro t1 t2 m1 m2
    simp only [demo_dedup_calls, List.map, List.mem_cons, List.mem_singleton,
      List.not_mem_nil, or_false] at m1 m2
    rcases m1 with rfl | rfl | rfl | rfl <;> rcases m2 with rfl | rfl | rfl | rfl <;> decide
  have h4 : dlookup demo_hash
      (online block_env demo_hash true demo_store [] demo_dedup_calls)
      131072 PREDICATE_ID OUT = .ok (2, some [TYPE_ID, 3]) := by decide
  ⟨block_malloc_ok, demo_config, h1, h2, h3, h4,
    value_lists_nodup block_env id block_malloc_ok demo_hash true demo_store demo_config []
      rfl demo_dedup_calls h1 h2 h3 131072 PREDICATE_ID OUT 2 [TYPE_ID, 3] h4⟩

/-- C13: key construction never truncates silently.  `ikey_t(v, p, d)` returns
iff `v < 2^46`, `p < 2^17` and `d` is `IN` or `OUT`, and the key it returns has
the fields `(v, p, d)`; on any other input, such as `d = CORUN`, its assertion
fails.  Likewise `iptr_t(s, o, t)` returns iff `s < 2^28`, `o < 2^34` and
`t < 4`, with the fields `(s, o, t)`, and fails its assertion otherwise. -/
theorem key_construction_checked (v p d s o t : Nat) :
    ((∃ k, ikey_t.make v p d = .ok k) ↔ (v < 2 ^ 46 ∧ p < 2 ^ 17 ∧ (d = IN ∨ d = OUT))) ∧
    (∀ k, ikey_t.make v p d = .ok k → k.vid = v ∧ k.pid = p ∧ k.dir = d) ∧
    (¬ (v < 2 ^ 46 ∧ p < 2 ^ 17 ∧ (d = IN ∨ d = OUT)) → ikey_t.make v p d = .abort) ∧
    ((∃ q, iptr_t.make s o t = .ok q) ↔ (s < 2 ^ 28 ∧ o < 2 ^ 34 ∧ t < 4)) ∧
    (∀ q, iptr_t.make s o t = .ok q → q.size = s ∧ q.off = o ∧ q.type = t) ∧
    (¬ (s < 2 ^ 28 ∧ o < 2 ^ 34 ∧ t < 4) → iptr_t.make s o t = .abort) := by
  have hk : (v < 2 ^ 46 ∧ p < 2 ^ 17 ∧ (d = IN ∨ d = OUT)) ↔
      (v < 2 ^ NBITS_VID ∧ p < 2 ^ NBITS_IDX ∧ d < 2 ^ NBITS_DIR) := by
    have e1 : NBITS_VID = 46 := by decide
    have e2 : NBITS_IDX = 17 := by decide
    have e3 : (2 : Nat) ^ NBITS_DIR = 2 := by decide
    rw [e1, e2, e3]
    simp only [IN, OUT]
    constructor
    · rintro ⟨a, b, c⟩
      exact ⟨a, b, by omega⟩
    · rintro ⟨a, b, c⟩
      exact ⟨a, b, by omega⟩
  have hp : (s < 2 ^ 28 ∧ o < 2 ^ 34 ∧ t < 4) ↔
      (s < 2 ^ NBITS_SIZE ∧ o < 2 ^ NBITS_PTR ∧ t < 2 ^ NBITS_TYPE) := Iff.rfl
  refine ⟨?_, ?_, ?_, ?_, ?_, ?_⟩
  · rw [hk]
    constructor
    · rintro ⟨k, h⟩
      have := ikey_make_inv h
      subst this
      exact (ikey_make_iff v p d).1 h
    · intro h
      exact ⟨_, (ikey_make_iff v p d).2 h⟩
  · intro k h
    have := ikey_make_inv h
    subst this
    exact ⟨rfl, rfl, rfl⟩
  · rw [hk]
    exact ikey_make_abort
  · rw [hp]
    constructor
    · rintro ⟨q, h⟩
      by_contra hc
      rw [iptr_make_abort hc] at h
      exact nomatch h
    · rintro ⟨a, b, c⟩
      exact ⟨_, iptr_make_full a b c⟩
  · intro q h
    by_cases hc : s < 2 ^ NBITS_SIZE ∧ o < 2 ^ NBITS_PTR ∧ t < 2 ^ NBITS_TYPE
    · rw [iptr_make_full hc.1 hc.2.1 hc.2.2] at h
      injection h with h
      subst h
      exact ⟨rfl, rfl, rfl⟩
    · rw [iptr_make_abort hc] at h
      exact nomatch h
  · rw [hp]
    exact iptr_make_abort

theorem key_construction_checked_witness :
    ikey_t.make 131072 3 OUT = .ok ⟨131072, 3, OUT⟩ ∧
    ikey_t.make 131072 (2 ^ 17) OUT = .abort ∧ ikey_t.make 131072 3 CORUN = .abort ∧
    iptr_t.make 3 40 0 = .ok ⟨3, 40, 0⟩ ∧ iptr_t.make (2 ^ 28) 40 0 = .abort :=
  ⟨by decide,
    (key_construction_checked 131072 (2 ^ 17) OUT 3 40 0).2.2.1 (by decide),
    (key_construction_checked 131072 3 CORUN (2 ^ 28) 40 0).2.2.1 (by decide),
    by decide,
    (key_construction_checked 131072 3 CORUN (2 ^ 28) 40 0).2.2.2.2.2 (by decide)⟩

/-- C14: key equality and hash.  `a == b` holds iff `vid`, `pid` and `dir` all
match.  For keys whose fields are bit-field values, the word that `hash()`
builds in 64-bit arithmetic is `vid * 2^18 + pid * 2 + dir`, below `2^64`, and
two such keys with the same word are the same key.  `hash()` is `hash_u64` of
that word, so equal keys have equal hashes. -/
theorem key_equality_and_hash (hash_u64 : Nat → Nat) (a b : ikey_t) :
    (a.eq b = true ↔ (a.vid = b.vid ∧ a.pid = b.pid ∧ a.dir = b.dir)) ∧
    (a.fits → a.packed = a.vid * 2 ^ 18 + a.pid * 2 + a.dir ∧ a.packed < 2 ^ 64) ∧
    (a.fits → b.fits → (a.packed = b.packed ↔ a = b)) ∧
    a.hash hash_u64 = hash_u64 a.packed ∧
    (a.eq b = true → a.hash hash_u64 = b.hash hash_u64) := by
  have heq : a.eq b = true ↔ (a.vid = b.vid ∧ a.pid = b.pid ∧ a.dir = b.dir) := by
    simp only [ikey_t.eq]
    split_ifs with h
    · exact ⟨fun _ => h, fun _ => rfl⟩
    · exact ⟨fun h2 => h2.elim, fun h2 => absurd h2 h⟩
  refine ⟨heq, packed_eq, ?_, rfl, ?_⟩
  · intro ha hb
    constructor
    · intro h
      rw [(packed_eq ha).1, (packed_eq hb).1] at h
      obtain ⟨a1, a2, a3⟩ := ha
      obtain ⟨b1, b2, b3⟩ := hb
      have e2 : (2 : Nat) ^ NBITS_IDX = 131072 := by decide
      have e3 : (2 : Nat) ^ NBITS_DIR = 2 := by decide
      have e5 : (2 : Nat) ^ 18 = 262144 := by norm_num
      rw [e2] at a2 b2
      rw [e3] at a3 b3
      rw [e5] at h
      cases a with
      | mk av ap ad =>
        cases b with
        | mk bv bp bd =>
          simp only at a2 a3 b2 b3 h
          simp only [ikey_t.mk.injEq]
          omega
    · intro h
      rw [h]
  · intro h
    obtain ⟨h1, h2, h3⟩ := heq.1 h
    cases a with
    | mk av ap ad =>
      cases b with
      | mk bv bp bd =>
        simp only at h1 h2 h3
        subst h1 h2 h3
        rfl

theorem key_equality_and_hash_witness :
    (⟨131072, 3, OUT⟩ : ikey_t).fits ∧
    (⟨131072, 3, OUT⟩ : ikey_t).packed = 131072 * 2 ^ 18 + 3 * 2 + OUT ∧
    (⟨131072, 3, OUT⟩ : ikey_t).packed < 2 ^ 64 :=
  have h : (⟨131072, 3, OUT⟩ : ikey_t).fits := by
    simp only [ikey_t.fits]
    decide
  ⟨h, (key_equality_and_hash demo_hash ⟨131072, 3, OUT⟩ ⟨131072, 3, OUT⟩).2.1 h⟩

/-- C15, where it fails: with the cursor at 5 of 1000 entries, a request of
`2^64 - 1` edges wraps the 64-bit cursor; `5 + (2^64 - 1)` is not below
`num_entries`, yet the call returns 5 and leaves the cursor at 4, below where
it was. -/
theorem static_alloc_wraps :
    ¬ (5 + (2 ^ 64 - 1) < ({ demo_store with last_entry := 5 } : GStore).num_entries) ∧
    alloc_cursor { demo_store with last_entry := 5 } (2 ^ 64 - 1) = .ok (5, 4) := by
  decide

/-- C15: the static `alloc_edges` is a bump allocator.  For a request that does
not wrap the 64-bit cursor, `alloc_edges(n)` returns the cursor `last_entry` and
leaves it at `last_entry + n`, changing nothing else; it returns iff
`last_entry + n < num_entries` and fails its assertion otherwise; the cursor
does not decrease. -/
theorem static_alloc_bump (g : GStore) (n : Nat) (hw : g.last_entry + n < 2 ^ 64) :
    (g.last_entry + n < g.num_entries →
      alloc_edges g n = .ok (g.last_entry, { g with last_entry := g.last_entry + n })) ∧
    (g.num_entries ≤ g.last_entry + n → alloc_edges g n = .abort) ∧
    ((∃ r, alloc_edges g n = .ok r) ↔ g.last_entry + n < g.num_entries) ∧
    (∀ r, alloc_edges g n = .ok r → g.last_entry ≤ r.2.last_entry) := by
  have h1 : g.last_entry + n < g.num_entries →
      alloc_edges g n = .ok (g.last_entry, { g with last_entry := g.last_entry + n }) := by
    intro h
    simp only [alloc_edges, Nat.mod_eq_of_lt hw, ge_iff_le]
    rw [if_neg (by omega)]
  have h2 : g.num_entries ≤ g.last_entry + n → alloc_edges g n = .abort := by
    intro h
    simp only [alloc_edges, Nat.mod_eq_of_lt hw, ge_iff_le]
    rw [if_pos h]
  refine ⟨h1, h2, ?_, ?_⟩
  · constructor
    · rintro ⟨r, hr⟩
      by_contra hc
      rw [h2 (by omega)] at hr
      exact nomatch hr
    · intro h
      exact ⟨_, h1 h⟩
  · intro r hr
    by_cases hc : g.last_entry + n < g.num_entries
    · rw [h1 hc] at hr
      injection hr with hr
      subst hr
      exact Nat.le_add_right _ _
    · rw [h2 (by omega)] at hr
      exact nomatch hr

theorem static_alloc_bump_witness :
    (refresh demo_store).last_entry + 3 < 2 ^ 64 ∧
    alloc_cursor (refresh demo_store) 3 = .ok (0, 3) ∧
    ((∃ r, alloc_edges (refresh demo_store) 3 = .ok r) ↔
      (refresh demo_store).last_entry + 3 < (refresh demo_store).num_entries) :=
  ⟨by decide, by decide,
    (static_alloc_bump (refresh demo_store) 3 (by decide)).2.2.1⟩

/-- C12: store-full is the only capacity failure of `insert_key`.  In a store
reached from `refresh()` by `insert_key` calls, take a key that is absent and
whose bucket chain has every data slot occupied.  The chain ends in a bucket
with an empty chain link, and `insert_key` fails its assertion iff
`last_ext >= num_buckets_ext`; otherwise it returns the first slot of bucket
`num_buckets + last_ext`, having stored that bucket id in the chain link,
incremented `last_ext` by one and put the key in that slot, with every other
slot as it was. -/
theorem store_full_only_failure (hash_u64 : Nat → Nat) (g0 g : GStore)
    (log : List (ikey_t × Nat)) (cfg : Config g0) (t : Trace hash_u64 g0 log g)
    (k : ikey_t) (check_dup : Bool) (habsent : g.lacks k)
    (hfull : ∀ c, OnChain g (home hash_u64 g k) c → ∀ j, j < ASSOCIATIVITY - 1 →
      g.key_at c j ≠ ikey_t.zero) :
    (insert_key hash_u64 g k check_dup = .abort ↔ g.num_buckets_ext ≤ g.last_ext) ∧
    (g.last_ext < g.num_buckets_ext →
      ∃ c, OnChain g (home hash_u64 g k) c ∧ g.link c = ikey_t.zero ∧
      ∃ g2, insert_key hash_u64 g k check_dup
          = .ok ((g.num_buckets + g.last_ext) * ASSOCIATIVITY, g2) ∧
        g2.last_ext = g.last_ext + 1 ∧
        g2.link c = ⟨g.num_buckets + g.last_ext, 0, 0⟩ ∧
        g2.key_at (g.num_buckets + g.last_ext) 0 = k ∧
        ∀ b i, b * ASSOCIATIVITY + i ≠ (g.num_buckets + g.last_ext) * ASSOCIATIVITY →
          b * ASSOCIATIVITY + i ≠ c * ASSOCIATIVITY + (ASSOCIATIVITY - 1) →
          g2.key_at b i = g.key_at b i) := by
  have wf := t.wf cfg
  have hspec := insert_key_spec wf k check_dup
  generalize hr : insert_key hash_u64 g k check_dup = r at hspec
  cases hspec with
  | dup_abort c j _ hc hj hk => exact absurd hk (habsent c j hc hj)
  | found c j _ hc hj hk => exact absurd hk (habsent c j hc hj)
  | fill c j hc hj hz _ _ _ hch => exact absurd hz (hfull c hch j hj)
  | full_abort c hc hch hl hf hroom _ =>
    exact ⟨⟨fun _ => hroom, fun _ => rfl⟩, fun h => absurd hroom (Nat.not_le.2 h)⟩
  | grow c hc hch hl hf hroom _ =>
    refine ⟨⟨fun h => Outcome.noConfusion h, fun h => absurd hroom (Nat.not_lt.2 h)⟩, fun _ => ?_⟩
    refine ⟨c, hch, hl, (g.alloc_ext (c * ASSOCIATIVITY + (ASSOCIATIVITY - 1)) k).2, ?_, ?_, ?_,
      ?_, ?_⟩
    · have := alloc_ext_fst wf hroom (c * ASSOCIATIVITY + (ASSOCIATIVITY - 1)) k
      exact congrArg Outcome.ok (Prod.ext this rfl)
    · rfl
    · have := alloc_ext_key_at wf hroom hl k c (ASSOCIATIVITY - 1)
      simp only [GStore.link]
      rw [this, if_neg, if_pos rfl]
      · rfl
      · intro e
        have := (slot_inj (by decide) (by decide)
          (e.trans (Nat.add_zero _).symm)).2
        exact absurd this (by decide)
    · have := alloc_ext_key_at wf hroom hl k (g.num_buckets + g.last_ext) 0
      rw [this, if_pos]
      rfl
    · intro b i h1 h2
      have hu : g.used = g.num_buckets + g.last_ext := rfl
      rw [alloc_ext_key_at wf hroom hl k b i, hu, if_neg h1, if_neg h2]

/-- C11, where it fails: sixteen distinct keys of one main bucket, inserted into
the freshly refreshed demo store, leave `last_ext` at 2, not at 1.  A bucket has
seven data slots, so the chain needs a third bucket for keys fifteen and
sixteen. -/
theorem chain_overflow_two_buckets :
    demo_chain_keys.length = 2 * ASSOCIATIVITY ∧ demo_chain_keys.Nodup ∧
    (∀ k, k ∈ demo_chain_keys → home demo_hash (refresh demo_store) k = 0) ∧
    (refresh demo_store).last_ext = 0 ∧
    ((insert_keys demo_hash (refresh demo_store) demo_chain_keys).bind
      fun g => .ok g.last_ext) = .ok 2 := by
  decide

/-- C11: the chain-overflow scenario.  Sixteen distinct non-empty keys that all
hash to the same main bucket are inserted into a freshly refreshed store with
at least two indirect buckets.  All the inserts return; `last_ext` starts at 0
and is `(n - 1) / 7` after the first `n` keys, so the eighth key allocates the
second bucket of the chain (count 1) and the fifteenth a third (count 2, the
final value); after every prefix each key inserted so far is retrieved by
`get_vertex_local`. -/
theorem chain_overflow (hash_u64 : Nat → Nat) (g0 : GStore) (cfg : Config g0)
    (hext : 2 ≤ g0.num_buckets_ext) (keys : List ikey_t)
    (hlen : keys.length = 2 * ASSOCIATIVITY) (hnd : keys.Nodup)
    (hnz : ∀ k, k ∈ keys → k ≠ ikey_t.zero) (b : Nat)
    (hhome : ∀ k, k ∈ keys → home hash_u64 (refresh g0) k = b) :
    (refresh g0).last_ext = 0 ∧
    (∃ g, insert_keys hash_u64 (refresh g0) keys = .ok g ∧ g.last_ext = 2 ∧
      ∀ k, k ∈ keys → ∃ v, get_vertex_local hash_u64 g k = .ok v ∧ v.key = k) ∧
    ∀ n, n ≤ 2 * ASSOCIATIVITY →
      ∃ g, insert_keys hash_u64 (refresh g0) (keys.take n) = .ok g ∧
        g.last_ext = (n - 1) / 7 ∧
        ∀ k, k ∈ keys.take n → ∃ v, get_vertex_local hash_u64 g k = .ok v ∧ v.key = k := by
  have h16 : keys.length = 16 := hlen
  have hb : b < g0.num_buckets := by
    cases keys with
    | nil => exact absurd h16 (by decide)
    | cons k ks =>
      rw [← hhome k (List.mem_cons_self _ _)]
      exact Nat.mod_lt _ cfg.nb_pos
  have F0 := Filled.at_refresh hash_u64 cfg hb
  have hpre : ∀ n, n ≤ 16 →
      ∃ g, insert_keys hash_u64 (refresh g0) (keys.take n) = .ok g ∧
        g.last_ext = (n - 1) / 7 ∧
        ∀ k, k ∈ keys.take n → ∃ v, get_vertex_local hash_u64 g k = .ok v ∧ v.key = k := by
    intro n hn
    have htl : (keys.take n).length = n := by
      rw [List.length_take, h16]
      omega
    obtain ⟨g, hrun, F⟩ := insert_keys_filled (keys.take n) F0
      (by
        rw [List.nil_append]
        exact hnd.sublist (List.take_sublist _ _))
      (fun k hk => hnz k (List.mem_of_mem_take hk))
      (fun k hk => hhome k (List.mem_of_mem_take hk))
      (by
        rw [htl]
        have : (refresh g0).num_buckets_ext = g0.num_buckets_ext := rfl
        rw [this, List.length_nil]
        omega)
    rw [List.nil_append] at F
    refine ⟨g, hrun, ?_, fun k hk => F.retrieve hk⟩
    rw [F.ext, htl]
  refine ⟨rfl, ?_, hpre⟩
  obtain ⟨g, hrun, he, hget⟩ := hpre 16 (le_refl _)
  have ht : keys.take 16 = keys := by
    rw [← h16]
    exact List.take_length _
  rw [ht] at hrun hget
  exact ⟨g, hrun, he, hget⟩

theorem chain_overflow_witness :
    Config demo_store ∧ 2 ≤ demo_store.num_buckets_ext ∧
    demo_chain_keys.length = 2 * ASSOCIATIVITY ∧ demo_chain_keys.Nodup ∧
    (∀ k, k ∈ demo_chain_keys → k ≠ ikey_t.zero) ∧
    (∀ k, k ∈ demo_chain_keys → home demo_hash (refresh demo_store) k = 0) ∧
    ∃ g, insert_keys demo_hash (refresh demo_store) demo_chain_keys = .ok g ∧
      g.last_ext = 2 ∧
      ∀ k, k ∈ demo_chain_keys → ∃ v, get_vertex_local demo_hash g k = .ok v ∧ v.key = k :=
  have h1 : demo_chain_keys.length = 2 * ASSOCIATIVITY := by decide
  have h2 : demo_chain_keys.Nodup := by decide
  have h3 : ∀ k, k ∈ demo_chain_keys → k ≠ ikey_t.zero := by decide
  have h4 : ∀ k, k ∈ demo_chain_keys → home demo_hash (refresh demo_store) k = 0 := by decide
  ⟨demo_config, by decide, h1, h2, h3, h4,
    (chain_overflow demo_hash demo_store demo_config (by decide) demo_chain_keys h1 h2 h3 0
      h4).2.1⟩

theorem store_full_only_failure_witness :
    (insert_key demo_hash demo_full_store ⟨131107, 3, OUT⟩ true = .abort ↔
      demo_full_store.num_buckets_ext ≤ demo_full_store.last_ext) ∧
    (demo_full_store.last_ext < demo_full_store.num_buckets_ext →
      ∃ c, OnChain demo_full_store (home demo_hash demo_full_store ⟨131107, 3, OUT⟩) c ∧
      demo_full_store.link c = ikey_t.zero ∧
      ∃ g2, insert_key demo_hash demo_full_store ⟨131107, 3, OUT⟩ true
          = .ok ((demo_full_store.num_buckets + demo_full_store.last_ext) * ASSOCIATIVITY, g2) ∧
        g2.last_ext = demo_full_store.last_ext + 1 ∧
        g2.link c = ⟨demo_full_store.num_buckets + demo_full_store.last_ext, 0, 0⟩ ∧
        g2.key_at (demo_full_store.num_buckets + demo_full_store.last_ext) 0
          = ⟨131107, 3, OUT⟩ ∧
        ∀ b i, b * ASSOCIATIVITY + i
            ≠ (demo_full_store.num_buckets + demo_full_store.last_ext) * ASSOCIATIVITY →
          b * ASSOCIATIVITY + i ≠ c * ASSOCIATIVITY + (ASSOCIATIVITY - 1) →
          g2.key_at b i = demo_full_store.key_at b i) := by
  have hret : (insert_keys demo_hash (refresh demo_store) (demo_chain_keys.take 7)).returns
      = true := by decide
  have hrun : insert_keys demo_hash (refresh demo_store) (demo_chain_keys.take 7)
      = .ok demo_full_store := Outcome.ok_get hret (refresh demo_store)
  obtain ⟨log, t⟩ := insert_keys_trace (demo_chain_keys.take 7) Trace.init hrun
  have hb : (0 : Nat) < demo_store.num_buckets := by decide
  obtain ⟨g, hrun2, F⟩ := insert_keys_filled (demo_chain_keys.take 7)
    (Filled.at_refresh demo_hash demo_config hb) (by decide) (by decide) (by decide) (by decide)
  rw [hrun] at hrun2
  injection hrun2 with hrun2
  subst hrun2
  rw [List.nil_append] at F
  have hh : home demo_hash demo_full_store ⟨131107, 3, OUT⟩ = 0 := by decide
  exact store_full_only_failure demo_hash demo_store demo_full_store log demo_config t
    ⟨131107, 3, OUT⟩ true (F.lacks_new (by decide) (by decide))
    (fun c hch j hj => F.chain_full (by decide) (hh ▸ hch) hj)

/-- C16: the edge heap does not alias after a bulk load.  In the static build,
whenever `refresh()`, `insert_normal` and `insert_index` return, the value
pointer of every occupied slot designates a range `[off, off + size)` below the
cursor `last_entry`, which is below `num_entries`, and the ranges of two
different occupied slots are disjoint. -/
theorem edge_heap_no_alias (hash_u64 : Nat → Nat) (versatile : Bool) (g0 : GStore)
    (spo ops : List triple_t) (cfg : Config g0) (g : GStore)
    (h : bulk_load hash_u64 versatile g0 spo ops = .ok g) :
    (∀ b j, b < g.num_buckets + g.num_buckets_ext → j < ASSOCIATIVITY - 1 →
      g.key_at b j ≠ ikey_t.zero →
      (g.vertices (b * ASSOCIATIVITY + j)).ptr.off + (g.vertices (b * ASSOCIATIVITY + j)).ptr.size
        ≤ g.last_entry ∧ g.last_entry < g.num_entries) ∧
    ∀ b j c i, b < g.num_buckets + g.num_buckets_ext → c < g.num_buckets + g.num_buckets_ext →
      j < ASSOCIATIVITY - 1 → i < ASSOCIATIVITY - 1 →
      g.key_at b j ≠ ikey_t.zero → g.key_at c i ≠ ikey_t.zero →
      b * ASSOCIATIVITY + j ≠ c * ASSOCIATIVITY + i →
      (g.vertices (b * ASSOCIATIVITY + j)).ptr.off + (g.vertices (b * ASSOCIATIVITY + j)).ptr.size
          ≤ (g.vertices (c * ASSOCIATIVITY + i)).ptr.off ∨
        (g.vertices (c * ASSOCIATIVITY + i)).ptr.off
          + (g.vertices (c * ASSOCIATIVITY + i)).ptr.size
          ≤ (g.vertices (b * ASSOCIATIVITY + j)).ptr.off := by
  obtain ⟨wf, na⟩ := bulk_load_no_alias cfg h
  have hocc : ∀ b j, b < g.num_buckets + g.num_buckets_ext → j < ASSOCIATIVITY - 1 →
      g.key_at b j ≠ ikey_t.zero → g.Occ (b * ASSOCIATIVITY + j) :=
    fun b j hb hj hne => ⟨b, j, wf.lacks_of_unused hb hj hne, hj, rfl, hne⟩
  exact ⟨fun b j hb hj hne => na.inside _ (hocc b j hb hj hne),
    fun b j c i hb hc hj hi h1 h2 hd => na.apart _ _ (hocc b j hb hj h1) (hocc c i hc hi h2) hd⟩

theorem edge_heap_no_alias_witness :
    Config demo_store ∧
    bulk_load demo_hash true demo_store demo_triples demo_triples = .ok demo_loaded ∧
    demo_loaded.key_at 1 0 = ⟨131072, 1, OUT⟩ ∧ demo_loaded.key_at 1 1 = ⟨0, 3, IN⟩ ∧
    ((demo_loaded.vertices (1 * ASSOCIATIVITY + 0)).ptr.off
        + (demo_loaded.vertices (1 * ASSOCIATIVITY + 0)).ptr.size
        ≤ (demo_loaded.vertices (1 * ASSOCIATIVITY + 1)).ptr.off ∨
      (demo_loaded.vertices (1 * ASSOCIATIVITY + 1)).ptr.off
        + (demo_loaded.vertices (1 * ASSOCIATIVITY + 1)).ptr.size
        ≤ (demo_loaded.vertices (1 * ASSOCIATIVITY + 0)).ptr.off) :=
  have hrun : bulk_load demo_hash true demo_store demo_triples demo_triples = .ok demo_loaded :=
    Outcome.ok_get (by decide) (refresh demo_store)
  ⟨demo_config, hrun, by decide, by decide,
    (edge_heap_no_alias demo_hash true demo_store demo_triples demo_triples demo_config
      demo_loaded hrun).2 1 0 1 1 (by decide) (by decide) (by decide) (by decide) (by decide)
      (by decide) (by decide)⟩

/-- C18: the size flag in the dynamic build.  The allocator keeps its blocks
apart (`Malloc_OK`) and its block sizes grow with the request, as the least
power-of-two classes do.  In every store reached from `refresh()` by calls of
`insert_vertex_edge`, every slot with a pointer of `size > 0` has
`edges[off + blksz(size + 1) - 1] = size`.  When a further value is appended in
place (`blksz(size + 1) - 1 >= size + 1`), the call returns, the flag stays in
the cell where it was and now holds `size + 1`, and the value goes into the
cell `off + size`, which is not the cell of the flag. -/
theorem size_tag_invariant {σ : Type} (E : DynEnv σ) (blocks : σ → List (Nat × Nat))
    (ok : Malloc_OK E blocks) (hmono : ∀ a b, a ≤ b → blksz E a ≤ blksz E b)
    (hash_u64 : Nat → Nat) (g0 : GStore) (cfg : Config g0) (heap : σ)
    (hheap : blocks heap = []) (st : DStore σ) (hst : Grown E hash_u64 g0 heap st) :
    (∀ c j, c < st.g.num_buckets + st.g.num_buckets_ext → j < ASSOCIATIVITY - 1 →
      0 < (st.g.vertices (c * ASSOCIATIVITY + j)).ptr.size →
      st.g.edges ((st.g.vertices (c * ASSOCIATIVITY + j)).ptr.off
        + blksz E ((st.g.vertices (c * ASSOCIATIVITY + j)).ptr.size + 1) - 1)
        = (st.g.vertices (c * ASSOCIATIVITY + j)).ptr.size) ∧
    ∀ c j key value d, c < st.g.used → j < ASSOCIATIVITY - 1 → key ≠ ikey_t.zero →
      st.g.key_at c j = key →
      (d && is_dup st.g (st.g.vertices (c * ASSOCIATIVITY + j)) value) = false →
      (st.g.vertices (c * ASSOCIATIVITY + j)).ptr.size + 1
        ≤ blksz E ((st.g.vertices (c * ASSOCIATIVITY + j)).ptr.size + 1) - 1 →
      blksz E ((st.g.vertices (c * ASSOCIATIVITY + j)).ptr.size + 1 + 1)
        = blksz E ((st.g.vertices (c * ASSOCIATIVITY + j)).ptr.size + 1) ∧
      (st.g.vertices (c * ASSOCIATIVITY + j)).ptr.off
          + (st.g.vertices (c * ASSOCIATIVITY + j)).ptr.size
        ≠ (st.g.vertices (c * ASSOCIATIVITY + j)).ptr.off
          + blksz E ((st.g.vertices (c * ASSOCIATIVITY + j)).ptr.size + 1) - 1 ∧
      ∃ st2, insert_vertex_edge E hash_u64 st key value d = .ok (false, false, st2) ∧
        (st2.g.vertices (c * ASSOCIATIVITY + j)).ptr =
          ⟨(st.g.vertices (c * ASSOCIATIVITY + j)).ptr.size + 1,
            (st.g.vertices (c * ASSOCIATIVITY + j)).ptr.off,
            (st.g.vertices (c * ASSOCIATIVITY + j)).ptr.type⟩ ∧
        st2.g.edges ((st.g.vertices (c * ASSOCIATIVITY + j)).ptr.off
          + blksz E ((st.g.vertices (c * ASSOCIATIVITY + j)).ptr.size + 1) - 1)
          = (st.g.vertices (c * ASSOCIATIVITY + j)).ptr.size + 1 ∧
        st2.g.edges ((st.g.vertices (c * ASSOCIATIVITY + j)).ptr.off
          + (st.g.vertices (c * ASSOCIATIVITY + j)).ptr.size) = value := by
  obtain ⟨inv, tg⟩ := hst.invariant ok cfg hheap
  have wf := inv.wf
  refine ⟨?_, ?_⟩
  · intro c j hc hj hpos
    have hne : st.g.key_at c j ≠ ikey_t.zero := by
      intro hz
      have := inv.blank c j hc hj hz
      omega
    exact tg _ ⟨c, j, wf.lacks_of_unused hc hj hne, hj, rfl, hne⟩
  · intro c j key value d hc hj hk e hnd hroom
    have hoc : st.g.Occ (c * ASSOCIATIVITY + j) := ⟨c, j, hc, hj, rfl, by rw [e]; exact hk⟩
    obtain ⟨hs0, hs1, len, hblk, hlen⟩ := inv.own _ hoc
    generalize hsz : (st.g.vertices (c * ASSOCIATIVITY + j)).ptr.size = size at *
    generalize hof : (st.g.vertices (c * ASSOCIATIVITY + j)).ptr.off = off at *
    have hstab := ok.blk_stable (size + 1) (size + 1 + 1) (by omega) (by omega)
    have hm := hmono (size + 1) (size + 1 + 1) (by omega)
    have hsmall := ok.blk_small (size + 1) (by omega)
    have heq : blksz E (size + 1 + 1) = blksz E (size + 1) := by omega
    have hmod : (size + 1) % 2 ^ NBITS_SIZE = size + 1 := Nat.mod_eq_of_lt (by omega)
    refine ⟨heq, by omega, ?_⟩
    have hins := insert_key_present wf hk hc hj e false
    simp only [Bool.false_eq_true, if_false] at hins
    simp only [insert_vertex_edge, hins, Outcome.bind, hsz, hof, hnd]
    rw [if_neg (by omega), if_neg (by simp), if_neg (by omega)]
    refine ⟨_, rfl, ?_, ?_, ?_⟩
    · simp only [set_ptr_ptr, if_true, hmod]
    · simp only [set_ptr_edges, set_edge_edges, insert_sz_edges, heq]
      rw [if_neg (by omega), if_pos trivial]
    · simp only [set_ptr_edges, set_edge_edges, if_true]

theorem size_tag_invariant_witness :
    Malloc_OK block_env id ∧ Config demo_store ∧
    Grown block_env demo_hash demo_store [] (demo_edges block_env 2) ∧
    (demo_edges block_env 2).g.key_at 0 0 = demo_key ∧
    ((demo_edges block_env 2).g.vertices (0 * ASSOCIATIVITY + 0)).ptr = ⟨2, 0, 0⟩ ∧
    blksz block_env (2 + 1) = 4 ∧
    (demo_edges block_env 2).g.edges
      (((demo_edges block_env 2).g.vertices (0 * ASSOCIATIVITY + 0)).ptr.off
        + blksz block_env
          (((demo_edges block_env 2).g.vertices (0 * ASSOCIATIVITY + 0)).ptr.size + 1) - 1)
      = ((demo_edges block_env 2).g.vertices (0 * ASSOCIATIVITY + 0)).ptr.size :=
  have hg : Grown block_env demo_hash demo_store [] (demo_edges block_env 2) :=
    demo_edges_grown block_env 2 (by decide)
  ⟨block_malloc_ok, demo_config, hg, by decide, by decide, by decide,
    (size_tag_invariant block_env id block_malloc_ok (block_blksz_mono rfl) demo_hash
      demo_store demo_config [] rfl (demo_edges block_env 2) hg).1 0 0 (by decide) (by decide)
      (by decide)⟩

/-- C17, where it fails: with `global_enable_caching` off, the fourth edge of a
key moves the list from its block of capacity 4 to a new block of capacity 8
and invalidates the old size flag, but the old block is freed at once:
`free_queue` stays empty and the old block is no longer allocated. -/
theorem grow_without_caching :
    block_env.global_enable_caching = false ∧
    ((vertex_edges block_env demo_hash (DStore.fresh demo_store []) (demo_edge_calls 3)).bind
      fun st => .ok (demo_report st)) = .ok (⟨3, 0, 0⟩, 3, 0, [(0, 4)]) ∧
    blksz block_env (3 + 1) - 1 < 3 + 1 ∧
    ((vertex_edges block_env demo_hash (DStore.fresh demo_store []) (demo_edge_calls 4)).bind
      fun st => .ok (demo_report st)) = .ok (⟨4, 4, 0⟩, INVALID_EDGES, 0, [(4, 8)]) :=
  ⟨by decide, by decide, by decide, by decide⟩

/-- C17: growth across a block boundary, with `global_enable_caching` on.  In a
consistent store of the dynamic build, let the key sit in a slot with pointer
`(n, off)`, let the value be no duplicate to skip, and let
`blksz(n + 1) - 1 < n + 1`.  When the allocator returns the block at byte
address `b` for `n + 2` edges (and the new pointer fits its bit-fields),
`insert_vertex_edge` returns false; `n > 0`; the new block is apart from the
blocks of all keys; it holds the `n` old edges followed by the value, with the
size flag `n + 1`; the flag of the old block is `INVALID_EDGES`; the old offset
is appended to `free_queue` with expiry `get_usec() + lease`; and the vertex has
the pointer `(n + 1, b2e(b))`. -/
theorem grow_across_block {σ : Type} (E : DynEnv σ) (blocks : σ → List (Nat × Nat))
    (ok : Malloc_OK E blocks) (hash_u64 : Nat → Nat) (st : DStore σ)
    (inv : DInv E blocks hash_u64 st) (hcache : E.global_enable_caching = true)
    (key : ikey_t) (hk : key ≠ ikey_t.zero) (c j : Nat) (hc : c < st.g.used)
    (hj : j < ASSOCIATIVITY - 1) (e : st.g.key_at c j = key) (value : Nat) (d : Bool)
    (n off : Nat) (hsz : (st.g.vertices (c * ASSOCIATIVITY + j)).ptr.size = n)
    (hof : (st.g.vertices (c * ASSOCIATIVITY + j)).ptr.off = off)
    (hnd : (d && is_dup st.g (st.g.vertices (c * ASSOCIATIVITY + j)) value) = false)
    (hgrow : blksz E (n + 1) - 1 < n + 1) (b : Nat) (heap2 : σ)
    (hm : E.edge_allocator.malloc (sweep_free E st).heap (e2b (n + 1 + 1)) (-1)
      = .ok (b, heap2))
    (hb : b2e b < 2 ^ NBITS_PTR) (hn : n + 1 < 2 ^ NBITS_SIZE) :
    ∃ st2, insert_vertex_edge E hash_u64 st key value d = .ok (false, false, st2) ∧
      0 < n ∧
      (b2e b, blksz E (n + 1 + 1)) ∈ blocks st2.heap ∧
      (∀ t len, st.g.Occ t → ((st.g.vertices t).ptr.off, len) ∈ blocks st.heap →
        Apart (b2e b, blksz E (n + 1 + 1)) ((st.g.vertices t).ptr.off, len)) ∧
      st2.g.read_edges (b2e b) (n + 1) = st.g.read_edges off n ++ [value] ∧
      st2.g.edges (b2e b + blksz E (n + 1 + 1) - 1) = n + 1 ∧
      st2.g.edges (off + blksz E (n + 1) - 1) = INVALID_EDGES ∧
      st2.free_queue = (sweep_free E st).free_queue
        ++ [⟨off, E.get_usec (sweep_free E st).clock + E.lease⟩] ∧
      (st2.g.vertices (c * ASSOCIATIVITY + j)).ptr = ⟨n + 1, b2e b, 0⟩ ∧
      DInv E blocks hash_u64 st2 := by
  have wf := inv.wf
  have hoc : st.g.Occ (c * ASSOCIATIVITY + j) := ⟨c, j, hc, hj, rfl, by rw [e]; exact hk⟩
  obtain ⟨hs0, hs1, len, hblk, hlen⟩ := inv.own _ hoc
  rw [hsz] at hs0 hs1 hlen
  rw [hof] at hblk
  have hins := insert_key_present wf hk hc hj e false
  simp only [Bool.false_eq_true, if_false] at hins
  have halloc : st.alloc_edges E (n + 1) (-1) = .ok (b2e b,
      { sweep_free E st with heap := heap2,
                             g := insert_sz E (sweep_free E st).g (n + 1) (n + 1) (b2e b) }) := by
    simp only [DStore.alloc_edges, hcache, if_true, hm, Outcome.bind]
  have hmk : iptr_t.make (n + 1) (b2e b) 0 = .ok ⟨n + 1, b2e b, 0⟩ := iptr_make_ok hn hb
  have hr : insert_vertex_edge E hash_u64 st key value d = .ok (false, false,
      add_pending_free E
        { sweep_free E st with
          heap := heap2,
          g := (insert_sz E (((insert_sz E (sweep_free E st).g (n + 1) (n + 1) (b2e b)).memcpy
            (b2e b) off n).set_edge (b2e b + n) value) INVALID_EDGES n off).set_ptr
              (c * ASSOCIATIVITY + j) ⟨n + 1, b2e b, 0⟩ }
        (st.g.vertices (c * ASSOCIATIVITY + j)).ptr) := by
    simp only [insert_vertex_edge, hins, Outcome.bind, hsz, hof, hnd]
    rw [if_neg (by omega), if_neg (by simp), if_pos hgrow]
    simp only [halloc, hmk, hcache, if_true]
  obtain ⟨ag, aheap, anew, ablk, akeep⟩ := alloc_edges_spec ok st inv.heap halloc
  have hoffs : ∃ t, st.g.Occ t ∧ (st.g.vertices t).ptr.off = off := ⟨_, hoc, hof⟩
  have hapo := (akeep off len hoffs hblk).2
  simp only [Apart] at hapo
  have hge2 := ok.blk_ge (n + 1 + 1)
  have hge1 := ok.blk_ge (n + 1)
  have hdinv := (insert_vertex_edge_effect ok inv hk hr).1
  refine ⟨_, hr, hs0, ablk, fun t len ht hl => (akeep _ len ⟨t, ht, rfl⟩ hl).2, ?_, ?_, ?_, ?_, ?_,
    hdinv⟩
  · simp only [add_pending_free]
    rw [read_edges_succ]
    congr 1
    · apply read_edges_shift
      intro i hi
      simp only [set_ptr_edges, set_edge_edges, insert_sz_edges, memcpy_edges, sweep_free_g]
      rw [if_neg (by omega), if_neg (by omega), if_pos (by omega), if_neg (by omega)]
      congr 1
      omega
    · simp only [set_ptr_edges, set_edge_edges, insert_sz_edges]
      rw [if_neg (by omega)]
      simp only [if_true]
  · simp only [add_pending_free, set_ptr_edges, set_edge_edges, insert_sz_edges, memcpy_edges]
    rw [if_neg (by omega), if_neg (by omega), if_neg (by omega)]
    simp
  · simp only [add_pending_free, set_ptr_edges, insert_sz_edges]
    simp
  · simp only [add_pending_free, hof]
  · simp only [add_pending_free, set_ptr_ptr, if_true]

theorem grow_across_block_witness :
    cache_env.global_enable_caching = true ∧
    ((vertex_edges cache_env demo_hash (DStore.fresh demo_store []) (demo_edge_calls 4)).bind
      fun st => .ok (demo_report st))
      = .ok (⟨4, 4, 0⟩, INVALID_EDGES, 1, [(4, 8), (0, 4)]) ∧
    blksz cache_env (3 + 1) = 4 ∧ blksz cache_env (3 + 1 + 1) = 8 ∧
    ∃ st2, insert_vertex_edge cache_env demo_hash (demo_edges cache_env 3) demo_key 10 false
        = .ok (false, false, st2) ∧
      0 < 3 ∧
      (b2e 16, blksz cache_env (3 + 1 + 1)) ∈ st2.heap ∧
      (∀ t len, (demo_edges cache_env 3).g.Occ t →
        (((demo_edges cache_env 3).g.vertices t).ptr.off, len) ∈ (demo_edges cache_env 3).heap →
        Apart (b2e 16, blksz cache_env (3 + 1 + 1))
          (((demo_edges cache_env 3).g.vertices t).ptr.off, len)) ∧
      st2.g.read_edges (b2e 16) (3 + 1) = (demo_edges cache_env 3).g.read_edges 0 3 ++ [10] ∧
      st2.g.edges (b2e 16 + blksz cache_env (3 + 1 + 1) - 1) = 3 + 1 ∧
      st2.g.edges (0 + blksz cache_env (3 + 1) - 1) = INVALID_EDGES ∧
      st2.free_queue = (sweep_free cache_env (demo_edges cache_env 3)).free_queue
        ++ [⟨0, cache_env.get_usec (sweep_free cache_env (demo_edges cache_env 3)).clock
          + cache_env.lease⟩] ∧
      (st2.g.vertices (0 * ASSOCIATIVITY + 0)).ptr = ⟨3 + 1, b2e 16, 0⟩ ∧
      DInv cache_env id demo_hash st2 :=
  have hg : Grown cache_env demo_hash demo_store [] (demo_edges cache_env 3) :=
    demo_edges_grown cache_env 3 (by decide)
  ⟨rfl, by decide, by decide, by decide,
    grow_across_block cache_env id cache_malloc_ok demo_hash (demo_edges cache_env 3)
      (hg.invariant cache_malloc_ok demo_config rfl).1 rfl demo_key (by decide) 0 0 (by decide)
      (by decide) (by decide) 10 false 3 0 (by decide) (by decide) rfl (by decide) 16
      [(4, 8), (0, 4)] (by decide) (by decide) (by decide)⟩

/-- C19: the coherence retry.  The peer is a store of the dynamic build reached
by `insert_vertex_edge` calls, with caching on, and holds the key `k`.  The
reader's cache holds for `k` an unexpired vertex whose block on the peer has a
size flag different from the cached size.  Then `get_edges_remote` finds the
mismatch, invalidates the entry, resolves `k` from the index of the peer, and
returns after exactly one retry with the size of the peer's pointer and the
peer's block, whose first `size` cells are the peer's value list of `k`; the
cache then holds the peer's vertex. -/
theorem coherence_retry {σ : Type} (E : DynEnv σ) (blocks : σ → List (Nat × Nat))
    (ok : Malloc_OK E blocks) (hash_u64 : Nat → Nat) (g0 : GStore) (cfg : Config g0) (heap : σ)
    (hheap : blocks heap = []) (pst : DStore σ) (hg : Grown E hash_u64 g0 heap pst)
    (R : RdmaEnv) (hpeer : R.peer = pst.g) (hnb : R.num_buckets = pst.g.num_buckets)
    (hrdma : R.global_use_rdma = true) (hcache : E.global_enable_caching = true)
    (hbufv : ASSOCIATIVITY * SIZEOF_VERTEX < R.buffer_size)
    (k : ikey_t) (hk : k ≠ ikey_t.zero) (hfit : k.fits)
    (c j : Nat) (hc : c < pst.g.used) (hj : j < ASSOCIATIVITY - 1) (hkey : pst.g.key_at c j = k)
    (rd : Reader) (hvk : (rd.items (k.hash hash_u64 % NUM_ITEMS)).v.key = k)
    (hlive : E.get_usec rd.clock < (rd.items (k.hash hash_u64 % NUM_ITEMS)).expire_time)
    (hstale : pst.g.edges ((rd.items (k.hash hash_u64 % NUM_ITEMS)).v.ptr.off
        + blksz E ((rd.items (k.hash hash_u64 % NUM_ITEMS)).v.ptr.size + 1) - 1)
      ≠ (rd.items (k.hash hash_u64 % NUM_ITEMS)).v.ptr.size)
    (hbuf1 : blksz E ((rd.items (k.hash hash_u64 % NUM_ITEMS)).v.ptr.size + 1) * SIZEOF_EDGE
      < R.buffer_size)
    (hbuf2 : blksz E ((pst.g.vertices (c * ASSOCIATIVITY + j)).ptr.size + 1) * SIZEOF_EDGE
      < R.buffer_size)
    (fuel : Nat) :
    ∃ rd2 edge_ptr, get_edges_remote E R hash_u64 (fuel + 2) rd k.vid k.dir k.pid
        = .ok ((pst.g.vertices (c * ASSOCIATIVITY + j)).ptr.size, some edge_ptr, rd2, 1) ∧
      edge_ptr.take (pst.g.vertices (c * ASSOCIATIVITY + j)).ptr.size = vals hash_u64 pst.g k ∧
      get_edges_local hash_u64 pst.g k.vid k.dir k.pid
        = .ok ((pst.g.vertices (c * ASSOCIATIVITY + j)).ptr.size, some (vals hash_u64 pst.g k)) ∧
      (rd2.items (k.hash hash_u64 % NUM_ITEMS)).v = pst.g.vertices (c * ASSOCIATIVITY + j) := by
  obtain ⟨inv, tg⟩ := hg.invariant ok cfg hheap
  have wf := inv.wf
  have hoc : pst.g.Occ (c * ASSOCIATIVITY + j) := ⟨c, j, hc, hj, rfl, by rw [hkey]; exact hk⟩
  have hb1 := ok.blk_ge ((rd.items (k.hash hash_u64 % NUM_ITEMS)).v.ptr.size + 1)
  have hb2 := ok.blk_ge ((pst.g.vertices (c * ASSOCIATIVITY + j)).ptr.size + 1)
  obtain ⟨rd2, h1, h2⟩ := get_edges_remote_retry E R hash_u64 hrdma hcache hbufv
    (hpeer ▸ wf) (hpeer ▸ hnb) hk hfit (hpeer ▸ hc) hj (hpeer ▸ hkey) rd hvk hlive (by omega)
    (hpeer ▸ hstale) (by rw [hpeer]; omega) (by rw [hpeer]; exact tg _ hoc) hbuf1
    (by rw [hpeer]; exact hbuf2) fuel
  rw [hpeer] at h1 h2
  have hval : vals hash_u64 pst.g k = pst.g.read_edges
      (pst.g.vertices (c * ASSOCIATIVITY + j)).ptr.off
      (pst.g.vertices (c * ASSOCIATIVITY + j)).ptr.size := vals_occ wf hk hc hj hkey
  refine ⟨rd2, _, h1, ?_, ?_, h2⟩
  · rw [read_edges_take _ _ _ _ (by omega), hval]
  · obtain ⟨hf1, hf2, hf3⟩ := hfit
    have hmk : ikey_t.make k.vid k.pid k.dir = .ok k := ikey_make_ok hf1 hf2 hf3
    have hne : (pst.g.vertices (c * ASSOCIATIVITY + j)).key.is_empty = false := by
      rw [ikey_t.is_empty_false_iff]
      exact hoc.elim fun c2 h => by
        obtain ⟨j2, _, _, e, hne⟩ := h
        rw [e]
        exact hne
    simp only [get_edges_local, hmk, Outcome.bind, get_vertex_local_present wf hk hc hj hkey, hne,
      Bool.false_eq_true, if_false, hval]

theorem coherence_retry_witness :
    Grown cache_env demo_hash demo_store [] (demo_edges cache_env 4) ∧
    ((get_edges_remote cache_env demo_rdma demo_hash 2 demo_reader 131072 OUT 3).bind
      fun r => .ok (r.1, r.2.1, r.2.2.2)) = .ok (4, some [7, 8, 9, 10, 0, 0, 0, 4], 1) ∧
    ∃ rd2 edge_ptr, get_edges_remote cache_env demo_rdma demo_hash (0 + 2) demo_reader
          demo_key.vid demo_key.dir demo_key.pid
        = .ok (((demo_edges cache_env 4).g.vertices (0 * ASSOCIATIVITY + 0)).ptr.size,
          some edge_ptr, rd2, 1) ∧
      edge_ptr.take ((demo_edges cache_env 4).g.vertices (0 * ASSOCIATIVITY + 0)).ptr.size
        = vals demo_hash (demo_edges cache_env 4).g demo_key ∧
      get_edges_local demo_hash (demo_edges cache_env 4).g demo_key.vid demo_key.dir demo_key.pid
        = .ok (((demo_edges cache_env 4).g.vertices (0 * ASSOCIATIVITY + 0)).ptr.size,
          some (vals demo_hash (demo_edges cache_env 4).g demo_key)) ∧
      (rd2.items (demo_key.hash demo_hash % NUM_ITEMS)).v
        = (demo_edges cache_env 4).g.vertices (0 * ASSOCIATIVITY + 0) :=
  have hg : Grown cache_env demo_hash demo_store [] (demo_edges cache_env 4) :=
    demo_edges_grown cache_env 4 (by decide)
  have hfit : demo_key.fits := by
    simp only [ikey_t.fits]
    decide
  ⟨hg, by decide,
    coherence_retry cache_env id cache_malloc_ok demo_hash demo_store demo_config [] rfl
      (demo_edges cache_env 4) hg demo_rdma rfl rfl rfl rfl (by decide) demo_key (by decide)
      hfit 0 0 (by decide) (by decide) (by decide) demo_reader (by decide) (by decide)
      (by decide) (by decide) (by decide) 0⟩

/-- C24: insert and lookup of the remote cache, with caching on.  `insert(v)`
writes `v` to the entry `hash(v.key) mod 100000` whatever the entry held, and
changes no other entry.  In the static build a lookup of `v.key` then returns a
copy of `v`.  In the dynamic build the entry expires at the time of the insert
plus the lease (a sum that fits 64 bits), and a lookup of `v.key` at a later
reading `c` of the timer returns a copy of `v` when `now < expiry` and misses
when `now >= expiry`.  A lookup of a different key of the same entry misses in
both builds. -/
theorem cache_insert_lookup {σ : Type} (E : DynEnv σ) (hash_u64 : Nat → Nat) (rd : Reader)
    (v : vertex_t) (hcache : E.global_enable_caching = true)
    (hw : E.get_usec rd.clock + E.lease < 2 ^ 64) :
    RDMA_Cache.lookup_static true hash_u64 (RDMA_Cache.insert_static true hash_u64 rd v) v.key
      = some v ∧
    ((RDMA_Cache.insert_static true hash_u64 rd v).items (v.key.hash hash_u64 % NUM_ITEMS)).v = v ∧
    (RDMA_Cache.insert E hash_u64 rd v).items (v.key.hash hash_u64 % NUM_ITEMS)
      = ⟨v, E.get_usec rd.clock + E.lease⟩ ∧
    (∀ i, i ≠ v.key.hash hash_u64 % NUM_ITEMS →
      (RDMA_Cache.insert_static true hash_u64 rd v).items i = rd.items i ∧
      (RDMA_Cache.insert E hash_u64 rd v).items i = rd.items i) ∧
    (∀ c, E.get_usec c < E.get_usec rd.clock + E.lease →
      (RDMA_Cache.lookup E hash_u64 ⟨(RDMA_Cache.insert E hash_u64 rd v).items, c⟩ v.key).1
        = some v) ∧
    (∀ c, E.get_usec rd.clock + E.lease ≤ E.get_usec c →
      (RDMA_Cache.lookup E hash_u64 ⟨(RDMA_Cache.insert E hash_u64 rd v).items, c⟩ v.key).1
        = none) ∧
    (∀ k c, k ≠ v.key → k.hash hash_u64 % NUM_ITEMS = v.key.hash hash_u64 % NUM_ITEMS →
      RDMA_Cache.lookup_static true hash_u64 (RDMA_Cache.insert_static true hash_u64 rd v) k
        = none ∧
      (RDMA_Cache.lookup E hash_u64 ⟨(RDMA_Cache.insert E hash_u64 rd v).items, c⟩ k).1
        = none) := by
  have hmod : (E.get_usec rd.clock + E.lease) % 2 ^ 64 = E.get_usec rd.clock + E.lease :=
    Nat.mod_eq_of_lt hw
  refine ⟨?_, ?_, ?_, ?_, ?_, ?_, ?_⟩
  · simp only [RDMA_Cache.lookup_static, RDMA_Cache.insert_static, Bool.not_true,
      Bool.false_eq_true, if_false, if_true, ikey_eq_self]
  · simp only [RDMA_Cache.insert_static, Bool.not_true, Bool.false_eq_true, if_false, if_true]
  · simp only [RDMA_Cache.insert, hcache, Bool.not_true, Bool.false_eq_true, if_false, if_true,
      hmod]
  · intro i hi
    simp only [RDMA_Cache.insert_static, RDMA_Cache.insert, hcache, Bool.not_true,
      Bool.false_eq_true, if_false, if_neg hi, and_self]
  · intro c hc
    simp only [RDMA_Cache.lookup, RDMA_Cache.insert, hcache, Bool.not_true, Bool.false_eq_true,
      if_false, if_true, ikey_eq_self, hmod, if_pos hc]
  · intro c hc
    simp only [RDMA_Cache.lookup, RDMA_Cache.insert, hcache, Bool.not_true, Bool.false_eq_true,
      if_false, if_true, ikey_eq_self, hmod, if_neg (Nat.not_lt.2 hc)]
  · intro k c hk hidx
    have hne : v.key.eq k = false := ikey_eq_false (Ne.symm hk)
    constructor
    · simp only [RDMA_Cache.lookup_static, RDMA_Cache.insert_static, Bool.not_true,
        Bool.false_eq_true, if_false, hidx, if_true, hne]
    · simp only [RDMA_Cache.lookup, RDMA_Cache.insert, hcache, Bool.not_true, Bool.false_eq_true,
        if_false, hidx, if_true, hne]

theorem cache_insert_lookup_witness :
    tick_env.global_enable_caching = true ∧
    tick_env.get_usec (cold_cache 0).clock + tick_env.lease < 2 ^ 64 ∧
    (RDMA_Cache.lookup tick_env demo_hash
      (RDMA_Cache.insert tick_env demo_hash (cold_cache 0) ⟨demo_key, ⟨3, 0, 0⟩⟩) demo_key).1
      = some ⟨demo_key, ⟨3, 0, 0⟩⟩ ∧
    (RDMA_Cache.lookup tick_env demo_hash
      ⟨(RDMA_Cache.insert tick_env demo_hash (cold_cache 0) ⟨demo_key, ⟨3, 0, 0⟩⟩).items, 2⟩
      demo_key).1 = none ∧
    (⟨131072, 50003, OUT⟩ : ikey_t).hash demo_hash % NUM_ITEMS
      = demo_key.hash demo_hash % NUM_ITEMS ∧
    RDMA_Cache.lookup_static true demo_hash
        (RDMA_Cache.insert_static true demo_hash (cold_cache 0) ⟨demo_key, ⟨3, 0, 0⟩⟩) demo_key
      = some ⟨demo_key, ⟨3, 0, 0⟩⟩ ∧
    (RDMA_Cache.insert tick_env demo_hash (cold_cache 0) ⟨demo_key, ⟨3, 0, 0⟩⟩).items
        (demo_key.hash demo_hash % NUM_ITEMS) = ⟨⟨demo_key, ⟨3, 0, 0⟩⟩, 100⟩ ∧
    (RDMA_Cache.lookup tick_env demo_hash
      ⟨(RDMA_Cache.insert tick_env demo_hash (cold_cache 0) ⟨demo_key, ⟨3, 0, 0⟩⟩).items, 7⟩
      ⟨131072, 50003, OUT⟩).1 = none :=
  have h := cache_insert_lookup tick_env demo_hash (cold_cache 0) ⟨demo_key, ⟨3, 0, 0⟩⟩ rfl
    (by decide)
  ⟨rfl, by decide, by decide, by decide, by decide, h.1, h.2.2.1,
    (h.2.2.2.2.2.2 ⟨131072, 50003, OUT⟩ 7 (by decide) (by decide)).2⟩

/-- C25, as stated, fails for the empty key: `invalidate` clears an entry by
writing the empty key, so after `invalidate(ikey_t())` the entry still holds the
key looked up, and `lookup(ikey_t())` hits: in the static build on a cache as
constructed, in the dynamic build on the entry 0 after the key `(0, 50000, IN)`
was inserted at time 0 with a lease of 100 and invalidated, at time 50. -/
theorem cache_invalidate_empty_key :
    ((cold_cache 0).items (ikey_t.zero.hash demo_hash % NUM_ITEMS)).v.key = ikey_t.zero ∧
    RDMA_Cache.lookup_static true demo_hash
      (RDMA_Cache.invalidate_static true demo_hash (cold_cache 0) ikey_t.zero) ikey_t.zero
      = some vertex_t.zero ∧
    (demo_cached.items (ikey_t.zero.hash demo_hash % NUM_ITEMS)).v.key = ikey_t.zero ∧
    tick_env.get_usec (RDMA_Cache.invalidate tick_env demo_hash demo_cached ikey_t.zero).clock
      = 50 ∧
    (RDMA_Cache.lookup tick_env demo_hash
      (RDMA_Cache.invalidate tick_env demo_hash demo_cached ikey_t.zero) ikey_t.zero).1
      = some ⟨ikey_t.zero, ⟨3, 0, 0⟩⟩ := by
  decide

/-- C25, for a non-empty key: with caching on, `invalidate(k)` changes the cache
exactly when the entry `hash(k) mod 100000` holds the key `k`; it then writes
the empty key over the key of that entry and leaves its pointer, its expiry
time and every other entry as they were, and a following `lookup(k)` misses,
whenever it is made.  When the entry holds another key the cache is left as it
is.  With caching off `lookup` misses, and `insert` and `invalidate` return the
cache unchanged.  All of this in both builds. -/
theorem cache_invalidate {σ : Type} (E : DynEnv σ) (hash_u64 : Nat → Nat) (rd : Reader)
    (k : ikey_t) (hk : k ≠ ikey_t.zero) :
    (E.global_enable_caching = true →
      ((rd.items (k.hash hash_u64 % NUM_ITEMS)).v.key = k →
        ((RDMA_Cache.invalidate E hash_u64 rd k).items (k.hash hash_u64 % NUM_ITEMS)
            = ⟨⟨ikey_t.zero, (rd.items (k.hash hash_u64 % NUM_ITEMS)).v.ptr⟩,
                (rd.items (k.hash hash_u64 % NUM_ITEMS)).expire_time⟩ ∧
          RDMA_Cache.invalidate_static true hash_u64 rd k = RDMA_Cache.invalidate E hash_u64 rd k ∧
          (RDMA_Cache.invalidate E hash_u64 rd k).clock = rd.clock ∧
          (∀ i, i ≠ k.hash hash_u64 % NUM_ITEMS →
            (RDMA_Cache.invalidate E hash_u64 rd k).items i = rd.items i) ∧
          (∀ c, (RDMA_Cache.lookup E hash_u64
              ⟨(RDMA_Cache.invalidate E hash_u64 rd k).items, c⟩ k).1 = none) ∧
          RDMA_Cache.lookup_static true hash_u64
            (RDMA_Cache.invalidate_static true hash_u64 rd k) k = none)) ∧
      ((rd.items (k.hash hash_u64 % NUM_ITEMS)).v.key ≠ k →
        RDMA_Cache.invalidate E hash_u64 rd k = rd ∧
        RDMA_Cache.invalidate_static true hash_u64 rd k = rd)) ∧
    (E.global_enable_caching = false →
      ∀ v, (RDMA_Cache.lookup E hash_u64 rd k).1 = none ∧
        (RDMA_Cache.lookup E hash_u64 rd k).2 = rd ∧
        RDMA_Cache.insert E hash_u64 rd v = rd ∧
        RDMA_Cache.invalidate E hash_u64 rd k = rd ∧
        RDMA_Cache.lookup_static false hash_u64 rd k = none ∧
        RDMA_Cache.insert_static false hash_u64 rd v = rd ∧
        RDMA_Cache.invalidate_static false hash_u64 rd k = rd) := by
  refine ⟨fun hcache => ⟨fun hkey => ?_, fun hkey => ?_⟩, fun hcache v => ?_⟩
  · have he : (rd.items (k.hash hash_u64 % NUM_ITEMS)).v.key.eq k = true :=
      (ikey_eq_iff _ _).2 hkey
    have hz : ikey_t.zero.eq k = false := ikey_eq_false (Ne.symm hk)
    refine ⟨?_, ?_, ?_, ?_, ?_, ?_⟩
    · simp only [RDMA_Cache.invalidate, hcache, Bool.not_true, Bool.false_eq_true, if_false, he,
        if_true]
    · simp only [RDMA_Cache.invalidate, RDMA_Cache.invalidate_static, hcache]
    · simp only [RDMA_Cache.invalidate, hcache, Bool.not_true, Bool.false_eq_true, if_false, he,
        if_true]
    · intro i hi
      simp only [RDMA_Cache.invalidate, hcache, Bool.not_true, Bool.false_eq_true, if_false, he,
        if_true, if_neg hi]
    · intro c
      simp only [RDMA_Cache.lookup, RDMA_Cache.invalidate, hcache, Bool.not_true,
        Bool.false_eq_true, if_false, he, if_true, hz]
    · simp only [RDMA_Cache.lookup_static, RDMA_Cache.invalidate_static, Bool.not_true,
        Bool.false_eq_true, if_false, he, if_true, hz]
  · have he : (rd.items (k.hash hash_u64 % NUM_ITEMS)).v.key.eq k = false := ikey_eq_false hkey
    constructor
    · simp only [RDMA_Cache.invalidate, hcache, Bool.not_true, Bool.false_eq_true, if_false, he]
    · simp only [RDMA_Cache.invalidate_static, Bool.not_true, Bool.false_eq_true, if_false, he]
  · simp only [RDMA_Cache.lookup, RDMA_Cache.insert, RDMA_Cache.invalidate,
      RDMA_Cache.lookup_static, RDMA_Cache.insert_static, RDMA_Cache.invalidate_static, hcache,
      Bool.not_false, if_true, and_self]

theorem cache_invalidate_witness :
    demo_key ≠ ikey_t.zero ∧
    ((RDMA_Cache.insert tick_env demo_hash (cold_cache 0) ⟨demo_key, ⟨3, 0, 0⟩⟩).items
      (demo_key.hash demo_hash % NUM_ITEMS)).v.key = demo_key ∧
    (RDMA_Cache.lookup tick_env demo_hash
      (RDMA_Cache.insert tick_env demo_hash (cold_cache 0) ⟨demo_key, ⟨3, 0, 0⟩⟩) demo_key).1
      = some ⟨demo_key, ⟨3, 0, 0⟩⟩ ∧
    (RDMA_Cache.invalidate tick_env demo_hash
        (RDMA_Cache.insert tick_env demo_hash (cold_cache 0) ⟨demo_key, ⟨3, 0, 0⟩⟩) demo_key).items
        (demo_key.hash demo_hash % NUM_ITEMS) = ⟨⟨ikey_t.zero, ⟨3, 0, 0⟩⟩, 100⟩ ∧
    (∀ c, (RDMA_Cache.lookup tick_env demo_hash
      ⟨(RDMA_Cache.invalidate tick_env demo_hash
        (RDMA_Cache.insert tick_env demo_hash (cold_cache 0) ⟨demo_key, ⟨3, 0, 0⟩⟩)
        demo_key).items, c⟩ demo_key).1 = none) ∧
    RDMA_Cache.invalidate tick_env demo_hash demo_cached demo_key = demo_cached ∧
    RDMA_Cache.insert plain_env demo_hash demo_cached ⟨demo_key, ⟨3, 0, 0⟩⟩ = demo_cached ∧
    RDMA_Cache.invalidate plain_env demo_hash
        (RDMA_Cache.insert tick_env demo_hash (cold_cache 0) ⟨demo_key, ⟨3, 0, 0⟩⟩) demo_key
      = RDMA_Cache.insert tick_env demo_hash (cold_cache 0) ⟨demo_key, ⟨3, 0, 0⟩⟩ :=
  have h := ((cache_invalidate tick_env demo_hash
    (RDMA_Cache.insert tick_env demo_hash (cold_cache 0) ⟨demo_key, ⟨3, 0, 0⟩⟩) demo_key
    (by decide)).1 rfl).1 (by decide)
  ⟨by decide, by decide, by decide, h.1, h.2.2.2.2.1,
    (((cache_invalidate tick_env demo_hash demo_cached demo_key (by decide)).1 rfl).2
      (by decide)).1,
    ((cache_invalidate plain_env demo_hash demo_cached demo_key (by decide)).2 rfl
      ⟨demo_key, ⟨3, 0, 0⟩⟩).2.2.1,
    ((cache_invalidate plain_env demo_hash
      (RDMA_Cache.insert tick_env demo_hash (cold_cache 0) ⟨demo_key, ⟨3, 0, 0⟩⟩) demo_key
      (by decide)).2 rfl ⟨demo_key, ⟨3, 0, 0⟩⟩).2.2.2.1⟩

/-- C21: a remote read returns what the local read on the peer returns.  `S` is
the store of the peer; the reader addresses the registered region of the peer
with its own `num_slots` and `num_buckets`, which are those of `S`; `RdmaRead`
copies the region; RDMA is on and the buffer has room for a bucket; the cache is
disabled, or enabled and holds no vertex.  In the static build, for `S` reached
from `refresh()` by blocks that insert a non-empty key with its value list:
`get_vertex_remote(k)` returns the vertex that `get_vertex_local(k)` returns on
`S`, for every key `k`, and `get_edges_remote` returns the size and the edge
values that `get_edges_local` returns on `S`, when the buffer has room for the
edges.  In the dynamic build, for `S` reached from `refresh()` by calls of
`insert_vertex_edge` with non-empty keys: the same for the vertex, and
`get_edges_remote` returns without a retry the size that `get_edges_local`
returns and a block whose first `size` cells are the edge values that
`get_edges_local` returns, when the buffer has room for the block. -/
theorem remote_read_equals_local (hash_u64 : Nat → Nat) (S : GStore) (num_slots : Nat)
    (other : Nat → Nat) (R : RdmaEnv) (hpeer : R.peer = remote_view num_slots S other)
    (hns : num_slots = S.num_slots) (hnb : R.num_buckets = S.num_buckets)
    (hrdma : R.global_use_rdma = true) (hbuf : ASSOCIATIVITY * SIZEOF_VERTEX < R.buffer_size)
    (caching : Bool) (rd : Reader) (hcold : caching = true → ∀ i, (rd.items i).v = vertex_t.zero)
    (k : ikey_t) (vid d pid : Nat) :
    (∀ g0 P, Config g0 → (∀ p, p ∈ P → p.key ≠ ikey_t.zero) →
      insert_lists hash_u64 (refresh g0) P = .ok S →
      (∃ v rd2, get_vertex_local hash_u64 S k = .ok v ∧
        get_vertex_remote_static caching R hash_u64 rd k = .ok (v, rd2)) ∧
      ((∀ v, get_vertex_local hash_u64 S ⟨vid, pid, d⟩ = .ok v →
          v.ptr.size * SIZEOF_EDGE < R.buffer_size) →
        ((get_edges_remote_static caching R hash_u64 rd vid d pid).bind fun r =>
            .ok (r.1, r.2.1))
          = get_edges_local hash_u64 S vid d pid)) ∧
    (∀ (σ : Type) (E : DynEnv σ) (blocks : σ → List (Nat × Nat)) (g0 : GStore) (heap : σ)
        (pst : DStore σ),
      E.global_enable_caching = caching → Malloc_OK E blocks → Config g0 → blocks heap = [] →
      Grown E hash_u64 g0 heap pst → pst.g = S →
      (∃ v rd2, get_vertex_local hash_u64 S k = .ok v ∧
        get_vertex_remote E R hash_u64 rd k = .ok (v, rd2)) ∧
      ((∀ v, get_vertex_local hash_u64 S ⟨vid, pid, d⟩ = .ok v →
          blksz E (v.ptr.size + 1) * SIZEOF_EDGE < R.buffer_size) →
        ∀ fuel, ((get_edges_remote E R hash_u64 (fuel + 1) rd vid d pid).bind fun r =>
            .ok (r.1, r.2.1.map (List.take r.1), r.2.2.2))
          = (get_edges_local hash_u64 S vid d pid).bind fun r => .ok (r.1, r.2, 0))) := by
  have hS : R.peer = S := by rw [hpeer, hns, remote_view_self]
  rw [← hS] at hnb
  constructor
  · intro g0 P cfg hP h
    rw [← hS] at h ⊢
    obtain ⟨wf, _, bl⟩ := insert_lists_blank P (refresh_wf hash_u64 g0 cfg) (refresh_no_alias cfg)
      (refresh_blank cfg) hP h
    exact ⟨get_vertex_remote_static_eq caching R hrdma hbuf hnb wf bl rd hcold k,
      get_edges_remote_static_eq caching R hrdma hbuf hnb wf bl rd hcold vid d pid⟩
  · intro σ E blocks g0 heap pst hc ok cfg hheap hg hpst
    rw [← hS] at hpst ⊢
    obtain ⟨_, tg⟩ := hg.invariant ok cfg hheap
    obtain ⟨wf, bl⟩ := hg.blank_ptr cfg
    rw [hpst] at tg wf bl
    rw [← hc] at hcold
    exact ⟨get_vertex_remote_cold E R hrdma hbuf hnb wf bl rd hcold k,
      get_edges_remote_cold E ok.blk_ge R hrdma hbuf hnb wf bl tg rd hcold vid d pid⟩

theorem remote_read_equals_local_witness :
    (view_rdma 512 5 demo_lists).peer = remote_view 512 demo_lists (fun _ => 0) ∧
    512 = demo_lists.num_slots ∧ (view_rdma 512 5 demo_lists).num_buckets = demo_lists.num_buckets ∧
    insert_lists demo_hash (refresh demo_store) demo_puts = .ok demo_lists ∧
    get_edges_local demo_hash demo_lists 131072 OUT 3 = .ok (2, some [131073, 131074]) ∧
    ((get_edges_remote_static true (view_rdma 512 5 demo_lists) demo_hash (cold_cache 0)
        131072 OUT 3).bind fun r => .ok (r.1, r.2.1))
      = get_edges_local demo_hash demo_lists 131072 OUT 3 ∧
    (demo_edges cache_env 4).g.num_slots = 512 ∧
    get_edges_local demo_hash (demo_edges cache_env 4).g 131072 OUT 3
      = .ok (4, some [7, 8, 9, 10]) ∧
    ((get_edges_remote cache_env (view_rdma 512 5 (demo_edges cache_env 4).g) demo_hash (0 + 1)
        (cold_cache 0) 131072 OUT 3).bind fun r =>
          .ok (r.1, r.2.1.map (List.take r.1), r.2.2.2))
      = (get_edges_local demo_hash (demo_edges cache_env 4).g 131072 OUT 3).bind fun r =>
          .ok (r.1, r.2, 0) :=
  have hl : insert_lists demo_hash (refresh demo_store) demo_puts = .ok demo_lists :=
    Outcome.ok_get (by decide) _
  ⟨rfl, rfl, rfl, hl, by decide,
    ((remote_read_equals_local demo_hash demo_lists 512 (fun _ => 0) (view_rdma 512 5 demo_lists)
      rfl rfl rfl rfl (by decide) true (cold_cache 0) (fun _ _ => rfl) demo_key 131072 OUT 3).1
      demo_store demo_puts demo_config (by decide) hl).2
      (fun v hv => by
        have e : get_vertex_local demo_hash demo_lists ⟨131072, 3, OUT⟩
            = .ok ⟨demo_key, ⟨2, 0, 0⟩⟩ := by decide
        rw [e] at hv
        injection hv with hv
        rw [← hv]
        decide),
    rfl, by decide,
    ((remote_read_equals_local demo_hash (demo_edges cache_env 4).g 512 (fun _ => 0)
      (view_rdma 512 5 (demo_edges cache_env 4).g) rfl rfl rfl rfl (by decide) true (cold_cache 0)
      (fun _ _ => rfl) demo_key 131072 OUT 3).2 _ cache_env id demo_store []
      (demo_edges cache_env 4) rfl cache_malloc_ok demo_config rfl
      (demo_edges_grown cache_env 4 (by decide)) rfl).2
      (fun v hv => by
        have e : get_vertex_local demo_hash (demo_edges cache_env 4).g ⟨131072, 3, OUT⟩
            = .ok ⟨demo_key, ⟨4, 4, 0⟩⟩ := by decide
        rw [e] at hv
        injection hv with hv
        rw [← hv]
        decide) 0⟩

/-- C22: the attribute `(131072, 3, OUT)` is stored on a server with the `int`
value 42, and `get_vertex_attr_local` returns 42 there.  A server with the same
configuration and an empty store reads it remotely: `RdmaRead` brings the cell
with 42 to offset 0 of the buffer, and `get_vertex_attr_remote` returns
`has_value = true` with the value 0, which is the cell of its own `edges` at
the index `r_off = num_slots * 16 + off * 4 = 256`. -/
theorem attr_remote_reads_own_heap :
    (insert_vertex_attr demo_variant demo_hash (refresh small_store) 131072 3 (.int 42)).returns
      = true ∧
    get_vertex_attr_local demo_variant demo_hash attr_peer 131072 OUT 3 = .ok (.int 42, true) ∧
    get_vertex_local demo_hash attr_peer ⟨131072, 3, OUT⟩ = .ok ⟨⟨131072, 3, OUT⟩, ⟨1, 0, 1⟩⟩ ∧
    rdma_get_edges_static (view_rdma 16 1 attr_peer) ⟨⟨131072, 3, OUT⟩, ⟨1, 0, 1⟩⟩ = .ok [42] ∧
    (refresh small_store).num_slots * SIZEOF_VERTEX + 0 * SIZEOF_EDGE = 256 ∧
    256 < (refresh small_store).num_entries ∧ (refresh small_store).edges 256 = 0 ∧
    attr_report (get_vertex_attr_remote_static demo_variant true (view_rdma 16 1 attr_peer)
      demo_hash (refresh small_store) (cold_cache 0) 131072 OUT 3) = .ok (.int 0, true) ∧
    attr_report (get_vertex_attr_remote plain_env demo_variant (view_rdma 16 1 attr_peer)
      demo_hash (refresh small_store) 1 (cold_cache 0) 131072 OUT 3) = .ok (.int 0, true) := by
  decide

/-- C23, as stated, fails: the key `(131072, 3, OUT)` of the demo store has a
pointer with the type tag 0, which is none of `INT_t = 1`, `FLOAT_t = 2`,
`DOUBLE_t = 3`, and both `get_vertex_attr_local` and `get_vertex_attr_remote`
report `has_value = true`. -/
theorem unsupported_attr_has_value :
    get_vertex_local demo_hash demo_lists ⟨131072, 3, OUT⟩ = .ok ⟨⟨131072, 3, OUT⟩, ⟨2, 0, 0⟩⟩ ∧
    get_vertex_attr_local demo_variant demo_hash demo_lists 131072 OUT 3 = .ok (.int 0, true) ∧
    attr_report (get_vertex_attr_remote_static demo_variant true (view_rdma 512 5 demo_lists)
      demo_hash (refresh demo_store) (cold_cache 0) 131072 OUT 3) = .ok (.int 0, true) ∧
    get_vertex_local demo_hash (demo_edges cache_env 4).g ⟨131072, 3, OUT⟩
      = .ok ⟨⟨131072, 3, OUT⟩, ⟨4, 4, 0⟩⟩ ∧
    get_vertex_attr_local demo_variant demo_hash (demo_edges cache_env 4).g 131072 OUT 3
      = .ok (.int 0, true) ∧
    attr_report (get_vertex_attr_remote cache_env demo_variant
      (view_rdma 512 5 (demo_edges cache_env 4).g) demo_hash (refresh demo_store) 1
      (cold_cache 0) 131072 OUT 3) = .ok (.int 0, true) := by
  decide

/-- C23, amended: for a key that is found (the lookup returns a vertex with a
non-empty key) with a type tag that is none of `INT_t`, `FLOAT_t`, `DOUBLE_t`,
`get_vertex_attr_local` reports `has_value = true` and returns the `attr_t` as
constructed; so does `get_vertex_attr_remote` in the static build when the
buffer has room for the edges, and in the dynamic build when the vertex that
passes `edge_is_valid` has such a tag. -/
theorem unsupported_attr_type (V : Variant) (hash_u64 : Nat → Nat) (vid d pid : Nat)
    (key : ikey_t) (hmk : ikey_t.make vid pid d = .ok key) (v : vertex_t)
    (hne : v.key.is_empty = false)
    (ht : v.ptr.type ≠ V.INT_t ∧ v.ptr.type ≠ V.FLOAT_t ∧ v.ptr.type ≠ V.DOUBLE_t) :
    (∀ g, get_vertex_local hash_u64 g key = .ok v →
      get_vertex_attr_local V hash_u64 g vid d pid = .ok (V.dflt, true)) ∧
    (∀ caching R g rd rd2, get_vertex_remote_static caching R hash_u64 rd key = .ok (v, rd2) →
      R.global_use_rdma = true → v.ptr.size * SIZEOF_EDGE < R.buffer_size →
      get_vertex_attr_remote_static V caching R hash_u64 g rd vid d pid
        = .ok (V.dflt, true, rd2)) ∧
    (∀ (σ : Type) (E : DynEnv σ) R g fuel rd v1 rd1 edge_ptr edge_ptr2 rd2 n,
      get_vertex_remote E R hash_u64 rd key = .ok (v1, rd1) → v1.key.is_empty = false →
      rdma_get_edges E R v1 = .ok edge_ptr →
      get_edges_remote_loop E R hash_u64 key fuel v1 edge_ptr rd1 0 = .ok (v, edge_ptr2, rd2, n) →
      get_vertex_attr_remote E V R hash_u64 g fuel rd vid d pid = .ok (V.dflt, true, rd2)) := by
  have hr : ∀ edges off, read_attr V edges off v.ptr.type = V.dflt := by
    intro edges off
    simp only [read_attr, if_neg ht.1, if_neg ht.2.1, if_neg ht.2.2]
  refine ⟨?_, ?_, ?_⟩
  · intro g hv
    simp only [get_vertex_attr_local, hmk, Outcome.bind, hv, hne, Bool.false_eq_true, if_false, hr]
  · intro caching R g rd rd2 hv hrdma hbuf
    simp only [get_vertex_attr_remote_static, hmk, Outcome.bind, hv, hne, Bool.false_eq_true,
      if_false, rdma_get_edges_static, hrdma, Bool.not_true, hbuf, not_true_eq_false, hr]
  · intro σ E R g fuel rd v1 rd1 edge_ptr edge_ptr2 rd2 n hv h1 he hl
    simp only [get_vertex_attr_remote, hmk, Outcome.bind, hv, h1, Bool.false_eq_true, if_false,
      he, hl, hr]

theorem unsupported_attr_type_witness :
    ikey_t.make 131072 3 OUT = .ok ⟨131072, 3, OUT⟩ ∧
    (⟨⟨131072, 3, OUT⟩, ⟨2, 0, 0⟩⟩ : vertex_t).key.is_empty = false ∧
    get_vertex_local demo_hash demo_lists ⟨131072, 3, OUT⟩ = .ok ⟨⟨131072, 3, OUT⟩, ⟨2, 0, 0⟩⟩ ∧
    get_vertex_attr_local demo_variant demo_hash demo_lists 131072 OUT 3
      = .ok (demo_variant.dflt, true) :=
  ⟨by decide, by decide, by decide,
    (unsupported_attr_type demo_variant demo_hash 131072 OUT 3 ⟨131072, 3, OUT⟩ (by decide)
      ⟨⟨131072, 3, OUT⟩, ⟨2, 0, 0⟩⟩ (by decide) (by decide)).1 demo_lists (by decide)⟩

/-! ## C26 to C30: the ring buffers -/

set_option maxRecDepth 100000 in
/-- C26, as stated, fails for two of its sizes on a ring of 128 bytes.  A `send`
of the empty payload returns true and moves the tail by 16, but the header word
it writes is zero, which is how `check` reads a free ring: `check` is false and
`recv` returns nothing.  A `send` of a payload of 128 − 17 bytes has a frame of
128 bytes and fails the assertion `msg_sz < rbf_sz`. -/
theorem round_trip_sizes_fail :
    send_report (RDMA_Adaptor.send (demo_adaptor 128) 0 (Ring.at_pos 0) []) = .ok (true, 16) ∧
    RDMA_Adaptor.check (demo_adaptor 128)
      ((RDMA_Adaptor.send (demo_adaptor 128) 0 (Ring.at_pos 0) []).get
        (false, Ring.at_pos 0)).2 = false ∧
    (RDMA_Adaptor.recv (demo_adaptor 128) 1 6
      ⟨fun _ => ((RDMA_Adaptor.send (demo_adaptor 128) 0 (Ring.at_pos 0) []).get
        (false, Ring.at_pos 0)).2, 0⟩).returns = false ∧
    (demo_payload 111).length = 128 - 17 ∧
    send_report (RDMA_Adaptor.send (demo_adaptor 128) 0 (Ring.at_pos 0) (demo_payload 111))
      = .abort := by
  decide

/-- C26 (amended): on an empty ring whose size is a multiple of eight and at
least 48 bytes, a `send` of a payload of 1, 7, 8, 9 or ring_size/2 bytes returns
true, on a local ring and on a remote one, and the following `recv` of the
reader returns the payload byte for byte, when the other rings of the reader
hold no message. -/
theorem ring_round_trip (W A : Adaptor) (t : Rings) (s : List Nat) (n : Nat)
    (hW : W.rbf_sz = n) (hA : A.rbf_sz = n) (hWi : W.init = true) (hAi : A.init = true)
    (h48 : 48 ≤ n) (inv : RingInv n (t.ring W.sid) [])
    (hb : (t.ring W.sid).tail + 2 * n < 2 ^ 64)
    (hsz : s.length ∈ [1, 7, 8, 9, n / 2])
    (hbuf : W.sid ≠ A.sid → frame_sz s.length < W.buf_sz)
    (hsrc : W.sid < A.num_servers) (hcnt : t.rr_cnt + A.num_servers < 2 ^ 64)
    (ho : ∀ i, i < A.num_servers → i ≠ W.sid → RDMA_Adaptor.check A (t.ring i) = false) :
    ∃ r2, RDMA_Adaptor.send W A.sid (t.ring W.sid) s = .ok (true, r2) ∧
      ∀ spin fuel, A.num_servers ≤ fuel →
        ∃ t2, RDMA_Adaptor.recv A (spin + 1) fuel
          ⟨fun i => if i = W.sid then r2 else t.ring i, t.rr_cnt⟩ = .ok (s, t2) := by
  have hfs : frame_sz s.length = 16 + (s.length + 7) / 8 * 8 := rfl
  obtain ⟨k, hk⟩ := inv.al
  have e : (t.ring W.sid).head = (t.ring W.sid).tail := inv.frames
  have hlag := inv.lag
  have hlen : 1 ≤ s.length ∧ frame_sz s.length + n / 8 ≤ n := by
    simp only [List.mem_cons, List.mem_singleton, List.not_mem_nil, or_false] at hsz
    rcases hsz with h | h | h | h | h <;> rw [hfs, h] <;> omega
  have hs : s ≠ [] := List.length_pos.1 hlen.1
  obtain ⟨r2, h2⟩ := inv.send_room hW hWi hs (by omega) (by omega) (by omega) hbuf
  obtain ⟨inv2, ht, _, _, _⟩ := inv.sent hW hs (by omega) (by omega) h2
  rw [List.nil_append] at inv2
  refine ⟨r2, h2, fun spin fuel hfuel => ?_⟩
  obtain ⟨r3, h3, _⟩ := inv2.fetched A hA (by omega) spin
  refine recv_finds A (spin + 1) W.sid s r3
    ⟨fun i => if i = W.sid then r2 else t.ring i, t.rr_cnt⟩ hAi hsrc hcnt (fun i hi hne => ?_) ?_ ?_ fuel hfuel
  · show RDMA_Adaptor.check A (if i = W.sid then r2 else t.ring i) = false
    rw [if_neg hne]
    exact ho i hi hne
  · show RDMA_Adaptor.check A (if W.sid = W.sid then r2 else t.ring W.sid) = true
    rw [if_pos rfl]
    exact inv2.check A hA (by omega)
  · show RDMA_Adaptor.fetch A (spin + 1) (if W.sid = W.sid then r2 else t.ring W.sid) = _
    rw [if_pos rfl]
    exact h3

set_option maxRecDepth 100000 in
theorem ring_round_trip_witness :
    RingInv 128 (Ring.at_pos 0) [] ∧ (demo_payload 9).length ∈ [1, 7, 8, 9, 128 / 2] ∧
    ∃ r2, RDMA_Adaptor.send (peer_adaptor 128) 0 (Ring.at_pos 0) (demo_payload 9)
        = .ok (true, r2) ∧
      ∀ spin fuel, 2 ≤ fuel →
        ∃ t2, RDMA_Adaptor.recv (demo_adaptor 128) (spin + 1) fuel
          ⟨fun i => if i = 1 then r2 else Ring.at_pos 0, 0⟩ = .ok (demo_payload 9, t2) :=
  have inv : RingInv 128 (Ring.at_pos 0) [] :=
    ⟨by decide, by decide, by decide, by decide, rfl, by decide, by decide, rfl⟩
  ⟨inv, by decide,
    ring_round_trip (peer_adaptor 128) (demo_adaptor 128) ⟨fun _ => Ring.at_pos 0, 0⟩
      (demo_payload 9) 128 rfl rfl rfl rfl (by decide) inv (by decide) (by decide)
      (fun _ => by decide) (by decide) (by decide)
      (fun _ _ _ => (by decide :
        RDMA_Adaptor.check (demo_adaptor 128) (Ring.at_pos 0) = false))⟩

/-- C27: on a ring whose size is a multiple of eight, empty and in order, when
the sends of the non-empty payloads m1, …, mk on that ring all return true, on a
local ring or on a remote one, then k successive fetches on that ring return
m1, …, mk in that order, byte for byte; so m1 is delivered before m2.  The
lengths leave room for the frame in 64 bits and the tail is two rings away from
the end of the 64-bit counter. -/
theorem ring_fifo (W A : Adaptor) (dst n : Nat) (r r2 : Ring) (ms : List (List Nat))
    (hW : W.rbf_sz = n) (hA : A.rbf_sz = n) (inv : RingInv n r [])
    (hb : r.tail + 2 * n < 2 ^ 64)
    (hms : ∀ s, s ∈ ms → s ≠ [] ∧ s.length + 24 < 2 ^ 64)
    (hs : sends W dst r ms = .ok (ms.map fun _ => true, r2)) (spin : Nat) :
    ∃ r3, fetches A (spin + 1) ms.length r2 = .ok (ms, r3) := by
  have e : r.head = r.tail := inv.frames
  have hp := inv.pub
  obtain ⟨inv2, hr, _⟩ := sends_true hW ms inv hms (by omega) hs
  rw [List.nil_append] at inv2
  have hroom := inv2.room
  obtain ⟨r3, h3, _⟩ := fetches_all A hA spin ms inv2 (by omega)
  exact ⟨r3, h3⟩

set_option maxRecDepth 100000 in
theorem ring_fifo_witness :
    RingInv 128 (Ring.at_pos 0) [] ∧
    sends (peer_adaptor 128) 0 (Ring.at_pos 0) [demo_payload 9, demo_payload 60]
      = .ok ([true, true], fifo_ring) ∧
    ∃ r3, fetches (demo_adaptor 128) 1 2 fifo_ring
      = .ok ([demo_payload 9, demo_payload 60], r3) :=
  have inv : RingInv 128 (Ring.at_pos 0) [] :=
    ⟨by decide, by decide, by decide, by decide, rfl, by decide, by decide, rfl⟩
  have hs : sends (peer_adaptor 128) 0 (Ring.at_pos 0) [demo_payload 9, demo_payload 60]
      = .ok ([true, true], fifo_ring) :=
    Outcome.ok_pair ([], Ring.at_pos 0) (by decide) (by decide)
  ⟨inv, hs, ring_fifo (peer_adaptor 128) (demo_adaptor 128) 0 128 (Ring.at_pos 0) fifo_ring
    [demo_payload 9, demo_payload 60] rfl rfl inv (by decide) (by decide) hs 0⟩

/-- C28: on a ring in order, whose size is a multiple of eight and at least 40
bytes, sends of payloads of ring_size/3 bytes without any receive return false
after at most two sends that return true; the ring is then as that send found
it; and after the reader has fetched every message sent so far, the next send
of a payload of that size returns true. -/
theorem ring_overflow_recovery (W A : Adaptor) (dst n : Nat) (r : Ring) (q : List (List Nat))
    (p : Nat → List Nat) (hW : W.rbf_sz = n) (hA : A.rbf_sz = n) (hinit : W.init = true)
    (h40 : 40 ≤ n) (inv : RingInv n r q) (hb : r.tail + 3 * n < 2 ^ 64)
    (hbuf : W.sid ≠ dst → frame_sz (n / 3) < W.buf_sz)
    (hp : ∀ i, (p i).length = n / 3) :
    ∃ k, k ≤ 2 ∧ ∃ rk,
      sends W dst r ((List.range k).map p) = .ok (List.replicate k true, rk) ∧
      RDMA_Adaptor.send W dst rk (p k) = .ok (false, rk) ∧
      ∀ spin, ∃ r3,
        fetches A (spin + 1) (q.length + k) rk = .ok (q ++ (List.range k).map p, r3) ∧
        ∃ r4, RDMA_Adaptor.send W dst r3 (p (k + 1)) = .ok (true, r4) := by
  have hfs : frame_sz (n / 3) = 16 + (n / 3 + 7) / 8 * 8 := rfl
  obtain ⟨j, hj⟩ := inv.al
  have hne : ∀ i, p i ≠ [] := fun i => List.length_pos.1 (by rw [hp i]; omega)
  have hfr : ∀ i, frame_sz (p i).length = frame_sz (n / 3) := fun i => by rw [hp i]
  have hlt : frame_sz (n / 3) < n := by omega
  have hdr : frame_sz (n / 3) + n / 8 ≤ n := by omega
  have hbf : ∀ i, W.sid ≠ dst → frame_sz (p i).length < W.buf_sz := fun i h => by
    rw [hfr i]
    exact hbuf h
  have hle := inv.frames.le
  have hpub := inv.pub
  rcases inv.send_step hW hinit (hne 0) (by rw [hfr 0]; exact hlt) (by omega) (hbf 0) with
    ⟨_, h0⟩ | ⟨_, r1, h1, inv1, t1, rh1⟩
  · refine ⟨0, by omega, r, rfl, h0, fun spin => ?_⟩
    have := inv.drain_send hW hA hinit (hne 1) (by rw [hfr 1]; exact hdr)
      (by rw [hfr 1]; exact hlt) (by omega) (hbf 1) spin
    simpa using this
  rw [hfr 0] at t1
  rcases inv1.send_step hW hinit (hne 1) (by rw [hfr 1]; exact hlt) (by omega) (hbf 1) with
    ⟨_, h0⟩ | ⟨_, r2, h2, inv2, t2, rh2⟩
  · refine ⟨1, by omega, r1, ?_, h0, fun spin => ?_⟩
    · show sends W dst r [p 0] = .ok ([true], r1)
      simp only [sends, h1, Outcome.bind]
    · have := inv1.drain_send hW hA hinit (hne 2) (by rw [hfr 2]; exact hdr)
        (by rw [hfr 2]; exact hlt) (by omega) (hbf 2) spin
      rw [List.length_append, List.length_singleton] at this
      exact this
  rw [hfr 1] at t2
  rcases inv2.send_step hW hinit (hne 2) (by rw [hfr 2]; exact hlt) (by omega) (hbf 2) with
    ⟨_, h0⟩ | ⟨h3, _⟩
  · refine ⟨2, by omega, r2, ?_, h0, fun spin => ?_⟩
    · show sends W dst r [p 0, p 1] = .ok ([true, true], r2)
      simp only [sends, h1, h2, Outcome.bind]
    · have := inv2.drain_send hW hA hinit (hne 3) (by rw [hfr 3]; exact hdr)
        (by rw [hfr 3]; exact hlt) (by omega) (hbf 3) spin
      rw [List.append_assoc, List.length_append] at this
      exact this
  · rw [hfr 2] at h3
    omega

set_option maxRecDepth 100000 in
theorem ring_overflow_recovery_witness :
    RingInv 128 (Ring.at_pos 0) [] ∧ (demo_payload 42).length = 128 / 3 ∧
    ∃ k, k ≤ 2 ∧ ∃ rk,
      sends (demo_adaptor 128) 0 (Ring.at_pos 0) ((List.range k).map fun _ => demo_payload 42)
        = .ok (List.replicate k true, rk) ∧
      RDMA_Adaptor.send (demo_adaptor 128) 0 rk (demo_payload 42) = .ok (false, rk) ∧
      ∀ spin, ∃ r3,
        fetches (demo_adaptor 128) (spin + 1) (0 + k) rk
          = .ok ([] ++ (List.range k).map fun _ => demo_payload 42, r3) ∧
        ∃ r4, RDMA_Adaptor.send (demo_adaptor 128) 0 r3 (demo_payload 42) = .ok (true, r4) :=
  have inv : RingInv 128 (Ring.at_pos 0) [] :=
    ⟨by decide, by decide, by decide, by decide, rfl, by decide, by decide, rfl⟩
  ⟨inv, by decide,
    ring_overflow_recovery (demo_adaptor 128) (demo_adaptor 128) 0 128 (Ring.at_pos 0) []
      (fun _ => demo_payload 42) rfl rfl rfl (by decide) inv (by decide)
      (fun h => absurd rfl h) (fun _ => (by decide : (demo_payload 42).length = 128 / 3))⟩

/-- C29: with the frame smaller than the ring, `msg_size` being
`8 + round8(payload_size) + 8`, `send` returns false exactly when
`ring_size < tail − published_head + msg_size`, and it then returns the ring as
it was, the tail and every byte; otherwise it returns true and the tail is
larger by exactly `msg_size`, on a local ring and on a remote one, the empty
string at the end of a local ring included.  The adaptor is initialised, the
64-bit tail does not wrap, and on a remote ring the frame is smaller than the
buffer of the writer. -/
theorem send_overflow_exact (W : Adaptor) (dst : Nat) (r : Ring) (s : List Nat)
    (hinit : W.init = true) (hmsg : frame_sz s.length < W.rbf_sz)
    (hw : r.tail + W.rbf_sz < 2 ^ 64) (hpub : r.remote_head ≤ r.tail)
    (hrem : W.sid ≠ dst → frame_sz s.length < W.buf_sz) :
    frame_sz s.length = 8 + (s.length + 7) / 8 * 8 + 8 ∧
    ∃ b r2, RDMA_Adaptor.send W dst r s = .ok (b, r2) ∧
      (b = false ↔ W.rbf_sz < r.tail - r.remote_head + frame_sz s.length) ∧
      (b = false → r2 = r) ∧
      (b = true → r2.tail = r.tail + frame_sz s.length ∧ r2.head = r.head ∧
        r2.local_head = r.local_head ∧ r2.remote_head = r.remote_head) := by
  have hfs : frame_sz s.length = 16 + (s.length + 7) / 8 * 8 := rfl
  refine ⟨by omega, ?_⟩
  by_cases hfull : W.rbf_sz < r.tail - r.remote_head + frame_sz s.length
  · exact ⟨false, r, send_full W dst r s hinit hmsg hw hpub hfull, ⟨fun _ => hfull, fun _ => rfl⟩,
      fun _ => rfl, fun h => Bool.noConfusion h⟩
  · have hc : ceil s.length SIZEOF_U64 = (s.length + 7) / 8 * 8 := ceil_eight (by omega)
    have e1 := frame_sz_eq s.length (by omega)
    rw [hc] at e1
    have e2 : rbf_full W r (frame_sz s.length) = false := by
      rw [rbf_full_eq W r _ hpub (by omega)]
      exact decide_eq_false hfull
    have e3 : (r.tail + frame_sz s.length) % 2 ^ 64 = r.tail + frame_sz s.length :=
      Nat.mod_eq_of_lt (by omega)
    have hres : ∃ r2, RDMA_Adaptor.send W dst r s = .ok (true, r2) ∧
        r2.tail = r.tail + frame_sz s.length ∧ r2.head = r.head ∧
        r2.local_head = r.local_head ∧ r2.remote_head = r.remote_head := by
      simp only [RDMA_Adaptor.send, hinit, Bool.not_true, Bool.false_eq_true, if_false, e1, hmsg,
        not_true_eq_false, e2, e3, hc]
      by_cases hl : W.sid = dst
      · rw [if_pos hl]
        exact ⟨_, rfl, rfl, rfl, rfl, rfl⟩
      · rw [if_neg hl]
        simp only [hrem hl, not_true_eq_false, if_false]
        split_ifs
        · exact ⟨_, rfl, rfl, rfl, rfl, rfl⟩
        · exact ⟨_, rfl, rfl, rfl, rfl, rfl⟩
    obtain ⟨r2, h1, h2⟩ := hres
    exact ⟨true, r2, h1, ⟨fun h => Bool.noConfusion h, fun h => absurd h hfull⟩,
      fun h => Bool.noConfusion h, fun _ => h2⟩

set_option maxRecDepth 100000 in
theorem send_overflow_exact_witness :
    (demo_adaptor 128).init = true ∧ frame_sz ([] : List Nat).length < (demo_adaptor 128).rbf_sz ∧
    send_report (RDMA_Adaptor.send (demo_adaptor 128) 0 (Ring.at_pos 120) []) = .ok (true, 136) ∧
    (frame_sz ([] : List Nat).length = 8 + (([] : List Nat).length + 7) / 8 * 8 + 8 ∧
    ∃ b r2, RDMA_Adaptor.send (demo_adaptor 128) 0 (Ring.at_pos 120) [] = .ok (b, r2) ∧
      (b = false ↔ (demo_adaptor 128).rbf_sz
        < (Ring.at_pos 120).tail - (Ring.at_pos 120).remote_head
          + frame_sz ([] : List Nat).length) ∧
      (b = false → r2 = Ring.at_pos 120) ∧
      (b = true → r2.tail = (Ring.at_pos 120).tail + frame_sz ([] : List Nat).length ∧
        r2.head = (Ring.at_pos 120).head ∧ r2.local_head = (Ring.at_pos 120).local_head ∧
        r2.remote_head = (Ring.at_pos 120).remote_head)) :=
  ⟨rfl, by decide, by decide,
    send_overflow_exact (demo_adaptor 128) 0 (Ring.at_pos 120) [] rfl (by decide) (by decide)
      (by decide) (fun h => absurd rfl h)⟩

/-- C30: for every ring size, ring position head = tail and non-empty payload
such that the frame is smaller than the ring and fits into its room and the
header word and the footer word lie inside the ring, a `send`, into a local
ring or a remote one, returns true and the `fetch` that follows returns the
payload byte for byte, whether or not the bytes of the payload cross the end of
the ring. -/
theorem ring_straddle (W A : Adaptor) (dst : Nat) (r : Ring) (s : List Nat)
    (hsz : A.rbf_sz = W.rbf_sz) (hinit : W.init = true) (hs : s ≠ [])
    (hpos : r.head = r.tail) (hpub : r.remote_head ≤ r.tail)
    (hmsg : frame_sz s.length < W.rbf_sz)
    (hroom : r.tail + frame_sz s.length ≤ r.remote_head + W.rbf_sz)
    (hw : r.tail + W.rbf_sz < 2 ^ 64)
    (hhdr : r.tail % W.rbf_sz + 8 ≤ W.rbf_sz)
    (hftr : (r.tail + 8 + (s.length + 7) / 8 * 8) % W.rbf_sz + 8 ≤ W.rbf_sz)
    (hbuf : W.sid ≠ dst → frame_sz s.length < W.buf_sz) :
    ∃ r2, RDMA_Adaptor.send W dst r s = .ok (true, r2) ∧
      ∀ spin, ∃ r3, RDMA_Adaptor.fetch A (spin + 1) r2 = .ok (s, r3) := by
  have hn : 0 < W.rbf_sz := by omega
  obtain ⟨r2, F, hsend, ht, hh, _, _, hWr, hF⟩ := @send_frame W dst r s r.tail hinit hn hmsg hw
    hpub hroom hhdr hftr (fun _ => Or.inl hs) hbuf (Nat.le_refl _) (by omega)
  have hf : Frame A.rbf_sz r2.rbf r2.head s := by
    rw [hsz, hh, hpos]
    exact Frame.of_writes hWr hF (Nat.le_refl _) (by omega)
  refine ⟨r2, hsend, fun spin => ?_⟩
  obtain ⟨r3, h3, _⟩ := fetch_frame A r2 s (by rw [hsz]; exact hn) hf hs
    (by rw [hsz]; omega) (by rw [hsz, hh, hpos]; exact hw) (by rw [hsz, hh, hpos]; exact hhdr)
    (by rw [hsz, hh, hpos]; exact hftr) spin
  exact ⟨r3, h3⟩

set_option maxRecDepth 100000 in
theorem ring_straddle_witness :
    frame_sz (demo_payload 60).length = 80 ∧
    128 < (100 + 8) % 128 + (demo_payload 60).length ∧
    ∃ r2, RDMA_Adaptor.send (peer_adaptor 128) 0 (Ring.at_pos 100) (demo_payload 60)
        = .ok (true, r2) ∧
      ∀ spin, ∃ r3, RDMA_Adaptor.fetch (demo_adaptor 128) (spin + 1) r2
        = .ok (demo_payload 60, r3) :=
  ⟨by decide, by decide,
    ring_straddle (peer_adaptor 128) (demo_adaptor 128) 0 (Ring.at_pos 100) (demo_payload 60)
      rfl rfl (by decide) rfl (by decide) (by decide) (by decide) (by decide) (by decide)
      (by decide) (fun _ => by decide)⟩

/-! ## C31 to C40: the verifier, the presence test, frames and invariants -/

/-- C33: in every store state reached from `refresh()` by insert operations and
for every non-empty key `k`, `check_key_exist(k)` returns a value (the probe
loop is never left by falling through, which the model renders as an abort);
the value is `true` exactly when `k` sits in a data slot of a bucket in use,
which is exactly when `get_vertex_local(k)` returns a non-empty vertex, and
`false` otherwise. -/
theorem check_key_exist_decides (hash_u64 : Nat → Nat) (g0 g : GStore) (cfg : Config g0)
    (hb : Built hash_u64 g0 g) (k : ikey_t) (hk : k.is_empty = false) :
    ∃ r v, check_key_exist hash_u64 g k = .ok r ∧ get_vertex_local hash_u64 g k = .ok v ∧
      (r = true ↔ g.occupies k) ∧ (r = true ↔ v.key.is_empty = false) ∧
      (r = true → v.key = k) ∧ (r = false → v = vertex_t.zero) := by
  have wf := hb.wellformed cfg
  have hkz : k ≠ ikey_t.zero := (ikey_t.is_empty_false_iff k).1 hk
  obtain ⟨r, hr, hiff⟩ := check_key_exist_spec wf hkz
  by_cases ho : g.occupies k
  · obtain ⟨c, j, hc, hj, hkey⟩ := ho
    have hv := get_vertex_local_present wf hkz hc hj hkey
    have hrt : r = true := hiff.2 ⟨c, j, hc, hj, hkey⟩
    have hvk : (g.vertices (c * ASSOCIATIVITY + j)).key = k := hkey
    refine ⟨r, _, hr, hv, hiff, ?_, fun _ => hvk, fun hf => ?_⟩
    · rw [hvk]
      exact ⟨fun _ => hk, fun _ => hrt⟩
    · rw [hrt] at hf
      exact Bool.noConfusion hf
  · have hv := get_vertex_local_absent wf ((lacks_iff g k).2 ho)
    have hrf : r = false := by
      cases r with
      | false => rfl
      | true => exact absurd (hiff.1 rfl) ho
    refine ⟨r, _, hr, hv, hiff, ?_, fun hf => ?_, fun _ => rfl⟩
    · rw [hrf]
      exact ⟨fun h => Bool.noConfusion h, fun h => by simp [vertex_t.zero, ikey_t.zero, ikey_t.is_empty] at h⟩
    · rw [hrf] at hf
      exact Bool.noConfusion hf

set_option maxRecDepth 100000 in
theorem check_key_exist_decides_witness :
    Config demo_store ∧ Built demo_hash demo_store demo_grown.2 ∧
    demo_eighth_key.is_empty = false ∧
    ∃ r v, check_key_exist demo_hash demo_grown.2 demo_eighth_key = .ok r ∧
      get_vertex_local demo_hash demo_grown.2 demo_eighth_key = .ok v ∧
      (r = true ↔ demo_grown.2.occupies demo_eighth_key) ∧
      (r = true ↔ v.key.is_empty = false) ∧
      (r = true → v.key = demo_eighth_key) ∧ (r = false → v = vertex_t.zero) :=
  ⟨demo_config, demo_grown_built, by decide,
    check_key_exist_decides demo_hash demo_store demo_grown.2 demo_config demo_grown_built
      demo_eighth_key (by decide)⟩

/-- C34: in every store state reached from `refresh()` by insert operations, a
successful `insert_key(k, ·)` changes no value pointer, no edge and none of the
sizes; it changes the key of at most one data slot, the returned one, which held
`k` or was empty and holds `k` afterwards, and of at most one chain link, which
was empty and receives the id of the new indirect bucket, `last_ext` going up by
one in that case and staying otherwise; the new key apart, which goes into the
empty first slot of the new bucket, no other slot changes, and the key of an
occupied slot never changes.  So every non-empty key that `get_vertex_local`
finds before the call is found afterwards at the same slot with the same
pointer.  Writes to pointers and edges leave all keys alone, and `refresh()`
empties every slot. -/
theorem occupied_slots_stay (hash_u64 : Nat → Nat) (g0 g : GStore) (cfg : Config g0)
    (hb : Built hash_u64 g0 g) (key : ikey_t) (check_dup : Bool) (s : Nat) (g2 : GStore)
    (h : insert_key hash_u64 g key check_dup = .ok (s, g2)) :
    (∀ n, (g2.vertices n).ptr = (g.vertices n).ptr) ∧ g2.edges = g.edges ∧
    g2.num_slots = g.num_slots ∧ g2.num_buckets = g.num_buckets ∧
    g2.num_buckets_ext = g.num_buckets_ext ∧ g2.num_entries = g.num_entries ∧
    g2.last_entry = g.last_entry ∧
    (∀ n, (g.vertices n).key.is_empty = false → (g2.vertices n).key = (g.vertices n).key) ∧
    ((g.vertices s).key = key ∨ (g.vertices s).key.is_empty = true) ∧
    (g2.vertices s).key = key ∧ (∃ c j, j < ASSOCIATIVITY - 1 ∧ s = c * ASSOCIATIVITY + j) ∧
    ((g2.last_ext = g.last_ext ∧ ∀ n, n ≠ s → (g2.vertices n).key = (g.vertices n).key) ∨
      (g2.last_ext = g.last_ext + 1 ∧ ∃ c, g.link c = ikey_t.zero ∧
        g2.link c = ⟨g.num_buckets + g.last_ext, 0, 0⟩ ∧
        ∀ n, n ≠ s → n ≠ c * ASSOCIATIVITY + (ASSOCIATIVITY - 1) →
          (g2.vertices n).key = (g.vertices n).key)) ∧
    (∀ k t, k.is_empty = false → get_slot_local hash_u64 g k = .ok (some t) →
      get_slot_local hash_u64 g2 k = .ok (some t) ∧ g2.vertices t = g.vertices t) ∧
    (∀ k v, get_vertex_local hash_u64 g k = .ok v → v.key.is_empty = false →
      get_vertex_local hash_u64 g2 k = .ok v) ∧
    (∀ i p n, ((g.set_ptr i p).vertices n).key = (g.vertices n).key) ∧
    (∀ i v n, ((g.set_edge i v).vertices n).key = (g.vertices n).key) ∧
    (∀ n, n < g.num_slots → (refresh g).vertices n = vertex_t.zero) := by
  have wf := hb.wellformed cfg
  have wf2 := insert_key_wf wf h
  obtain ⟨hptr, hedges, ⟨c1, c2, c3, c4⟩, hle, _, _⟩ := insert_key_frame wf h
  obtain ⟨⟨cs, js, hcs, hjs, hs, hks⟩, hused, hkeep, _⟩ := insert_key_slots wf h
  have hocc : ∀ n, (g.vertices n).key.is_empty = false →
      (g2.vertices n).key = (g.vertices n).key := by
    intro n hn
    have hnz : (g.vertices n).key ≠ ikey_t.zero := (ikey_t.is_empty_false_iff _).1 hn
    rcases insert_key_shape wf h with ⟨_, c, j, _, _, hsj, hor, hk⟩ | ⟨_, hroom, hsu, c, _, hl, _, hk⟩
    · rw [hk]
      split_ifs with e
      · subst e
        rcases hor with h1 | h1
        · rw [← h1, hsj]; rfl
        · exfalso
          apply hnz
          rw [hsj]
          exact h1
      · rfl
    · rw [hk]
      split_ifs with e1 e2
      · exfalso
        apply hnz
        rw [e1, hsu]
        have := wf.fresh g.used 0 (le_refl _) (by unfold GStore.used; omega)
          (by simp [ASSOCIATIVITY])
        simpa [GStore.key_at] using this
      · exfalso
        apply hnz
        rw [e2]
        exact hl
      · rfl
  have hslot : ∀ k t, k.is_empty = false → get_slot_local hash_u64 g k = .ok (some t) →
      ∃ c j, c < g.used ∧ j < ASSOCIATIVITY - 1 ∧ t = c * ASSOCIATIVITY + j ∧
        g.key_at c j = k := by
    intro k t _ hg
    obtain ⟨r, hr, hsome, _⟩ := get_slot_local_spec wf k
    rw [hg] at hr
    injection hr with hr
    exact hsome t hr.symm
  refine ⟨hptr, hedges, c1, c2, c3, c4, hle, hocc, ?_, ?_, ⟨cs, js, hjs, hs⟩, ?_, ?_, ?_,
    fun i p n => ?_, fun _ _ _ => rfl, fun n hn => ?_⟩
  · rcases insert_key_shape wf h with ⟨_, c, j, _, _, hsj, hor, _⟩ | ⟨_, hroom, hsu, _⟩
    · rw [hsj]
      rcases hor with h1 | h1
      · exact Or.inl h1
      · exact Or.inr ((ikey_t.is_empty_iff _).2 h1)
    · right
      rw [hsu]
      have := wf.fresh g.used 0 (le_refl _) (by unfold GStore.used; omega)
        (by simp [ASSOCIATIVITY])
      exact (ikey_t.is_empty_iff _).2 (by simpa [GStore.key_at] using this)
  · rw [hs]
    exact hks
  · rcases insert_key_shape wf h with ⟨hl1, c, j, _, _, _, _, hk⟩ | ⟨hl1, hroom, hsu, c, hc, hl, _, hk⟩
    · refine Or.inl ⟨hl1, fun n hn => ?_⟩
      rw [hk, if_neg hn]
    · refine Or.inr ⟨hl1, c, hl, ?_, fun n h1 h2 => ?_⟩
      · unfold GStore.link GStore.key_at
        rw [hk, if_neg, if_pos rfl]
        · rfl
        · intro e
          have := (slot_inj0 (by simp [ASSOCIATIVITY]) (e.trans hsu)).2
          simp [ASSOCIATIVITY] at this
      · rw [hk, if_neg h1, if_neg h2]
  · intro k t hk hg
    obtain ⟨c, j, hc, hj, ht, hkey⟩ := hslot k t hk hg
    have hkz : k ≠ ikey_t.zero := (ikey_t.is_empty_false_iff k).1 hk
    have hk2 : g2.key_at c j = k := by
      rw [hkeep c j hc hj (by rw [hkey]; exact hkz)]
      exact hkey
    refine ⟨?_, ?_⟩
    · rw [ht]
      exact get_slot_local_present wf2 hkz (by omega) hj hk2
    · have e1 : (g2.vertices t).key = (g.vertices t).key := by
        rw [ht]
        exact hk2.trans hkey.symm
      have e2 := hptr t
      cases hv2 : g2.vertices t with
      | mk k2 p2 =>
        cases hv : g.vertices t with
        | mk k1 p1 =>
          rw [hv2, hv] at e1 e2
          simp only at e1 e2
          rw [e1, e2]
  · intro k v hg hne
    obtain ⟨c, j, hc, hj, hkey, hv, hkz⟩ := get_vertex_local_cases wf hg hne
    have hk2 : g2.key_at c j = k := by
      rw [hkeep c j hc hj (by rw [hkey]; exact hkz)]
      exact hkey
    rw [get_vertex_local_present wf2 hkz (by omega) hj hk2, hv]
    congr 1
    have e1 : (g2.vertices (c * ASSOCIATIVITY + j)).key
        = (g.vertices (c * ASSOCIATIVITY + j)).key := hk2.trans hkey.symm
    have e2 := hptr (c * ASSOCIATIVITY + j)
    cases hv2 : g2.vertices (c * ASSOCIATIVITY + j) with
    | mk k2 p2 =>
      cases hv1 : g.vertices (c * ASSOCIATIVITY + j) with
      | mk k1 p1 =>
        rw [hv2, hv1] at e1 e2
        simp only at e1 e2
        rw [e1, e2]
  · simp only [GStore.set_ptr]
    split_ifs with e
    · rw [e]
    · rfl
  · simp only [refresh, if_pos hn]

set_option maxRecDepth 100000 in
theorem occupied_slots_stay_witness :
    Config demo_store ∧ Built demo_hash demo_store demo_full_store ∧
    insert_key demo_hash demo_full_store demo_eighth_key true = .ok demo_grown ∧
    demo_grown.2.last_ext = demo_full_store.last_ext + 1 ∧
    (∀ n, (demo_grown.2.vertices n).ptr = (demo_full_store.vertices n).ptr) ∧
    (∀ n, (demo_full_store.vertices n).key.is_empty = false →
      (demo_grown.2.vertices n).key = (demo_full_store.vertices n).key) :=
  have h := occupied_slots_stay demo_hash demo_store demo_full_store demo_config
    demo_full_built demo_eighth_key true demo_grown.1 demo_grown.2 demo_grown_step
  ⟨demo_config, demo_full_built, demo_grown_step, by decide, h.1, h.2.2.2.2.2.2.2.1⟩

/-- C36: in every store state reached from `refresh()` by `insert_key` calls
(and writes that leave the keys alone), `last_ext ≤ num_buckets_ext`; within
each bucket the occupied data slots form a prefix of its `A - 1` data slots; a
chain link is non-empty only if all `A - 1` data slots of its bucket are
occupied; every non-empty chain link holds only a bucket id, which lies in
`[num_buckets, num_buckets + last_ext)` and is larger than the id of its own
bucket, so chains do not cycle; each indirect bucket in use is the target of
exactly one chain link; and the scan of `insert_index`, which stops at the first
empty slot of each bucket in `[0, num_buckets + last_ext)`, visits exactly the
occupied data slots. -/
theorem bucket_structure (hash_u64 : Nat → Nat) (g0 g : GStore) (cfg : Config g0)
    (hb : Built hash_u64 g0 g) :
    g.last_ext ≤ g.num_buckets_ext ∧
    (∀ b i j, b < g.num_buckets + g.num_buckets_ext → i < j → j < ASSOCIATIVITY - 1 →
      g.key_at b j ≠ ikey_t.zero → g.key_at b i ≠ ikey_t.zero) ∧
    (∀ b j, b < g.num_buckets + g.num_buckets_ext → g.link b ≠ ikey_t.zero →
      j < ASSOCIATIVITY - 1 → g.key_at b j ≠ ikey_t.zero) ∧
    (∀ b, b < g.num_buckets + g.num_buckets_ext → g.link b ≠ ikey_t.zero →
      g.link b = ⟨(g.link b).vid, 0, 0⟩ ∧ g.num_buckets ≤ (g.link b).vid ∧
      (g.link b).vid < g.num_buckets + g.last_ext ∧ b < (g.link b).vid) ∧
    (∀ a b, a < g.num_buckets + g.num_buckets_ext → OnChain g a b → OnChain g b a → a = b) ∧
    (∀ e, g.num_buckets ≤ e → e < g.num_buckets + g.last_ext →
      ∃ b, b < g.num_buckets + g.num_buckets_ext ∧ g.link b ≠ ikey_t.zero ∧
        (g.link b).vid = e ∧
        ∀ c, c < g.num_buckets + g.num_buckets_ext → g.link c ≠ ikey_t.zero →
          (g.link c).vid = e → c = b) ∧
    (∀ s, s ∈ g.occupied ↔ ∃ b j, b < g.num_buckets + g.num_buckets_ext ∧
      j < ASSOCIATIVITY - 1 ∧ s = b * ASSOCIATIVITY + j ∧ g.key_at b j ≠ ikey_t.zero) ∧
    g.occupied.Nodup ∧
    (∀ versatile m, scan_buckets versatile g (g.num_buckets + g.last_ext) 0 m
      = scan_puts versatile m (g.occupied.map g.view)) := by
  have wf := hb.wellformed cfg
  have hl := hb.chain_linked cfg
  have hunused : ∀ b j, b < g.num_buckets + g.num_buckets_ext → j < ASSOCIATIVITY →
      g.key_at b j ≠ ikey_t.zero → b < g.used := by
    intro b j hb1 hj hne
    by_contra hge
    exact hne (wf.fresh b j (by omega) hb1 hj)
  have hext := wf.ext_le
  refine ⟨wf.ext_le, ?_, ?_, ?_, ?_, ?_, ?_, occupied_nodup g, ?_⟩
  · intro b i j hb1 hij hj hne
    exact wf.pfx b i j (hunused b j hb1 (by omega) hne) hij hj hne
  · intro b j hb1 hne hj
    exact wf.link_full b j (hunused b _ hb1 (by simp [ASSOCIATIVITY]) hne) hne hj
  · intro b hb1 hne
    obtain ⟨h1, h2, h3, h4, h5⟩ :=
      wf.link_ok b (hunused b _ hb1 (by simp [ASSOCIATIVITY]) hne) hne
    refine ⟨?_, h4, h5, h3⟩
    cases hk : g.link b with
    | mk v p d =>
      rw [hk] at h1 h2
      simp only at h1 h2
      rw [h1, h2]
  · intro a b ha h1 h2
    by_cases hau : a < g.used
    · have b1 := h1.bounds wf hau
      have b2 := h2.bounds wf b1.1
      omega
    · exact (h1.end_eq (wf.fresh a _ (by omega) ha (by simp [ASSOCIATIVITY]))).symm
  · intro e h1 h2
    obtain ⟨b, hb1, hbl, hbv, hu⟩ := hl e h1 h2
    refine ⟨b, by unfold GStore.used at hb1; omega, hbl, hbv, fun c hc hcl hcv => ?_⟩
    exact hu c (hunused c _ hc (by simp [ASSOCIATIVITY]) hcl) hcl hcv
  · intro s
    rw [occupied_mem wf]
    constructor
    · rintro ⟨b, j, h1, h2, h3, h4⟩
      exact ⟨b, j, by unfold GStore.used at h1; omega, h2, h3, h4⟩
    · rintro ⟨b, j, h1, h2, h3, h4⟩
      exact ⟨b, j, hunused b j h1 (by omega) h4, h2, h3, h4⟩
  · intro versatile m
    exact scan_buckets_eq versatile g _ 0 m

set_option maxRecDepth 100000 in
theorem bucket_structure_witness :
    Config demo_store ∧ Built demo_hash demo_store demo_grown.2 ∧
    demo_grown.2.last_ext = 1 ∧ demo_grown.2.link 0 = ⟨5, 0, 0⟩ ∧
    (∀ e, demo_grown.2.num_buckets ≤ e → e < demo_grown.2.num_buckets + demo_grown.2.last_ext →
      ∃ b, b < demo_grown.2.num_buckets + demo_grown.2.num_buckets_ext ∧
        demo_grown.2.link b ≠ ikey_t.zero ∧ (demo_grown.2.link b).vid = e ∧
        ∀ c, c < demo_grown.2.num_buckets + demo_grown.2.num_buckets_ext →
          demo_grown.2.link c ≠ ikey_t.zero → (demo_grown.2.link c).vid = e → c = b) ∧
    demo_grown.2.occupied = [0, 1, 2, 3, 4, 5, 6, 40] :=
  ⟨demo_config, demo_grown_built, by decide, by decide,
    (bucket_structure demo_hash demo_store demo_grown.2 demo_config
      demo_grown_built).2.2.2.2.2.1, by decide⟩

/-- C37: in every store state reached from `refresh()` by `insert_key` calls (and
writes that leave the keys alone) and for every key `k`, the loop of
`get_vertex_local(k)` ends: whatever budget of at least `1 + last_ext` rounds it
is given, it returns the same result and visits the same buckets, at most
`1 + last_ext` of them, all of them in use, and every slot it reads is a slot of
a visited bucket and lies below `num_slots`, the store being configured with
`(num_buckets + num_buckets_ext) * A ≤ num_slots`. -/
theorem local_lookup_terminates (hash_u64 : Nat → Nat) (g0 g : GStore) (cfg : Config g0)
    (hb : Built hash_u64 g0 g) (k : ikey_t) :
    (∃ v, get_vertex_local hash_u64 g k = .ok v) ∧
    ∀ fuel, g.last_ext + 1 ≤ fuel →
      get_slot_local_loop k g fuel (k.hash hash_u64 % g.num_buckets)
        = get_slot_local hash_u64 g k ∧
      (get_slot_local_visits k g fuel (k.hash hash_u64 % g.num_buckets)).length
        ≤ 1 + g.last_ext ∧
      ∀ p, p ∈ get_slot_local_visits k g fuel (k.hash hash_u64 % g.num_buckets) →
        p.1 < g.num_buckets + g.last_ext ∧
        ∀ t, t ∈ p.2 → p.1 * ASSOCIATIVITY ≤ t ∧ t < p.1 * ASSOCIATIVITY + ASSOCIATIVITY ∧
          t < g.num_slots := by
  have wf := hb.wellformed cfg
  have hh : k.hash hash_u64 % g.num_buckets < g.num_buckets := Nat.mod_lt _ wf.nb_pos
  have hu : k.hash hash_u64 % g.num_buckets < g.used := by unfold GStore.used; omega
  have hbud : g.budget (k.hash hash_u64 % g.num_buckets) = g.last_ext + 1 := by
    unfold GStore.budget
    rw [if_pos hh]
  constructor
  · obtain ⟨r, hr, _⟩ := get_slot_local_spec wf k
    unfold get_vertex_local
    rw [hr]
    cases r with
    | some s => exact ⟨_, rfl⟩
    | none => exact ⟨_, rfl⟩
  · intro fuel hf
    obtain ⟨h1, h2, h3⟩ := get_slot_local_visits_spec wf k fuel _ hu (by omega)
    refine ⟨?_, by omega, fun p hp => ?_⟩
    · exact ((h3 (g.last_ext + 1) (by omega)).1).symm
    · obtain ⟨i1, i2⟩ := h2 p hp
      refine ⟨i1, fun t ht => ?_⟩
      obtain ⟨j1, j2⟩ := i2 t ht
      refine ⟨j1, j2, ?_⟩
      have := wf.slot_lt i1 (show t - p.1 * ASSOCIATIVITY < ASSOCIATIVITY by omega)
      omega

set_option maxRecDepth 100000 in
theorem local_lookup_terminates_witness :
    Config demo_store ∧ Built demo_hash demo_store demo_grown.2 ∧
    get_slot_local_visits demo_eighth_key demo_grown.2 9
        (demo_eighth_key.hash demo_hash % demo_grown.2.num_buckets)
      = [(0, [0, 1, 2, 3, 4, 5, 6, 7]), (5, [40])] ∧
    (∃ v, get_vertex_local demo_hash demo_grown.2 demo_eighth_key = .ok v) :=
  ⟨demo_config, demo_grown_built, by decide,
    (local_lookup_terminates demo_hash demo_store demo_grown.2 demo_config demo_grown_built
      demo_eighth_key).1⟩

/-- C38: `INVALID_EDGES` is `2 ^ 28`; every value pointer that a constructor of
`iptr_t` builds has a size below it; so for every vertex `v` whose pointer has
such a size and every edge block whose tag slot at position
`blksz(v.ptr.size + 1) - 1` holds `INVALID_EDGES`, `edge_is_valid(v, block)` is
false when caching is enabled. -/
theorem stale_sentinel_invalid {σ : Type} (E : DynEnv σ) (v : vertex_t) (edge_ptr : List Nat)
    (hsz : v.ptr.size < 2 ^ NBITS_SIZE) (hc : E.global_enable_caching = true)
    (htag : edge_ptr.getD (blksz E (v.ptr.size + 1) - 1) 0 = INVALID_EDGES) :
    INVALID_EDGES = 2 ^ 28 ∧ iptr_t.zero.size < INVALID_EDGES ∧
    (∀ s o t p, iptr_t.make s o t = .ok p → p.size < INVALID_EDGES) ∧
    edge_is_valid E v edge_ptr = false := by
  refine ⟨rfl, by decide, ?_, ?_⟩
  · intro s o t p h
    unfold iptr_t.make at h
    simp only at h
    split_ifs at h
    injection h with h
    subst h
    exact Nat.mod_lt _ (by decide)
  · unfold edge_is_valid
    rw [hc, htag]
    simp only [Bool.not_true, Bool.false_eq_true, if_false, decide_eq_false_iff_not]
    unfold INVALID_EDGES
    omega

theorem stale_sentinel_invalid_witness :
    (⟨⟨131072, 3, OUT⟩, ⟨2, 0, 0⟩⟩ : vertex_t).ptr.size < 2 ^ NBITS_SIZE ∧
    cache_env.global_enable_caching = true ∧
    blksz cache_env 3 - 1 = 3 ∧
    edge_is_valid cache_env ⟨⟨131072, 3, OUT⟩, ⟨2, 0, 0⟩⟩ [7, 8, 0, INVALID_EDGES] = false :=
  ⟨by decide, rfl, by decide,
    (stale_sentinel_invalid cache_env ⟨⟨131072, 3, OUT⟩, ⟨2, 0, 0⟩⟩ [7, 8, 0, INVALID_EDGES]
      (by decide) rfl (by decide)).2.2.2⟩

/-- C40: `is_empty(k)` holds exactly for `k = (0, PREDICATE_ID, IN)`, a key
that the constructor builds; every key of the schema shapes is non-empty:
`(vid, pid, d)` for `vid ≥ 2 ^ 17` with any `pid` (`PREDICATE_ID` included) and
direction, `(0, pid, d)` for `pid ≥ 1`, and `(0, PREDICATE_ID, OUT)`; and in every
store state reached from `refresh()` by insert operations, a chain link that a
successful `insert_key` writes was empty before and holds afterwards the
non-empty value `(num_buckets + last_ext, 0, 0)`, with
`num_buckets + last_ext ≥ 1`. -/
theorem empty_marker_collision (hash_u64 : Nat → Nat) (g0 g : GStore) (cfg : Config g0)
    (hb : Built hash_u64 g0 g) :
    (∀ k : ikey_t, k.is_empty = true ↔ k = ⟨0, PREDICATE_ID, IN⟩) ∧
    ikey_t.make 0 PREDICATE_ID IN = .ok ⟨0, PREDICATE_ID, IN⟩ ∧
    (∀ vid pid d k, 2 ^ NBITS_IDX ≤ vid → ikey_t.make vid pid d = .ok k →
      k.is_empty = false) ∧
    (∀ pid d k, 1 ≤ pid → ikey_t.make 0 pid d = .ok k → k.is_empty = false) ∧
    (∃ k, ikey_t.make 0 PREDICATE_ID OUT = .ok k ∧ k.is_empty = false) ∧
    (∀ key check_dup s g2, insert_key hash_u64 g key check_dup = .ok (s, g2) →
      ∀ b, g2.link b ≠ g.link b →
        (g.link b).is_empty = true ∧ g2.link b = ⟨g.num_buckets + g.last_ext, 0, 0⟩ ∧
        1 ≤ g.num_buckets + g.last_ext ∧ (g2.link b).is_empty = false) := by
  have wf := hb.wellformed cfg
  have hmake : ∀ v p d k, ikey_t.make v p d = .ok k → k = ⟨v, p, d⟩ := by
    intro v p d k h
    unfold ikey_t.make at h
    simp only at h
    split_ifs at h with hc
    injection h with h
    subst h
    obtain ⟨h1, h2, h3⟩ := hc
    rw [h1, h2, h3]
  refine ⟨fun k => ikey_t.is_empty_iff k, by decide, ?_, ?_, ⟨⟨0, PREDICATE_ID, OUT⟩, by decide,
    by decide⟩, ?_⟩
  · intro vid pid d k hv h
    rw [hmake _ _ _ _ h]
    have : vid ≠ 0 := by
      unfold NBITS_IDX at hv
      omega
    simp [ikey_t.is_empty, this]
  · intro pid d k hp h
    rw [hmake _ _ _ _ h]
    have : pid ≠ 0 := by omega
    simp [ikey_t.is_empty, this]
  · intro key cd s g2 h b hne
    obtain ⟨h1, h2, _, _, _⟩ := insert_key_link wf h b hne
    have hpos := wf.nb_pos
    refine ⟨(ikey_t.is_empty_iff _).2 h1, h2, by omega, ?_⟩
    rw [h2]
    have : g.used ≠ 0 := by unfold GStore.used; omega
    simp [ikey_t.is_empty, this]

set_option maxRecDepth 100000 in
theorem empty_marker_collision_witness :
    Config demo_store ∧ Built demo_hash demo_store demo_full_store ∧
    insert_key demo_hash demo_full_store demo_eighth_key true = .ok demo_grown ∧
    demo_grown.2.link 0 ≠ demo_full_store.link 0 ∧
    ((demo_full_store.link 0).is_empty = true ∧
      demo_grown.2.link 0 = ⟨demo_full_store.num_buckets + demo_full_store.last_ext, 0, 0⟩ ∧
      1 ≤ demo_full_store.num_buckets + demo_full_store.last_ext ∧
      (demo_grown.2.link 0).is_empty = false) :=
  ⟨demo_config, demo_full_built, demo_grown_step, by decide,
    (empty_marker_collision demo_hash demo_store demo_full_store demo_config
      demo_full_built).2.2.2.2.2 demo_eighth_key true demo_grown.1 demo_grown.2
      demo_grown_step 0 (by decide)⟩

set_option maxRecDepth 100000 in
/-- C35 fails at an empty string sent at the end of a local ring.  On a ring of
56 bytes, a `send` of eight bytes, its `fetch`, a second `send` of eight bytes
and a `send` of the empty string lead to a state in which the frame of the
second string, not yet fetched, is overwritten: before the last `send` the
`check` is true and a `fetch` would return the string, after it the ring is
zero at the head and `check` is false.  On a ring of 32 bytes whose writer has
words of value 8 in memory behind its strings, a `send` of eight bytes, its
`fetch`, a `send` of the empty string and a `fetch` lead to a state with the
head and the published head at 48 and the tail at 40. -/
theorem ring_cursor_overrun :
    Reached (demo_adaptor 56) (demo_adaptor 56) 0 pending_ring ∧
    pending_ring.positions = (48, 24, 24) ∧
    RDMA_Adaptor.check (demo_adaptor 56) pending_ring = true ∧
    (RDMA_Adaptor.fetch (demo_adaptor 56) 1 pending_ring).bind (fun x => .ok x.1)
      = .ok (demo_payload 8) ∧
    Reached (demo_adaptor 56) (demo_adaptor 56) 0 wiped_ring ∧
    wiped_ring.positions = (64, 24, 24) ∧
    RDMA_Adaptor.check (demo_adaptor 56) wiped_ring = false ∧
    Reached (used_adaptor 32) (used_adaptor 32) 0 overrun_ring ∧
    overrun_ring.positions = (40, 48, 48) := by
  have p1 : Reached (demo_adaptor 56) (demo_adaptor 56) 0
      (sent_ring (demo_adaptor 56) (Ring.at_pos 0) (demo_payload 8)) :=
    Reached.send (demo_payload 8) _ (Reached.init fun _ => 0) (by decide) (by decide)
      (Outcome.ok_get (by decide) (false, Ring.at_pos 0))
  have p2 : Reached (demo_adaptor 56) (demo_adaptor 56) 0
      (fetched_ring (demo_adaptor 56)
        (sent_ring (demo_adaptor 56) (Ring.at_pos 0) (demo_payload 8))) :=
    Reached.fetch _ 1 p1 (by decide) (Outcome.ok_get (by decide) ([], Ring.at_pos 0))
  have p3 : Reached (demo_adaptor 56) (demo_adaptor 56) 0 pending_ring :=
    Reached.send (demo_payload 8) _ p2 (by decide) (by decide)
      (Outcome.ok_get (by decide) (false, Ring.at_pos 0))
  have p4 : Reached (demo_adaptor 56) (demo_adaptor 56) 0 wiped_ring :=
    Reached.send [] _ p3 (by decide) (by decide)
      (Outcome.ok_get (by decide) (false, Ring.at_pos 0))
  have q1 : Reached (used_adaptor 32) (used_adaptor 32) 0
      (sent_ring (used_adaptor 32) (Ring.at_pos 0) (demo_payload 8)) :=
    Reached.send (demo_payload 8) _ (Reached.init fun _ => 0) (by decide) (by decide)
      (Outcome.ok_get (by decide) (false, Ring.at_pos 0))
  have q2 : Reached (used_adaptor 32) (used_adaptor 32) 0
      (fetched_ring (used_adaptor 32)
        (sent_ring (used_adaptor 32) (Ring.at_pos 0) (demo_payload 8))) :=
    Reached.fetch _ 1 q1 (by decide) (Outcome.ok_get (by decide) ([], Ring.at_pos 0))
  have q3 : Reached (used_adaptor 32) (used_adaptor 32) 0
      (sent_ring (used_adaptor 32) (fetched_ring (used_adaptor 32)
        (sent_ring (used_adaptor 32) (Ring.at_pos 0) (demo_payload 8))) []) :=
    Reached.send [] _ q2 (by decide) (by decide)
      (Outcome.ok_get (by decide) (false, Ring.at_pos 0))
  have q4 : Reached (used_adaptor 32) (used_adaptor 32) 0 overrun_ring :=
    Reached.fetch _ 1 q3 (by decide) (Outcome.ok_get (by decide) ([], Ring.at_pos 0))
  exact ⟨p3, by decide, by decide, by decide, p4, by decide, by decide, q4, by decide⟩

set_option maxRecDepth 100000 in
/-- C39 fails on a local ring whose tail is eight bytes before the end of the
ring.  On a ring of 128 bytes, all zero, an empty `send` at head = tail = 0
returns true and moves the tail to 16, and the `tryrecv` that follows returns
false and leaves the head at 0, as the claim says; the same on a remote ring at
head = tail = 120.  On the local ring at head = tail = 120, which five rounds of
a `send` of eight bytes and a `fetch` reach, `send("")` returns true and moves
the tail to 136, but its copy takes the wrap-around branch and fills the ring
with what lies behind the string: when that memory holds words of value 8,
`check` is true afterwards, and `tryrecv` returns true and moves the head to
144; when it holds zero bytes, `check` is false and `tryrecv` returns false. -/
theorem empty_payload_seen_at_ring_end :
    send_tryrecv (demo_adaptor 128) (demo_adaptor 128) (Ring.at_pos 0) []
      = .ok (true, false, 16, 0) ∧
    send_tryrecv (peer_adaptor 128) (demo_adaptor 128) (Ring.at_pos 120) []
      = .ok (true, false, 136, 120) ∧
    (round_trips (used_adaptor 128) (used_adaptor 128) 5 (Ring.at_pos 0)).bind
      (fun r => .ok r.positions) = .ok (120, 120, 120) ∧
    ((round_trips (used_adaptor 128) (used_adaptor 128) 5 (Ring.at_pos 0)).bind
      fun r => send_tryrecv (used_adaptor 128) (used_adaptor 128) r [])
      = .ok (true, true, 136, 144) ∧
    send_tryrecv (used_adaptor 128) (used_adaptor 128) (Ring.at_pos 120) []
      = .ok (true, true, 136, 144) ∧
    ((RDMA_Adaptor.send (used_adaptor 128) 0 (Ring.at_pos 120) []).bind
      fun x => .ok (RDMA_Adaptor.check (used_adaptor 128) x.2)) = .ok true ∧
    send_tryrecv (demo_adaptor 128) (demo_adaptor 128) (Ring.at_pos 120) []
      = .ok (true, false, 136, 120) := by
  refine ⟨by decide, by decide, by decide, by decide, by decide, by decide, by decide⟩

/-- C32: the verifier passes on valid stores.  For well-formed sorted streams
`spo` and `ops`, with `Ty` the set of the type ids (the objects of the type
triples are in it, no predicate of another triple is), `gstore_check(true, true)`
returns after a bulk load (`refresh`, `insert_normal`, `insert_index`) and every
report in its log comes from a check of `VERSATILE`, none from `idx_check_indir`,
`idx_check_outdir`, `nt_check` or `np_check`; in the dynamic build the same
holds after the bulk load followed by any sequence of `insert_triple_out` and
`insert_triple_in` calls of well-formed triples, whether or not the streams hold
a type triple or any triple at all.  The allocator keeps its blocks apart
(`Malloc_OK`), starts empty and keeps its blocks in `merge_freelists`. -/
theorem verifier_passes_on_valid_stores {σ : Type} (E : DynEnv σ)
    (blocks : σ → List (Nat × Nat)) (ok : Malloc_OK E blocks) (merge_freelists : σ → σ)
    (hmerge : ∀ h, blocks (merge_freelists h) = blocks h) (hash_u64 : Nat → Nat)
    (versatile : Bool) (g0 : GStore) (cfg : Config g0) (heap : σ) (hheap : blocks heap = [])
    (spo ops : List triple_t) (st : Streams spo ops) (tid : Int) (calls : List Call)
    (hw : ∀ c, c ∈ calls → c.triple.wellformed) (Ty : Nat → Prop)
    (hT : ∀ u, u ∈ spo → u.p = TYPE_ID → Ty u.o)
    (hP : ∀ u, u ∈ spo → u.p ≠ TYPE_ID → ¬ Ty u.p)
    (hT2 : ∀ c, c ∈ calls → c.out = true → c.triple.p = TYPE_ID → Ty c.triple.o)
    (hP2 : ∀ c, c ∈ calls → c.out = true → c.triple.p ≠ TYPE_ID → ¬ Ty c.triple.p) :
    (∀ g, bulk_load hash_u64 versatile g0 spo ops = .ok g →
      ∃ log, gstore_check hash_u64 versatile g true true = .ok (0, log) ∧
        (∀ e, e ∈ log → e.site.versatile = true) ∧ (versatile = false → log = [])) ∧
    (∀ st1 st2,
      DStore.bulk_load E merge_freelists hash_u64 versatile g0 heap spo ops tid = .ok st1 →
      run_calls E hash_u64 versatile st1 calls = .ok st2 →
      ∃ log, gstore_check hash_u64 versatile st2.g true true = .ok (0, log) ∧
        (∀ e, e ∈ log → e.site.versatile = true) ∧ (versatile = false → log = [])) :=
  ⟨fun _ h => bulk_load_clean hash_u64 versatile g0 spo ops cfg st hT hP h,
    fun _ _ h1 h2 => dyn_load_calls_clean ok hmerge cfg hheap st hT hP hw hT2 hP2 h1 h2⟩

set_option maxRecDepth 100000 in
theorem verifier_passes_on_valid_stores_witness :
    (∃ log, gstore_check demo_hash true demo_loaded true true = .ok (0, log) ∧
      ∀ e, e ∈ log → e.site.versatile = true) ∧
    (∃ log, gstore_check demo_hash true demo_dyn_final.g true true = .ok (0, log) ∧
      ∀ e, e ∈ log → e.site.versatile = true) ∧
    (vals demo_hash demo_void_loaded.g ⟨0, TYPE_ID, OUT⟩ = [] ∧
      check_key_exist demo_hash demo_void_loaded.g ⟨0, TYPE_ID, OUT⟩ = .ok true) ∧
    (∃ log, gstore_check demo_hash true demo_void_final.g true true = .ok (0, log) ∧
      ∀ e, e ∈ log → e.site.versatile = true) := by
  have hw : ∀ c, c ∈ demo_late_calls → c.triple.wellformed := by
    intro c hc
    simp only [demo_late_calls, List.mem_cons, List.mem_singleton, List.not_mem_nil,
      or_false] at hc
    rcases hc with rfl | rfl | rfl <;> (simp only [triple_t.wellformed]; decide)
  have hT : ∀ u, u ∈ demo_triples → u.p = TYPE_ID → (fun t : Nat => t = 2) u.o := by
    intro u hu
    simp only [demo_triples, List.mem_cons, List.mem_singleton, List.not_mem_nil,
      or_false] at hu
    rcases hu with rfl | rfl <;> decide
  have hP : ∀ u, u ∈ demo_triples → u.p ≠ TYPE_ID → ¬ (fun t : Nat => t = 2) u.p := by
    intro u hu
    simp only [demo_triples, List.mem_cons, List.mem_singleton, List.not_mem_nil,
      or_false] at hu
    rcases hu with rfl | rfl <;> decide
  have hT2 : ∀ c, c ∈ demo_late_calls → c.out = true → c.triple.p = TYPE_ID →
      (fun t : Nat => t = 2) c.triple.o := by
    intro c hc
    simp only [demo_late_calls, List.mem_cons, List.mem_singleton, List.not_mem_nil,
      or_false] at hc
    rcases hc with rfl | rfl | rfl <;> decide
  have hP2 : ∀ c, c ∈ demo_late_calls → c.out = true → c.triple.p ≠ TYPE_ID →
      ¬ (fun t : Nat => t = 2) c.triple.p := by
    intro c hc
    simp only [demo_late_calls, List.mem_cons, List.mem_singleton, List.not_mem_nil,
      or_false] at hc
    rcases hc with rfl | rfl | rfl <;> decide
  have h := verifier_passes_on_valid_stores block_env id block_malloc_ok id (fun _ => rfl)
    demo_hash true demo_store demo_config [] rfl demo_triples demo_triples demo_streams 0
    demo_late_calls hw (fun t => t = 2) hT hP hT2 hP2
  have h0 := verifier_passes_on_valid_stores block_env id block_malloc_ok id (fun _ => rfl)
    demo_hash true demo_store demo_config [] rfl [] [] demo_void_streams 0
    demo_late_calls hw (fun t => t = 2) (fun u hu => absurd hu (List.not_mem_nil _))
    (fun u hu => absurd hu (List.not_mem_nil _)) hT2 hP2
  obtain ⟨l1, a1, a2, _⟩ := h.1 demo_loaded (Outcome.ok_get (by decide) (refresh demo_store))
  obtain ⟨l2, b1, b2, _⟩ := h.2 demo_dyn_loaded demo_dyn_final demo_dyn_loaded_run
    demo_dyn_final_run
  obtain ⟨l3, c1, c2, _⟩ := h0.2 demo_void_loaded demo_void_final demo_void_loaded_run
    demo_void_final_run
  exact ⟨⟨l1, a1, a2⟩, ⟨l2, b1, b2⟩, ⟨by decide, by decide⟩,
    ⟨l3, c1, c2⟩⟩

end Wukong
